import Mathlib

/-!
Ratchet: idempotent-region analysis.

A shallow embedding of the LLVM passes of the Ratchet compiler that decide where
idempotence boundaries go (`MemoryIdempotenceAnalysis.cpp`) and that query the
regions they delimit (`MachineIdempotentRegions.{h,cpp}`), together with
theorems about them.

Conventions of the embedding.

* A basic block is a list of instructions plus its predecessor and successor
  lists; a function is a list of blocks and block `0` is the entry block.
* An `Instruction *` or `BasicBlock::iterator` is an `InstPos`: the block number
  and the index of the instruction in the block; index `length` is `end()`.
* Assertion failures and undefined behaviour (running an iterator off a block,
  dereferencing a null node) are the result `none`.
* A `SmallVector` used as a stack is a list whose head is the back of the vector.
* LLVM analyses consumed by the passes (alias analysis, dominator tree, loop
  info) are explicit parameters.
-/

namespace Ratchet

/-! ## Program representation (LLVM IR level) -/

/-- An instruction pointer or block iterator: block number and index in the block. -/
structure InstPos where
  bb : Nat
  idx : Nat
deriving DecidableEq, Repr

/-- The instruction classes that the analysis distinguishes. -/
inductive Instruction where
  | load (isVolatile isAtomic : Bool)
  | store (isVolatile isAtomic pointerIsGlobal : Bool)
  | call (isTailCall : Bool)
  | invoke
  | vaarg
  | fence
  | cmpxchg
  | atomicrmw
  | other
deriving DecidableEq, Repr

/-- A basic block: its instructions and its CFG edges. -/
structure BasicBlock where
  insts : List Instruction
  preds : List Nat
  succs : List Nat
deriving DecidableEq, Repr

/-- A function: its basic blocks; block `0` is the entry block. -/
structure Function where
  blocks : List BasicBlock
deriving DecidableEq, Repr

/-- The instruction at a position, if the position designates one. -/
def Function.inst? (F : Function) (p : InstPos) : Option Instruction :=
  match F.blocks[p.bb]? with
  | some B => B.insts[p.idx]?
  | none => none

/-- Result of `isa<LoadInst>`. -/
def Instruction.isLoad : Instruction → Bool
  | .load _ _ => true
  | _ => false

/-- Result of `isa<StoreInst>`. -/
def Instruction.isStore : Instruction → Bool
  | .store _ _ _ => true
  | _ => false

/-- Result of `CallSite(I)`: calls and invokes. -/
def Instruction.isCallSite : Instruction → Bool
  | .call _ => true
  | .invoke => true
  | _ => false

/-- Result of `isa<GlobalValue>(Store->getPointerOperand())`. -/
def Instruction.storesToGlobal : Instruction → Bool
  | .store _ _ g => g
  | _ => false

/-- `forcesCut` of MemoryIdempotenceAnalysis.cpp. -/
def forcesCut : Instruction → Bool
  | .load v _ => v
  | .store v _ _ => v
  | .call t => !t
  | .invoke => true
  | .vaarg => true
  | .fence => true
  | .cmpxchg => true
  | .atomicrmw => true
  | .other => false

/-! ## Analyses consumed by the pass -/

/-- Alias analysis: `mayRef load store` is
`AA_->getModRefInfo(load, Pointer, PointerSize) & AliasAnalysis::Ref` for the
pointer and size of `store`. -/
structure AliasAnalysis where
  mayRef : InstPos → InstPos → Bool

/-- A dominator tree node with its parent chain: the list
`[BB, idom BB, idom (idom BB), ..., root]`; the empty list is the null node. -/
abbrev DomTreeNode := List Nat

/-- The dominator tree: `getNode BB` is null (empty) for an unreachable block. -/
structure DominatorTree where
  getNode : Nat → DomTreeNode

/-- `DomTreeNode::getIDom`. -/
def DomTreeNode.getIDom (N : DomTreeNode) : DomTreeNode := N.tail

/-- `DominatorTree::dominates(const DomTreeNode *A, const DomTreeNode *B)`:
a node dominates itself, an unreachable node is dominated by anything and
dominates nothing, otherwise `A` must be met walking up from `B`. -/
def DominatorTree.dominatesNode (A B : DomTreeNode) : Bool :=
  match A, B with
  | [], [] => true
  | _, [] => true
  | [], _ :: _ => false
  | a :: _, b :: bs => a == b || bs.contains a

/-- `DominatorTree::dominates(const Instruction *Def, const Instruction *User)`
for two instructions of one block (the only use the pass makes of it). -/
def DominatorTree.dominates (DT : DominatorTree) (Def User : InstPos) : Bool :=
  if DT.getNode User.bb = [] then true
  else if DT.getNode Def.bb = [] then false
  else if Def = User then false
  else decide (Def.idx < User.idx)

/-- Loop information. -/
structure LoopInfo where
  getLoopFor : Nat → Option Nat
  subLoops : Nat → List Nat
  getLoopPreheader : Nat → Option Nat
  getLoopDepth : Nat → Nat

/-- `isSubloopPreheader` of MemoryIdempotenceAnalysis.cpp. -/
def isSubloopPreheader (BB : Nat) (LI : LoopInfo) : Bool :=
  match LI.getLoopFor BB with
  | some L => (LI.subLoops L).any (fun I => LI.getLoopPreheader I == some BB)
  | none => false

/-! ## CandidateInfo -/

abbrev AntidependencePairTy := InstPos × InstPos
abbrev AntidependencePathTy := List InstPos

/-- `CandidateInfo`: the bit-fields of `PriorityElements_` are kept as their
raw unsigned contents; a path is named by its index in `AntidependencePaths_`. -/
structure CandidateInfo where
  Candidate_ : InstPos
  UnintersectedPaths_ : List Nat
  IntersectedPaths : Nat
  IsSubloopPreheader : Nat
  IsAntidependentStore : Nat
  UnintersectedPaths : Nat
  LoopDepth : Nat
deriving DecidableEq, Repr

/-- The 64-bit word `Priority_` overlaid on the bit-fields (little endian:
the first field is the least significant). -/
def CandidateInfo.Priority_ (C : CandidateInfo) : Nat :=
  C.IntersectedPaths + 2 ^ 16 * C.IsSubloopPreheader + 2 ^ 24 * C.IsAntidependentStore
    + 2 ^ 32 * C.UnintersectedPaths + 2 ^ 48 * C.LoopDepth

/-- `CandidateInfo::compare`. -/
def CandidateInfo.compare (L R : CandidateInfo) : Bool :=
  decide (L.Priority_ < R.Priority_)

/-- The constructor of `CandidateInfo`. -/
def CandidateInfo.new (Candidate : InstPos) (LoopDepth : Nat) (IsSubloopPreheader : Bool) :
    CandidateInfo :=
  { Candidate_ := Candidate
    UnintersectedPaths_ := []
    IntersectedPaths := 0
    IsSubloopPreheader := if IsSubloopPreheader then 1 else 0
    IsAntidependentStore := 0
    UnintersectedPaths := 0
    LoopDepth := (4294967295 - LoopDepth % 4294967296) % 65536 }

/-- `CandidateInfo::size`. -/
def CandidateInfo.size (C : CandidateInfo) : Nat := C.UnintersectedPaths_.length

/-- `CandidateInfo::add`; `PathId` names the path and `First` is `*Path.begin()`. -/
def CandidateInfo.add (C : CandidateInfo) (PathId : Nat) (First : InstPos) :
    Option CandidateInfo :=
  let C1 := if C.Candidate_ = First then { C with IsAntidependentStore := 1 } else C
  let C2 := { C1 with UnintersectedPaths := (C1.UnintersectedPaths + 1) % 65536 }
  if PathId ∈ C2.UnintersectedPaths_ then none
  else some { C2 with UnintersectedPaths_ := C2.UnintersectedPaths_ ++ [PathId] }

/-- `CandidateInfo::remove`. -/
def CandidateInfo.remove (C : CandidateInfo) (PathId : Nat) : Option CandidateInfo :=
  let C1 := { C with
    UnintersectedPaths := (C.UnintersectedPaths + 65535) % 65536
    IntersectedPaths := (C.IntersectedPaths + 1) % 65536 }
  if C1.UnintersectedPaths < 32768 ∧ C1.IntersectedPaths < 32768 then
    if PathId ∈ C1.UnintersectedPaths_ then
      let C2 := { C1 with UnintersectedPaths_ := C1.UnintersectedPaths_.erase PathId }
      if C2.UnintersectedPaths = C2.UnintersectedPaths_.length then some C2 else none
    else none
  else none

/-! ## MemoryIdempotenceAnalysisImpl -/

/-- The data members of `MemoryIdempotenceAnalysisImpl` that the pass computes. -/
structure MemoryIdempotenceAnalysisImpl where
  CutSet_ : List InstPos
  CutMap_ : List (InstPos × List InstPos)
  AntidependencePairs_ : List AntidependencePairTy
  AntidependencePaths_ : List AntidependencePathTy
deriving DecidableEq, Repr

/-- The state after `releaseMemory`. -/
def MemoryIdempotenceAnalysisImpl.releaseMemory : MemoryIdempotenceAnalysisImpl :=
  { CutSet_ := [], CutMap_ := [], AntidependencePairs_ := [], AntidependencePaths_ := [] }

/-- `SmallPtrSet::insert` on a set kept as a duplicate-free list. -/
def setInsert {α : Type} [DecidableEq α] (s : List α) (a : α) : List α :=
  if a ∈ s then s else s ++ [a]

/-- `forceCut`: nothing for call sites, otherwise the next instruction is cut. -/
def forceCut (F : Function) (I : InstPos) (S : MemoryIdempotenceAnalysisImpl) :
    MemoryIdempotenceAnalysisImpl :=
  match F.inst? I with
  | some inst =>
    if inst.isCallSite then S
    else { S with CutSet_ := setInsert S.CutSet_ ⟨I.bb, I.idx + 1⟩ }
  | none => S

/-- The `while (I != E)` loop of `scanForAliasingLoad`, by the index of `I`.
The flag tells whether the loop returned `true`. -/
def scanForAliasingLoadLoop (AA : AliasAnalysis) (B : BasicBlock) (bb E : Nat)
    (Store : InstPos) (Pairs : List AntidependencePairTy) :
    Nat → Option (Bool × List AntidependencePairTy)
  | 0 => if E = 0 then some (false, Pairs) else none
  | i + 1 =>
    if i + 1 = E then some (false, Pairs)
    else
      match B.insts[i]? with
      | none => none
      | some inst =>
        if forcesCut inst then some (true, Pairs)
        else if inst.isLoad && AA.mayRef ⟨bb, i⟩ Store then
          some (true, Pairs ++ [(⟨bb, i⟩, Store)])
        else scanForAliasingLoadLoop AA B bb E Store Pairs i

/-- `scanForAliasingLoad(I, E, Store)` for iterators `I`, `E` of block `bb`. -/
def scanForAliasingLoad (F : Function) (AA : AliasAnalysis) (bb I E : Nat)
    (Store : InstPos) (Pairs : List AntidependencePairTy) :
    Option (Bool × List AntidependencePairTy) :=
  match F.blocks[bb]? with
  | none => none
  | some B =>
    match scanForAliasingLoadLoop AA B bb E Store Pairs I with
    | none => none
    | some (true, Pairs1) => some (true, Pairs1)
    | some (false, Pairs1) =>
      if E < B.insts.length then
        if bb = 0 then
          match F.inst? Store with
          | some SI =>
            if SI.storesToGlobal then some (true, Pairs1 ++ [(⟨bb, E⟩, Store)])
            else some (false, Pairs1)
          | none => none
        else some (false, Pairs1)
      else none

/-- The loop over the predecessors at the end of an iteration of
`findAntidependencePairs`. -/
def pushPreds (F : Function) :
    List Nat → List (Nat × Nat) → List Nat → Option (List (Nat × Nat) × List Nat)
  | [], Worklist, Visited => some (Worklist, Visited)
  | P :: Ps, Worklist, Visited =>
    if P ∈ Visited then pushPreds F Ps Worklist Visited
    else
      match F.blocks[P]? with
      | none => none
      | some B => pushPreds F Ps ((P, B.insts.length) :: Worklist) (P :: Visited)

/-- The `do ... while (!Worklist.empty())` loop of `findAntidependencePairs`.
A work item is a block and the index of the iterator in it. -/
def findAntidependencePairsLoop (F : Function) (AA : AliasAnalysis) (Write : InstPos) :
    Nat → List (Nat × Nat) → List Nat → List AntidependencePairTy →
    Option (List AntidependencePairTy)
  | 0, _, _, _ => none
  | _ + 1, [], _, Pairs => some Pairs
  | fuel + 1, (BB, I) :: Worklist, Visited, Pairs =>
    match F.blocks[BB]? with
    | none => none
    | some B =>
      let E := if BB = Write.bb ∧ I = B.insts.length then Write.idx else 0
      let scanned :=
        match F.inst? Write with
        | some (.store _ _ _) => scanForAliasingLoad F AA BB I E Write Pairs
        | _ => some (false, Pairs)
      match scanned with
      | none => none
      | some (true, Pairs1) => findAntidependencePairsLoop F AA Write fuel Worklist Visited Pairs1
      | some (false, Pairs1) =>
        match pushPreds F B.preds Worklist Visited with
        | none => none
        | some (Worklist1, Visited1) =>
          findAntidependencePairsLoop F AA Write fuel Worklist1 Visited1 Pairs1

/-- `findAntidependencePairs(Write)`. -/
def findAntidependencePairs (F : Function) (AA : AliasAnalysis) (Write : InstPos)
    (Pairs : List AntidependencePairTy) : Option (List AntidependencePairTy) :=
  findAntidependencePairsLoop F AA Write (F.blocks.length + 2) [(Write.bb, Write.idx)] [] Pairs

/-- Scan `while (Cursor != BB->begin()) if (isa<StoreInst>(--Cursor)) push`. -/
def scanStoresToBegin (B : BasicBlock) (bb : Nat) :
    Nat → AntidependencePathTy → Option AntidependencePathTy
  | 0, Path => some Path
  | c + 1, Path =>
    match B.insts[c]? with
    | none => none
    | some inst =>
      scanStoresToBegin B bb c (if inst.isStore then Path ++ [⟨bb, c⟩] else Path)

/-- The block-local loop `while (--Cursor != Load) if (isa<StoreInst>(Cursor)) push`. -/
def scanStoresToLoad (B : BasicBlock) (bb Load : Nat) :
    Nat → AntidependencePathTy → Option AntidependencePathTy
  | 0, _ => none
  | c + 1, Path =>
    if c = Load then some Path
    else
      match B.insts[c]? with
      | none => none
      | some inst =>
        scanStoresToLoad B bb Load c (if inst.isStore then Path ++ [⟨bb, c⟩] else Path)

/-- The non-local `while (!DT_->dominates(DTNode, LDTNode))` loop. -/
def nonLocalPath (F : Function) (LDTNode : DomTreeNode) :
    DomTreeNode → Nat → Nat → AntidependencePathTy → Option AntidependencePathTy
  | [], _, _, Path => if DominatorTree.dominatesNode [] LDTNode then some Path else none
  | d :: rest, BB, Cursor, Path =>
    if DominatorTree.dominatesNode (d :: rest) LDTNode then some Path
    else
      match F.blocks[BB]? with
      | none => none
      | some B =>
        match scanStoresToBegin B BB Cursor Path with
        | none => none
        | some Path1 =>
          match rest with
          | [] => some Path1
          | d1 :: _ =>
            match F.blocks[d1]? with
            | none => none
            | some B1 => nonLocalPath F LDTNode rest d1 B1.insts.length Path1

/-- The body of the loop of `computeAntidependencePaths` for one pair. -/
def computeAntidependencePath (F : Function) (DT : DominatorTree)
    (Pair : AntidependencePairTy) : Option AntidependencePathTy :=
  let Load := Pair.1
  let Store := Pair.2
  let Path : AntidependencePathTy := [Store]
  if Store.bb = Load.bb ∧ DT.dominates Load Store = true then
    match F.blocks[Store.bb]? with
    | none => none
    | some B => scanStoresToLoad B Store.bb Load.idx Store.idx Path
  else
    nonLocalPath F (DT.getNode Load.bb) (DT.getNode Store.bb) Store.bb Store.idx Path

/-- `computeAntidependencePaths`: one path per pair, appended in order. -/
def computeAntidependencePaths (F : Function) (DT : DominatorTree) :
    List AntidependencePairTy → List AntidependencePathTy → Option (List AntidependencePathTy)
  | [], Paths => some Paths
  | Pair :: Pairs, Paths =>
    match computeAntidependencePath F DT Pair with
    | none => none
    | some Path => computeAntidependencePaths F DT Pairs (Paths ++ [Path])

/-! ## The hitting set -/

/-- Iteration orders of the pointer-keyed hash containers, which the program
text does not determine: `mapOrder` is the order in which `CandidateInfoMap`
enumerates its keys (given in insertion order) and `setOrder` the order in
which a `SmallPtrSet` of paths enumerates its members. -/
structure IterationOrder where
  mapOrder : List InstPos → List InstPos
  setOrder : List Nat → List Nat

/-- `CandidateInfoMapTy`: the candidates in insertion order, keyed by `Candidate_`. -/
abbrev CandidateInfoMapTy := List CandidateInfo

/-- Lookup `CandidateInfoMap[Candidate]` of an existing entry. -/
def CandidateInfoMapTy.lookup (M : CandidateInfoMapTy) (Candidate : InstPos) :
    Option CandidateInfo :=
  M.find? (fun C => C.Candidate_ = Candidate)

/-- Update in place of the object that `CandidateInfoMap[Candidate]` points to. -/
def CandidateInfoMapTy.update (M : CandidateInfoMapTy) (C : CandidateInfo) :
    CandidateInfoMapTy :=
  M.map (fun X => if X.Candidate_ = C.Candidate_ then C else X)

/-- The inner loop of the candidate search: every instruction of one path. -/
def addPathCandidates (LI : LoopInfo) (PathId : Nat) (First : InstPos) :
    List InstPos → CandidateInfoMapTy → Option CandidateInfoMapTy
  | [], M => some M
  | Candidate :: Rest, M =>
    match M.lookup Candidate with
    | some CI =>
      match CI.add PathId First with
      | none => none
      | some CI1 => addPathCandidates LI PathId First Rest (M.update CI1)
    | none =>
      let CI := CandidateInfo.new Candidate (LI.getLoopDepth Candidate.bb)
        (isSubloopPreheader Candidate.bb LI)
      match CI.add PathId First with
      | none => none
      | some CI1 => addPathCandidates LI PathId First Rest (M ++ [CI1])

/-- The outer loop of the candidate search over the paths, `PathId` being the
index of the first path of the list. -/
def findCandidates (LI : LoopInfo) :
    List AntidependencePathTy → Nat → CandidateInfoMapTy → Option CandidateInfoMapTy
  | [], _, M => some M
  | Path :: Paths, PathId, M =>
    match Path with
    | [] => findCandidates LI Paths (PathId + 1) M
    | First :: _ =>
      match addPathCandidates LI PathId First Path M with
      | none => none
      | some M1 => findCandidates LI Paths (PathId + 1) M1

/-- Insertion of one element in front of the first element that is not smaller. -/
def sortInsert (C : CandidateInfo) : List CandidateInfo → List CandidateInfo
  | [] => [C]
  | D :: Ds => if C.Priority_ ≤ D.Priority_ then C :: D :: Ds else D :: sortInsert C Ds

/-- `std::sort(Worklist.begin(), Worklist.end(), CandidateInfo::compare)`: the
result is sorted ascending by priority; elements of equal priority keep the
order in which the map enumerated them. -/
def sortWorklist : List CandidateInfo → List CandidateInfo
  | [] => []
  | C :: Cs => sortInsert C (sortWorklist Cs)

/-- Priority of the candidate that a worklist entry points to. -/
def priorityOf (M : CandidateInfoMapTy) (Candidate : InstPos) : Nat :=
  match M.lookup Candidate with
  | some C => C.Priority_
  | none => 0

/-- `std::lower_bound(Worklist->begin(), Worklist->end(), Value, compare)` as
the usual binary search; `first` and `len` delimit the range still searched. -/
def lowerBoundLoop (M : CandidateInfoMapTy) (Worklist : List InstPos) (Value : Nat) :
    Nat → Nat → Nat → Nat
  | 0, first, _ => first
  | fuel + 1, first, len =>
    if len = 0 then first
    else
      let half := len / 2
      let middle := first + half
      match Worklist[middle]? with
      | some C =>
        if priorityOf M C < Value then
          lowerBoundLoop M Worklist Value fuel (middle + 1) (len - half - 1)
        else lowerBoundLoop M Worklist Value fuel first half
      | none => first

/-- `std::lower_bound` over the whole worklist. -/
def lowerBound (M : CandidateInfoMapTy) (Worklist : List InstPos) (Value : Nat) : Nat :=
  lowerBoundLoop M Worklist Value Worklist.length 0 Worklist.length

/-- The scan `while (*OldPosition != RedundantInfo) ++OldPosition;` over the
suffix of the worklist that starts at `OldPosition`. -/
def findOldPosition (Candidate : InstPos) : List InstPos → Nat → Option Nat
  | [], _ => none
  | C :: Cs, OldPosition =>
    if C = Candidate then some OldPosition else findOldPosition Candidate Cs (OldPosition + 1)

/-- `std::rotate(NewPosition, OldPosition, next(OldPosition))`. -/
def rotate (Worklist : List InstPos) (NewPosition OldPosition : Nat) : List InstPos :=
  Worklist.take NewPosition ++ (Worklist.drop OldPosition).take 1
    ++ (Worklist.drop NewPosition).take (OldPosition - NewPosition)
    ++ Worklist.drop (OldPosition + 1)

/-- `processRedundantCandidate(CandidateInfoMap[Candidate], &Worklist, Path)`. -/
def processRedundantCandidate (M : CandidateInfoMapTy) (Worklist : List InstPos)
    (Candidate : InstPos) (PathId : Nat) : Option (CandidateInfoMapTy × List InstPos) :=
  match M.lookup Candidate with
  | none => none
  | some RedundantInfo =>
    let Start := lowerBound M Worklist RedundantInfo.Priority_
    match findOldPosition Candidate (Worklist.drop Start) Start with
    | none => none
    | some OldPosition =>
      match RedundantInfo.remove PathId with
      | none => none
      | some Removed =>
        let M1 := M.update Removed
        let NewPosition := lowerBound M1 Worklist Removed.Priority_
        if NewPosition ≤ OldPosition then some (M1, rotate Worklist NewPosition OldPosition)
        else none

/-- The loop over the instructions `*J` of one path of the picked candidate. -/
def processPath (Picked : InstPos) (PathId : Nat) :
    List InstPos → CandidateInfoMapTy → List InstPos →
    Option (CandidateInfoMapTy × List InstPos)
  | [], M, Worklist => some (M, Worklist)
  | J :: Js, M, Worklist =>
    if J ≠ Picked then
      match processRedundantCandidate M Worklist J PathId with
      | none => none
      | some (M1, Worklist1) => processPath Picked PathId Js M1 Worklist1
    else processPath Picked PathId Js M Worklist

/-- The loop over the unintersected paths `*I` of the picked candidate;
`Antideps` is the set `CutMap_[Picked]`. -/
def processPaths (Paths : List AntidependencePathTy) (Picked : InstPos) :
    List Nat → CandidateInfoMapTy → List InstPos → List InstPos →
    Option (CandidateInfoMapTy × List InstPos × List InstPos)
  | [], M, Worklist, Antideps => some (M, Worklist, Antideps)
  | I :: Is, M, Worklist, Antideps =>
    match Paths[I]? with
    | none => none
    | some [] => none
    | some (First :: Rest) =>
      match processPath Picked I (First :: Rest) M Worklist with
      | none => none
      | some (M1, Worklist1) =>
        processPaths Paths Picked Is M1 Worklist1 (setInsert Antideps First)

/-- State of the main loop of `computeHittingSet`. -/
structure HittingSetState where
  Map : CandidateInfoMapTy
  Worklist : List InstPos
  CutSet_ : List InstPos
  CutMap_ : List (InstPos × List InstPos)
deriving DecidableEq, Repr

/-- The set `CutMap_[Candidate]`, empty when there is no entry yet. -/
def cutMapLookup (CutMap : List (InstPos × List InstPos)) (Candidate : InstPos) :
    List InstPos :=
  match CutMap.find? (fun e => e.1 = Candidate) with
  | some e => e.2
  | none => []

/-- Store of the set `CutMap_[Candidate]`, creating the entry when needed. -/
def cutMapStore (CutMap : List (InstPos × List InstPos)) (Candidate : InstPos)
    (Antideps : List InstPos) : List (InstPos × List InstPos) :=
  if CutMap.any (fun e => e.1 = Candidate) then
    CutMap.map (fun e => if e.1 = Candidate then (Candidate, Antideps) else e)
  else CutMap ++ [(Candidate, Antideps)]

/-- The main loop `while (!Worklist.empty())` of `computeHittingSet`. -/
def hittingSetLoop (Order : IterationOrder) (Paths : List AntidependencePathTy) :
    Nat → HittingSetState → Option HittingSetState
  | 0, _ => none
  | fuel + 1, S =>
    match S.Worklist.getLast? with
    | none => some S
    | some Picked =>
      let Worklist := S.Worklist.dropLast
      match S.Map.lookup Picked with
      | none => none
      | some Info =>
        if Info.size = 0 then hittingSetLoop Order Paths fuel { S with Worklist := Worklist }
        else
          match processPaths Paths Picked (Order.setOrder Info.UnintersectedPaths_) S.Map Worklist
              (cutMapLookup S.CutMap_ Picked) with
          | none => none
          | some (M1, Worklist1, Antideps) =>
            hittingSetLoop Order Paths fuel
              { Map := M1
                Worklist := Worklist1
                CutSet_ := setInsert S.CutSet_ Picked
                CutMap_ := cutMapStore S.CutMap_ Picked Antideps }

/-- The entries `I->second` of the map for the keys in the order of enumeration. -/
def lookupAll (M : CandidateInfoMapTy) : List InstPos → Option (List CandidateInfo)
  | [] => some []
  | c :: cs =>
    match M.lookup c with
    | none => none
    | some C =>
      match lookupAll M cs with
      | none => none
      | some Cs => some (C :: Cs)

/-- The worklist set-up of `computeHittingSet`: the map is enumerated and the
entries are sorted by priority. -/
def initialWorklist (Order : IterationOrder) (M : CandidateInfoMapTy) : Option (List InstPos) :=
  match lookupAll M (Order.mapOrder (M.map (fun C => C.Candidate_))) with
  | none => none
  | some Infos => some ((sortWorklist Infos).map (fun C => C.Candidate_))

/-- `computeHittingSet`. -/
def computeHittingSet (LI : LoopInfo) (Order : IterationOrder)
    (S : MemoryIdempotenceAnalysisImpl) : Option MemoryIdempotenceAnalysisImpl :=
  match findCandidates LI S.AntidependencePaths_ 0 [] with
  | none => none
  | some M =>
    match initialWorklist Order M with
    | none => none
    | some Worklist =>
      match hittingSetLoop Order S.AntidependencePaths_ (Worklist.length + 1)
          { Map := M, Worklist := Worklist, CutSet_ := S.CutSet_, CutMap_ := S.CutMap_ } with
      | none => none
      | some R => some { S with CutSet_ := R.CutSet_, CutMap_ := R.CutMap_ }

/-! ## runOnFunction -/

/-- All instruction positions of the function in layout order. -/
def Function.positions (F : Function) : List InstPos :=
  (List.range F.blocks.length).flatMap (fun bb =>
    match F.blocks[bb]? with
    | some B => (List.range B.insts.length).map (fun i => InstPos.mk bb i)
    | none => [])

/-- The first loop nest of `runOnFunction`: the forced cuts. -/
def computeForcedCuts (F : Function) :
    List InstPos → MemoryIdempotenceAnalysisImpl → MemoryIdempotenceAnalysisImpl
  | [], S => S
  | I :: Is, S =>
    match F.inst? I with
    | some inst => computeForcedCuts F Is (if forcesCut inst then forceCut F I S else S)
    | none => computeForcedCuts F Is S

/-- The second loop nest of `runOnFunction`: the antidependence pairs of every store. -/
def computePairs (F : Function) (AA : AliasAnalysis) :
    List InstPos → List AntidependencePairTy → Option (List AntidependencePairTy)
  | [], Pairs => some Pairs
  | I :: Is, Pairs =>
    match F.inst? I with
    | some (.store _ _ _) =>
      match findAntidependencePairs F AA I Pairs with
      | none => none
      | some Pairs1 => computePairs F AA Is Pairs1
    | _ => computePairs F AA Is Pairs

/-- `MemoryIdempotenceAnalysisImpl::runOnFunction`. -/
def runOnFunction (F : Function) (AA : AliasAnalysis) (DT : DominatorTree) (LI : LoopInfo)
    (Order : IterationOrder) (S : MemoryIdempotenceAnalysisImpl) :
    Option MemoryIdempotenceAnalysisImpl :=
  let S1 := computeForcedCuts F F.positions S
  match computePairs F AA F.positions S1.AntidependencePairs_ with
  | none => none
  | some Pairs =>
    let S2 := { S1 with AntidependencePairs_ := Pairs }
    if Pairs = [] then some S2
    else
      match computeAntidependencePaths F DT Pairs S2.AntidependencePaths_ with
      | none => none
      | some Paths => computeHittingSet LI Order { S2 with AntidependencePaths_ := Paths }

/-! ## Program representation (machine level) -/

/-- A machine operand. -/
inductive MachineOperand where
  | reg (Reg : Nat) (isDef isUndef isImplicit : Bool)
  | frameIndex (Index : Int)
  | imm (Value : Int)
  | global (Name : String)
  | other
deriving DecidableEq, Repr

/-- What the opcode of a machine instruction is to the region code: the
idempotence boundary `IDEM`, a call, or anything else. -/
inductive MachineOpcode where
  | idem
  | call
  | other
deriving DecidableEq, Repr

/-- A machine instruction with the target queries the passes make of it. -/
structure MachineInstr where
  opcode : MachineOpcode
  mayLoad : Bool
  mayStore : Bool
  isIdentityCopy : Bool
  isKill : Bool
  isCopyLike : Bool
  storeToStackSlot : Option Int
  loadFromStackSlot : Option Int
  operands : List MachineOperand
deriving DecidableEq, Repr

/-- `TII_->isIdemBoundary(MI)`. -/
def MachineInstr.isIdemBoundary (MI : MachineInstr) : Bool := MI.opcode = .idem

/-- `MI->isCall()`. -/
def MachineInstr.isCall (MI : MachineInstr) : Bool := MI.opcode = .call

/-- A machine basic block. -/
structure MachineBasicBlock where
  insts : List MachineInstr
  preds : List Nat
  succs : List Nat
deriving DecidableEq, Repr

/-- A machine function. -/
structure MachineFunction where
  blocks : List MachineBasicBlock
deriving DecidableEq, Repr

/-- The machine instruction at a position, if the position designates one. -/
def MachineFunction.inst? (MF : MachineFunction) (p : InstPos) : Option MachineInstr :=
  match MF.blocks[p.bb]? with
  | some B => B.insts[p.idx]?
  | none => none

/-! ## IdempotentRegion and its iterators -/

/-- `IdempotentRegion`: an identifier and the entry instruction. -/
structure IdempotentRegion where
  ID_ : Nat
  Entry_ : InstPos
deriving DecidableEq, Repr

/-- `IdempotentRegion::dfs_mbb_iterator`. -/
structure dfs_mbb_iterator where
  Region_ : IdempotentRegion
  Valid_ : Bool
  Skip_ : Bool
  Init_ : InstPos
  Start_ : InstPos
  End_ : InstPos
  MBB_ : Nat
  Visited_ : List Nat
  Worklist_ : List Nat
deriving DecidableEq, Repr

/-- `dfs_mbb_iterator::isExit`: calls are treated as exits. -/
def isExit (R : IdempotentRegion) (MI : MachineInstr) (I : InstPos) : Bool :=
  (MI.isIdemBoundary && decide (I ≠ R.Entry_)) || MI.isCall

/-- The loop `while (End_ != MBB_->end() && !isExit(End_)) ++End_;` of `init`:
`rest` are the instructions from `End_` on and the result is the final index. -/
def initEnd (R : IdempotentRegion) (bb : Nat) : List MachineInstr → Nat → Nat
  | [], i => i
  | MI :: rest, i => if isExit R MI ⟨bb, i⟩ then i else initEnd R bb rest (i + 1)

/-- `dfs_mbb_iterator::init(MBB, I)` on a freshly constructed iterator. -/
def dfs_mbb_iterator.init (MF : MachineFunction) (R : IdempotentRegion) (MBB : Nat)
    (I : InstPos) : Option dfs_mbb_iterator :=
  match MF.blocks[MBB]?, MF.inst? I with
  | some B, some MI =>
    if !MI.isIdemBoundary || decide (I = R.Entry_) then
      some
        { Region_ := R, Valid_ := true, Skip_ := false, Init_ := I, Start_ := I
          End_ := ⟨MBB, initEnd R MBB (B.insts.drop I.idx) I.idx⟩
          MBB_ := MBB, Visited_ := [], Worklist_ := [] }
    else
      some
        { Region_ := R, Valid_ := false, Skip_ := false, Init_ := I, Start_ := I, End_ := I
          MBB_ := MBB, Visited_ := [], Worklist_ := [] }
  | _, _ => none

/-- The constructor `dfs_mbb_iterator(Region)` behind `mbb_begin()`. -/
def IdempotentRegion.mbb_begin (MF : MachineFunction) (R : IdempotentRegion) :
    Option dfs_mbb_iterator :=
  dfs_mbb_iterator.init MF R R.Entry_.bb R.Entry_

/-- `dfs_mbb_iterator::computeEnd`: `rest` are the instructions from index `i`
on; the assertion on a wrap to the entry is the result `none`. -/
def computeEnd (R : IdempotentRegion) (Init : InstPos) (bb : Nat) :
    List MachineInstr → Nat → Option Nat
  | [], i => some i
  | MI :: rest, i =>
    if (⟨bb, i⟩ : InstPos) = R.Entry_ then none
    else if (⟨bb, i⟩ : InstPos) = Init || isExit R MI ⟨bb, i⟩ then some i
    else computeEnd R Init bb rest (i + 1)

/-- `dfs_mbb_iterator::isExiting`. -/
def dfs_mbb_iterator.isExiting (MF : MachineFunction) (It : dfs_mbb_iterator) : Option Bool :=
  match MF.blocks[It.MBB_]? with
  | some B => some (decide (It.End_ ≠ ⟨It.MBB_, B.insts.length⟩) || B.succs.isEmpty)
  | none => none

/-- The loop over the successors in `operator++`. -/
def pushSuccs : List Nat → List Nat → List Nat → List Nat × List Nat
  | [], Worklist, Visited => (Worklist, Visited)
  | S :: Ss, Worklist, Visited =>
    if S ∈ Visited then pushSuccs Ss Worklist Visited
    else pushSuccs Ss (S :: Worklist) (S :: Visited)

/-- `dfs_mbb_iterator::operator++`. -/
def dfs_mbb_iterator.next (MF : MachineFunction) (It : dfs_mbb_iterator) :
    Option dfs_mbb_iterator :=
  if It.Valid_ = false then none
  else
    match MF.blocks[It.MBB_]?, It.isExiting MF with
    | some B, some exiting =>
      let pushed :=
        if !It.Skip_ && !exiting then pushSuccs B.succs It.Worklist_ It.Visited_
        else (It.Worklist_, It.Visited_)
      match pushed.1 with
      | [] => some { It with Skip_ := false, Worklist_ := [], Visited_ := pushed.2, Valid_ := false }
      | MBB :: Worklist =>
        match MF.blocks[MBB]? with
        | none => none
        | some B1 =>
          match computeEnd It.Region_ It.Init_ MBB B1.insts 0 with
          | none => none
          | some e =>
            some { It with
              Skip_ := false, Worklist_ := Worklist, Visited_ := pushed.2
              MBB_ := MBB, Start_ := ⟨MBB, 0⟩, End_ := ⟨MBB, e⟩ }
    | _, _ => none

/-- The ranges seen by `for (mbb_iterator RI = ...; RI.isValid(); ++RI)`. -/
def mbbRanges (MF : MachineFunction) :
    Nat → dfs_mbb_iterator → Option (List (InstPos × InstPos))
  | 0, _ => none
  | fuel + 1, It =>
    if It.Valid_ then
      match It.next MF with
      | none => none
      | some It1 =>
        match mbbRanges MF fuel It1 with
        | none => none
        | some Ranges => some ((It.Start_, It.End_) :: Ranges)
    else some []

/-- `IdempotentRegion::dfs_inst_iterator`. -/
structure dfs_inst_iterator where
  MBBIterator_ : dfs_mbb_iterator
  It_ : InstPos
  End_ : InstPos
deriving DecidableEq, Repr

/-- The constructor `dfs_inst_iterator(Region)` behind `inst_begin()`. -/
def IdempotentRegion.inst_begin (MF : MachineFunction) (R : IdempotentRegion) :
    Option dfs_inst_iterator :=
  match R.mbb_begin MF with
  | some It => some { MBBIterator_ := It, It_ := It.Start_, End_ := It.End_ }
  | none => none

/-- The `do ... while (It_ == End_)` loop of `dfs_inst_iterator::operator++`. -/
def nextNonEmptyRange (MF : MachineFunction) : Nat → dfs_inst_iterator → Option dfs_inst_iterator
  | 0, _ => none
  | fuel + 1, I =>
    match I.MBBIterator_.next MF with
    | none => none
    | some M1 =>
      if M1.Valid_ = false then some { I with MBBIterator_ := M1 }
      else if M1.Start_ = M1.End_ then
        nextNonEmptyRange MF fuel { MBBIterator_ := M1, It_ := M1.Start_, End_ := M1.End_ }
      else some { MBBIterator_ := M1, It_ := M1.Start_, End_ := M1.End_ }

/-- `dfs_inst_iterator::operator++`. -/
def dfs_inst_iterator.next (MF : MachineFunction) (I : dfs_inst_iterator) :
    Option dfs_inst_iterator :=
  if I.MBBIterator_.Valid_ = false then none
  else
    match MF.inst? I.It_ with
    | none => none
    | some _ =>
      let I1 := { I with It_ := ⟨I.It_.bb, I.It_.idx + 1⟩ }
      if I1.It_ = I1.End_ then nextNonEmptyRange MF (MF.blocks.length + 2) I1
      else some I1

/-- The instructions seen by `for (inst_iterator I = ...; I.isValid(); ++I)`. -/
def instList (MF : MachineFunction) : Nat → dfs_inst_iterator → Option (List InstPos)
  | 0, _ => none
  | fuel + 1, I =>
    if I.MBBIterator_.Valid_ then
      match I.next MF with
      | none => none
      | some I1 =>
        match instList MF fuel I1 with
        | none => none
        | some Insts => some (I.It_ :: Insts)
    else some []

/-- Number of instructions of the function. -/
def MachineFunction.size (MF : MachineFunction) : Nat :=
  (MF.blocks.map (fun B => B.insts.length)).sum

/-- The instructions yielded by the instruction-level iterator of a region. -/
def IdempotentRegion.instructions (MF : MachineFunction) (R : IdempotentRegion) :
    Option (List InstPos) :=
  match R.inst_begin MF with
  | none => none
  | some I => instList MF (2 * MF.size + 2) I

/-! ## MachineIdempotentRegions -/

/-- The data members of `MachineIdempotentRegions` that hold the regions. -/
structure MachineIdempotentRegions where
  Regions_ : List IdempotentRegion
  EntryToRegionMap_ : List (InstPos × IdempotentRegion)
deriving DecidableEq, Repr

/-- `getRegionAtEntry`: the assertion that the entry is in the map is `none`. -/
def MachineIdempotentRegions.getRegionAtEntry (MIR : MachineIdempotentRegions)
    (MI : InstPos) : Option IdempotentRegion :=
  match MIR.EntryToRegionMap_.find? (fun e => e.1 = MI) with
  | some e => some e.2
  | none => none

/-- The loop `while (It != MBB->rend() && !isRegionEntry(*It)) It++;` on the
reverse iterator whose base has index `base`: the result is the final base,
`0` for `rend()`. -/
def findRegionEntry (B : MachineBasicBlock) : Nat → Option Nat
  | 0 => some 0
  | base + 1 =>
    match B.insts[base]? with
    | none => none
    | some MI => if MI.isIdemBoundary then some (base + 1) else findRegionEntry B base

/-- The loop over the predecessors in `getRegionsContaining`; a work item is the
base index of the reverse iterator and the block. -/
def pushPredsR (MF : MachineFunction) :
    List Nat → List (Nat × Nat) → List Nat → Option (List (Nat × Nat) × List Nat)
  | [], Worklist, Visited => some (Worklist, Visited)
  | P :: Ps, Worklist, Visited =>
    if P ∈ Visited then pushPredsR MF Ps Worklist Visited
    else
      match MF.blocks[P]? with
      | none => none
      | some B => pushPredsR MF Ps ((B.insts.length, P) :: Worklist) (P :: Visited)

/-- The `do ... while (!Worklist.empty())` loop of `getRegionsContaining`. -/
def getRegionsContainingLoop (MF : MachineFunction) (MIR : MachineIdempotentRegions) :
    Nat → List (Nat × Nat) → List Nat → List IdempotentRegion → Option (List IdempotentRegion)
  | 0, _, _, _ => none
  | _ + 1, [], _, Regions => some Regions
  | fuel + 1, (It, MBB) :: Worklist, Visited, Regions =>
    match MF.blocks[MBB]? with
    | none => none
    | some B =>
      match findRegionEntry B It with
      | none => none
      | some 0 =>
        match pushPredsR MF B.preds Worklist Visited with
        | none => none
        | some (Worklist1, Visited1) =>
          getRegionsContainingLoop MF MIR fuel Worklist1 Visited1 Regions
      | some (base + 1) =>
        match MIR.getRegionAtEntry ⟨MBB, base⟩ with
        | none => none
        | some R => getRegionsContainingLoop MF MIR fuel Worklist Visited (Regions ++ [R])

/-- `getRegionsContaining(MI, Regions)`: the final contents of `Regions`. -/
def MachineIdempotentRegions.getRegionsContaining (MF : MachineFunction)
    (MIR : MachineIdempotentRegions) (MI : InstPos) : Option (List IdempotentRegion) :=
  match MF.inst? MI with
  | none => none
  | some _ => getRegionsContainingLoop MF MIR (MF.blocks.length + 2) [(MI.idx, MI.bb)] [] []

/-! ## Verification of an instruction against a live-in set -/

/-- Register information of the target: `isProtectedRegister`. -/
structure TargetRegisterInfo where
  isProtectedRegister : Nat → Bool

/-- `TargetRegisterInfo::isStackSlot`. -/
def isStackSlot (Reg : Nat) : Bool := decide (2 ^ 30 ≤ Reg ∧ Reg < 2 ^ 31)

/-- `TargetRegisterInfo::isPhysicalRegister`, which asserts that the register
is no stack slot. -/
def isPhysicalRegister (Reg : Nat) : Option Bool :=
  if isStackSlot Reg then none else some (decide (0 < Reg ∧ Reg < 2 ^ 31))

/-- `TargetRegisterInfo::index2StackSlot` for a non-negative frame index. -/
def index2StackSlot (FI : Int) : Nat := (FI.toNat + 2 ^ 30) % 2 ^ 32

/-- The end of `verifyOperand` once `Reg` is set: fine when `Reg` is `0`,
otherwise `Reg` must not be live-in. -/
def verifyReg (Reg : Nat) (LiveIns : List Nat) : Bool :=
  if Reg = 0 then true else !(LiveIns.contains Reg)

/-- `MachineIdempotentRegions::verifyOperand`; `Parent` is `MO.getParent()`. -/
def verifyOperand (TRI : TargetRegisterInfo) (Parent : MachineInstr) (MO : MachineOperand)
    (LiveIns : List Nat) : Option Bool :=
  match MO with
  | .reg Reg isDef isUndef isImplicit =>
    if isDef && !(isUndef && Parent.isCopyLike) && !(isImplicit && Parent.isCall) then
      match isPhysicalRegister Reg with
      | none => none
      | some physical =>
        if physical && TRI.isProtectedRegister Reg then some true
        else some (verifyReg Reg LiveIns)
    else some true
  | .frameIndex Index =>
    if Parent.mayStore && decide (Index > 0) then
      some (verifyReg (index2StackSlot Index) LiveIns)
    else some true
  | _ => some true

/-- The loop `Verified &= verifyOperand(...)` over the operands. -/
def verifyOperands (TRI : TargetRegisterInfo) (Parent : MachineInstr) (LiveIns : List Nat) :
    List MachineOperand → Bool → Option Bool
  | [], Verified => some Verified
  | MO :: MOs, Verified =>
    match verifyOperand TRI Parent MO LiveIns with
    | none => none
    | some v => verifyOperands TRI Parent LiveIns MOs (Verified && v)

/-- `MachineIdempotentRegions::verifyInstruction`. -/
def verifyInstruction (TRI : TargetRegisterInfo) (MI : MachineInstr) (LiveIns : List Nat) :
    Option Bool :=
  if MI.isIdentityCopy || MI.isKill then some true
  else verifyOperands TRI MI LiveIns MI.operands true

end Ratchet

namespace Ratchet

/-! ## Vocabulary of the specification: verification of an instruction -/

/-- The locations an instruction defines: the register of every def operand and
the stack slot of every frame-index operand of an instruction that may store. -/
def MachineInstr.definedLocations (MI : MachineInstr) : List Nat :=
  MI.operands.filterMap (fun MO =>
    match MO with
    | .reg Reg isDef _ _ => if isDef then some Reg else none
    | .frameIndex Index => if MI.mayStore then some (index2StackSlot Index) else none
    | _ => none)

/-- The location that `verifyOperand` checks against the live-ins for an
operand, if it checks one: a def register other than register `0`, an undef def
of a copy-like instruction, an implicit def of a call and a protected physical
register; or the stack slot of a frame index greater than `0` of an instruction
that may store. -/
def checkedLocation (TRI : TargetRegisterInfo) (MI : MachineInstr) :
    MachineOperand → Option Nat
  | .reg Reg isDef isUndef isImplicit =>
    if isDef && !(isUndef && MI.isCopyLike) && !(isImplicit && MI.isCall)
        && !(decide (0 < Reg ∧ Reg < 2 ^ 31) && TRI.isProtectedRegister Reg)
        && decide (Reg ≠ 0) then some Reg
    else none
  | .frameIndex Index =>
    if MI.mayStore && decide (Index > 0) && decide (index2StackSlot Index ≠ 0) then
      some (index2StackSlot Index)
    else none
  | _ => none

/-- All locations that `verifyInstruction` checks against the live-ins. -/
def checkedLocations (TRI : TargetRegisterInfo) (MI : MachineInstr) : List Nat :=
  MI.operands.filterMap (checkedLocation TRI MI)

/-- A target whose only protected register is the stack pointer `13`. -/
def exampleTRI : TargetRegisterInfo := ⟨fun Reg => Reg == 13⟩

/-- An instruction that writes the stack pointer `13`. -/
def exampleStackPointerDef : MachineInstr :=
  { opcode := .other, mayLoad := false, mayStore := false, isIdentityCopy := false
    isKill := false, isCopyLike := false, storeToStackSlot := none, loadFromStackSlot := none
    operands := [.reg 13 true false false, .imm 4] }

/-! ## Vocabulary for the hitting set -/

/-- The comparison `compare(Worklist[i], Value)` of the binary search. -/
def ltAt (M : CandidateInfoMapTy) (Worklist : List InstPos) (Value : Nat) (i : Nat) : Prop :=
  ∃ C, Worklist[i]? = some C ∧ priorityOf M C < Value

/-- The worklist is sorted ascending by the priorities found in the map. -/
def SortedBy (M : CandidateInfoMapTy) (Worklist : List InstPos) : Prop :=
  (Worklist.map (priorityOf M)).Pairwise (fun a b => a ≤ b)

/-- The set of unintersected paths of a candidate of the map. -/
def unintOf (M : CandidateInfoMapTy) (Candidate : InstPos) : List Nat :=
  match M.lookup Candidate with
  | some C => C.UnintersectedPaths_
  | none => []

/-- The counters of a candidate agree with its set of unintersected paths and
stay below the number `N` of paths. -/
def CountsOk (N : Nat) (C : CandidateInfo) : Prop :=
  C.UnintersectedPaths = C.UnintersectedPaths_.length ∧ C.UnintersectedPaths_.Nodup ∧
    C.UnintersectedPaths + C.IntersectedPaths ≤ N

/-- The worklist invariant: no candidate twice, sorted by priority, every entry
in the map with consistent counters. -/
def WorklistOk (N : Nat) (M : CandidateInfoMapTy) (Worklist : List InstPos) : Prop :=
  Worklist.Nodup ∧ SortedBy M Worklist ∧
    ∀ c ∈ Worklist, ∃ C, M.lookup c = some C ∧ CountsOk N C

/-- The iteration orders enumerate exactly the members of the container. -/
def IterationOrder.Ok (Order : IterationOrder) : Prop :=
  (∀ l, (Order.mapOrder l).Perm l) ∧ (∀ l, (Order.setOrder l).Perm l)

/-- Every path is duplicate-free and non-empty. -/
def PathsOk (Paths : List AntidependencePathTy) : Prop :=
  ∀ P ∈ Paths, P.Nodup ∧ P ≠ []

/-- Path `I` is still unresolved: every instruction on it is in the worklist
and has the path in its set of unintersected paths. -/
def PathLive (Paths : List AntidependencePathTy) (M : CandidateInfoMapTy)
    (Worklist : List InstPos) (I : Nat) : Prop :=
  ∀ P, Paths[I]? = some P → ∀ J ∈ P, J ∈ Worklist ∧ I ∈ unintOf M J

/-- Every pick lies on a path that none of the earlier picks lies on. -/
def PickedInOrder (Paths : List AntidependencePathTy) (Picks : List InstPos) : Prop :=
  ∀ pre c post, Picks = pre ++ c :: post → ∃ P ∈ Paths, c ∈ P ∧ ∀ x ∈ pre, x ∉ P

/-- The invariant of the main loop of `computeHittingSet`; the keys of the cut
map are the picks in the order in which they were made. -/
structure LoopInv (N : Nat) (Paths : List AntidependencePathTy) (S : HittingSetState) :
    Prop where
  wl : WorklistOk N S.Map S.Worklist
  live : ∀ c ∈ S.Worklist, ∀ I ∈ unintOf S.Map c,
    (∃ P, Paths[I]? = some P ∧ c ∈ P) ∧ PathLive Paths S.Map S.Worklist I
  hit : ∀ I P, Paths[I]? = some P →
    (∃ c ∈ P, c ∈ S.CutSet_) ∨ PathLive Paths S.Map S.Worklist I
  fresh : ∀ c ∈ S.Worklist, ∀ I ∈ unintOf S.Map c, ∀ P, Paths[I]? = some P →
    ∀ x ∈ S.CutMap_.map (fun e => e.1), x ∉ P
  order : PickedInOrder Paths (S.CutMap_.map (fun e => e.1))

/-- The occurrences `(path index, instruction)` of the instructions on the
paths, the first path of the list having index `k`. -/
def occOf : List AntidependencePathTy → Nat → List (Nat × InstPos)
  | [], _ => []
  | P :: Ps, k => P.map (fun c => (k, c)) ++ occOf Ps (k + 1)

/-- The invariant of the candidate search: the map records exactly the
occurrences processed so far, all of paths with an index below `K`. -/
structure CandInv (K : Nat) (occ : List (Nat × InstPos)) (M : CandidateInfoMapTy) : Prop where
  keys : (M.map (fun X => X.Candidate_)).Nodup
  mem : ∀ c C, M.lookup c = some C →
    (∀ I, I ∈ C.UnintersectedPaths_ ↔ (I, c) ∈ occ) ∧ C.UnintersectedPaths_.Nodup ∧
      C.UnintersectedPaths = C.UnintersectedPaths_.length ∧ C.IntersectedPaths = 0
  dom : ∀ x ∈ occ, ∃ C, M.lookup x.2 = some C
  bound : ∀ x ∈ occ, x.1 < K

/-! ## The worklist search shared by the backward and forward walks -/

/-- The skeleton of the depth-first walks of the passes: `stop b` is the outcome
of scanning block `b` (`none` for an abort, `true` when the walk does not go on
from `b`), `nbrs b` are the blocks pushed otherwise unless already visited. The
result lists the blocks in the order in which they are scanned. -/
def dfsTrace (stop : Nat → Option Bool) (nbrs : Nat → List Nat) :
    Nat → List Nat → List Nat → Option (List Nat)
  | 0, _, _ => none
  | _ + 1, [], _ => some []
  | fuel + 1, b :: Worklist, Visited =>
    match stop b with
    | none => none
    | some s =>
      let pushed := if s then (Worklist, Visited) else pushSuccs (nbrs b) Worklist Visited
      match dfsTrace stop nbrs fuel pushed.1 pushed.2 with
      | none => none
      | some tr => some (b :: tr)

/-- Number of the blocks below `n` that are not yet visited. -/
def unvisited (n : Nat) (Visited : List Nat) : Nat :=
  (Finset.range n \ Visited.toFinset).card

/-! ## Control-flow paths -/

/-- The shape of a block of a control-flow graph: number of instructions and edges. -/
structure CfgBlock where
  len : Nat
  preds : List Nat
  succs : List Nat

/-- The shape of a control-flow graph. -/
abbrev Cfg := List CfgBlock

/-- The control-flow graph of an IR function. -/
def Function.cfg (F : Function) : Cfg :=
  F.blocks.map (fun B => ⟨B.insts.length, B.preds, B.succs⟩)

/-- The control-flow graph of a machine function. -/
def MachineFunction.cfg (MF : MachineFunction) : Cfg :=
  MF.blocks.map (fun B => ⟨B.insts.length, B.preds, B.succs⟩)

/-- One step of control flow between iterator positions: past an instruction
to the next position of its block, or from the end of a block to the start of
a successor block. -/
inductive Step (G : Cfg) : InstPos → InstPos → Prop
  | next (b i : Nat) (B : CfgBlock) : G[b]? = some B → i < B.len → Step G ⟨b, i⟩ ⟨b, i + 1⟩
  | jump (b s : Nat) (B S : CfgBlock) : G[b]? = some B → s ∈ B.succs → G[s]? = some S →
      Step G ⟨b, B.len⟩ ⟨s, 0⟩

/-- A control-flow path: consecutive positions are related by a step. -/
def IsPath (G : Cfg) (path : List InstPos) : Prop := List.Chain' (Step G) path

/-- Block `b` can be reached from the entry block without entering block `D`. -/
inductive ReachAvoid (G : Cfg) (D : Nat) : Nat → Prop
  | entry : 0 < G.length → D ≠ 0 → ReachAvoid G D 0
  | edge (a b : Nat) (A B : CfgBlock) : ReachAvoid G D a → G[a]? = some A → b ∈ A.succs →
      G[b]? = some B → b ≠ D → ReachAvoid G D b

/-- Dominance on the control-flow graph: every way from the entry block to `b`
enters `D`. -/
def Dom (G : Cfg) (D b : Nat) : Prop := ¬ ReachAvoid G D b

/-- The control-flow graph is well formed: there is an entry block, it has no
predecessors, edges lead to blocks of the graph, and the predecessor lists
mirror the successor lists. -/
structure Cfg.WellFormed (G : Cfg) : Prop where
  entry : 0 < G.length
  entryPreds : ∀ B : CfgBlock, G[0]? = some B → B.preds = []
  predsValid : ∀ (b : Nat) (B : CfgBlock), G[b]? = some B → ∀ p ∈ B.preds, p < G.length
  succsValid : ∀ (b : Nat) (B : CfgBlock), G[b]? = some B → ∀ s ∈ B.succs, s < G.length
  mirror : ∀ (a b : Nat) (A B : CfgBlock), G[a]? = some A → G[b]? = some B →
    (b ∈ A.succs ↔ a ∈ B.preds)

/-- An IR function is well formed: its graph is, and no block is empty (every
block ends with a terminator). -/
structure Function.WellFormed (F : Function) : Prop where
  cfg : Cfg.WellFormed F.cfg
  nonempty : ∀ B ∈ F.blocks, B.insts ≠ []

/-! ## Vocabulary for the collection of the antidependence pairs -/

/-- An instruction that ends the backward scan for the store: a forced cut or a
load that may read the stored location. -/
def stopperAt (F : Function) (AA : AliasAnalysis) (Store p : InstPos) : Bool :=
  match F.inst? p with
  | some inst => forcesCut inst || (inst.isLoad && AA.mayRef p Store)
  | none => false

/-- Number of instructions of a block. -/
def Function.blockLen (F : Function) (b : Nat) : Nat :=
  match F.blocks[b]? with
  | some B => B.insts.length
  | none => 0

/-- The index at which the backward scan of a block ends when the block is
entered from its end: the store in its own block, the beginning otherwise. -/
def irLo (Write : InstPos) (b : Nat) : Nat := if b = Write.bb then Write.idx else 0

/-- The scan of a block entered from its end, started with no pairs. -/
def irScan (F : Function) (AA : AliasAnalysis) (Write : InstPos) (b : Nat) :
    Option (Bool × List AntidependencePairTy) :=
  match F.blocks[b]? with
  | some B => scanForAliasingLoad F AA b B.insts.length (irLo Write b) Write []
  | none => none

/-- Whether the scan of a block entered from its end terminates the path. -/
def irStop (F : Function) (AA : AliasAnalysis) (Write : InstPos) (b : Nat) : Option Bool :=
  (irScan F AA Write b).map (fun r => r.1)

/-- The pairs recorded by the scan of a block entered from its end. -/
def irPairs (F : Function) (AA : AliasAnalysis) (Write : InstPos) (b : Nat) :
    List AntidependencePairTy :=
  match irScan F AA Write b with
  | some r => r.2
  | none => []

/-- The predecessors of a block. -/
def irNbrs (F : Function) (b : Nat) : List Nat :=
  match F.blocks[b]? with
  | some B => B.preds
  | none => []

/-- Both ends of a pair are instructions of the function. -/
def PairOk (F : Function) (Pair : AntidependencePairTy) : Prop :=
  Pair.1.idx < F.blockLen Pair.1.bb ∧ Pair.2.idx < F.blockLen Pair.2.bb

/-- The dominator tree has the shape of a tree over the blocks of the function:
the node of a block starts with the block, repeats no block and names blocks of
the function only. -/
def DominatorTree.WellFormed (DT : DominatorTree) (F : Function) : Prop :=
  ∀ b, b < F.blocks.length →
    (DT.getNode b).head? = some b ∧ (DT.getNode b).Nodup ∧
      ∀ a ∈ DT.getNode b, a < F.blocks.length

/-- What `computeAntidependencePaths` puts on the path of a pair: the store
first, then, in the block-local case, instructions strictly between the load
and the store; otherwise instructions of blocks on the dominator chain of the
store's block that are not on the chain of the load's block, those of the
store's own block lying before the store. All of them are stores. -/
def PathSpec (F : Function) (DT : DominatorTree) (Pair : AntidependencePairTy)
    (Path : AntidependencePathTy) : Prop :=
  ∃ rest, Path = Pair.2 :: rest ∧ Path.Nodup ∧
    ∀ c ∈ rest, (∃ inst, F.inst? c = some inst ∧ inst.isStore = true) ∧
      ((Pair.2.bb = Pair.1.bb ∧ DT.dominates Pair.1 Pair.2 = true ∧ c.bb = Pair.2.bb ∧
          Pair.1.idx < c.idx ∧ c.idx < Pair.2.idx) ∨
        (¬ (Pair.2.bb = Pair.1.bb ∧ DT.dominates Pair.1 Pair.2 = true) ∧
          c.bb ∈ DT.getNode Pair.2.bb ∧ c.bb ∉ DT.getNode Pair.1.bb ∧
          (c.bb = Pair.2.bb → c.idx < Pair.2.idx)))

/-- A decision procedure for `Cfg.WellFormed`. -/
def Cfg.check (G : Cfg) : Bool :=
  decide (0 < G.length) &&
    (match G[0]? with
     | some B => B.preds.isEmpty
     | none => false) &&
    G.all (fun B => B.preds.all (fun p => decide (p < G.length)) &&
      B.succs.all (fun s => decide (s < G.length))) &&
    (List.range G.length).all (fun a => (List.range G.length).all (fun b =>
      match G[a]?, G[b]? with
      | some A, some B => decide (b ∈ A.succs ↔ a ∈ B.preds)
      | _, _ => true))

/-- A decision procedure for `Function.WellFormed`. -/
def Function.check (F : Function) : Bool :=
  F.cfg.check && F.blocks.all (fun B => !B.insts.isEmpty)

/-! ## Example programs -/

/-- The alias analysis that answers "may alias" to every query. -/
def mayAliasAll : AliasAnalysis := ⟨fun _ _ => true⟩

/-- Loop information of a function without loops. -/
def noLoops : LoopInfo := ⟨fun _ => none, fun _ => [], fun _ => none, fun _ => 0⟩

/-- Hash containers that enumerate in insertion order. -/
def insertionOrder : IterationOrder := ⟨id, id⟩

/-- Hash containers whose map enumerates in reverse insertion order. -/
def reverseOrder : IterationOrder := ⟨List.reverse, id⟩

/-- The dominator tree of a function that consists of its entry block. -/
def entryOnlyTree : DominatorTree := ⟨fun b => if b = 0 then [0] else []⟩

/-- One block: a fence, a load, a store to the loaded location, a return. -/
def exampleFenceLoadStore : Function :=
  ⟨[⟨[.fence, .load false false, .store false false false, .other], [], []⟩]⟩

/-- One block: a call that is no tail call, a return. -/
def exampleCall : Function := ⟨[⟨[.call false, .other], [], []⟩]⟩

/-- One block: two loads of a location, a store to it, a return. -/
def exampleTwoLoads : Function :=
  ⟨[⟨[.load false false, .load false false, .store false false false, .other], [], []⟩]⟩

/-- Four blocks: the entry branches to block 1, which loads, and to block 2;
block 1 goes on to block 2, which holds two stores; block 2 goes on to block 3,
a loop of its own that stores to the location loaded in block 1. -/
def exampleTie : Function :=
  ⟨[⟨[.other], [], [1, 2]⟩,
    ⟨[.load false false, .other], [0], [2]⟩,
    ⟨[.store false false false, .store false false false, .other], [0, 1], [3]⟩,
    ⟨[.store false false false, .other], [2, 3], [3]⟩]⟩

/-- The dominator tree of `exampleTie`. -/
def exampleTieTree : DominatorTree :=
  ⟨fun b => match b with
    | 0 => [0]
    | 1 => [1, 0]
    | 2 => [2, 0]
    | 3 => [3, 2, 0]
    | _ => []⟩

/-- The loop information of `exampleTie`: block 3 is a loop of depth 1. -/
def exampleTieLoops : LoopInfo :=
  ⟨fun b => if b = 3 then some 0 else none, fun _ => [], fun _ => some 2,
    fun b => if b = 3 then 1 else 0⟩

/-- The alias analysis of `exampleTie`: the load of block 1 may read what the
store of block 3 writes. -/
def exampleTieAlias : AliasAnalysis :=
  ⟨fun l s => decide (l = ⟨1, 0⟩ ∧ s = ⟨3, 0⟩)⟩

/-- Four blocks: the entry branches to block 1, which loads, and to block 2;
block 1 goes on to block 2, which stores to another location; block 2 goes on
to block 3, a loop of its own that stores to the location and then loads it. -/
def exampleRedundant : Function :=
  ⟨[⟨[.other], [], [1, 2]⟩,
    ⟨[.load false false, .other], [0], [2]⟩,
    ⟨[.store false false false, .other], [0, 1], [3]⟩,
    ⟨[.store false false false, .load false false, .other], [2, 3], [3]⟩]⟩

/-- The alias analysis of `exampleRedundant`: both loads may read what the
store of block 3 writes, and nothing reads what the store of block 2 writes. -/
def exampleRedundantAlias : AliasAnalysis :=
  ⟨fun l s => decide ((l = ⟨1, 0⟩ ∨ l = ⟨3, 1⟩) ∧ s = ⟨3, 0⟩)⟩

end Ratchet

namespace Ratchet

/-! ## Paths that avoid positions -/

/-- A control-flow path from `src` to `dst` with at least one step on which no
position strictly between the two is `bad`. -/
def AvoidPath (G : Cfg) (bad : InstPos → Bool) (src dst : InstPos) : Prop :=
  ∃ rest, IsPath G (src :: rest) ∧ rest.getLast? = some dst ∧
    ∀ p ∈ rest.dropLast, bad p = false

/-! ## Vocabulary for the traversal of a region -/

/-- The instruction at the position is a region boundary or a call. -/
def MachineFunction.exitAt (MF : MachineFunction) (p : InstPos) : Bool :=
  match MF.inst? p with
  | some MI => MI.isIdemBoundary || MI.isCall
  | none => false

/-- The instruction at the position is a region boundary. -/
def MachineFunction.boundaryAt (MF : MachineFunction) (p : InstPos) : Bool :=
  match MF.inst? p with
  | some MI => MI.isIdemBoundary
  | none => false

/-- The instruction at the position is a call. -/
def MachineFunction.callAt (MF : MachineFunction) (p : InstPos) : Bool :=
  match MF.inst? p with
  | some MI => MI.isCall
  | none => false

/-- The index that `computeEnd` gives for a block taken from the worklist of
the iterator of a region. -/
def regionEnd (MF : MachineFunction) (R : IdempotentRegion) (b : Nat) : Option Nat :=
  match MF.blocks[b]? with
  | some B => computeEnd R R.Entry_ b B.insts 0
  | none => none

/-- The index `regionEnd`, `0` when `computeEnd` aborts. -/
def regionEndD (MF : MachineFunction) (R : IdempotentRegion) (b : Nat) : Nat :=
  (regionEnd MF R b).getD 0

/-- Whether the range of a block taken from the worklist is exiting. -/
def regionStop (MF : MachineFunction) (R : IdempotentRegion) (b : Nat) : Option Bool :=
  match MF.blocks[b]?, regionEnd MF R b with
  | some B, some e => some (decide (e ≠ B.insts.length) || B.succs.isEmpty)
  | _, _ => none

/-- The successors of a block. -/
def regionNbrs (MF : MachineFunction) (b : Nat) : List Nat :=
  match MF.blocks[b]? with
  | some B => B.succs
  | none => []

/-- The positions `lo, ..., hi - 1` of block `b`. -/
def rangePositions (b lo hi : Nat) : List InstPos :=
  (List.range' lo (hi - lo)).map (fun i => ⟨b, i⟩)

/-- A valid block iterator of region `R` that stands at block `b` with the
range that ends at index `e`. -/
def regionIt (R : IdempotentRegion) (b : Nat) (start : InstPos) (e : Nat)
    (Worklist Visited : List Nat) : dfs_mbb_iterator :=
  { Region_ := R, Valid_ := true, Skip_ := false, Init_ := R.Entry_, Start_ := start
    End_ := ⟨b, e⟩, MBB_ := b, Visited_ := Visited, Worklist_ := Worklist }

/-- The worklist and the visited set after `operator++` has looked at the
successors of block `b`, whose range ends at index `e`. -/
def regionPushed (MF : MachineFunction) (b e : Nat) (Worklist Visited : List Nat) :
    List Nat × List Nat :=
  match MF.blocks[b]? with
  | some B =>
    if decide (e ≠ B.insts.length) || B.succs.isEmpty then (Worklist, Visited)
    else pushSuccs B.succs Worklist Visited
  | none => (Worklist, Visited)

/-- The end of the first range of the iterator of a region, which starts at
the entry. -/
def regionEnd0 (MF : MachineFunction) (R : IdempotentRegion) : Nat :=
  match MF.blocks[R.Entry_.bb]? with
  | some B => initEnd R R.Entry_.bb (B.insts.drop R.Entry_.idx) R.Entry_.idx
  | none => 0

/-- Number of instructions of a block of a machine function. -/
def MachineFunction.blockLen (MF : MachineFunction) (b : Nat) : Nat :=
  match MF.blocks[b]? with
  | some B => B.insts.length
  | none => 0

/-! ## Vocabulary for the backward walk of `getRegionsContaining` -/

/-- Whether the scan of a block entered from its end finds a region entry. -/
def backStop (MF : MachineFunction) (MIR : MachineIdempotentRegions) (b : Nat) : Option Bool :=
  match MF.blocks[b]? with
  | none => none
  | some B =>
    match findRegionEntry B B.insts.length with
    | none => none
    | some 0 => some false
    | some (base + 1) =>
      match MIR.getRegionAtEntry ⟨b, base⟩ with
      | none => none
      | some _ => some true

/-- The region that the scan of a block entered from its end adds. -/
def backRegions (MF : MachineFunction) (MIR : MachineIdempotentRegions) (b : Nat) :
    List IdempotentRegion :=
  match MF.blocks[b]? with
  | none => []
  | some B =>
    match findRegionEntry B B.insts.length with
    | some (base + 1) =>
      match MIR.getRegionAtEntry ⟨b, base⟩ with
      | some R => [R]
      | none => []
    | _ => []

/-- The predecessors of a block. -/
def backNbrs (MF : MachineFunction) (b : Nat) : List Nat :=
  match MF.blocks[b]? with
  | some B => B.preds
  | none => []

/-- A machine instruction that is the boundary `IDEM`. -/
def idemInstr : MachineInstr :=
  ⟨.idem, false, false, false, false, false, none, none, []⟩

/-- A machine instruction that is a call. -/
def callInstr : MachineInstr :=
  ⟨.call, false, false, false, false, false, none, none, []⟩

/-- A machine instruction that is neither a boundary nor a call. -/
def plainInstr : MachineInstr :=
  ⟨.other, false, false, false, false, false, none, none, []⟩

/-- One block: a boundary, a call, an instruction. -/
def exampleBoundaryCall : MachineFunction :=
  ⟨[⟨[idemInstr, callInstr, plainInstr], [], []⟩]⟩

/-- The region of `exampleBoundaryCall`. -/
def exampleRegion : IdempotentRegion := ⟨0, ⟨0, 0⟩⟩

/-- The regions of `exampleBoundaryCall`. -/
def exampleRegions : MachineIdempotentRegions :=
  ⟨[exampleRegion], [(⟨0, 0⟩, exampleRegion)]⟩

/-- Three blocks: a boundary and an instruction; a loop of two instructions;
an instruction, a boundary and an instruction. -/
def exampleLoopRegion : MachineFunction :=
  ⟨[⟨[idemInstr, plainInstr], [], [1]⟩,
    ⟨[plainInstr, plainInstr], [0, 1], [1, 2]⟩,
    ⟨[plainInstr, idemInstr, plainInstr], [1], []⟩]⟩

/-- The regions of `exampleLoopRegion`. -/
def exampleLoopRegions : MachineIdempotentRegions :=
  ⟨[⟨0, ⟨0, 0⟩⟩, ⟨1, ⟨2, 1⟩⟩], [(⟨0, 0⟩, ⟨0, ⟨0, 0⟩⟩), (⟨2, 1⟩, ⟨1, ⟨2, 1⟩⟩)]⟩

end Ratchet

namespace Ratchet

/-! ## Vocabulary for the antidependence paths -/

/-- Whether the instruction at the position is a store. -/
def Function.isStoreAt (F : Function) (p : InstPos) : Bool :=
  match F.inst? p with
  | some inst => inst.isStore
  | none => false

/-- Dominance between instructions as the dominator tree gives it: in one block
the earlier instruction dominates the later one, otherwise the block of the
first is on the dominator chain of the block of the second. -/
def DominatorTree.instDominates (DT : DominatorTree) (a b : InstPos) : Bool :=
  if a.bb = b.bb then decide (a.idx < b.idx) else (DT.getNode b.bb).contains a.bb

/-- The chains of the dominator tree fit together: the part of the chain of a
block that starts at a block `a` is the chain of `a`. -/
def DominatorTree.IsTree (DT : DominatorTree) (F : Function) : Prop :=
  ∀ b, b < F.blocks.length → ∀ (a : Nat) (t : List Nat),
    (a :: t) <:+ DT.getNode b → DT.getNode a = a :: t

/-- Whether every part of a chain that starts at a block is the chain of that
block. -/
def DominatorTree.chainOk (DT : DominatorTree) : List Nat → Bool
  | [] => true
  | a :: t => decide (DT.getNode a = a :: t) && DT.chainOk t

/-- A decision procedure for `DominatorTree.IsTree`. -/
def DominatorTree.checkTree (DT : DominatorTree) (F : Function) : Bool :=
  (List.range F.blocks.length).all (fun b => DT.chainOk (DT.getNode b))

/-- The stores of block `bb` strictly between the indices `lo` and `hi`, from
the higher index down. -/
def storesBetween (F : Function) (bb lo hi : Nat) : List InstPos :=
  ((List.range' (lo + 1) (hi - lo - 1)).reverse.map (fun i => (⟨bb, i⟩ : InstPos))).filter
    F.isStoreAt

/-! ## Vocabulary of the specification: forced cuts -/

/-- The instructions that force a cut in the words of the specification:
volatile accesses, fences, atomic operations (atomic loads and stores, cmpxchg,
atomicrmw), non-tail calls, invokes and variadic-argument accesses. -/
def forcesCutAsSpecified : Instruction → Bool
  | .load v a => v || a
  | .store v a _ => v || a
  | .call t => !t
  | .invoke => true
  | .vaarg => true
  | .fence => true
  | .cmpxchg => true
  | .atomicrmw => true
  | .other => false

/-! ## Vocabulary for the cut map -/

/-- The invariant of the cut map in the main loop of `computeHittingSet`: the
keys are distinct, a path without a key on it is still unresolved, and the set
of a key holds the first instructions of the paths that contain the key and
none of the keys entered before it. -/
structure CutMapInv (Paths : List AntidependencePathTy) (S : HittingSetState) : Prop where
  keysNodup : (S.CutMap_.map (fun e => e.1)).Nodup
  unresolved : ∀ (I : Nat) (P : AntidependencePathTy), Paths[I]? = some P →
    (∀ x ∈ S.CutMap_.map (fun e => e.1), x ∉ P) → PathLive Paths S.Map S.Worklist I
  vals : ∀ (pre : List (InstPos × List InstPos)) (c : InstPos) (A : List InstPos)
    (post : List (InstPos × List InstPos)), S.CutMap_ = pre ++ (c, A) :: post →
    ∀ x, x ∈ A ↔ ∃ P ∈ Paths, c ∈ P ∧ (∀ y ∈ pre.map (fun e => e.1), y ∉ P) ∧
      P.head? = some x

/-! ## Further examples -/

/-- A candidate in a loop of depth 2 with five resolved paths. -/
def exampleDeepCandidate : CandidateInfo :=
  { CandidateInfo.new ⟨0, 0⟩ 2 false with IntersectedPaths := 5 }

/-- A candidate in a loop of depth 1 without resolved paths. -/
def exampleShallowCandidate : CandidateInfo := CandidateInfo.new ⟨1, 0⟩ 1 false

/-- Two blocks: a load, a store to another location and a branch; then a store
to the loaded location and a return. -/
def exampleStoreBehindLoad : Function :=
  ⟨[⟨[.load false false, .store false false false, .other], [], [1]⟩,
    ⟨[.store false false false, .other], [0], []⟩]⟩

/-- The dominator tree of a function of two blocks in a row. -/
def twoBlockTree : DominatorTree :=
  ⟨fun b => match b with
    | 0 => [0]
    | 1 => [1, 0]
    | _ => []⟩

/-- The alias analysis of `exampleStoreBehindLoad`: the load may read what the
store of block 1 writes. -/
def exampleStoreBehindLoadAlias : AliasAnalysis :=
  ⟨fun l s => decide (l = ⟨0, 0⟩ ∧ s = ⟨1, 0⟩)⟩

/-- The alias analysis of `exampleLocalStores`: the load may read what the last
store writes. -/
def exampleLocalStoresAlias : AliasAnalysis :=
  ⟨fun l s => decide (l = ⟨0, 0⟩ ∧ s = ⟨0, 4⟩)⟩

/-- One block: a load, a store, an instruction, two stores, a return. -/
def exampleLocalStores : Function :=
  ⟨[⟨[.load false false, .store false false false, .other, .store false false false,
      .store false false false, .other], [], []⟩]⟩

/-- The loop scenario: the entry block stores to `g` and branches to the body;
the body loads `g`, stores to `g` and branches back to itself. The flag tells
whether `g` is a global value; `withExit` adds a block that the body also branches
to and that returns. -/
def loopScenario (g : Bool) (withExit : Bool) : Function :=
  if withExit then
    ⟨[⟨[.store false false g, .other], [], [1]⟩,
      ⟨[.load false false, .store false false g, .other], [0, 1], [1, 2]⟩,
      ⟨[.other], [1], []⟩]⟩
  else
    ⟨[⟨[.store false false g, .other], [], [1]⟩,
      ⟨[.load false false, .store false false g, .other], [0, 1], [1]⟩]⟩

/-- The dominator tree of the loop scenario. -/
def loopScenarioTree : DominatorTree :=
  ⟨fun b => match b with
    | 0 => [0]
    | 1 => [1, 0]
    | 2 => [2, 1, 0]
    | _ => []⟩

/-- The loop information of the loop scenario: the body is a loop of depth 1
with the entry block as preheader. -/
def loopScenarioLoops : LoopInfo :=
  ⟨fun b => if b = 1 then some 0 else none, fun _ => [], fun _ => some 0,
    fun b => if b = 1 then 1 else 0⟩

end Ratchet

namespace Ratchet

/-! ## Vocabulary for the degenerate inputs -/

/-- Whether the function has no store instruction. -/
def Function.hasNoStore (F : Function) : Bool :=
  F.positions.all (fun p => !F.isStoreAt p)

/-- One block: a fence and a return. -/
def exampleFenceOnly : Function := ⟨[⟨[.fence, .other], [], []⟩]⟩

/-! ## Vocabulary for the priority of a candidate -/

/-- The components of the priority of a candidate that lies in a loop nest of
the given depth, from the most significant one to the least significant one. -/
def CandidateInfo.key (C : CandidateInfo) (loopDepth : Nat) : List Nat :=
  [65535 - loopDepth, C.UnintersectedPaths, C.IsAntidependentStore, C.IsSubloopPreheader,
    C.IntersectedPaths]

/-- The lexicographic order on lists of numbers of the same length. -/
def lexLt : List Nat → List Nat → Bool
  | a :: l, b :: r => decide (a < b) || (decide (a = b) && lexLt l r)
  | _, _ => false

/-- The fields of a candidate hold what the constructor and the counters put
into them for a loop depth below `2 ^ 16` and fewer than `2 ^ 15` paths. -/
def CandidateInfo.InRange (C : CandidateInfo) (loopDepth : Nat) : Prop :=
  loopDepth < 65536 ∧
    C.LoopDepth = (CandidateInfo.new C.Candidate_ loopDepth false).LoopDepth ∧
    C.UnintersectedPaths < 32768 ∧ C.IntersectedPaths < 32768 ∧
    C.IsAntidependentStore ≤ 1 ∧ C.IsSubloopPreheader ≤ 1

/-- A candidate in a loop of depth 2 that is the antidependent store of one of
the two unresolved paths on which it lies. -/
def exampleLiveCandidate : CandidateInfo :=
  { CandidateInfo.new ⟨0, 0⟩ 2 false with
    UnintersectedPaths_ := [0, 1], UnintersectedPaths := 2, IsAntidependentStore := 1 }

/-! ## The iterations of the main loop of computeHittingSet -/

/-- The main loop of `computeHittingSet` with the states recorded at the start
of every iteration; the last state is the one in which the worklist is found
empty. -/
def hittingSetTrace (Order : IterationOrder) (Paths : List AntidependencePathTy) :
    Nat → HittingSetState → Option (List HittingSetState)
  | 0, _ => none
  | fuel + 1, S =>
    match S.Worklist.getLast? with
    | none => some [S]
    | some Picked =>
      let Worklist := S.Worklist.dropLast
      match S.Map.lookup Picked with
      | none => none
      | some Info =>
        if Info.size = 0 then
          (hittingSetTrace Order Paths fuel { S with Worklist := Worklist }).map (fun T => S :: T)
        else
          match processPaths Paths Picked (Order.setOrder Info.UnintersectedPaths_) S.Map Worklist
              (cutMapLookup S.CutMap_ Picked) with
          | none => none
          | some (M1, Worklist1, Antideps) =>
            (hittingSetTrace Order Paths fuel
              { Map := M1
                Worklist := Worklist1
                CutSet_ := setInsert S.CutSet_ Picked
                CutMap_ := cutMapStore S.CutMap_ Picked Antideps }).map (fun T => S :: T)

/-- The states of the main loop of `computeHittingSet` for the candidates and
the worklist that it sets up. -/
def computeHittingSetTrace (LI : LoopInfo) (Order : IterationOrder)
    (S : MemoryIdempotenceAnalysisImpl) : Option (List HittingSetState) :=
  match findCandidates LI S.AntidependencePaths_ 0 [] with
  | none => none
  | some M =>
    match initialWorklist Order M with
    | none => none
    | some Worklist =>
      hittingSetTrace Order S.AntidependencePaths_ (Worklist.length + 1)
        { Map := M, Worklist := Worklist, CutSet_ := S.CutSet_, CutMap_ := S.CutMap_ }

/-- An iteration that skips the popped candidate: it has no unresolved path,
every path through it holds an instruction picked before, and nothing but the
worklist changes. -/
def SkipStep (Paths : List AntidependencePathTy) (S S' : HittingSetState) : Prop :=
  ∃ W Picked Info, S.Worklist = W ++ [Picked] ∧ S.Map.lookup Picked = some Info ∧
    Info.size = 0 ∧ S' = { S with Worklist := W } ∧
    ∀ P ∈ Paths, Picked ∈ P → ∃ x ∈ S.CutMap_.map (fun e => e.1), x ∈ P

/-- An iteration that picks the popped candidate: it lies on a path that holds
no instruction picked before, it is inserted in the cut set and entered in the
cut map, and the rest of the worklist is rearranged. -/
def PickStep (Paths : List AntidependencePathTy) (S S' : HittingSetState) : Prop :=
  ∃ W Picked Info A, S.Worklist = W ++ [Picked] ∧ S.Map.lookup Picked = some Info ∧
    Info.size ≠ 0 ∧ S'.Worklist.Perm W ∧ S'.CutSet_ = setInsert S.CutSet_ Picked ∧
    S'.CutMap_ = S.CutMap_ ++ [(Picked, A)] ∧
    ∃ P ∈ Paths, Picked ∈ P ∧ ∀ x ∈ S.CutMap_.map (fun e => e.1), x ∉ P

/-! ## The scans of the backward search of findAntidependencePairs -/

/-- The loop of `findAntidependencePairs` with a log of the work items that are
popped and scanned, in order. -/
def findAntidependencePairsLog (F : Function) (AA : AliasAnalysis) (Write : InstPos) :
    Nat → List (Nat × Nat) → List Nat → List AntidependencePairTy → List (Nat × Nat) →
    Option (List AntidependencePairTy × List (Nat × Nat))
  | 0, _, _, _, _ => none
  | _ + 1, [], _, Pairs, Log => some (Pairs, Log)
  | fuel + 1, (BB, I) :: Worklist, Visited, Pairs, Log =>
    match F.blocks[BB]? with
    | none => none
    | some B =>
      let E := if BB = Write.bb ∧ I = B.insts.length then Write.idx else 0
      let scanned :=
        match F.inst? Write with
        | some (.store _ _ _) => scanForAliasingLoad F AA BB I E Write Pairs
        | _ => some (false, Pairs)
      match scanned with
      | none => none
      | some (true, Pairs1) =>
        findAntidependencePairsLog F AA Write fuel Worklist Visited Pairs1 (Log ++ [(BB, I)])
      | some (false, Pairs1) =>
        match pushPreds F B.preds Worklist Visited with
        | none => none
        | some (Worklist1, Visited1) =>
          findAntidependencePairsLog F AA Write fuel Worklist1 Visited1 Pairs1
            (Log ++ [(BB, I)])

/-- The work items that `findAntidependencePairs(Write)` scans, with its
result. -/
def findAntidependencePairsScans (F : Function) (AA : AliasAnalysis) (Write : InstPos)
    (Pairs : List AntidependencePairTy) :
    Option (List AntidependencePairTy × List (Nat × Nat)) :=
  findAntidependencePairsLog F AA Write (F.blocks.length + 2) [(Write.bb, Write.idx)] [] Pairs []

end Ratchet

namespace Ratchet

/-! ## Vocabulary for the soundness of the antidependence pairs -/

/-- A control-flow path leads from the first to the second instruction of the
pair with no forced cut and no load that may read the stored location strictly
in between, and the first instruction is a load that is no forced cut and may
read the stored location, or it is the first instruction of the entry block
and the store writes to a global. -/
def PairSound (F : Function) (AA : AliasAnalysis) (pr : AntidependencePairTy) : Prop :=
  (∃ rest, IsPath F.cfg (pr.1 :: rest) ∧ (pr.1 :: rest).getLast? = some pr.2 ∧
    ∀ p ∈ rest.dropLast, stopperAt F AA pr.2 p = false) ∧
  ((∃ inst, F.inst? pr.1 = some inst ∧ inst.isLoad = true ∧ forcesCut inst = false ∧
      AA.mayRef pr.1 pr.2 = true) ∨
    (pr.1 = ⟨0, 0⟩ ∧ ∃ inst, F.inst? pr.2 = some inst ∧ inst.storesToGlobal = true))

/-! ## Vocabulary for the block-level iterator of a region -/

/-- The ranges yielded by the block-level iterator of a region, from
`mbb_begin()` until the iterator is no longer valid. -/
def IdempotentRegion.ranges (MF : MachineFunction) (R : IdempotentRegion) :
    Option (List (InstPos × InstPos)) :=
  match R.mbb_begin MF with
  | none => none
  | some It => mbbRanges MF (MF.blocks.length + 2) It

/-- The diamond: block A (index 0) starts with a boundary and branches to B
(index 1) and C (index 2), B goes on to C, and C starts with a boundary.
`swap` lists C before B among the successors of A; `cSuccs` and `rest` are
the successors of C and the further blocks of the function. -/
def diamond (as bs cs : List MachineInstr) (swap : Bool) (cSuccs : List Nat)
    (rest : List MachineBasicBlock) : MachineFunction :=
  ⟨⟨idemInstr :: as, [], if swap then [2, 1] else [1, 2]⟩ ::
    ⟨bs, [0], [2]⟩ :: ⟨idemInstr :: cs, [0, 1], cSuccs⟩ :: rest⟩

/-- The diamond with a fourth block behind C and one instruction after the
boundary of A, in B and after the boundary of C. -/
def exampleDiamond : MachineFunction :=
  diamond [plainInstr] [plainInstr] [plainInstr] false [3] [⟨[plainInstr], [2], []⟩]

/-- The instruction is neither a boundary nor a call. -/
def MachineInstr.isPlain (MI : MachineInstr) : Bool := !MI.isIdemBoundary && !MI.isCall

/-! ## Vocabulary for the wrap to the entry -/

/-- The search of the region re-enters the block of the entry from its start
and reaches the entry without meeting a boundary or a call: a control-flow
path without boundary or call leads from the entry to the start of its block,
and no boundary or call stands before the entry in its block. -/
def WrapsToEntry (MF : MachineFunction) (R : IdempotentRegion) : Prop :=
  AvoidPath MF.cfg MF.exitAt R.Entry_ ⟨R.Entry_.bb, 0⟩ ∧
    ∀ k, k < R.Entry_.idx → MF.exitAt ⟨R.Entry_.bb, k⟩ = false

/-- Two blocks: an instruction; a loop that starts with a boundary. -/
def exampleWrap : MachineFunction :=
  ⟨[⟨[plainInstr], [], [1]⟩, ⟨[idemInstr, plainInstr], [0, 1], [1]⟩]⟩

/-! ## Creation of regions (`MachineIdempotentRegions.cpp`) -/

/-- `MachineIdempotentRegions::releaseMemory`. -/
def MachineIdempotentRegions.releaseMemory (_MIR : MachineIdempotentRegions) :
    MachineIdempotentRegions :=
  ⟨[], []⟩

/-- `MachineIdempotentRegions::createRegionAtBoundary` with its assertions
evaluated: the instruction is a boundary, and the insertion into
`EntryToRegionMap_`, which is the argument of the second assertion, finds no
entry for the instruction. The identifier is `Regions_.size()` converted to
`unsigned`. -/
def MachineIdempotentRegions.createRegionAtBoundary (MF : MachineFunction)
    (MIR : MachineIdempotentRegions) (MI : InstPos) :
    Option (MachineIdempotentRegions × IdempotentRegion) :=
  match MF.inst? MI with
  | none => none
  | some I =>
    if I.isIdemBoundary then
      match MIR.EntryToRegionMap_.find? (fun e => e.1 = MI) with
      | some _ => none
      | none =>
        some (⟨MIR.Regions_ ++ [⟨MIR.Regions_.length % 4294967296, MI⟩],
            MIR.EntryToRegionMap_ ++ [(MI, ⟨MIR.Regions_.length % 4294967296, MI⟩)]⟩,
          ⟨MIR.Regions_.length % 4294967296, MI⟩)
    else none

/-- The same function when the assertions are compiled out (`NDEBUG`): their
arguments are not evaluated, so nothing is inserted into the map. -/
def MachineIdempotentRegions.createRegionAtBoundaryNoAssert (MIR : MachineIdempotentRegions)
    (MI : InstPos) : MachineIdempotentRegions × IdempotentRegion :=
  (⟨MIR.Regions_ ++ [⟨MIR.Regions_.length % 4294967296, MI⟩], MIR.EntryToRegionMap_⟩,
    ⟨MIR.Regions_.length % 4294967296, MI⟩)

/-- Modelled from the spec: the boundary installation hook of the target,
`TII_->emitIdemBoundary(MBB, MI)`, whose code is not part of the sources. It
creates the marker immediately before the instruction `MI` of block `MBB`;
`MI` may be the end of the block. -/
def emitIdemBoundary (MF : MachineFunction) (MBB : Nat) (MI : InstPos) :
    Option MachineFunction :=
  match MF.blocks[MBB]? with
  | none => none
  | some B =>
    if MI.bb = MBB ∧ MI.idx ≤ B.insts.length then
      some ⟨MF.blocks.set MBB
        { B with insts := B.insts.take MI.idx ++ idemInstr :: B.insts.drop MI.idx }⟩
    else none

/-- Where an instruction stands after a marker has been inserted before index
`i` of block `b`. The source refers to instructions by pointer, so the regions
go on designating the same instructions after the insertion. -/
def InstPos.afterInsert (b i : Nat) (p : InstPos) : InstPos :=
  if p.bb = b ∧ i ≤ p.idx then ⟨p.bb, p.idx + 1⟩ else p

/-- A region after a marker has been inserted before index `i` of block `b`. -/
def IdempotentRegion.afterInsert (b i : Nat) (R : IdempotentRegion) : IdempotentRegion :=
  ⟨R.ID_, R.Entry_.afterInsert b i⟩

/-- The regions after a marker has been inserted before index `i` of block
`b`. -/
def MachineIdempotentRegions.afterInsert (b i : Nat) (MIR : MachineIdempotentRegions) :
    MachineIdempotentRegions :=
  ⟨MIR.Regions_.map (fun R => R.afterInsert b i),
    MIR.EntryToRegionMap_.map (fun e => (e.1.afterInsert b i, e.2.afterInsert b i))⟩

/-- `MachineIdempotentRegions::createRegionBefore` without slot indexes: the
boundary is emitted before `MI`, and the region is created at `--MI`. -/
def MachineIdempotentRegions.createRegionBefore (MF : MachineFunction)
    (MIR : MachineIdempotentRegions) (MBB : Nat) (MI : InstPos) :
    Option (MachineFunction × MachineIdempotentRegions × IdempotentRegion) :=
  match emitIdemBoundary MF MBB MI with
  | none => none
  | some MF1 =>
    match MachineIdempotentRegions.createRegionAtBoundary MF1 (MIR.afterInsert MBB MI.idx)
        ⟨MBB, MI.idx⟩ with
    | none => none
    | some (MIR1, Region) => some (MF1, MIR1, Region)

/-- A call that creates a region. -/
inductive RegionCall where
  | atBoundary (MI : InstPos)
  | before (MBB : Nat) (MI : InstPos)
deriving DecidableEq, Repr

/-- One call on the function and its regions; `none` when an assertion
fails. -/
def runRegionCall (S : MachineFunction × MachineIdempotentRegions) :
    RegionCall → Option (MachineFunction × MachineIdempotentRegions)
  | .atBoundary MI =>
    (MachineIdempotentRegions.createRegionAtBoundary S.1 S.2 MI).map (fun r => (S.1, r.1))
  | .before MBB MI =>
    (MachineIdempotentRegions.createRegionBefore S.1 S.2 MBB MI).map (fun r => (r.1, r.2.1))

/-- A sequence of calls that create regions. -/
def runRegionCalls :
    List RegionCall → MachineFunction × MachineIdempotentRegions →
      Option (MachineFunction × MachineIdempotentRegions)
  | [], S => some S
  | c :: cs, S =>
    match runRegionCall S c with
    | none => none
    | some S1 => runRegionCalls cs S1

/-- The regions are keyed by their entries: no two regions share an entry, the
identifier of a region is its index, and the map holds the regions under
their entries. -/
structure RegionsInv (MIR : MachineIdempotentRegions) : Prop where
  nodup : (MIR.Regions_.map (fun R => R.Entry_)).Nodup
  ids : ∀ i R, MIR.Regions_[i]? = some R → R.ID_ = i % 4294967296
  map : MIR.EntryToRegionMap_ = MIR.Regions_.map (fun R => (R.Entry_, R))

/-- Three calls on `exampleLoopRegion`: a region at the boundary of block 0, a
region before the second instruction of block 1, a region at the boundary of
block 2. -/
def exampleRegionCalls : List RegionCall :=
  [.atBoundary ⟨0, 0⟩, .before 1 ⟨1, 1⟩, .atBoundary ⟨2, 1⟩]

/-- The function and the regions after `exampleRegionCalls`. -/
def exampleCreated : MachineFunction × MachineIdempotentRegions :=
  (⟨[⟨[idemInstr, plainInstr], [], [1]⟩,
      ⟨[plainInstr, idemInstr, plainInstr], [0, 1], [1, 2]⟩,
      ⟨[plainInstr, idemInstr, plainInstr], [1], []⟩]⟩,
    ⟨[⟨0, ⟨0, 0⟩⟩, ⟨1, ⟨1, 1⟩⟩, ⟨2, ⟨2, 1⟩⟩],
      [(⟨0, 0⟩, ⟨0, ⟨0, 0⟩⟩), (⟨1, 1⟩, ⟨1, ⟨1, 1⟩⟩), (⟨2, 1⟩, ⟨2, ⟨2, 1⟩⟩)]⟩)

/-! ## ConstructIdempotentRegions (`ConstructIdempotentRegions.cpp`) -/

/-- `IdempotenceOptions::ConstructionMode`. -/
inductive ConstructionMode where
  | NoConstruction
  | OptimizeForSize
  | OptimizeForSpeed
  | OptimizeForIdeal
  | BranchRecovery
deriving DecidableEq, Repr

/-- An instruction of the function after the pass: an instruction of the
input, named by its position there, a call to the intrinsic `idem`, or the
call to `__dummyfunc`. -/
inductive ConstructedInstr where
  | original (p : InstPos)
  | idem
  | dummyCall
deriving DecidableEq, Repr

/-- The instructions of the function before the pass, block by block. -/
def Function.constructed (F : Function) : List (List ConstructedInstr) :=
  (List.range F.blocks.length).map
    (fun b => (List.range (F.blockLen b)).map (fun i => ConstructedInstr.original ⟨b, i⟩))

/-- Insertion of `x` before the instruction `p` of a block; `none` when the
block does not hold the instruction. -/
def insertBefore (x : ConstructedInstr) (p : InstPos) :
    List ConstructedInstr → Option (List ConstructedInstr)
  | [] => none
  | y :: l =>
    if y = .original p then some (x :: y :: l)
    else (insertBefore x p l).map (fun l1 => y :: l1)

/-- Insertion of `x` before the instruction `p` of the function. -/
def insertBeforeIn (x : ConstructedInstr) (p : InstPos) (out : List (List ConstructedInstr)) :
    Option (List (List ConstructedInstr)) :=
  match out[p.bb]? with
  | none => none
  | some l => (insertBefore x p l).map (fun l1 => out.set p.bb l1)

/-- `CallInst::Create(CP, "", F.begin()->begin())`: the call to `__dummyfunc`
becomes the first instruction of the entry block. -/
def insertAtEntry (x : ConstructedInstr) :
    List (List ConstructedInstr) → Option (List (List ConstructedInstr))
  | [] => none
  | l :: rest => some ((x :: l) :: rest)

/-- The loop over the cut points of `ConstructIdempotentRegions::runOnFunction`:
`IRBuilder<> Builder(*I)` stands before the cut, and a call to `idem` is
created there in every mode but `OptimizeForIdeal`. -/
def insertCuts (mode : ConstructionMode) :
    List InstPos → List (List ConstructedInstr) → Option (List (List ConstructedInstr))
  | [], out => some out
  | I :: Is, out =>
    if mode = .OptimizeForSpeed then
      match insertBeforeIn .idem I out with
      | none => none
      | some out1 => insertCuts mode Is out1
    else if mode = .OptimizeForIdeal then
      if (out[I.bb]?.getD []).contains (.original I) then insertCuts mode Is out else none
    else
      match insertBeforeIn .idem I out with
      | none => none
      | some out1 => insertCuts mode Is out1

/-- `ConstructIdempotentRegions::runOnFunction`: `isArmOrThumb` tells whether
the target triple contains `arm` or `thumb`, `CutSet` is what the iteration
from `MIA->begin()` to `MIA->end()` yields. The assertion on the mode is the
result `none`. -/
def ConstructIdempotentRegions.runOnFunction (mode : ConstructionMode) (isArmOrThumb : Bool)
    (F : Function) (CutSet : List InstPos) : Option (List (List ConstructedInstr)) :=
  if mode = .NoConstruction then none
  else if isArmOrThumb then
    match (if CutSet ≠ [] then insertAtEntry .dummyCall F.constructed
      else some F.constructed) with
    | none => none
    | some out => insertCuts mode CutSet out
  else some F.constructed

/-- The instructions of a block with a marker immediately before each
instruction of `Marked` and no marker anywhere else. -/
def markedBlock (Marked : List InstPos) (b : Nat) (is : List Nat) : List ConstructedInstr :=
  is.flatMap (fun i =>
    if (⟨b, i⟩ : InstPos) ∈ Marked then [ConstructedInstr.idem, .original ⟨b, i⟩]
    else [.original ⟨b, i⟩])

/-- The function with one marker immediately before each instruction of
`Marked` and no marker anywhere else; the entry block starts with the call to
`__dummyfunc` when `dummy` is set. -/
def markersBefore (F : Function) (dummy : Bool) (Marked : List InstPos) :
    List (List ConstructedInstr) :=
  (List.range F.blocks.length).map (fun b =>
    (if b = 0 ∧ dummy = true then [ConstructedInstr.dummyCall] else []) ++
      markedBlock Marked b (List.range (F.blockLen b)))

end Ratchet

namespace Ratchet

/-! ## thumbulator: byte reversal (`exmemwb_misc.c`) -/

/-- Conversion to the type `u32`. -/
def u32 (x : Nat) : Nat := x % 4294967296

/-- The fields of the decoded instruction that `rev` and `revsh` use. -/
structure Decoded where
  rD : Nat
  rM : Nat
deriving DecidableEq, Repr

/-- The value `result` of `rev` for the value `opA` of the source register. -/
def revResult (opA : Nat) : Nat :=
  let result := u32 (opA <<< 24)
  let result := result ||| (u32 (opA <<< 8) &&& 0xFF0000)
  let result := result ||| ((opA >>> 8) &&& 0xFF00)
  result ||| (opA >>> 24)

/-- `rev`: `cpu_get_gpr` is the register file that is read; the result is the
register and the value that are passed to `cpu_set_gpr`, and the value that
the function returns. -/
def rev (decoded : Decoded) (cpu_get_gpr : Nat → Nat) : (Nat × Nat) × Nat :=
  let opA := u32 (cpu_get_gpr decoded.rM)
  ((decoded.rD, revResult opA), 1)

/-- The value `result` of `revsh` for the value `opA` of the source
register. -/
def revshResult (opA : Nat) : Nat :=
  let result := if opA &&& 0x8 ≠ 0 then 0xFFFFFF00 ||| opA else 0xFF &&& opA
  let result := u32 (result <<< 8)
  result ||| ((opA >>> 8) &&& 0xFF)

/-- `revsh`, with the same conventions as `rev`. -/
def revsh (decoded : Decoded) (cpu_get_gpr : Nat → Nat) : (Nat × Nat) × Nat :=
  let opA := u32 (cpu_get_gpr decoded.rM)
  ((decoded.rD, revshResult opA), 1)

/-- Byte `k` of a value, byte 0 being the least significant. -/
def byteOf (k x : Nat) : Nat := (x >>> (8 * k)) % 256

/-- The 32-bit sign extension of the 16-bit value obtained by swapping the two
low bytes of `x`: bits 15..8 are `x[7:0]`, bits 7..0 are `x[15:8]`, and bits
31..16 all equal bit 7 of `x`. -/
def revshAsSpecified (x : Nat) : Nat :=
  (if x.testBit 7 then 0xFFFF0000 else 0) + byteOf 0 x * 256 + byteOf 1 x

/-! ## killDummyCalls (`MachineIdempotentRegions.cpp`) -/

/-- The test of `killDummyCalls`: a call one of whose operands is the global
named `__dummyfunc`. -/
def isDummyCall (MI : MachineInstr) : Bool :=
  MI.isCall && MI.operands.any (fun MOP =>
    match MOP with
    | .global Name => Name == "__dummyfunc"
    | _ => false)

/-- The loop `for (I = B->begin(); I != B->end(); ++I)` of `killDummyCalls` on
one block, by the index of `I`. After `I->eraseFromParent(); I = B->begin();
break;` the increment of the loop is executed; incrementing the end iterator
is the result `none`. -/
def killDummyCallsLoop : Nat → List MachineInstr → Nat → Option (List MachineInstr)
  | 0, _, _ => none
  | fuel + 1, insts, I =>
    match insts[I]? with
    | none => some insts
    | some MI =>
      if isDummyCall MI then
        match insts.eraseIdx I with
        | [] => none
        | MI1 :: rest => killDummyCallsLoop fuel (MI1 :: rest) 1
      else killDummyCallsLoop fuel insts (I + 1)

/-- The loop of `killDummyCalls` on one block. -/
def killDummyCallsBlock (B : MachineBasicBlock) : Option MachineBasicBlock :=
  (killDummyCallsLoop ((B.insts.length + 1) * (B.insts.length + 1) + 1) B.insts 0).map
    (fun insts => { B with insts := insts })

/-- `MachineIdempotentRegions::killDummyCalls`. -/
def killDummyCalls (MF : MachineFunction) : Option MachineFunction :=
  (MF.blocks.mapM killDummyCallsBlock).map (fun blocks => ⟨blocks⟩)

/-- The call to `__dummyfunc`. -/
def dummyCallInstr : MachineInstr :=
  ⟨.call, false, false, false, false, false, none, none, [.global "__dummyfunc"]⟩

/-- One block that starts with two calls to `__dummyfunc`. -/
def exampleTwoDummyCalls : MachineFunction :=
  ⟨[⟨[dummyCallInstr, dummyCallInstr, plainInstr], [], []⟩]⟩

/-- One block with a call to `__dummyfunc` before and after an instruction. -/
def exampleDummyCalls : MachineFunction :=
  ⟨[⟨[plainInstr, dummyCallInstr, plainInstr, dummyCallInstr], [], []⟩]⟩

/-! ## Vocabulary for the order of the block-level iterator -/

/-- The successors that `operator++` looks at when the iterator stands at the
range `r`: the successors of the block of the range when the range is not
exiting, that is, when it ends at the end of a block that has successors. -/
def rangeSuccs (MF : MachineFunction) (r : InstPos × InstPos) : List Nat :=
  match MF.blocks[r.1.bb]? with
  | some B => if decide (r.2.idx ≠ B.insts.length) || B.succs.isEmpty then [] else B.succs
  | none => []

/-- Four blocks: the entry block branches to the blocks 1, 2 and 3, and block 3
continues to block 1. -/
def exampleFan : MachineFunction :=
  ⟨[⟨[idemInstr, plainInstr], [], [1, 2, 3]⟩,
    ⟨[plainInstr], [0, 3], []⟩,
    ⟨[plainInstr], [0], []⟩,
    ⟨[plainInstr], [0], [1]⟩]⟩

/-- The successors that the worklist search looks at when it takes block `b`
from the worklist. -/
def traceSuccs (stop : Nat → Option Bool) (nbrs : Nat → List Nat) (b : Nat) : List Nat :=
  if stop b = some false then nbrs b else []

/-! ## The scans of `getRegionsContaining` -/

/-- The loop of `getRegionsContaining` that also records the work items it
takes from the worklist, in order. -/
def getRegionsContainingLog (MF : MachineFunction) (MIR : MachineIdempotentRegions) :
    Nat → List (Nat × Nat) → List Nat → List IdempotentRegion → List (Nat × Nat) →
      Option (List IdempotentRegion × List (Nat × Nat))
  | 0, _, _, _, _ => none
  | _ + 1, [], _, Regions, Log => some (Regions, Log)
  | fuel + 1, (It, MBB) :: Worklist, Visited, Regions, Log =>
    match MF.blocks[MBB]? with
    | none => none
    | some B =>
      match findRegionEntry B It with
      | none => none
      | some 0 =>
        match pushPredsR MF B.preds Worklist Visited with
        | none => none
        | some (Worklist1, Visited1) =>
          getRegionsContainingLog MF MIR fuel Worklist1 Visited1 Regions (Log ++ [(It, MBB)])
      | some (base + 1) =>
        match MIR.getRegionAtEntry ⟨MBB, base⟩ with
        | none => none
        | some R =>
          getRegionsContainingLog MF MIR fuel Worklist Visited (Regions ++ [R])
            (Log ++ [(It, MBB)])

/-- `getRegionsContaining(MI, Regions)` with the work items it scans. -/
def MachineIdempotentRegions.getRegionsContainingScans (MF : MachineFunction)
    (MIR : MachineIdempotentRegions) (MI : InstPos) :
    Option (List IdempotentRegion × List (Nat × Nat)) :=
  match MF.inst? MI with
  | none => none
  | some _ => getRegionsContainingLog MF MIR (MF.blocks.length + 2) [(MI.idx, MI.bb)] [] [] []

/-! ## The blocks scanned by the dominator-tree walk -/

/-- The non-local loop of `computeAntidependencePaths` that also records the
blocks it scans, in order. -/
def nonLocalPathLog (F : Function) (LDTNode : DomTreeNode) :
    DomTreeNode → Nat → Nat → AntidependencePathTy → List Nat →
      Option (AntidependencePathTy × List Nat)
  | [], _, _, Path, Log =>
    if DominatorTree.dominatesNode [] LDTNode then some (Path, Log) else none
  | d :: rest, BB, Cursor, Path, Log =>
    if DominatorTree.dominatesNode (d :: rest) LDTNode then some (Path, Log)
    else
      match F.blocks[BB]? with
      | none => none
      | some B =>
        match scanStoresToBegin B BB Cursor Path with
        | none => none
        | some Path1 =>
          match rest with
          | [] => some (Path1, Log ++ [BB])
          | d1 :: _ =>
            match F.blocks[d1]? with
            | none => none
            | some B1 => nonLocalPathLog F LDTNode rest d1 B1.insts.length Path1 (Log ++ [BB])

/-! ## `removeDuplicates` (`MachineIdempotentRegions.cpp`) -/

/-- An instruction of a block together with the index it had in the block
before `removeDuplicates`; the index is the identity of the instruction, by
which `DT_->dominates` tells instructions apart. -/
abbrev TaggedInstr := Nat × MachineInstr

/-- The first loop of `removeDuplicates` on one block; `PrevI` and `I` are the
indices of the two iterators. After an erase the loop goes on with
`I = B->begin(); PrevI = I; ++I`. -/
def removeObviousLoop : Nat → List TaggedInstr → Nat → Nat → Option (List TaggedInstr)
  | 0, _, _, _ => none
  | fuel + 1, insts, PrevI, I =>
    match insts[I]? with
    | none => some insts
    | some MI =>
      match insts[PrevI]? with
      | none => none
      | some PMI =>
        if PrevI ≠ I ∧ PMI.2.isIdemBoundary = true ∧ MI.2.isIdemBoundary = true then
          match insts.eraseIdx I with
          | [] => none
          | MI1 :: rest => removeObviousLoop fuel (MI1 :: rest) 0 1
        else removeObviousLoop fuel insts I (I + 1)

/-- The first loop of `removeDuplicates` on one block, from `B->begin()`. -/
def removeObvious (insts : List TaggedInstr) : Option (List TaggedInstr) :=
  removeObviousLoop ((insts.length + 2) * (insts.length + 2)) insts 0 0

/-- The loop `for (; MI != E; MI--)` of `searchForPriorBoundaries` with the
test of `E` behind it, for `E = BB->begin()`; `MI` is the index of the scanned
instruction and `dominates` is `DT_->dominates` on the instructions of the
block. -/
def searchScan (dominates : Nat → Nat → Bool) (insts : List TaggedInstr) (I : TaggedInstr) :
    Nat → Option Bool
  | 0 =>
    match insts[0]? with
    | none => none
    | some E => some (E.2.isIdemBoundary && dominates E.1 I.1)
  | MI + 1 =>
    match insts[MI + 1]? with
    | none => none
    | some M =>
      if M.2.isIdemBoundary && dominates M.1 I.1 then some true
      else if M.2.mayLoad then some false
      else searchScan dominates insts I MI

/-- `searchForPriorBoundaries(I)`: the worklist holds the one item
`(StartBB, prev(I))`, for which `E` is `BB->begin()`, and nothing is pushed,
the loop over the predecessors being commented out. -/
def searchForPriorBoundaries (dominates : Nat → Nat → Bool) (insts : List TaggedInstr)
    (I : Nat) : Option Bool :=
  match insts[I]? with
  | none => none
  | some MI => if I = 0 then some false else searchScan dominates insts MI (I - 1)

/-- The second loop of `removeDuplicates` on one block; after an erase the loop
goes on with `I = B->begin(); ++I`. -/
def removeDominatedLoop (dominates : Nat → Nat → Bool) :
    Nat → List TaggedInstr → Nat → Option (List TaggedInstr)
  | 0, _, _ => none
  | fuel + 1, insts, I =>
    match insts[I]? with
    | none => some insts
    | some MI =>
      if MI.2.isIdemBoundary then
        match searchForPriorBoundaries dominates insts I with
        | none => none
        | some true =>
          match insts.eraseIdx I with
          | [] => none
          | MI1 :: rest => removeDominatedLoop dominates fuel (MI1 :: rest) 1
        | some false => removeDominatedLoop dominates fuel insts (I + 1)
      else removeDominatedLoop dominates fuel insts (I + 1)

/-- The second loop of `removeDuplicates` on one block, from `B->begin()`. -/
def removeDominated (dominates : Nat → Nat → Bool) (insts : List TaggedInstr) :
    Option (List TaggedInstr) :=
  removeDominatedLoop dominates ((insts.length + 2) * (insts.length + 2)) insts 0

/-- `MachineIdempotentRegions::removeDuplicates`: the first loop over all
blocks, then the second loop over all blocks. `DT_dominates` is
`DT_->dominates` on the instructions as they stand before the pass. -/
def removeDuplicates (DT_dominates : InstPos → InstPos → Bool) (MF : MachineFunction) :
    Option MachineFunction :=
  match (MF.blocks.map (fun B => B.insts.enum)).mapM removeObvious with
  | none => none
  | some Obvious =>
    match Obvious.enum.mapM
        (fun B => removeDominated (fun MI I => DT_dominates ⟨B.1, MI⟩ ⟨B.1, I⟩) B.2) with
    | none => none
    | some Kept =>
      some ⟨List.zipWith (fun B insts => { B with insts := insts.map (fun MI => MI.2) })
        MF.blocks Kept⟩

/-- What the loops of `removeDuplicates` keep true of a block: the
instructions that are left stand in their original order, every instruction
that is no boundary is left, and before every removed instruction stands a
boundary that is left, with no load-capable instruction between the two. -/
structure DupInv (orig : List MachineInstr) (cur : List TaggedInstr) : Prop where
  sorted : cur.Pairwise (fun a b => a.1 < b.1)
  sub : ∀ x ∈ cur, orig[x.1]? = some x.2
  sublist : (cur.map (fun x => x.2)).Sublist orig
  nonb : (cur.filter (fun x => !x.2.isIdemBoundary)).map (fun x => x.2) =
    orig.filter (fun MI => !MI.isIdemBoundary)
  keep : ∀ i MI, orig[i]? = some MI → MI.isIdemBoundary = false → (i, MI) ∈ cur
  removed : ∀ i MI, orig[i]? = some MI → (i, MI) ∉ cur →
    ∃ k MK, (k, MK) ∈ cur ∧ k < i ∧ MK.isIdemBoundary = true ∧
      ∀ j MJ, k < j → j < i → orig[j]? = some MJ → MJ.mayLoad = false

/-- No two boundaries stand one behind the other. -/
def NoAdjacentBoundaries (insts : List MachineInstr) : Prop :=
  ∀ j MI MJ, insts[j]? = some MI → insts[j + 1]? = some MJ →
    ¬ (MI.isIdemBoundary = true ∧ MJ.isIdemBoundary = true)

/-- A load. -/
def loadInstr : MachineInstr :=
  ⟨.other, true, false, false, false, false, none, none, []⟩

/-- Two blocks; the first holds boundaries one behind the other and a boundary
behind an instruction that loads nothing, the second a boundary behind a
load. -/
def exampleDuplicates : MachineFunction :=
  ⟨[⟨[idemInstr, idemInstr, idemInstr, plainInstr, idemInstr, loadInstr], [], [1]⟩,
    ⟨[idemInstr, loadInstr, idemInstr, plainInstr], [0], []⟩]⟩

/-- The dominance of an instruction over a later instruction of its block. -/
def earlierInBlock (MI I : InstPos) : Bool := decide (MI.bb = I.bb ∧ MI.idx < I.idx)

/-! ## The fix-up of stack spills (`MachineIdempotentRegions.cpp`) -/

/-- How the loop of the machine-level `scanForAliasingLoad` ends: at `E`
(the function returns false), at a boundary or a call (it returns true), or at
a load from the stack slot of the store (it calls `createRegionBefore` and
returns true). -/
inductive ScanEnd where
  | notFound
  | cut
  | aliasingLoad
deriving DecidableEq, Repr

/-- The loop `while (I != E) { --I; ... }` of the machine-level
`scanForAliasingLoad(Store, I, E, FI)` on the instructions of the block of
`I`; the last argument is the index of `I`. Decrementing `begin()` is the
result `none`. -/
def scanSlotLoop (insts : List MachineInstr) (FI : Int) (E : Nat) : Nat → Option ScanEnd
  | 0 => if E = 0 then some .notFound else none
  | I + 1 =>
    if I + 1 = E then some .notFound
    else
      match insts[I]? with
      | none => none
      | some MI =>
        if MI.isIdemBoundary || MI.isCall then some .cut
        else if MI.loadFromStackSlot = some FI then some .aliasingLoad
        else scanSlotLoop insts FI E I

/-- The state of one call of the machine-level `findAntidependencePairs`: the
function, its regions, the store `MI`, the worklist of iterators and the
visited blocks. The source refers to instructions by pointer, so the store and
the iterators of the worklist go on designating the same places after a
boundary has been inserted. -/
structure SpillSearch where
  MF : MachineFunction
  MIR : MachineIdempotentRegions
  MI : InstPos
  Worklist : List InstPos
  Visited : List Nat

/-- The machine-level `scanForAliasingLoad(Store, I, E, FI)`, where `Store` is
the store of the state and `I` has the index `I` in block `BB`. -/
def MachineIdempotentRegions.scanForAliasingLoad (St : SpillSearch) (BB I E : Nat) (FI : Int) :
    Option (Bool × SpillSearch) :=
  match St.MF.blocks[BB]? with
  | none => none
  | some B =>
    match scanSlotLoop B.insts FI E I with
    | none => none
    | some .notFound => some (false, St)
    | some .cut => some (true, St)
    | some .aliasingLoad =>
      match MachineIdempotentRegions.createRegionBefore St.MF St.MIR St.MI.bb St.MI with
      | none => none
      | some (MF1, MIR1, _) =>
        some (true,
          { MF := MF1, MIR := MIR1, MI := St.MI.afterInsert St.MI.bb St.MI.idx
            Worklist := St.Worklist.map (fun I => I.afterInsert St.MI.bb St.MI.idx)
            Visited := St.Visited })

/-- The loop over the predecessors in the machine-level
`findAntidependencePairs`: an unvisited predecessor is pushed with the
iterator `(*P)->end()`. -/
def pushSpillPreds (MF : MachineFunction) :
    List Nat → List InstPos → List Nat → Option (List InstPos × List Nat)
  | [], Worklist, Visited => some (Worklist, Visited)
  | P :: Ps, Worklist, Visited =>
    if P ∈ Visited then pushSpillPreds MF Ps Worklist Visited
    else
      match MF.blocks[P]? with
      | none => none
      | some B => pushSpillPreds MF Ps (⟨P, B.insts.length⟩ :: Worklist) (P :: Visited)

/-- The `do ... while (!Worklist.empty())` loop of the machine-level
`findAntidependencePairs(MI)`. -/
def MachineIdempotentRegions.findAntidependencePairsLoop : Nat → SpillSearch → Option SpillSearch
  | 0, _ => none
  | fuel + 1, St =>
    match St.Worklist with
    | [] => some St
    | ⟨BB, I⟩ :: Worklist =>
      match St.MF.blocks[BB]?, St.MF.inst? St.MI with
      | some B, some Store =>
        let E := if BB = St.MI.bb ∧ I = B.insts.length then St.MI.idx else 0
        let scanned : Option (Bool × SpillSearch) :=
          match Store.storeToStackSlot with
          | some FI =>
            MachineIdempotentRegions.scanForAliasingLoad { St with Worklist := Worklist } BB I E FI
          | none => some (false, { St with Worklist := Worklist })
        match scanned with
        | none => none
        | some (true, St1) => MachineIdempotentRegions.findAntidependencePairsLoop fuel St1
        | some (false, St1) =>
          match pushSpillPreds St1.MF B.preds St1.Worklist St1.Visited with
          | none => none
          | some (Worklist1, Visited1) =>
            MachineIdempotentRegions.findAntidependencePairsLoop fuel
              { St1 with Worklist := Worklist1, Visited := Visited1 }
      | _, _ => none

/-- The machine-level `findAntidependencePairs(MI)`; the result holds the
function and the regions after the call and the place of `MI` in it. -/
def MachineIdempotentRegions.findAntidependencePairs (MF : MachineFunction)
    (MIR : MachineIdempotentRegions) (MI : InstPos) : Option SpillSearch :=
  MachineIdempotentRegions.findAntidependencePairsLoop (MF.blocks.length + 2)
    { MF := MF, MIR := MIR, MI := MI, Worklist := [MI], Visited := [] }

/-- The loop over the instructions of block `B` in `fixStackSpills`, from the
instruction with the index `I` on. -/
def fixStackSpillsBlock :
    Nat → MachineFunction × MachineIdempotentRegions → Nat → Nat →
      Option (MachineFunction × MachineIdempotentRegions)
  | 0, _, _, _ => none
  | fuel + 1, S, B, I =>
    match S.1.inst? ⟨B, I⟩ with
    | none => some S
    | some MI =>
      if MI.mayStore then
        match MachineIdempotentRegions.findAntidependencePairs S.1 S.2 ⟨B, I⟩ with
        | none => none
        | some St => fixStackSpillsBlock fuel (St.MF, St.MIR) B (St.MI.idx + 1)
      else fixStackSpillsBlock fuel S B (I + 1)

/-- The loop over the blocks in `fixStackSpills`. -/
def fixStackSpillsBlocks :
    List Nat → MachineFunction × MachineIdempotentRegions →
      Option (MachineFunction × MachineIdempotentRegions)
  | [], S => some S
  | B :: Bs, S =>
    match fixStackSpillsBlock (S.1.blockLen B + 1) S B 0 with
    | none => none
    | some S1 => fixStackSpillsBlocks Bs S1

/-- `MachineIdempotentRegions::fixStackSpills`. -/
def MachineIdempotentRegions.fixStackSpills (IdempotenceConstructionMode : ConstructionMode)
    (MF : MachineFunction) (MIR : MachineIdempotentRegions) :
    Option (MachineFunction × MachineIdempotentRegions) :=
  if IdempotenceConstructionMode = .OptimizeForIdeal then some (MF, MIR)
  else fixStackSpillsBlocks (List.range MF.blocks.length) (MF, MIR)

/-! ## Vocabulary for the fix-up of stack spills -/

/-- The function with `k` boundaries inserted immediately before the
instruction at `p`. -/
def insertBoundaries (MF : MachineFunction) (p : InstPos) (k : Nat) : MachineFunction :=
  match MF.blocks[p.bb]? with
  | none => MF
  | some B =>
    ⟨MF.blocks.set p.bb
      { B with insts := B.insts.take p.idx ++ (List.replicate k idemInstr ++ B.insts.drop p.idx) }⟩

/-- How the scan for the store at `S`, which writes the stack slot `FI` if any,
ends in block `b` when the block is entered from its end. -/
def slotEnd (MF : MachineFunction) (S : InstPos) (FI : Option Int) (b : Nat) : Option ScanEnd :=
  match MF.blocks[b]?, FI with
  | none, _ => none
  | some _, none => some .notFound
  | some B, some FI =>
    scanSlotLoop B.insts FI (if b = S.bb then S.idx else 0) B.insts.length

/-- Whether the scan of a block entered from its end terminates the path. -/
def slotStop (MF : MachineFunction) (S : InstPos) (FI : Option Int) (b : Nat) : Option Bool :=
  (slotEnd MF S FI b).map (fun r => decide (r ≠ .notFound))

/-- How the first scan ends, which starts at the store. -/
def slotFirst (MF : MachineFunction) (S : InstPos) (FI : Option Int) : Option ScanEnd :=
  match MF.blocks[S.bb]?, FI with
  | none, _ => none
  | some _, none => some .notFound
  | some B, some FI => scanSlotLoop B.insts FI 0 S.idx

/-- A load from the stack slot `FI` is exposed to the store at `S`: there is a
control-flow path from the load to the store on which no instruction strictly
between the two is a boundary or a call. -/
def ExposedLoad (MF : MachineFunction) (FI : Int) (S : InstPos) : Prop :=
  ∃ (L : InstPos) (rest : List InstPos) (LI : MachineInstr),
    IsPath MF.cfg (L :: rest) ∧ rest.getLast? = some S ∧
    MF.inst? L = some LI ∧ LI.loadFromStackSlot = some FI ∧
    ∀ p ∈ rest.dropLast, MF.exitAt p = false

/-- A load from the stack slot `FI`. -/
def slotLoadInstr (FI : Int) : MachineInstr :=
  ⟨.other, true, false, false, false, false, none, some FI, []⟩

/-- A store to the stack slot `FI`. -/
def slotStoreInstr (FI : Int) : MachineInstr :=
  ⟨.other, false, true, false, false, false, some FI, none, []⟩

/-- Four blocks: the entry branches to the blocks 1 and 2, which both load
from stack slot 0 and go on to block 3, which stores to stack slot 0. -/
def exampleTwoSpillPaths : MachineFunction :=
  ⟨[⟨[plainInstr], [], [1, 2]⟩,
    ⟨[slotLoadInstr 0], [0], [3]⟩,
    ⟨[slotLoadInstr 0], [0], [3]⟩,
    ⟨[slotStoreInstr 0, plainInstr], [1, 2], []⟩]⟩

/-- The number of the blocks, among those entered from their end, in which the
scan for the store ends at a load from its stack slot. -/
def slotInserts (MF : MachineFunction) (S : InstPos) (FI : Option Int) (tr : List Nat) : Nat :=
  (tr.filter (fun b => decide (slotEnd MF S FI b = some .aliasingLoad))).length

/-- An instruction that ends the scan for a store to the stack slot `FI`: a
boundary, a call or a load from the stack slot. -/
def slotStopperAt (MF : MachineFunction) (FI : Int) (p : InstPos) : Bool :=
  match MF.inst? p with
  | some MI => MI.isIdemBoundary || MI.isCall || decide (MI.loadFromStackSlot = some FI)
  | none => false

/-- What the fix-up of stack spills needs of the function: the predecessor
lists name blocks of the function and mirror the successor lists, a store to a
stack slot may store, and a load from a stack slot is neither a boundary nor a
call. -/
structure SpillOk (MF : MachineFunction) : Prop where
  predsValid : ∀ (b : Nat) (B : MachineBasicBlock), MF.blocks[b]? = some B →
    ∀ s ∈ B.preds, s < MF.blocks.length
  mirror : ∀ (a s : Nat) (A Sb : MachineBasicBlock), MF.blocks[a]? = some A →
    MF.blocks[s]? = some Sb → s ∈ A.succs → a ∈ Sb.preds
  storeMayStore : ∀ (p : InstPos) (MI : MachineInstr), MF.inst? p = some MI →
    MI.storeToStackSlot.isSome = true → MI.mayStore = true
  loadNoCut : ∀ (p : InstPos) (MI : MachineInstr), MF.inst? p = some MI →
    MI.loadFromStackSlot.isSome = true → MI.isIdemBoundary = false ∧ MI.isCall = false

/-- No load is exposed to a store to a stack slot that stands in a block
before block `b` or in block `b` before index `I`. -/
def SafeUpTo (MF : MachineFunction) (b I : Nat) : Prop :=
  ∀ (p : InstPos) (Store : MachineInstr) (FI : Int),
    (p.bb < b ∨ (p.bb = b ∧ p.idx < I)) → MF.inst? p = some Store →
    Store.storeToStackSlot = some FI → ¬ ExposedLoad MF FI p

/-- Where an instruction stood before `k` boundaries were inserted before index
`i` of block `b`. -/
def InstPos.beforeInsert (b i k : Nat) (p : InstPos) : InstPos :=
  if p.bb = b ∧ i + k ≤ p.idx then ⟨p.bb, p.idx - k⟩ else p

end Ratchet

namespace Ratchet

/-! ## The scans of the machine-level `findAntidependencePairs` -/

/-- The loop of the machine-level `findAntidependencePairs(MI)` that also
records, for every work item it takes from the worklist, the block of the item
and how the scan of the item ends, in order. The scan is the loop that
`scanForAliasingLoad` runs on the item, so it ends at `aliasingLoad` exactly
when `scanForAliasingLoad` calls `createRegionBefore`. For a store that writes
no stack slot no scan is made and the path goes on to the predecessors, which
is recorded as `notFound`. -/
def MachineIdempotentRegions.findAntidependencePairsLog :
    Nat → SpillSearch → List (Nat × ScanEnd) → Option (SpillSearch × List (Nat × ScanEnd))
  | 0, _, _ => none
  | fuel + 1, St, Log =>
    match St.Worklist with
    | [] => some (St, Log)
    | ⟨BB, I⟩ :: Worklist =>
      match St.MF.blocks[BB]?, St.MF.inst? St.MI with
      | some B, some Store =>
        let E := if BB = St.MI.bb ∧ I = B.insts.length then St.MI.idx else 0
        let ended : Option ScanEnd :=
          match Store.storeToStackSlot with
          | some FI => scanSlotLoop B.insts FI E I
          | none => some .notFound
        let scanned : Option (Bool × SpillSearch) :=
          match Store.storeToStackSlot with
          | some FI =>
            MachineIdempotentRegions.scanForAliasingLoad { St with Worklist := Worklist } BB I E FI
          | none => some (false, { St with Worklist := Worklist })
        match ended, scanned with
        | some r, some (true, St1) =>
          MachineIdempotentRegions.findAntidependencePairsLog fuel St1 (Log ++ [(BB, r)])
        | some r, some (false, St1) =>
          match pushSpillPreds St1.MF B.preds St1.Worklist St1.Visited with
          | none => none
          | some (Worklist1, Visited1) =>
            MachineIdempotentRegions.findAntidependencePairsLog fuel
              { St1 with Worklist := Worklist1, Visited := Visited1 } (Log ++ [(BB, r)])
        | _, _ => none
      | _, _ => none

/-- The machine-level `findAntidependencePairs(MI)` with the scans it makes:
the result holds the state after the call and, for every work item in the order
in which the items are taken from the worklist, the block of the item and how
its scan ends. -/
def MachineIdempotentRegions.findAntidependencePairsScans (MF : MachineFunction)
    (MIR : MachineIdempotentRegions) (MI : InstPos) :
    Option (SpillSearch × List (Nat × ScanEnd)) :=
  MachineIdempotentRegions.findAntidependencePairsLog (MF.blocks.length + 2)
    { MF := MF, MIR := MIR, MI := MI, Worklist := [MI], Visited := [] } []

end Ratchet

namespace Ratchet

/-! ## verifyInstruction -/

theorem verifyOperand_eq (TRI : TargetRegisterInfo) (MI : MachineInstr) (MO : MachineOperand)
    (LiveIns : List Nat)
    (h : ∀ Reg d u i, MO = .reg Reg d u i → isStackSlot Reg = false) :
    verifyOperand TRI MI MO LiveIns =
      some (match checkedLocation TRI MI MO with
            | some r => !(LiveIns.contains r)
            | none => true) := by
  cases MO with
  | reg Reg d u i =>
    have hs := h Reg d u i rfl
    simp only [verifyOperand, checkedLocation, isPhysicalRegister, hs, verifyReg,
      Bool.false_eq_true, if_false]
    generalize (d && !(u && MI.isCopyLike) && !(i && MI.isCall)) = b1
    generalize (decide (0 < Reg ∧ Reg < 2 ^ 31) && TRI.isProtectedRegister Reg) = b2
    by_cases h3 : Reg = 0
    · cases b1 <;> cases b2 <;> simp [h3]
    · cases b1 <;> cases b2 <;> simp [h3]
  | frameIndex Index =>
    simp only [verifyOperand, checkedLocation, verifyReg]
    generalize (MI.mayStore && decide (Index > 0)) = b1
    by_cases h3 : index2StackSlot Index = 0
    · cases b1 <;> simp [h3]
    · cases b1 <;> simp [h3]
  | imm v => simp [verifyOperand, checkedLocation]
  | global n => simp [verifyOperand, checkedLocation]
  | other => simp [verifyOperand, checkedLocation]

theorem verifyOperands_eq (TRI : TargetRegisterInfo) (MI : MachineInstr) (LiveIns : List Nat)
    (MOs : List MachineOperand) (Verified : Bool)
    (h : ∀ Reg d u i, MachineOperand.reg Reg d u i ∈ MOs → isStackSlot Reg = false) :
    verifyOperands TRI MI LiveIns MOs Verified =
      some (Verified && (MOs.filterMap (checkedLocation TRI MI)).all
        (fun r => !(LiveIns.contains r))) := by
  induction MOs generalizing Verified with
  | nil => simp [verifyOperands]
  | cons MO MOs ih =>
    have h0 : ∀ Reg d u i, MO = .reg Reg d u i → isStackSlot Reg = false := by
      intro Reg d u i e
      exact h Reg d u i (by simp [e])
    have h1 : ∀ Reg d u i, MachineOperand.reg Reg d u i ∈ MOs → isStackSlot Reg = false := by
      intro Reg d u i e
      exact h Reg d u i (by simp [e])
    rw [verifyOperands, verifyOperand_eq TRI MI MO LiveIns h0]
    simp only [ih _ h1]
    cases hc : checkedLocation TRI MI MO with
    | none => simp [List.filterMap_cons, hc]
    | some r => simp [List.filterMap_cons, hc, Bool.and_assoc]

/-- C8 (as stated, refuted): an instruction that writes the protected stack
pointer verifies against a live-in set containing it, although it defines a
member of the set. -/
theorem verifyInstruction_ignores_protected_def :
    verifyInstruction exampleTRI exampleStackPointerDef [13] = some true
      ∧ 13 ∈ exampleStackPointerDef.definedLocations ∧ 13 ∈ [13] := by
  decide

/-- C8 (amended): `verifyInstruction` returns, and it returns true exactly when
the instruction is an identity copy or a kill, or none of the locations it
checks is live-in; the checked locations leave out register `0`, undef defs of
copy-like instructions, implicit defs of calls, protected physical registers,
and frame indices that are not greater than `0` or belong to an instruction
that does not store. -/
theorem verifyInstruction_iff_checked (TRI : TargetRegisterInfo) (MI : MachineInstr)
    (LiveIns : List Nat)
    (h : ∀ Reg d u i, MachineOperand.reg Reg d u i ∈ MI.operands → isStackSlot Reg = false) :
    ∃ b, verifyInstruction TRI MI LiveIns = some b ∧
      (b = true ↔ (MI.isIdentityCopy = true ∨ MI.isKill = true ∨
        ∀ r ∈ checkedLocations TRI MI, r ∉ LiveIns)) := by
  unfold verifyInstruction
  by_cases hk : (MI.isIdentityCopy || MI.isKill) = true
  · refine ⟨true, by simp [hk], ?_⟩
    simp only [Bool.or_eq_true] at hk
    rcases hk with hk | hk <;> simp [hk]
  · rw [if_neg hk, verifyOperands_eq TRI MI LiveIns MI.operands true h]
    refine ⟨_, rfl, ?_⟩
    simp only [Bool.or_eq_true, not_or, Bool.not_eq_true] at hk
    simp only [hk.1, hk.2, checkedLocations, List.all_eq_true, Bool.true_and, false_or,
      Bool.false_eq_true]
    constructor
    · intro H r hr
      simpa using H r hr
    · intro H r hr
      simpa using H r hr

/-- Witness of C8 (amended) on the stack-pointer write. -/
theorem verifyInstruction_iff_checked_witness :
    ∃ b, verifyInstruction exampleTRI exampleStackPointerDef [13] = some b ∧
      (b = true ↔ (exampleStackPointerDef.isIdentityCopy = true ∨
        exampleStackPointerDef.isKill = true ∨
        ∀ r ∈ checkedLocations exampleTRI exampleStackPointerDef, r ∉ [13])) :=
  verifyInstruction_iff_checked exampleTRI exampleStackPointerDef [13]
    (by intro Reg d u i hm; simp [exampleStackPointerDef] at hm; rw [hm.1]; decide)

end Ratchet

namespace Ratchet

/-! ## The candidate map -/

theorem lookup_some_key {M : CandidateInfoMapTy} {c : InstPos} {C : CandidateInfo}
    (h : M.lookup c = some C) : C.Candidate_ = c := by
  unfold CandidateInfoMapTy.lookup at h
  simpa using List.find?_some h

theorem lookup_some_mem {M : CandidateInfoMapTy} {c : InstPos} {C : CandidateInfo}
    (h : M.lookup c = some C) : C ∈ M := by
  unfold CandidateInfoMapTy.lookup at h
  exact List.mem_of_find?_eq_some h

theorem lookup_update_ne (M : CandidateInfoMapTy) (C : CandidateInfo) (c : InstPos)
    (h : c ≠ C.Candidate_) : (M.update C).lookup c = M.lookup c := by
  unfold CandidateInfoMapTy.update CandidateInfoMapTy.lookup
  induction M with
  | nil => rfl
  | cons X M ih =>
    simp only [List.map_cons, List.find?_cons]
    by_cases hX : X.Candidate_ = C.Candidate_
    · have h1 : ¬ C.Candidate_ = c := fun e => h e.symm
      have h2 : ¬ X.Candidate_ = c := fun e => h (by rw [← e, hX])
      simp [hX, h1, h2, ih]
    · simp only [hX, if_false]
      by_cases hXc : X.Candidate_ = c
      · simp [hXc]
      · simp [hXc, ih]

theorem lookup_update_self (M : CandidateInfoMapTy) (C C0 : CandidateInfo)
    (h : M.lookup C.Candidate_ = some C0) : (M.update C).lookup C.Candidate_ = some C := by
  unfold CandidateInfoMapTy.update CandidateInfoMapTy.lookup at *
  induction M with
  | nil => simp at h
  | cons X M ih =>
    simp only [List.map_cons, List.find?_cons] at h ⊢
    by_cases hX : X.Candidate_ = C.Candidate_
    · simp [hX]
    · simp only [hX, decide_False] at h
      simp only [hX, if_false, decide_False]
      exact ih h

theorem keys_update (M : CandidateInfoMapTy) (C : CandidateInfo) :
    (M.update C).map (fun X => X.Candidate_) = M.map (fun X => X.Candidate_) := by
  unfold CandidateInfoMapTy.update
  induction M with
  | nil => rfl
  | cons X M ih =>
    simp only [List.map_cons, List.map_map] at ih ⊢
    by_cases hX : X.Candidate_ = C.Candidate_
    · simp [hX, ih]
    · simp [hX, ih]

theorem lookup_isSome_iff (M : CandidateInfoMapTy) (c : InstPos) :
    (∃ C, M.lookup c = some C) ↔ c ∈ M.map (fun X => X.Candidate_) := by
  unfold CandidateInfoMapTy.lookup
  constructor
  · rintro ⟨C, h⟩
    have h1 := List.mem_of_find?_eq_some h
    have h2 := List.find?_some h
    simp only [decide_eq_true_eq] at h2
    exact List.mem_map.mpr ⟨C, h1, h2⟩
  · intro h
    obtain ⟨X, hX, hk⟩ := List.mem_map.mp h
    cases hf : M.find? (fun C => decide (C.Candidate_ = c)) with
    | some C => exact ⟨C, rfl⟩
    | none =>
      rw [List.find?_eq_none] at hf
      exact absurd (by simpa using hk) (hf X hX)

theorem priorityOf_update_ne (M : CandidateInfoMapTy) (C : CandidateInfo) (c : InstPos)
    (h : c ≠ C.Candidate_) : priorityOf (M.update C) c = priorityOf M c := by
  unfold priorityOf
  rw [lookup_update_ne M C c h]

/-! ## Binary search -/

theorem lowerBoundLoop_spec (M : CandidateInfoMapTy) (Worklist : List InstPos) (Value : Nat) :
    ∀ (fuel first len : Nat), len ≤ fuel → first + len ≤ Worklist.length →
      (first = 0 ∨ ltAt M Worklist Value (first - 1)) →
      (first + len = Worklist.length ∨ ¬ ltAt M Worklist Value (first + len)) →
      let k := lowerBoundLoop M Worklist Value fuel first len
      k ≤ Worklist.length ∧ (k = 0 ∨ ltAt M Worklist Value (k - 1)) ∧
        (k = Worklist.length ∨ ¬ ltAt M Worklist Value k) := by
  intro fuel
  induction fuel with
  | zero =>
    intro first len hlen hb h1 h2
    have : len = 0 := by omega
    subst this
    simp only [lowerBoundLoop]
    exact ⟨by omega, h1, by simpa using h2⟩
  | succ fuel ih =>
    intro first len hlen hb h1 h2
    simp only [lowerBoundLoop]
    by_cases hl : len = 0
    · subst hl
      simp only [if_true]
      exact ⟨by omega, h1, by simpa using h2⟩
    · simp only [hl, if_false]
      have hmid : first + len / 2 < Worklist.length := by
        have : len / 2 < len := Nat.div_lt_self (by omega) (by omega)
        omega
      have hget : Worklist[first + len / 2]? = some (Worklist[first + len / 2]) :=
        List.getElem?_eq_getElem hmid
      rw [hget]
      simp only
      by_cases hlt : priorityOf M Worklist[first + len / 2] < Value
      · simp only [hlt, if_true]
        have hd : len / 2 < len := Nat.div_lt_self (by omega) (by omega)
        apply ih
        · omega
        · omega
        · right
          refine ⟨_, ?_, hlt⟩
          simpa using hget
        · have e : first + len / 2 + 1 + (len - len / 2 - 1) = first + len := by omega
          rw [e]
          exact h2
      · simp only [hlt, if_false]
        have hd : len / 2 < len := Nat.div_lt_self (by omega) (by omega)
        apply ih
        · omega
        · omega
        · exact h1
        · right
          rintro ⟨C, hC, hCl⟩
          rw [hget] at hC
          cases hC
          exact hlt hCl

theorem lowerBound_spec (M : CandidateInfoMapTy) (Worklist : List InstPos) (Value : Nat) :
    lowerBound M Worklist Value ≤ Worklist.length ∧
      (lowerBound M Worklist Value = 0 ∨
        ltAt M Worklist Value (lowerBound M Worklist Value - 1)) ∧
      (lowerBound M Worklist Value = Worklist.length ∨
        ¬ ltAt M Worklist Value (lowerBound M Worklist Value)) := by
  unfold lowerBound
  exact lowerBoundLoop_spec M Worklist Value Worklist.length 0 Worklist.length (le_refl _)
    (by omega) (Or.inl rfl) (Or.inl (by omega))

end Ratchet

namespace Ratchet

/-! ## processRedundantCandidate -/

theorem remove_spec (C : CandidateInfo) (I : Nat) (hI : I ∈ C.UnintersectedPaths_)
    (hcnt : C.UnintersectedPaths = C.UnintersectedPaths_.length)
    (hb : C.UnintersectedPaths + C.IntersectedPaths < 32768) :
    ∃ C', C.remove I = some C' ∧ C'.Candidate_ = C.Candidate_ ∧
      C'.UnintersectedPaths_ = C.UnintersectedPaths_.erase I ∧
      C'.UnintersectedPaths = C'.UnintersectedPaths_.length ∧
      C'.UnintersectedPaths + C'.IntersectedPaths = C.UnintersectedPaths + C.IntersectedPaths ∧
      C'.Priority_ < C.Priority_ := by
  have hpos : 0 < C.UnintersectedPaths_.length := List.length_pos_of_mem hI
  have h1 : (C.UnintersectedPaths + 65535) % 65536 = C.UnintersectedPaths - 1 := by omega
  have h2 : (C.IntersectedPaths + 1) % 65536 = C.IntersectedPaths + 1 := by omega
  have hlen : (C.UnintersectedPaths_.erase I).length = C.UnintersectedPaths_.length - 1 :=
    List.length_erase_of_mem hI
  refine ⟨{ C with
      UnintersectedPaths := C.UnintersectedPaths - 1
      IntersectedPaths := C.IntersectedPaths + 1
      UnintersectedPaths_ := C.UnintersectedPaths_.erase I }, ?_, rfl, rfl, ?_, ?_, ?_⟩
  · unfold CandidateInfo.remove
    simp only [h1, h2]
    rw [if_pos (by constructor <;> omega), if_pos hI, if_pos (by simp only [hlen]; omega)]
  · simp only [hlen]; omega
  · simp only; omega
  · unfold CandidateInfo.Priority_
    simp only
    have : C.UnintersectedPaths = (C.UnintersectedPaths - 1) + 1 := by omega
    generalize C.UnintersectedPaths - 1 = u at this
    rw [this]
    omega

theorem findOldPosition_append (J : InstPos) (X Y : List InstPos) (s : Nat) (hX : J ∉ X) :
    findOldPosition J (X ++ J :: Y) s = some (s + X.length) := by
  induction X generalizing s with
  | nil => simp [findOldPosition]
  | cons x X ih =>
    have hx : x ≠ J := fun e => hX (by simp [e])
    have hX' : J ∉ X := fun e => hX (by simp [e])
    rw [List.cons_append, findOldPosition, if_neg hx, ih (s + 1) hX', List.length_cons]
    congr 1
    omega

theorem rotate_eq (A B Y : List InstPos) (J : InstPos) :
    rotate (A ++ B ++ J :: Y) A.length (A.length + B.length) = A ++ J :: (B ++ Y) := by
  unfold rotate
  have e1 : (A ++ B ++ J :: Y).take A.length = A := by
    rw [List.append_assoc, List.take_left']
    rfl
  have e2 : (A ++ B ++ J :: Y).drop (A.length + B.length) = J :: Y := by
    rw [List.drop_left']
    simp
  have e3 : (A ++ B ++ J :: Y).drop A.length = B ++ J :: Y := by
    rw [List.append_assoc, List.drop_left']
    rfl
  have e4 : (A ++ B ++ J :: Y).drop (A.length + B.length + 1) = Y := by
    have : A ++ B ++ J :: Y = (A ++ B ++ [J]) ++ Y := by simp
    rw [this, List.drop_left' (by simp; omega)]
  rw [e1, e2, e3, e4]
  simp [List.take_left']

theorem getElem?_split (X Y : List InstPos) (J : InstPos) (i : Nat) (c : InstPos)
    (h : (X ++ J :: Y)[i]? = some c) :
    (i < X.length ∧ X[i]? = some c) ∨ (i = X.length ∧ c = J) ∨ (X.length < i ∧ c ∈ Y) := by
  rcases Nat.lt_trichotomy i X.length with hlt | heq | hgt
  · left
    rw [List.getElem?_append_left hlt] at h
    exact ⟨hlt, h⟩
  · right; left
    subst heq
    rw [List.getElem?_append_right (le_refl _)] at h
    simp at h
    exact ⟨rfl, h.symm⟩
  · right; right
    rw [List.getElem?_append_right (by omega)] at h
    have : i - X.length = (i - X.length - 1) + 1 := by omega
    rw [this, List.getElem?_cons_succ] at h
    exact ⟨hgt, List.getElem?_mem h⟩

theorem sorted_take_lt (ps : List Nat) (k v : Nat) (hs : ps.Pairwise (fun a b => a ≤ b))
    (h : k = 0 ∨ ∃ c, ps[k - 1]? = some c ∧ c < v) : ∀ a ∈ ps.take k, a < v := by
  intro a ha
  rcases h with h0 | ⟨c, hc, hlt⟩
  · subst h0
    simp at ha
  · rcases Nat.eq_zero_or_pos k with h0 | hp
    · subst h0
      simp at ha
    · have hk : k = (k - 1) + 1 := by omega
      rw [hk, List.take_succ, hc] at ha
      simp only [Option.toList_some, List.mem_append, List.mem_singleton] at ha
      rcases ha with ha | ha
      · have hsplit : ps = ps.take (k - 1) ++ ps.drop (k - 1) :=
          (List.take_append_drop _ _).symm
        have hcd : c ∈ ps.drop (k - 1) := by
          have hlen : k - 1 < ps.length := by
            by_contra hcon
            rw [List.getElem?_eq_none (by omega)] at hc
            cases hc
          rw [List.drop_eq_getElem_cons hlen]
          have := List.getElem?_eq_getElem hlen
          rw [this] at hc
          cases hc
          exact List.mem_cons_self _ _
        rw [hsplit, List.pairwise_append] at hs
        have := hs.2.2 a ha c hcd
        omega
      · omega

theorem sorted_drop_ge (ps : List Nat) (k v : Nat) (hs : ps.Pairwise (fun a b => a ≤ b))
    (h : ps.length ≤ k ∨ ∃ c, ps[k]? = some c ∧ ¬ c < v) : ∀ b ∈ ps.drop k, v ≤ b := by
  intro b hb
  rcases h with h0 | ⟨c, hc, hlt⟩
  · rw [List.drop_eq_nil_of_le h0] at hb
    simp at hb
  · have hlen : k < ps.length := by
      by_contra hcon
      rw [List.getElem?_eq_none (by omega)] at hc
      cases hc
    have hsplit : ps = ps.take k ++ ps.drop k := (List.take_append_drop _ _).symm
    rw [hsplit, List.pairwise_append] at hs
    have hsd := hs.2.1
    rw [List.drop_eq_getElem_cons hlen] at hb hsd
    have hck : ps[k] = c := by
      have := List.getElem?_eq_getElem hlen
      rw [this] at hc
      exact Option.some.inj hc
    rw [hck] at hb hsd
    rcases List.mem_cons.mp hb with hb | hb
    · omega
    · have := (List.pairwise_cons.mp hsd).1 b hb
      omega

theorem processRedundantCandidate_spec (M : CandidateInfoMapTy) (Worklist : List InstPos)
    (J : InstPos) (I : Nat) (C : CandidateInfo)
    (hs : SortedBy M Worklist) (hnd : Worklist.Nodup) (hJ : J ∈ Worklist)
    (hC : M.lookup J = some C) (hI : I ∈ C.UnintersectedPaths_)
    (hcnt : C.UnintersectedPaths = C.UnintersectedPaths_.length)
    (hb : C.UnintersectedPaths + C.IntersectedPaths < 32768) :
    ∃ C' Worklist', C.remove I = some C' ∧
      processRedundantCandidate M Worklist J I = some (M.update C', Worklist') ∧
      Worklist'.Perm Worklist ∧ SortedBy (M.update C') Worklist' := by
  obtain ⟨C', hrem, hkey, _, _, _, hprio⟩ := remove_spec C I hI hcnt hb
  have hCk : C.Candidate_ = J := lookup_some_key hC
  have hC'k : C'.Candidate_ = J := by rw [hkey, hCk]
  obtain ⟨X, Y, hsplit⟩ := List.append_of_mem hJ
  subst hsplit
  have hJX : J ∉ X := by
    intro h
    have := List.nodup_append.mp hnd
    exact this.2.2 h (by simp)
  have hJY : J ∉ Y := by
    have := (List.nodup_append.mp hnd).2.1
    exact (List.nodup_cons.mp this).1
  have hpJ : priorityOf M J = C.Priority_ := by simp [priorityOf, hC]
  have hM'J : (M.update C').lookup J = some C' := by
    have := lookup_update_self M C' C (by rw [hC'k]; exact hC)
    rwa [hC'k] at this
  have hp'J : priorityOf (M.update C') J = C'.Priority_ := by simp [priorityOf, hM'J]
  have hp'ne : ∀ c, c ≠ J → priorityOf (M.update C') c = priorityOf M c := by
    intro c hc
    exact priorityOf_update_ne M C' c (by rw [hC'k]; exact hc)
  -- sortedness facts
  unfold SortedBy at hs
  rw [List.map_append, List.map_cons, List.pairwise_append] at hs
  obtain ⟨hsX, hsJY, hXJY⟩ := hs
  rw [List.pairwise_cons] at hsJY
  obtain ⟨hJY', hsY⟩ := hsJY
  have hXle : ∀ x ∈ X, priorityOf M x ≤ C.Priority_ := by
    intro x hx
    have := hXJY (priorityOf M x) (List.mem_map_of_mem _ hx) (priorityOf M J) (by simp)
    rwa [hpJ] at this
  have hYge : ∀ y ∈ Y, C.Priority_ ≤ priorityOf M y := by
    intro y hy
    have := hJY' (priorityOf M y) (List.mem_map_of_mem _ hy)
    rwa [hpJ] at this
  -- first lower bound
  obtain ⟨hk0le, hk0a, _⟩ := lowerBound_spec M (X ++ J :: Y) C.Priority_
  have hStart : lowerBound M (X ++ J :: Y) C.Priority_ ≤ X.length := by
    by_contra hcon
    have hpos : lowerBound M (X ++ J :: Y) C.Priority_ ≠ 0 := by omega
    rcases hk0a with h0 | ⟨c, hc, hlt⟩
    · exact hpos h0
    · rcases getElem?_split X Y J _ c hc with ⟨h1, _⟩ | ⟨_, h2⟩ | ⟨_, h3⟩
      · omega
      · rw [h2, hpJ] at hlt
        exact lt_irrefl _ hlt
      · have := hYge c h3
        omega
  have hfind : findOldPosition J ((X ++ J :: Y).drop (lowerBound M (X ++ J :: Y) C.Priority_))
      (lowerBound M (X ++ J :: Y) C.Priority_) = some X.length := by
    rw [List.drop_append_of_le_length hStart]
    rw [findOldPosition_append J _ Y _ (fun h => hJX (List.mem_of_mem_drop h))]
    rw [List.length_drop]
    exact congrArg some (by omega)
  -- second lower bound
  obtain ⟨_, hk1a, hk1b⟩ := lowerBound_spec (M.update C') (X ++ J :: Y) C'.Priority_
  generalize hk : lowerBound (M.update C') (X ++ J :: Y) C'.Priority_ = k at hk1a hk1b
  have hNew : k ≤ X.length := by
    by_contra hcon
    have hpos : k ≠ 0 := by omega
    rcases hk1a with h0 | ⟨c, hc, hlt⟩
    · exact hpos h0
    · rcases getElem?_split X Y J _ c hc with ⟨h1, _⟩ | ⟨_, h2⟩ | ⟨_, h3⟩
      · omega
      · rw [h2, hp'J] at hlt
        exact lt_irrefl _ hlt
      · have hne : c ≠ J := fun e => hJY (e ▸ h3)
        rw [hp'ne c hne] at hlt
        have := hYge c h3
        omega
  have hXsplit : X = X.take k ++ X.drop k := (List.take_append_drop k X).symm
  have hAlen : (X.take k).length = k := by rw [List.length_take]; omega
  have hBlen : (X.drop k).length = X.length - k := List.length_drop k X
  -- elements before k are smaller than the new priority, those from k on are not
  have hA : ∀ a ∈ X.take k, priorityOf M a < C'.Priority_ := by
    intro a ha
    have h1 : k = 0 ∨ ∃ c, (X.map (priorityOf M))[k - 1]? = some c ∧ c < C'.Priority_ := by
      rcases hk1a with h0 | ⟨c, hc, hlt⟩
      · exact Or.inl h0
      · right
        rcases getElem?_split X Y J _ c hc with ⟨_, h1⟩ | ⟨h2, _⟩ | ⟨h3, _⟩
        · have hcX : c ∈ X := List.getElem?_mem h1
          have hne : c ≠ J := fun e => hJX (e ▸ hcX)
          rw [hp'ne c hne] at hlt
          exact ⟨priorityOf M c, by simp [List.getElem?_map, h1], hlt⟩
        · rcases Nat.eq_zero_or_pos k with h0 | hp
          · subst h0; simp at ha
          · omega
        · omega
    have := sorted_take_lt (X.map (priorityOf M)) k C'.Priority_ hsX h1 (priorityOf M a)
      (by rw [← List.map_take]; exact List.mem_map_of_mem _ ha)
    exact this
  have hB : ∀ b ∈ X.drop k, C'.Priority_ ≤ priorityOf M b := by
    intro b hb'
    have h1 : (X.map (priorityOf M)).length ≤ k ∨
        ∃ c, (X.map (priorityOf M))[k]? = some c ∧ ¬ c < C'.Priority_ := by
      rcases Nat.lt_or_ge k X.length with hklt | hkge
      · right
        rcases hk1b with h0 | hnl
        · simp at h0
          omega
        · have hget : (X ++ J :: Y)[k]? = some X[k] := by
            rw [List.getElem?_append_left hklt]
            exact List.getElem?_eq_getElem hklt
          have hXk : X[k] ∈ X := List.getElem_mem hklt
          have hne : X[k] ≠ J := fun e => hJX (e ▸ hXk)
          refine ⟨priorityOf M X[k], by simp [List.getElem?_map, List.getElem?_eq_getElem hklt], ?_⟩
          intro hcon
          apply hnl
          exact ⟨X[k], hget, by rw [hp'ne _ hne]; exact hcon⟩
      · left
        simpa using hkge
    exact sorted_drop_ge (X.map (priorityOf M)) k C'.Priority_ hsX h1 (priorityOf M b)
      (by rw [← List.map_drop]; exact List.mem_map_of_mem _ hb')
  -- assemble
  refine ⟨C', X.take k ++ J :: (X.drop k ++ Y), hrem, ?_, ?_, ?_⟩
  · unfold processRedundantCandidate
    simp only [hC, hfind, hrem, hk, if_pos hNew]
    have hrot := rotate_eq (X.take k) (X.drop k) Y J
    rw [hAlen, hBlen] at hrot
    have e : k + (X.length - k) = X.length := by omega
    rw [e, ← hXsplit] at hrot
    rw [hrot]
  · have : X ++ J :: Y = X.take k ++ (X.drop k ++ J :: Y) := by
      rw [← List.append_assoc, ← hXsplit]
    rw [this]
    apply List.Perm.append_left
    exact (List.perm_middle).symm
  · unfold SortedBy
    have hmapX : ∀ l : List InstPos, (∀ x ∈ l, x ≠ J) →
        l.map (priorityOf (M.update C')) = l.map (priorityOf M) := by
      intro l hl
      apply List.map_congr_left
      intro x hx
      exact hp'ne x (hl x hx)
    have hAne : ∀ x ∈ X.take k, x ≠ J := fun x hx e => hJX (e ▸ List.mem_of_mem_take hx)
    have hBne : ∀ x ∈ X.drop k, x ≠ J := fun x hx e => hJX (e ▸ List.mem_of_mem_drop hx)
    have hYne : ∀ x ∈ Y, x ≠ J := fun x hx e => hJY (e ▸ hx)
    rw [List.map_append, List.map_cons, List.map_append, hmapX _ hAne, hmapX _ hBne,
      hmapX _ hYne, hp'J]
    have hsAB : ((X.take k).map (priorityOf M) ++ (X.drop k).map (priorityOf M)).Pairwise
        (fun a b => a ≤ b) := by
      rw [← List.map_append, ← hXsplit]
      exact hsX
    rw [List.pairwise_append] at hsAB
    obtain ⟨hsA, hsB, hAB⟩ := hsAB
    rw [List.pairwise_append]
    refine ⟨hsA, ?_, ?_⟩
    · rw [List.pairwise_cons]
      refine ⟨?_, ?_⟩
      · intro p hp
        rcases List.mem_append.mp hp with hpB | hpY
        · obtain ⟨b, hb1, hb2⟩ := List.mem_map.mp hpB
          rw [← hb2]
          exact hB b hb1
        · obtain ⟨y, hy1, hy2⟩ := List.mem_map.mp hpY
          rw [← hy2]
          have := hYge y hy1
          omega
      · rw [List.pairwise_append]
        refine ⟨hsB, hsY, ?_⟩
        intro p hp q hq
        obtain ⟨b, hb1, hb2⟩ := List.mem_map.mp hp
        obtain ⟨y, hy1, hy2⟩ := List.mem_map.mp hq
        rw [← hb2, ← hy2]
        have h1 := hXle b (List.mem_of_mem_drop hb1)
        have h2 := hYge y hy1
        omega
    · intro p hp q hq
      obtain ⟨a, ha1, ha2⟩ := List.mem_map.mp hp
      rw [← ha2]
      have hlt := hA a ha1
      rcases List.mem_cons.mp hq with hqJ | hq'
      · rw [hqJ]; omega
      · rcases List.mem_append.mp hq' with hpB | hpY
        · obtain ⟨b, hb1, hb2⟩ := List.mem_map.mp hpB
          rw [← hb2]
          have := hB b hb1
          omega
        · obtain ⟨y, hy1, hy2⟩ := List.mem_map.mp hpY
          rw [← hy2]
          have := hYge y hy1
          omega

end Ratchet

namespace Ratchet

/-! ## The inner loops of computeHittingSet -/

theorem unintOf_of_lookup {M : CandidateInfoMapTy} {c : InstPos} {C : CandidateInfo}
    (h : M.lookup c = some C) : unintOf M c = C.UnintersectedPaths_ := by
  simp [unintOf, h]

theorem processRedundantCandidate_ok (N : Nat) (hN : N < 32768) (M : CandidateInfoMapTy)
    (Worklist : List InstPos) (J : InstPos) (I : Nat)
    (hW : WorklistOk N M Worklist) (hJ : J ∈ Worklist) (hI : I ∈ unintOf M J) :
    ∃ M' Worklist', processRedundantCandidate M Worklist J I = some (M', Worklist') ∧
      WorklistOk N M' Worklist' ∧ Worklist'.Perm Worklist ∧
      (∀ c, c ≠ J → M'.lookup c = M.lookup c) ∧
      unintOf M' J = (unintOf M J).erase I ∧
      M'.map (fun X => X.Candidate_) = M.map (fun X => X.Candidate_) := by
  obtain ⟨hnd, hs, hall⟩ := hW
  obtain ⟨C, hC, hcnt, hndC, hb⟩ := hall J hJ
  rw [unintOf_of_lookup hC] at hI
  obtain ⟨C', Worklist', hrem, hproc, hperm, hsorted⟩ :=
    processRedundantCandidate_spec M Worklist J I C hs hnd hJ hC hI hcnt (by omega)
  obtain ⟨C'', hrem', hkey, hun, hcnt', hsum, _⟩ := remove_spec C I hI hcnt (by omega)
  rw [hrem] at hrem'
  cases hrem'
  have hCk : C.Candidate_ = J := lookup_some_key hC
  have hC'k : C'.Candidate_ = J := by rw [hkey, hCk]
  have hM'J : (M.update C').lookup J = some C' := by
    have := lookup_update_self M C' C (by rw [hC'k]; exact hC)
    rwa [hC'k] at this
  have hne : ∀ c, c ≠ J → (M.update C').lookup c = M.lookup c := by
    intro c hc
    exact lookup_update_ne M C' c (by rw [hC'k]; exact hc)
  refine ⟨M.update C', Worklist', hproc, ⟨hperm.nodup_iff.mpr hnd, hsorted, ?_⟩, hperm, hne, ?_,
    keys_update M C'⟩
  · intro c hc
    have hcW : c ∈ Worklist := hperm.mem_iff.mp hc
    by_cases hcJ : c = J
    · subst hcJ
      refine ⟨C', hM'J, hcnt', ?_, by omega⟩
      rw [hun]
      exact hndC.erase I
    · rw [hne c hcJ]
      exact hall c hcW
  · rw [unintOf_of_lookup hM'J, unintOf_of_lookup hC, hun]

theorem processPath_ok (N : Nat) (hN : N < 32768) (Picked : InstPos) (I : Nat) :
    ∀ (Js : List InstPos) (M : CandidateInfoMapTy) (Worklist : List InstPos),
      WorklistOk N M Worklist → Js.Nodup →
      (∀ J ∈ Js, J ≠ Picked → J ∈ Worklist ∧ I ∈ unintOf M J) →
      ∃ M' Worklist', processPath Picked I Js M Worklist = some (M', Worklist') ∧
        WorklistOk N M' Worklist' ∧ Worklist'.Perm Worklist ∧
        (∀ c, (c ∉ Js ∨ c = Picked) → M'.lookup c = M.lookup c) ∧
        (∀ c ∈ Js, c ≠ Picked → unintOf M' c = (unintOf M c).erase I) ∧
        M'.map (fun X => X.Candidate_) = M.map (fun X => X.Candidate_) := by
  intro Js
  induction Js with
  | nil =>
    intro M Worklist hW _ _
    exact ⟨M, Worklist, rfl, hW, List.Perm.refl _, fun _ _ => rfl,
      fun c hc => absurd hc (List.not_mem_nil c), rfl⟩
  | cons J Js ih =>
    intro M Worklist hW hnd hJs
    have hJnot : J ∉ Js := (List.nodup_cons.mp hnd).1
    have hndJs : Js.Nodup := (List.nodup_cons.mp hnd).2
    by_cases hJP : J = Picked
    · subst hJP
      obtain ⟨M', Worklist', hp, hW', hperm, hlook, hun, hkeys⟩ := ih M Worklist hW hndJs
        (fun c hc hne => hJs c (List.mem_cons_of_mem _ hc) hne)
      refine ⟨M', Worklist', ?_, hW', hperm, ?_, ?_, hkeys⟩
      · simp only [processPath, ne_eq, not_true_eq_false, if_false]
        exact hp
      · intro c hc
        rcases hc with hc | hc
        · exact hlook c (Or.inl (fun h => hc (List.mem_cons_of_mem _ h)))
        · exact hlook c (Or.inr hc)
      · intro c hc hne
        rcases List.mem_cons.mp hc with hc | hc
        · exact absurd hc hne
        · exact hun c hc hne
    · obtain ⟨hJW, hJI⟩ := hJs J (List.mem_cons_self _ _) hJP
      obtain ⟨M1, Worklist1, hp1, hW1, hperm1, hlook1, hun1, hkeys1⟩ :=
        processRedundantCandidate_ok N hN M Worklist J I hW hJW hJI
      have hJs1 : ∀ J' ∈ Js, J' ≠ Picked → J' ∈ Worklist1 ∧ I ∈ unintOf M1 J' := by
        intro J' hJ' hne
        obtain ⟨h1, h2⟩ := hJs J' (List.mem_cons_of_mem _ hJ') hne
        have hJ'J : J' ≠ J := fun e => hJnot (e ▸ hJ')
        refine ⟨hperm1.mem_iff.mpr h1, ?_⟩
        unfold unintOf at h2 ⊢
        rw [hlook1 J' hJ'J]
        exact h2
      obtain ⟨M', Worklist', hp, hW', hperm, hlook, hun, hkeys⟩ :=
        ih M1 Worklist1 hW1 hndJs hJs1
      refine ⟨M', Worklist', ?_, hW', hperm.trans hperm1, ?_, ?_, hkeys.trans hkeys1⟩
      · simp only [processPath, ne_eq, hJP, not_false_eq_true, if_true, hp1]
        exact hp
      · intro c hc
        have hcJ : c ≠ J := by
          rcases hc with hc | hc
          · exact fun e => hc (e ▸ List.mem_cons_self _ _)
          · exact fun e => hJP (e ▸ hc)
        have hc' : c ∉ Js ∨ c = Picked := by
          rcases hc with hc | hc
          · exact Or.inl (fun h => hc (List.mem_cons_of_mem _ h))
          · exact Or.inr hc
        rw [hlook c hc', hlook1 c hcJ]
      · intro c hc hne
        rcases List.mem_cons.mp hc with hc | hc
        · subst hc
          have : unintOf M' c = unintOf M1 c := by
            unfold unintOf
            rw [hlook c (Or.inl hJnot)]
          rw [this, hun1]
        · have hcJ : c ≠ J := fun e => hJnot (e ▸ hc)
          rw [hun c hc hne]
          unfold unintOf
          rw [hlook1 c hcJ]

end Ratchet

namespace Ratchet

theorem processPaths_ok (N : Nat) (hN : N < 32768) (Paths : List AntidependencePathTy)
    (Picked : InstPos) :
    ∀ (Is : List Nat) (M : CandidateInfoMapTy) (Worklist : List InstPos) (A : List InstPos),
      WorklistOk N M Worklist → Is.Nodup →
      (∀ I ∈ Is, ∃ P, Paths[I]? = some P ∧ P ≠ [] ∧ P.Nodup ∧
        ∀ J ∈ P, J ≠ Picked → J ∈ Worklist ∧ I ∈ unintOf M J) →
      ∃ M' Worklist' A', processPaths Paths Picked Is M Worklist A = some (M', Worklist', A') ∧
        WorklistOk N M' Worklist' ∧ Worklist'.Perm Worklist ∧
        M'.lookup Picked = M.lookup Picked ∧
        (∀ c, c ≠ Picked → ∀ I', I' ∈ unintOf M' c ↔
          (I' ∈ unintOf M c ∧ ¬ (I' ∈ Is ∧ ∃ P, Paths[I']? = some P ∧ c ∈ P))) ∧
        M'.map (fun X => X.Candidate_) = M.map (fun X => X.Candidate_) := by
  intro Is
  induction Is with
  | nil =>
    intro M Worklist A hW _ _
    refine ⟨M, Worklist, A, rfl, hW, List.Perm.refl _, rfl, ?_, rfl⟩
    intro c _ I'
    simp
  | cons I Is ih =>
    intro M Worklist A hW hnd hIs
    have hInot : I ∉ Is := (List.nodup_cons.mp hnd).1
    have hndIs : Is.Nodup := (List.nodup_cons.mp hnd).2
    obtain ⟨P, hP, hPne, hPnd, hPJ⟩ := hIs I (List.mem_cons_self _ _)
    obtain ⟨M1, Worklist1, hp1, hW1, hperm1, hlook1, hun1, hkeys1⟩ :=
      processPath_ok N hN Picked I P M Worklist hW hPnd hPJ
    have hIs1 : ∀ I2 ∈ Is, ∃ P2, Paths[I2]? = some P2 ∧ P2 ≠ [] ∧ P2.Nodup ∧
        ∀ J ∈ P2, J ≠ Picked → J ∈ Worklist1 ∧ I2 ∈ unintOf M1 J := by
      intro I2 hI2
      obtain ⟨P2, hP2, hP2ne, hP2nd, hP2J⟩ := hIs I2 (List.mem_cons_of_mem _ hI2)
      refine ⟨P2, hP2, hP2ne, hP2nd, ?_⟩
      intro J hJ hne
      obtain ⟨h1, h2⟩ := hP2J J hJ hne
      refine ⟨hperm1.mem_iff.mpr h1, ?_⟩
      by_cases hJP : J ∈ P
      · rw [hun1 J hJP hne]
        have hI2I : I2 ≠ I := fun e => hInot (e ▸ hI2)
        exact (List.mem_erase_of_ne hI2I).mpr h2
      · unfold unintOf at h2 ⊢
        rw [hlook1 J (Or.inl hJP)]
        exact h2
    obtain ⟨M', Worklist', A', hp, hW', hperm, hlookP, hiff, hkeys⟩ :=
      ih M1 Worklist1 (setInsert A (P.head (by exact hPne))) hW1 hndIs hIs1
    refine ⟨M', Worklist', A', ?_, hW', hperm.trans hperm1, ?_, ?_, hkeys.trans hkeys1⟩
    · obtain ⟨First, Rest, hFR⟩ := List.exists_cons_of_ne_nil hPne
      subst hFR
      simp only [processPaths, hP, hp1]
      exact hp
    · rw [hlookP, hlook1 Picked (Or.inr rfl)]
    · intro c hc I'
      rw [hiff c hc I']
      by_cases hcP : c ∈ P
      · have hcW : c ∈ Worklist := (hPJ c hcP hc).1
        obtain ⟨C, hC, _, hndC, _⟩ := hW.2.2 c hcW
        have hndU : (unintOf M c).Nodup := by rw [unintOf_of_lookup hC]; exact hndC
        rw [hun1 c hcP hc, hndU.mem_erase_iff]
        constructor
        · rintro ⟨⟨hne, hmem⟩, hnot⟩
          refine ⟨hmem, ?_⟩
          rintro ⟨hI', hex⟩
          rcases List.mem_cons.mp hI' with h | h
          · exact hne h
          · exact hnot ⟨h, hex⟩
        · rintro ⟨hmem, hnot⟩
          refine ⟨⟨?_, hmem⟩, ?_⟩
          · intro e
            subst e
            exact hnot ⟨List.mem_cons_self _ _, P, hP, hcP⟩
          · rintro ⟨hI', hex⟩
            exact hnot ⟨List.mem_cons_of_mem _ hI', hex⟩
      · have : unintOf M1 c = unintOf M c := by
          unfold unintOf
          rw [hlook1 c (Or.inl hcP)]
        rw [this]
        constructor
        · rintro ⟨hmem, hnot⟩
          refine ⟨hmem, ?_⟩
          rintro ⟨hI', P', hP', hcP'⟩
          rcases List.mem_cons.mp hI' with h | h
          · subst h
            rw [hP] at hP'
            cases hP'
            exact hcP hcP'
          · exact hnot ⟨h, P', hP', hcP'⟩
        · rintro ⟨hmem, hnot⟩
          refine ⟨hmem, ?_⟩
          rintro ⟨hI', hex⟩
          exact hnot ⟨List.mem_cons_of_mem _ hI', hex⟩

end Ratchet

namespace Ratchet

/-! ## The main loop of computeHittingSet -/

theorem mem_setInsert {α : Type} [DecidableEq α] (s : List α) (a x : α) :
    x ∈ setInsert s a ↔ x ∈ s ∨ x = a := by
  unfold setInsert
  by_cases h : a ∈ s
  · simp only [h, if_true]
    constructor
    · exact Or.inl
    · rintro (h1 | h1)
      · exact h1
      · exact h1 ▸ h
  · simp [h]

theorem cutMapStore_keys_new (CutMap : List (InstPos × List InstPos)) (c : InstPos)
    (A : List InstPos) (h : c ∉ CutMap.map (fun e => e.1)) :
    (cutMapStore CutMap c A).map (fun e => e.1) = CutMap.map (fun e => e.1) ++ [c] := by
  unfold cutMapStore
  have : CutMap.any (fun e => decide (e.1 = c)) = false := by
    rw [List.any_eq_false]
    intro e he
    simp only [decide_eq_true_eq]
    intro hec
    exact h (List.mem_map.mpr ⟨e, he, hec⟩)
  simp [this]

theorem split_concat {α : Type} (pre post L : List α) (c p : α)
    (h : L ++ [p] = pre ++ c :: post) :
    (post = [] ∧ pre = L ∧ c = p) ∨ (∃ post', post = post' ++ [p] ∧ L = pre ++ c :: post') := by
  rcases List.eq_nil_or_concat post with hp | ⟨post', q, hp⟩
  · subst hp
    left
    have := List.append_inj' h rfl
    exact ⟨rfl, this.1.symm, (List.cons.inj this.2).1.symm⟩
  · rw [List.concat_eq_append] at hp
    subst hp
    right
    have h' : L ++ [p] = (pre ++ c :: post') ++ [q] := by simpa using h
    have := List.append_inj' h' rfl
    refine ⟨post', ?_, this.1⟩
    rw [(List.cons.inj this.2).1]

theorem pathLive_transfer (Paths : List AntidependencePathTy) (M M' : CandidateInfoMapTy)
    (W Worklist' Is : List InstPos) (Picked : InstPos) (IsP : List Nat) (I : Nat)
    (hperm : Worklist'.Perm W)
    (hIs : ∀ i, i ∈ IsP ↔ i ∈ unintOf M Picked)
    (hiff : ∀ c, c ≠ Picked → ∀ I', I' ∈ unintOf M' c ↔
      (I' ∈ unintOf M c ∧ ¬ (I' ∈ IsP ∧ ∃ P, Paths[I']? = some P ∧ c ∈ P)))
    (hold : PathLive Paths M (W ++ [Picked]) I) (hI : I ∉ unintOf M Picked) :
    PathLive Paths M' Worklist' I := by
  intro P hP J hJ
  obtain ⟨h1, h2⟩ := hold P hP J hJ
  have hJP : J ≠ Picked := by
    intro e
    subst e
    exact hI h2
  refine ⟨?_, ?_⟩
  · rcases List.mem_append.mp h1 with h | h
    · exact hperm.mem_iff.mpr h
    · simp at h
      exact absurd h hJP
  · rw [hiff J hJP I]
    exact ⟨h2, fun h => hI ((hIs I).mp h.1)⟩

theorem hittingSetLoop_ok (N : Nat) (hN : N < 32768) (Order : IterationOrder)
    (hOrd : Order.Ok) (Paths : List AntidependencePathTy) (hPaths : PathsOk Paths) :
    ∀ (fuel : Nat) (S : HittingSetState), LoopInv N Paths S → S.Worklist.length < fuel →
      ∃ S', hittingSetLoop Order Paths fuel S = some S' ∧ LoopInv N Paths S' ∧
        S'.Worklist = [] ∧ (∀ x ∈ S.CutSet_, x ∈ S'.CutSet_) ∧
        (∀ x ∈ S'.CutMap_.map (fun e => e.1), x ∈ S'.CutSet_ ∨ x ∈ S.CutMap_.map (fun e => e.1))
        := by
  intro fuel
  induction fuel with
  | zero => intro S _ h; omega
  | succ fuel ih =>
    intro S hinv hfuel
    rcases List.eq_nil_or_concat S.Worklist with hnil | ⟨W, Picked, hW⟩
    · refine ⟨S, ?_, hinv, hnil, fun x hx => hx, fun x hx => Or.inr hx⟩
      simp [hittingSetLoop, hnil]
    · rw [List.concat_eq_append] at hW
      have hlast : S.Worklist.getLast? = some Picked := by rw [hW]; simp
      have hdrop : S.Worklist.dropLast = W := by rw [hW]; simp
      obtain ⟨hnd, hsorted, hall⟩ := hinv.wl
      rw [hW] at hnd hsorted hall
      have hPW : Picked ∉ W := by
        intro h
        exact (List.nodup_append.mp hnd).2.2 h (by simp)
      obtain ⟨Info, hInfo, hcnt, hndInfo, hbInfo⟩ := hall Picked (by simp)
      have hWok : WorklistOk N S.Map W := by
        refine ⟨(List.nodup_append.mp hnd).1, ?_, fun c hc => hall c (by simp [hc])⟩
        unfold SortedBy at hsorted ⊢
        rw [List.map_append, List.pairwise_append] at hsorted
        exact hsorted.1
      have hunP : unintOf S.Map Picked = Info.UnintersectedPaths_ := unintOf_of_lookup hInfo
      have hlive := hinv.live
      have hhit := hinv.hit
      have hfresh := hinv.fresh
      rw [hW] at hlive hhit hfresh
      by_cases hsize : Info.size = 0
      · -- skipped candidate
        have hempty : unintOf S.Map Picked = [] := by
          rw [hunP]
          exact List.length_eq_zero.mp hsize
        have htrans : ∀ I, PathLive Paths S.Map (W ++ [Picked]) I → PathLive Paths S.Map W I := by
          intro I hold P hP J hJ
          obtain ⟨h1, h2⟩ := hold P hP J hJ
          refine ⟨?_, h2⟩
          rcases List.mem_append.mp h1 with h | h
          · exact h
          · simp at h
            subst h
            rw [hempty] at h2
            simp at h2
        have hinv1 : LoopInv N Paths { S with Worklist := W } :=
          { wl := hWok
            live := fun c hc I hI =>
              ⟨(hlive c (by simp [hc]) I hI).1, htrans I (hlive c (by simp [hc]) I hI).2⟩
            hit := fun I P hP => (hhit I P hP).imp id (htrans I)
            fresh := fun c hc I hI => hfresh c (by simp [hc]) I hI
            order := hinv.order }
        have hlen : W.length < fuel := by
          rw [hW] at hfuel
          simp at hfuel
          omega
        obtain ⟨S', hS', hinv', hnil', hsub, hkeys⟩ := ih { S with Worklist := W } hinv1 hlen
        refine ⟨S', ?_, hinv', hnil', hsub, hkeys⟩
        simp only [hittingSetLoop, hlast, hdrop, hInfo, hsize, if_true]
        exact hS'
      · -- picked candidate
        have hperm := hOrd.2 Info.UnintersectedPaths_
        have hIsmem : ∀ i, i ∈ Order.setOrder Info.UnintersectedPaths_ ↔
            i ∈ unintOf S.Map Picked := by
          intro i
          rw [hunP]
          exact hperm.mem_iff
        have hIs : ∀ I ∈ Order.setOrder Info.UnintersectedPaths_, ∃ P, Paths[I]? = some P ∧
            P ≠ [] ∧ P.Nodup ∧ ∀ J ∈ P, J ≠ Picked → J ∈ W ∧ I ∈ unintOf S.Map J := by
          intro I hI
          have hI' := (hIsmem I).mp hI
          obtain ⟨⟨P, hP, _⟩, hlv⟩ := hlive Picked (by simp) I hI'
          have hPmem : P ∈ Paths := List.getElem?_mem hP
          refine ⟨P, hP, (hPaths P hPmem).2, (hPaths P hPmem).1, ?_⟩
          intro J hJ hne
          obtain ⟨h1, h2⟩ := hlv P hP J hJ
          refine ⟨?_, h2⟩
          rcases List.mem_append.mp h1 with h | h
          · exact h
          · simp at h
            exact absurd h hne
        obtain ⟨M', Worklist', A', hpp, hW', hperm', _, hiff, _⟩ :=
          processPaths_ok N hN Paths Picked (Order.setOrder Info.UnintersectedPaths_) S.Map W
            (cutMapLookup S.CutMap_ Picked) hWok (hperm.nodup_iff.mpr hndInfo) hIs
        -- the picked candidate is on a path without earlier picks
        obtain ⟨I0, hI0⟩ : ∃ I0, I0 ∈ Info.UnintersectedPaths_ := by
          cases hU : Info.UnintersectedPaths_ with
          | nil => simp [CandidateInfo.size, hU] at hsize
          | cons a l => exact ⟨a, by simp⟩
        rw [← hunP] at hI0
        obtain ⟨⟨P0, hP0, hPickedP0⟩, _⟩ := hlive Picked (by simp) I0 hI0
        have hfresh0 := hfresh Picked (by simp) I0 hI0 P0 hP0
        have hPnotkey : Picked ∉ S.CutMap_.map (fun e => e.1) :=
          fun h => hfresh0 Picked h hPickedP0
        have hkeys1 := cutMapStore_keys_new S.CutMap_ Picked A' hPnotkey
        have hinv1 : LoopInv N Paths
            { Map := M', Worklist := Worklist', CutSet_ := setInsert S.CutSet_ Picked
              CutMap_ := cutMapStore S.CutMap_ Picked A' } :=
          { wl := hW'
            live := by
              intro c hc I hI
              have hcW : c ∈ W := hperm'.mem_iff.mp hc
              have hcP : c ≠ Picked := fun e => hPW (e ▸ hcW)
              obtain ⟨hIM, hnot⟩ := (hiff c hcP I).mp hI
              obtain ⟨⟨P, hP, hcinP⟩, hlv⟩ := hlive c (by simp [hcW]) I hIM
              refine ⟨⟨P, hP, hcinP⟩, ?_⟩
              have hInot : I ∉ unintOf S.Map Picked := by
                intro h
                exact hnot ⟨(hIsmem I).mpr h, P, hP, hcinP⟩
              exact pathLive_transfer Paths S.Map M' W Worklist' [] Picked _ I hperm' hIsmem
                hiff hlv hInot
            hit := by
              intro I P hP
              rcases hhit I P hP with ⟨c, hc1, hc2⟩ | hlv
              · exact Or.inl ⟨c, hc1, (mem_setInsert _ _ _).mpr (Or.inl hc2)⟩
              · by_cases hI : I ∈ unintOf S.Map Picked
                · obtain ⟨⟨P', hP', hin⟩, _⟩ := hlive Picked (by simp) I hI
                  rw [hP] at hP'
                  cases hP'
                  exact Or.inl ⟨Picked, hin, (mem_setInsert _ _ _).mpr (Or.inr rfl)⟩
                · exact Or.inr (pathLive_transfer Paths S.Map M' W Worklist' [] Picked _ I
                    hperm' hIsmem hiff hlv hI)
            fresh := by
              intro c hc I hI P hP x hx
              have hcW : c ∈ W := hperm'.mem_iff.mp hc
              have hcP : c ≠ Picked := fun e => hPW (e ▸ hcW)
              obtain ⟨hIM, hnot⟩ := (hiff c hcP I).mp hI
              simp only at hx
              rw [hkeys1] at hx
              rcases List.mem_append.mp hx with hx | hx
              · exact hfresh c (by simp [hcW]) I hIM P hP x hx
              · simp at hx
                subst hx
                intro hxP
                obtain ⟨⟨_, _, hcinP⟩, hlv⟩ := hlive c (by simp [hcW]) I hIM
                have hcinP' : c ∈ P := by
                  obtain ⟨P', hP', hin⟩ := (hlive c (by simp [hcW]) I hIM).1
                  rw [hP] at hP'
                  cases hP'
                  exact hin
                have := (hlv P hP x hxP).2
                exact hnot ⟨(hIsmem I).mpr this, P, hP, hcinP'⟩
            order := by
              intro pre c post hsplit
              simp only at hsplit
              rw [hkeys1] at hsplit
              rcases split_concat pre post _ c Picked hsplit with ⟨_, hpre, hc⟩ | ⟨post', _, hL⟩
              · subst hpre hc
                exact ⟨P0, List.getElem?_mem hP0, hPickedP0, hfresh0⟩
              · exact hinv.order pre c post' hL }
        have hlen : Worklist'.length < fuel := by
          rw [hW] at hfuel
          simp at hfuel
          rw [hperm'.length_eq]
          omega
        obtain ⟨S', hS', hinv', hnil', hsub, hkeys⟩ := ih _ hinv1 hlen
        refine ⟨S', ?_, hinv', hnil', ?_, ?_⟩
        · simp only [hittingSetLoop, hlast, hdrop, hInfo, hsize, if_false, hpp]
          exact hS'
        · intro x hx
          exact hsub x ((mem_setInsert _ _ _).mpr (Or.inl hx))
        · intro x hx
          rcases hkeys x hx with h | h
          · exact Or.inl h
          · simp only at h
            rw [hkeys1] at h
            rcases List.mem_append.mp h with h | h
            · exact Or.inr h
            · simp at h
              subst h
              exact Or.inl (hsub x ((mem_setInsert _ _ _).mpr (Or.inr rfl)))

end Ratchet

namespace Ratchet

/-! ## The candidate search of computeHittingSet -/

theorem nodup_bounded_length (l : List Nat) (n : Nat) (hnd : l.Nodup) (hb : ∀ x ∈ l, x < n) :
    l.length ≤ n := by
  have hsub : l ⊆ List.range n := fun x hx => List.mem_range.mpr (hb x hx)
  have := (hnd.subperm hsub).length_le
  simpa using this

theorem lookup_append_single (M : CandidateInfoMapTy) (X : CandidateInfo) (c : InstPos) :
    CandidateInfoMapTy.lookup (M ++ [X]) c =
      match M.lookup c with
      | some C => some C
      | none => if X.Candidate_ = c then some X else none := by
  unfold CandidateInfoMapTy.lookup
  rw [List.find?_append]
  cases h : M.find? (fun C => decide (C.Candidate_ = c)) with
  | some C => simp
  | none =>
    by_cases hX : X.Candidate_ = c
    · simp [hX]
    · simp [hX]

theorem add_spec (C : CandidateInfo) (k : Nat) (First : InstPos)
    (hk : k ∉ C.UnintersectedPaths_) (hlen : C.UnintersectedPaths_.length < 65535)
    (hcnt : C.UnintersectedPaths = C.UnintersectedPaths_.length) :
    ∃ C', C.add k First = some C' ∧ C'.Candidate_ = C.Candidate_ ∧
      C'.UnintersectedPaths_ = C.UnintersectedPaths_ ++ [k] ∧
      C'.UnintersectedPaths = C'.UnintersectedPaths_.length ∧
      C'.IntersectedPaths = C.IntersectedPaths := by
  unfold CandidateInfo.add
  by_cases hF : C.Candidate_ = First
  · simp only [hF, if_true]
    rw [if_neg hk]
    refine ⟨_, rfl, rfl, rfl, ?_, rfl⟩
    simp only [List.length_append, List.length_singleton]
    omega
  · simp only [hF, if_false]
    rw [if_neg hk]
    refine ⟨_, rfl, rfl, rfl, ?_, rfl⟩
    simp only [List.length_append, List.length_singleton]
    omega

theorem CandInv.mono {K K' : Nat} {occ : List (Nat × InstPos)} {M : CandidateInfoMapTy}
    (h : CandInv K occ M) (hK : K ≤ K') : CandInv K' occ M :=
  { keys := h.keys, mem := h.mem, dom := h.dom
    bound := fun x hx => lt_of_lt_of_le (h.bound x hx) hK }

theorem addPathCandidates_ok (LI : LoopInfo) (k : Nat) (First : InstPos) (hk : k < 32768) :
    ∀ (rest : List InstPos) (M : CandidateInfoMapTy) (occ : List (Nat × InstPos)),
      CandInv (k + 1) occ M → rest.Nodup → (∀ c ∈ rest, (k, c) ∉ occ) →
      ∃ M', addPathCandidates LI k First rest M = some M' ∧
        CandInv (k + 1) (occ ++ rest.map (fun c => (k, c))) M' := by
  intro rest
  induction rest with
  | nil =>
    intro M occ h _ _
    exact ⟨M, rfl, by simpa using h⟩
  | cons c rest ih =>
    intro M occ h hnd hnot
    have hcrest : c ∉ rest := (List.nodup_cons.mp hnd).1
    have hndrest : rest.Nodup := (List.nodup_cons.mp hnd).2
    have hkc : (k, c) ∉ occ := hnot c (List.mem_cons_self _ _)
    have hnot1 : ∀ c' ∈ rest, (k, c') ∉ occ ++ [(k, c)] := by
      intro c' hc' hmem
      rcases List.mem_append.mp hmem with h1 | h1
      · exact hnot c' (List.mem_cons_of_mem _ hc') h1
      · simp at h1
        exact hcrest (h1 ▸ hc')
    have hocc : occ ++ (c :: rest).map (fun c => (k, c)) =
        (occ ++ [(k, c)]) ++ rest.map (fun c => (k, c)) := by simp
    rw [hocc]
    cases hl : M.lookup c with
    | some CI =>
      obtain ⟨hiff, hndU, hcnt, hint⟩ := h.mem c CI hl
      have hkU : k ∉ CI.UnintersectedPaths_ := fun hm => hkc ((hiff k).mp hm)
      have hlen : CI.UnintersectedPaths_.length ≤ k + 1 :=
        nodup_bounded_length _ _ hndU (fun I hI => h.bound (I, c) ((hiff I).mp hI))
      obtain ⟨CI1, hadd, hkey1, hU1, hcnt1, hint1⟩ :=
        add_spec CI k First hkU (by omega) hcnt
      have hCIk : CI.Candidate_ = c := lookup_some_key hl
      have hCI1k : CI1.Candidate_ = c := by rw [hkey1, hCIk]
      have hself : (M.update CI1).lookup c = some CI1 := by
        have := lookup_update_self M CI1 CI (by rw [hCI1k]; exact hl)
        rwa [hCI1k] at this
      have hne : ∀ c', c' ≠ c → (M.update CI1).lookup c' = M.lookup c' := by
        intro c' hc'
        exact lookup_update_ne M CI1 c' (by rw [hCI1k]; exact hc')
      have h1 : CandInv (k + 1) (occ ++ [(k, c)]) (M.update CI1) :=
        { keys := by rw [keys_update]; exact h.keys
          mem := by
            intro c' C' hC'
            by_cases hcc : c' = c
            · subst hcc
              rw [hself] at hC'
              cases hC'
              refine ⟨?_, ?_, hcnt1, by rw [hint1, hint]⟩
              · intro I
                rw [hU1]
                simp only [List.mem_append, List.mem_singleton, Prod.mk.injEq]
                rw [hiff I]
                constructor
                · rintro (h2 | h2)
                  · exact Or.inl h2
                  · exact Or.inr ⟨h2, trivial⟩
                · rintro (h2 | h2)
                  · exact Or.inl h2
                  · exact Or.inr h2.1
              · rw [hU1]
                exact List.Nodup.append hndU (List.nodup_singleton k)
                  (by
                    intro x hx hx'
                    simp at hx'
                    exact hkU (hx' ▸ hx))
            · rw [hne c' hcc] at hC'
              obtain ⟨hiff', r⟩ := h.mem c' C' hC'
              refine ⟨?_, r⟩
              intro I
              rw [hiff' I]
              simp only [List.mem_append, List.mem_singleton, Prod.mk.injEq]
              constructor
              · exact Or.inl
              · rintro (h2 | h2)
                · exact h2
                · exact absurd h2.2 hcc
          dom := by
            intro x hx
            rw [lookup_isSome_iff, keys_update, ← lookup_isSome_iff]
            rcases List.mem_append.mp hx with h2 | h2
            · exact h.dom x h2
            · simp at h2
              subst h2
              exact ⟨CI, hl⟩
          bound := by
            intro x hx
            rcases List.mem_append.mp hx with h2 | h2
            · exact h.bound x h2
            · simp at h2
              subst h2
              exact Nat.lt_succ_self k }
      obtain ⟨M', hM', hinv'⟩ := ih (M.update CI1) (occ ++ [(k, c)]) h1 hndrest hnot1
      refine ⟨M', ?_, hinv'⟩
      simp only [addPathCandidates, hl, hadd]
      exact hM'
    | none =>
      have hnoocc : ∀ I, (I, c) ∉ occ := by
        intro I hI
        obtain ⟨C, hC⟩ := h.dom (I, c) hI
        simp only at hC
        rw [hl] at hC
        cases hC
      have hcnotkey : c ∉ M.map (fun X => X.Candidate_) := by
        intro hmem
        obtain ⟨C, hC⟩ := (lookup_isSome_iff M c).mpr hmem
        rw [hl] at hC
        cases hC
      obtain ⟨CI1, hadd, hkey1, hU1, hcnt1, hint1⟩ :=
        add_spec (CandidateInfo.new c (LI.getLoopDepth c.bb) (isSubloopPreheader c.bb LI)) k First
          (by simp [CandidateInfo.new]) (by simp [CandidateInfo.new]) (by simp [CandidateInfo.new])
      have hCI1k : CI1.Candidate_ = c := by rw [hkey1]; rfl
      have hU1' : CI1.UnintersectedPaths_ = [k] := by rw [hU1]; rfl
      have h1 : CandInv (k + 1) (occ ++ [(k, c)]) (M ++ [CI1]) :=
        { keys := by
            rw [List.map_append, List.map_singleton, hCI1k]
            exact List.Nodup.append h.keys (List.nodup_singleton c)
              (by
                intro x hx hx'
                simp at hx'
                exact hcnotkey (hx' ▸ hx))
          mem := by
            intro c' C' hC'
            rw [lookup_append_single] at hC'
            cases hl' : M.lookup c' with
            | some C0 =>
              rw [hl'] at hC'
              simp only at hC'
              have hC0 : C0 = C' := Option.some.inj hC'
              subst hC0
              have hcc : c' ≠ c := by
                intro e
                rw [e, hl] at hl'
                cases hl'
              obtain ⟨hiff', r⟩ := h.mem c' C0 hl'
              refine ⟨?_, r⟩
              intro I
              rw [hiff' I]
              simp only [List.mem_append, List.mem_singleton, Prod.mk.injEq]
              constructor
              · exact Or.inl
              · rintro (h2 | h2)
                · exact h2
                · exact absurd h2.2 hcc
            | none =>
              rw [hl'] at hC'
              simp only at hC'
              by_cases hX : CI1.Candidate_ = c'
              · rw [if_pos hX] at hC'
                cases hC'
                have hcc : c' = c := by rw [← hX, hCI1k]
                subst hcc
                refine ⟨?_, by rw [hU1']; exact List.nodup_singleton k, hcnt1,
                  by rw [hint1]; rfl⟩
                intro I
                rw [hU1']
                simp only [List.mem_append, List.mem_singleton, Prod.mk.injEq]
                constructor
                · intro h2
                  exact Or.inr ⟨h2, trivial⟩
                · rintro (h2 | h2)
                  · exact absurd h2 (hnoocc I)
                  · exact h2.1
              · rw [if_neg hX] at hC'
                cases hC'
          dom := by
            intro x hx
            rw [lookup_isSome_iff, List.map_append, List.mem_append]
            rcases List.mem_append.mp hx with h2 | h2
            · left
              rw [← lookup_isSome_iff]
              exact h.dom x h2
            · right
              simp at h2
              subst h2
              simp [hCI1k]
          bound := by
            intro x hx
            rcases List.mem_append.mp hx with h2 | h2
            · exact h.bound x h2
            · simp at h2
              subst h2
              exact Nat.lt_succ_self k }
      obtain ⟨M', hM', hinv'⟩ := ih (M ++ [CI1]) (occ ++ [(k, c)]) h1 hndrest hnot1
      refine ⟨M', ?_, hinv'⟩
      simp only [addPathCandidates, hl, hadd]
      exact hM'

theorem findCandidates_ok (LI : LoopInfo) :
    ∀ (Paths : List AntidependencePathTy) (k : Nat) (M : CandidateInfoMapTy)
      (occ : List (Nat × InstPos)),
      CandInv k occ M → (∀ P ∈ Paths, P.Nodup) → k + Paths.length ≤ 32768 →
      ∃ M', findCandidates LI Paths k M = some M' ∧
        CandInv (k + Paths.length) (occ ++ occOf Paths k) M' := by
  intro Paths
  induction Paths with
  | nil =>
    intro k M occ h _ _
    exact ⟨M, rfl, by simpa [occOf] using h⟩
  | cons P Ps ih =>
    intro k M occ h hnd hlen
    simp only [List.length_cons] at hlen
    have hlen' : k + (P :: Ps).length = (k + 1) + Ps.length := by
      simp only [List.length_cons]; omega
    rw [hlen']
    have hocc : occ ++ occOf (P :: Ps) k = (occ ++ P.map (fun c => (k, c))) ++ occOf Ps (k + 1) := by
      simp [occOf]
    rw [hocc]
    cases P with
    | nil =>
      obtain ⟨M', hM', hinv'⟩ := ih (k + 1) M occ (h.mono (by omega))
        (fun P hP => hnd P (List.mem_cons_of_mem _ hP)) (by omega)
      refine ⟨M', ?_, by simpa using hinv'⟩
      simp only [findCandidates]
      exact hM'
    | cons First Rest =>
      have hnotocc : ∀ c ∈ First :: Rest, (k, c) ∉ occ := by
        intro c _ hmem
        have := h.bound (k, c) hmem
        simp at this
      obtain ⟨M1, hM1, hinv1⟩ := addPathCandidates_ok LI k First (by omega) (First :: Rest) M occ
        (h.mono (by omega)) (hnd _ (List.mem_cons_self _ _)) hnotocc
      obtain ⟨M', hM', hinv'⟩ := ih (k + 1) M1 _ hinv1
        (fun P hP => hnd P (List.mem_cons_of_mem _ hP)) (by omega)
      refine ⟨M', ?_, hinv'⟩
      simp only [findCandidates, hM1]
      exact hM'

theorem mem_occOf (Paths : List AntidependencePathTy) (k I : Nat) (c : InstPos) :
    (I, c) ∈ occOf Paths k ↔ k ≤ I ∧ ∃ P, Paths[I - k]? = some P ∧ c ∈ P := by
  induction Paths generalizing k with
  | nil => simp [occOf]
  | cons P Ps ih =>
    simp only [occOf, List.mem_append, List.mem_map, Prod.mk.injEq]
    rw [ih (k + 1)]
    constructor
    · rintro (⟨c', hc', hk, hcc⟩ | ⟨hk, P', hP', hcP'⟩)
      · subst hk hcc
        exact ⟨le_refl _, P, by simp, hc'⟩
      · refine ⟨by omega, P', ?_, hcP'⟩
        have : I - k = (I - (k + 1)) + 1 := by omega
        rw [this, List.getElem?_cons_succ]
        exact hP'
    · rintro ⟨hk, P', hP', hcP'⟩
      rcases Nat.eq_or_lt_of_le hk with hk' | hk'
      · left
        subst hk'
        simp at hP'
        subst hP'
        exact ⟨c, hcP', rfl, rfl⟩
      · right
        refine ⟨by omega, P', ?_, hcP'⟩
        have : I - k = (I - (k + 1)) + 1 := by omega
        rw [this, List.getElem?_cons_succ] at hP'
        exact hP'

end Ratchet

namespace Ratchet

/-! ## The worklist set-up and computeHittingSet -/

theorem sortInsert_perm (C : CandidateInfo) (l : List CandidateInfo) :
    (sortInsert C l).Perm (C :: l) := by
  induction l with
  | nil => exact List.Perm.refl _
  | cons D Ds ih =>
    unfold sortInsert
    by_cases h : C.Priority_ ≤ D.Priority_
    · rw [if_pos h]
    · rw [if_neg h]
      exact (List.Perm.cons D ih).trans (List.Perm.swap C D Ds)

theorem sortWorklist_perm (l : List CandidateInfo) : (sortWorklist l).Perm l := by
  induction l with
  | nil => exact List.Perm.refl _
  | cons C Cs ih =>
    unfold sortWorklist
    exact (sortInsert_perm C _).trans (List.Perm.cons C ih)

theorem sortInsert_sorted (C : CandidateInfo) (l : List CandidateInfo)
    (h : (l.map CandidateInfo.Priority_).Pairwise (fun a b => a ≤ b)) :
    ((sortInsert C l).map CandidateInfo.Priority_).Pairwise (fun a b => a ≤ b) := by
  induction l with
  | nil => simp [sortInsert]
  | cons D Ds ih =>
    rw [List.map_cons, List.pairwise_cons] at h
    unfold sortInsert
    by_cases hCD : C.Priority_ ≤ D.Priority_
    · rw [if_pos hCD]
      simp only [List.map_cons, List.pairwise_cons]
      refine ⟨?_, h.1, h.2⟩
      intro p hp
      rcases List.mem_cons.mp hp with hp | hp
      · rw [hp]; exact hCD
      · exact le_trans hCD (h.1 p hp)
    · rw [if_neg hCD, List.map_cons, List.pairwise_cons]
      refine ⟨?_, ih h.2⟩
      intro p hp
      obtain ⟨X, hX, hXp⟩ := List.mem_map.mp hp
      rcases List.mem_cons.mp ((sortInsert_perm C Ds).mem_iff.mp hX) with hX | hX
      · rw [← hXp, hX]; omega
      · exact h.1 p (hXp ▸ List.mem_map_of_mem _ hX)

theorem sortWorklist_sorted (l : List CandidateInfo) :
    ((sortWorklist l).map CandidateInfo.Priority_).Pairwise (fun a b => a ≤ b) := by
  induction l with
  | nil => simp [sortWorklist]
  | cons C Cs ih =>
    unfold sortWorklist
    exact sortInsert_sorted C _ ih

theorem mapM_lookup (M : CandidateInfoMapTy) (l : List InstPos)
    (h : ∀ c ∈ l, ∃ C, M.lookup c = some C) :
    ∃ Infos, lookupAll M l = some Infos ∧
      Infos.map (fun C => C.Candidate_) = l ∧ ∀ C ∈ Infos, M.lookup C.Candidate_ = some C := by
  induction l with
  | nil => exact ⟨[], rfl, rfl, by simp⟩
  | cons c l ih =>
    obtain ⟨C, hC⟩ := h c (List.mem_cons_self _ _)
    obtain ⟨Infos, hI, hk, hl⟩ := ih (fun c' hc' => h c' (List.mem_cons_of_mem _ hc'))
    refine ⟨C :: Infos, ?_, ?_, ?_⟩
    · simp only [lookupAll, hC, hI]
    · rw [List.map_cons, hk, lookup_some_key hC]
    · intro C' hC'
      rcases List.mem_cons.mp hC' with h1 | h1
      · rw [h1, lookup_some_key hC]; exact hC
      · exact hl C' h1

theorem initialWorklist_ok (Order : IterationOrder) (hOrd : Order.Ok) (M : CandidateInfoMapTy)
    (hkeys : (M.map (fun X => X.Candidate_)).Nodup) :
    ∃ Worklist, initialWorklist Order M = some Worklist ∧
      Worklist.Perm (M.map (fun X => X.Candidate_)) ∧ SortedBy M Worklist := by
  have hperm := hOrd.1 (M.map (fun X => X.Candidate_))
  obtain ⟨Infos, hI, hk, hl⟩ := mapM_lookup M (Order.mapOrder (M.map (fun X => X.Candidate_)))
    (fun c hc => (lookup_isSome_iff M c).mpr (hperm.mem_iff.mp hc))
  refine ⟨(sortWorklist Infos).map (fun C => C.Candidate_), ?_, ?_, ?_⟩
  · unfold initialWorklist
    rw [hI]
  · exact ((sortWorklist_perm Infos).map _).trans (hk ▸ hperm)
  · unfold SortedBy
    rw [List.map_map]
    have : (sortWorklist Infos).map (priorityOf M ∘ fun C => C.Candidate_) =
        (sortWorklist Infos).map CandidateInfo.Priority_ := by
      apply List.map_congr_left
      intro C hC
      have := hl C ((sortWorklist_perm Infos).mem_iff.mp hC)
      simp [priorityOf, this]
    rw [this]
    exact sortWorklist_sorted Infos

theorem computeHittingSet_ok (LI : LoopInfo) (Order : IterationOrder) (hOrd : Order.Ok)
    (S : MemoryIdempotenceAnalysisImpl) (hPaths : PathsOk S.AntidependencePaths_)
    (hN : S.AntidependencePaths_.length < 32768) (hCM : S.CutMap_ = []) :
    ∃ S', computeHittingSet LI Order S = some S' ∧
      S'.AntidependencePaths_ = S.AntidependencePaths_ ∧
      S'.AntidependencePairs_ = S.AntidependencePairs_ ∧
      (∀ P ∈ S.AntidependencePaths_, ∃ c ∈ P, c ∈ S'.CutSet_) ∧
      (∀ x ∈ S.CutSet_, x ∈ S'.CutSet_) ∧
      PickedInOrder S.AntidependencePaths_ (S'.CutMap_.map (fun e => e.1)) ∧
      (∀ x ∈ S'.CutMap_.map (fun e => e.1), x ∈ S'.CutSet_) := by
  have h0 : CandInv 0 [] ([] : CandidateInfoMapTy) :=
    { keys := List.nodup_nil
      mem := by intro c C h; simp [CandidateInfoMapTy.lookup] at h
      dom := by intro x hx; simp at hx
      bound := by intro x hx; simp at hx }
  obtain ⟨M, hM, hinv⟩ := findCandidates_ok LI S.AntidependencePaths_ 0 [] [] h0
    (fun P hP => (hPaths P hP).1) (by omega)
  simp only [Nat.zero_add, List.nil_append] at hinv
  obtain ⟨Worklist, hWl, hperm, hsorted⟩ := initialWorklist_ok Order hOrd M hinv.keys
  have hocc : ∀ I c, (I, c) ∈ occOf S.AntidependencePaths_ 0 ↔
      ∃ P, S.AntidependencePaths_[I]? = some P ∧ c ∈ P := by
    intro I c
    rw [mem_occOf]
    simp
  have hlook : ∀ c ∈ Worklist, ∃ C, M.lookup c = some C :=
    fun c hc => (lookup_isSome_iff M c).mpr (hperm.mem_iff.mp hc)
  have hun : ∀ c I, I ∈ unintOf M c ↔ ∃ P, S.AntidependencePaths_[I]? = some P ∧ c ∈ P := by
    intro c I
    cases hl : M.lookup c with
    | some C =>
      rw [unintOf_of_lookup hl, (hinv.mem c C hl).1 I, hocc]
    | none =>
      simp only [unintOf, hl, List.not_mem_nil, false_iff]
      rintro ⟨P, hP, hc⟩
      obtain ⟨C, hC⟩ := hinv.dom (I, c) ((hocc I c).mpr ⟨P, hP, hc⟩)
      simp only at hC
      rw [hl] at hC
      cases hC
  have hliveAll : ∀ I, PathLive S.AntidependencePaths_ M Worklist I := by
    intro I P hP J hJ
    refine ⟨?_, (hun J I).mpr ⟨P, hP, hJ⟩⟩
    obtain ⟨C, hC⟩ := hinv.dom (I, J) ((hocc I J).mpr ⟨P, hP, hJ⟩)
    exact hperm.mem_iff.mpr ((lookup_isSome_iff M J).mp ⟨C, hC⟩)
  have hinit : LoopInv S.AntidependencePaths_.length S.AntidependencePaths_
      { Map := M, Worklist := Worklist, CutSet_ := S.CutSet_, CutMap_ := S.CutMap_ } :=
    { wl := by
        refine ⟨hperm.nodup_iff.mpr hinv.keys, hsorted, ?_⟩
        intro c hc
        obtain ⟨C, hC⟩ := hlook c hc
        obtain ⟨hiff, hnd, hcnt, hint⟩ := hinv.mem c C hC
        refine ⟨C, hC, hcnt, hnd, ?_⟩
        rw [hcnt, hint]
        exact nodup_bounded_length _ _ hnd (fun I hI => hinv.bound (I, c) ((hiff I).mp hI))
      live := fun c _ I hI => ⟨(hun c I).mp hI, hliveAll I⟩
      hit := fun I _ _ => Or.inr (hliveAll I)
      fresh := by
        intro c _ I _ P _ x hx
        simp [hCM] at hx
      order := by
        intro pre c post h
        simp [hCM] at h }
  obtain ⟨R, hR, hinvR, hnil, hsub, hkeys⟩ :=
    hittingSetLoop_ok S.AntidependencePaths_.length hN Order hOrd S.AntidependencePaths_ hPaths
      (Worklist.length + 1) _ hinit (Nat.lt_succ_self _)
  refine ⟨{ S with CutSet_ := R.CutSet_, CutMap_ := R.CutMap_ }, ?_, rfl, rfl, ?_, hsub,
    hinvR.order, ?_⟩
  · simp only [computeHittingSet, hM, hWl, hR]
  · intro P hP
    obtain ⟨I, hI⟩ := List.getElem?_of_mem hP
    rcases hinvR.hit I P hI with h | h
    · exact h
    · exfalso
      obtain ⟨c, hc⟩ := List.exists_mem_of_ne_nil P (hPaths P hP).2
      have := (h P hI c hc).1
      rw [hnil] at this
      simp at this
  · intro x hx
    rcases hkeys x hx with h | h
    · exact h
    · simp [hCM] at h

end Ratchet

namespace Ratchet

/-! ## Properties of the worklist search -/

theorem mem_pushSuccs_wl (ns Worklist Visited : List Nat) (x : Nat) :
    x ∈ (pushSuccs ns Worklist Visited).1 ↔ x ∈ Worklist ∨ (x ∈ ns ∧ x ∉ Visited) := by
  induction ns generalizing Worklist Visited with
  | nil => simp [pushSuccs]
  | cons s ns ih =>
    unfold pushSuccs
    by_cases h : s ∈ Visited
    · rw [if_pos h, ih]
      constructor
      · rintro (h1 | ⟨h1, h2⟩)
        · exact Or.inl h1
        · exact Or.inr ⟨List.mem_cons_of_mem _ h1, h2⟩
      · rintro (h1 | ⟨h1, h2⟩)
        · exact Or.inl h1
        · rcases List.mem_cons.mp h1 with h3 | h3
          · exact absurd (h3 ▸ h) h2
          · exact Or.inr ⟨h3, h2⟩
    · rw [if_neg h, ih]
      constructor
      · rintro (h1 | ⟨h1, h2⟩)
        · rcases List.mem_cons.mp h1 with h3 | h3
          · exact Or.inr ⟨by simp [h3], h3 ▸ h⟩
          · exact Or.inl h3
        · exact Or.inr ⟨List.mem_cons_of_mem _ h1, fun h3 => h2 (List.mem_cons_of_mem _ h3)⟩
      · rintro (h1 | ⟨h1, h2⟩)
        · exact Or.inl (List.mem_cons_of_mem _ h1)
        · rcases List.mem_cons.mp h1 with h3 | h3
          · exact Or.inl (by simp [h3])
          · by_cases hx : x = s
            · exact Or.inl (by simp [hx])
            · refine Or.inr ⟨h3, ?_⟩
              intro h4
              rcases List.mem_cons.mp h4 with h5 | h5
              · exact hx h5
              · exact h2 h5

theorem mem_pushSuccs_vis (ns Worklist Visited : List Nat) (x : Nat) :
    x ∈ (pushSuccs ns Worklist Visited).2 ↔ x ∈ Visited ∨ x ∈ ns := by
  induction ns generalizing Worklist Visited with
  | nil => simp [pushSuccs]
  | cons s ns ih =>
    unfold pushSuccs
    by_cases h : s ∈ Visited
    · rw [if_pos h, ih]
      constructor
      · rintro (h1 | h1)
        · exact Or.inl h1
        · exact Or.inr (List.mem_cons_of_mem _ h1)
      · rintro (h1 | h1)
        · exact Or.inl h1
        · rcases List.mem_cons.mp h1 with h3 | h3
          · exact Or.inl (h3 ▸ h)
          · exact Or.inr h3
    · rw [if_neg h, ih]
      constructor
      · rintro (h1 | h1)
        · rcases List.mem_cons.mp h1 with h3 | h3
          · exact Or.inr (by simp [h3])
          · exact Or.inl h3
        · exact Or.inr (List.mem_cons_of_mem _ h1)
      · rintro (h1 | h1)
        · exact Or.inl (List.mem_cons_of_mem _ h1)
        · rcases List.mem_cons.mp h1 with h3 | h3
          · exact Or.inl (by simp [h3])
          · exact Or.inr h3

theorem unvisited_cons_lt (n p : Nat) (Visited : List Nat) (hp : p < n) (hv : p ∉ Visited) :
    unvisited n (p :: Visited) < unvisited n Visited := by
  unfold unvisited
  apply Finset.card_lt_card
  rw [Finset.ssubset_iff_of_subset]
  · refine ⟨p, ?_, ?_⟩
    · simp [hp, hv]
    · simp
  · intro x hx
    simp only [List.toFinset_cons, Finset.mem_sdiff, Finset.mem_range, Finset.mem_insert,
      List.mem_toFinset, not_or] at hx ⊢
    exact ⟨hx.1, hx.2.2⟩

theorem pushSuccs_measure (n : Nat) (ns Worklist Visited : List Nat) (hns : ∀ p ∈ ns, p < n) :
    (pushSuccs ns Worklist Visited).1.length + unvisited n (pushSuccs ns Worklist Visited).2 ≤
      Worklist.length + unvisited n Visited := by
  induction ns generalizing Worklist Visited with
  | nil => simp [pushSuccs]
  | cons s ns ih =>
    have hns' : ∀ p ∈ ns, p < n := fun p hp => hns p (List.mem_cons_of_mem _ hp)
    unfold pushSuccs
    by_cases h : s ∈ Visited
    · rw [if_pos h]
      exact ih Worklist Visited hns'
    · rw [if_neg h]
      have h1 := ih (s :: Worklist) (s :: Visited) hns'
      have h2 := unvisited_cons_lt n s Visited (hns s (List.mem_cons_self _ _)) h
      simp only [List.length_cons] at h1
      omega

theorem pushSuccs_nodup (ns Worklist Visited : List Nat) (hnd : Worklist.Nodup)
    (hsub : ∀ b ∈ Worklist, b ∈ Visited) :
    (pushSuccs ns Worklist Visited).1.Nodup ∧
      ∀ b ∈ (pushSuccs ns Worklist Visited).1, b ∈ (pushSuccs ns Worklist Visited).2 := by
  induction ns generalizing Worklist Visited with
  | nil => exact ⟨hnd, hsub⟩
  | cons s ns ih =>
    unfold pushSuccs
    by_cases h : s ∈ Visited
    · rw [if_pos h]
      exact ih Worklist Visited hnd hsub
    · rw [if_neg h]
      apply ih
      · exact List.nodup_cons.mpr ⟨fun hm => h (hsub s hm), hnd⟩
      · intro b hb
        rcases List.mem_cons.mp hb with h1 | h1
        · simp [h1]
        · exact List.mem_cons_of_mem _ (hsub b h1)

/-- Enough fuel: the walk returns when every block it can reach scans without
an abort and lies below `n`. -/
theorem dfsTrace_terminates (stop : Nat → Option Bool) (nbrs : Nat → List Nat) (n : Nat)
    (G : Nat → Prop)
    (hG : ∀ b, G b → b < n ∧ ∃ s, stop b = some s ∧ (s = false → ∀ p ∈ nbrs b, G p)) :
    ∀ (fuel : Nat) (Worklist Visited : List Nat), (∀ b ∈ Worklist, G b) →
      Worklist.length + unvisited n Visited < fuel →
      ∃ tr, dfsTrace stop nbrs fuel Worklist Visited = some tr := by
  intro fuel
  induction fuel with
  | zero => intro _ _ _ h; omega
  | succ fuel ih =>
    intro Worklist Visited hW hfuel
    cases Worklist with
    | nil => exact ⟨[], rfl⟩
    | cons b Worklist =>
      obtain ⟨_, s, hs, hclos⟩ := hG b (hW b (List.mem_cons_self _ _))
      have hW' : ∀ b' ∈ Worklist, G b' := fun b' hb' => hW b' (List.mem_cons_of_mem _ hb')
      simp only [List.length_cons] at hfuel
      cases s with
      | true =>
        obtain ⟨tr, htr⟩ := ih Worklist Visited hW' (by omega)
        exact ⟨b :: tr, by simp [dfsTrace, hs, htr]⟩
      | false =>
        have hns : ∀ p ∈ nbrs b, p < n := fun p hp => (hG p (hclos rfl p hp)).1
        have hm := pushSuccs_measure n (nbrs b) Worklist Visited hns
        obtain ⟨tr, htr⟩ := ih (pushSuccs (nbrs b) Worklist Visited).1
          (pushSuccs (nbrs b) Worklist Visited).2
          (by
            intro b' hb'
            rcases (mem_pushSuccs_wl _ _ _ _).mp hb' with h1 | h1
            · exact hW' b' h1
            · exact hclos rfl b' h1.1)
          (by omega)
        exact ⟨b :: tr, by simp [dfsTrace, hs, htr]⟩

/-- What a finished walk has scanned: its worklist, and it is closed under the
neighbours of the blocks from which the walk goes on. -/
theorem dfsTrace_closed (stop : Nat → Option Bool) (nbrs : Nat → List Nat) :
    ∀ (fuel : Nat) (Worklist Visited tr : List Nat),
      dfsTrace stop nbrs fuel Worklist Visited = some tr →
      (∀ b ∈ Worklist, b ∈ tr) ∧
      (∀ b ∈ tr, ∃ s, stop b = some s ∧
        (s = false → ∀ p ∈ nbrs b, p ∈ Visited ∨ p ∈ tr)) := by
  intro fuel
  induction fuel with
  | zero => intro _ _ _ h; simp [dfsTrace] at h
  | succ fuel ih =>
    intro Worklist Visited tr h
    cases Worklist with
    | nil =>
      simp only [dfsTrace] at h
      cases h
      exact ⟨by simp, by simp⟩
    | cons b Worklist =>
      simp only [dfsTrace] at h
      cases hs : stop b with
      | none => simp [hs] at h
      | some s =>
        rw [hs] at h
        simp only at h
        cases hrec : dfsTrace stop nbrs fuel
            (if s = true then (Worklist, Visited) else pushSuccs (nbrs b) Worklist Visited).1
            (if s = true then (Worklist, Visited) else pushSuccs (nbrs b) Worklist Visited).2 with
        | none => simp [hrec] at h
        | some tr' =>
          rw [hrec] at h
          simp only [Option.some.injEq] at h
          subst h
          obtain ⟨h1, h2⟩ := ih _ _ _ hrec
          cases s with
          | true =>
            simp only [if_true] at h1 h2
            refine ⟨?_, ?_⟩
            · intro b' hb'
              rcases List.mem_cons.mp hb' with h3 | h3
              · simp [h3]
              · exact List.mem_cons_of_mem _ (h1 b' h3)
            · intro b' hb'
              rcases List.mem_cons.mp hb' with h3 | h3
              · subst h3
                exact ⟨true, hs, by simp⟩
              · obtain ⟨s', hs', hc⟩ := h2 b' h3
                exact ⟨s', hs', fun e p hp => (hc e p hp).imp id (List.mem_cons_of_mem _)⟩
          | false =>
            simp only [Bool.false_eq_true, if_false] at h1 h2
            refine ⟨?_, ?_⟩
            · intro b' hb'
              rcases List.mem_cons.mp hb' with h3 | h3
              · simp [h3]
              · exact List.mem_cons_of_mem _
                  (h1 b' ((mem_pushSuccs_wl _ _ _ _).mpr (Or.inl h3)))
            · intro b' hb'
              rcases List.mem_cons.mp hb' with h3 | h3
              · subst h3
                refine ⟨false, hs, ?_⟩
                intro _ p hp
                by_cases hv : p ∈ Visited
                · exact Or.inl hv
                · exact Or.inr (List.mem_cons_of_mem _
                    (h1 p ((mem_pushSuccs_wl _ _ _ _).mpr (Or.inr ⟨hp, hv⟩))))
              · obtain ⟨s', hs', hc⟩ := h2 b' h3
                refine ⟨s', hs', ?_⟩
                intro e p hp
                rcases hc e p hp with h4 | h4
                · rcases (mem_pushSuccs_vis _ _ _ _).mp h4 with h5 | h5
                  · exact Or.inl h5
                  · by_cases hv : p ∈ Visited
                    · exact Or.inl hv
                    · exact Or.inr (List.mem_cons_of_mem _
                        (h1 p ((mem_pushSuccs_wl _ _ _ _).mpr (Or.inr ⟨h5, hv⟩))))
                · exact Or.inr (List.mem_cons_of_mem _ h4)

/-- Where a scanned block comes from: the worklist, or it is a not yet visited
neighbour of a scanned block from which the walk goes on. -/
theorem dfsTrace_sound (stop : Nat → Option Bool) (nbrs : Nat → List Nat) :
    ∀ (fuel : Nat) (Worklist Visited tr : List Nat),
      dfsTrace stop nbrs fuel Worklist Visited = some tr →
      ∀ b ∈ tr, b ∈ Worklist ∨
        (b ∉ Visited ∧ ∃ b' ∈ tr, stop b' = some false ∧ b ∈ nbrs b') := by
  intro fuel
  induction fuel with
  | zero => intro _ _ _ h; simp [dfsTrace] at h
  | succ fuel ih =>
    intro Worklist Visited tr h
    cases Worklist with
    | nil =>
      simp only [dfsTrace] at h
      cases h
      simp
    | cons b Worklist =>
      simp only [dfsTrace] at h
      cases hs : stop b with
      | none => simp [hs] at h
      | some s =>
        rw [hs] at h
        simp only at h
        cases hrec : dfsTrace stop nbrs fuel
            (if s = true then (Worklist, Visited) else pushSuccs (nbrs b) Worklist Visited).1
            (if s = true then (Worklist, Visited) else pushSuccs (nbrs b) Worklist Visited).2 with
        | none => simp [hrec] at h
        | some tr' =>
          rw [hrec] at h
          simp only [Option.some.injEq] at h
          subst h
          have h1 := ih _ _ _ hrec
          intro b' hb'
          rcases List.mem_cons.mp hb' with h3 | h3
          · exact Or.inl (by simp [h3])
          · cases s with
            | true =>
              simp only [if_true] at h1
              rcases h1 b' h3 with h4 | ⟨h4, b'', h5, h6⟩
              · exact Or.inl (List.mem_cons_of_mem _ h4)
              · exact Or.inr ⟨h4, b'', List.mem_cons_of_mem _ h5, h6⟩
            | false =>
              simp only [Bool.false_eq_true, if_false] at h1
              rcases h1 b' h3 with h4 | ⟨h4, b'', h5, h6⟩
              · rcases (mem_pushSuccs_wl _ _ _ _).mp h4 with h7 | h7
                · exact Or.inl (List.mem_cons_of_mem _ h7)
                · exact Or.inr ⟨h7.2, b, List.mem_cons_self _ _, hs, h7.1⟩
              · refine Or.inr ⟨?_, b'', List.mem_cons_of_mem _ h5, h6⟩
                intro hv
                exact h4 ((mem_pushSuccs_vis _ _ _ _).mpr (Or.inl hv))

/-- No block is scanned twice when the worklist is duplicate-free and visited. -/
theorem dfsTrace_nodup (stop : Nat → Option Bool) (nbrs : Nat → List Nat) :
    ∀ (fuel : Nat) (Worklist Visited tr : List Nat),
      dfsTrace stop nbrs fuel Worklist Visited = some tr →
      Worklist.Nodup → (∀ b ∈ Worklist, b ∈ Visited) →
      tr.Nodup ∧ ∀ b ∈ tr, b ∈ Worklist ∨ b ∉ Visited := by
  intro fuel
  induction fuel with
  | zero => intro _ _ _ h; simp [dfsTrace] at h
  | succ fuel ih =>
    intro Worklist Visited tr h hnd hsub
    cases Worklist with
    | nil =>
      simp only [dfsTrace] at h
      cases h
      simp
    | cons b Worklist =>
      simp only [dfsTrace] at h
      have hbW : b ∉ Worklist := (List.nodup_cons.mp hnd).1
      have hndW : Worklist.Nodup := (List.nodup_cons.mp hnd).2
      have hbV : b ∈ Visited := hsub b (List.mem_cons_self _ _)
      have hsubW : ∀ b' ∈ Worklist, b' ∈ Visited :=
        fun b' hb' => hsub b' (List.mem_cons_of_mem _ hb')
      cases hs : stop b with
      | none => simp [hs] at h
      | some s =>
        rw [hs] at h
        simp only at h
        cases hrec : dfsTrace stop nbrs fuel
            (if s = true then (Worklist, Visited) else pushSuccs (nbrs b) Worklist Visited).1
            (if s = true then (Worklist, Visited) else pushSuccs (nbrs b) Worklist Visited).2 with
        | none => simp [hrec] at h
        | some tr' =>
          rw [hrec] at h
          simp only [Option.some.injEq] at h
          subst h
          cases s with
          | true =>
            simp only [if_true] at hrec
            obtain ⟨h1, h2⟩ := ih _ _ _ hrec hndW hsubW
            refine ⟨List.nodup_cons.mpr ⟨?_, h1⟩, ?_⟩
            · intro hb
              rcases h2 b hb with h3 | h3
              · exact hbW h3
              · exact h3 hbV
            · intro b' hb'
              rcases List.mem_cons.mp hb' with h3 | h3
              · exact Or.inl (by simp [h3])
              · exact (h2 b' h3).imp (List.mem_cons_of_mem _) id
          | false =>
            simp only [Bool.false_eq_true, if_false] at hrec
            obtain ⟨hnd', hsub'⟩ := pushSuccs_nodup (nbrs b) Worklist Visited hndW hsubW
            obtain ⟨h1, h2⟩ := ih _ _ _ hrec hnd' hsub'
            refine ⟨List.nodup_cons.mpr ⟨?_, h1⟩, ?_⟩
            · intro hb
              rcases h2 b hb with h3 | h3
              · rcases (mem_pushSuccs_wl _ _ _ _).mp h3 with h4 | h4
                · exact hbW h4
                · exact h4.2 hbV
              · exact h3 ((mem_pushSuccs_vis _ _ _ _).mpr (Or.inl hbV))
            · intro b' hb'
              rcases List.mem_cons.mp hb' with h3 | h3
              · exact Or.inl (by simp [h3])
              · rcases h2 b' h3 with h4 | h4
                · rcases (mem_pushSuccs_wl _ _ _ _).mp h4 with h5 | h5
                  · exact Or.inl (List.mem_cons_of_mem _ h5)
                  · exact Or.inr h5.2
                · exact Or.inr (fun hv => h4 ((mem_pushSuccs_vis _ _ _ _).mpr (Or.inl hv)))

end Ratchet

namespace Ratchet

/-! ## The backward scan of one block -/

theorem inst?_eq (F : Function) (bb i : Nat) (B : BasicBlock) (hB : F.blocks[bb]? = some B) :
    F.inst? ⟨bb, i⟩ = B.insts[i]? := by
  simp [Function.inst?, hB]

/-- The scan loop appends to the pairs it is given. -/
theorem scanLoop_pairs (AA : AliasAnalysis) (B : BasicBlock) (bb E : Nat) (Store : InstPos)
    (Pairs : List AntidependencePairTy) (i : Nat) :
    scanForAliasingLoadLoop AA B bb E Store Pairs i =
      (scanForAliasingLoadLoop AA B bb E Store [] i).map (fun r => (r.1, Pairs ++ r.2)) := by
  induction i with
  | zero =>
    unfold scanForAliasingLoadLoop
    by_cases h : E = 0 <;> simp [h]
  | succ i ih =>
    unfold scanForAliasingLoadLoop
    by_cases h : i + 1 = E
    · simp [h]
    · simp only [h, if_false]
      cases hi : B.insts[i]? with
      | none => simp
      | some inst =>
        simp only
        by_cases hf : forcesCut inst = true
        · simp [hf]
        · simp only [hf, if_false]
          by_cases hl : (inst.isLoad && AA.mayRef ⟨bb, i⟩ Store) = true
          · simp [hl]
          · simp only [hl, if_false]
            exact ih

theorem scan_pairs (F : Function) (AA : AliasAnalysis) (bb I E : Nat) (Store : InstPos)
    (Pairs : List AntidependencePairTy) :
    scanForAliasingLoad F AA bb I E Store Pairs =
      (scanForAliasingLoad F AA bb I E Store []).map (fun r => (r.1, Pairs ++ r.2)) := by
  unfold scanForAliasingLoad
  cases hB : F.blocks[bb]? with
  | none => simp
  | some B =>
    simp only
    rw [scanLoop_pairs]
    cases hl : scanForAliasingLoadLoop AA B bb E Store [] I with
    | none => simp
    | some r =>
      obtain ⟨flag, ps⟩ := r
      cases flag with
      | true => simp
      | false =>
        simp only [Option.map_some', List.append_nil, List.nil_append]
        by_cases hE : E < B.insts.length
        · simp only [hE, if_true]
          by_cases hb : bb = 0
          · simp only [hb, if_true]
            cases hS : F.inst? Store with
            | none => simp
            | some SI =>
              by_cases hg : SI.storesToGlobal = true
              · simp [hg]
              · simp [hg]
          · simp [hb]
        · simp [hE]

/-- The loop finds nothing when no instruction of the range ends the scan. -/
theorem scanLoop_clean (F : Function) (AA : AliasAnalysis) (B : BasicBlock) (bb E : Nat)
    (Store : InstPos) (Pairs : List AntidependencePairTy) (hB : F.blocks[bb]? = some B) :
    ∀ i, E ≤ i → i ≤ B.insts.length →
      (∀ j, E ≤ j → j < i → stopperAt F AA Store ⟨bb, j⟩ = false) →
      scanForAliasingLoadLoop AA B bb E Store Pairs i = some (false, Pairs) := by
  intro i
  induction i with
  | zero =>
    intro hE _ _
    have : E = 0 := by omega
    simp [scanForAliasingLoadLoop, this]
  | succ i ih =>
    intro hE hlen hclean
    unfold scanForAliasingLoadLoop
    by_cases h : i + 1 = E
    · simp [h]
    · simp only [h, if_false]
      have hi : i < B.insts.length := by omega
      rw [List.getElem?_eq_getElem hi]
      simp only
      have hc := hclean i (by omega) (by omega)
      simp only [stopperAt, inst?_eq F bb i B hB, List.getElem?_eq_getElem hi,
        Bool.or_eq_false_iff] at hc
      simp only [hc.1, Bool.false_eq_true, if_false, hc.2]
      exact ih (by omega) (by omega) (fun j h1 h2 => hclean j h1 (by omega))

/-- The loop stops at the first instruction from the top that ends the scan,
and records a pair when that instruction is no forced cut. -/
theorem scanLoop_found (F : Function) (AA : AliasAnalysis) (B : BasicBlock) (bb E : Nat)
    (Store : InstPos) (Pairs : List AntidependencePairTy) (hB : F.blocks[bb]? = some B)
    (j : Nat) (inst : Instruction) (hj : B.insts[j]? = some inst)
    (hstop : stopperAt F AA Store ⟨bb, j⟩ = true) :
    ∀ i, E ≤ j → j < i → i ≤ B.insts.length →
      (∀ j', j < j' → j' < i → stopperAt F AA Store ⟨bb, j'⟩ = false) →
      scanForAliasingLoadLoop AA B bb E Store Pairs i =
        some (true, if forcesCut inst then Pairs else Pairs ++ [(⟨bb, j⟩, Store)]) := by
  intro i
  induction i with
  | zero => intro _ h; omega
  | succ i ih =>
    intro hE hji hlen hclean
    unfold scanForAliasingLoadLoop
    have h : ¬ i + 1 = E := by omega
    simp only [h, if_false]
    by_cases hij : i = j
    · subst hij
      rw [hj]
      simp only
      simp only [stopperAt, inst?_eq F bb i B hB, hj, Bool.or_eq_true] at hstop
      by_cases hf : forcesCut inst = true
      · simp [hf]
      · simp only [hf, if_false, Bool.false_eq_true]
        rcases hstop with h1 | h1
        · exact absurd h1 hf
        · simp [h1]
    · have hi : i < B.insts.length := by omega
      rw [List.getElem?_eq_getElem hi]
      simp only
      have hc := hclean i (by omega) (by omega)
      simp only [stopperAt, inst?_eq F bb i B hB, List.getElem?_eq_getElem hi,
        Bool.or_eq_false_iff] at hc
      simp only [hc.1, Bool.false_eq_true, if_false, hc.2]
      exact ih hE (by omega) (by omega) (fun j' h1 h2 => hclean j' h1 (by omega))

/-- The loop never aborts on a range of the block. -/
theorem scanLoop_total (AA : AliasAnalysis) (B : BasicBlock) (bb E : Nat)
    (Store : InstPos) (Pairs : List AntidependencePairTy) :
    ∀ i, E ≤ i → i ≤ B.insts.length →
      (scanForAliasingLoadLoop AA B bb E Store Pairs i).isSome = true := by
  intro i
  induction i with
  | zero =>
    intro hE _
    have : E = 0 := by omega
    simp [scanForAliasingLoadLoop, this]
  | succ i ih =>
    intro hE hlen
    unfold scanForAliasingLoadLoop
    by_cases h : i + 1 = E
    · simp [h]
    · simp only [h, if_false]
      have hi : i < B.insts.length := by omega
      rw [List.getElem?_eq_getElem hi]
      simp only
      by_cases hf : forcesCut B.insts[i] = true
      · simp [hf]
      · simp only [hf, if_false, Bool.false_eq_true]
        by_cases hl : (B.insts[i].isLoad && AA.mayRef ⟨bb, i⟩ Store) = true
        · simp [hl]
        · simp only [hl, if_false, Bool.false_eq_true]
          exact ih (by omega) (by omega)

end Ratchet

namespace Ratchet

/-! ## findAntidependencePairs as a worklist search -/

theorem cfg_getElem? (F : Function) (b : Nat) :
    F.cfg[b]? = (F.blocks[b]?).map (fun B => ⟨B.insts.length, B.preds, B.succs⟩) := by
  simp [Function.cfg, List.getElem?_map]

theorem cfg_length (F : Function) : F.cfg.length = F.blocks.length := by
  simp [Function.cfg]

theorem blockLen_eq (F : Function) (b : Nat) (B : BasicBlock) (hB : F.blocks[b]? = some B) :
    F.blockLen b = B.insts.length := by
  simp [Function.blockLen, hB]

theorem block_of_lt (F : Function) (b : Nat) (hb : b < F.blocks.length) :
    ∃ B, F.blocks[b]? = some B := ⟨F.blocks[b], List.getElem?_eq_getElem hb⟩

theorem lt_of_block (F : Function) (b : Nat) (B : BasicBlock) (hB : F.blocks[b]? = some B) :
    b < F.blocks.length := by
  by_contra h
  rw [List.getElem?_eq_none (by omega)] at hB
  cases hB

theorem preds_valid (F : Function) (hWF : F.WellFormed) (b : Nat) (B : BasicBlock)
    (hB : F.blocks[b]? = some B) : ∀ p ∈ B.preds, p < F.blocks.length := by
  intro p hp
  have := hWF.cfg.predsValid b ⟨B.insts.length, B.preds, B.succs⟩
    (by rw [cfg_getElem?, hB]; rfl) p hp
  rwa [cfg_length] at this

theorem block_nonempty (F : Function) (hWF : F.WellFormed) (b : Nat) (B : BasicBlock)
    (hB : F.blocks[b]? = some B) : 0 < B.insts.length := by
  have := hWF.nonempty B (List.getElem?_mem hB)
  exact List.length_pos.mpr this

theorem pushPreds_eq (F : Function) (Ps : List Nat) (hPs : ∀ p ∈ Ps, p < F.blocks.length) :
    ∀ (Worklist Visited : List Nat),
      pushPreds F Ps (Worklist.map (fun b => (b, F.blockLen b))) Visited =
        some ((pushSuccs Ps Worklist Visited).1.map (fun b => (b, F.blockLen b)),
          (pushSuccs Ps Worklist Visited).2) := by
  induction Ps with
  | nil => intro Worklist Visited; rfl
  | cons P Ps ih =>
    intro Worklist Visited
    have hPs' : ∀ p ∈ Ps, p < F.blocks.length := fun p hp => hPs p (List.mem_cons_of_mem _ hp)
    unfold pushPreds pushSuccs
    by_cases h : P ∈ Visited
    · rw [if_pos h, if_pos h]
      exact ih hPs' Worklist Visited
    · rw [if_neg h, if_neg h]
      obtain ⟨B, hB⟩ := block_of_lt F P (hPs P (List.mem_cons_self _ _))
      rw [hB]
      simp only
      have := ih hPs' (P :: Worklist) (P :: Visited)
      rw [List.map_cons, blockLen_eq F P B hB] at this
      exact this

/-- The loop of `findAntidependencePairs` on blocks entered from their end is
the worklist search, and the pairs are those of the scanned blocks in order. -/
theorem findLoop_eq_trace (F : Function) (AA : AliasAnalysis) (Write : InstPos)
    (hWF : F.WellFormed) (v a g : Bool) (hW : F.inst? Write = some (.store v a g)) :
    ∀ (fuel : Nat) (Worklist Visited : List Nat) (Pairs : List AntidependencePairTy),
      findAntidependencePairsLoop F AA Write fuel
          (Worklist.map (fun b => (b, F.blockLen b))) Visited Pairs =
        (dfsTrace (irStop F AA Write) (irNbrs F) fuel Worklist Visited).map
          (fun tr => Pairs ++ tr.flatMap (irPairs F AA Write)) := by
  intro fuel
  induction fuel with
  | zero => intro Worklist Visited Pairs; rfl
  | succ fuel ih =>
    intro Worklist Visited Pairs
    cases Worklist with
    | nil => simp [findAntidependencePairsLoop, dfsTrace]
    | cons b Worklist =>
      simp only [List.map_cons, findAntidependencePairsLoop, dfsTrace]
      cases hB : F.blocks[b]? with
      | none => simp [irStop, irScan, hB]
      | some B =>
        simp only [hW, blockLen_eq F b B hB, and_true]
        have hE : (if b = Write.bb then Write.idx else 0) = irLo Write b := rfl
        rw [hE, scan_pairs]
        have hscan : scanForAliasingLoad F AA b B.insts.length (irLo Write b) Write [] =
            irScan F AA Write b := by simp [irScan, hB]
        rw [hscan]
        cases hs : irScan F AA Write b with
        | none => simp [irStop, hs]
        | some r =>
          obtain ⟨flag, ps⟩ := r
          have hstop : irStop F AA Write b = some flag := by simp [irStop, hs]
          have hpairs : irPairs F AA Write b = ps := by simp [irPairs, hs]
          rw [hstop]
          cases flag with
          | true =>
            simp only [Option.map_some', if_true]
            rw [ih Worklist Visited (Pairs ++ ps)]
            cases dfsTrace (irStop F AA Write) (irNbrs F) fuel Worklist Visited with
            | none => rfl
            | some tr => simp [List.flatMap_cons, hpairs]
          | false =>
            simp only [Option.map_some', Bool.false_eq_true, if_false]
            have hn : irNbrs F b = B.preds := by simp [irNbrs, hB]
            rw [hn, pushPreds_eq F B.preds (preds_valid F hWF b B hB) Worklist Visited]
            simp only
            rw [ih _ _ (Pairs ++ ps)]
            cases dfsTrace (irStop F AA Write) (irNbrs F) fuel
                (pushSuccs B.preds Worklist Visited).1 (pushSuccs B.preds Worklist Visited).2 with
            | none => rfl
            | some tr => simp [List.flatMap_cons, hpairs]

/-- A scan over a range of a block does not abort. -/
theorem scan_total (F : Function) (AA : AliasAnalysis) (bb I E : Nat) (Store : InstPos)
    (B : BasicBlock) (hB : F.blocks[bb]? = some B) (SI : Instruction)
    (hS : F.inst? Store = some SI) (hEI : E ≤ I) (hI : I ≤ B.insts.length)
    (hE : E < B.insts.length) :
    (scanForAliasingLoad F AA bb I E Store []).isSome = true := by
  unfold scanForAliasingLoad
  rw [hB]
  simp only
  have := scanLoop_total AA B bb E Store [] I hEI hI
  cases hl : scanForAliasingLoadLoop AA B bb E Store [] I with
  | none => rw [hl] at this; simp at this
  | some r =>
    obtain ⟨flag, ps⟩ := r
    cases flag with
    | true => simp
    | false =>
      simp only [hE, if_true, hS]
      by_cases hb : bb = 0
      · by_cases hg : SI.storesToGlobal = true
        · simp [hb, hg]
        · simp [hb, hg]
      · simp [hb]

theorem irStop_total (F : Function) (AA : AliasAnalysis) (Write : InstPos)
    (hWF : F.WellFormed) (SI : Instruction) (hW : F.inst? Write = some SI)
    (b : Nat) (hb : b < F.blocks.length) : ∃ s, irStop F AA Write b = some s := by
  obtain ⟨B, hB⟩ := block_of_lt F b hb
  have hlo : irLo Write b < B.insts.length := by
    unfold irLo
    by_cases h : b = Write.bb
    · rw [if_pos h]
      subst h
      simp only [Function.inst?, hB] at hW
      by_contra hcon
      rw [List.getElem?_eq_none (by omega)] at hW
      cases hW
    · rw [if_neg h]
      exact block_nonempty F hWF b B hB
  have := scan_total F AA b B.insts.length (irLo Write b) Write B hB SI hW (by omega)
    (le_refl _) hlo
  unfold irStop irScan
  rw [hB]
  simp only
  cases h : scanForAliasingLoad F AA b B.insts.length (irLo Write b) Write [] with
  | none => rw [h] at this; simp at this
  | some r => exact ⟨r.1, rfl⟩

theorem unvisited_nil (n : Nat) : unvisited n [] = n := by
  simp [unvisited]

/-- The walk over the blocks entered from their end returns with the fuel that
`findAntidependencePairs` gives it. -/
theorem irTrace_terminates (F : Function) (AA : AliasAnalysis) (Write : InstPos)
    (hWF : F.WellFormed) (SI : Instruction) (hW : F.inst? Write = some SI)
    (Ps : List Nat) (hPs : ∀ p ∈ Ps, p < F.blocks.length) :
    ∃ tr, dfsTrace (irStop F AA Write) (irNbrs F) (F.blocks.length + 1)
      (pushSuccs Ps [] []).1 (pushSuccs Ps [] []).2 = some tr := by
  apply dfsTrace_terminates (irStop F AA Write) (irNbrs F) F.blocks.length
    (fun b => b < F.blocks.length)
  · intro b hb
    obtain ⟨s, hs⟩ := irStop_total F AA Write hWF SI hW b hb
    refine ⟨hb, s, hs, ?_⟩
    intro _ p hp
    obtain ⟨B, hB⟩ := block_of_lt F b hb
    have hn : irNbrs F b = B.preds := by simp [irNbrs, hB]
    rw [hn] at hp
    exact preds_valid F hWF b B hB p hp
  · intro b hb
    rcases (mem_pushSuccs_wl _ _ _ _).mp hb with h | h
    · simp at h
    · exact hPs b h.1
  · have := pushSuccs_measure F.blocks.length Ps [] [] hPs
    rw [unvisited_nil] at this
    simp only [List.length_nil, Nat.zero_add] at this
    omega

/-- What `findAntidependencePairs` computes for a store: the pairs of the scan
from the store to the beginning of its block, followed, when that scan does not
terminate the path, by the pairs of the blocks of the worklist search over the
predecessors. -/
theorem findAntidependencePairs_eq (F : Function) (AA : AliasAnalysis) (Write : InstPos)
    (hWF : F.WellFormed) (v a g : Bool) (hW : F.inst? Write = some (.store v a g))
    (Pairs : List AntidependencePairTy) :
    ∃ B flag ps tr, F.blocks[Write.bb]? = some B ∧
      scanForAliasingLoad F AA Write.bb Write.idx 0 Write [] = some (flag, ps) ∧
      (flag = true → tr = []) ∧
      (flag = false → dfsTrace (irStop F AA Write) (irNbrs F) (F.blocks.length + 1)
        (pushSuccs B.preds [] []).1 (pushSuccs B.preds [] []).2 = some tr) ∧
      findAntidependencePairs F AA Write Pairs =
        some (Pairs ++ ps ++ tr.flatMap (irPairs F AA Write)) := by
  have hW' := hW
  unfold Function.inst? at hW'
  cases hB : F.blocks[Write.bb]? with
  | none => simp [hB] at hW'
  | some B =>
    rw [hB] at hW'
    simp only at hW'
    have hidx : Write.idx < B.insts.length := by
      by_contra hcon
      rw [List.getElem?_eq_none (by omega)] at hW'
      cases hW'
    have hscan := scan_total F AA Write.bb Write.idx 0 Write B hB _ hW (by omega) (by omega)
      (by omega)
    cases hs : scanForAliasingLoad F AA Write.bb Write.idx 0 Write [] with
    | none => rw [hs] at hscan; simp at hscan
    | some r =>
      obtain ⟨flag, ps⟩ := r
      have hE : (if True ∧ Write.idx = B.insts.length then Write.idx else 0) = 0 := by
        rw [if_neg]
        omega
      cases flag with
      | true =>
        refine ⟨B, true, ps, [], rfl, rfl, fun _ => rfl, fun h => Bool.noConfusion h, ?_⟩
        unfold findAntidependencePairs
        simp only [findAntidependencePairsLoop, hB, hW]
        rw [scan_pairs, hE, hs]
        simp [findAntidependencePairsLoop]
      | false =>
        obtain ⟨tr, htr⟩ := irTrace_terminates F AA Write hWF _ hW B.preds
          (preds_valid F hWF Write.bb B hB)
        refine ⟨B, false, ps, tr, rfl, rfl, fun h => Bool.noConfusion h, fun _ => htr, ?_⟩
        unfold findAntidependencePairs
        simp only [findAntidependencePairsLoop, hB, hW]
        rw [scan_pairs, hE, hs]
        simp only [Option.map_some']
        have hp := pushPreds_eq F B.preds (preds_valid F hWF Write.bb B hB) [] []
        simp only [List.map_nil] at hp
        rw [hp]
        simp only
        rw [findLoop_eq_trace F AA Write hWF v a g hW, htr]
        simp

end Ratchet

namespace Ratchet

/-! ## The recorded pairs -/

theorem scanLoop_pairs_valid (AA : AliasAnalysis) (B : BasicBlock) (bb E : Nat)
    (Store : InstPos) :
    ∀ i flag ps, scanForAliasingLoadLoop AA B bb E Store [] i = some (flag, ps) →
      ∀ pr ∈ ps, pr.2 = Store ∧ pr.1.bb = bb ∧ pr.1.idx < B.insts.length := by
  intro i
  induction i with
  | zero =>
    intro flag ps h
    unfold scanForAliasingLoadLoop at h
    by_cases hE : E = 0
    · simp only [hE, if_true, Option.some.injEq, Prod.mk.injEq] at h
      rw [← h.2]
      simp
    · simp [hE] at h
  | succ i ih =>
    intro flag ps h
    unfold scanForAliasingLoadLoop at h
    by_cases hE : i + 1 = E
    · simp only [hE, if_true, Option.some.injEq, Prod.mk.injEq] at h
      rw [← h.2]
      simp
    · simp only [hE, if_false] at h
      cases hi : B.insts[i]? with
      | none => simp [hi] at h
      | some inst =>
        have hlen : i < B.insts.length := by
          by_contra hcon
          rw [List.getElem?_eq_none (by omega)] at hi
          cases hi
        rw [hi] at h
        simp only at h
        by_cases hf : forcesCut inst = true
        · simp only [hf, if_true, Option.some.injEq, Prod.mk.injEq] at h
          rw [← h.2]
          simp
        · simp only [hf, if_false, Bool.false_eq_true] at h
          by_cases hl : (inst.isLoad && AA.mayRef ⟨bb, i⟩ Store) = true
          · simp only [hl, if_true, List.nil_append, Option.some.injEq, Prod.mk.injEq] at h
            rw [← h.2]
            intro pr hpr
            simp only [List.mem_singleton] at hpr
            subst hpr
            exact ⟨rfl, rfl, hlen⟩
          · simp only [hl, if_false, Bool.false_eq_true] at h
            exact ih flag ps h

theorem scan_pairs_valid (F : Function) (AA : AliasAnalysis) (bb I E : Nat) (Store : InstPos)
    (flag : Bool) (ps : List AntidependencePairTy)
    (h : scanForAliasingLoad F AA bb I E Store [] = some (flag, ps)) :
    ∀ pr ∈ ps, pr.2 = Store ∧ pr.1.bb = bb ∧ pr.1.idx < F.blockLen bb := by
  unfold scanForAliasingLoad at h
  cases hB : F.blocks[bb]? with
  | none => simp [hB] at h
  | some B =>
    rw [hB] at h
    simp only at h
    rw [blockLen_eq F bb B hB]
    cases hl : scanForAliasingLoadLoop AA B bb E Store [] I with
    | none => simp [hl] at h
    | some r =>
      obtain ⟨flag1, ps1⟩ := r
      have hv := scanLoop_pairs_valid AA B bb E Store I flag1 ps1 hl
      rw [hl] at h
      cases flag1 with
      | true =>
        simp only [Option.some.injEq, Prod.mk.injEq] at h
        rw [← h.2]
        exact hv
      | false =>
        simp only at h
        by_cases hE : E < B.insts.length
        · simp only [hE, if_true] at h
          by_cases hb : bb = 0
          · simp only [hb, if_true] at h
            cases hS : F.inst? Store with
            | none => simp [hS] at h
            | some SI =>
              rw [hS] at h
              simp only at h
              by_cases hg : SI.storesToGlobal = true
              · simp only [hg, if_true, Option.some.injEq, Prod.mk.injEq] at h
                rw [← h.2]
                intro pr hpr
                rcases List.mem_append.mp hpr with h1 | h1
                · exact hv pr h1
                · simp only [List.mem_singleton] at h1
                  subst h1
                  exact ⟨rfl, hb.symm ▸ rfl, hE⟩
              · simp only [hg, if_false, Bool.false_eq_true, Option.some.injEq,
                  Prod.mk.injEq] at h
                rw [← h.2]
                exact hv
          · simp only [hb, if_false, Option.some.injEq, Prod.mk.injEq] at h
            rw [← h.2]
            exact hv
        · simp [hE] at h

theorem irPairs_valid (F : Function) (AA : AliasAnalysis) (Write : InstPos) (b : Nat) :
    ∀ pr ∈ irPairs F AA Write b, pr.2 = Write ∧ pr.1.bb = b ∧ pr.1.idx < F.blockLen b := by
  unfold irPairs irScan
  cases hB : F.blocks[b]? with
  | none => simp
  | some B =>
    simp only
    cases hs : scanForAliasingLoad F AA b B.insts.length (irLo Write b) Write [] with
    | none => simp
    | some r => exact scan_pairs_valid F AA b _ _ Write r.1 r.2 hs

/-- `findAntidependencePairs` returns for a store of a well-formed function, and
every pair it adds joins an instruction of the function to the store. -/
theorem findAntidependencePairs_ok (F : Function) (AA : AliasAnalysis) (Write : InstPos)
    (hWF : F.WellFormed) (v a g : Bool) (hW : F.inst? Write = some (.store v a g))
    (Pairs : List AntidependencePairTy) :
    ∃ new, findAntidependencePairs F AA Write Pairs = some (Pairs ++ new) ∧
      ∀ pr ∈ new, pr.2 = Write ∧ PairOk F pr := by
  obtain ⟨B, flag, ps, tr, hB, hs, _, _, hres⟩ :=
    findAntidependencePairs_eq F AA Write hWF v a g hW Pairs
  refine ⟨ps ++ tr.flatMap (irPairs F AA Write), by rw [hres, List.append_assoc], ?_⟩
  have hWidx : Write.idx < F.blockLen Write.bb := by
    rw [blockLen_eq F _ B hB]
    have hW' := hW
    simp only [Function.inst?, hB] at hW'
    by_contra hcon
    rw [List.getElem?_eq_none (by omega)] at hW'
    cases hW'
  intro pr hpr
  rcases List.mem_append.mp hpr with h1 | h1
  · obtain ⟨h2, h3, h4⟩ := scan_pairs_valid F AA _ _ _ Write flag ps hs pr h1
    refine ⟨h2, ?_, ?_⟩
    · rw [h3]; exact h4
    · rw [h2]; exact hWidx
  · obtain ⟨b, _, hb⟩ := List.mem_flatMap.mp h1
    obtain ⟨h2, h3, h4⟩ := irPairs_valid F AA Write b pr hb
    refine ⟨h2, ?_, ?_⟩
    · rw [h3]; exact h4
    · rw [h2]; exact hWidx

theorem computePairs_ok (F : Function) (AA : AliasAnalysis) (hWF : F.WellFormed) :
    ∀ (Is : List InstPos) (Pairs : List AntidependencePairTy),
      ∃ new, computePairs F AA Is Pairs = some (Pairs ++ new) ∧ ∀ pr ∈ new, PairOk F pr := by
  intro Is
  induction Is with
  | nil => intro Pairs; exact ⟨[], by simp [computePairs], by simp⟩
  | cons I Is ih =>
    intro Pairs
    cases hI : F.inst? I with
    | none =>
      obtain ⟨new, h1, h2⟩ := ih Pairs
      exact ⟨new, by simp only [computePairs, hI]; exact h1, h2⟩
    | some inst =>
      cases inst with
      | store v a g =>
        obtain ⟨new1, h1, h2⟩ := findAntidependencePairs_ok F AA I hWF v a g hI Pairs
        obtain ⟨new2, h3, h4⟩ := ih (Pairs ++ new1)
        refine ⟨new1 ++ new2, ?_, ?_⟩
        · simp only [computePairs, hI, h1]
          rw [h3, List.append_assoc]
        · intro pr hpr
          rcases List.mem_append.mp hpr with h5 | h5
          · exact (h2 pr h5).2
          · exact h4 pr h5
      | load _ _ | call _ | invoke | vaarg | fence | cmpxchg | atomicrmw | other =>
        obtain ⟨new, h1, h2⟩ := ih Pairs
        exact ⟨new, by simp only [computePairs, hI]; exact h1, h2⟩

end Ratchet

namespace Ratchet

/-! ## computeAntidependencePaths -/

theorem scanStoresToBegin_spec (F : Function) (B : BasicBlock) (bb : Nat)
    (hB : F.blocks[bb]? = some B) :
    ∀ (c : Nat) (Path : AntidependencePathTy), c ≤ B.insts.length →
      ∃ new, scanStoresToBegin B bb c Path = some (Path ++ new) ∧ new.Nodup ∧
        ∀ x ∈ new, x.bb = bb ∧ x.idx < c ∧ ∃ inst, F.inst? x = some inst ∧ inst.isStore = true := by
  intro c
  induction c with
  | zero => intro Path _; exact ⟨[], by simp [scanStoresToBegin], List.nodup_nil, by simp⟩
  | succ c ih =>
    intro Path hc
    have hlt : c < B.insts.length := by omega
    have hget : B.insts[c]? = some B.insts[c] := List.getElem?_eq_getElem hlt
    unfold scanStoresToBegin
    rw [hget]
    simp only
    by_cases hs : B.insts[c].isStore = true
    · obtain ⟨new, h1, h2, h3⟩ := ih (Path ++ [⟨bb, c⟩]) (by omega)
      refine ⟨⟨bb, c⟩ :: new, ?_, ?_, ?_⟩
      · simp only [hs, if_true]
        rw [h1]
        simp
      · refine List.nodup_cons.mpr ⟨?_, h2⟩
        intro hm
        have := (h3 _ hm).2.1
        simp at this
      · intro x hx
        rcases List.mem_cons.mp hx with h4 | h4
        · subst h4
          exact ⟨rfl, Nat.lt_succ_self c, B.insts[c], by rw [inst?_eq F bb c B hB, hget], hs⟩
        · obtain ⟨h5, h6, h7⟩ := h3 x h4
          exact ⟨h5, by omega, h7⟩
    · obtain ⟨new, h1, h2, h3⟩ := ih Path (by omega)
      refine ⟨new, ?_, h2, ?_⟩
      · simp only [hs, if_false, Bool.false_eq_true]
        exact h1
      · intro x hx
        obtain ⟨h5, h6, h7⟩ := h3 x hx
        exact ⟨h5, by omega, h7⟩

theorem scanStoresToLoad_spec (F : Function) (B : BasicBlock) (bb Load : Nat)
    (hB : F.blocks[bb]? = some B) :
    ∀ (c : Nat) (Path : AntidependencePathTy), Load < c → c ≤ B.insts.length →
      ∃ new, scanStoresToLoad B bb Load c Path = some (Path ++ new) ∧ new.Nodup ∧
        ∀ x ∈ new, x.bb = bb ∧ Load < x.idx ∧ x.idx < c ∧
          ∃ inst, F.inst? x = some inst ∧ inst.isStore = true := by
  intro c
  induction c with
  | zero => intro Path h; omega
  | succ c ih =>
    intro Path hL hc
    unfold scanStoresToLoad
    by_cases hcl : c = Load
    · exact ⟨[], by simp [hcl], List.nodup_nil, by simp⟩
    · simp only [hcl, if_false]
      have hlt : c < B.insts.length := by omega
      have hget : B.insts[c]? = some B.insts[c] := List.getElem?_eq_getElem hlt
      rw [hget]
      simp only
      by_cases hs : B.insts[c].isStore = true
      · obtain ⟨new, h1, h2, h3⟩ := ih (Path ++ [⟨bb, c⟩]) (by omega) (by omega)
        refine ⟨⟨bb, c⟩ :: new, ?_, ?_, ?_⟩
        · simp only [hs, if_true]
          rw [h1]
          simp
        · refine List.nodup_cons.mpr ⟨?_, h2⟩
          intro hm
          have := (h3 _ hm).2.2.1
          simp at this
        · intro x hx
          rcases List.mem_cons.mp hx with h4 | h4
          · subst h4
            exact ⟨rfl, by simp only; omega, Nat.lt_succ_self c, B.insts[c],
              by rw [inst?_eq F bb c B hB, hget], hs⟩
          · obtain ⟨h5, h6, h7, h8⟩ := h3 x h4
            exact ⟨h5, h6, by omega, h8⟩
      · obtain ⟨new, h1, h2, h3⟩ := ih Path (by omega) (by omega)
        refine ⟨new, ?_, h2, ?_⟩
        · simp only [hs, if_false, Bool.false_eq_true]
          exact h1
        · intro x hx
          obtain ⟨h5, h6, h7, h8⟩ := h3 x hx
          exact ⟨h5, h6, by omega, h8⟩

theorem dominatesNode_false (d : Nat) (rest LDT : List Nat) (hL : LDT ≠ [])
    (h : DominatorTree.dominatesNode (d :: rest) LDT = false) : d ∉ LDT := by
  cases LDT with
  | nil => exact absurd rfl hL
  | cons l ls =>
    simp only [DominatorTree.dominatesNode, Bool.or_eq_false_iff, beq_eq_false_iff_ne, ne_eq] at h
    intro hm
    rcases List.mem_cons.mp hm with h1 | h1
    · exact h.1 h1
    · have := h.2
      simp [h1] at this

theorem nonLocalPath_spec (F : Function) (LDT : DomTreeNode) (hL : LDT ≠ []) :
    ∀ (chain : DomTreeNode) (BB Cursor : Nat) (Path : AntidependencePathTy),
      chain.head? = some BB → chain.Nodup → (∀ a ∈ chain, a < F.blocks.length) →
      Cursor ≤ F.blockLen BB →
      ∃ new, nonLocalPath F LDT chain BB Cursor Path = some (Path ++ new) ∧ new.Nodup ∧
        ∀ x ∈ new, x.bb ∈ chain ∧ x.bb ∉ LDT ∧ (x.bb = BB → x.idx < Cursor) ∧
          ∃ inst, F.inst? x = some inst ∧ inst.isStore = true := by
  intro chain
  induction chain with
  | nil => intro BB Cursor Path h; simp at h
  | cons d rest ih =>
    intro BB Cursor Path hhead hnd hvalid hCursor
    simp only [List.head?_cons, Option.some.injEq] at hhead
    subst hhead
    unfold nonLocalPath
    by_cases hdom : DominatorTree.dominatesNode (d :: rest) LDT = true
    · exact ⟨[], by simp [hdom], List.nodup_nil, by simp⟩
    · simp only [hdom, if_false, Bool.false_eq_true]
      have hdL : d ∉ LDT := dominatesNode_false d rest LDT hL (by simpa using hdom)
      obtain ⟨B, hB⟩ := block_of_lt F d (hvalid d (List.mem_cons_self _ _))
      rw [hB]
      simp only
      rw [blockLen_eq F d B hB] at hCursor
      obtain ⟨new1, h1, h2, h3⟩ := scanStoresToBegin_spec F B d hB Cursor Path hCursor
      rw [h1]
      simp only
      have hdrest : d ∉ rest := (List.nodup_cons.mp hnd).1
      have hndrest : rest.Nodup := (List.nodup_cons.mp hnd).2
      cases rest with
      | nil =>
        refine ⟨new1, rfl, h2, ?_⟩
        intro x hx
        obtain ⟨h4, h5, h6⟩ := h3 x hx
        exact ⟨by simp [h4], h4 ▸ hdL, fun _ => h5, h6⟩
      | cons d1 rest1 =>
        simp only
        obtain ⟨B1, hB1⟩ := block_of_lt F d1
          (hvalid d1 (List.mem_cons_of_mem _ (List.mem_cons_self _ _)))
        rw [hB1]
        simp only
        obtain ⟨new2, h7, h8, h9⟩ := ih d1 B1.insts.length (Path ++ new1) rfl hndrest
          (fun a ha => hvalid a (List.mem_cons_of_mem _ ha))
          (by rw [blockLen_eq F d1 B1 hB1])
        refine ⟨new1 ++ new2, by rw [h7, List.append_assoc], ?_, ?_⟩
        · refine List.Nodup.append h2 h8 ?_
          intro x hx1 hx2
          have e1 := (h3 x hx1).1
          have e2 := (h9 x hx2).1
          exact hdrest (e1 ▸ e2)
        · intro x hx
          rcases List.mem_append.mp hx with hx1 | hx2
          · obtain ⟨h4, h5, h6⟩ := h3 x hx1
            exact ⟨by simp [h4], h4 ▸ hdL, fun _ => h5, h6⟩
          · obtain ⟨h4, h5, _, h6⟩ := h9 x hx2
            refine ⟨List.mem_cons_of_mem _ h4, h5, ?_, h6⟩
            intro e
            exact absurd (e ▸ h4) hdrest

theorem valid_of_pos (F : Function) (p : InstPos) (h : p.idx < F.blockLen p.bb) :
    ∃ B, F.blocks[p.bb]? = some B ∧ p.idx < B.insts.length := by
  unfold Function.blockLen at h
  cases hB : F.blocks[p.bb]? with
  | none => simp [hB] at h
  | some B =>
    rw [hB] at h
    exact ⟨B, rfl, h⟩

/-- The path of one pair is built without an abort and consists of the store
followed by what `PathSpec` describes. -/
theorem computeAntidependencePath_spec (F : Function) (DT : DominatorTree)
    (hDT : DT.WellFormed F) (Pair : AntidependencePairTy) (hP : PairOk F Pair) :
    ∃ Path, computeAntidependencePath F DT Pair = some Path ∧ PathSpec F DT Pair Path := by
  obtain ⟨L, S⟩ := Pair
  obtain ⟨hLok, hSok⟩ := hP
  simp only at hLok hSok
  obtain ⟨BS, hBS, hSidx⟩ := valid_of_pos F S hSok
  obtain ⟨BL, hBL, hLidx⟩ := valid_of_pos F L hLok
  have hSlt := lt_of_block F S.bb BS hBS
  have hLlt := lt_of_block F L.bb BL hBL
  obtain ⟨hSh, hSnd, hSv⟩ := hDT S.bb hSlt
  obtain ⟨hLh, _, _⟩ := hDT L.bb hLlt
  have hLne : DT.getNode L.bb ≠ [] := by
    intro e
    rw [e] at hLh
    simp at hLh
  have hSne : DT.getNode S.bb ≠ [] := by
    intro e
    rw [e] at hSh
    simp at hSh
  unfold computeAntidependencePath
  simp only
  by_cases hloc : S.bb = L.bb ∧ DT.dominates L S = true
  · rw [if_pos hloc]
    rw [hBS]
    simp only
    have hlt : L.idx < S.idx := by
      have := hloc.2
      unfold DominatorTree.dominates at this
      rw [if_neg hSne, if_neg hLne] at this
      by_cases hLS : L = S
      · simp [hLS] at this
      · simpa [hLS] using this
    obtain ⟨new, h1, h2, h3⟩ := scanStoresToLoad_spec F BS S.bb L.idx hBS S.idx [S] hlt
      (by omega)
    refine ⟨[S] ++ new, h1, new, rfl, ?_, ?_⟩
    · simp only [List.singleton_append]
      refine List.nodup_cons.mpr ⟨?_, h2⟩
      intro hm
      have := (h3 S hm).2.2.1
      omega
    · intro c hc
      obtain ⟨h4, h5, h6, h7⟩ := h3 c hc
      exact ⟨h7, Or.inl ⟨hloc.1, hloc.2, h4, h5, h6⟩⟩
  · rw [if_neg hloc]
    obtain ⟨new, h1, h2, h3⟩ := nonLocalPath_spec F (DT.getNode L.bb) hLne (DT.getNode S.bb)
      S.bb S.idx [S] hSh hSnd hSv (by omega)
    refine ⟨[S] ++ new, h1, new, rfl, ?_, ?_⟩
    · simp only [List.singleton_append]
      refine List.nodup_cons.mpr ⟨?_, h2⟩
      intro hm
      have := (h3 S hm).2.2.1 rfl
      omega
    · intro c hc
      obtain ⟨h4, h5, h6, h7⟩ := h3 c hc
      exact ⟨h7, Or.inr ⟨hloc, h4, h5, h6⟩⟩

theorem computeAntidependencePaths_spec (F : Function) (DT : DominatorTree)
    (hDT : DT.WellFormed F) :
    ∀ (Pairs : List AntidependencePairTy) (Paths : List AntidependencePathTy),
      (∀ pr ∈ Pairs, PairOk F pr) →
      ∃ new, computeAntidependencePaths F DT Pairs Paths = some (Paths ++ new) ∧
        List.Forall₂ (PathSpec F DT) Pairs new := by
  intro Pairs
  induction Pairs with
  | nil => intro Paths _; exact ⟨[], by simp [computeAntidependencePaths], List.Forall₂.nil⟩
  | cons Pair Pairs ih =>
    intro Paths hok
    obtain ⟨Path, h1, h2⟩ := computeAntidependencePath_spec F DT hDT Pair
      (hok Pair (List.mem_cons_self _ _))
    obtain ⟨new, h3, h4⟩ := ih (Paths ++ [Path]) (fun pr hpr => hok pr (List.mem_cons_of_mem _ hpr))
    refine ⟨Path :: new, ?_, List.Forall₂.cons h2 h4⟩
    simp only [computeAntidependencePaths, h1]
    rw [h3]
    simp

end Ratchet

namespace Ratchet

/-! ## runOnFunction -/

theorem forceCut_fields (F : Function) (I : InstPos) (S : MemoryIdempotenceAnalysisImpl) :
    (forceCut F I S).CutMap_ = S.CutMap_ ∧
      (forceCut F I S).AntidependencePairs_ = S.AntidependencePairs_ ∧
      (forceCut F I S).AntidependencePaths_ = S.AntidependencePaths_ ∧
      ∀ x ∈ S.CutSet_, x ∈ (forceCut F I S).CutSet_ := by
  unfold forceCut
  cases F.inst? I with
  | none => exact ⟨rfl, rfl, rfl, fun x hx => hx⟩
  | some inst =>
    simp only
    by_cases h : inst.isCallSite = true
    · simp [h]
    · rw [if_neg h]
      exact ⟨rfl, rfl, rfl, fun x hx => (mem_setInsert _ _ _).mpr (Or.inl hx)⟩

theorem computeForcedCuts_fields (F : Function) :
    ∀ (Is : List InstPos) (S : MemoryIdempotenceAnalysisImpl),
      (computeForcedCuts F Is S).CutMap_ = S.CutMap_ ∧
        (computeForcedCuts F Is S).AntidependencePairs_ = S.AntidependencePairs_ ∧
        (computeForcedCuts F Is S).AntidependencePaths_ = S.AntidependencePaths_ ∧
        ∀ x ∈ S.CutSet_, x ∈ (computeForcedCuts F Is S).CutSet_ := by
  intro Is
  induction Is with
  | nil => intro S; exact ⟨rfl, rfl, rfl, fun x hx => hx⟩
  | cons I Is ih =>
    intro S
    unfold computeForcedCuts
    cases hI : F.inst? I with
    | none => exact ih S
    | some inst =>
      simp only
      by_cases hf : forcesCut inst = true
      · simp only [hf, if_true]
        obtain ⟨h1, h2, h3, h4⟩ := ih (forceCut F I S)
        obtain ⟨g1, g2, g3, g4⟩ := forceCut_fields F I S
        exact ⟨h1.trans g1, h2.trans g2, h3.trans g3, fun x hx => h4 x (g4 x hx)⟩
      · simp only [hf, if_false, Bool.false_eq_true]
        exact ih S

theorem pathsOk_of_spec (F : Function) (DT : DominatorTree) :
    ∀ (Pairs : List AntidependencePairTy) (Paths : List AntidependencePathTy),
      List.Forall₂ (PathSpec F DT) Pairs Paths → PathsOk Paths := by
  intro Pairs Paths h
  induction h with
  | nil => intro P hP; simp at hP
  | cons h1 _ ih =>
    intro P hP
    rcases List.mem_cons.mp hP with h2 | h2
    · subst h2
      obtain ⟨rest, hr, hnd, _⟩ := h1
      exact ⟨hnd, by rw [hr]; simp⟩
    · exact ih P h2

/-- The analysis of a well-formed function returns; it leaves the pairs that
the collection finds, a path for each pair as `PathSpec` describes it, and a
cut set that contains the forced cuts and an instruction of every path. -/
theorem runOnFunction_ok (F : Function) (AA : AliasAnalysis) (DT : DominatorTree)
    (LI : LoopInfo) (Order : IterationOrder) (hWF : F.WellFormed) (hDT : DT.WellFormed F)
    (hOrd : Order.Ok)
    (hcount : ∀ Pairs, computePairs F AA F.positions [] = some Pairs → Pairs.length < 32768) :
    ∃ st, runOnFunction F AA DT LI Order .releaseMemory = some st ∧
      computePairs F AA F.positions [] = some st.AntidependencePairs_ ∧
      List.Forall₂ (PathSpec F DT) st.AntidependencePairs_ st.AntidependencePaths_ ∧
      (∀ P ∈ st.AntidependencePaths_, ∃ c ∈ P, c ∈ st.CutSet_) ∧
      (∀ x ∈ (computeForcedCuts F F.positions .releaseMemory).CutSet_, x ∈ st.CutSet_) ∧
      PickedInOrder st.AntidependencePaths_ (st.CutMap_.map (fun e => e.1)) ∧
      (∀ x ∈ st.CutMap_.map (fun e => e.1), x ∈ st.CutSet_) := by
  have g := computeForcedCuts_fields F F.positions .releaseMemory
  simp only [MemoryIdempotenceAnalysisImpl.releaseMemory] at g
  obtain ⟨g1, g2, g3, _⟩ := g
  obtain ⟨Pairs, hPairs, hok⟩ := computePairs_ok F AA hWF F.positions []
  simp only [List.nil_append] at hPairs
  have hlen := hcount Pairs hPairs
  unfold runOnFunction
  simp only [MemoryIdempotenceAnalysisImpl.releaseMemory, g2, hPairs]
  by_cases hnil : Pairs = []
  · subst hnil
    rw [if_pos rfl]
    refine ⟨_, rfl, rfl, ?_, ?_, fun x hx => hx, ?_, ?_⟩
    · simp only [g3]
      exact List.Forall₂.nil
    · simp only [g3]
      intro P hP
      simp at hP
    · simp only [g1]
      intro pre c post h
      simp at h
    · simp only [g1]
      intro x hx
      simp at hx
  · rw [if_neg hnil]
    obtain ⟨Paths, hPaths, hspec⟩ := computeAntidependencePaths_spec F DT hDT Pairs [] hok
    simp only [List.nil_append] at hPaths
    simp only [g3, hPaths]
    have hPok : PathsOk Paths := pathsOk_of_spec F DT Pairs Paths hspec
    have hPlen : Paths.length < 32768 := by
      rw [← hspec.length_eq]
      exact hlen
    obtain ⟨S', hS', e1, e2, hhit, hsub, hord, hkeys⟩ :=
      computeHittingSet_ok LI Order hOrd
        { CutSet_ := (computeForcedCuts F F.positions
            { CutSet_ := [], CutMap_ := [], AntidependencePairs_ := []
              AntidependencePaths_ := [] }).CutSet_
          CutMap_ := (computeForcedCuts F F.positions
            { CutSet_ := [], CutMap_ := [], AntidependencePairs_ := []
              AntidependencePaths_ := [] }).CutMap_
          AntidependencePairs_ := Pairs
          AntidependencePaths_ := Paths } hPok hPlen
        g1
    refine ⟨S', hS', ?_, ?_, ?_, ?_, ?_, hkeys⟩
    · rw [e2]
    · rw [e1, e2]
      exact hspec
    · rw [e1]
      exact hhit
    · exact hsub
    · rw [e1]
      exact hord

end Ratchet

namespace Ratchet

/-! ## Decision of well-formedness -/

theorem cfg_wellFormed_of_check (G : Cfg) (h : G.check = true) : Cfg.WellFormed G := by
  unfold Cfg.check at h
  simp only [Bool.and_eq_true, decide_eq_true_eq, List.all_eq_true] at h
  obtain ⟨⟨⟨h1, h2⟩, h3⟩, h4⟩ := h
  refine ⟨h1, ?_, ?_, ?_, ?_⟩
  · intro B hB
    rw [hB] at h2
    simpa using h2
  · intro b B hB p hp
    exact (h3 B (List.getElem?_mem hB)).1 p hp
  · intro b B hB s hs
    exact (h3 B (List.getElem?_mem hB)).2 s hs
  · intro a b A B hA hB
    have ha : a < G.length := by
      by_contra hcon
      rw [List.getElem?_eq_none (by omega)] at hA
      cases hA
    have hb : b < G.length := by
      by_contra hcon
      rw [List.getElem?_eq_none (by omega)] at hB
      cases hB
    have := h4 a (List.mem_range.mpr ha) b (List.mem_range.mpr hb)
    rw [hA, hB] at this
    simpa using this

theorem function_wellFormed_of_check (F : Function) (h : F.check = true) : F.WellFormed := by
  unfold Function.check at h
  simp only [Bool.and_eq_true, List.all_eq_true] at h
  refine ⟨cfg_wellFormed_of_check F.cfg h.1, ?_⟩
  intro B hB
  have := h.2 B hB
  intro e
  simp [e] at this

/-! ## C1 -/

/-- C1: for every well-formed function with fewer than 2^15 antidependence
pairs, `runOnFunction` returns, and every path of `AntidependencePaths_` has one
of its instructions in the final `CutSet_`. -/
theorem hitting_set_correct (F : Function) (AA : AliasAnalysis) (DT : DominatorTree)
    (LI : LoopInfo) (Order : IterationOrder) (hWF : F.WellFormed) (hDT : DT.WellFormed F)
    (hOrd : Order.Ok)
    (hcount : ∀ Pairs, computePairs F AA F.positions [] = some Pairs → Pairs.length < 32768) :
    ∃ st, runOnFunction F AA DT LI Order .releaseMemory = some st ∧
      ∀ P ∈ st.AntidependencePaths_, ∃ c ∈ P, c ∈ st.CutSet_ := by
  obtain ⟨st, h1, _, _, h2, _⟩ := runOnFunction_ok F AA DT LI Order hWF hDT hOrd hcount
  exact ⟨st, h1, h2⟩

theorem exampleFenceLoadStore_wf : exampleFenceLoadStore.WellFormed :=
  function_wellFormed_of_check _ (by decide)

theorem entryOnlyTree_wf : entryOnlyTree.WellFormed exampleFenceLoadStore := by
  intro b hb
  have : b = 0 := by
    simp [exampleFenceLoadStore] at hb
    exact hb
  subst this
  decide

theorem insertionOrder_ok : insertionOrder.Ok :=
  ⟨fun l => List.Perm.refl l, fun l => List.Perm.refl l⟩

theorem exampleFenceLoadStore_pairs :
    computePairs exampleFenceLoadStore mayAliasAll exampleFenceLoadStore.positions [] =
      some [(⟨0, 1⟩, ⟨0, 2⟩)] := by
  decide

/-- Witness of C1 on the block `fence; load; store; ret`. -/
theorem hitting_set_correct_witness :
    ∃ st, runOnFunction exampleFenceLoadStore mayAliasAll entryOnlyTree noLoops insertionOrder
        .releaseMemory = some st ∧
      ∀ P ∈ st.AntidependencePaths_, ∃ c ∈ P, c ∈ st.CutSet_ :=
  hitting_set_correct exampleFenceLoadStore mayAliasAll entryOnlyTree noLoops insertionOrder
    exampleFenceLoadStore_wf entryOnlyTree_wf insertionOrder_ok
    (by
      intro Pairs h
      rw [exampleFenceLoadStore_pairs] at h
      cases h
      decide)

end Ratchet

namespace Ratchet

/-! ## C4 -/

theorem mem_positions (F : Function) (I : InstPos) (inst : Instruction)
    (h : F.inst? I = some inst) : I ∈ F.positions := by
  unfold Function.inst? at h
  cases hB : F.blocks[I.bb]? with
  | none => simp [hB] at h
  | some B =>
    rw [hB] at h
    simp only at h
    have hb : I.bb < F.blocks.length := lt_of_block F I.bb B hB
    have hi : I.idx < B.insts.length := by
      by_contra hcon
      rw [List.getElem?_eq_none (by omega)] at h
      cases h
    unfold Function.positions
    rw [List.mem_flatMap]
    refine ⟨I.bb, List.mem_range.mpr hb, ?_⟩
    rw [hB]
    simp only [List.mem_map, List.mem_range]
    exact ⟨I.idx, hi, rfl⟩

theorem computeForcedCuts_mem (F : Function) (I : InstPos) (inst : Instruction)
    (hI : F.inst? I = some inst) (hf : forcesCut inst = true) (hc : inst.isCallSite = false) :
    ∀ (Is : List InstPos) (S : MemoryIdempotenceAnalysisImpl), I ∈ Is →
      (⟨I.bb, I.idx + 1⟩ : InstPos) ∈ (computeForcedCuts F Is S).CutSet_ := by
  intro Is
  induction Is with
  | nil => intro S h; simp at h
  | cons J Is ih =>
    intro S hmem
    unfold computeForcedCuts
    rcases List.mem_cons.mp hmem with h1 | h1
    · subst h1
      rw [hI]
      simp only [hf, if_true]
      apply (computeForcedCuts_fields F Is _).2.2.2
      unfold forceCut
      rw [hI]
      simp only [hc, Bool.false_eq_true, if_false]
      exact (mem_setInsert _ _ _).mpr (Or.inr rfl)
    · cases hJ : F.inst? J with
      | none => exact ih S h1
      | some instJ => exact ih _ h1

/-- C4 (as stated, refuted): a call that is no tail call forces a cut, yet the
instruction that follows it is not in the cut set of the analysis. -/
theorem forced_cut_missing_after_call :
    runOnFunction exampleCall mayAliasAll entryOnlyTree noLoops insertionOrder .releaseMemory =
        some ⟨[], [], [], []⟩ ∧
      exampleCall.inst? ⟨0, 0⟩ = some (.call false) ∧ forcesCut (.call false) = true ∧
      (⟨0, 1⟩ : InstPos) ∉ ([] : List InstPos) := by
  decide

/-- C4 (amended): for every instruction that forces a cut and is no call or
invoke, the position that follows it is in the cut set that `runOnFunction`
returns. -/
theorem forced_cuts_in_cut_set (F : Function) (AA : AliasAnalysis) (DT : DominatorTree)
    (LI : LoopInfo) (Order : IterationOrder) (hWF : F.WellFormed) (hDT : DT.WellFormed F)
    (hOrd : Order.Ok)
    (hcount : ∀ Pairs, computePairs F AA F.positions [] = some Pairs → Pairs.length < 32768)
    (I : InstPos) (inst : Instruction) (hI : F.inst? I = some inst)
    (hf : forcesCut inst = true) (hc : inst.isCallSite = false) :
    ∃ st, runOnFunction F AA DT LI Order .releaseMemory = some st ∧
      (⟨I.bb, I.idx + 1⟩ : InstPos) ∈ st.CutSet_ := by
  obtain ⟨st, h1, _, _, _, h2, _⟩ := runOnFunction_ok F AA DT LI Order hWF hDT hOrd hcount
  exact ⟨st, h1, h2 _ (computeForcedCuts_mem F I inst hI hf hc _ _ (mem_positions F I inst hI))⟩

/-- Witness of C4 (amended): the fence of `fence; load; store; ret`. -/
theorem forced_cuts_in_cut_set_witness :
    ∃ st, runOnFunction exampleFenceLoadStore mayAliasAll entryOnlyTree noLoops insertionOrder
        .releaseMemory = some st ∧ (⟨0, 0 + 1⟩ : InstPos) ∈ st.CutSet_ :=
  forced_cuts_in_cut_set exampleFenceLoadStore mayAliasAll entryOnlyTree noLoops insertionOrder
    exampleFenceLoadStore_wf entryOnlyTree_wf insertionOrder_ok
    (by
      intro Pairs h
      rw [exampleFenceLoadStore_pairs] at h
      cases h
      decide)
    ⟨0, 0⟩ .fence (by decide) (by decide) (by decide)

/-! ## C9 -/

/-- C9 (as stated, refuted): on `exampleRedundant` the analysis first picks the
store of block 2 and then the store of block 3; the first pick lies on one path
only, which the second pick covers too, so removing it leaves no path
uncovered. -/
theorem cut_set_member_redundant :
    ∃ st, runOnFunction exampleRedundant exampleRedundantAlias exampleTieTree exampleTieLoops
        insertionOrder .releaseMemory = some st ∧
      st.CutSet_ = [⟨2, 0⟩, ⟨3, 0⟩] ∧
      st.AntidependencePaths_ = [[⟨3, 0⟩], [⟨3, 0⟩, ⟨2, 0⟩]] ∧
      ∀ P ∈ st.AntidependencePaths_, ∃ x ∈ P, x ∈ st.CutSet_.erase ⟨2, 0⟩ := by
  refine ⟨⟨[⟨2, 0⟩, ⟨3, 0⟩], [(⟨2, 0⟩, [⟨3, 0⟩]), (⟨3, 0⟩, [⟨3, 0⟩])],
    [(⟨3, 1⟩, ⟨3, 0⟩), (⟨1, 0⟩, ⟨3, 0⟩)], [[⟨3, 0⟩], [⟨3, 0⟩, ⟨2, 0⟩]]⟩, ?_, rfl, rfl, ?_⟩
  · decide
  · decide

/-- C9 (amended): the analysis returns, and every instruction that
`computeHittingSet` picks lies on a path on which none of the earlier picks
lies, so that removing a pick together with all later picks leaves a path
uncovered; the keys of the cut map are the picks in the order in which they are
made, and all of them are in the cut set. -/
theorem picks_needed_when_made (F : Function) (AA : AliasAnalysis) (DT : DominatorTree)
    (LI : LoopInfo) (Order : IterationOrder) (hWF : F.WellFormed) (hDT : DT.WellFormed F)
    (hOrd : Order.Ok)
    (hcount : ∀ Pairs, computePairs F AA F.positions [] = some Pairs → Pairs.length < 32768) :
    ∃ st, runOnFunction F AA DT LI Order .releaseMemory = some st ∧
      (∀ x ∈ st.CutMap_.map (fun e => e.1), x ∈ st.CutSet_) ∧
      ∀ pre c post, st.CutMap_.map (fun e => e.1) = pre ++ c :: post →
        ∃ P ∈ st.AntidependencePaths_, c ∈ P ∧ ∀ x ∈ pre, x ∉ P := by
  obtain ⟨st, h1, _, _, _, _, h2, h3⟩ := runOnFunction_ok F AA DT LI Order hWF hDT hOrd hcount
  exact ⟨st, h1, h3, h2⟩

/-- Witness of C9 (amended) on the block `fence; load; store; ret`. -/
theorem picks_needed_when_made_witness :
    ∃ st, runOnFunction exampleFenceLoadStore mayAliasAll entryOnlyTree noLoops insertionOrder
        .releaseMemory = some st ∧
      (∀ x ∈ st.CutMap_.map (fun e => e.1), x ∈ st.CutSet_) ∧
      ∀ pre c post, st.CutMap_.map (fun e => e.1) = pre ++ c :: post →
        ∃ P ∈ st.AntidependencePaths_, c ∈ P ∧ ∀ x ∈ pre, x ∉ P :=
  picks_needed_when_made exampleFenceLoadStore mayAliasAll entryOnlyTree noLoops insertionOrder
    exampleFenceLoadStore_wf entryOnlyTree_wf insertionOrder_ok
    (by
      intro Pairs h
      rw [exampleFenceLoadStore_pairs] at h
      cases h
      decide)

end Ratchet

namespace Ratchet

/-! ## C10 -/

theorem mapM_lookup_filterMap (M : CandidateInfoMapTy) (l : List InstPos)
    (Infos : List CandidateInfo) (h : lookupAll M l = some Infos) :
    Infos = l.filterMap (fun c => M.lookup c) := by
  induction l generalizing Infos with
  | nil =>
    simp only [lookupAll, Option.some.injEq] at h
    subst h
    rfl
  | cons c l ih =>
    unfold lookupAll at h
    cases hc : M.lookup c with
    | none => simp [hc] at h
    | some C =>
      cases hl : lookupAll M l with
      | none => simp [hc, hl] at h
      | some Is =>
        simp only [hc, hl, Option.some.injEq] at h
        subst h
        rw [List.filterMap_cons, hc, ← ih Is hl]

theorem map_eq_of_inj {α β : Type} (f : α → β) :
    ∀ (l1 l2 : List α), l1.map f = l2.map f →
      (∀ x ∈ l1, ∀ y ∈ l2, f x = f y → x = y) → l1 = l2 := by
  intro l1
  induction l1 with
  | nil =>
    intro l2 h _
    cases l2 with
    | nil => rfl
    | cons b l2 => simp at h
  | cons a l1 ih =>
    intro l2 h hinj
    cases l2 with
    | nil => simp at h
    | cons b l2 =>
      simp only [List.map_cons, List.cons.injEq] at h
      have hab := hinj a (List.mem_cons_self _ _) b (List.mem_cons_self _ _) h.1
      subst hab
      rw [ih l2 h.2 (fun x hx y hy => hinj x (List.mem_cons_of_mem _ hx) y
        (List.mem_cons_of_mem _ hy))]

theorem hittingSetLoop_congr (O1 O2 : IterationOrder) (h : O1.setOrder = O2.setOrder)
    (Paths : List AntidependencePathTy) :
    ∀ (fuel : Nat) (S : HittingSetState),
      hittingSetLoop O1 Paths fuel S = hittingSetLoop O2 Paths fuel S := by
  intro fuel
  induction fuel with
  | zero => intro S; rfl
  | succ fuel ih =>
    intro S
    unfold hittingSetLoop
    cases S.Worklist.getLast? with
    | none => rfl
    | some Picked =>
      simp only
      cases S.Map.lookup Picked with
      | none => rfl
      | some Info =>
        simp only [h]
        by_cases hs : Info.size = 0
        · simp only [hs, if_true]
          exact ih _
        · simp only [hs, if_false]
          cases processPaths Paths Picked (O2.setOrder Info.UnintersectedPaths_) S.Map
              S.Worklist.dropLast (cutMapLookup S.CutMap_ Picked) with
          | none => rfl
          | some r => exact ih _

theorem initialWorklist_order_independent (O1 O2 : IterationOrder) (h1 : O1.Ok) (h2 : O2.Ok)
    (M : CandidateInfoMapTy) (hdist : (M.map CandidateInfo.Priority_).Nodup) :
    initialWorklist O1 M = initialWorklist O2 M := by
  have key : ∀ O : IterationOrder, O.Ok → ∀ W, initialWorklist O M = some W →
      ∃ Infos, Infos.Perm (M.filterMap (fun C => M.lookup C.Candidate_)) ∧
        W = (sortWorklist Infos).map (fun C => C.Candidate_) := by
    intro O hO W hW
    unfold initialWorklist at hW
    cases hm : lookupAll M (O.mapOrder (M.map (fun C => C.Candidate_))) with
    | none => simp [hm] at hW
    | some Infos =>
      rw [hm] at hW
      simp only [Option.some.injEq] at hW
      refine ⟨Infos, ?_, hW.symm⟩
      rw [mapM_lookup_filterMap M _ Infos hm]
      have := (hO.1 (M.map (fun C => C.Candidate_))).filterMap (fun c => M.lookup c)
      rw [List.filterMap_map] at this
      exact this
  have hnone : ∀ O : IterationOrder, O.Ok → initialWorklist O M = none →
      ∀ O' : IterationOrder, O'.Ok → initialWorklist O' M = none := by
    intro O hO hN O' hO'
    cases hW' : initialWorklist O' M with
    | none => rfl
    | some W' =>
      exfalso
      unfold initialWorklist at hN hW'
      cases hm : lookupAll M (O.mapOrder (M.map (fun C => C.Candidate_))) with
      | some Infos => simp [hm] at hN
      | none =>
        obtain ⟨Infos, hI, _, _⟩ := mapM_lookup M (O.mapOrder (M.map (fun X => X.Candidate_)))
          (fun c hc => (lookup_isSome_iff M c).mpr ((hO.1 _).mem_iff.mp hc))
        rw [hm] at hI
        cases hI
  cases hW1 : initialWorklist O1 M with
  | none => exact (hnone O1 h1 hW1 O2 h2).symm
  | some W1 =>
    cases hW2 : initialWorklist O2 M with
    | none =>
      rw [hnone O2 h2 hW2 O1 h1] at hW1
      cases hW1
    | some W2 =>
      obtain ⟨I1, hp1, e1⟩ := key O1 h1 W1 hW1
      obtain ⟨I2, hp2, e2⟩ := key O2 h2 W2 hW2
      have hperm : (sortWorklist I1).Perm (sortWorklist I2) :=
        (sortWorklist_perm I1).trans (hp1.trans (hp2.symm.trans (sortWorklist_perm I2).symm))
      have hmapeq : (sortWorklist I1).map CandidateInfo.Priority_ =
          (sortWorklist I2).map CandidateInfo.Priority_ :=
        List.eq_of_perm_of_sorted (hperm.map _) (sortWorklist_sorted I1) (sortWorklist_sorted I2)
      have hmem : ∀ I : List CandidateInfo,
          I.Perm (M.filterMap (fun C => M.lookup C.Candidate_)) →
          ∀ x ∈ sortWorklist I, x ∈ M := by
        intro I hp x hx
        have hx1 := hp.mem_iff.mp ((sortWorklist_perm I).mem_iff.mp hx)
        obtain ⟨C, _, hC⟩ := List.mem_filterMap.mp hx1
        exact lookup_some_mem hC
      have heq : sortWorklist I1 = sortWorklist I2 :=
        map_eq_of_inj CandidateInfo.Priority_ _ _ hmapeq
          (fun x hx y hy hxy =>
            List.inj_on_of_nodup_map hdist (hmem I1 hp1 x hx) (hmem I2 hp2 y hy) hxy)
      rw [e1, e2, heq]

/-- C10 (as stated, refuted): on `exampleTie` the two stores of block 2 have the
same priority; when the candidate map enumerates in insertion order the first
one is cut, when it enumerates in reverse order the second one is. -/
theorem cut_set_depends_on_enumeration :
    (runOnFunction exampleTie exampleTieAlias exampleTieTree exampleTieLoops insertionOrder
        .releaseMemory).map (fun st => st.CutSet_) = some [⟨2, 0⟩] ∧
      (runOnFunction exampleTie exampleTieAlias exampleTieTree exampleTieLoops reverseOrder
        .releaseMemory).map (fun st => st.CutSet_) = some [⟨2, 1⟩] ∧
      (∀ l : List InstPos, (insertionOrder.mapOrder l).Perm l) ∧
      (∀ l : List InstPos, (reverseOrder.mapOrder l).Perm l) := by
  refine ⟨by decide, by decide, fun l => List.Perm.refl l, fun l => List.reverse_perm l⟩

/-- C10 (amended): when no two candidates have the same priority at the set-up
of the worklist, `computeHittingSet` gives the same result for every order in
which the candidate map enumerates the candidates. -/
theorem hitting_set_order_independent (LI : LoopInfo) (O1 O2 : IterationOrder)
    (S : MemoryIdempotenceAnalysisImpl) (M : CandidateInfoMapTy)
    (hM : findCandidates LI S.AntidependencePaths_ 0 [] = some M)
    (hdist : (M.map CandidateInfo.Priority_).Nodup) (h1 : O1.Ok) (h2 : O2.Ok)
    (hset : O1.setOrder = O2.setOrder) :
    computeHittingSet LI O1 S = computeHittingSet LI O2 S := by
  unfold computeHittingSet
  rw [hM]
  simp only
  rw [initialWorklist_order_independent O1 O2 h1 h2 M hdist]
  cases initialWorklist O2 M with
  | none => rfl
  | some W =>
    simp only
    rw [hittingSetLoop_congr O1 O2 hset]

theorem reverseOrder_ok : reverseOrder.Ok :=
  ⟨fun l => List.reverse_perm l, fun l => List.Perm.refl l⟩

/-- Witness of C10 (amended): two paths whose three candidates have different
priorities, enumerated in insertion order and in reverse order. -/
theorem hitting_set_order_independent_witness :
    computeHittingSet noLoops insertionOrder
        ⟨[], [], [], [[⟨0, 2⟩, ⟨0, 1⟩], [⟨0, 3⟩, ⟨0, 2⟩]]⟩ =
      computeHittingSet noLoops reverseOrder
        ⟨[], [], [], [[⟨0, 2⟩, ⟨0, 1⟩], [⟨0, 3⟩, ⟨0, 2⟩]]⟩ :=
  hitting_set_order_independent noLoops insertionOrder reverseOrder
    ⟨[], [], [], [[⟨0, 2⟩, ⟨0, 1⟩], [⟨0, 3⟩, ⟨0, 2⟩]]⟩
    [⟨⟨0, 2⟩, [0, 1], 0, 0, 1, 2, 65535⟩, ⟨⟨0, 1⟩, [0], 0, 0, 0, 1, 65535⟩,
      ⟨⟨0, 3⟩, [1], 0, 0, 1, 1, 65535⟩]
    (by decide) (by decide) insertionOrder_ok reverseOrder_ok rfl

end Ratchet

namespace Ratchet

/-! ## Control-flow paths through a block -/

theorem reachAvoid_ne (G : Cfg) (D b : Nat) (h : ReachAvoid G D b) : b ≠ D := by
  cases h with
  | entry _ h0 => exact fun e => h0 e.symm
  | edge a _ A B _ _ _ _ hne => exact hne

/-- A path that starts in a block reachable without entering `D` and ends in a
block that `D` dominates enters `D` at its first position. -/
theorem path_enters_dominator (G : Cfg) (D : Nat) (S : InstPos) (hS : Dom G D S.bb) :
    ∀ (rest : List InstPos) (p : InstPos), List.Chain (Step G) p rest →
      ReachAvoid G D p.bb → (p :: rest).getLast? = some S →
      ∃ pre post, rest = pre ++ (⟨D, 0⟩ : InstPos) :: post := by
  intro rest
  induction rest with
  | nil =>
    intro p _ hp hlast
    simp only [List.getLast?_singleton, Option.some.injEq] at hlast
    subst hlast
    exact absurd hp hS
  | cons q rest ih =>
    intro p hchain hp hlast
    rw [List.chain_cons] at hchain
    rw [List.getLast?_cons_cons] at hlast
    obtain ⟨hstep, hchain'⟩ := hchain
    cases hstep with
    | next b i B hB hi =>
      obtain ⟨pre, post, h⟩ := ih ⟨b, i + 1⟩ hchain' hp hlast
      exact ⟨⟨b, i + 1⟩ :: pre, post, by rw [h]; rfl⟩
    | jump b s B S' hB hs hS' =>
      by_cases hsD : s = D
      · subst hsD
        exact ⟨[], rest, rfl⟩
      · have hr : ReachAvoid G D s := ReachAvoid.edge b s B S' hp hB hs hS' hsD
        obtain ⟨pre, post, h⟩ := ih ⟨s, 0⟩ hchain' hr hlast
        exact ⟨⟨s, 0⟩ :: pre, post, by rw [h]; rfl⟩

/-- A path that stands at index `i` of a block passes every later index `j` of
the block, unless it ends in the block before `j`. -/
theorem path_traverses_block (G : Cfg) (D : Nat) (B : CfgBlock) (hB : G[D]? = some B)
    (S : InstPos) (j : Nat) (hj : j ≤ B.len) (hS : S.bb ≠ D ∨ j ≤ S.idx) :
    ∀ (post : List InstPos) (i : Nat), List.Chain (Step G) ⟨D, i⟩ post → i ≤ j →
      ((⟨D, i⟩ : InstPos) :: post).getLast? = some S →
      (⟨D, j⟩ : InstPos) ∈ (⟨D, i⟩ : InstPos) :: post := by
  intro post
  induction post with
  | nil =>
    intro i _ hij hlast
    simp only [List.getLast?_singleton, Option.some.injEq] at hlast
    subst hlast
    simp only at hS
    have : i = j := by
      rcases hS with h | h
      · exact absurd rfl h
      · omega
    subst this
    simp
  | cons q post ih =>
    intro i hchain hij hlast
    rw [List.chain_cons] at hchain
    rw [List.getLast?_cons_cons] at hlast
    obtain ⟨hstep, hchain'⟩ := hchain
    by_cases hijeq : i = j
    · subst hijeq
      simp
    · apply List.mem_cons_of_mem
      generalize hp : (⟨D, i⟩ : InstPos) = p at hstep
      cases hstep with
      | next b i' B' hB' hi' =>
        simp only [InstPos.mk.injEq] at hp
        obtain ⟨h1, h2⟩ := hp
        subst h1 h2
        exact ih (i + 1) hchain' (by omega) hlast
      | jump b s B' S' hB' hs hS' =>
        simp only [InstPos.mk.injEq] at hp
        obtain ⟨h1, h2⟩ := hp
        subst h1
        rw [hB] at hB'
        cases hB'
        omega

theorem forall₂_mem_left {α β : Type} (R : α → β → Prop) :
    ∀ (l1 : List α) (l2 : List β), List.Forall₂ R l1 l2 → ∀ a ∈ l1, ∃ b ∈ l2, R a b := by
  intro l1 l2 h
  induction h with
  | nil => intro a ha; cases ha
  | cons hab _ ih =>
    intro a ha
    rcases List.mem_cons.mp ha with e | hm
    · subst e
      exact ⟨_, List.mem_cons_self _ _, hab⟩
    · obtain ⟨b, hb, hr⟩ := ih a hm
      exact ⟨b, List.mem_cons_of_mem _ hb, hr⟩

/-- An instruction of the path that `computeAntidependencePaths` builds for a
pair lies on every control-flow path from the load to the store, when the
dominator tree gives the dominance relation of the graph. -/
theorem pathSpec_on_cfg_path (F : Function) (DT : DominatorTree)
    (hTrue : ∀ b, b < F.blocks.length → ∀ a, a ∈ DT.getNode b ↔ Dom F.cfg a b)
    (Pair : AntidependencePairTy) (hPair : PairOk F Pair) (Path : AntidependencePathTy)
    (hSpec : PathSpec F DT Pair Path) (rest : List InstPos)
    (hpath : IsPath F.cfg (Pair.1 :: rest)) (hlast : rest.getLast? = some Pair.2) :
    ∀ c ∈ Path, c ∈ rest := by
  obtain ⟨L, S⟩ := Pair
  dsimp only at hSpec hpath hlast hPair ⊢
  obtain ⟨prest, hP, _, hc⟩ := hSpec
  have hSmem : S ∈ rest := List.mem_of_mem_getLast? hlast
  have hne : rest ≠ [] := by
    intro e
    rw [e] at hlast
    cases hlast
  have hlast2 : (L :: rest).getLast? = some S := by
    cases rest with
    | nil => exact absurd rfl hne
    | cons q r => rw [List.getLast?_cons_cons]; exact hlast
  have hchain : List.Chain (Step F.cfg) L rest := hpath
  have hLlt : L.bb < F.blocks.length := by
    by_contra h
    have := hPair.1
    simp only [Function.blockLen] at this
    rw [List.getElem?_eq_none (by omega)] at this
    simp at this
  have hSlt : S.bb < F.blocks.length := by
    by_contra h
    have := hPair.2
    simp only [Function.blockLen] at this
    rw [List.getElem?_eq_none (by omega)] at this
    simp at this
  intro c hcP
  rw [hP] at hcP
  rcases List.mem_cons.mp hcP with e | hm
  · rw [e]
    exact hSmem
  · obtain ⟨⟨inst, hinst, _⟩, hcase⟩ := hc c hm
    -- the block of `c` and the bound of its index
    have hcB : ∃ B, F.blocks[c.bb]? = some B ∧ c.idx < B.insts.length := by
      simp only [Function.inst?] at hinst
      cases hB : F.blocks[c.bb]? with
      | none => rw [hB] at hinst; cases hinst
      | some B =>
        rw [hB] at hinst
        simp only at hinst
        refine ⟨B, rfl, ?_⟩
        by_contra h
        rw [List.getElem?_eq_none (by omega)] at hinst
        cases hinst
    obtain ⟨B, hB, hidx⟩ := hcB
    have hG : F.cfg[c.bb]? = some ⟨B.insts.length, B.preds, B.succs⟩ := by
      rw [cfg_getElem?, hB]; rfl
    rcases hcase with ⟨hbb, _, hcbb, hlo, hhi⟩ | ⟨_, hin, hout, hown⟩
    · -- block-local
      have e : c.bb = L.bb := hcbb.trans hbb
      have hLeq : L = ⟨c.bb, L.idx⟩ := by
        rw [e]
      have hmem := path_traverses_block F.cfg c.bb _ hG S c.idx (Nat.le_of_lt hidx)
        (Or.inr (Nat.le_of_lt hhi)) rest L.idx (by rw [← hLeq]; exact hchain)
        (Nat.le_of_lt hlo) (by rw [← hLeq]; exact hlast2)
      have hceq : (⟨c.bb, c.idx⟩ : InstPos) = c := by cases c; rfl
      rw [hceq] at hmem
      rcases List.mem_cons.mp hmem with e | h
      · exfalso
        rw [e] at hlo
        simp only at hlo
        omega
      · exact h
    · -- through the dominators
      have hDom : Dom F.cfg c.bb S.bb := (hTrue S.bb hSlt c.bb).mp hin
      have hRA : ReachAvoid F.cfg c.bb L.bb := by
        by_contra h
        exact hout ((hTrue L.bb hLlt c.bb).mpr h)
      obtain ⟨pre, post, hsplit⟩ :=
        path_enters_dominator F.cfg c.bb S hDom rest L hchain hRA hlast2
      have hchain2 : List.Chain (Step F.cfg) ⟨c.bb, 0⟩ post := by
        have h1 : List.Chain' (Step F.cfg) (L :: rest) := hpath
        rw [hsplit] at h1
        have h2 : List.Chain' (Step F.cfg) ((L :: pre) ++ (⟨c.bb, 0⟩ : InstPos) :: post) := h1
        exact (List.chain'_append.mp h2).2.1
      have hlast3 : ((⟨c.bb, 0⟩ : InstPos) :: post).getLast? = some S := by
        rw [hsplit] at hlast
        rw [List.getLast?_append_cons] at hlast
        exact hlast
      have hS : S.bb ≠ c.bb ∨ c.idx ≤ S.idx := by
        by_cases e : c.bb = S.bb
        · exact Or.inr (Nat.le_of_lt (hown e))
        · exact Or.inl (fun h => e h.symm)
      have hmem := path_traverses_block F.cfg c.bb _ hG S c.idx (Nat.le_of_lt hidx) hS
        post 0 hchain2 (Nat.zero_le _) hlast3
      have hceq : (⟨c.bb, c.idx⟩ : InstPos) = c := by cases c; rfl
      rw [hceq] at hmem
      rw [hsplit]
      exact List.mem_append_right _ hmem

theorem inst_of_blockLen (F : Function) (p : InstPos) (h : p.idx < F.blockLen p.bb) :
    ∃ inst, F.inst? p = some inst := by
  unfold Function.blockLen at h
  unfold Function.inst?
  cases hB : F.blocks[p.bb]? with
  | none => rw [hB] at h; simp at h
  | some B =>
    rw [hB] at h
    simp only at h ⊢
    exact ⟨B.insts[p.idx], List.getElem?_eq_getElem h⟩

theorem pathSpec_inst (F : Function) (DT : DominatorTree) (Pair : AntidependencePairTy)
    (hPair : PairOk F Pair) (Path : AntidependencePathTy) (hSpec : PathSpec F DT Pair Path) :
    ∀ c ∈ Path, ∃ inst, F.inst? c = some inst := by
  obtain ⟨prest, hP, _, hc⟩ := hSpec
  intro c hcP
  rw [hP] at hcP
  rcases List.mem_cons.mp hcP with e | hm
  · rw [e]
    exact inst_of_blockLen F Pair.2 hPair.2
  · obtain ⟨⟨inst, hinst, _⟩, _⟩ := hc c hm
    exact ⟨inst, hinst⟩

/-! ## C2 -/

/-- C2: when the dominator tree gives the dominance relation of the graph (which
makes every block reachable), `runOnFunction` returns, and for every pair
`(L, S)` of `AntidependencePairs_` and every control-flow path
`L, p1, ..., pk = S` with at least one step, one of `p1, ..., pk` (after `L`, no
later than `S`) is an instruction of the final `CutSet_`. -/
theorem hazards_cut_on_cfg (F : Function) (AA : AliasAnalysis) (DT : DominatorTree)
    (LI : LoopInfo) (Order : IterationOrder) (hWF : F.WellFormed) (hDT : DT.WellFormed F)
    (hTrue : ∀ b, b < F.blocks.length → ∀ a, a ∈ DT.getNode b ↔ Dom F.cfg a b)
    (hOrd : Order.Ok)
    (hcount : ∀ Pairs, computePairs F AA F.positions [] = some Pairs → Pairs.length < 32768) :
    ∃ st, runOnFunction F AA DT LI Order .releaseMemory = some st ∧
      ∀ Pair ∈ st.AntidependencePairs_, ∀ rest : List InstPos,
        IsPath F.cfg (Pair.1 :: rest) → rest.getLast? = some Pair.2 →
        ∃ c ∈ rest, c ∈ st.CutSet_ ∧ ∃ inst, F.inst? c = some inst := by
  obtain ⟨st, h1, h2, h3, h4, _⟩ := runOnFunction_ok F AA DT LI Order hWF hDT hOrd hcount
  refine ⟨st, h1, ?_⟩
  intro Pair hPair rest hpath hlast
  obtain ⟨new, hnew, hok⟩ := computePairs_ok F AA hWF F.positions []
  rw [h2] at hnew
  simp only [List.nil_append, Option.some.injEq] at hnew
  have hPairOk : PairOk F Pair := hok Pair (by rw [← hnew]; exact hPair)
  obtain ⟨Path, hPath, hSpec⟩ := forall₂_mem_left _ _ _ h3 Pair hPair
  obtain ⟨c, hc, hcut⟩ := h4 Path hPath
  exact ⟨c, pathSpec_on_cfg_path F DT hTrue Pair hPairOk Path hSpec rest hpath hlast c hc, hcut,
    pathSpec_inst F DT Pair hPairOk Path hSpec c hc⟩

theorem exampleTie_wf : exampleTie.WellFormed :=
  function_wellFormed_of_check _ (by decide)

theorem exampleTieTree_wf : exampleTieTree.WellFormed exampleTie := by
  intro b hb
  have hb4 : b < 4 := hb
  interval_cases b <;> decide

theorem reachAvoid_entry_false (G : Cfg) (b : Nat) : ¬ ReachAvoid G 0 b := by
  intro h
  induction h with
  | entry _ h0 => exact h0 rfl
  | edge _ _ _ _ _ _ _ _ _ ih => exact ih

theorem exampleTie_avoid_two (b : Nat) (h : ReachAvoid exampleTie.cfg 2 b) : b = 0 ∨ b = 1 := by
  induction h with
  | entry _ _ => exact Or.inl rfl
  | edge a b A B _ hA hb _ hne ih =>
    rcases ih with e | e
    · subst e
      have : A = ⟨1, [], [1, 2]⟩ := by
        have h : exampleTie.cfg[0]? = some ⟨1, [], [1, 2]⟩ := rfl
        rw [h] at hA
        exact (Option.some.inj hA).symm
      subst this
      simp only [List.mem_cons, List.mem_singleton, List.not_mem_nil, or_false] at hb
      rcases hb with e | e
      · exact Or.inr e
      · exact absurd e hne
    · subst e
      have : A = ⟨2, [0], [2]⟩ := by
        have h : exampleTie.cfg[1]? = some ⟨2, [0], [2]⟩ := rfl
        rw [h] at hA
        exact (Option.some.inj hA).symm
      subst this
      simp only [List.mem_singleton] at hb
      exact absurd hb hne

theorem exampleTie_reach_zero (D : Nat) (h : D ≠ 0) : ReachAvoid exampleTie.cfg D 0 :=
  ReachAvoid.entry (by decide) h

theorem exampleTie_reach_one (D : Nat) (h0 : D ≠ 0) (h1 : D ≠ 1) :
    ReachAvoid exampleTie.cfg D 1 :=
  ReachAvoid.edge 0 1 ⟨1, [], [1, 2]⟩ ⟨2, [0], [2]⟩ (exampleTie_reach_zero D h0) rfl
    (by decide) rfl (fun e => h1 e.symm)

theorem exampleTie_reach_two (D : Nat) (h0 : D ≠ 0) (h2 : D ≠ 2) :
    ReachAvoid exampleTie.cfg D 2 :=
  ReachAvoid.edge 0 2 ⟨1, [], [1, 2]⟩ ⟨3, [0, 1], [3]⟩ (exampleTie_reach_zero D h0) rfl
    (by decide) rfl (fun e => h2 e.symm)

theorem exampleTie_reach_three (D : Nat) (h0 : D ≠ 0) (h2 : D ≠ 2) (h3 : D ≠ 3) :
    ReachAvoid exampleTie.cfg D 3 :=
  ReachAvoid.edge 2 3 ⟨3, [0, 1], [3]⟩ ⟨2, [2, 3], [3]⟩ (exampleTie_reach_two D h0 h2) rfl
    (by decide) rfl (fun e => h3 e.symm)

/-- The tree `exampleTieTree` gives the dominance relation of `exampleTie`. -/
theorem exampleTieTree_true (b : Nat) (hb : b < exampleTie.blocks.length) (a : Nat) :
    a ∈ exampleTieTree.getNode b ↔ Dom exampleTie.cfg a b := by
  have hb4 : b < 4 := hb
  interval_cases b
  · show a ∈ [0] ↔ _
    constructor
    · intro h
      simp only [List.mem_singleton] at h
      subst h
      exact reachAvoid_entry_false _ _
    · intro h
      by_contra hn
      simp only [List.mem_singleton] at hn
      exact h (exampleTie_reach_zero a hn)
  · show a ∈ [1, 0] ↔ _
    constructor
    · intro h
      simp only [List.mem_cons, List.mem_singleton, List.not_mem_nil, or_false] at h
      rcases h with e | e
      · subst e
        exact fun h => reachAvoid_ne _ _ _ h rfl
      · subst e
        exact reachAvoid_entry_false _ _
    · intro h
      by_contra hn
      simp only [List.mem_cons, List.mem_singleton, List.not_mem_nil, or_false, not_or] at hn
      exact h (exampleTie_reach_one a hn.2 hn.1)
  · show a ∈ [2, 0] ↔ _
    constructor
    · intro h
      simp only [List.mem_cons, List.mem_singleton, List.not_mem_nil, or_false] at h
      rcases h with e | e
      · subst e
        exact fun h => reachAvoid_ne _ _ _ h rfl
      · subst e
        exact reachAvoid_entry_false _ _
    · intro h
      by_contra hn
      simp only [List.mem_cons, List.mem_singleton, List.not_mem_nil, or_false, not_or] at hn
      exact h (exampleTie_reach_two a hn.2 hn.1)
  · show a ∈ [3, 2, 0] ↔ _
    constructor
    · intro h
      simp only [List.mem_cons, List.mem_singleton, List.not_mem_nil, or_false] at h
      rcases h with e | e | e
      · subst e
        exact fun h => reachAvoid_ne _ _ _ h rfl
      · subst e
        intro h
        rcases exampleTie_avoid_two 3 h with e | e <;> cases e
      · subst e
        exact reachAvoid_entry_false _ _
    · intro h
      by_contra hn
      simp only [List.mem_cons, List.mem_singleton, List.not_mem_nil, or_false, not_or] at hn
      exact h (exampleTie_reach_three a hn.2.2 hn.2.1 hn.1)

theorem exampleTie_pairs :
    computePairs exampleTie exampleTieAlias exampleTie.positions [] =
      some [(⟨1, 0⟩, ⟨3, 0⟩)] := by
  decide

/-- Witness of C2 on `exampleTie`, whose pair has its load in block 1 and its
store in the loop of block 3. -/
theorem hazards_cut_on_cfg_witness :
    ∃ st, runOnFunction exampleTie exampleTieAlias exampleTieTree exampleTieLoops insertionOrder
        .releaseMemory = some st ∧
      ∀ Pair ∈ st.AntidependencePairs_, ∀ rest : List InstPos,
        IsPath exampleTie.cfg (Pair.1 :: rest) → rest.getLast? = some Pair.2 →
        ∃ c ∈ rest, c ∈ st.CutSet_ ∧ ∃ inst, exampleTie.inst? c = some inst :=
  hazards_cut_on_cfg exampleTie exampleTieAlias exampleTieTree exampleTieLoops insertionOrder
    exampleTie_wf exampleTieTree_wf exampleTieTree_true insertionOrder_ok
    (by
      intro Pairs h
      rw [exampleTie_pairs] at h
      cases h
      decide)

end Ratchet

namespace Ratchet

/-! ## The backward scan along a control-flow path -/

/-- The scan of a block records the load that it meets first. -/
theorem scan_found (F : Function) (AA : AliasAnalysis) (bb I E : Nat) (Store : InstPos)
    (B : BasicBlock) (hB : F.blocks[bb]? = some B) (j : Nat) (al : Bool)
    (hj : B.insts[j]? = some (.load false al)) (hal : AA.mayRef ⟨bb, j⟩ Store = true)
    (hE : E ≤ j) (hjI : j < I) (hI : I ≤ B.insts.length)
    (hclean : ∀ k, j < k → k < I → stopperAt F AA Store ⟨bb, k⟩ = false) :
    scanForAliasingLoad F AA bb I E Store [] = some (true, [(⟨bb, j⟩, Store)]) := by
  have hstop : stopperAt F AA Store ⟨bb, j⟩ = true := by
    simp [stopperAt, inst?_eq F bb j B hB, hj, forcesCut, Instruction.isLoad, hal]
  have h := scanLoop_found F AA B bb E Store [] hB j _ hj hstop I hE hjI hI hclean
  simp only [forcesCut, Bool.false_eq_true, if_false, List.nil_append] at h
  unfold scanForAliasingLoad
  rw [hB]
  simp only [h]

/-- The scan of a block other than the entry block that meets no forced cut
and no aliasing load goes on to the predecessors. -/
theorem scan_clean (F : Function) (AA : AliasAnalysis) (bb I E : Nat) (Store : InstPos)
    (B : BasicBlock) (hB : F.blocks[bb]? = some B) (hE : E ≤ I) (hI : I ≤ B.insts.length)
    (hElt : E < B.insts.length) (hbb : bb ≠ 0)
    (hclean : ∀ k, E ≤ k → k < I → stopperAt F AA Store ⟨bb, k⟩ = false) :
    scanForAliasingLoad F AA bb I E Store [] = some (false, []) := by
  have h := scanLoop_clean F AA B bb E Store [] hB I hE hI hclean
  unfold scanForAliasingLoad
  rw [hB]
  simp only [h, hElt, if_true, hbb, if_false]

theorem pushSuccs_nil_vis (ns : List Nat) (x : Nat) (h : x ∈ (pushSuccs ns [] []).2) :
    x ∈ (pushSuccs ns [] []).1 := by
  rw [mem_pushSuccs_vis] at h
  rw [mem_pushSuccs_wl]
  rcases h with h | h
  · cases h
  · exact Or.inr ⟨h, by simp⟩

/-- Along a control-flow path to the store that holds no forced cut and no
aliasing load, the backward walk of `findAntidependencePairs` arrives at every
position: in the first scan, which starts at the store, or in the scan of a
block that the walk enters from its end. -/
theorem scan_reaches (F : Function) (AA : AliasAnalysis) (S : InstPos) (hWF : F.WellFormed)
    (v a g : Bool) (hS : F.inst? S = some (.store v a g))
    (B : BasicBlock) (hB : F.blocks[S.bb]? = some B) (flag : Bool)
    (ps : List AntidependencePairTy) (tr : List Nat)
    (hscan : scanForAliasingLoad F AA S.bb S.idx 0 S [] = some (flag, ps))
    (htr1 : flag = true → tr = [])
    (htr2 : flag = false → dfsTrace (irStop F AA S) (irNbrs F) (F.blocks.length + 1)
        (pushSuccs B.preds [] []).1 (pushSuccs B.preds [] []).2 = some tr) :
    ∀ (rest : List InstPos) (p : InstPos), List.Chain (Step F.cfg) p rest →
      (p :: rest).getLast? = some S →
      (∀ q ∈ (p :: rest).dropLast, stopperAt F AA S q = false) →
      (p.bb = S.bb ∧ p.idx ≤ S.idx ∧
          ∀ j, p.idx ≤ j → j < S.idx → stopperAt F AA S ⟨S.bb, j⟩ = false) ∨
        (p.bb ∈ tr ∧ irLo S p.bb ≤ p.idx ∧
          ∀ j, p.idx ≤ j → j < F.blockLen p.bb → stopperAt F AA S ⟨p.bb, j⟩ = false) := by
  have hSidx : S.idx < B.insts.length := by
    rw [Function.inst?, hB] at hS
    simp only at hS
    by_contra h
    rw [List.getElem?_eq_none (by omega)] at hS
    cases hS
  intro rest
  induction rest with
  | nil =>
    intro p _ hlast _
    simp only [List.getLast?_singleton, Option.some.injEq] at hlast
    subst hlast
    exact Or.inl ⟨rfl, Nat.le_refl _, fun j h1 h2 => by omega⟩
  | cons q rest ih =>
    intro p hchain hlast hclean
    rw [List.chain_cons] at hchain
    rw [List.getLast?_cons_cons] at hlast
    obtain ⟨hstep, hchain'⟩ := hchain
    have hdl : (p :: q :: rest).dropLast = p :: (q :: rest).dropLast := rfl
    rw [hdl] at hclean
    have hp : stopperAt F AA S p = false := hclean p (List.mem_cons_self _ _)
    have ihq := ih q hchain' hlast (fun x hx => hclean x (List.mem_cons_of_mem _ hx))
    cases hstep with
    | next b i Bc hBc hi =>
      rcases ihq with ⟨h1, h2, h3⟩ | ⟨h1, h2, h3⟩
      · simp only at h1 h2 h3
        refine Or.inl ⟨h1, by simp only; omega, ?_⟩
        intro j hj1 hj2
        simp only at hj1
        by_cases e : j = i
        · subst e
          rw [← h1]
          exact hp
        · exact h3 j (by omega) hj2
      · simp only at h1 h2 h3
        by_cases e : irLo S b = i + 1
        · -- the successor position is the store
          have hb : b = S.bb := by
            unfold irLo at e
            by_cases hb : b = S.bb
            · exact hb
            · rw [if_neg hb] at e
              omega
          have hi1 : S.idx = i + 1 := by
            unfold irLo at e
            rw [if_pos hb] at e
            exact e
          refine Or.inl ⟨hb, by simp only; omega, ?_⟩
          intro j hj1 hj2
          simp only at hj1
          have : j = i := by omega
          subst this
          rw [← hb]
          exact hp
        · refine Or.inr ⟨h1, by simp only; omega, ?_⟩
          intro j hj1 hj2
          simp only at hj1 hj2
          by_cases e : j = i
          · subst e
            exact hp
          · exact h3 j (by omega) hj2
    | jump a s A Sc hA hs hSc =>
      -- the blocks behind the two positions
      rw [cfg_getElem?] at hA hSc
      cases hBa : F.blocks[a]? with
      | none => rw [hBa] at hA; cases hA
      | some Ba =>
        cases hBs : F.blocks[s]? with
        | none => rw [hBs] at hSc; cases hSc
        | some Bs =>
          rw [hBa] at hA
          rw [hBs] at hSc
          simp only [Option.map_some', Option.some.injEq] at hA hSc
          subst hA hSc
          simp only at hs hp ⊢
          have hpred : a ∈ Bs.preds := by
            have := hWF.cfg.mirror a s ⟨Ba.insts.length, Ba.preds, Ba.succs⟩
              ⟨Bs.insts.length, Bs.preds, Bs.succs⟩
              (by rw [cfg_getElem?, hBa]; rfl) (by rw [cfg_getElem?, hBs]; rfl)
            exact this.mp hs
          have hs0 : s ≠ 0 := by
            intro e
            subst e
            have := hWF.cfg.entryPreds ⟨Bs.insts.length, Bs.preds, Bs.succs⟩
              (by rw [cfg_getElem?, hBs]; rfl)
            simp only at this
            rw [this] at hpred
            cases hpred
          have hlo : irLo S a ≤ Ba.insts.length := by
            unfold irLo
            by_cases e : a = S.bb
            · rw [if_pos e]
              subst e
              rw [hBa] at hB
              cases hB
              omega
            · rw [if_neg e]
              omega
          have hvac : ∀ j, Ba.insts.length ≤ j → j < F.blockLen a →
              stopperAt F AA S ⟨a, j⟩ = false := by
            intro j h1 h2
            rw [blockLen_eq F a Ba hBa] at h2
            omega
          have hflag : flag = false → a ∈ (pushSuccs B.preds [] []).1 → a ∈ tr := by
            intro hf hmem
            exact (dfsTrace_closed _ _ _ _ _ _ (htr2 hf)).1 a hmem
          rcases ihq with ⟨h1, _, h3⟩ | ⟨h1, h2, h3⟩
          · -- the successor is the block of the store, scanned first
            simp only at h1 h3
            subst h1
            rw [hBs] at hB
            cases hB
            have hsc := scan_clean F AA S.bb S.idx 0 S B hBs (Nat.zero_le _)
              (Nat.le_of_lt hSidx) (by omega) hs0 (fun k _ hk => h3 k (Nat.zero_le _) hk)
            rw [hsc] at hscan
            simp only [Option.some.injEq, Prod.mk.injEq] at hscan
            have hf : flag = false := hscan.1.symm
            refine Or.inr ⟨hflag hf ?_, hlo, hvac⟩
            rw [mem_pushSuccs_wl]
            exact Or.inr ⟨hpred, by simp⟩
          · -- the successor is a block entered from its end
            simp only at h1 h2 h3
            have hf : flag = false := by
              cases flag with
              | false => rfl
              | true =>
                rw [htr1 rfl] at h1
                cases h1
            have hcl := dfsTrace_closed _ _ _ _ _ _ (htr2 hf)
            obtain ⟨st, hst, hnb⟩ := hcl.2 s h1
            have hlen : 0 < Bs.insts.length := block_nonempty F hWF s Bs hBs
            have hlo0 : irLo S s = 0 := by omega
            have hsc := scan_clean F AA s Bs.insts.length 0 S Bs hBs (Nat.zero_le _)
              (Nat.le_refl _) hlen hs0
              (fun k _ hk => h3 k (Nat.zero_le _) (by rw [blockLen_eq F s Bs hBs]; exact hk))
            have hst2 : irStop F AA S s = some false := by
              simp only [irStop, irScan, hBs, hlo0, hsc, Option.map_some']
            rw [hst2] at hst
            have hstf : st = false := (Option.some.inj hst).symm
            have hnbr : a ∈ irNbrs F s := by
              simp only [irNbrs, hBs]
              exact hpred
            rcases hnb hstf a hnbr with h | h
            · exact Or.inr ⟨hcl.1 a (pushSuccs_nil_vis _ _ h), hlo, hvac⟩
            · exact Or.inr ⟨h, hlo, hvac⟩

/-! ## C3 -/

/-- C3 (as stated, refuted): in the block `load; load; store; ret` both loads
may read what the store writes and no instruction forces a cut, so there is a
control-flow path from the first load to the store without a forced cut; yet
`findAntidependencePairs` records the pair of the second load only, because the
scan stops at the first aliasing load that it meets. -/
theorem pair_missing_behind_load :
    IsPath exampleTwoLoads.cfg [⟨0, 0⟩, ⟨0, 1⟩, ⟨0, 2⟩] ∧
      exampleTwoLoads.inst? ⟨0, 0⟩ = some (.load false false) ∧
      exampleTwoLoads.inst? ⟨0, 2⟩ = some (.store false false false) ∧
      mayAliasAll.mayRef ⟨0, 0⟩ ⟨0, 2⟩ = true ∧
      (∀ p ∈ [(⟨0, 0⟩ : InstPos), ⟨0, 1⟩, ⟨0, 2⟩], ∀ inst,
        exampleTwoLoads.inst? p = some inst → forcesCut inst = false) ∧
      findAntidependencePairs exampleTwoLoads mayAliasAll ⟨0, 2⟩ [] =
        some [(⟨0, 1⟩, ⟨0, 2⟩)] ∧
      computePairs exampleTwoLoads mayAliasAll exampleTwoLoads.positions [] =
        some [(⟨0, 1⟩, ⟨0, 2⟩)] ∧
      ((⟨0, 0⟩, ⟨0, 2⟩) : AntidependencePairTy) ∉ [((⟨0, 1⟩, ⟨0, 2⟩) : AntidependencePairTy)] := by
  refine ⟨?_, rfl, rfl, rfl, by decide, by decide, by decide, by decide⟩
  have h0 : exampleTwoLoads.cfg[0]? = some ⟨4, [], []⟩ := rfl
  exact List.Chain'.cons (Step.next 0 0 ⟨4, [], []⟩ h0 (by decide))
    (List.Chain'.cons (Step.next 0 1 ⟨4, [], []⟩ h0 (by decide)) (List.chain'_singleton _))

/-- C3 (amended): in a well-formed function, for a store `S`, a load `L` that is
not volatile and may read what `S` writes, and a control-flow path
`L, p1, ..., pk = S` on which no instruction strictly between `L` and the final
`S` forces a cut or is a load that may read what `S` writes,
`findAntidependencePairs(S)` returns and the pair `(L, S)` is among the
pairs. -/
theorem pairs_complete (F : Function) (AA : AliasAnalysis) (hWF : F.WellFormed)
    (S L : InstPos) (v a g al : Bool) (hS : F.inst? S = some (.store v a g))
    (hL : F.inst? L = some (.load false al)) (hAlias : AA.mayRef L S = true)
    (rest : List InstPos) (hpath : IsPath F.cfg (L :: rest))
    (hlast : rest.getLast? = some S)
    (hclean : ∀ p ∈ rest.dropLast, ∀ inst, F.inst? p = some inst →
      forcesCut inst = false ∧ (inst.isLoad = true → AA.mayRef p S = false))
    (Pairs : List AntidependencePairTy) :
    ∃ res, findAntidependencePairs F AA S Pairs = some res ∧ (L, S) ∈ res := by
  obtain ⟨B, flag, ps, tr, hB, hscan, htr1, htr2, hres⟩ :=
    findAntidependencePairs_eq F AA S hWF v a g hS Pairs
  refine ⟨_, hres, ?_⟩
  have hSidx : S.idx < B.insts.length := by
    rw [Function.inst?, hB] at hS
    simp only at hS
    by_contra h
    rw [List.getElem?_eq_none (by omega)] at hS
    cases hS
  have hclean2 : ∀ p ∈ rest.dropLast, stopperAt F AA S p = false := by
    intro p hp
    unfold stopperAt
    cases hi : F.inst? p with
    | none => rfl
    | some inst =>
      obtain ⟨h1, h2⟩ := hclean p hp inst hi
      simp only [h1, Bool.false_or, Bool.and_eq_false_imp]
      exact h2
  -- the pair is recorded by the first scan when the load is met in it
  have hfirst : L.bb = S.bb → L.idx < S.idx →
      (∀ j, L.idx < j → j < S.idx → stopperAt F AA S ⟨S.bb, j⟩ = false) →
      (L, S) ∈ Pairs ++ ps ++ tr.flatMap (irPairs F AA S) := by
    intro hbb hidx hcl
    have hLB : B.insts[L.idx]? = some (.load false al) := by
      rw [Function.inst?, hbb, hB] at hL
      exact hL
    have hLeq : L = ⟨S.bb, L.idx⟩ := by rw [← hbb]
    have hf := scan_found F AA S.bb S.idx 0 S B hB L.idx al hLB (by rw [← hLeq]; exact hAlias)
      (Nat.zero_le _) hidx (Nat.le_of_lt hSidx) hcl
    rw [hf] at hscan
    simp only [Option.some.injEq, Prod.mk.injEq] at hscan
    rw [← hscan.2, ← hLeq]
    simp
  cases rest with
  | nil => cases hlast
  | cons q rest =>
    have hchain : List.Chain (Step F.cfg) L (q :: rest) := hpath
    rw [List.chain_cons] at hchain
    obtain ⟨hstep, hchain'⟩ := hchain
    have hreach := scan_reaches F AA S hWF v a g hS B hB flag ps tr hscan htr1 htr2
      rest q hchain' hlast hclean2
    generalize hLp : L = Lp at hstep
    cases hstep with
    | next b i Bc hBc hi =>
      subst hLp
      simp only at hreach hL hAlias
      rcases hreach with ⟨h1, h2, h3⟩ | ⟨h1, h2, h3⟩
      · exact hfirst h1 (by simp only; omega) (fun j hj1 hj2 => h3 j hj1 hj2)
      · by_cases e : irLo S b = i + 1
        · have hb : b = S.bb := by
            unfold irLo at e
            by_cases hb : b = S.bb
            · exact hb
            · rw [if_neg hb] at e
              omega
          have hi1 : S.idx = i + 1 := by
            unfold irLo at e
            rw [if_pos hb] at e
            exact e
          exact hfirst hb (by simp only; omega) (fun j hj1 hj2 => by simp only at hj1; omega)
        · -- the load is met in the scan of a block entered from its end
          cases hBb : F.blocks[b]? with
          | none =>
            rw [Function.inst?] at hL
            simp only [hBb] at hL
            cases hL
          | some Bb =>
            have hLB : Bb.insts[i]? = some (.load false al) := by
              rw [Function.inst?] at hL
              simp only [hBb] at hL
              exact hL
            have hilt : i < Bb.insts.length := by
              by_contra h
              rw [List.getElem?_eq_none (by omega)] at hLB
              cases hLB
            have hf := scan_found F AA b Bb.insts.length (irLo S b) S Bb hBb i al hLB hAlias
              (by omega) hilt (Nat.le_refl _)
              (fun k hk1 hk2 => h3 k hk1 (by rw [blockLen_eq F b Bb hBb]; exact hk2))
            have hp : irPairs F AA S b = [(⟨b, i⟩, S)] := by
              simp only [irPairs, irScan, hBb, hf]
            apply List.mem_append_right
            rw [List.mem_flatMap]
            exact ⟨b, h1, by rw [hp]; simp⟩
    | jump b s Bc Sc hBc hs hSc =>
      -- a load is no end of a block
      subst hLp
      exfalso
      rw [cfg_getElem?] at hBc
      cases hBb : F.blocks[b]? with
      | none => rw [hBb] at hBc; cases hBc
      | some Bb =>
        rw [hBb] at hBc
        simp only [Option.map_some', Option.some.injEq] at hBc
        subst hBc
        rw [Function.inst?] at hL
        simp only [hBb] at hL
        rw [List.getElem?_eq_none (Nat.le_refl _)] at hL
        cases hL

/-- Witness of C3 (amended): in `exampleTie` the load of block 1 reaches the
store of block 3 through block 2. -/
theorem pairs_complete_witness :
    ∃ res, findAntidependencePairs exampleTie exampleTieAlias ⟨3, 0⟩ [] = some res ∧
      ((⟨1, 0⟩, ⟨3, 0⟩) : AntidependencePairTy) ∈ res :=
  pairs_complete exampleTie exampleTieAlias exampleTie_wf
    ⟨3, 0⟩ ⟨1, 0⟩ false false false false rfl rfl rfl
    [⟨1, 1⟩, ⟨1, 2⟩, ⟨2, 0⟩, ⟨2, 1⟩, ⟨2, 2⟩, ⟨2, 3⟩, ⟨3, 0⟩]
    (List.Chain'.cons (Step.next 1 0 ⟨2, [0], [2]⟩ rfl (by decide))
      (List.Chain'.cons (Step.next 1 1 ⟨2, [0], [2]⟩ rfl (by decide))
        (List.Chain'.cons (Step.jump 1 2 ⟨2, [0], [2]⟩ ⟨3, [0, 1], [3]⟩ rfl (by decide) rfl)
          (List.Chain'.cons (Step.next 2 0 ⟨3, [0, 1], [3]⟩ rfl (by decide))
            (List.Chain'.cons (Step.next 2 1 ⟨3, [0, 1], [3]⟩ rfl (by decide))
              (List.Chain'.cons (Step.next 2 2 ⟨3, [0, 1], [3]⟩ rfl (by decide))
                (List.Chain'.cons
                  (Step.jump 2 3 ⟨3, [0, 1], [3]⟩ ⟨2, [2, 3], [3]⟩ rfl (by decide) rfl)
                  (List.chain'_singleton _))))))))
    rfl
    (by
      intro p hp inst hi
      simp only [List.dropLast, List.mem_cons, List.mem_singleton, List.not_mem_nil,
        or_false] at hp
      rcases hp with e | e | e | e | e | e <;> subst e <;> cases hi <;> decide)
    []

end Ratchet

namespace Ratchet

/-! ## The ranges of the block iterator of a region -/

theorem minst?_eq (MF : MachineFunction) (bb i : Nat) (B : MachineBasicBlock)
    (hB : MF.blocks[bb]? = some B) : MF.inst? ⟨bb, i⟩ = B.insts[i]? := by
  simp [MachineFunction.inst?, hB]

theorem isExit_eq (MF : MachineFunction) (R : IdempotentRegion) (b k : Nat)
    (B : MachineBasicBlock) (hB : MF.blocks[b]? = some B) (MI : MachineInstr)
    (hMI : B.insts[k]? = some MI) (hne : (⟨b, k⟩ : InstPos) ≠ R.Entry_) :
    isExit R MI ⟨b, k⟩ = MF.exitAt ⟨b, k⟩ := by
  simp [isExit, MachineFunction.exitAt, minst?_eq MF b k B hB, hMI, hne]

theorem exitAt_of_ge (MF : MachineFunction) (b k : Nat) (B : MachineBasicBlock)
    (hB : MF.blocks[b]? = some B) (hk : B.insts.length ≤ k) : MF.exitAt ⟨b, k⟩ = false := by
  simp [MachineFunction.exitAt, minst?_eq MF b k B hB, List.getElem?_eq_none hk]

/-- What `computeEnd` returns: the index of the first boundary or call of the
block, or the end of the block; the entry of the region is not met before. -/
theorem computeEnd_spec (MF : MachineFunction) (R : IdempotentRegion) (b : Nat)
    (B : MachineBasicBlock) (hB : MF.blocks[b]? = some B) :
    ∀ (n i e : Nat), i + n = B.insts.length →
      computeEnd R R.Entry_ b (B.insts.drop i) i = some e →
      i ≤ e ∧ e ≤ B.insts.length ∧
        (∀ k, i ≤ k → k < e → MF.exitAt ⟨b, k⟩ = false ∧ (⟨b, k⟩ : InstPos) ≠ R.Entry_) ∧
        (e < B.insts.length → MF.exitAt ⟨b, e⟩ = true ∧ (⟨b, e⟩ : InstPos) ≠ R.Entry_) := by
  intro n
  induction n with
  | zero =>
    intro i e hi h
    have hd : B.insts.drop i = [] := List.drop_eq_nil_of_le (by omega)
    rw [hd] at h
    simp only [computeEnd, Option.some.injEq] at h
    subst h
    exact ⟨Nat.le_refl _, by omega, fun k h1 h2 => by omega, fun h => by omega⟩
  | succ n ih =>
    intro i e hi h
    have hlt : i < B.insts.length := by omega
    rw [List.drop_eq_getElem_cons hlt] at h
    have hMI : B.insts[i]? = some B.insts[i] := List.getElem?_eq_getElem hlt
    unfold computeEnd at h
    by_cases hE : (⟨b, i⟩ : InstPos) = R.Entry_
    · rw [if_pos hE] at h
      cases h
    · rw [if_neg hE] at h
      have hex := isExit_eq MF R b i B hB _ hMI hE
      by_cases hx : ((⟨b, i⟩ : InstPos) = R.Entry_ || isExit R B.insts[i] ⟨b, i⟩) = true
      · rw [if_pos hx] at h
        simp only [Option.some.injEq] at h
        subst h
        have hx2 : MF.exitAt ⟨b, i⟩ = true := by
          rw [← hex]
          simpa [hE] using hx
        exact ⟨Nat.le_refl _, by omega, fun k h1 h2 => by omega, fun _ => ⟨hx2, hE⟩⟩
      · rw [if_neg hx] at h
        have hx2 : MF.exitAt ⟨b, i⟩ = false := by
          rw [← hex]
          simpa [hE] using hx
        obtain ⟨h1, h2, h3, h4⟩ := ih (i + 1) e (by omega) h
        refine ⟨by omega, h2, ?_, h4⟩
        intro k hk1 hk2
        by_cases e1 : k = i
        · subst e1
          exact ⟨hx2, hE⟩
        · exact h3 k (by omega) hk2

/-- The function `computeEnd` returns when the entry of the region is not met
before a boundary or a call. -/
theorem computeEnd_total (MF : MachineFunction) (R : IdempotentRegion) (b : Nat)
    (B : MachineBasicBlock) (hB : MF.blocks[b]? = some B)
    (hnw : ∀ k, (⟨b, k⟩ : InstPos) = R.Entry_ → ∃ j, j < k ∧ MF.exitAt ⟨b, j⟩ = true) :
    ∀ (n i : Nat), i + n = B.insts.length → (∀ j, j < i → MF.exitAt ⟨b, j⟩ = false) →
      ∃ e, computeEnd R R.Entry_ b (B.insts.drop i) i = some e := by
  intro n
  induction n with
  | zero =>
    intro i hi _
    have hd : B.insts.drop i = [] := List.drop_eq_nil_of_le (by omega)
    rw [hd]
    exact ⟨i, rfl⟩
  | succ n ih =>
    intro i hi hcl
    have hlt : i < B.insts.length := by omega
    rw [List.drop_eq_getElem_cons hlt]
    have hMI : B.insts[i]? = some B.insts[i] := List.getElem?_eq_getElem hlt
    unfold computeEnd
    by_cases hE : (⟨b, i⟩ : InstPos) = R.Entry_
    · obtain ⟨j, hj1, hj2⟩ := hnw i hE
      rw [hcl j hj1] at hj2
      cases hj2
    · rw [if_neg hE]
      have hex := isExit_eq MF R b i B hB _ hMI hE
      by_cases hx : ((⟨b, i⟩ : InstPos) = R.Entry_ || isExit R B.insts[i] ⟨b, i⟩) = true
      · rw [if_pos hx]
        exact ⟨i, rfl⟩
      · rw [if_neg hx]
        have hx2 : MF.exitAt ⟨b, i⟩ = false := by
          rw [← hex]
          simpa [hE] using hx
        apply ih (i + 1) (by omega)
        intro j hj
        by_cases e1 : j = i
        · subst e1
          exact hx2
        · exact hcl j (by omega)

/-- What the loop of `init` returns behind the entry. -/
theorem initEnd_spec (MF : MachineFunction) (R : IdempotentRegion)
    (B : MachineBasicBlock) (hB : MF.blocks[R.Entry_.bb]? = some B) :
    ∀ (n i : Nat), i + n = B.insts.length → R.Entry_.idx < i →
      i ≤ initEnd R R.Entry_.bb (B.insts.drop i) i ∧
        initEnd R R.Entry_.bb (B.insts.drop i) i ≤ B.insts.length ∧
        (∀ k, i ≤ k → k < initEnd R R.Entry_.bb (B.insts.drop i) i →
          MF.exitAt ⟨R.Entry_.bb, k⟩ = false) ∧
        (initEnd R R.Entry_.bb (B.insts.drop i) i < B.insts.length →
          MF.exitAt ⟨R.Entry_.bb, initEnd R R.Entry_.bb (B.insts.drop i) i⟩ = true) := by
  intro n
  induction n with
  | zero =>
    intro i hi _
    have hd : B.insts.drop i = [] := List.drop_eq_nil_of_le (by omega)
    rw [hd]
    simp only [initEnd]
    exact ⟨Nat.le_refl _, by omega, fun k h1 h2 => by omega, fun h => by omega⟩
  | succ n ih =>
    intro i hi hgt
    have hlt : i < B.insts.length := by omega
    rw [List.drop_eq_getElem_cons hlt]
    have hMI : B.insts[i]? = some B.insts[i] := List.getElem?_eq_getElem hlt
    have hE : (⟨R.Entry_.bb, i⟩ : InstPos) ≠ R.Entry_ := by
      intro e
      have := congrArg InstPos.idx e
      simp only at this
      omega
    have hex := isExit_eq MF R R.Entry_.bb i B hB _ hMI hE
    unfold initEnd
    by_cases hx : isExit R B.insts[i] ⟨R.Entry_.bb, i⟩ = true
    · rw [if_pos hx]
      rw [hex] at hx
      exact ⟨Nat.le_refl _, by omega, fun k h1 h2 => by omega, fun _ => hx⟩
    · rw [if_neg hx]
      rw [hex] at hx
      obtain ⟨h1, h2, h3, h4⟩ := ih (i + 1) (by omega) (by omega)
      refine ⟨by omega, h2, ?_, h4⟩
      intro k hk1 hk2
      by_cases e1 : k = i
      · subst e1
        simpa using hx
      · exact h3 k (by omega) hk2

/-- The first range of the iterator of a region: it starts at the entry
boundary and ends at the next boundary or call of the block. -/
theorem regionEnd0_spec (MF : MachineFunction) (R : IdempotentRegion)
    (B : MachineBasicBlock) (hB : MF.blocks[R.Entry_.bb]? = some B) (EI : MachineInstr)
    (hE : MF.inst? R.Entry_ = some EI) (hEb : EI.isIdemBoundary = true) :
    R.Entry_.idx < regionEnd0 MF R ∧ regionEnd0 MF R ≤ B.insts.length ∧
      (∀ k, R.Entry_.idx < k → k < regionEnd0 MF R → MF.exitAt ⟨R.Entry_.bb, k⟩ = false) ∧
      (regionEnd0 MF R < B.insts.length → MF.exitAt ⟨R.Entry_.bb, regionEnd0 MF R⟩ = true) := by
  have hEI : B.insts[R.Entry_.idx]? = some EI := by
    rw [MachineFunction.inst?, hB] at hE
    exact hE
  have hlt : R.Entry_.idx < B.insts.length := by
    by_contra h
    rw [List.getElem?_eq_none (by omega)] at hEI
    cases hEI
  have hget : B.insts[R.Entry_.idx] = EI := by
    rw [List.getElem?_eq_getElem hlt] at hEI
    exact Option.some.inj hEI
  have hnx : isExit R EI ⟨R.Entry_.bb, R.Entry_.idx⟩ = false := by
    have hcall : EI.isCall = false := by
      simp only [MachineInstr.isIdemBoundary, decide_eq_true_eq] at hEb
      simp [MachineInstr.isCall, hEb]
    simp [isExit, hcall]
  have h0 : regionEnd0 MF R =
      initEnd R R.Entry_.bb (B.insts.drop (R.Entry_.idx + 1)) (R.Entry_.idx + 1) := by
    unfold regionEnd0
    rw [hB]
    simp only
    rw [List.drop_eq_getElem_cons hlt, hget, initEnd, hnx]
    simp
  rw [h0]
  obtain ⟨h1, h2, h3, h4⟩ := initEnd_spec MF R B hB (B.insts.length - (R.Entry_.idx + 1))
    (R.Entry_.idx + 1) (by omega) (by omega)
  exact ⟨by omega, h2, fun k hk1 hk2 => h3 k (by omega) hk2, h4⟩

/-! ## The steps of the block iterator and the worklist search -/

theorem regionEnd_block (MF : MachineFunction) (R : IdempotentRegion) (b e : Nat)
    (h : regionEnd MF R b = some e) : ∃ B, MF.blocks[b]? = some B := by
  unfold regionEnd at h
  cases hB : MF.blocks[b]? with
  | none => rw [hB] at h; cases h
  | some B => exact ⟨B, rfl⟩

/-- The step `operator++` when the worklist is empty afterwards: the iterator
becomes invalid. -/
theorem next_nil (MF : MachineFunction) (R : IdempotentRegion) (b : Nat)
    (B : MachineBasicBlock) (hB : MF.blocks[b]? = some B) (start : InstPos) (e : Nat)
    (W V : List Nat) (h : (regionPushed MF b e W V).1 = []) :
    ∃ It1, (regionIt R b start e W V).next MF = some It1 ∧ It1.Valid_ = false := by
  unfold regionPushed at h
  rw [hB] at h
  simp only at h
  unfold dfs_mbb_iterator.next dfs_mbb_iterator.isExiting regionIt
  simp only [hB, Bool.true_eq_false, if_false, Bool.not_false, Bool.true_and]
  have he : decide ((⟨b, e⟩ : InstPos) ≠ ⟨b, B.insts.length⟩) = decide (e ≠ B.insts.length) := by
    simp
  rw [he]
  by_cases hx : (decide (e ≠ B.insts.length) || B.succs.isEmpty) = true
  · rw [if_pos hx] at h
    simp only at h
    simp only [hx, Bool.not_true, Bool.false_eq_true, if_false, h]
    exact ⟨_, rfl, rfl⟩
  · rw [if_neg hx] at h
    have hx2 : (decide (e ≠ B.insts.length) || B.succs.isEmpty) = false := by
      simpa using hx
    simp only [hx2, Bool.not_false, if_true, h]
    exact ⟨_, rfl, rfl⟩

/-- The step `operator++` when the worklist holds a block afterwards: the
iterator goes to that block. -/
theorem next_cons (MF : MachineFunction) (R : IdempotentRegion) (b : Nat)
    (B : MachineBasicBlock) (hB : MF.blocks[b]? = some B) (start : InstPos) (e : Nat)
    (W V : List Nat) (b1 : Nat) (W1 : List Nat)
    (h : (regionPushed MF b e W V).1 = b1 :: W1) :
    (regionIt R b start e W V).next MF =
      (regionEnd MF R b1).map
        (fun e1 => regionIt R b1 ⟨b1, 0⟩ e1 W1 (regionPushed MF b e W V).2) := by
  unfold regionPushed at h ⊢
  rw [hB] at h ⊢
  simp only at h ⊢
  unfold dfs_mbb_iterator.next dfs_mbb_iterator.isExiting regionIt regionEnd
  simp only [hB, Bool.true_eq_false, if_false, Bool.not_false, Bool.true_and]
  have he : decide ((⟨b, e⟩ : InstPos) ≠ ⟨b, B.insts.length⟩) = decide (e ≠ B.insts.length) := by
    simp
  rw [he]
  by_cases hx : (decide (e ≠ B.insts.length) || B.succs.isEmpty) = true
  · rw [if_pos hx] at h ⊢
    simp only at h
    simp only [hx, Bool.not_true, Bool.false_eq_true, if_false, h]
    cases MF.blocks[b1]? with
    | none => rfl
    | some B1 =>
      simp only
      cases computeEnd R R.Entry_ b1 B1.insts 0 <;> rfl
  · rw [if_neg hx] at h ⊢
    have hx2 : (decide (e ≠ B.insts.length) || B.succs.isEmpty) = false := by
      simpa using hx
    simp only [hx2, Bool.not_false, if_true, h]
    cases MF.blocks[b1]? with
    | none => rfl
    | some B1 =>
      simp only
      cases computeEnd R R.Entry_ b1 B1.insts 0 <;> rfl

/-- One step of the worklist search that describes the iterator. -/
theorem regionTrace_cons (MF : MachineFunction) (R : IdempotentRegion) (fd b1 : Nat)
    (W1 V1 : List Nat) :
    dfsTrace (regionStop MF R) (regionNbrs MF) (fd + 1) (b1 :: W1) V1 =
      match regionEnd MF R b1 with
      | none => none
      | some e1 =>
        (dfsTrace (regionStop MF R) (regionNbrs MF) fd (regionPushed MF b1 e1 W1 V1).1
          (regionPushed MF b1 e1 W1 V1).2).map (fun tr => b1 :: tr) := by
  rw [dfsTrace]
  cases hr : regionEnd MF R b1 with
  | none =>
    have hs : regionStop MF R b1 = none := by
      unfold regionStop
      rw [hr]
      cases MF.blocks[b1]? <;> rfl
    rw [hs]
  | some e1 =>
    obtain ⟨B1, hB⟩ := regionEnd_block MF R b1 e1 hr
    have hs : regionStop MF R b1 =
        some (decide (e1 ≠ B1.insts.length) || B1.succs.isEmpty) := by
      unfold regionStop
      rw [hB, hr]
    have hp : regionPushed MF b1 e1 W1 V1 =
        if (decide (e1 ≠ B1.insts.length) || B1.succs.isEmpty) = true then (W1, V1)
        else pushSuccs (regionNbrs MF b1) W1 V1 := by
      unfold regionPushed regionNbrs
      rw [hB]
    rw [hs]
    simp only
    rw [hp]
    generalize (if (decide (e1 ≠ B1.insts.length) || B1.succs.isEmpty) = true then (W1, V1)
        else pushSuccs (regionNbrs MF b1) W1 V1) = pushed
    generalize dfsTrace (regionStop MF R) (regionNbrs MF) fd pushed.1 pushed.2 = r
    cases r <;> rfl

end Ratchet

namespace Ratchet

/-! ## The instruction iterator of a region and the worklist search -/

theorem rangePositions_cons (b i e : Nat) (h : i < e) :
    rangePositions b i e = ⟨b, i⟩ :: rangePositions b (i + 1) e := by
  unfold rangePositions
  have : e - i = (e - (i + 1)) + 1 := by omega
  rw [this, List.range'_succ]
  rfl

theorem rangePositions_nil (b i e : Nat) (h : e ≤ i) : rangePositions b i e = [] := by
  unfold rangePositions
  have : e - i = 0 := by omega
  rw [this]
  rfl

theorem mem_rangePositions (b i e : Nat) (p : InstPos) :
    p ∈ rangePositions b i e ↔ p.bb = b ∧ i ≤ p.idx ∧ p.idx < e := by
  unfold rangePositions
  simp only [List.mem_map, List.mem_range'_1]
  constructor
  · rintro ⟨k, ⟨h1, h2⟩, rfl⟩
    exact ⟨rfl, h1, by simp only; omega⟩
  · rintro ⟨h1, h2, h3⟩
    refine ⟨p.idx, ⟨h2, by omega⟩, ?_⟩
    cases p
    simp only at h1
    rw [h1]

theorem regionEndD_of (MF : MachineFunction) (R : IdempotentRegion) (b e : Nat)
    (h : regionEnd MF R b = some e) : regionEndD MF R b = e := by
  simp [regionEndD, h]

theorem regionEnd_le (MF : MachineFunction) (R : IdempotentRegion) (b e : Nat)
    (B : MachineBasicBlock) (hB : MF.blocks[b]? = some B) (h : regionEnd MF R b = some e) :
    e ≤ B.insts.length := by
  unfold regionEnd at h
  rw [hB] at h
  exact (computeEnd_spec MF R b B hB B.insts.length 0 e (by omega) (by simpa using h)).2.1

theorem regionPushed_measure (MF : MachineFunction)
    (hsv : ∀ (b : Nat) (B : MachineBasicBlock), MF.blocks[b]? = some B →
      ∀ s ∈ B.succs, s < MF.blocks.length)
    (b e : Nat) (W V : List Nat) :
    (regionPushed MF b e W V).1.length + unvisited MF.blocks.length (regionPushed MF b e W V).2 ≤
      W.length + unvisited MF.blocks.length V := by
  unfold regionPushed
  cases hB : MF.blocks[b]? with
  | none => exact Nat.le_refl _
  | some B =>
    simp only
    by_cases hx : (decide (e ≠ B.insts.length) || B.succs.isEmpty) = true
    · rw [if_pos hx]
    · rw [if_neg hx]
      exact pushSuccs_measure _ _ _ _ (hsv b B hB)

/-- The loop of `operator++` of the instruction iterator when the worklist
search returns: it skips the blocks with an empty range and stops at the first
block with an instruction, or at the end of the search. -/
theorem nextNonEmptyRange_some (MF : MachineFunction) (R : IdempotentRegion) :
    ∀ (fd b : Nat) (B : MachineBasicBlock), MF.blocks[b]? = some B →
    ∀ (start : InstPos) (e : Nat) (W V tr : List Nat) (n : Nat) (it en : InstPos),
      dfsTrace (regionStop MF R) (regionNbrs MF) fd (regionPushed MF b e W V).1
        (regionPushed MF b e W V).2 = some tr →
      tr.length < n →
      ∃ I1, nextNonEmptyRange MF n ⟨regionIt R b start e W V, it, en⟩ = some I1 ∧
        ((I1.MBBIterator_.Valid_ = false ∧ ∀ x ∈ tr, regionEndD MF R x = 0) ∨
          ∃ pre b1 tr1 e1 W1 V1 fd1, tr = pre ++ b1 :: tr1 ∧
            (∀ x ∈ pre, regionEndD MF R x = 0) ∧ regionEnd MF R b1 = some e1 ∧ 0 < e1 ∧
            I1 = ⟨regionIt R b1 ⟨b1, 0⟩ e1 W1 V1, ⟨b1, 0⟩, ⟨b1, e1⟩⟩ ∧
            dfsTrace (regionStop MF R) (regionNbrs MF) fd1 (regionPushed MF b1 e1 W1 V1).1
              (regionPushed MF b1 e1 W1 V1).2 = some tr1) := by
  intro fd
  induction fd with
  | zero =>
    intro b B _ start e W V tr n it en h
    simp [dfsTrace] at h
  | succ fd ih =>
    intro b B hB start e W V tr n it en h hn
    cases n with
    | zero => omega
    | succ n =>
      cases hp : (regionPushed MF b e W V).1 with
      | nil =>
        rw [hp] at h
        simp only [dfsTrace, Option.some.injEq] at h
        subst h
        obtain ⟨It1, hIt1, hv⟩ := next_nil MF R b B hB start e W V hp
        refine ⟨⟨It1, it, en⟩, ?_, Or.inl ⟨hv, by simp⟩⟩
        unfold nextNonEmptyRange
        simp only [hIt1, hv, if_true]
      | cons b1 W1 =>
        rw [hp, regionTrace_cons] at h
        have hnext := next_cons MF R b B hB start e W V b1 W1 hp
        cases hr : regionEnd MF R b1 with
        | none =>
          rw [hr] at h
          cases h
        | some e1 =>
          rw [hr] at h hnext
          simp only [Option.map_some'] at hnext
          simp only at h
          cases hd : dfsTrace (regionStop MF R) (regionNbrs MF) fd
              (regionPushed MF b1 e1 W1 (regionPushed MF b e W V).2).1
              (regionPushed MF b1 e1 W1 (regionPushed MF b e W V).2).2 with
          | none =>
            rw [hd] at h
            cases h
          | some tr1 =>
            rw [hd] at h
            simp only [Option.map_some', Option.some.injEq] at h
            subst h
            obtain ⟨B1, hB1⟩ := regionEnd_block MF R b1 e1 hr
            by_cases he : e1 = 0
            · subst he
              obtain ⟨I1, hI1, hcase⟩ := ih b1 B1 hB1 ⟨b1, 0⟩ 0 W1 (regionPushed MF b e W V).2
                tr1 n ⟨b1, 0⟩ ⟨b1, 0⟩ hd (by simp only [List.length_cons] at hn; omega)
              refine ⟨I1, ?_, ?_⟩
              · rw [nextNonEmptyRange]
                simp only [hnext]
                simp only [regionIt, Bool.true_eq_false, if_false, if_true]
                exact hI1
              · rcases hcase with ⟨h1, h2⟩ | ⟨pre, b2, tr2, e2, W2, V2, fd2, h1, h2, h3, h4, h5, h6⟩
                · refine Or.inl ⟨h1, ?_⟩
                  intro x hx
                  rcases List.mem_cons.mp hx with e | hx
                  · rw [e]
                    exact regionEndD_of MF R b1 0 hr
                  · exact h2 x hx
                · refine Or.inr ⟨b1 :: pre, b2, tr2, e2, W2, V2, fd2, by rw [h1]; rfl, ?_, h3, h4,
                    h5, h6⟩
                  intro x hx
                  rcases List.mem_cons.mp hx with e | hx
                  · rw [e]
                    exact regionEndD_of MF R b1 0 hr
                  · exact h2 x hx
            · refine ⟨⟨regionIt R b1 ⟨b1, 0⟩ e1 W1 (regionPushed MF b e W V).2, ⟨b1, 0⟩, ⟨b1, e1⟩⟩,
                ?_, Or.inr ⟨[], b1, tr1, e1, W1, _, fd, rfl, by simp, hr, by omega, rfl, hd⟩⟩
              rw [nextNonEmptyRange]
              simp only [hnext]
              have hne : ¬ ((⟨b1, 0⟩ : InstPos) = ⟨b1, e1⟩) := by
                intro h
                have := congrArg InstPos.idx h
                simp only at this
                omega
              simp only [regionIt, Bool.true_eq_false, if_false, hne]

/-- The loop of `operator++` of the instruction iterator when the worklist
search aborts: it aborts, or stops before at a block with an instruction. -/
theorem nextNonEmptyRange_none (MF : MachineFunction) (R : IdempotentRegion)
    (hsv : ∀ (b : Nat) (B : MachineBasicBlock), MF.blocks[b]? = some B →
      ∀ s ∈ B.succs, s < MF.blocks.length) :
    ∀ (fd b : Nat) (B : MachineBasicBlock), MF.blocks[b]? = some B →
    ∀ (start : InstPos) (e : Nat) (W V : List Nat) (n : Nat) (it en : InstPos),
      dfsTrace (regionStop MF R) (regionNbrs MF) fd (regionPushed MF b e W V).1
        (regionPushed MF b e W V).2 = none →
      (regionPushed MF b e W V).1.length +
        unvisited MF.blocks.length (regionPushed MF b e W V).2 < fd →
      nextNonEmptyRange MF n ⟨regionIt R b start e W V, it, en⟩ = none ∨
        ∃ b1 e1 W1 V1 fd1 B1,
          nextNonEmptyRange MF n ⟨regionIt R b start e W V, it, en⟩ =
            some ⟨regionIt R b1 ⟨b1, 0⟩ e1 W1 V1, ⟨b1, 0⟩, ⟨b1, e1⟩⟩ ∧
          MF.blocks[b1]? = some B1 ∧ regionEnd MF R b1 = some e1 ∧ 0 < e1 ∧
          dfsTrace (regionStop MF R) (regionNbrs MF) fd1 (regionPushed MF b1 e1 W1 V1).1
            (regionPushed MF b1 e1 W1 V1).2 = none ∧
          (regionPushed MF b1 e1 W1 V1).1.length +
            unvisited MF.blocks.length (regionPushed MF b1 e1 W1 V1).2 < fd1 := by
  intro fd
  induction fd with
  | zero =>
    intro b B _ start e W V n it en _ hm
    omega
  | succ fd ih =>
    intro b B hB start e W V n it en h hm
    cases n with
    | zero => exact Or.inl rfl
    | succ n =>
      cases hp : (regionPushed MF b e W V).1 with
      | nil =>
        rw [hp] at h
        simp [dfsTrace] at h
      | cons b1 W1 =>
        rw [hp, regionTrace_cons] at h
        rw [hp] at hm
        have hnext := next_cons MF R b B hB start e W V b1 W1 hp
        cases hr : regionEnd MF R b1 with
        | none =>
          rw [hr] at hnext
          simp only [Option.map_none'] at hnext
          left
          rw [nextNonEmptyRange]
          simp only [hnext]
        | some e1 =>
          rw [hr] at h hnext
          simp only [Option.map_some'] at hnext
          simp only [Option.map_eq_none'] at h
          obtain ⟨B1, hB1⟩ := regionEnd_block MF R b1 e1 hr
          have hm1 := regionPushed_measure MF hsv b1 e1 W1 (regionPushed MF b e W V).2
          simp only [List.length_cons] at hm
          by_cases he : e1 = 0
          · subst he
            have hrec := ih b1 B1 hB1 ⟨b1, 0⟩ 0 W1 (regionPushed MF b e W V).2 n ⟨b1, 0⟩ ⟨b1, 0⟩
              h (by omega)
            have heq : nextNonEmptyRange MF (n + 1) ⟨regionIt R b start e W V, it, en⟩ =
                nextNonEmptyRange MF n
                  ⟨regionIt R b1 ⟨b1, 0⟩ 0 W1 (regionPushed MF b e W V).2, ⟨b1, 0⟩, ⟨b1, 0⟩⟩ := by
              rw [nextNonEmptyRange]
              simp only [hnext]
              simp only [regionIt, Bool.true_eq_false, if_false, if_true]
            rw [heq]
            exact hrec
          · right
            refine ⟨b1, e1, W1, _, fd, B1, ?_, hB1, hr, by omega, h, by omega⟩
            rw [nextNonEmptyRange]
            simp only [hnext]
            have hne : ¬ ((⟨b1, 0⟩ : InstPos) = ⟨b1, e1⟩) := by
              intro h
              have := congrArg InstPos.idx h
              simp only at this
              omega
            simp only [regionIt, Bool.true_eq_false, if_false, hne]

theorem inst_next (MF : MachineFunction) (R : IdempotentRegion) (b : Nat)
    (B : MachineBasicBlock) (hB : MF.blocks[b]? = some B) (start : InstPos) (e : Nat)
    (W V : List Nat) (i : Nat) (hi : i < B.insts.length) :
    dfs_inst_iterator.next MF ⟨regionIt R b start e W V, ⟨b, i⟩, ⟨b, e⟩⟩ =
      if i + 1 = e then
        nextNonEmptyRange MF (MF.blocks.length + 2) ⟨regionIt R b start e W V, ⟨b, i + 1⟩, ⟨b, e⟩⟩
      else some ⟨regionIt R b start e W V, ⟨b, i + 1⟩, ⟨b, e⟩⟩ := by
  unfold dfs_inst_iterator.next
  have hv : (regionIt R b start e W V).Valid_ = true := rfl
  have hinst : MF.inst? ⟨b, i⟩ = some B.insts[i] := by
    rw [minst?_eq MF b i B hB, List.getElem?_eq_getElem hi]
  simp only [hv, Bool.true_eq_false, if_false, hinst, InstPos.mk.injEq, true_and]

theorem instList_invalid (MF : MachineFunction) (fuel : Nat) (I : dfs_inst_iterator)
    (h : I.MBBIterator_.Valid_ = false) : instList MF (fuel + 1) I = some [] := by
  rw [instList]
  simp [h]

theorem instList_valid (MF : MachineFunction) (fuel : Nat) (I : dfs_inst_iterator)
    (h : I.MBBIterator_.Valid_ = true) :
    instList MF (fuel + 1) I =
      match I.next MF with
      | none => none
      | some I1 =>
        match instList MF fuel I1 with
        | none => none
        | some Insts => some (I.It_ :: Insts) := by
  rw [instList]
  simp only [h, if_true]
  all_goals
    cases dfs_inst_iterator.next MF I with
    | none => rfl
    | some I1 =>
      simp only
      cases instList MF fuel I1 <;> rfl

theorem flatMap_empty_ranges (MF : MachineFunction) (R : IdempotentRegion) (l : List Nat)
    (h : ∀ x ∈ l, regionEndD MF R x = 0) :
    l.flatMap (fun x => rangePositions x 0 (regionEndD MF R x)) = [] := by
  induction l with
  | nil => rfl
  | cons a l ih =>
    rw [List.flatMap_cons, ih (fun x hx => h x (List.mem_cons_of_mem _ hx)),
      h a (List.mem_cons_self _ _)]
    rfl

theorem sum_empty_ranges (MF : MachineFunction) (R : IdempotentRegion) (l : List Nat)
    (h : ∀ x ∈ l, regionEndD MF R x = 0) : (l.map (regionEndD MF R)).sum = 0 := by
  induction l with
  | nil => rfl
  | cons a l ih =>
    rw [List.map_cons, List.sum_cons, ih (fun x hx => h x (List.mem_cons_of_mem _ hx)),
      h a (List.mem_cons_self _ _)]

/-- The instructions that the instruction iterator yields when the worklist
search returns: the rest of the current range, then the ranges of the blocks
of the search. -/
theorem instList_some (MF : MachineFunction) (R : IdempotentRegion) :
    ∀ (fuel b : Nat) (B : MachineBasicBlock), MF.blocks[b]? = some B →
    ∀ (start : InstPos) (e : Nat) (W V : List Nat) (fd : Nat) (tr : List Nat) (i : Nat),
      i < e → e ≤ B.insts.length →
      dfsTrace (regionStop MF R) (regionNbrs MF) fd (regionPushed MF b e W V).1
        (regionPushed MF b e W V).2 = some tr →
      tr.length < MF.blocks.length + 2 →
      (e - i) + (tr.map (regionEndD MF R)).sum < fuel →
      instList MF fuel ⟨regionIt R b start e W V, ⟨b, i⟩, ⟨b, e⟩⟩ =
        some (rangePositions b i e ++
          tr.flatMap (fun x => rangePositions x 0 (regionEndD MF R x))) := by
  intro fuel
  induction fuel with
  | zero => intro b B _ start e W V fd tr i _ _ _ _ hf; omega
  | succ fuel ih =>
    intro b B hB start e W V fd tr i hie he hd hlen hf
    rw [instList_valid MF fuel _ rfl, inst_next MF R b B hB start e W V i (by omega)]
    simp only
    rw [rangePositions_cons b i e hie]
    by_cases hend : i + 1 = e
    · rw [if_pos hend]
      obtain ⟨I1, hI1, hcase⟩ := nextNonEmptyRange_some MF R fd b B hB start e W V tr
        (MF.blocks.length + 2) ⟨b, i + 1⟩ ⟨b, e⟩ hd hlen
      rw [hI1]
      simp only
      rw [rangePositions_nil b (i + 1) e (by omega)]
      rcases hcase with ⟨h1, h2⟩ | ⟨pre, b1, tr1, e1, W1, V1, fd1, h1, h2, h3, h4, h5, h6⟩
      · cases fuel with
        | zero =>
          rw [sum_empty_ranges MF R tr h2] at hf
          omega
        | succ fuel =>
          rw [instList_invalid MF fuel I1 h1, flatMap_empty_ranges MF R tr h2]
          rfl
      · obtain ⟨B1, hB1⟩ := regionEnd_block MF R b1 e1 h3
        have hsum : (tr.map (regionEndD MF R)).sum = e1 + (tr1.map (regionEndD MF R)).sum := by
          rw [h1, List.map_append, List.sum_append, sum_empty_ranges MF R pre h2, List.map_cons,
            List.sum_cons, regionEndD_of MF R b1 e1 h3]
          omega
        have hlen1 : tr1.length < MF.blocks.length + 2 := by
          rw [h1] at hlen
          simp only [List.length_append, List.length_cons] at hlen
          omega
        have hrec := ih b1 B1 hB1 ⟨b1, 0⟩ e1 W1 V1 fd1 tr1 0 h4
          (regionEnd_le MF R b1 e1 B1 hB1 h3) h6 hlen1 (by omega)
        rw [h5, hrec]
        simp only [Option.some.injEq, List.cons.injEq, true_and, List.nil_append]
        rw [h1, List.flatMap_append, flatMap_empty_ranges MF R pre h2, List.flatMap_cons,
          regionEndD_of MF R b1 e1 h3]
        rfl
    · rw [if_neg hend]
      simp only
      have hrec := ih b B hB start e W V fd tr (i + 1) (by omega) he hd hlen (by omega)
      rw [hrec]
      rfl

/-- The instruction iterator aborts when the worklist search aborts. -/
theorem instList_none (MF : MachineFunction) (R : IdempotentRegion)
    (hsv : ∀ (b : Nat) (B : MachineBasicBlock), MF.blocks[b]? = some B →
      ∀ s ∈ B.succs, s < MF.blocks.length) :
    ∀ (fuel b : Nat) (B : MachineBasicBlock), MF.blocks[b]? = some B →
    ∀ (start : InstPos) (e : Nat) (W V : List Nat) (fd : Nat) (i : Nat),
      i < e → e ≤ B.insts.length →
      dfsTrace (regionStop MF R) (regionNbrs MF) fd (regionPushed MF b e W V).1
        (regionPushed MF b e W V).2 = none →
      (regionPushed MF b e W V).1.length +
        unvisited MF.blocks.length (regionPushed MF b e W V).2 < fd →
      instList MF fuel ⟨regionIt R b start e W V, ⟨b, i⟩, ⟨b, e⟩⟩ = none := by
  intro fuel
  induction fuel with
  | zero => intro b B _ start e W V fd i _ _ _ _; rfl
  | succ fuel ih =>
    intro b B hB start e W V fd i hie he hd hm
    rw [instList_valid MF fuel _ rfl, inst_next MF R b B hB start e W V i (by omega)]
    by_cases hend : i + 1 = e
    · rw [if_pos hend]
      rcases nextNonEmptyRange_none MF R hsv fd b B hB start e W V (MF.blocks.length + 2)
        ⟨b, i + 1⟩ ⟨b, e⟩ hd hm with h | ⟨b1, e1, W1, V1, fd1, B1, h1, h2, h3, h4, h5, h6⟩
      · rw [h]
      · rw [h1]
        simp only
        rw [ih b1 B1 h2 ⟨b1, 0⟩ e1 W1 V1 fd1 0 h4 (regionEnd_le MF R b1 e1 B1 h2 h3) h5 h6]
    · rw [if_neg hend]
      simp only
      rw [ih b B hB start e W V fd (i + 1) (by omega) he hd hm]

end Ratchet

namespace Ratchet

/-! ## Paths that avoid positions -/

theorem mem_dropLast_or_getLast {α : Type} (l : List α) (a x : α) (h : l.getLast? = some a)
    (hx : x ∈ l) : x ∈ l.dropLast ∨ x = a := by
  have hne : l ≠ [] := by
    intro e
    rw [e] at h
    cases h
  have hl := List.dropLast_append_getLast hne
  rw [List.getLast?_eq_getLast l hne] at h
  have ha : l.getLast hne = a := Option.some.inj h
  rw [← hl, List.mem_append, List.mem_singleton, ha] at hx
  exact hx

theorem avoidPath_single (G : Cfg) (bad : InstPos → Bool) (src q : InstPos)
    (h : Step G src q) : AvoidPath G bad src q :=
  ⟨[q], List.Chain'.cons h (List.chain'_singleton _), rfl, by intro p hp; cases hp⟩

theorem avoidPath_step (G : Cfg) (bad : InstPos → Bool) (src p q : InstPos)
    (h : AvoidPath G bad src p) (hp : bad p = false) (hs : Step G p q) :
    AvoidPath G bad src q := by
  obtain ⟨rest, h1, h2, h3⟩ := h
  refine ⟨rest ++ [q], ?_, by simp, ?_⟩
  · have hc : List.Chain' (Step G) ((src :: rest) ++ [q]) := by
      rw [List.chain'_append]
      refine ⟨h1, List.chain'_singleton _, ?_⟩
      intro x hx y hy
      have hne : rest ≠ [] := by
        intro e
        rw [e] at h2
        cases h2
      have hl : (src :: rest).getLast? = some p := by
        cases rest with
        | nil => exact absurd rfl hne
        | cons r rs => rw [List.getLast?_cons_cons]; exact h2
      rw [hl] at hx
      simp only [Option.mem_def, Option.some.injEq] at hx
      simp only [List.head?_cons, Option.mem_def, Option.some.injEq] at hy
      subst hx hy
      exact hs
    exact hc
  · intro x hx
    rw [List.dropLast_concat] at hx
    rcases mem_dropLast_or_getLast rest p x h2 hx with h | h
    · exact h3 x h
    · rw [h]
      exact hp

theorem avoidPath_all (G : Cfg) (bad : InstPos → Bool) (src dst : InstPos)
    (h : AvoidPath G bad src dst) (hd : bad dst = false) :
    ∃ rest, IsPath G (src :: rest) ∧ rest.getLast? = some dst ∧ ∀ p ∈ rest, bad p = false := by
  obtain ⟨rest, h1, h2, h3⟩ := h
  refine ⟨rest, h1, h2, ?_⟩
  intro x hx
  rcases mem_dropLast_or_getLast rest dst x h2 hx with h | h
  · exact h3 x h
  · rw [h]
    exact hd

theorem avoidPath_of_all (G : Cfg) (bad : InstPos → Bool) (src dst : InstPos)
    (rest : List InstPos) (h1 : IsPath G (src :: rest)) (h2 : rest.getLast? = some dst)
    (h3 : ∀ p ∈ rest, bad p = false) : AvoidPath G bad src dst :=
  ⟨rest, h1, h2, fun p hp => h3 p (List.mem_of_mem_dropLast hp)⟩

/-- A path goes on through the positions of a block that are not `bad`. -/
theorem avoidPath_range (G : Cfg) (bad : InstPos → Bool) (src : InstPos) (b : Nat)
    (B : CfgBlock) (hB : G[b]? = some B) (i : Nat) (h : AvoidPath G bad src ⟨b, i⟩) :
    ∀ j, i ≤ j → j ≤ B.len → (∀ k, i ≤ k → k < j → bad ⟨b, k⟩ = false) →
      AvoidPath G bad src ⟨b, j⟩ := by
  intro j
  induction j with
  | zero =>
    intro h1 _ _
    have : i = 0 := by omega
    subst this
    exact h
  | succ j ih =>
    intro h1 h2 h3
    by_cases e : i = j + 1
    · subst e
      exact h
    · have hj := ih (by omega) (by omega) (fun k hk1 hk2 => h3 k hk1 (by omega))
      exact avoidPath_step G bad src ⟨b, j⟩ ⟨b, j + 1⟩ hj (h3 j (by omega) (by omega))
        (Step.next b j B hB (by omega))

/-- The same from the source of the path. -/
theorem avoidPath_range_src (G : Cfg) (bad : InstPos → Bool) (b : Nat)
    (B : CfgBlock) (hB : G[b]? = some B) (i : Nat) :
    ∀ j, i < j → j ≤ B.len → (∀ k, i < k → k < j → bad ⟨b, k⟩ = false) →
      AvoidPath G bad ⟨b, i⟩ ⟨b, j⟩ := by
  intro j h1 h2 h3
  have h0 : AvoidPath G bad ⟨b, i⟩ ⟨b, i + 1⟩ :=
    avoidPath_single G bad _ _ (Step.next b i B hB (by omega))
  exact avoidPath_range G bad ⟨b, i⟩ b B hB (i + 1) h0 j (by omega) h2
    (fun k hk1 hk2 => h3 k (by omega) hk2)

/-! ## An invariant of the worklist search -/

/-- A property of the blocks of the worklist that passes from a scanned block
to its neighbours when the walk goes on holds for all scanned blocks. -/
theorem dfsTrace_invariant (stop : Nat → Option Bool) (nbrs : Nat → List Nat) (P : Nat → Prop)
    (hP : ∀ b, P b → stop b = some false → ∀ p ∈ nbrs b, P p) :
    ∀ (fuel : Nat) (Worklist Visited tr : List Nat),
      dfsTrace stop nbrs fuel Worklist Visited = some tr →
      (∀ b ∈ Worklist, P b) → ∀ b ∈ tr, P b := by
  intro fuel
  induction fuel with
  | zero => intro _ _ _ h; simp [dfsTrace] at h
  | succ fuel ih =>
    intro Worklist Visited tr h hW
    cases Worklist with
    | nil =>
      simp only [dfsTrace] at h
      cases h
      simp
    | cons b Worklist =>
      simp only [dfsTrace] at h
      cases hs : stop b with
      | none => simp [hs] at h
      | some s =>
        rw [hs] at h
        simp only at h
        cases hrec : dfsTrace stop nbrs fuel
            (if s = true then (Worklist, Visited) else pushSuccs (nbrs b) Worklist Visited).1
            (if s = true then (Worklist, Visited) else pushSuccs (nbrs b) Worklist Visited).2 with
        | none => simp [hrec] at h
        | some tr' =>
          rw [hrec] at h
          simp only [Option.some.injEq] at h
          subst h
          have hb : P b := hW b (List.mem_cons_self _ _)
          have hW' : ∀ x ∈ Worklist, P x := fun x hx => hW x (List.mem_cons_of_mem _ hx)
          intro x hx
          rcases List.mem_cons.mp hx with e | hx
          · rw [e]
            exact hb
          · apply ih _ _ _ hrec _ x hx
            intro y hy
            cases s with
            | true =>
              simp only [if_true] at hy
              exact hW' y hy
            | false =>
              simp only [Bool.false_eq_true, if_false] at hy
              rcases (mem_pushSuccs_wl _ _ _ _).mp hy with h1 | h1
              · exact hW' y h1
              · exact hP b hb hs y h1.1

/-! ## Sums over scanned blocks -/

theorem sum_map_le_of_nodup (f : Nat → Nat) (n : Nat) (l : List Nat) (hnd : l.Nodup)
    (hb : ∀ x ∈ l, x < n) : (l.map f).sum ≤ ((List.range n).map f).sum := by
  have h1 : (l.map f).sum = l.toFinset.sum f := (List.sum_toFinset f hnd).symm
  have h2 : ((List.range n).map f).sum = (Finset.range n).sum f := by
    rw [← List.sum_toFinset f (List.nodup_range n)]
    congr 1
    ext x
    simp
  rw [h1, h2]
  apply Finset.sum_le_sum_of_subset
  intro x hx
  simp only [List.mem_toFinset] at hx
  simp only [Finset.mem_range]
  exact hb x hx

theorem size_eq_sum (MF : MachineFunction) :
    MF.size = ((List.range MF.blocks.length).map MF.blockLen).sum := by
  unfold MachineFunction.size
  congr 1
  apply List.ext_getElem
  · simp
  · intro i h1 h2
    simp only [List.getElem_map, List.getElem_range, MachineFunction.blockLen]
    simp only [List.length_map] at h1
    rw [List.getElem?_eq_getElem h1]

theorem blockLen_le_size (MF : MachineFunction) (b : Nat) : MF.blockLen b ≤ MF.size := by
  by_cases hb : b < MF.blocks.length
  · have := sum_map_le_of_nodup MF.blockLen MF.blocks.length [b] (by simp) (by simpa using hb)
    rw [← size_eq_sum] at this
    simpa using this
  · simp only [MachineFunction.blockLen]
    rw [List.getElem?_eq_none (by omega)]
    exact Nat.zero_le _

end Ratchet

namespace Ratchet

/-! ## The instructions of a region -/

theorem mcfg_getElem? (MF : MachineFunction) (b : Nat) :
    MF.cfg[b]? = (MF.blocks[b]?).map (fun B => ⟨B.insts.length, B.preds, B.succs⟩) := by
  simp [MachineFunction.cfg, List.getElem?_map]

theorem mcfg_of_block (MF : MachineFunction) (b : Nat) (B : MachineBasicBlock)
    (hB : MF.blocks[b]? = some B) :
    MF.cfg[b]? = some ⟨B.insts.length, B.preds, B.succs⟩ := by
  rw [mcfg_getElem?, hB]
  rfl

theorem mblock_of_cfg (MF : MachineFunction) (b : Nat) (C : CfgBlock)
    (hC : MF.cfg[b]? = some C) :
    ∃ B, MF.blocks[b]? = some B ∧ C = ⟨B.insts.length, B.preds, B.succs⟩ := by
  rw [mcfg_getElem?] at hC
  cases hB : MF.blocks[b]? with
  | none => rw [hB] at hC; cases hC
  | some B =>
    rw [hB] at hC
    simp only [Option.map_some', Option.some.injEq] at hC
    exact ⟨B, rfl, hC.symm⟩

theorem mblock_of_lt (MF : MachineFunction) (b : Nat) (hb : b < MF.blocks.length) :
    ∃ B, MF.blocks[b]? = some B := ⟨MF.blocks[b], List.getElem?_eq_getElem hb⟩

theorem mlt_of_block (MF : MachineFunction) (b : Nat) (B : MachineBasicBlock)
    (hB : MF.blocks[b]? = some B) : b < MF.blocks.length := by
  by_contra h
  rw [List.getElem?_eq_none (by omega)] at hB
  cases hB

theorem mblockLen_eq (MF : MachineFunction) (b : Nat) (B : MachineBasicBlock)
    (hB : MF.blocks[b]? = some B) : MF.blockLen b = B.insts.length := by
  simp [MachineFunction.blockLen, hB]

theorem entry_lt (MF : MachineFunction) (R : IdempotentRegion) (B : MachineBasicBlock)
    (hB : MF.blocks[R.Entry_.bb]? = some B) (EI : MachineInstr)
    (hE : MF.inst? R.Entry_ = some EI) : R.Entry_.idx < B.insts.length := by
  rw [MachineFunction.inst?, hB] at hE
  simp only at hE
  by_contra h
  rw [List.getElem?_eq_none (by omega)] at hE
  cases hE

theorem entry_block (MF : MachineFunction) (R : IdempotentRegion) (EI : MachineInstr)
    (hE : MF.inst? R.Entry_ = some EI) : ∃ B, MF.blocks[R.Entry_.bb]? = some B := by
  rw [MachineFunction.inst?] at hE
  cases hB : MF.blocks[R.Entry_.bb]? with
  | none => rw [hB] at hE; cases hE
  | some B => exact ⟨B, rfl⟩

theorem entry_exitAt (MF : MachineFunction) (R : IdempotentRegion) (EI : MachineInstr)
    (hE : MF.inst? R.Entry_ = some EI) (hEb : EI.isIdemBoundary = true) :
    MF.exitAt R.Entry_ = true := by
  simp [MachineFunction.exitAt, hE, hEb]

theorem inst_begin_eq (MF : MachineFunction) (R : IdempotentRegion) (B : MachineBasicBlock)
    (hB : MF.blocks[R.Entry_.bb]? = some B) (EI : MachineInstr)
    (hE : MF.inst? R.Entry_ = some EI) :
    R.inst_begin MF =
      some ⟨regionIt R R.Entry_.bb R.Entry_ (regionEnd0 MF R) [] [],
        ⟨R.Entry_.bb, R.Entry_.idx⟩, ⟨R.Entry_.bb, regionEnd0 MF R⟩⟩ := by
  unfold IdempotentRegion.inst_begin IdempotentRegion.mbb_begin dfs_mbb_iterator.init
  rw [hB, hE]
  simp only [decide_True, Bool.or_true, if_true]
  unfold regionIt regionEnd0
  rw [hB]

theorem regionEndD_le (MF : MachineFunction) (R : IdempotentRegion) (b : Nat) :
    regionEndD MF R b ≤ MF.blockLen b := by
  unfold regionEndD
  cases hr : regionEnd MF R b with
  | none => exact Nat.zero_le _
  | some e =>
    obtain ⟨B, hB⟩ := regionEnd_block MF R b e hr
    rw [mblockLen_eq MF b B hB]
    exact regionEnd_le MF R b e B hB hr

theorem regionStop_some (MF : MachineFunction) (R : IdempotentRegion) (b : Nat) (s : Bool)
    (h : regionStop MF R b = some s) :
    ∃ B e, MF.blocks[b]? = some B ∧ regionEnd MF R b = some e ∧
      s = (decide (e ≠ B.insts.length) || B.succs.isEmpty) := by
  unfold regionStop at h
  cases hB : MF.blocks[b]? with
  | none => rw [hB] at h; cases h
  | some B =>
    cases hr : regionEnd MF R b with
    | none => rw [hB, hr] at h; cases h
    | some e =>
      rw [hB, hr] at h
      simp only [Option.some.injEq] at h
      exact ⟨B, e, rfl, rfl, h.symm⟩

theorem regionStop_false (MF : MachineFunction) (R : IdempotentRegion) (b : Nat)
    (B : MachineBasicBlock) (hB : MF.blocks[b]? = some B)
    (h : regionStop MF R b = some false) :
    regionEnd MF R b = some B.insts.length := by
  obtain ⟨B1, e, h1, h2, h3⟩ := regionStop_some MF R b false h
  rw [hB] at h1
  cases h1
  have : e = B.insts.length := by
    by_contra hne
    simp [hne] at h3
  rw [h2, this]

theorem regionStop_of_end (MF : MachineFunction) (R : IdempotentRegion) (b s : Nat)
    (B : MachineBasicBlock) (hB : MF.blocks[b]? = some B)
    (h : regionEnd MF R b = some B.insts.length) (hs : s ∈ B.succs) :
    regionStop MF R b = some false := by
  unfold regionStop
  rw [hB, h]
  have : B.succs.isEmpty = false := by
    cases hsu : B.succs with
    | nil => rw [hsu] at hs; cases hs
    | cons a l => rfl
  simp [this]

theorem regionEnd_clean (MF : MachineFunction) (R : IdempotentRegion) (b e : Nat)
    (B : MachineBasicBlock) (hB : MF.blocks[b]? = some B) (h : regionEnd MF R b = some e) :
    (∀ k, k < e → MF.exitAt ⟨b, k⟩ = false) ∧
      (e < B.insts.length → MF.exitAt ⟨b, e⟩ = true) := by
  unfold regionEnd at h
  rw [hB] at h
  obtain ⟨_, _, h3, h4⟩ := computeEnd_spec MF R b B hB B.insts.length 0 e (by omega)
    (by simpa using h)
  exact ⟨fun k hk => (h3 k (Nat.zero_le _) hk).1, fun hlt => (h4 hlt).1⟩

/-- The worklist after the first range: the successors of the block of the
entry when the range reaches the end of the block. -/
theorem mem_pushed0 (MF : MachineFunction) (R : IdempotentRegion) (B : MachineBasicBlock)
    (hB : MF.blocks[R.Entry_.bb]? = some B) (x : Nat) :
    x ∈ (regionPushed MF R.Entry_.bb (regionEnd0 MF R) [] []).1 ↔
      regionEnd0 MF R = B.insts.length ∧ x ∈ B.succs := by
  unfold regionPushed
  rw [hB]
  simp only
  by_cases hx : (decide (regionEnd0 MF R ≠ B.insts.length) || B.succs.isEmpty) = true
  · rw [if_pos hx]
    simp only [List.not_mem_nil, false_iff, not_and]
    intro he hs
    simp only [he, ne_eq, not_true_eq_false, decide_False, Bool.false_or,
      List.isEmpty_iff] at hx
    rw [hx] at hs
    cases hs
  · rw [if_neg hx]
    rw [mem_pushSuccs_wl]
    simp only [List.not_mem_nil, false_or, not_false_eq_true, and_true]
    have : regionEnd0 MF R = B.insts.length := by
      by_contra hne
      simp [hne] at hx
    simp [this]

theorem pushed0_vis (MF : MachineFunction) (R : IdempotentRegion) (x : Nat)
    (h : x ∈ (regionPushed MF R.Entry_.bb (regionEnd0 MF R) [] []).2) :
    x ∈ (regionPushed MF R.Entry_.bb (regionEnd0 MF R) [] []).1 := by
  unfold regionPushed at h ⊢
  cases hB : MF.blocks[R.Entry_.bb]? with
  | none => rw [hB] at h; cases h
  | some B =>
    rw [hB] at h
    simp only at h ⊢
    by_cases hx : (decide (regionEnd0 MF R ≠ B.insts.length) || B.succs.isEmpty) = true
    · rw [if_pos hx] at h
      cases h
    · rw [if_neg hx] at h ⊢
      exact pushSuccs_nil_vis _ _ h

theorem pushed0_nodup (MF : MachineFunction) (R : IdempotentRegion) :
    (regionPushed MF R.Entry_.bb (regionEnd0 MF R) [] []).1.Nodup ∧
      ∀ x ∈ (regionPushed MF R.Entry_.bb (regionEnd0 MF R) [] []).1,
        x ∈ (regionPushed MF R.Entry_.bb (regionEnd0 MF R) [] []).2 := by
  unfold regionPushed
  cases hB : MF.blocks[R.Entry_.bb]? with
  | none => simp
  | some B =>
    simp only
    by_cases hx : (decide (regionEnd0 MF R ≠ B.insts.length) || B.succs.isEmpty) = true
    · rw [if_pos hx]
      simp
    · rw [if_neg hx]
      exact pushSuccs_nodup _ _ _ List.nodup_nil (by simp)

/-- The instructions of a region when the worklist search returns. -/
theorem instructions_some (MF : MachineFunction) (R : IdempotentRegion) (EI : MachineInstr)
    (hE : MF.inst? R.Entry_ = some EI) (hEb : EI.isIdemBoundary = true) (tr : List Nat)
    (hd : dfsTrace (regionStop MF R) (regionNbrs MF) (MF.blocks.length + 1)
      (regionPushed MF R.Entry_.bb (regionEnd0 MF R) [] []).1
      (regionPushed MF R.Entry_.bb (regionEnd0 MF R) [] []).2 = some tr) :
    R.instructions MF =
      some (rangePositions R.Entry_.bb R.Entry_.idx (regionEnd0 MF R) ++
        tr.flatMap (fun x => rangePositions x 0 (regionEndD MF R x))) := by
  obtain ⟨B, hB⟩ := entry_block MF R EI hE
  obtain ⟨h1, h2, _, _⟩ := regionEnd0_spec MF R B hB EI hE hEb
  have hcl := dfsTrace_closed _ _ _ _ _ _ hd
  have hnd := (dfsTrace_nodup _ _ _ _ _ _ hd (pushed0_nodup MF R).1 (pushed0_nodup MF R).2).1
  have hlt : ∀ b ∈ tr, b < MF.blocks.length := by
    intro b hb
    obtain ⟨s, hs, _⟩ := hcl.2 b hb
    obtain ⟨B1, _, hB1, _, _⟩ := regionStop_some MF R b s hs
    exact mlt_of_block MF b B1 hB1
  have hlen : tr.length ≤ MF.blocks.length := nodup_bounded_length tr _ hnd hlt
  have hsum : (tr.map (regionEndD MF R)).sum ≤ MF.size := by
    calc (tr.map (regionEndD MF R)).sum
        ≤ (tr.map MF.blockLen).sum := List.sum_le_sum (fun b _ => regionEndD_le MF R b)
      _ ≤ ((List.range MF.blocks.length).map MF.blockLen).sum :=
          sum_map_le_of_nodup _ _ tr hnd hlt
      _ = MF.size := (size_eq_sum MF).symm
  have hb0 : B.insts.length ≤ MF.size := by
    rw [← mblockLen_eq MF _ B hB]
    exact blockLen_le_size MF _
  unfold IdempotentRegion.instructions
  rw [inst_begin_eq MF R B hB EI hE]
  simp only
  exact instList_some MF R (2 * MF.size + 2) R.Entry_.bb B hB R.Entry_ (regionEnd0 MF R) [] []
    (MF.blocks.length + 1) tr R.Entry_.idx h1 h2 hd (by omega) (by omega)

/-- The iterator of a region aborts when the worklist search aborts. -/
theorem instructions_none (MF : MachineFunction) (R : IdempotentRegion)
    (hsv : ∀ (b : Nat) (B : MachineBasicBlock), MF.blocks[b]? = some B →
      ∀ s ∈ B.succs, s < MF.blocks.length)
    (EI : MachineInstr)
    (hE : MF.inst? R.Entry_ = some EI) (hEb : EI.isIdemBoundary = true)
    (hd : dfsTrace (regionStop MF R) (regionNbrs MF) (MF.blocks.length + 1)
      (regionPushed MF R.Entry_.bb (regionEnd0 MF R) [] []).1
      (regionPushed MF R.Entry_.bb (regionEnd0 MF R) [] []).2 = none) :
    R.instructions MF = none := by
  obtain ⟨B, hB⟩ := entry_block MF R EI hE
  obtain ⟨h1, h2, _, _⟩ := regionEnd0_spec MF R B hB EI hE hEb
  have hm := regionPushed_measure MF hsv R.Entry_.bb (regionEnd0 MF R) [] []
  rw [unvisited_nil] at hm
  simp only [List.length_nil, Nat.zero_add] at hm
  unfold IdempotentRegion.instructions
  rw [inst_begin_eq MF R B hB EI hE]
  simp only
  exact instList_none MF R hsv (2 * MF.size + 2) R.Entry_.bb B hB R.Entry_ (regionEnd0 MF R)
    [] [] (MF.blocks.length + 1) R.Entry_.idx h1 h2 hd (by omega)

/-- The iterator of a region returns exactly when the worklist search does,
and yields the first range followed by the ranges of the blocks of the
search. -/
theorem instructions_eq (MF : MachineFunction) (R : IdempotentRegion)
    (hsv : ∀ (b : Nat) (B : MachineBasicBlock), MF.blocks[b]? = some B →
      ∀ s ∈ B.succs, s < MF.blocks.length)
    (EI : MachineInstr)
    (hE : MF.inst? R.Entry_ = some EI) (hEb : EI.isIdemBoundary = true)
    (l : List InstPos) (hl : R.instructions MF = some l) :
    ∃ tr, dfsTrace (regionStop MF R) (regionNbrs MF) (MF.blocks.length + 1)
        (regionPushed MF R.Entry_.bb (regionEnd0 MF R) [] []).1
        (regionPushed MF R.Entry_.bb (regionEnd0 MF R) [] []).2 = some tr ∧
      l = rangePositions R.Entry_.bb R.Entry_.idx (regionEnd0 MF R) ++
        tr.flatMap (fun x => rangePositions x 0 (regionEndD MF R x)) := by
  cases hd : dfsTrace (regionStop MF R) (regionNbrs MF) (MF.blocks.length + 1)
      (regionPushed MF R.Entry_.bb (regionEnd0 MF R) [] []).1
      (regionPushed MF R.Entry_.bb (regionEnd0 MF R) [] []).2 with
  | none =>
    rw [instructions_none MF R hsv EI hE hEb hd] at hl
    cases hl
  | some tr =>
    rw [instructions_some MF R EI hE hEb tr hd] at hl
    exact ⟨tr, rfl, (Option.some.inj hl).symm⟩

end Ratchet

namespace Ratchet

/-! ## The extent of a region -/

/-- The successors of the block of the entry are entered on a path without
boundary or call when the first range reaches the end of the block. -/
theorem entered_init (MF : MachineFunction) (R : IdempotentRegion)
    (hsv : ∀ (b : Nat) (B : MachineBasicBlock), MF.blocks[b]? = some B →
      ∀ s ∈ B.succs, s < MF.blocks.length)
    (EI : MachineInstr)
    (hE : MF.inst? R.Entry_ = some EI) (hEb : EI.isIdemBoundary = true)
    (x : Nat) (hx : x ∈ (regionPushed MF R.Entry_.bb (regionEnd0 MF R) [] []).1) :
    AvoidPath MF.cfg MF.exitAt R.Entry_ ⟨x, 0⟩ := by
  obtain ⟨B, hB⟩ := entry_block MF R EI hE
  obtain ⟨h1, h2, h3, _⟩ := regionEnd0_spec MF R B hB EI hE hEb
  obtain ⟨he, hs⟩ := (mem_pushed0 MF R B hB x).mp hx
  obtain ⟨Bx, hBx⟩ := mblock_of_lt MF x (hsv _ B hB x hs)
  have hp : AvoidPath MF.cfg MF.exitAt ⟨R.Entry_.bb, R.Entry_.idx⟩ ⟨R.Entry_.bb, B.insts.length⟩ :=
    avoidPath_range_src MF.cfg MF.exitAt R.Entry_.bb _ (mcfg_of_block MF _ B hB) R.Entry_.idx
      B.insts.length (by omega) (Nat.le_refl _) (fun k hk1 hk2 => h3 k hk1 (by omega))
  exact avoidPath_step MF.cfg MF.exitAt R.Entry_ ⟨R.Entry_.bb, B.insts.length⟩ ⟨x, 0⟩ hp
    (exitAt_of_ge MF _ _ B hB (Nat.le_refl _))
    (Step.jump R.Entry_.bb x ⟨B.insts.length, B.preds, B.succs⟩ _ (mcfg_of_block MF _ B hB) hs
      (mcfg_of_block MF x Bx hBx))

/-- The successors of an entered block from which the search goes on are
entered. -/
theorem entered_step (MF : MachineFunction) (R : IdempotentRegion)
    (hsv : ∀ (b : Nat) (B : MachineBasicBlock), MF.blocks[b]? = some B →
      ∀ s ∈ B.succs, s < MF.blocks.length)
    (b : Nat) (hb : AvoidPath MF.cfg MF.exitAt R.Entry_ ⟨b, 0⟩)
    (hs : regionStop MF R b = some false) :
    ∀ p ∈ regionNbrs MF b, AvoidPath MF.cfg MF.exitAt R.Entry_ ⟨p, 0⟩ := by
  intro p hp
  obtain ⟨B, e, hB, _, _⟩ := regionStop_some MF R b false hs
  have hend := regionStop_false MF R b B hB hs
  have hcl := (regionEnd_clean MF R b _ B hB hend).1
  simp only [regionNbrs, hB] at hp
  obtain ⟨Bp, hBp⟩ := mblock_of_lt MF p (hsv _ B hB p hp)
  have hpath : AvoidPath MF.cfg MF.exitAt R.Entry_ ⟨b, B.insts.length⟩ :=
    avoidPath_range MF.cfg MF.exitAt R.Entry_ b _ (mcfg_of_block MF _ B hB) 0 hb
      B.insts.length (Nat.zero_le _) (Nat.le_refl _) (fun k _ hk => hcl k hk)
  exact avoidPath_step MF.cfg MF.exitAt R.Entry_ ⟨b, B.insts.length⟩ ⟨p, 0⟩ hpath
    (exitAt_of_ge MF _ _ B hB (Nat.le_refl _))
    (Step.jump b p ⟨B.insts.length, B.preds, B.succs⟩ _ (mcfg_of_block MF _ B hB) hp
      (mcfg_of_block MF p Bp hBp))

/-- Every block of the search is entered on a path without boundary or call. -/
theorem trace_entered (MF : MachineFunction) (R : IdempotentRegion)
    (hsv : ∀ (b : Nat) (B : MachineBasicBlock), MF.blocks[b]? = some B →
      ∀ s ∈ B.succs, s < MF.blocks.length)
    (EI : MachineInstr)
    (hE : MF.inst? R.Entry_ = some EI) (hEb : EI.isIdemBoundary = true) (tr : List Nat)
    (hd : dfsTrace (regionStop MF R) (regionNbrs MF) (MF.blocks.length + 1)
      (regionPushed MF R.Entry_.bb (regionEnd0 MF R) [] []).1
      (regionPushed MF R.Entry_.bb (regionEnd0 MF R) [] []).2 = some tr) :
    ∀ b ∈ tr, AvoidPath MF.cfg MF.exitAt R.Entry_ ⟨b, 0⟩ :=
  dfsTrace_invariant _ _ (fun b => AvoidPath MF.cfg MF.exitAt R.Entry_ ⟨b, 0⟩)
    (fun b hb hs => entered_step MF R hsv b hb hs) _ _ _ _ hd
    (fun x hx => entered_init MF R hsv EI hE hEb x hx)

/-- Every yielded instruction other than the entry is reached from the entry
on a path without boundary or call, and is no boundary or call itself. -/
theorem region_sound (MF : MachineFunction) (R : IdempotentRegion)
    (hsv : ∀ (b : Nat) (B : MachineBasicBlock), MF.blocks[b]? = some B →
      ∀ s ∈ B.succs, s < MF.blocks.length)
    (EI : MachineInstr)
    (hE : MF.inst? R.Entry_ = some EI) (hEb : EI.isIdemBoundary = true)
    (l : List InstPos) (hl : R.instructions MF = some l) (X : InstPos) (hX : X ∈ l) :
    X = R.Entry_ ∨
      (AvoidPath MF.cfg MF.exitAt R.Entry_ X ∧ MF.exitAt X = false ∧
        ∃ MI, MF.inst? X = some MI) := by
  obtain ⟨tr, hd, hleq⟩ := instructions_eq MF R hsv EI hE hEb l hl
  obtain ⟨B, hB⟩ := entry_block MF R EI hE
  obtain ⟨h1, h2, h3, _⟩ := regionEnd0_spec MF R B hB EI hE hEb
  rw [hleq, List.mem_append] at hX
  have hXeq : X = ⟨X.bb, X.idx⟩ := rfl
  rcases hX with hX | hX
  · rw [mem_rangePositions] at hX
    obtain ⟨hbb, hlo, hhi⟩ := hX
    by_cases e : X.idx = R.Entry_.idx
    · left
      cases X
      simp only at hbb e
      rw [hbb, e]
    · right
      have hcl : MF.exitAt X = false := by
        rw [hXeq, hbb]
        exact h3 X.idx (by omega) hhi
      refine ⟨?_, hcl, ?_⟩
      · rw [hXeq, hbb]
        exact avoidPath_range_src MF.cfg MF.exitAt R.Entry_.bb _ (mcfg_of_block MF _ B hB)
          R.Entry_.idx X.idx (by omega) (by show X.idx ≤ B.insts.length; omega)
          (fun k hk1 hk2 => h3 k hk1 (by omega))
      · rw [hXeq, hbb, minst?_eq MF _ _ B hB]
        exact ⟨B.insts[X.idx], List.getElem?_eq_getElem (by omega)⟩
  · right
    rw [List.mem_flatMap] at hX
    obtain ⟨b, hb, hXb⟩ := hX
    rw [mem_rangePositions] at hXb
    obtain ⟨hbb, _, hhi⟩ := hXb
    have hent := trace_entered MF R hsv EI hE hEb tr hd b hb
    obtain ⟨s, hs, _⟩ := (dfsTrace_closed _ _ _ _ _ _ hd).2 b hb
    obtain ⟨Bb, e, hBb, hr, _⟩ := regionStop_some MF R b s hs
    rw [regionEndD_of MF R b e hr] at hhi
    have hle := regionEnd_le MF R b e Bb hBb hr
    have hcl := (regionEnd_clean MF R b e Bb hBb hr).1
    refine ⟨?_, ?_, ?_⟩
    · rw [hXeq, hbb]
      exact avoidPath_range MF.cfg MF.exitAt R.Entry_ b _ (mcfg_of_block MF _ Bb hBb) 0 hent
        X.idx (Nat.zero_le _) (by show X.idx ≤ Bb.insts.length; omega)
        (fun k _ hk => hcl k (by omega))
    · rw [hXeq, hbb]
      exact hcl X.idx hhi
    · rw [hXeq, hbb, minst?_eq MF _ _ Bb hBb]
      exact ⟨Bb.insts[X.idx], List.getElem?_eq_getElem (by omega)⟩

/-- A position is covered by the ranges of the iterator: it lies behind the
entry in the first range, or in the range of a block of the search; the end of
a range counts. -/
theorem cover_step (MF : MachineFunction) (R : IdempotentRegion) (EI : MachineInstr)
    (hE : MF.inst? R.Entry_ = some EI) (hEb : EI.isIdemBoundary = true) (tr : List Nat)
    (hd : dfsTrace (regionStop MF R) (regionNbrs MF) (MF.blocks.length + 1)
      (regionPushed MF R.Entry_.bb (regionEnd0 MF R) [] []).1
      (regionPushed MF R.Entry_.bb (regionEnd0 MF R) [] []).2 = some tr)
    (p q : InstPos)
    (hp : (p.bb = R.Entry_.bb ∧ R.Entry_.idx < p.idx ∧ p.idx ≤ regionEnd0 MF R) ∨
      (p.bb ∈ tr ∧ p.idx ≤ regionEndD MF R p.bb))
    (hcl : MF.exitAt p = false) (hs : Step MF.cfg p q) :
    (q.bb = R.Entry_.bb ∧ R.Entry_.idx < q.idx ∧ q.idx ≤ regionEnd0 MF R) ∨
      (q.bb ∈ tr ∧ q.idx ≤ regionEndD MF R q.bb) := by
  obtain ⟨B, hB⟩ := entry_block MF R EI hE
  obtain ⟨h1, h2, h3, h4⟩ := regionEnd0_spec MF R B hB EI hE hEb
  have hclosed := dfsTrace_closed _ _ _ _ _ _ hd
  cases hs with
  | next b i C hC hi =>
    obtain ⟨Bb, hBb, hCeq⟩ := mblock_of_cfg MF b C hC
    subst hCeq
    simp only at hi hp hcl ⊢
    rcases hp with ⟨hbb, hlo, hhi⟩ | ⟨hbt, hhi⟩
    · left
      subst hbb
      rw [hB] at hBb
      cases hBb
      refine ⟨rfl, by omega, ?_⟩
      by_contra hne
      have he : i = regionEnd0 MF R := by omega
      have := h4 (by omega)
      rw [← he, hcl] at this
      cases this
    · right
      refine ⟨hbt, ?_⟩
      obtain ⟨s, hs, _⟩ := hclosed.2 b hbt
      obtain ⟨B1, e, hB1, hr, _⟩ := regionStop_some MF R b s hs
      rw [hBb] at hB1
      cases hB1
      rw [regionEndD_of MF R b e hr] at hhi ⊢
      by_contra hne
      have he : i = e := by omega
      have := (regionEnd_clean MF R b e Bb hBb hr).2 (by omega)
      rw [← he, hcl] at this
      cases this
  | jump a s C Sc hC hs hSc =>
    obtain ⟨Ba, hBa, hCeq⟩ := mblock_of_cfg MF a C hC
    subst hCeq
    simp only at hs hp ⊢
    right
    refine ⟨?_, Nat.zero_le _⟩
    rcases hp with ⟨hbb, _, hhi⟩ | ⟨hbt, hhi⟩
    · subst hbb
      rw [hB] at hBa
      cases hBa
      exact hclosed.1 s ((mem_pushed0 MF R B hB s).mpr ⟨by omega, hs⟩)
    · obtain ⟨st, hst, hnb⟩ := hclosed.2 a hbt
      obtain ⟨B1, e, hB1, hr, _⟩ := regionStop_some MF R a st hst
      rw [hBa] at hB1
      cases hB1
      rw [regionEndD_of MF R a e hr] at hhi
      have hle := regionEnd_le MF R a e Ba hBa hr
      have he : e = Ba.insts.length := by omega
      rw [he] at hr
      have hst2 := regionStop_of_end MF R a s Ba hBa hr hs
      rw [hst2] at hst
      have hnbr : s ∈ regionNbrs MF a := by
        simp only [regionNbrs, hBa]
        exact hs
      rcases hnb (Option.some.inj hst).symm s hnbr with h | h
      · exact hclosed.1 s (pushed0_vis MF R s h)
      · exact h

theorem cover_chain (MF : MachineFunction) (R : IdempotentRegion) (EI : MachineInstr)
    (hE : MF.inst? R.Entry_ = some EI) (hEb : EI.isIdemBoundary = true) (tr : List Nat)
    (hd : dfsTrace (regionStop MF R) (regionNbrs MF) (MF.blocks.length + 1)
      (regionPushed MF R.Entry_.bb (regionEnd0 MF R) [] []).1
      (regionPushed MF R.Entry_.bb (regionEnd0 MF R) [] []).2 = some tr) :
    ∀ (rest : List InstPos) (p : InstPos), List.Chain (Step MF.cfg) p rest →
      ((p.bb = R.Entry_.bb ∧ R.Entry_.idx < p.idx ∧ p.idx ≤ regionEnd0 MF R) ∨
        (p.bb ∈ tr ∧ p.idx ≤ regionEndD MF R p.bb)) →
      (∀ x ∈ p :: rest, MF.exitAt x = false) →
      ∀ x ∈ p :: rest,
        (x.bb = R.Entry_.bb ∧ R.Entry_.idx < x.idx ∧ x.idx ≤ regionEnd0 MF R) ∨
          (x.bb ∈ tr ∧ x.idx ≤ regionEndD MF R x.bb) := by
  intro rest
  induction rest with
  | nil =>
    intro p _ hp _ x hx
    simp only [List.mem_singleton] at hx
    rw [hx]
    exact hp
  | cons q rest ih =>
    intro p hc hp hcl x hx
    rw [List.chain_cons] at hc
    rcases List.mem_cons.mp hx with e | hx
    · rw [e]
      exact hp
    · have hq := cover_step MF R EI hE hEb tr hd p q hp (hcl p (List.mem_cons_self _ _)) hc.1
      exact ih q hc.2 hq (fun y hy => hcl y (List.mem_cons_of_mem _ hy)) x hx

/-- Every instruction that is reached from the entry on a path without
boundary or call, the instruction included, is yielded. -/
theorem region_complete (MF : MachineFunction) (R : IdempotentRegion)
    (hsv : ∀ (b : Nat) (B : MachineBasicBlock), MF.blocks[b]? = some B →
      ∀ s ∈ B.succs, s < MF.blocks.length)
    (EI : MachineInstr)
    (hE : MF.inst? R.Entry_ = some EI) (hEb : EI.isIdemBoundary = true)
    (l : List InstPos) (hl : R.instructions MF = some l) (X : InstPos)
    (rest : List InstPos) (hpath : IsPath MF.cfg (R.Entry_ :: rest))
    (hlast : rest.getLast? = some X) (hcl : ∀ p ∈ rest, MF.exitAt p = false)
    (MI : MachineInstr) (hMI : MF.inst? X = some MI) : X ∈ l := by
  obtain ⟨tr, hd, hleq⟩ := instructions_eq MF R hsv EI hE hEb l hl
  obtain ⟨B, hB⟩ := entry_block MF R EI hE
  obtain ⟨h1, h2, h3, h4⟩ := regionEnd0_spec MF R B hB EI hE hEb
  have hidx := entry_lt MF R B hB EI hE
  cases rest with
  | nil => cases hlast
  | cons q rest =>
    have hchain : List.Chain (Step MF.cfg) R.Entry_ (q :: rest) := hpath
    rw [List.chain_cons] at hchain
    obtain ⟨hstep, hchain'⟩ := hchain
    -- the first step stays in the block of the entry
    have hq : (q.bb = R.Entry_.bb ∧ R.Entry_.idx < q.idx ∧ q.idx ≤ regionEnd0 MF R) := by
      generalize hEp : R.Entry_ = Ep at hstep
      cases hstep with
      | next b i C hC hi =>
        have e2 : R.Entry_.idx = i := congrArg InstPos.idx hEp
        exact ⟨rfl, by simp only; omega, by simp only; omega⟩
      | jump a s C Sc hC hs hSc =>
        exfalso
        have e1 : R.Entry_.bb = a := congrArg InstPos.bb hEp
        have e2 : R.Entry_.idx = C.len := congrArg InstPos.idx hEp
        obtain ⟨Ba, hBa, hCeq⟩ := mblock_of_cfg MF a C hC
        rw [← e1, hB] at hBa
        cases hBa
        rw [hCeq] at e2
        simp only at e2
        omega
    have hXmem : X ∈ q :: rest := List.mem_of_mem_getLast? hlast
    have hcov := cover_chain MF R EI hE hEb tr hd rest q hchain' (Or.inl hq) hcl X hXmem
    have hXcl := hcl X hXmem
    have hXeq : X = ⟨X.bb, X.idx⟩ := rfl
    rw [hleq, List.mem_append]
    rcases hcov with ⟨hbb, hlo, hhi⟩ | ⟨hbt, hhi⟩
    · left
      rw [mem_rangePositions]
      refine ⟨hbb, by omega, ?_⟩
      have hXlt : X.idx < B.insts.length := by
        rw [hXeq, hbb, minst?_eq MF _ _ B hB] at hMI
        by_contra h
        rw [List.getElem?_eq_none (by omega)] at hMI
        cases hMI
      by_contra hne
      have he : X.idx = regionEnd0 MF R := by omega
      have := h4 (by omega)
      rw [← he, ← hbb] at this
      rw [this] at hXcl
      cases hXcl
    · right
      rw [List.mem_flatMap]
      refine ⟨X.bb, hbt, ?_⟩
      rw [mem_rangePositions]
      refine ⟨rfl, Nat.zero_le _, ?_⟩
      obtain ⟨s, hs, _⟩ := (dfsTrace_closed _ _ _ _ _ _ hd).2 X.bb hbt
      obtain ⟨B1, e, hB1, hr, _⟩ := regionStop_some MF R X.bb s hs
      rw [regionEndD_of MF R X.bb e hr] at hhi ⊢
      have hXlt : X.idx < B1.insts.length := by
        rw [hXeq, minst?_eq MF _ _ B1 hB1] at hMI
        by_contra h
        rw [List.getElem?_eq_none (by omega)] at hMI
        cases hMI
      by_contra hne
      have he : X.idx = e := by omega
      have := (regionEnd_clean MF R X.bb e B1 hB1 hr).2 (by omega)
      rw [← he] at this
      rw [this] at hXcl
      cases hXcl

/-- The iterator of a region returns when no path without boundary or call
leads from the entry back to the entry. -/
theorem region_total (MF : MachineFunction) (R : IdempotentRegion)
    (hsv : ∀ (b : Nat) (B : MachineBasicBlock), MF.blocks[b]? = some B →
      ∀ s ∈ B.succs, s < MF.blocks.length)
    (EI : MachineInstr)
    (hE : MF.inst? R.Entry_ = some EI) (hEb : EI.isIdemBoundary = true)
    (hNoWrap : ¬ AvoidPath MF.cfg MF.exitAt R.Entry_ R.Entry_) :
    ∃ l, R.instructions MF = some l := by
  have hterm : ∃ tr, dfsTrace (regionStop MF R) (regionNbrs MF) (MF.blocks.length + 1)
      (regionPushed MF R.Entry_.bb (regionEnd0 MF R) [] []).1
      (regionPushed MF R.Entry_.bb (regionEnd0 MF R) [] []).2 = some tr := by
    apply dfsTrace_terminates (regionStop MF R) (regionNbrs MF) MF.blocks.length
      (fun b => AvoidPath MF.cfg MF.exitAt R.Entry_ ⟨b, 0⟩)
    · intro b hb
      -- an entered block is a block of the function
      have hblock : ∃ B, MF.blocks[b]? = some B := by
        obtain ⟨rest, hp, hlast, _⟩ := hb
        have hmem : (⟨b, 0⟩ : InstPos) ∈ rest := List.mem_of_mem_getLast? hlast
        have : ∀ (rest : List InstPos) (p : InstPos), List.Chain (Step MF.cfg) p rest →
            ∀ x ∈ rest, ∃ C, MF.cfg[x.bb]? = some C := by
          intro rest
          induction rest with
          | nil => intro p _ x hx; cases hx
          | cons q rest ih =>
            intro p hc x hx
            rw [List.chain_cons] at hc
            rcases List.mem_cons.mp hx with e | hx
            · rw [e]
              cases hc.1 with
              | next b i C hC _ => exact ⟨C, hC⟩
              | jump a s C Sc _ _ hSc => exact ⟨Sc, hSc⟩
            · exact ih q hc.2 x hx
        obtain ⟨C, hC⟩ := this rest R.Entry_ hp _ hmem
        obtain ⟨B, hB, _⟩ := mblock_of_cfg MF b C hC
        exact ⟨B, hB⟩
      obtain ⟨B, hB⟩ := hblock
      have hnw : ∀ k, (⟨b, k⟩ : InstPos) = R.Entry_ →
          ∃ j, j < k ∧ MF.exitAt ⟨b, j⟩ = true := by
        intro k hk
        by_contra hno
        apply hNoWrap
        have hk2 : k ≤ B.insts.length := by
          have := entry_lt MF R B (by rw [← hk]; exact hB) EI hE
          rw [← hk] at this
          simp only at this
          omega
        have := avoidPath_range MF.cfg MF.exitAt R.Entry_ b _ (mcfg_of_block MF _ B hB) 0 hb
          k (Nat.zero_le _) hk2 (fun j _ hj => by
            by_contra hx
            exact hno ⟨j, hj, by simpa using hx⟩)
        rw [hk] at this
        exact this
      obtain ⟨e, he⟩ := computeEnd_total MF R b B hB hnw B.insts.length 0 (by omega)
        (fun j hj => by omega)
      have hr : regionEnd MF R b = some e := by
        unfold regionEnd
        rw [hB]
        simpa using he
      have hs : regionStop MF R b = some (decide (e ≠ B.insts.length) || B.succs.isEmpty) := by
        unfold regionStop
        rw [hB, hr]
      refine ⟨mlt_of_block MF b B hB, _, hs, ?_⟩
      intro hf p hp
      rw [hf] at hs
      exact entered_step MF R hsv b hb hs p hp
    · intro b hb
      exact entered_init MF R hsv EI hE hEb b hb
    · have hm := regionPushed_measure MF hsv R.Entry_.bb (regionEnd0 MF R) [] []
      rw [unvisited_nil] at hm
      simp only [List.length_nil, Nat.zero_add] at hm
      omega
  obtain ⟨tr, hd⟩ := hterm
  exact ⟨_, instructions_some MF R EI hE hEb tr hd⟩

end Ratchet

namespace Ratchet

theorem exitAt_false_iff (MF : MachineFunction) (p : InstPos) :
    MF.exitAt p = false ↔
      ∀ MI, MF.inst? p = some MI → MI.isIdemBoundary = false ∧ MI.isCall = false := by
  unfold MachineFunction.exitAt
  cases h : MF.inst? p with
  | none => simp
  | some MI =>
    simp only [Bool.or_eq_false_iff, Option.some.injEq]
    constructor
    · intro h1 MI1 e
      rw [← e]
      exact h1
    · intro h1
      exact h1 MI rfl

theorem msuccs_valid (MF : MachineFunction) (hWF : Cfg.WellFormed MF.cfg) :
    ∀ (b : Nat) (B : MachineBasicBlock), MF.blocks[b]? = some B →
      ∀ s ∈ B.succs, s < MF.blocks.length := by
  intro b B hB s hs
  have := hWF.succsValid b _ (mcfg_of_block MF b B hB) s hs
  simpa [MachineFunction.cfg] using this

theorem mpreds_valid (MF : MachineFunction) (hWF : Cfg.WellFormed MF.cfg) :
    ∀ (b : Nat) (B : MachineBasicBlock), MF.blocks[b]? = some B →
      ∀ s ∈ B.preds, s < MF.blocks.length := by
  intro b B hB s hs
  have := hWF.predsValid b _ (mcfg_of_block MF b B hB) s hs
  simpa [MachineFunction.cfg] using this

theorem chain_last_step {α : Type} (R : α → α → Prop) :
    ∀ (rest : List α) (p x : α), List.Chain R p rest → rest.getLast? = some x →
      ∃ y, R y x := by
  intro rest
  induction rest with
  | nil => intro p x _ h; cases h
  | cons q rest ih =>
    intro p x hc h
    rw [List.chain_cons] at hc
    cases rest with
    | nil =>
      simp only [List.getLast?_singleton, Option.some.injEq] at h
      subst h
      exact ⟨p, hc.1⟩
    | cons r rest =>
      rw [List.getLast?_cons_cons] at h
      exact ih q x hc.2 h

/-! ## C5 -/

/-- C5: when every control-flow cycle from the entry boundary of a region back
to it holds a boundary or a call strictly in between, the instruction iterator
of the region returns, and an instruction is yielded if and only if it is the
entry boundary or is reached from it on a control-flow path on which no
instruction after the entry, the reached one included, is a boundary or a
call. -/
theorem region_extent (MF : MachineFunction) (R : IdempotentRegion)
    (hsucc : ∀ (b : Nat) (B : MachineBasicBlock), MF.blocks[b]? = some B →
      ∀ s ∈ B.succs, s < MF.blocks.length)
    (EI : MachineInstr) (hE : MF.inst? R.Entry_ = some EI) (hEb : EI.isIdemBoundary = true)
    (hNoWrap : ∀ rest, IsPath MF.cfg (R.Entry_ :: rest) → rest.getLast? = some R.Entry_ →
      ∃ p ∈ rest.dropLast, ∃ MI, MF.inst? p = some MI ∧
        (MI.isIdemBoundary = true ∨ MI.isCall = true)) :
    ∃ l, R.instructions MF = some l ∧
      ∀ X, X ∈ l ↔
        (X = R.Entry_ ∨
          ∃ rest, IsPath MF.cfg (R.Entry_ :: rest) ∧ rest.getLast? = some X ∧
            (∃ MI, MF.inst? X = some MI) ∧
            ∀ p ∈ rest, ∀ MI, MF.inst? p = some MI →
              MI.isIdemBoundary = false ∧ MI.isCall = false) := by
  have hnw : ¬ AvoidPath MF.cfg MF.exitAt R.Entry_ R.Entry_ := by
    rintro ⟨rest, h1, h2, h3⟩
    obtain ⟨p, hp, MI, hMI, hx⟩ := hNoWrap rest h1 h2
    have := (exitAt_false_iff MF p).mp (h3 p hp) MI hMI
    rcases hx with hx | hx
    · rw [this.1] at hx
      cases hx
    · rw [this.2] at hx
      cases hx
  obtain ⟨l, hl⟩ := region_total MF R hsucc EI hE hEb hnw
  refine ⟨l, hl, ?_⟩
  intro X
  constructor
  · intro hX
    rcases region_sound MF R hsucc EI hE hEb l hl X hX with h | ⟨h1, h2, h3⟩
    · exact Or.inl h
    · right
      obtain ⟨rest, h4, h5, h6⟩ := avoidPath_all MF.cfg MF.exitAt R.Entry_ X h1 h2
      exact ⟨rest, h4, h5, h3, fun p hp => (exitAt_false_iff MF p).mp (h6 p hp)⟩
  · rintro (h | ⟨rest, h1, h2, ⟨MI, hMI⟩, h3⟩)
    · rw [h]
      obtain ⟨tr, _, hleq⟩ := instructions_eq MF R hsucc EI hE hEb l hl
      obtain ⟨B, hB⟩ := entry_block MF R EI hE
      obtain ⟨h1, _, _, _⟩ := regionEnd0_spec MF R B hB EI hE hEb
      rw [hleq, List.mem_append, mem_rangePositions]
      exact Or.inl ⟨rfl, Nat.le_refl _, h1⟩
    · exact region_complete MF R hsucc EI hE hEb l hl X rest h1 h2
        (fun p hp => (exitAt_false_iff MF p).mpr (h3 p hp)) MI hMI

/-- Witness of C5: the first region of `exampleLoopRegion`, which runs through
the loop of block 1 up to the boundary of block 2. -/
theorem region_extent_witness :
    ∃ l, IdempotentRegion.instructions exampleLoopRegion ⟨0, ⟨0, 0⟩⟩ = some l ∧
      ∀ X, X ∈ l ↔
        (X = (⟨0, 0⟩ : InstPos) ∨
          ∃ rest, IsPath exampleLoopRegion.cfg ((⟨0, 0⟩ : InstPos) :: rest) ∧
            rest.getLast? = some X ∧
            (∃ MI, exampleLoopRegion.inst? X = some MI) ∧
            ∀ p ∈ rest, ∀ MI, exampleLoopRegion.inst? p = some MI →
              MI.isIdemBoundary = false ∧ MI.isCall = false) :=
  region_extent exampleLoopRegion ⟨0, ⟨0, 0⟩⟩
    (msuccs_valid exampleLoopRegion (cfg_wellFormed_of_check _ (by decide)))
    idemInstr rfl rfl
    (by
      intro rest hp hlast
      exfalso
      obtain ⟨y, hy⟩ := chain_last_step (Step exampleLoopRegion.cfg) rest ⟨0, 0⟩ ⟨0, 0⟩ hp hlast
      generalize hq : (⟨0, 0⟩ : InstPos) = q at hy
      cases hy with
      | next b i C hC hi =>
        have := congrArg InstPos.idx hq
        simp at this
      | jump a s C Sc hC hs hSc =>
        have e : 0 = s := congrArg InstPos.bb hq
        subst e
        have ha : a < 3 := by
          by_contra h
          have : exampleLoopRegion.cfg[a]? = none := List.getElem?_eq_none (by
            simp only [MachineFunction.cfg, exampleLoopRegion, List.map_cons, List.map_nil,
              List.length_cons, List.length_nil]
            omega)
          rw [this] at hC
          cases hC
        interval_cases a
        · have : exampleLoopRegion.cfg[0]? = some ⟨2, [], [1]⟩ := rfl
          rw [this] at hC
          cases hC
          simp at hs
        · have : exampleLoopRegion.cfg[1]? = some ⟨2, [0, 1], [1, 2]⟩ := rfl
          rw [this] at hC
          cases hC
          simp at hs
        · have : exampleLoopRegion.cfg[2]? = some ⟨3, [1], []⟩ := rfl
          rw [this] at hC
          cases hC
          simp at hs)

end Ratchet

namespace Ratchet

/-! ## The backward walk of `getRegionsContaining` -/

theorem boundaryAt_eq (MF : MachineFunction) (b k : Nat) (B : MachineBasicBlock)
    (hB : MF.blocks[b]? = some B) (MI : MachineInstr) (hMI : B.insts[k]? = some MI) :
    MF.boundaryAt ⟨b, k⟩ = MI.isIdemBoundary := by
  simp [MachineFunction.boundaryAt, minst?_eq MF b k B hB, hMI]

theorem boundaryAt_of_ge (MF : MachineFunction) (b k : Nat) (B : MachineBasicBlock)
    (hB : MF.blocks[b]? = some B) (hk : B.insts.length ≤ k) :
    MF.boundaryAt ⟨b, k⟩ = false := by
  simp [MachineFunction.boundaryAt, minst?_eq MF b k B hB, List.getElem?_eq_none hk]

/-- What the scan for a region entry returns: `0` when no instruction below
the start is a boundary, otherwise the index behind the last boundary below the
start. -/
theorem findRegionEntry_spec (MF : MachineFunction) (b : Nat) (B : MachineBasicBlock)
    (hB : MF.blocks[b]? = some B) :
    ∀ hi, hi ≤ B.insts.length →
      ∃ r, findRegionEntry B hi = some r ∧ r ≤ hi ∧
        (∀ k, r ≤ k → k < hi → MF.boundaryAt ⟨b, k⟩ = false) ∧
        (0 < r → MF.boundaryAt ⟨b, r - 1⟩ = true) := by
  intro hi
  induction hi with
  | zero =>
    intro _
    exact ⟨0, rfl, Nat.le_refl _, fun k h1 h2 => by omega, fun h => by omega⟩
  | succ hi ih =>
    intro hlen
    have hlt : hi < B.insts.length := by omega
    have hMI : B.insts[hi]? = some B.insts[hi] := List.getElem?_eq_getElem hlt
    have hb := boundaryAt_eq MF b hi B hB _ hMI
    unfold findRegionEntry
    rw [hMI]
    simp only
    by_cases hx : B.insts[hi].isIdemBoundary = true
    · rw [if_pos hx]
      refine ⟨hi + 1, rfl, Nat.le_refl _, fun k h1 h2 => by omega, fun _ => ?_⟩
      rw [Nat.add_sub_cancel, hb]
      exact hx
    · rw [if_neg hx]
      obtain ⟨r, h1, h2, h3, h4⟩ := ih (by omega)
      refine ⟨r, h1, by omega, ?_, h4⟩
      intro k hk1 hk2
      by_cases e : k = hi
      · subst e
        rw [hb]
        simpa using hx
      · exact h3 k hk1 (by omega)

theorem pushPredsR_eq (MF : MachineFunction) (Ps : List Nat)
    (hPs : ∀ p ∈ Ps, p < MF.blocks.length) :
    ∀ (Worklist Visited : List Nat),
      pushPredsR MF Ps (Worklist.map (fun b => (MF.blockLen b, b))) Visited =
        some ((pushSuccs Ps Worklist Visited).1.map (fun b => (MF.blockLen b, b)),
          (pushSuccs Ps Worklist Visited).2) := by
  induction Ps with
  | nil => intro Worklist Visited; rfl
  | cons P Ps ih =>
    intro Worklist Visited
    have hPs' : ∀ p ∈ Ps, p < MF.blocks.length :=
      fun p hp => hPs p (List.mem_cons_of_mem _ hp)
    unfold pushPredsR pushSuccs
    by_cases h : P ∈ Visited
    · rw [if_pos h, if_pos h]
      exact ih hPs' Worklist Visited
    · rw [if_neg h, if_neg h]
      obtain ⟨B, hB⟩ := mblock_of_lt MF P (hPs P (List.mem_cons_self _ _))
      rw [hB]
      simp only
      have := ih hPs' (P :: Worklist) (P :: Visited)
      rw [List.map_cons, mblockLen_eq MF P B hB] at this
      exact this

/-- The loop of `getRegionsContaining` on blocks entered from their end is the
worklist search, and the regions are those of the scanned blocks in order. -/
theorem backLoop_eq_trace (MF : MachineFunction) (MIR : MachineIdempotentRegions)
    (hpv : ∀ (b : Nat) (B : MachineBasicBlock), MF.blocks[b]? = some B →
      ∀ s ∈ B.preds, s < MF.blocks.length) :
    ∀ (fuel : Nat) (Worklist Visited : List Nat) (Regions : List IdempotentRegion),
      getRegionsContainingLoop MF MIR fuel
          (Worklist.map (fun b => (MF.blockLen b, b))) Visited Regions =
        (dfsTrace (backStop MF MIR) (backNbrs MF) fuel Worklist Visited).map
          (fun tr => Regions ++ tr.flatMap (backRegions MF MIR)) := by
  intro fuel
  induction fuel with
  | zero => intro Worklist Visited Regions; rfl
  | succ fuel ih =>
    intro Worklist Visited Regions
    cases Worklist with
    | nil => simp [getRegionsContainingLoop, dfsTrace]
    | cons b Worklist =>
      simp only [List.map_cons, getRegionsContainingLoop, dfsTrace]
      cases hB : MF.blocks[b]? with
      | none => simp [backStop, hB]
      | some B =>
        simp only [mblockLen_eq MF b B hB]
        cases hf : findRegionEntry B B.insts.length with
        | none => simp [backStop, hB, hf]
        | some r =>
          cases r with
          | zero =>
            have hstop : backStop MF MIR b = some false := by simp [backStop, hB, hf]
            have hregs : backRegions MF MIR b = [] := by simp [backRegions, hB, hf]
            have hn : backNbrs MF b = B.preds := by simp [backNbrs, hB]
            rw [hstop]
            simp only [Bool.false_eq_true, if_false]
            rw [hn, pushPredsR_eq MF B.preds (hpv b B hB) Worklist Visited]
            simp only
            rw [ih _ _ Regions]
            cases dfsTrace (backStop MF MIR) (backNbrs MF) fuel
                (pushSuccs B.preds Worklist Visited).1 (pushSuccs B.preds Worklist Visited).2 with
            | none => rfl
            | some tr => simp [List.flatMap_cons, hregs]
          | succ base =>
            simp only
            cases hg : MIR.getRegionAtEntry ⟨b, base⟩ with
            | none => simp [backStop, hB, hf, hg]
            | some R =>
              have hstop : backStop MF MIR b = some true := by simp [backStop, hB, hf, hg]
              have hregs : backRegions MF MIR b = [R] := by simp [backRegions, hB, hf, hg]
              rw [hstop]
              simp only [if_true]
              rw [ih Worklist Visited (Regions ++ [R])]
              cases dfsTrace (backStop MF MIR) (backNbrs MF) fuel Worklist Visited with
              | none => rfl
              | some tr => simp [List.flatMap_cons, hregs]

/-- The result of `getRegionsContaining`: the region of the last boundary
before the instruction in its block, or, when there is none, the regions of
the worklist search over the predecessors. -/
theorem getRegionsContaining_eq (MF : MachineFunction) (MIR : MachineIdempotentRegions)
    (hpv : ∀ (b : Nat) (B : MachineBasicBlock), MF.blocks[b]? = some B →
      ∀ s ∈ B.preds, s < MF.blocks.length)
    (X : InstPos) (B : MachineBasicBlock) (hB : MF.blocks[X.bb]? = some B)
    (MI : MachineInstr) (hMI : MF.inst? X = some MI) :
    ∃ r, findRegionEntry B X.idx = some r ∧
      MIR.getRegionsContaining MF X =
        match r with
        | 0 =>
          (dfsTrace (backStop MF MIR) (backNbrs MF) (MF.blocks.length + 1)
            (pushSuccs B.preds [] []).1 (pushSuccs B.preds [] []).2).map
            (fun tr => tr.flatMap (backRegions MF MIR))
        | base + 1 => (MIR.getRegionAtEntry ⟨X.bb, base⟩).map (fun R => [R]) := by
  have hidx : X.idx < B.insts.length := by
    rw [MachineFunction.inst?, hB] at hMI
    simp only at hMI
    by_contra h
    rw [List.getElem?_eq_none (by omega)] at hMI
    cases hMI
  obtain ⟨r, hr, _, _, _⟩ := findRegionEntry_spec MF X.bb B hB X.idx (by omega)
  refine ⟨r, hr, ?_⟩
  unfold MachineIdempotentRegions.getRegionsContaining
  rw [hMI]
  simp only [getRegionsContainingLoop, hB, hr]
  cases r with
  | zero =>
    simp only
    have hp := pushPredsR_eq MF B.preds (hpv X.bb B hB) [] []
    simp only [List.map_nil] at hp
    rw [hp]
    simp only
    rw [backLoop_eq_trace MF MIR hpv]
    simp
  | succ base =>
    simp only
    cases hg : MIR.getRegionAtEntry ⟨X.bb, base⟩ with
    | none => rfl
    | some R => simp [getRegionsContainingLoop]

/-- The worklist search of `getRegionsContaining` returns when every boundary
has a region. -/
theorem backTrace_terminates (MF : MachineFunction) (MIR : MachineIdempotentRegions)
    (hpv : ∀ (b : Nat) (B : MachineBasicBlock), MF.blocks[b]? = some B →
      ∀ s ∈ B.preds, s < MF.blocks.length)
    (hMap : ∀ p, MF.boundaryAt p = true → ∃ R, MIR.getRegionAtEntry p = some R)
    (Ps : List Nat) (hPs : ∀ p ∈ Ps, p < MF.blocks.length) :
    ∃ tr, dfsTrace (backStop MF MIR) (backNbrs MF) (MF.blocks.length + 1)
      (pushSuccs Ps [] []).1 (pushSuccs Ps [] []).2 = some tr := by
  apply dfsTrace_terminates (backStop MF MIR) (backNbrs MF) MF.blocks.length
    (fun b => b < MF.blocks.length)
  · intro b hb
    obtain ⟨B, hB⟩ := mblock_of_lt MF b hb
    obtain ⟨r, hr, _, _, h4⟩ := findRegionEntry_spec MF b B hB B.insts.length (Nat.le_refl _)
    have hn : backNbrs MF b = B.preds := by simp [backNbrs, hB]
    cases r with
    | zero =>
      refine ⟨hb, false, by simp [backStop, hB, hr], ?_⟩
      intro _ p hp
      rw [hn] at hp
      exact hpv b B hB p hp
    | succ base =>
      obtain ⟨R, hR⟩ := hMap ⟨b, base⟩ (by simpa using h4 (by omega))
      exact ⟨hb, true, by simp [backStop, hB, hr, hR], fun h => Bool.noConfusion h⟩
  · intro b hb
    rcases (mem_pushSuccs_wl _ _ _ _).mp hb with h | h
    · simp at h
    · exact hPs b h.1
  · have := pushSuccs_measure MF.blocks.length Ps [] [] hPs
    rw [unvisited_nil] at this
    simp only [List.length_nil, Nat.zero_add] at this
    omega

end Ratchet

namespace Ratchet

/-! ## The backward walk along a control-flow path -/

/-- Along a control-flow path to the instruction that holds no boundary, the
backward walk of `getRegionsContaining` arrives at every position: in the first
scan, which starts before the instruction, or in the scan of a block that the
walk enters from its end. -/
theorem back_reaches (MF : MachineFunction) (MIR : MachineIdempotentRegions)
    (hWF : Cfg.WellFormed MF.cfg) (X : InstPos) (BX : MachineBasicBlock)
    (hBX : MF.blocks[X.bb]? = some BX) (hXidx : X.idx < BX.insts.length)
    (r0 : Nat) (hr0 : findRegionEntry BX X.idx = some r0) (tr : List Nat)
    (htr1 : r0 ≠ 0 → tr = [])
    (htr2 : r0 = 0 → dfsTrace (backStop MF MIR) (backNbrs MF) (MF.blocks.length + 1)
      (pushSuccs BX.preds [] []).1 (pushSuccs BX.preds [] []).2 = some tr) :
    ∀ (rest : List InstPos) (p : InstPos), List.Chain (Step MF.cfg) p rest →
      (p :: rest).getLast? = some X →
      (∀ q ∈ (p :: rest).dropLast, MF.boundaryAt q = false) →
      (p.bb = X.bb ∧ p.idx ≤ X.idx ∧
          ∀ j, p.idx ≤ j → j < X.idx → MF.boundaryAt ⟨X.bb, j⟩ = false) ∨
        (p.bb ∈ tr ∧
          ∀ j, p.idx ≤ j → j < MF.blockLen p.bb → MF.boundaryAt ⟨p.bb, j⟩ = false) := by
  intro rest
  induction rest with
  | nil =>
    intro p _ hlast _
    simp only [List.getLast?_singleton, Option.some.injEq] at hlast
    subst hlast
    exact Or.inl ⟨rfl, Nat.le_refl _, fun j h1 h2 => by omega⟩
  | cons q rest ih =>
    intro p hchain hlast hclean
    rw [List.chain_cons] at hchain
    rw [List.getLast?_cons_cons] at hlast
    obtain ⟨hstep, hchain'⟩ := hchain
    have hdl : (p :: q :: rest).dropLast = p :: (q :: rest).dropLast := rfl
    rw [hdl] at hclean
    have hp : MF.boundaryAt p = false := hclean p (List.mem_cons_self _ _)
    have ihq := ih q hchain' hlast (fun x hx => hclean x (List.mem_cons_of_mem _ hx))
    cases hstep with
    | next b i Bc hBc hi =>
      rcases ihq with ⟨h1, h2, h3⟩ | ⟨h1, h3⟩
      · simp only at h1 h2 h3
        refine Or.inl ⟨h1, by simp only; omega, ?_⟩
        intro j hj1 hj2
        simp only at hj1
        by_cases e : j = i
        · subst e
          rw [← h1]
          exact hp
        · exact h3 j (by omega) hj2
      · simp only at h1 h3
        refine Or.inr ⟨h1, ?_⟩
        intro j hj1 hj2
        simp only at hj1 hj2
        by_cases e : j = i
        · subst e
          exact hp
        · exact h3 j (by omega) hj2
    | jump a s A Sc hA hs hSc =>
      obtain ⟨Ba, hBa, hAeq⟩ := mblock_of_cfg MF a A hA
      obtain ⟨Bs, hBs, hSeq⟩ := mblock_of_cfg MF s Sc hSc
      subst hAeq hSeq
      simp only at hs hp ⊢
      have hpred : a ∈ Bs.preds :=
        (hWF.mirror a s _ _ (mcfg_of_block MF a Ba hBa) (mcfg_of_block MF s Bs hBs)).mp hs
      have hvac : ∀ j, Ba.insts.length ≤ j → j < MF.blockLen a →
          MF.boundaryAt ⟨a, j⟩ = false := by
        intro j h1 h2
        rw [mblockLen_eq MF a Ba hBa] at h2
        omega
      rcases ihq with ⟨h1, _, h3⟩ | ⟨h1, h3⟩
      · -- the successor is the block of the instruction, scanned first
        simp only at h1 h3
        subst h1
        rw [hBs] at hBX
        cases hBX
        obtain ⟨r, hr, _, _, hr4⟩ := findRegionEntry_spec MF X.bb BX hBs X.idx (by omega)
        rw [hr0] at hr
        cases hr
        have hz : r0 = 0 := by
          by_contra hne
          have := hr4 (by omega)
          rw [h3 (r0 - 1) (Nat.zero_le _) (by omega)] at this
          cases this
        refine Or.inr ⟨(dfsTrace_closed _ _ _ _ _ _ (htr2 hz)).1 a ?_, hvac⟩
        rw [mem_pushSuccs_wl]
        exact Or.inr ⟨hpred, by simp⟩
      · -- the successor is a block entered from its end
        simp only at h1 h3
        have hz : r0 = 0 := by
          by_contra hne
          rw [htr1 hne] at h1
          cases h1
        have hcl := dfsTrace_closed _ _ _ _ _ _ (htr2 hz)
        obtain ⟨st, hst, hnb⟩ := hcl.2 s h1
        obtain ⟨r, hr, _, _, hr4⟩ :=
          findRegionEntry_spec MF s Bs hBs Bs.insts.length (Nat.le_refl _)
        have hrz : r = 0 := by
          by_contra hne
          have := hr4 (by omega)
          rw [h3 (r - 1) (Nat.zero_le _) (by rw [mblockLen_eq MF s Bs hBs]; omega)] at this
          cases this
        subst hrz
        have hst2 : backStop MF MIR s = some false := by simp [backStop, hBs, hr]
        rw [hst2] at hst
        have hnbr : a ∈ backNbrs MF s := by
          simp only [backNbrs, hBs]
          exact hpred
        rcases hnb (Option.some.inj hst).symm a hnbr with h | h
        · exact Or.inr ⟨hcl.1 a (pushSuccs_nil_vis _ _ h), hvac⟩
        · exact Or.inr ⟨h, hvac⟩

/-- The function `getRegionsContaining` returns the region of a boundary from
which a control-flow path without a boundary in between leads to the
instruction. -/
theorem back_complete (MF : MachineFunction) (MIR : MachineIdempotentRegions)
    (hWF : Cfg.WellFormed MF.cfg)
    (hMap : ∀ p, MF.boundaryAt p = true → ∃ R, MIR.getRegionAtEntry p = some R)
    (R : IdempotentRegion) (hR : MIR.getRegionAtEntry R.Entry_ = some R)
    (hEb : MF.boundaryAt R.Entry_ = true)
    (X : InstPos) (MI : MachineInstr) (hMI : MF.inst? X = some MI)
    (hpath : AvoidPath MF.cfg MF.boundaryAt R.Entry_ X) :
    ∃ Rs, MIR.getRegionsContaining MF X = some Rs ∧ R ∈ Rs := by
  have hpv := mpreds_valid MF hWF
  obtain ⟨BX, hBX⟩ : ∃ B, MF.blocks[X.bb]? = some B := by
    rw [MachineFunction.inst?] at hMI
    cases hB : MF.blocks[X.bb]? with
    | none => rw [hB] at hMI; cases hMI
    | some B => exact ⟨B, rfl⟩
  have hXidx : X.idx < BX.insts.length := by
    rw [MachineFunction.inst?, hBX] at hMI
    simp only at hMI
    by_contra h
    rw [List.getElem?_eq_none (by omega)] at hMI
    cases hMI
  obtain ⟨r0, hr0, hres⟩ := getRegionsContaining_eq MF MIR hpv X BX hBX MI hMI
  obtain ⟨_, hr0', _, hs3, hs4⟩ := findRegionEntry_spec MF X.bb BX hBX X.idx (by omega)
  rw [hr0] at hr0'
  cases hr0'
  obtain ⟨tr0, htr0⟩ := backTrace_terminates MF MIR hpv hMap BX.preds (hpv X.bb BX hBX)
  -- the entry is an instruction of a block
  obtain ⟨BE, hBE, hElt⟩ : ∃ B, MF.blocks[R.Entry_.bb]? = some B ∧
      R.Entry_.idx < B.insts.length := by
    unfold MachineFunction.boundaryAt MachineFunction.inst? at hEb
    cases hB : MF.blocks[R.Entry_.bb]? with
    | none => rw [hB] at hEb; cases hEb
    | some B =>
      refine ⟨B, rfl, ?_⟩
      rw [hB] at hEb
      simp only at hEb
      by_contra h
      rw [List.getElem?_eq_none (by omega)] at hEb
      cases hEb
  obtain ⟨rest, hp, hlast, hclean⟩ := hpath
  cases rest with
  | nil => cases hlast
  | cons q rest =>
    have hchain : List.Chain (Step MF.cfg) R.Entry_ (q :: rest) := hp
    rw [List.chain_cons] at hchain
    obtain ⟨hstep, hchain'⟩ := hchain
    have hreach := back_reaches MF MIR hWF X BX hBX hXidx r0 hr0
      (if r0 = 0 then tr0 else [])
      (fun h => by rw [if_neg h])
      (fun h => by rw [if_pos h]; exact htr0)
      rest q hchain' hlast hclean
    generalize hEp : R.Entry_ = Ep at hstep
    cases hstep with
    | jump a s C Sc hC hs hSc =>
      exfalso
      have e1 : R.Entry_.bb = a := congrArg InstPos.bb hEp
      have e2 : R.Entry_.idx = C.len := congrArg InstPos.idx hEp
      obtain ⟨Ba, hBa, hCeq⟩ := mblock_of_cfg MF a C hC
      rw [← e1, hBE] at hBa
      cases hBa
      rw [hCeq] at e2
      simp only at e2
      omega
    | next b i C hC hi =>
      have e1 : R.Entry_.bb = b := congrArg InstPos.bb hEp
      have e2 : R.Entry_.idx = i := congrArg InstPos.idx hEp
      have hEeq : R.Entry_ = ⟨b, i⟩ := hEp
      have hEb2 : MF.boundaryAt ⟨b, i⟩ = true := by rw [← hEeq]; exact hEb
      simp only at hreach
      rcases hreach with ⟨h1, h2, h3⟩ | ⟨h1, h3⟩
      · -- the entry is met in the first scan
        subst h1
        have hr0pos : 0 < r0 := by
          by_contra hz
          have := hs3 i (by omega) (by omega)
          rw [hEb2] at this
          cases this
        obtain ⟨base, hbase⟩ : ∃ base, r0 = base + 1 := ⟨r0 - 1, by omega⟩
        subst hbase
        have hbi : base = i := by
          have hb1 := hs4 (by omega)
          simp only [Nat.add_sub_cancel] at hb1
          by_contra hne
          by_cases hlt : base < i
          · have := hs3 i (by omega) (by omega)
            rw [hEb2] at this
            cases this
          · have := h3 base (by omega) (by omega)
            rw [hb1] at this
            cases this
        subst hbi
        simp only at hres
        rw [← hEeq, hR] at hres
        exact ⟨[R], hres, by simp⟩
      · -- the entry is met in the scan of a block entered from its end
        have hz : r0 = 0 := by
          by_contra hne
          rw [if_neg hne] at h1
          cases h1
        subst hz
        rw [if_pos rfl] at h1
        simp only at hres
        rw [htr0] at hres
        refine ⟨_, hres, ?_⟩
        subst e1
        obtain ⟨r, hr, _, hb3, hb4⟩ :=
          findRegionEntry_spec MF R.Entry_.bb BE hBE BE.insts.length (Nat.le_refl _)
        have hlen := mblockLen_eq MF R.Entry_.bb BE hBE
        have hrpos : 0 < r := by
          by_contra hzr
          have := hb3 i (by omega) (by omega)
          rw [hEb2] at this
          cases this
        obtain ⟨base, hbase⟩ : ∃ base, r = base + 1 := ⟨r - 1, by omega⟩
        subst hbase
        have hbi : base = i := by
          have hb1 := hb4 (by omega)
          simp only [Nat.add_sub_cancel] at hb1
          by_contra hne
          by_cases hlt : base < i
          · have := hb3 i (by omega) (by omega)
            rw [hEb2] at this
            cases this
          · have := h3 base (by omega) (by rw [hlen]; omega)
            rw [hb1] at this
            cases this
        subst hbi
        rw [List.mem_flatMap]
        refine ⟨R.Entry_.bb, h1, ?_⟩
        have hEeq2 : (⟨R.Entry_.bb, base⟩ : InstPos) = R.Entry_ := hEeq.symm
        simp [backRegions, hBE, hr, hEeq2, hR]

end Ratchet

namespace Ratchet

theorem boundaryAt_iff (MF : MachineFunction) (p : InstPos) :
    MF.boundaryAt p = true ↔ ∃ MI, MF.inst? p = some MI ∧ MI.isIdemBoundary = true := by
  unfold MachineFunction.boundaryAt
  cases h : MF.inst? p with
  | none => simp
  | some MI => simp

theorem boundaryAt_of_exitAt (MF : MachineFunction) (p : InstPos)
    (h : MF.exitAt p = false) : MF.boundaryAt p = false := by
  unfold MachineFunction.exitAt at h
  unfold MachineFunction.boundaryAt
  cases hi : MF.inst? p with
  | none => rfl
  | some MI =>
    rw [hi] at h
    simp only [Bool.or_eq_false_iff] at h
    exact h.1

/-- The regions of `exampleLoopRegion` are registered at their boundaries. -/
theorem exampleLoopRegions_map (p : InstPos) (MI : MachineInstr)
    (h : exampleLoopRegion.inst? p = some MI) (hb : MI.isIdemBoundary = true) :
    ∃ R, exampleLoopRegions.getRegionAtEntry p = some R := by
  obtain ⟨b, i⟩ := p
  rcases b with _ | _ | _ | b
  · rcases i with _ | _ | i
    · exact ⟨_, rfl⟩
    · cases h
      cases hb
    · cases h
  · rcases i with _ | _ | i
    · cases h
      cases hb
    · cases h
      cases hb
    · cases h
  · rcases i with _ | _ | _ | i
    · cases h
      cases hb
    · exact ⟨_, rfl⟩
    · cases h
      cases hb
    · cases h
  · cases h

/-! ## C6 -/

/-- C6 (as stated, refuted): the second region of `exampleLoopRegion` yields
its entry boundary, the instruction at index 1 of block 2, but
`getRegionsContaining` of that instruction returns the first region only: for
a boundary it returns the regions that precede the region of the boundary. -/
theorem containment_misses_entry :
    IdempotentRegion.instructions exampleLoopRegion ⟨1, ⟨2, 1⟩⟩ = some [⟨2, 1⟩, ⟨2, 2⟩] ∧
      exampleLoopRegions.getRegionAtEntry ⟨2, 1⟩ = some ⟨1, ⟨2, 1⟩⟩ ∧
      exampleLoopRegions.getRegionsContaining exampleLoopRegion ⟨2, 1⟩ =
        some [⟨0, ⟨0, 0⟩⟩] ∧
      (⟨1, ⟨2, 1⟩⟩ : IdempotentRegion) ∉ [(⟨0, ⟨0, 0⟩⟩ : IdempotentRegion)] := by
  refine ⟨by decide, by decide, by decide, by decide⟩

/-- C6 (amended): in a well-formed machine function in which every boundary
has its region in the entry map, for a region `R` that the map holds at its
entry boundary and every instruction `X` other than the entry that the
instruction iterator of `R` yields, `getRegionsContaining(X)` returns and its
result includes `R`. -/
theorem containment_symmetry (MF : MachineFunction) (MIR : MachineIdempotentRegions)
    (R : IdempotentRegion) (hWF : Cfg.WellFormed MF.cfg)
    (hMap : ∀ p MI, MF.inst? p = some MI → MI.isIdemBoundary = true →
      ∃ R1, MIR.getRegionAtEntry p = some R1)
    (hR : MIR.getRegionAtEntry R.Entry_ = some R)
    (EI : MachineInstr) (hE : MF.inst? R.Entry_ = some EI) (hEb : EI.isIdemBoundary = true)
    (l : List InstPos) (hl : R.instructions MF = some l) (X : InstPos) (hX : X ∈ l)
    (hne : X ≠ R.Entry_) :
    ∃ Rs, MIR.getRegionsContaining MF X = some Rs ∧ R ∈ Rs := by
  rcases region_sound MF R (msuccs_valid MF hWF) EI hE hEb l hl X hX with h | ⟨h1, _, MI, hMI⟩
  · exact absurd h hne
  · obtain ⟨rest, h2, h3, h4⟩ := h1
    apply back_complete MF MIR hWF _ R hR _ X MI hMI
      ⟨rest, h2, h3, fun p hp => boundaryAt_of_exitAt MF p (h4 p hp)⟩
    · intro p hp
      obtain ⟨MI1, h5, h6⟩ := (boundaryAt_iff MF p).mp hp
      exact hMap p MI1 h5 h6
    · exact (boundaryAt_iff MF _).mpr ⟨EI, hE, hEb⟩

/-- Witness of C6 (amended): the second instruction of the loop of
`exampleLoopRegion` lies in the first region. -/
theorem containment_symmetry_witness :
    ∃ Rs, exampleLoopRegions.getRegionsContaining exampleLoopRegion ⟨1, 1⟩ = some Rs ∧
      (⟨0, ⟨0, 0⟩⟩ : IdempotentRegion) ∈ Rs :=
  containment_symmetry exampleLoopRegion exampleLoopRegions ⟨0, ⟨0, 0⟩⟩
    (cfg_wellFormed_of_check _ (by decide)) exampleLoopRegions_map rfl idemInstr rfl rfl
    [⟨0, 0⟩, ⟨0, 1⟩, ⟨1, 0⟩, ⟨1, 1⟩, ⟨2, 0⟩] (by decide) ⟨1, 1⟩ (by decide) (by decide)

end Ratchet

namespace Ratchet

/-! ## Paths behind the regions that the backward walk returns -/

theorem avoidPath_cons (G : Cfg) (bad : InstPos → Bool) (p q dst : InstPos)
    (hs : Step G p q) (hq : bad q = false) (h : AvoidPath G bad q dst) :
    AvoidPath G bad p dst := by
  obtain ⟨rest, h1, h2, h3⟩ := h
  cases rest with
  | nil => cases h2
  | cons r rest =>
    refine ⟨q :: r :: rest, List.Chain'.cons hs h1, by rw [List.getLast?_cons_cons]; exact h2, ?_⟩
    intro x hx
    have hdl : (q :: r :: rest).dropLast = q :: (r :: rest).dropLast := rfl
    rw [hdl] at hx
    rcases List.mem_cons.mp hx with e | hx
    · rw [e]
      exact hq
    · exact h3 x hx

theorem avoidPath_of_step (G : Cfg) (bad : InstPos → Bool) (p q dst : InstPos)
    (hs : Step G p q) (h : q = dst ∨ (bad q = false ∧ AvoidPath G bad q dst)) :
    AvoidPath G bad p dst := by
  rcases h with h | ⟨h1, h2⟩
  · rw [← h]
    exact avoidPath_single G bad p q hs
  · exact avoidPath_cons G bad p q dst hs h1 h2

/-- A path to the destination is extended backward through the positions of a
block that are not `bad`. -/
theorem back_range (G : Cfg) (bad : InstPos → Bool) (dst : InstPos) (b : Nat)
    (B : CfgBlock) (hB : G[b]? = some B) (j : Nat) (hj : j ≤ B.len)
    (h : (⟨b, j⟩ : InstPos) = dst ∨ (bad ⟨b, j⟩ = false ∧ AvoidPath G bad ⟨b, j⟩ dst)) :
    ∀ d i, i + d = j → (∀ k, i ≤ k → k < j → bad ⟨b, k⟩ = false) →
      ((⟨b, i⟩ : InstPos) = dst ∨ (bad ⟨b, i⟩ = false ∧ AvoidPath G bad ⟨b, i⟩ dst)) := by
  intro d
  induction d with
  | zero =>
    intro i hi _
    have : i = j := by omega
    subst this
    exact h
  | succ d ih =>
    intro i hi hcl
    have hnext := ih (i + 1) (by omega) (fun k hk1 hk2 => hcl k (by omega) hk2)
    exact Or.inr ⟨hcl i (Nat.le_refl _) (by omega),
      avoidPath_of_step G bad ⟨b, i⟩ ⟨b, i + 1⟩ dst (Step.next b i B hB (by omega)) hnext⟩

theorem chain_succ_of_mem_dropLast {α : Type} (R : α → α → Prop) :
    ∀ (l : List α), List.Chain' R l → ∀ x ∈ l.dropLast, ∃ y ∈ l, R x y := by
  intro l
  induction l with
  | nil => intro _ x hx; cases hx
  | cons a l ih =>
    intro hc x hx
    cases l with
    | nil => cases hx
    | cons b t =>
      have hdl : (a :: b :: t).dropLast = a :: (b :: t).dropLast := rfl
      rw [hdl] at hx
      rw [List.chain'_cons] at hc
      rcases List.mem_cons.mp hx with e | hx
      · rw [e]
        exact ⟨b, by simp, hc.1⟩
      · obtain ⟨y, hy, hr⟩ := ih hc.2 x hx
        exact ⟨y, List.mem_cons_of_mem _ hy, hr⟩

/-- From the end of every block of the backward search a control-flow path
without boundary leads to the instruction. -/
theorem back_entered (MF : MachineFunction) (MIR : MachineIdempotentRegions)
    (hWF : Cfg.WellFormed MF.cfg) (X : InstPos) (BX : MachineBasicBlock)
    (hBX : MF.blocks[X.bb]? = some BX) (hXidx : X.idx < BX.insts.length)
    (hclean : ∀ k, k < X.idx → MF.boundaryAt ⟨X.bb, k⟩ = false) (tr : List Nat)
    (hd : dfsTrace (backStop MF MIR) (backNbrs MF) (MF.blocks.length + 1)
      (pushSuccs BX.preds [] []).1 (pushSuccs BX.preds [] []).2 = some tr) :
    ∀ b ∈ tr, AvoidPath MF.cfg MF.boundaryAt ⟨b, MF.blockLen b⟩ X := by
  have hpv := mpreds_valid MF hWF
  -- from the end of a predecessor of a block whose start leads to the instruction
  have hpred : ∀ (s : Nat) (Bs : MachineBasicBlock), MF.blocks[s]? = some Bs →
      ((⟨s, 0⟩ : InstPos) = X ∨
        (MF.boundaryAt ⟨s, 0⟩ = false ∧ AvoidPath MF.cfg MF.boundaryAt ⟨s, 0⟩ X)) →
      ∀ a ∈ Bs.preds, AvoidPath MF.cfg MF.boundaryAt ⟨a, MF.blockLen a⟩ X := by
    intro s Bs hBs hback a ha
    obtain ⟨Ba, hBa⟩ := mblock_of_lt MF a (hpv s Bs hBs a ha)
    have hsucc : s ∈ Ba.succs :=
      (hWF.mirror a s _ _ (mcfg_of_block MF a Ba hBa) (mcfg_of_block MF s Bs hBs)).mpr ha
    rw [mblockLen_eq MF a Ba hBa]
    exact avoidPath_of_step MF.cfg MF.boundaryAt ⟨a, Ba.insts.length⟩ ⟨s, 0⟩ X
      (Step.jump a s ⟨Ba.insts.length, Ba.preds, Ba.succs⟩ _ (mcfg_of_block MF a Ba hBa) hsucc
        (mcfg_of_block MF s Bs hBs)) hback
  apply dfsTrace_invariant (backStop MF MIR) (backNbrs MF)
    (fun b => AvoidPath MF.cfg MF.boundaryAt ⟨b, MF.blockLen b⟩ X) _ _ _ _ _ hd
  · intro a ha
    rcases (mem_pushSuccs_wl _ _ _ _).mp ha with h | h
    · cases h
    · apply hpred X.bb BX hBX _ a h.1
      exact back_range MF.cfg MF.boundaryAt X X.bb _ (mcfg_of_block MF _ BX hBX) X.idx
        (by show X.idx ≤ BX.insts.length; omega) (Or.inl rfl) X.idx 0 (by omega)
        (fun k _ hk => hclean k hk)
  · intro b hb hs a ha
    cases hB : MF.blocks[b]? with
    | none => simp [backNbrs, hB] at ha
    | some B =>
      simp only [backNbrs, hB] at ha
      obtain ⟨r, hr, _, h3, _⟩ :=
        findRegionEntry_spec MF b B hB B.insts.length (Nat.le_refl _)
      have hr0 : r = 0 := by
        cases r with
        | zero => rfl
        | succ base =>
          simp only [backStop, hB, hr] at hs
          cases hg : MIR.getRegionAtEntry ⟨b, base⟩ with
          | none => rw [hg] at hs; cases hs
          | some R => rw [hg] at hs; cases hs
      subst hr0
      rw [mblockLen_eq MF b B hB] at hb
      apply hpred b B hB _ a ha
      exact back_range MF.cfg MF.boundaryAt X b _ (mcfg_of_block MF _ B hB) B.insts.length
        (Nat.le_refl _) (Or.inr ⟨boundaryAt_of_ge MF b _ B hB (Nat.le_refl _), hb⟩)
        B.insts.length 0 (by omega) (fun k _ hk => h3 k (Nat.zero_le _) hk)

/-- Every region that `getRegionsContaining` returns is registered at a
boundary from which a control-flow path without a boundary in between leads to
the instruction. -/
theorem back_sound (MF : MachineFunction) (MIR : MachineIdempotentRegions)
    (hWF : Cfg.WellFormed MF.cfg) (X : InstPos) (MI : MachineInstr)
    (hMI : MF.inst? X = some MI) (Rs : List IdempotentRegion)
    (hRs : MIR.getRegionsContaining MF X = some Rs) (R : IdempotentRegion) (hR : R ∈ Rs) :
    ∃ e, MIR.getRegionAtEntry e = some R ∧ MF.boundaryAt e = true ∧
      AvoidPath MF.cfg MF.boundaryAt e X := by
  have hpv := mpreds_valid MF hWF
  obtain ⟨BX, hBX⟩ : ∃ B, MF.blocks[X.bb]? = some B := by
    rw [MachineFunction.inst?] at hMI
    cases hB : MF.blocks[X.bb]? with
    | none => rw [hB] at hMI; cases hMI
    | some B => exact ⟨B, rfl⟩
  have hXidx : X.idx < BX.insts.length := by
    rw [MachineFunction.inst?, hBX] at hMI
    simp only at hMI
    by_contra h
    rw [List.getElem?_eq_none (by omega)] at hMI
    cases hMI
  obtain ⟨r0, hr0, hres⟩ := getRegionsContaining_eq MF MIR hpv X BX hBX MI hMI
  obtain ⟨_, hr0', hs2, hs3, hs4⟩ := findRegionEntry_spec MF X.bb BX hBX X.idx (by omega)
  rw [hr0] at hr0'
  cases hr0'
  rw [hRs] at hres
  cases r0 with
  | succ base =>
    simp only at hres
    cases hg : MIR.getRegionAtEntry ⟨X.bb, base⟩ with
    | none => rw [hg] at hres; cases hres
    | some R1 =>
      rw [hg] at hres
      simp only [Option.map_some', Option.some.injEq] at hres
      rw [hres] at hR
      simp only [List.mem_singleton] at hR
      subst hR
      refine ⟨⟨X.bb, base⟩, hg, by simpa using hs4 (by omega), ?_⟩
      have := avoidPath_range_src MF.cfg MF.boundaryAt X.bb _ (mcfg_of_block MF _ BX hBX) base
        X.idx (by omega) (by show X.idx ≤ BX.insts.length; omega)
        (fun k hk1 hk2 => hs3 k (by omega) hk2)
      exact this
  | zero =>
    simp only at hres
    cases hd : dfsTrace (backStop MF MIR) (backNbrs MF) (MF.blocks.length + 1)
        (pushSuccs BX.preds [] []).1 (pushSuccs BX.preds [] []).2 with
    | none => rw [hd] at hres; cases hres
    | some tr =>
      rw [hd] at hres
      simp only [Option.map_some', Option.some.injEq] at hres
      rw [hres, List.mem_flatMap] at hR
      obtain ⟨b, hb, hRb⟩ := hR
      have hent := back_entered MF MIR hWF X BX hBX hXidx
        (fun k hk => hs3 k (Nat.zero_le _) hk) tr hd b hb
      cases hB : MF.blocks[b]? with
      | none => simp [backRegions, hB] at hRb
      | some B =>
        obtain ⟨r, hr, hr2, h3, h4⟩ :=
          findRegionEntry_spec MF b B hB B.insts.length (Nat.le_refl _)
        cases r with
        | zero => simp [backRegions, hB, hr] at hRb
        | succ base =>
          cases hg : MIR.getRegionAtEntry ⟨b, base⟩ with
          | none => simp [backRegions, hB, hr, hg] at hRb
          | some R1 =>
            simp only [backRegions, hB, hr, hg, List.mem_singleton] at hRb
            subst hRb
            refine ⟨⟨b, base⟩, hg, by simpa using h4 (by omega), ?_⟩
            rw [mblockLen_eq MF b B hB] at hent
            have hback := back_range MF.cfg MF.boundaryAt X b _ (mcfg_of_block MF _ B hB)
              B.insts.length (Nat.le_refl _)
              (Or.inr ⟨boundaryAt_of_ge MF b _ B hB (Nat.le_refl _), hent⟩)
              (B.insts.length - (base + 1)) (base + 1) (by omega)
              (fun k hk1 hk2 => h3 k hk1 hk2)
            exact avoidPath_of_step MF.cfg MF.boundaryAt ⟨b, base⟩ ⟨b, base + 1⟩ X
              (Step.next b base _ (mcfg_of_block MF _ B hB) (by show base < B.insts.length; omega))
              hback

/-- When every call is followed by a boundary, a path without boundary to an
instruction that is no boundary holds no call strictly in between. -/
theorem no_calls_between (MF : MachineFunction)
    (hCall : ∀ p MI, MF.inst? p = some MI → MI.isCall = true →
      MF.boundaryAt ⟨p.bb, p.idx + 1⟩ = true)
    (e X : InstPos) (hX : MF.boundaryAt X = false)
    (h : AvoidPath MF.cfg MF.boundaryAt e X) : AvoidPath MF.cfg MF.exitAt e X := by
  obtain ⟨rest, h1, h2, h3⟩ := h
  refine ⟨rest, h1, h2, ?_⟩
  intro p hp
  have hb := h3 p hp
  unfold MachineFunction.exitAt
  unfold MachineFunction.boundaryAt at hb
  cases hi : MF.inst? p with
  | none => rfl
  | some MI =>
    rw [hi] at hb
    simp only at hb ⊢
    rw [hb, Bool.false_or]
    by_contra hc
    have hcall : MI.isCall = true := by simpa using hc
    have hnextb := hCall p MI hi hcall
    have htail : List.Chain' (Step MF.cfg) rest := List.Chain'.tail h1
    obtain ⟨y, hy, hstep⟩ := chain_succ_of_mem_dropLast (Step MF.cfg) rest htail p hp
    have hyeq : y = ⟨p.bb, p.idx + 1⟩ := by
      cases hstep with
      | next b i C hC hi2 => rfl
      | jump a s C Sc hC hs hSc =>
        exfalso
        obtain ⟨Ba, hBa, hCeq⟩ := mblock_of_cfg MF a C hC
        subst hCeq
        rw [minst?_eq MF a _ Ba hBa, List.getElem?_eq_none (Nat.le_refl _)] at hi
        cases hi
    rw [← hyeq] at hnextb
    rcases mem_dropLast_or_getLast rest X y h2 hy with h | h
    · rw [h3 y h] at hnextb
      cases hnextb
    · rw [h, hX] at hnextb
      cases hnextb

end Ratchet

namespace Ratchet

/-- The entry map of `exampleLoopRegions` holds each region at its entry. -/
theorem exampleLoopRegions_entries (p : InstPos) (R : IdempotentRegion)
    (h : exampleLoopRegions.getRegionAtEntry p = some R) : R.Entry_ = p := by
  unfold MachineIdempotentRegions.getRegionAtEntry exampleLoopRegions at h
  simp only [List.find?_cons, List.find?_nil] at h
  by_cases h1 : (⟨0, 0⟩ : InstPos) = p
  · simp only [h1, decide_True] at h
    cases h
    rfl
  · simp only [h1, decide_False] at h
    by_cases h2 : (⟨2, 1⟩ : InstPos) = p
    · simp only [h2, decide_True] at h
      cases h
      rfl
    · simp only [h2, decide_False] at h
      cases h

/-- The function `exampleLoopRegion` holds no call. -/
theorem exampleLoopRegion_calls (p : InstPos) (MI : MachineInstr)
    (h : exampleLoopRegion.inst? p = some MI) (hc : MI.isCall = true) :
    ∃ MI1, exampleLoopRegion.inst? ⟨p.bb, p.idx + 1⟩ = some MI1 ∧
      MI1.isIdemBoundary = true := by
  exfalso
  obtain ⟨b, i⟩ := p
  rcases b with _ | _ | _ | b
  · rcases i with _ | _ | i
    · cases h
      cases hc
    · cases h
      cases hc
    · cases h
  · rcases i with _ | _ | i
    · cases h
      cases hc
    · cases h
      cases hc
    · cases h
  · rcases i with _ | _ | _ | i
    · cases h
      cases hc
    · cases h
      cases hc
    · cases h
      cases hc
    · cases h
  · cases h

/-! ## C7 -/

/-- C7 (as stated, refuted): in the block `IDEM; call; add` the backward walk
from `add` passes the call and returns the region of the boundary, whose
iterator stops before the call and yields the boundary only. In
`exampleLoopRegion` the query for the second boundary returns the first
region, whose iterator stops before that boundary. -/
theorem containment_passes_call :
    exampleRegions.getRegionsContaining exampleBoundaryCall ⟨0, 2⟩ = some [exampleRegion] ∧
      exampleRegion.instructions exampleBoundaryCall = some [⟨0, 0⟩] ∧
      (⟨0, 2⟩ : InstPos) ∉ [(⟨0, 0⟩ : InstPos)] ∧
      exampleLoopRegions.getRegionsContaining exampleLoopRegion ⟨2, 1⟩ =
        some [⟨0, ⟨0, 0⟩⟩] ∧
      IdempotentRegion.instructions exampleLoopRegion ⟨0, ⟨0, 0⟩⟩ =
        some [⟨0, 0⟩, ⟨0, 1⟩, ⟨1, 0⟩, ⟨1, 1⟩, ⟨2, 0⟩] ∧
      (⟨2, 1⟩ : InstPos) ∉ [(⟨0, 0⟩ : InstPos), ⟨0, 1⟩, ⟨1, 0⟩, ⟨1, 1⟩, ⟨2, 0⟩] := by
  refine ⟨by decide, by decide, by decide, by decide, by decide, by decide⟩

/-- C7 (amended): in a well-formed machine function in which every call is
immediately followed by a boundary, with an entry map that holds each region
at its entry, for every instruction `X` that is neither a boundary nor a call,
every region that `getRegionsContaining(X)` returns and whose instruction
iterator returns yields `X`. -/
theorem containment_exact (MF : MachineFunction) (MIR : MachineIdempotentRegions)
    (hWF : Cfg.WellFormed MF.cfg)
    (hMapE : ∀ p R1, MIR.getRegionAtEntry p = some R1 → R1.Entry_ = p)
    (hCall : ∀ p MI, MF.inst? p = some MI → MI.isCall = true →
      ∃ MI1, MF.inst? ⟨p.bb, p.idx + 1⟩ = some MI1 ∧ MI1.isIdemBoundary = true)
    (X : InstPos) (MI : MachineInstr) (hMI : MF.inst? X = some MI)
    (hXb : MI.isIdemBoundary = false) (hXc : MI.isCall = false)
    (Rs : List IdempotentRegion) (hRs : MIR.getRegionsContaining MF X = some Rs)
    (R : IdempotentRegion) (hR : R ∈ Rs)
    (l : List InstPos) (hl : R.instructions MF = some l) : X ∈ l := by
  obtain ⟨e, he1, he2, he3⟩ := back_sound MF MIR hWF X MI hMI Rs hRs R hR
  have hEntry : R.Entry_ = e := hMapE e R he1
  subst hEntry
  obtain ⟨EI, hE, hEb⟩ := (boundaryAt_iff MF R.Entry_).mp he2
  have hXb2 : MF.boundaryAt X = false := by
    simp [MachineFunction.boundaryAt, hMI, hXb]
  have hXe : MF.exitAt X = false := by
    simp [MachineFunction.exitAt, hMI, hXb, hXc]
  have hclean := no_calls_between MF
    (fun p MI1 h1 h2 => (boundaryAt_iff MF _).mpr (hCall p MI1 h1 h2)) R.Entry_ X hXb2 he3
  obtain ⟨rest, h1, h2, h3⟩ := avoidPath_all MF.cfg MF.exitAt R.Entry_ X hclean hXe
  exact region_complete MF R (msuccs_valid MF hWF) EI hE hEb l hl X rest h1 h2 h3 MI hMI

/-- Witness of C7 (amended): the second instruction of the loop of
`exampleLoopRegion`. -/
theorem containment_exact_witness :
    exampleLoopRegions.getRegionsContaining exampleLoopRegion ⟨1, 1⟩ =
        some [⟨0, ⟨0, 0⟩⟩] ∧
      IdempotentRegion.instructions exampleLoopRegion ⟨0, ⟨0, 0⟩⟩ =
        some [⟨0, 0⟩, ⟨0, 1⟩, ⟨1, 0⟩, ⟨1, 1⟩, ⟨2, 0⟩] ∧
      (⟨1, 1⟩ : InstPos) ∈ [(⟨0, 0⟩ : InstPos), ⟨0, 1⟩, ⟨1, 0⟩, ⟨1, 1⟩, ⟨2, 0⟩] :=
  ⟨by decide, by decide,
    containment_exact exampleLoopRegion exampleLoopRegions
      (cfg_wellFormed_of_check _ (by decide)) exampleLoopRegions_entries
      exampleLoopRegion_calls ⟨1, 1⟩ plainInstr rfl rfl rfl [⟨0, ⟨0, 0⟩⟩] (by decide)
      ⟨0, ⟨0, 0⟩⟩ (by decide) [⟨0, 0⟩, ⟨0, 1⟩, ⟨1, 0⟩, ⟨1, 1⟩, ⟨2, 0⟩] (by decide)⟩

end Ratchet

namespace Ratchet

/-! ## C12 -/

/-- C12 (as stated, refuted): a candidate with five resolved paths in a loop of
depth 2 ranks below a candidate without resolved paths in a loop of depth 1:
the count of resolved paths is the least significant component of the
priority, not the most significant one. -/
theorem compare_resolved_count_least :
    exampleDeepCandidate.IntersectedPaths = 5 ∧
      exampleShallowCandidate.IntersectedPaths = 0 ∧
      exampleDeepCandidate.UnintersectedPaths = exampleShallowCandidate.UnintersectedPaths ∧
      CandidateInfo.compare exampleDeepCandidate exampleShallowCandidate = true ∧
      CandidateInfo.compare exampleShallowCandidate exampleDeepCandidate = false := by
  refine ⟨rfl, rfl, rfl, by decide, by decide⟩

/-- C12 (amended): for candidates whose bit-fields hold values of their width,
`CandidateInfo::compare` is the lexicographic order on the components taken
from most to least significant as inverted loop depth, count of unresolved
paths, antidependent-store flag, sub-preheader flag, count of resolved paths. -/
theorem compare_lexicographic (L R : CandidateInfo)
    (hL : L.IntersectedPaths < 65536 ∧ L.IsSubloopPreheader < 256 ∧
      L.IsAntidependentStore < 256 ∧ L.UnintersectedPaths < 65536)
    (hR : R.IntersectedPaths < 65536 ∧ R.IsSubloopPreheader < 256 ∧
      R.IsAntidependentStore < 256 ∧ R.UnintersectedPaths < 65536) :
    CandidateInfo.compare L R = true ↔
      (L.LoopDepth < R.LoopDepth ∨ (L.LoopDepth = R.LoopDepth ∧
        (L.UnintersectedPaths < R.UnintersectedPaths ∨
          (L.UnintersectedPaths = R.UnintersectedPaths ∧
            (L.IsAntidependentStore < R.IsAntidependentStore ∨
              (L.IsAntidependentStore = R.IsAntidependentStore ∧
                (L.IsSubloopPreheader < R.IsSubloopPreheader ∨
                  (L.IsSubloopPreheader = R.IsSubloopPreheader ∧
                    L.IntersectedPaths < R.IntersectedPaths)))))))) := by
  unfold CandidateInfo.compare CandidateInfo.Priority_
  simp only [decide_eq_true_eq]
  norm_num
  omega

/-- Witness of C12 (amended): the candidates of the counterexample. -/
theorem compare_lexicographic_witness :
    CandidateInfo.compare exampleDeepCandidate exampleShallowCandidate = true ↔
      (exampleDeepCandidate.LoopDepth < exampleShallowCandidate.LoopDepth ∨
        (exampleDeepCandidate.LoopDepth = exampleShallowCandidate.LoopDepth ∧
        (exampleDeepCandidate.UnintersectedPaths < exampleShallowCandidate.UnintersectedPaths ∨
          (exampleDeepCandidate.UnintersectedPaths = exampleShallowCandidate.UnintersectedPaths ∧
            (exampleDeepCandidate.IsAntidependentStore <
                exampleShallowCandidate.IsAntidependentStore ∨
              (exampleDeepCandidate.IsAntidependentStore =
                  exampleShallowCandidate.IsAntidependentStore ∧
                (exampleDeepCandidate.IsSubloopPreheader <
                    exampleShallowCandidate.IsSubloopPreheader ∨
                  (exampleDeepCandidate.IsSubloopPreheader =
                      exampleShallowCandidate.IsSubloopPreheader ∧
                    exampleDeepCandidate.IntersectedPaths <
                      exampleShallowCandidate.IntersectedPaths)))))))) :=
  compare_lexicographic exampleDeepCandidate exampleShallowCandidate
    (by decide) (by decide)

/-! ## C19 -/

/-- C19 (as stated, refuted): an atomic load that is not volatile does not
force a cut, and neither does such a store, although they are atomic
operations. -/
theorem atomic_access_forces_no_cut :
    forcesCut (.load false true) = false ∧ forcesCutAsSpecified (.load false true) = true ∧
      forcesCut (.store false true false) = false ∧
      forcesCutAsSpecified (.store false true false) = true := by
  decide

/-- C19 (amended): `forcesCut` holds exactly for volatile loads and stores,
calls that are no tail calls, invokes, variadic-argument accesses, fences,
cmpxchg and atomicrmw; whether a load or store is atomic plays no part. -/
theorem forcesCut_iff (inst : Instruction) :
    forcesCut inst = true ↔
      ((∃ a, inst = .load true a) ∨ (∃ a g, inst = .store true a g) ∨ inst = .call false ∨
        inst = .invoke ∨ inst = .vaarg ∨ inst = .fence ∨ inst = .cmpxchg ∨
        inst = .atomicrmw) := by
  cases inst with
  | load v a => cases v <;> simp [forcesCut]
  | store v a g => cases v <;> simp [forcesCut]
  | call t => cases t <;> simp [forcesCut]
  | invoke => simp [forcesCut]
  | vaarg => simp [forcesCut]
  | fence => simp [forcesCut]
  | cmpxchg => simp [forcesCut]
  | atomicrmw => simp [forcesCut]
  | other => simp [forcesCut]

end Ratchet

namespace Ratchet

/-! ## C13 -/

theorem forall₂_imp_of {α β : Type} (R Q : α → β → Prop) (h : ∀ a b, R a b → Q a b) :
    ∀ (l1 : List α) (l2 : List β), List.Forall₂ R l1 l2 → List.Forall₂ Q l1 l2 := by
  intro l1 l2 hf
  induction hf with
  | nil => exact List.Forall₂.nil
  | cons hab _ ih => exact List.Forall₂.cons (h _ _ hab) ih

/-- C13: `runOnFunction` returns with one path for each antidependence pair
`(L, S)`, in the order of the pairs, and every path is `S` followed by further
instructions: it is not empty and its first element is `S`. -/
theorem paths_start_with_store (F : Function) (AA : AliasAnalysis) (DT : DominatorTree)
    (LI : LoopInfo) (Order : IterationOrder) (hWF : F.WellFormed) (hDT : DT.WellFormed F)
    (hOrd : Order.Ok)
    (hcount : ∀ Pairs, computePairs F AA F.positions [] = some Pairs → Pairs.length < 32768) :
    ∃ st, runOnFunction F AA DT LI Order .releaseMemory = some st ∧
      List.Forall₂ (fun Pair Path => Path ≠ [] ∧ Path.head? = some Pair.2)
        st.AntidependencePairs_ st.AntidependencePaths_ := by
  obtain ⟨st, h1, _, h3, _⟩ := runOnFunction_ok F AA DT LI Order hWF hDT hOrd hcount
  refine ⟨st, h1, forall₂_imp_of _ _ ?_ _ _ h3⟩
  rintro Pair Path ⟨rest, hP, _, _⟩
  rw [hP]
  exact ⟨by simp, rfl⟩

/-- Witness of C13 on `exampleTie`. -/
theorem paths_start_with_store_witness :
    ∃ st, runOnFunction exampleTie exampleTieAlias exampleTieTree exampleTieLoops insertionOrder
        .releaseMemory = some st ∧
      List.Forall₂ (fun Pair Path => Path ≠ [] ∧ Path.head? = some Pair.2)
        st.AntidependencePairs_ st.AntidependencePaths_ :=
  paths_start_with_store exampleTie exampleTieAlias exampleTieTree exampleTieLoops
    insertionOrder exampleTie_wf exampleTieTree_wf insertionOrder_ok
    (by
      intro Pairs h
      rw [exampleTie_pairs] at h
      cases h
      decide)

/-! ## C18 -/

/-- C18: a scan of the entry block for a store `S` that reaches the beginning
of the block without meeting a forced cut or a load that may read what `S`
writes records the pair of the first instruction of the entry block and `S`,
and terminates the path, if `S` writes to a global; it records no pair, and
the walk goes on, if not. -/
theorem entry_rule (F : Function) (AA : AliasAnalysis) (B : BasicBlock)
    (hB : F.blocks[0]? = some B) (hne : B.insts ≠ []) (S : InstPos) (v a g : Bool)
    (hS : F.inst? S = some (.store v a g)) (I : Nat) (hI : I ≤ B.insts.length)
    (hclean : ∀ k, k < I → ∀ inst, F.inst? ⟨0, k⟩ = some inst →
      forcesCut inst = false ∧ (inst.isLoad = true → AA.mayRef ⟨0, k⟩ S = false))
    (Pairs : List AntidependencePairTy) :
    scanForAliasingLoad F AA 0 I 0 S Pairs =
      some (g, if g then Pairs ++ [(⟨0, 0⟩, S)] else Pairs) := by
  have hcl : ∀ j, 0 ≤ j → j < I → stopperAt F AA S ⟨0, j⟩ = false := by
    intro j _ hj
    unfold stopperAt
    cases hi : F.inst? ⟨0, j⟩ with
    | none => rfl
    | some inst =>
      obtain ⟨h1, h2⟩ := hclean j hj inst hi
      simp only [h1, Bool.false_or, Bool.and_eq_false_imp]
      exact h2
  have hloop := scanLoop_clean F AA B 0 0 S Pairs hB I (Nat.zero_le _) hI hcl
  have hlen : 0 < B.insts.length := List.length_pos.mpr hne
  unfold scanForAliasingLoad
  rw [hB]
  simp only [hloop, hlen, if_true, hS, Instruction.storesToGlobal]
  cases g <;> simp

/-- Witness of C18: the scan of the entry block of the loop scenario from its
end for the store of the body, which writes to a global. -/
theorem entry_rule_witness :
    scanForAliasingLoad (loopScenario true false) mayAliasAll 0 2 0 ⟨1, 1⟩ [] =
      some (true, if true then [] ++ [(⟨0, 0⟩, ⟨1, 1⟩)] else []) :=
  entry_rule (loopScenario true false) mayAliasAll
    ⟨[.store false false true, .other], [], [1]⟩ rfl (by simp) ⟨1, 1⟩ false false true rfl 2
    (by decide)
    (by
      intro k hk inst hi
      interval_cases k
      · have e : inst = .store false false true := by
          simpa [Function.inst?, loopScenario] using hi.symm
        subst e
        exact ⟨rfl, fun h => by cases h⟩
      · have e : inst = .other := by
          simpa [Function.inst?, loopScenario] using hi.symm
        subst e
        exact ⟨rfl, fun h => by cases h⟩) []

/-! ## C20 -/

/-- C20 (as stated, refuted): when `g` is a global, the entry rule also records
the pair of the store of the entry block with itself, so the analysis records
two pairs and the final cut set has two members, one of them in the entry
block; with or without an exit block behind the loop. -/
theorem loop_scenario_global :
    (runOnFunction (loopScenario true false) mayAliasAll loopScenarioTree loopScenarioLoops
        insertionOrder .releaseMemory).map
        (fun st => (st.AntidependencePairs_, st.AntidependencePaths_, st.CutSet_)) =
      some ([(⟨0, 0⟩, ⟨0, 0⟩), (⟨1, 0⟩, ⟨1, 1⟩)], [[⟨0, 0⟩], [⟨1, 1⟩]],
        [⟨0, 0⟩, ⟨1, 1⟩]) ∧
    (runOnFunction (loopScenario true true) mayAliasAll loopScenarioTree loopScenarioLoops
        insertionOrder .releaseMemory).map
        (fun st => (st.AntidependencePairs_, st.AntidependencePaths_, st.CutSet_)) =
      some ([(⟨0, 0⟩, ⟨0, 0⟩), (⟨1, 0⟩, ⟨1, 1⟩)], [[⟨0, 0⟩], [⟨1, 1⟩]],
        [⟨0, 0⟩, ⟨1, 1⟩]) := by
  refine ⟨by decide, by decide⟩

theorem loopScenario_hittingSet (Order : IterationOrder) (hOrd : Order.Ok)
    (S : MemoryIdempotenceAnalysisImpl) (hP : S.AntidependencePaths_ = [[⟨1, 1⟩]]) :
    computeHittingSet loopScenarioLoops Order S =
      computeHittingSet loopScenarioLoops insertionOrder S := by
  have hset : Order.setOrder [0] = [0] := List.perm_singleton.mp (hOrd.2 [0])
  have e4 : findCandidates loopScenarioLoops [[⟨1, 1⟩]] 0 [] =
      some [⟨⟨1, 1⟩, [0], 0, 0, 1, 1, 65534⟩] := by decide
  unfold computeHittingSet
  rw [hP]
  simp only [e4]
  rw [initialWorklist_order_independent Order insertionOrder hOrd insertionOrder_ok _ (by decide)]
  have e5 : initialWorklist insertionOrder [⟨⟨1, 1⟩, [0], 0, 0, 1, 1, 65534⟩] =
      some [⟨1, 1⟩] := by decide
  simp only [e5]
  have e6 : CandidateInfoMapTy.lookup [⟨⟨1, 1⟩, [0], 0, 0, 1, 1, 65534⟩] ⟨1, 1⟩ =
      some ⟨⟨1, 1⟩, [0], 0, 0, 1, 1, 65534⟩ := by decide
  have e7 : CandidateInfo.size ⟨⟨1, 1⟩, [0], 0, 0, 1, 1, 65534⟩ ≠ 0 := by decide
  simp only [hittingSetLoop, List.length_singleton, List.getLast?_singleton, e6, e7, if_false,
    hset, insertionOrder, id]
  have e8 : ∀ A, processPaths [[⟨1, 1⟩]] ⟨1, 1⟩ [0] [⟨⟨1, 1⟩, [0], 0, 0, 1, 1, 65534⟩]
      ([⟨1, 1⟩] : List InstPos).dropLast A =
      some ([⟨⟨1, 1⟩, [0], 0, 0, 1, 1, 65534⟩], [], setInsert A ⟨1, 1⟩) := by
    intro A
    rfl
  simp only [e8, List.getLast?_nil]

/-- With one path of one instruction the order in which the hash containers
enumerate plays no part in the loop scenario. -/
theorem loopScenario_order (Order : IterationOrder) (hOrd : Order.Ok) (withExit : Bool) :
    runOnFunction (loopScenario false withExit) mayAliasAll loopScenarioTree loopScenarioLoops
        Order .releaseMemory =
      runOnFunction (loopScenario false withExit) mayAliasAll loopScenarioTree loopScenarioLoops
        insertionOrder .releaseMemory := by
  have e2 : computePairs (loopScenario false withExit) mayAliasAll
      (loopScenario false withExit).positions
      (computeForcedCuts (loopScenario false withExit) (loopScenario false withExit).positions
        .releaseMemory).AntidependencePairs_ = some [(⟨1, 0⟩, ⟨1, 1⟩)] := by
    cases withExit <;> decide
  have e3 : computeAntidependencePaths (loopScenario false withExit) loopScenarioTree
      [(⟨1, 0⟩, ⟨1, 1⟩)]
      (computeForcedCuts (loopScenario false withExit) (loopScenario false withExit).positions
        .releaseMemory).AntidependencePaths_ = some [[⟨1, 1⟩]] := by
    cases withExit <;> decide
  unfold runOnFunction
  simp only [e2]
  rw [if_neg (by simp), if_neg (by simp)]
  simp only [e3]
  exact loopScenario_hittingSet Order hOrd _ rfl

/-- C20 (amended): when `g` is no global, the analysis records exactly the pair
of the load and the store of the body, and the final cut set has exactly one
member, the store of the body; with or without an exit block behind the loop
and whatever the order in which the hash containers enumerate. -/
theorem loop_scenario_local (Order : IterationOrder) (hOrd : Order.Ok) (withExit : Bool) :
    (runOnFunction (loopScenario false withExit) mayAliasAll loopScenarioTree loopScenarioLoops
        Order .releaseMemory).map
        (fun st => (st.AntidependencePairs_, st.AntidependencePaths_, st.CutSet_)) =
      some ([(⟨1, 0⟩, ⟨1, 1⟩)], [[⟨1, 1⟩]], [⟨1, 1⟩]) := by
  rw [loopScenario_order Order hOrd withExit]
  cases withExit <;> decide

/-- Witness of C20 (amended): the scenario with the exit block and hash
containers that enumerate in reverse order of insertion. -/
theorem loop_scenario_local_witness :
    (runOnFunction (loopScenario false true) mayAliasAll loopScenarioTree loopScenarioLoops
        reverseOrder .releaseMemory).map
        (fun st => (st.AntidependencePairs_, st.AntidependencePaths_, st.CutSet_)) =
      some ([(⟨1, 0⟩, ⟨1, 1⟩)], [[⟨1, 1⟩]], [⟨1, 1⟩]) :=
  loop_scenario_local reverseOrder reverseOrder_ok true

end Ratchet

namespace Ratchet

/-! ## C14 -/

/-- What `PathSpec` says about the instructions behind the store in terms of
the dominance between instructions. -/
theorem pathSpec_dominance (F : Function) (DT : DominatorTree) (hDT : DT.WellFormed F)
    (Pair : AntidependencePairTy) (hPair : PairOk F Pair) (Path : AntidependencePathTy)
    (hSpec : PathSpec F DT Pair Path) :
    Path.Nodup ∧ ∀ c ∈ Path.tail, F.isStoreAt c = true ∧ c ≠ Pair.2 ∧
      DT.instDominates c Pair.2 = true ∧ DT.instDominates c Pair.1 = false := by
  obtain ⟨L, S⟩ := Pair
  obtain ⟨rest, hP, hnd, hc⟩ := hSpec
  dsimp only at hP hnd hc hPair ⊢
  refine ⟨hnd, ?_⟩
  rw [hP, List.tail_cons]
  intro c hcr
  obtain ⟨⟨inst, hinst, hstore⟩, hcase⟩ := hc c hcr
  have hne : c ≠ S := by
    intro e
    rw [hP, List.nodup_cons] at hnd
    exact hnd.1 (e ▸ hcr)
  have hLlt : L.bb < F.blocks.length := by
    obtain ⟨B, hB, _⟩ := valid_of_pos F L hPair.1
    exact lt_of_block F L.bb B hB
  have hLhead : L.bb ∈ DT.getNode L.bb := by
    have := (hDT L.bb hLlt).1
    cases hn : DT.getNode L.bb with
    | nil => rw [hn] at this; cases this
    | cons a t =>
      rw [hn] at this
      simp only [List.head?_cons, Option.some.injEq] at this
      rw [this]
      exact List.mem_cons_self _ _
  refine ⟨by simp [Function.isStoreAt, hinst, hstore], hne, ?_, ?_⟩
  · rcases hcase with ⟨_, _, hcbb, _, hhi⟩ | ⟨_, hin, _, hown⟩
    · simp [DominatorTree.instDominates, hcbb, hhi]
    · unfold DominatorTree.instDominates
      by_cases e : c.bb = S.bb
      · rw [if_pos e]
        simpa using hown e
      · rw [if_neg e]
        simpa using hin
  · rcases hcase with ⟨hbb, _, hcbb, hlo, _⟩ | ⟨_, _, hout, _⟩
    · have e : c.bb = L.bb := hcbb.trans hbb
      simp only [DominatorTree.instDominates, e, if_true, decide_eq_false_iff_not]
      omega
    · unfold DominatorTree.instDominates
      by_cases e : c.bb = L.bb
      · exact absurd (e ▸ hLhead) hout
      · rw [if_neg e]
        simpa using hout

/-- C14: `runOnFunction` returns, and for every pair `(L, S)` the path is
duplicate-free and each of its elements behind the first is a store other than
`S` that dominates `S` and does not dominate `L`, dominance being that of the
dominator tree. -/
theorem path_elements_dominate (F : Function) (AA : AliasAnalysis) (DT : DominatorTree)
    (LI : LoopInfo) (Order : IterationOrder) (hWF : F.WellFormed) (hDT : DT.WellFormed F)
    (hOrd : Order.Ok)
    (hcount : ∀ Pairs, computePairs F AA F.positions [] = some Pairs → Pairs.length < 32768) :
    ∃ st, runOnFunction F AA DT LI Order .releaseMemory = some st ∧
      List.Forall₂ (fun Pair Path => Path.Nodup ∧ ∀ c ∈ Path.tail, F.isStoreAt c = true ∧
          c ≠ Pair.2 ∧ DT.instDominates c Pair.2 = true ∧ DT.instDominates c Pair.1 = false)
        st.AntidependencePairs_ st.AntidependencePaths_ := by
  obtain ⟨st, h1, h2, h3, _⟩ := runOnFunction_ok F AA DT LI Order hWF hDT hOrd hcount
  obtain ⟨new, hnew, hok⟩ := computePairs_ok F AA hWF F.positions []
  rw [h2] at hnew
  simp only [List.nil_append, Option.some.injEq] at hnew
  refine ⟨st, h1, ?_⟩
  have hall : ∀ pr ∈ st.AntidependencePairs_, PairOk F pr := by
    intro pr hpr
    exact hok pr (by rw [← hnew]; exact hpr)
  clear h2 hnew h1
  generalize st.AntidependencePairs_ = pairs at h3 hall
  generalize st.AntidependencePaths_ = paths at h3
  induction h3 with
  | nil => exact List.Forall₂.nil
  | cons hab _ ih =>
    exact List.Forall₂.cons
      (pathSpec_dominance F DT hDT _ (hall _ (List.mem_cons_self _ _)) _ hab)
      (ih (fun pr hpr => hall pr (List.mem_cons_of_mem _ hpr)))

/-- Witness of C14 on `exampleTie`, whose path holds the two stores of
block 2 behind the store of block 3. -/
theorem path_elements_dominate_witness :
    ∃ st, runOnFunction exampleTie exampleTieAlias exampleTieTree exampleTieLoops insertionOrder
        .releaseMemory = some st ∧
      List.Forall₂ (fun Pair Path => Path.Nodup ∧ ∀ c ∈ Path.tail,
          exampleTie.isStoreAt c = true ∧ c ≠ Pair.2 ∧
          exampleTieTree.instDominates c Pair.2 = true ∧
          exampleTieTree.instDominates c Pair.1 = false)
        st.AntidependencePairs_ st.AntidependencePaths_ :=
  path_elements_dominate exampleTie exampleTieAlias exampleTieTree exampleTieLoops
    insertionOrder exampleTie_wf exampleTieTree_wf insertionOrder_ok
    (by
      intro Pairs h
      rw [exampleTie_pairs] at h
      cases h
      decide)

end Ratchet

namespace Ratchet

/-! ## The analysis as the composition of its phases -/

theorem computeAntidependencePaths_each (F : Function) (DT : DominatorTree) :
    ∀ (Pairs : List AntidependencePairTy) (Acc R : List AntidependencePathTy),
      computeAntidependencePaths F DT Pairs Acc = some R →
      ∃ new, R = Acc ++ new ∧
        List.Forall₂ (fun p q => computeAntidependencePath F DT p = some q) Pairs new := by
  intro Pairs
  induction Pairs with
  | nil =>
    intro Acc R h
    simp only [computeAntidependencePaths, Option.some.injEq] at h
    exact ⟨[], by simp [h], List.Forall₂.nil⟩
  | cons Pair Pairs ih =>
    intro Acc R h
    unfold computeAntidependencePaths at h
    cases hp : computeAntidependencePath F DT Pair with
    | none => simp [hp] at h
    | some Path =>
      simp only [hp] at h
      obtain ⟨new, h1, h2⟩ := ih _ _ h
      exact ⟨Path :: new, by rw [h1]; simp, List.Forall₂.cons hp h2⟩

/-- The analysis returns the state that the hitting set computation leaves for
the pairs and the paths of the function. -/
theorem runOnFunction_eq (F : Function) (AA : AliasAnalysis) (DT : DominatorTree)
    (LI : LoopInfo) (Order : IterationOrder) (hWF : F.WellFormed) (hDT : DT.WellFormed F)
    (hOrd : Order.Ok)
    (hcount : ∀ Pairs, computePairs F AA F.positions [] = some Pairs → Pairs.length < 32768) :
    ∃ st, runOnFunction F AA DT LI Order .releaseMemory = some st ∧
      (∀ pr ∈ st.AntidependencePairs_, PairOk F pr) ∧
      List.Forall₂ (fun p q => computeAntidependencePath F DT p = some q)
        st.AntidependencePairs_ st.AntidependencePaths_ ∧
      List.Forall₂ (PathSpec F DT) st.AntidependencePairs_ st.AntidependencePaths_ ∧
      st.AntidependencePaths_.length < 32768 ∧
      (st.AntidependencePairs_ = [] → st.CutMap_ = []) ∧
      (st.AntidependencePairs_ ≠ [] → ∃ S0 : MemoryIdempotenceAnalysisImpl,
        S0.CutMap_ = [] ∧ S0.AntidependencePaths_ = st.AntidependencePaths_ ∧
        computeHittingSet LI Order S0 = some st) := by
  have g := computeForcedCuts_fields F F.positions .releaseMemory
  simp only [MemoryIdempotenceAnalysisImpl.releaseMemory] at g
  obtain ⟨g1, g2, g3, _⟩ := g
  obtain ⟨Pairs, hPairs, hok⟩ := computePairs_ok F AA hWF F.positions []
  simp only [List.nil_append] at hPairs
  have hlen := hcount Pairs hPairs
  unfold runOnFunction
  simp only [MemoryIdempotenceAnalysisImpl.releaseMemory, g2, hPairs]
  by_cases hnil : Pairs = []
  · subst hnil
    rw [if_pos rfl]
    refine ⟨_, rfl, ?_, ?_, ?_, ?_, ?_, ?_⟩
    · intro pr hpr
      simp at hpr
    · simp only [g3]
      exact List.Forall₂.nil
    · simp only [g3]
      exact List.Forall₂.nil
    · simp only [g3]
      simp
    · intro _
      exact g1
    · intro h
      exact absurd rfl h
  · rw [if_neg hnil]
    obtain ⟨Paths, hPaths, hspec⟩ := computeAntidependencePaths_spec F DT hDT Pairs [] hok
    simp only [List.nil_append] at hPaths
    obtain ⟨new, hnew, heach⟩ := computeAntidependencePaths_each F DT Pairs [] Paths hPaths
    simp only [List.nil_append] at hnew
    subst hnew
    simp only [g3, hPaths]
    have hPok : PathsOk Paths := pathsOk_of_spec F DT Pairs Paths hspec
    have hPlen : Paths.length < 32768 := by
      rw [← hspec.length_eq]
      exact hlen
    obtain ⟨S', hS', e1, e2, _⟩ :=
      computeHittingSet_ok LI Order hOrd
        { CutSet_ := (computeForcedCuts F F.positions
            { CutSet_ := [], CutMap_ := [], AntidependencePairs_ := []
              AntidependencePaths_ := [] }).CutSet_
          CutMap_ := (computeForcedCuts F F.positions
            { CutSet_ := [], CutMap_ := [], AntidependencePairs_ := []
              AntidependencePaths_ := [] }).CutMap_
          AntidependencePairs_ := Pairs
          AntidependencePaths_ := Paths } hPok hPlen
        g1
    simp only at e1 e2
    refine ⟨S', hS', ?_, ?_, ?_, ?_, ?_, ?_⟩
    · rw [e2]
      intro pr hpr
      exact hok pr hpr
    · rw [e1, e2]
      exact heach
    · rw [e1, e2]
      exact hspec
    · rw [e1]
      exact hPlen
    · intro h
      rw [e2] at h
      exact absurd h hnil
    · intro _
      exact ⟨⟨(computeForcedCuts F F.positions ⟨[], [], [], []⟩).CutSet_,
        (computeForcedCuts F F.positions ⟨[], [], [], []⟩).CutMap_, Pairs, Paths⟩,
        g1, e1.symm, hS'⟩

theorem forall₂_imp_mem {α β : Type} {R Q : α → β → Prop} {l1 : List α} {l2 : List β}
    (h : List.Forall₂ R l1 l2) (hi : ∀ a b, a ∈ l1 → R a b → Q a b) : List.Forall₂ Q l1 l2 := by
  induction h with
  | nil => exact List.Forall₂.nil
  | cons hab _ ih =>
    exact List.Forall₂.cons (hi _ _ (List.mem_cons_self _ _) hab)
      (ih (fun a b ha => hi a b (List.mem_cons_of_mem _ ha)))

/-! ## C16: the block-local path -/

theorem storesBetween_succ (F : Function) (bb lo c : Nat) (h : lo < c) :
    storesBetween F bb lo (c + 1) =
      (if F.isStoreAt ⟨bb, c⟩ then [(⟨bb, c⟩ : InstPos)] else []) ++ storesBetween F bb lo c := by
  unfold storesBetween
  have e1 : c + 1 - lo - 1 = (c - lo - 1) + 1 := by omega
  have e2 : lo + 1 + (c - lo - 1) = c := by omega
  rw [e1, List.range'_1_concat, List.reverse_append, e2]
  simp only [List.reverse_cons, List.reverse_nil, List.nil_append, List.singleton_append,
    List.map_cons, List.filter_cons]
  by_cases hs : F.isStoreAt ⟨bb, c⟩ = true
  · simp [hs]
  · simp [hs]

theorem isStoreAt_eq (F : Function) (bb c : Nat) (B : BasicBlock)
    (hB : F.blocks[bb]? = some B) (inst : Instruction) (hget : B.insts[c]? = some inst) :
    F.isStoreAt ⟨bb, c⟩ = inst.isStore := by
  unfold Function.isStoreAt
  rw [inst?_eq F bb c B hB, hget]

theorem scanStoresToLoad_eq (F : Function) (B : BasicBlock) (bb Load : Nat)
    (hB : F.blocks[bb]? = some B) :
    ∀ (c : Nat) (Path : AntidependencePathTy), Load < c → c ≤ B.insts.length →
      scanStoresToLoad B bb Load c Path = some (Path ++ storesBetween F bb Load c) := by
  intro c
  induction c with
  | zero => intro Path h; omega
  | succ c ih =>
    intro Path hL hc
    unfold scanStoresToLoad
    by_cases hcl : c = Load
    · subst hcl
      simp [storesBetween]
    · simp only [hcl, if_false]
      have hlt : c < B.insts.length := by omega
      have hget : B.insts[c]? = some B.insts[c] := List.getElem?_eq_getElem hlt
      rw [hget]
      simp only
      rw [ih _ (by omega) (by omega), storesBetween_succ F bb Load c (by omega),
        isStoreAt_eq F bb c B hB _ hget]
      by_cases hs : B.insts[c].isStore = true
      · simp [hs]
      · simp [hs]

/-- The path of a pair whose load dominates the store in one block. -/
theorem local_path_eq (F : Function) (DT : DominatorTree) (hDT : DT.WellFormed F)
    (L S : InstPos) (hP : PairOk F (L, S)) (hbb : S.bb = L.bb)
    (hdom : DT.dominates L S = true) :
    computeAntidependencePath F DT (L, S) =
      some (S :: storesBetween F S.bb L.idx S.idx) := by
  obtain ⟨hLok, hSok⟩ := hP
  simp only at hLok hSok
  obtain ⟨BS, hBS, hSidx⟩ := valid_of_pos F S hSok
  obtain ⟨BL, hBL, hLidx⟩ := valid_of_pos F L hLok
  have hSlt := lt_of_block F S.bb BS hBS
  have hLlt := lt_of_block F L.bb BL hBL
  obtain ⟨hSh, _, _⟩ := hDT S.bb hSlt
  obtain ⟨hLh, _, _⟩ := hDT L.bb hLlt
  have hLne : DT.getNode L.bb ≠ [] := by
    intro e
    rw [e] at hLh
    simp at hLh
  have hSne : DT.getNode S.bb ≠ [] := by
    intro e
    rw [e] at hSh
    simp at hSh
  have hlt : L.idx < S.idx := by
    have := hdom
    unfold DominatorTree.dominates at this
    rw [if_neg hSne, if_neg hLne] at this
    by_cases hLS : L = S
    · simp [hLS] at this
    · simpa [hLS] using this
  unfold computeAntidependencePath
  simp only
  rw [if_pos ⟨hbb, hdom⟩, hBS]
  simp only
  rw [scanStoresToLoad_eq F BS S.bb L.idx hBS S.idx [S] hlt (by omega)]
  rfl

/-- C16: `runOnFunction` returns, and for every pair `(L, S)` with `L` and `S`
in one block and `L` dominating `S` the path is `S` followed by the stores
strictly between `L` and `S`, from the last one back to the first one, and
nothing else. -/
theorem local_path_exact (F : Function) (AA : AliasAnalysis) (DT : DominatorTree)
    (LI : LoopInfo) (Order : IterationOrder) (hWF : F.WellFormed) (hDT : DT.WellFormed F)
    (hOrd : Order.Ok)
    (hcount : ∀ Pairs, computePairs F AA F.positions [] = some Pairs → Pairs.length < 32768) :
    ∃ st, runOnFunction F AA DT LI Order .releaseMemory = some st ∧
      List.Forall₂ (fun Pair Path => Pair.2.bb = Pair.1.bb → DT.dominates Pair.1 Pair.2 = true →
          Path = Pair.2 :: storesBetween F Pair.2.bb Pair.1.idx Pair.2.idx)
        st.AntidependencePairs_ st.AntidependencePaths_ := by
  obtain ⟨st, h1, hok, heach, _⟩ := runOnFunction_eq F AA DT LI Order hWF hDT hOrd hcount
  refine ⟨st, h1, forall₂_imp_mem heach ?_⟩
  intro Pair Path hmem hpath hbb hdom
  have := local_path_eq F DT hDT Pair.1 Pair.2 (hok Pair hmem) hbb hdom
  rw [hpath] at this
  exact Option.some.inj this

theorem exampleLocalStores_wf : exampleLocalStores.WellFormed :=
  function_wellFormed_of_check _ (by decide)

theorem entryOnlyTree_localStores : entryOnlyTree.WellFormed exampleLocalStores := by
  intro b hb
  have : b = 0 := by
    simp [exampleLocalStores] at hb
    omega
  subst this
  simp [entryOnlyTree, exampleLocalStores]

theorem exampleLocalStores_pairs :
    computePairs exampleLocalStores exampleLocalStoresAlias exampleLocalStores.positions [] =
      some [(⟨0, 0⟩, ⟨0, 4⟩)] := by
  decide

/-- Witness of C16 on `exampleLocalStores`, where the path of the pair of the
load and the last store is the last store followed by the stores at the
indices 3 and 1. -/
theorem local_path_exact_witness :
    (∃ st, runOnFunction exampleLocalStores exampleLocalStoresAlias entryOnlyTree noLoops
        insertionOrder .releaseMemory = some st ∧
      List.Forall₂ (fun Pair Path => Pair.2.bb = Pair.1.bb →
          entryOnlyTree.dominates Pair.1 Pair.2 = true →
          Path = Pair.2 :: storesBetween exampleLocalStores Pair.2.bb Pair.1.idx Pair.2.idx)
        st.AntidependencePairs_ st.AntidependencePaths_) ∧
      storesBetween exampleLocalStores 0 0 4 = [⟨0, 3⟩, ⟨0, 1⟩] :=
  ⟨local_path_exact exampleLocalStores exampleLocalStoresAlias entryOnlyTree noLoops
    insertionOrder exampleLocalStores_wf entryOnlyTree_localStores insertionOrder_ok
    (by
      intro Pairs h
      rw [exampleLocalStores_pairs] at h
      cases h
      decide), by decide⟩

end Ratchet

namespace Ratchet

/-! ## C15: the non-local path -/

theorem chainOk_spec (DT : DominatorTree) :
    ∀ l : List Nat, DT.chainOk l = true →
      ∀ (a : Nat) (t : List Nat), (a :: t) <:+ l → DT.getNode a = a :: t := by
  intro l
  induction l with
  | nil =>
    intro _ a t h
    have := List.IsSuffix.length_le h
    simp at this
  | cons x l ih =>
    intro hc a t hsuf
    simp only [DominatorTree.chainOk, Bool.and_eq_true, decide_eq_true_eq] at hc
    rcases List.suffix_cons_iff.mp hsuf with h | h
    · rw [List.cons.injEq] at h
      rw [h.1, h.2]
      exact hc.1
    · exact ih hc.2 a t h

theorem isTree_of_check (DT : DominatorTree) (F : Function) (h : DT.checkTree F = true) :
    DT.IsTree F := by
  intro b hb a t hsuf
  unfold DominatorTree.checkTree at h
  rw [List.all_eq_true] at h
  exact chainOk_spec DT _ (h b (List.mem_range.mpr hb)) a t hsuf

theorem scanStoresToBegin_eq (F : Function) (B : BasicBlock) (bb : Nat)
    (hB : F.blocks[bb]? = some B) :
    ∀ (c : Nat) (Path : AntidependencePathTy), c ≤ B.insts.length →
      scanStoresToBegin B bb c Path = some (Path ++
        ((List.range c).reverse.map (fun i => (⟨bb, i⟩ : InstPos))).filter F.isStoreAt) := by
  intro c
  induction c with
  | zero => intro Path _; simp [scanStoresToBegin]
  | succ c ih =>
    intro Path hc
    have hlt : c < B.insts.length := by omega
    have hget : B.insts[c]? = some B.insts[c] := List.getElem?_eq_getElem hlt
    unfold scanStoresToBegin
    rw [hget]
    simp only
    rw [ih _ (by omega), List.range_succ, List.reverse_append]
    simp only [List.reverse_cons, List.reverse_nil, List.nil_append, List.singleton_append,
      List.map_cons, List.filter_cons, isStoreAt_eq F bb c B hB _ hget]
    by_cases hs : B.insts[c].isStore = true
    · simp [hs]
    · simp [hs]

theorem isStoreAt_valid (F : Function) (x : InstPos) (h : F.isStoreAt x = true) :
    x.idx < F.blockLen x.bb := by
  unfold Function.isStoreAt Function.inst? at h
  unfold Function.blockLen
  cases hB : F.blocks[x.bb]? with
  | none => simp [hB] at h
  | some B =>
    rw [hB] at h
    simp only at h ⊢
    by_contra hcon
    rw [List.getElem?_eq_none (by omega)] at h
    simp at h

theorem dominatesNode_true (d : Nat) (rest LDT : List Nat) (hL : LDT ≠ [])
    (h : DominatorTree.dominatesNode (d :: rest) LDT = true) : d ∈ LDT := by
  cases LDT with
  | nil => exact absurd rfl hL
  | cons l ls =>
    simp only [DominatorTree.dominatesNode, Bool.or_eq_true, beq_iff_eq] at h
    rcases h with h | h
    · rw [h]
      exact List.mem_cons_self _ _
    · exact List.mem_cons_of_mem _ (by simpa using h)

/-- The stores that the non-local walk collects: those of the blocks of the
chain that are not on the chain of the load's block, in the first block those
before the cursor. -/
theorem nonLocalPath_iff (F : Function) (LDT : DomTreeNode) (hL : LDT ≠ []) :
    ∀ (chain : DomTreeNode) (BB Cursor : Nat) (Path : AntidependencePathTy),
      chain.head? = some BB → chain.Nodup → (∀ a ∈ chain, a < F.blocks.length) →
      Cursor ≤ F.blockLen BB →
      (∀ (a : Nat) (t : List Nat), (a :: t) <:+ chain → a ∈ LDT → ∀ x ∈ t, x ∈ LDT) →
      ∃ new, nonLocalPath F LDT chain BB Cursor Path = some (Path ++ new) ∧
        ∀ x, x ∈ new ↔ (F.isStoreAt x = true ∧ x.bb ∈ chain ∧ x.bb ∉ LDT ∧
          (x.bb = BB → x.idx < Cursor)) := by
  intro chain
  induction chain with
  | nil => intro BB Cursor Path h; simp at h
  | cons d rest ih =>
    intro BB Cursor Path hhead hnd hvalid hCursor hup
    simp only [List.head?_cons, Option.some.injEq] at hhead
    subst hhead
    have hdrest : d ∉ rest := (List.nodup_cons.mp hnd).1
    have hndrest : rest.Nodup := (List.nodup_cons.mp hnd).2
    unfold nonLocalPath
    by_cases hdom : DominatorTree.dominatesNode (d :: rest) LDT = true
    · refine ⟨[], by simp [hdom], ?_⟩
      intro x
      have hd : d ∈ LDT := dominatesNode_true d rest LDT hL hdom
      simp only [List.not_mem_nil, false_iff]
      rintro ⟨_, hin, hout, _⟩
      rcases List.mem_cons.mp hin with h | h
      · exact hout (h ▸ hd)
      · exact hout (hup d rest (List.suffix_refl _) hd _ h)
    · simp only [hdom, if_false, Bool.false_eq_true]
      have hdL : d ∉ LDT := dominatesNode_false d rest LDT hL (by simpa using hdom)
      obtain ⟨B, hB⟩ := block_of_lt F d (hvalid d (List.mem_cons_self _ _))
      rw [hB]
      simp only
      rw [blockLen_eq F d B hB] at hCursor
      rw [scanStoresToBegin_eq F B d hB Cursor Path hCursor]
      simp only
      have hnew1 : ∀ x, x ∈ ((List.range Cursor).reverse.map
          (fun i => (⟨d, i⟩ : InstPos))).filter F.isStoreAt ↔
          (F.isStoreAt x = true ∧ x.bb = d ∧ x.idx < Cursor) := by
        intro x
        simp only [List.mem_filter, List.mem_map, List.mem_reverse, List.mem_range]
        constructor
        · rintro ⟨⟨i, hi, rfl⟩, hs⟩
          exact ⟨hs, rfl, hi⟩
        · rintro ⟨hs, h1, h2⟩
          exact ⟨⟨x.idx, h2, by rw [← h1]⟩, hs⟩
      cases rest with
      | nil =>
        refine ⟨_, rfl, ?_⟩
        intro x
        rw [hnew1]
        constructor
        · rintro ⟨hs, h1, h2⟩
          exact ⟨hs, by simp [h1], h1 ▸ hdL, fun _ => h2⟩
        · rintro ⟨hs, hin, _, hc⟩
          have h1 : x.bb = d := by simpa using hin
          exact ⟨hs, h1, hc h1⟩
      | cons d1 rest1 =>
        simp only
        obtain ⟨B1, hB1⟩ := block_of_lt F d1
          (hvalid d1 (List.mem_cons_of_mem _ (List.mem_cons_self _ _)))
        rw [hB1]
        simp only
        obtain ⟨new2, h7, h9⟩ := ih d1 B1.insts.length
          (Path ++ ((List.range Cursor).reverse.map
            (fun i => (⟨d, i⟩ : InstPos))).filter F.isStoreAt) rfl hndrest
          (fun a ha => hvalid a (List.mem_cons_of_mem _ ha))
          (by rw [blockLen_eq F d1 B1 hB1])
          (fun a t hsuf => hup a t (List.suffix_cons_iff.mpr (Or.inr hsuf)))
        refine ⟨((List.range Cursor).reverse.map (fun i => (⟨d, i⟩ : InstPos))).filter
          F.isStoreAt ++ new2, by rw [h7, List.append_assoc], ?_⟩
        intro x
        rw [List.mem_append, hnew1, h9]
        constructor
        · rintro (⟨hs, h1, h2⟩ | ⟨hs, hin, hout, _⟩)
          · exact ⟨hs, by simp [h1], h1 ▸ hdL, fun _ => h2⟩
          · refine ⟨hs, List.mem_cons_of_mem _ hin, hout, ?_⟩
            intro e
            exact absurd (e ▸ hin) hdrest
        · rintro ⟨hs, hin, hout, hc⟩
          rcases List.mem_cons.mp hin with h1 | h1
          · exact Or.inl ⟨hs, h1, hc h1⟩
          · refine Or.inr ⟨hs, h1, hout, ?_⟩
            intro e
            have := isStoreAt_valid F x hs
            rw [e, blockLen_eq F d1 B1 hB1] at this
            exact this

/-- The path of a pair that the non-local case handles. -/
theorem nonlocal_path_iff (F : Function) (DT : DominatorTree) (hDT : DT.WellFormed F)
    (hTree : DT.IsTree F) (L S : InstPos) (hP : PairOk F (L, S))
    (hloc : ¬ (S.bb = L.bb ∧ DT.dominates L S = true)) :
    ∃ rest, computeAntidependencePath F DT (L, S) = some (S :: rest) ∧
      ∀ c, c ∈ rest ↔ (F.isStoreAt c = true ∧ DT.instDominates c S = true ∧
        c.bb ∉ DT.getNode L.bb) := by
  obtain ⟨hLok, hSok⟩ := hP
  simp only at hLok hSok
  obtain ⟨BS, hBS, hSidx⟩ := valid_of_pos F S hSok
  obtain ⟨BL, hBL, hLidx⟩ := valid_of_pos F L hLok
  have hSlt := lt_of_block F S.bb BS hBS
  have hLlt := lt_of_block F L.bb BL hBL
  obtain ⟨hSh, hSnd, hSv⟩ := hDT S.bb hSlt
  obtain ⟨hLh, _, _⟩ := hDT L.bb hLlt
  have hLne : DT.getNode L.bb ≠ [] := by
    intro e
    rw [e] at hLh
    simp at hLh
  have hShead : S.bb ∈ DT.getNode S.bb := by
    cases hn : DT.getNode S.bb with
    | nil => rw [hn] at hSh; cases hSh
    | cons a t =>
      rw [hn] at hSh
      simp only [List.head?_cons, Option.some.injEq] at hSh
      rw [hSh]
      exact List.mem_cons_self _ _
  have hup : ∀ (a : Nat) (t : List Nat), (a :: t) <:+ DT.getNode S.bb →
      a ∈ DT.getNode L.bb → ∀ x ∈ t, x ∈ DT.getNode L.bb := by
    intro a t hsuf ha x hx
    have e1 := hTree S.bb hSlt a t hsuf
    obtain ⟨pre, t1, hsplit⟩ := List.append_of_mem ha
    have e2 := hTree L.bb hLlt a t1 ⟨pre, hsplit.symm⟩
    rw [e1] at e2
    have e3 : t = t1 := (List.cons.inj e2).2
    rw [hsplit]
    exact List.mem_append_right _ (List.mem_cons_of_mem _ (e3 ▸ hx))
  obtain ⟨new, h1, h2⟩ := nonLocalPath_iff F (DT.getNode L.bb) hLne (DT.getNode S.bb)
    S.bb S.idx [S] hSh hSnd hSv (by omega) hup
  refine ⟨new, ?_, ?_⟩
  · unfold computeAntidependencePath
    simp only
    rw [if_neg hloc]
    exact h1
  · intro c
    rw [h2]
    unfold DominatorTree.instDominates
    constructor
    · rintro ⟨hs, hin, hout, hc⟩
      refine ⟨hs, ?_, hout⟩
      by_cases e : c.bb = S.bb
      · rw [if_pos e]
        simpa using hc e
      · rw [if_neg e]
        simpa using hin
    · rintro ⟨hs, hd, hout⟩
      by_cases e : c.bb = S.bb
      · rw [if_pos e] at hd
        exact ⟨hs, e ▸ hShead, hout, fun _ => by simpa using hd⟩
      · rw [if_neg e] at hd
        exact ⟨hs, by simpa using hd, hout, fun h => absurd h e⟩

/-- C15 as stated fails: in `exampleStoreBehindLoad` the pair of the load of
block 0 and the store of block 1 is handled by the non-local case and its path
holds the store alone, although the store of block 0 behind the load dominates
the store of the pair and does not dominate the load. -/
theorem nonlocal_path_misses_store :
    ∃ st, runOnFunction exampleStoreBehindLoad exampleStoreBehindLoadAlias twoBlockTree noLoops
        insertionOrder .releaseMemory = some st ∧
      st.AntidependencePairs_ = [(⟨0, 0⟩, ⟨1, 0⟩)] ∧
      st.AntidependencePaths_ = [[⟨1, 0⟩]] ∧
      exampleStoreBehindLoad.isStoreAt ⟨0, 1⟩ = true ∧
      twoBlockTree.instDominates ⟨0, 1⟩ ⟨1, 0⟩ = true ∧
      twoBlockTree.instDominates ⟨0, 1⟩ ⟨0, 0⟩ = false := by
  decide

/-- C15, amended: `runOnFunction` returns, and for every pair `(L, S)` that the
non-local case handles the elements of the path behind `S` are exactly the
stores that dominate `S` and lie in a block that is not on the dominator chain
of the block of `L`. -/
theorem nonlocal_path_block_exact (F : Function) (AA : AliasAnalysis) (DT : DominatorTree)
    (LI : LoopInfo) (Order : IterationOrder) (hWF : F.WellFormed) (hDT : DT.WellFormed F)
    (hTree : DT.IsTree F) (hOrd : Order.Ok)
    (hcount : ∀ Pairs, computePairs F AA F.positions [] = some Pairs → Pairs.length < 32768) :
    ∃ st, runOnFunction F AA DT LI Order .releaseMemory = some st ∧
      List.Forall₂ (fun Pair Path =>
          ¬ (Pair.2.bb = Pair.1.bb ∧ DT.dominates Pair.1 Pair.2 = true) →
          Path.head? = some Pair.2 ∧
          ∀ c, c ∈ Path.tail ↔ (F.isStoreAt c = true ∧ DT.instDominates c Pair.2 = true ∧
            c.bb ∉ DT.getNode Pair.1.bb))
        st.AntidependencePairs_ st.AntidependencePaths_ := by
  obtain ⟨st, h1, hok, heach, _⟩ := runOnFunction_eq F AA DT LI Order hWF hDT hOrd hcount
  refine ⟨st, h1, forall₂_imp_mem heach ?_⟩
  intro Pair Path hmem hpath hloc
  obtain ⟨rest, h2, h3⟩ := nonlocal_path_iff F DT hDT hTree Pair.1 Pair.2 (hok Pair hmem) hloc
  rw [hpath] at h2
  cases h2
  exact ⟨rfl, h3⟩

/-- Witness of C15 (amended) on `exampleTie`, whose pair of the load of block 1
and the store of block 3 is handled by the non-local case. -/
theorem nonlocal_path_block_exact_witness :
    (∃ st, runOnFunction exampleTie exampleTieAlias exampleTieTree exampleTieLoops insertionOrder
        .releaseMemory = some st ∧
      List.Forall₂ (fun Pair Path =>
          ¬ (Pair.2.bb = Pair.1.bb ∧ exampleTieTree.dominates Pair.1 Pair.2 = true) →
          Path.head? = some Pair.2 ∧
          ∀ c, c ∈ Path.tail ↔ (exampleTie.isStoreAt c = true ∧
            exampleTieTree.instDominates c Pair.2 = true ∧
            c.bb ∉ exampleTieTree.getNode Pair.1.bb))
        st.AntidependencePairs_ st.AntidependencePaths_) ∧
      computeAntidependencePath exampleTie exampleTieTree (⟨1, 0⟩, ⟨3, 0⟩) =
        some [⟨3, 0⟩, ⟨2, 1⟩, ⟨2, 0⟩] :=
  ⟨nonlocal_path_block_exact exampleTie exampleTieAlias exampleTieTree exampleTieLoops
    insertionOrder exampleTie_wf exampleTieTree_wf (isTree_of_check _ _ (by decide))
    insertionOrder_ok
    (by
      intro Pairs h
      rw [exampleTie_pairs] at h
      cases h
      decide), by decide⟩

end Ratchet

namespace Ratchet

/-! ## C17: no pair twice -/

theorem scanLoop_length (AA : AliasAnalysis) (B : BasicBlock) (bb E : Nat) (Store : InstPos) :
    ∀ i flag ps, scanForAliasingLoadLoop AA B bb E Store [] i = some (flag, ps) →
      ps.length ≤ 1 ∧ (flag = false → ps = []) := by
  intro i
  induction i with
  | zero =>
    intro flag ps h
    unfold scanForAliasingLoadLoop at h
    by_cases hE : E = 0
    · simp only [hE, if_true, Option.some.injEq, Prod.mk.injEq] at h
      rw [← h.2]
      simp
    · simp [hE] at h
  | succ i ih =>
    intro flag ps h
    unfold scanForAliasingLoadLoop at h
    by_cases hE : i + 1 = E
    · simp only [hE, if_true, Option.some.injEq, Prod.mk.injEq] at h
      rw [← h.2]
      simp
    · simp only [hE, if_false] at h
      cases hget : B.insts[i]? with
      | none => simp [hget] at h
      | some inst =>
        simp only [hget] at h
        by_cases hf : forcesCut inst = true
        · simp only [hf, if_true, Option.some.injEq, Prod.mk.injEq] at h
          rw [← h.2, ← h.1]
          simp
        · simp only [hf, if_false, Bool.false_eq_true] at h
          by_cases hl : (inst.isLoad && AA.mayRef ⟨bb, i⟩ Store) = true
          · simp only [hl, if_true, Option.some.injEq, Prod.mk.injEq] at h
            rw [← h.2, ← h.1]
            simp
          · simp only [hl, if_false, Bool.false_eq_true] at h
            exact ih flag ps h

theorem scan_length (F : Function) (AA : AliasAnalysis) (bb I E : Nat) (Store : InstPos)
    (flag : Bool) (ps : List AntidependencePairTy)
    (h : scanForAliasingLoad F AA bb I E Store [] = some (flag, ps)) :
    ps.length ≤ 1 ∧ (flag = false → ps = []) := by
  unfold scanForAliasingLoad at h
  cases hB : F.blocks[bb]? with
  | none => simp [hB] at h
  | some B =>
    simp only [hB] at h
    cases hs : scanForAliasingLoadLoop AA B bb E Store [] I with
    | none => simp [hs] at h
    | some r =>
      obtain ⟨fl, ps1⟩ := r
      obtain ⟨h1, h2⟩ := scanLoop_length AA B bb E Store I fl ps1 hs
      simp only [hs] at h
      cases fl with
      | true =>
        simp only [Option.some.injEq, Prod.mk.injEq] at h
        rw [← h.2]
        exact ⟨h1, fun e => by rw [← h.1] at e; cases e⟩
      | false =>
        have hnil := h2 rfl
        subst hnil
        simp only [List.nil_append] at h
        by_cases hE : E < B.insts.length
        · simp only [hE, if_true] at h
          by_cases hbb : bb = 0
          · simp only [hbb, if_true] at h
            cases hS : F.inst? Store with
            | none => simp [hS] at h
            | some SI =>
              simp only [hS] at h
              by_cases hg : SI.storesToGlobal = true
              · simp only [hg, if_true, Option.some.injEq, Prod.mk.injEq] at h
                rw [← h.2, ← h.1]
                simp
              · simp only [hg, if_false, Bool.false_eq_true, Option.some.injEq,
                  Prod.mk.injEq] at h
                rw [← h.2]
                simp
          · simp only [hbb, if_false, Option.some.injEq, Prod.mk.injEq] at h
            rw [← h.2]
            simp
        · simp [hE] at h

theorem irPairs_length (F : Function) (AA : AliasAnalysis) (Write : InstPos) (b : Nat) :
    (irPairs F AA Write b).length ≤ 1 := by
  unfold irPairs irScan
  cases hB : F.blocks[b]? with
  | none => simp
  | some B =>
    simp only
    cases hs : scanForAliasingLoad F AA b B.insts.length (irLo Write b) Write [] with
    | none => simp
    | some r => exact (scan_length F AA b _ _ Write r.1 r.2 hs).1

theorem nodup_of_length_le_one {α : Type} (l : List α) (h : l.length ≤ 1) : l.Nodup := by
  match l, h with
  | [], _ => exact List.nodup_nil
  | [a], _ => exact List.nodup_singleton a
  | _ :: _ :: _, h => simp at h

theorem irPairs_flatMap_nodup (F : Function) (AA : AliasAnalysis) (Write : InstPos) :
    ∀ tr : List Nat, tr.Nodup → (tr.flatMap (irPairs F AA Write)).Nodup := by
  intro tr
  induction tr with
  | nil => intro _; simp
  | cons b tr ih =>
    intro hnd
    rw [List.flatMap_cons]
    obtain ⟨hb, hnd'⟩ := List.nodup_cons.mp hnd
    refine List.Nodup.append (nodup_of_length_le_one _ (irPairs_length F AA Write b)) (ih hnd') ?_
    intro pr h1 h2
    obtain ⟨b', hb', hpr⟩ := List.mem_flatMap.mp h2
    have e1 := (irPairs_valid F AA Write b pr h1).2.1
    have e2 := (irPairs_valid F AA Write b' pr hpr).2.1
    exact hb ((e1.symm.trans e2) ▸ hb')

/-- The pairs that `findAntidependencePairs` adds for one store are distinct
and all have the store as their second component. -/
theorem findAntidependencePairs_nodup (F : Function) (AA : AliasAnalysis) (Write : InstPos)
    (hWF : F.WellFormed) (v a g : Bool) (hW : F.inst? Write = some (.store v a g))
    (Pairs : List AntidependencePairTy) :
    ∃ new, findAntidependencePairs F AA Write Pairs = some (Pairs ++ new) ∧ new.Nodup ∧
      ∀ pr ∈ new, pr.2 = Write := by
  obtain ⟨B, flag, ps, tr, hB, hs, htrue, hfalse, hres⟩ :=
    findAntidependencePairs_eq F AA Write hWF v a g hW Pairs
  obtain ⟨hlen, hclean⟩ := scan_length F AA _ _ _ Write flag ps hs
  refine ⟨ps ++ tr.flatMap (irPairs F AA Write), by rw [hres, List.append_assoc], ?_, ?_⟩
  · cases flag with
    | true =>
      rw [htrue rfl]
      simp only [List.flatMap_nil, List.append_nil]
      exact nodup_of_length_le_one _ hlen
    | false =>
      rw [hclean rfl, List.nil_append]
      have hp := pushSuccs_nodup B.preds [] [] List.nodup_nil (by simp)
      have := dfsTrace_nodup _ _ _ _ _ tr (hfalse rfl) hp.1 hp.2
      exact irPairs_flatMap_nodup F AA Write tr this.1
  · intro pr hpr
    rcases List.mem_append.mp hpr with h1 | h1
    · exact (scan_pairs_valid F AA _ _ _ Write flag ps hs pr h1).1
    · obtain ⟨b, _, hb⟩ := List.mem_flatMap.mp h1
      exact (irPairs_valid F AA Write b pr hb).1

theorem computePairs_nodup (F : Function) (AA : AliasAnalysis) (hWF : F.WellFormed) :
    ∀ (Is : List InstPos) (Pairs R : List AntidependencePairTy), Is.Nodup → Pairs.Nodup →
      (∀ pr ∈ Pairs, pr.2 ∉ Is) → computePairs F AA Is Pairs = some R → R.Nodup := by
  intro Is
  induction Is with
  | nil =>
    intro Pairs R _ hP _ h
    simp only [computePairs, Option.some.injEq] at h
    exact h ▸ hP
  | cons I Is ih =>
    intro Pairs R hnd hP hsep h
    obtain ⟨hI, hnd'⟩ := List.nodup_cons.mp hnd
    have hsep' : ∀ pr ∈ Pairs, pr.2 ∉ Is :=
      fun pr hpr hm => hsep pr hpr (List.mem_cons_of_mem _ hm)
    cases hinst : F.inst? I with
    | none =>
      simp only [computePairs, hinst] at h
      exact ih Pairs R hnd' hP hsep' h
    | some inst =>
      cases inst with
      | store v a g =>
        obtain ⟨new, h1, h2, h3⟩ := findAntidependencePairs_nodup F AA I hWF v a g hinst Pairs
        simp only [computePairs, hinst, h1] at h
        refine ih (Pairs ++ new) R hnd' ?_ ?_ h
        · refine List.Nodup.append hP h2 ?_
          intro pr hp1 hp2
          exact hsep pr hp1 (by rw [h3 pr hp2]; exact List.mem_cons_self _ _)
        · intro pr hpr
          rcases List.mem_append.mp hpr with hp | hp
          · exact hsep' pr hp
          · rw [h3 pr hp]
            exact hI
      | _ =>
        simp only [computePairs, hinst] at h
        exact ih Pairs R hnd' hP hsep' h

theorem positions_nodup (F : Function) : F.positions.Nodup := by
  unfold Function.positions
  rw [List.nodup_flatMap]
  refine ⟨?_, ?_⟩
  · intro bb _
    cases hB : F.blocks[bb]? with
    | none => exact List.nodup_nil
    | some B =>
      simp only
      refine List.Nodup.map ?_ (List.nodup_range _)
      intro i j h
      exact congrArg InstPos.idx h
  · refine List.Pairwise.imp_of_mem ?_ (List.nodup_range F.blocks.length)
    intro a b _ _ hab
    intro x h1 h2
    have e1 : x.bb = a := by
      cases hB : F.blocks[a]? with
      | none => simp [hB] at h1
      | some B =>
        simp only [hB, List.mem_map] at h1
        obtain ⟨i, _, hi⟩ := h1
        rw [← hi]
    have e2 : x.bb = b := by
      cases hB : F.blocks[b]? with
      | none => simp [hB] at h2
      | some B =>
        simp only [hB, List.mem_map] at h2
        obtain ⟨i, _, hi⟩ := h2
        rw [← hi]
    exact hab (e1.symm.trans e2)

/-- C17: `runOnFunction` returns and no pair occurs twice in
`AntidependencePairs_`, whatever the control-flow graph. -/
theorem pairs_recorded_once (F : Function) (AA : AliasAnalysis) (DT : DominatorTree)
    (LI : LoopInfo) (Order : IterationOrder) (hWF : F.WellFormed) (hDT : DT.WellFormed F)
    (hOrd : Order.Ok)
    (hcount : ∀ Pairs, computePairs F AA F.positions [] = some Pairs → Pairs.length < 32768) :
    ∃ st, runOnFunction F AA DT LI Order .releaseMemory = some st ∧
      st.AntidependencePairs_.Nodup := by
  obtain ⟨st, h1, h2, _⟩ := runOnFunction_ok F AA DT LI Order hWF hDT hOrd hcount
  exact ⟨st, h1, computePairs_nodup F AA hWF F.positions [] _ (positions_nodup F)
    List.nodup_nil (by simp) h2⟩

theorem exampleRedundant_wf : exampleRedundant.WellFormed :=
  function_wellFormed_of_check _ (by decide)

theorem exampleRedundantTree_wf : exampleTieTree.WellFormed exampleRedundant := by
  intro b hb
  have hb4 : b < 4 := hb
  interval_cases b <;> decide

theorem exampleRedundant_pairs :
    computePairs exampleRedundant exampleRedundantAlias exampleRedundant.positions [] =
      some [(⟨3, 1⟩, ⟨3, 0⟩), (⟨1, 0⟩, ⟨3, 0⟩)] := by
  decide

/-- Witness of C17 on `exampleRedundant`, where the search for the store of
block 3 comes back to block 3 through the loop. -/
theorem pairs_recorded_once_witness :
    ∃ st, runOnFunction exampleRedundant exampleRedundantAlias exampleTieTree exampleTieLoops
        insertionOrder .releaseMemory = some st ∧ st.AntidependencePairs_.Nodup :=
  pairs_recorded_once exampleRedundant exampleRedundantAlias exampleTieTree exampleTieLoops
    insertionOrder exampleRedundant_wf exampleRedundantTree_wf insertionOrder_ok
    (by
      intro Pairs h
      rw [exampleRedundant_pairs] at h
      cases h
      decide)

end Ratchet

namespace Ratchet

/-! ## C11: the contents of the cut map -/

theorem processPaths_antideps (Paths : List AntidependencePathTy) (Picked : InstPos) :
    ∀ (Is : List Nat) (M : CandidateInfoMapTy) (Worklist A : List InstPos)
      (R : CandidateInfoMapTy × List InstPos × List InstPos),
      processPaths Paths Picked Is M Worklist A = some R →
      ∀ x, x ∈ R.2.2 ↔ (x ∈ A ∨ ∃ I ∈ Is, ∃ P, Paths[I]? = some P ∧ P.head? = some x) := by
  intro Is
  induction Is with
  | nil =>
    intro M Worklist A R h x
    simp only [processPaths, Option.some.injEq] at h
    rw [← h]
    simp
  | cons I Is ih =>
    intro M Worklist A R h x
    unfold processPaths at h
    cases hP : Paths[I]? with
    | none => simp [hP] at h
    | some P =>
      cases P with
      | nil => simp [hP] at h
      | cons First Rest =>
        simp only [hP] at h
        cases hpp : processPath Picked I (First :: Rest) M Worklist with
        | none => simp [hpp] at h
        | some r =>
          obtain ⟨M1, Worklist1⟩ := r
          simp only [hpp] at h
          rw [ih M1 Worklist1 _ R h x, mem_setInsert]
          constructor
          · rintro ((h1 | h1) | ⟨I', hI', P, hP', hh⟩)
            · exact Or.inl h1
            · exact Or.inr ⟨I, List.mem_cons_self _ _, First :: Rest, hP, by simp [h1]⟩
            · exact Or.inr ⟨I', List.mem_cons_of_mem _ hI', P, hP', hh⟩
          · rintro (h1 | ⟨I', hI', P, hP', hh⟩)
            · exact Or.inl (Or.inl h1)
            · rcases List.mem_cons.mp hI' with e | e
              · subst e
                rw [hP] at hP'
                cases hP'
                simp only [List.head?_cons, Option.some.injEq] at hh
                exact Or.inl (Or.inr hh.symm)
              · exact Or.inr ⟨I', e, P, hP', hh⟩

theorem cutMapLookup_not_key (CutMap : List (InstPos × List InstPos)) (c : InstPos)
    (h : c ∉ CutMap.map (fun e => e.1)) : cutMapLookup CutMap c = [] := by
  unfold cutMapLookup
  have : CutMap.find? (fun e => decide (e.1 = c)) = none := by
    rw [List.find?_eq_none]
    intro e he
    simp only [decide_eq_true_eq]
    intro hec
    exact h (List.mem_map.mpr ⟨e, he, hec⟩)
  rw [this]

theorem cutMapStore_new (CutMap : List (InstPos × List InstPos)) (c : InstPos)
    (A : List InstPos) (h : c ∉ CutMap.map (fun e => e.1)) :
    cutMapStore CutMap c A = CutMap ++ [(c, A)] := by
  unfold cutMapStore
  have : CutMap.any (fun e => decide (e.1 = c)) = false := by
    rw [List.any_eq_false]
    intro e he
    simp only [decide_eq_true_eq]
    intro hec
    exact h (List.mem_map.mpr ⟨e, he, hec⟩)
  simp [this]

/-- The main loop of `computeHittingSet` returns and keeps the invariant of
the cut map. -/
theorem hittingSetLoop_cutMap (N : Nat) (hN : N < 32768) (Order : IterationOrder)
    (hOrd : Order.Ok) (Paths : List AntidependencePathTy) (hPaths : PathsOk Paths) :
    ∀ (fuel : Nat) (S : HittingSetState), LoopInv N Paths S → CutMapInv Paths S →
      S.Worklist.length < fuel →
      ∃ S', hittingSetLoop Order Paths fuel S = some S' ∧ CutMapInv Paths S' := by
  intro fuel
  induction fuel with
  | zero => intro S _ _ h; omega
  | succ fuel ih =>
    intro S hinv hcm hfuel
    rcases List.eq_nil_or_concat S.Worklist with hnil | ⟨W, Picked, hW⟩
    · refine ⟨S, ?_, hcm⟩
      simp [hittingSetLoop, hnil]
    · rw [List.concat_eq_append] at hW
      have hlast : S.Worklist.getLast? = some Picked := by rw [hW]; simp
      have hdrop : S.Worklist.dropLast = W := by rw [hW]; simp
      obtain ⟨hnd, hsorted, hall⟩ := hinv.wl
      rw [hW] at hnd hsorted hall
      have hPW : Picked ∉ W := by
        intro h
        exact (List.nodup_append.mp hnd).2.2 h (by simp)
      obtain ⟨Info, hInfo, hcnt, hndInfo, hbInfo⟩ := hall Picked (by simp)
      have hWok : WorklistOk N S.Map W := by
        refine ⟨(List.nodup_append.mp hnd).1, ?_, fun c hc => hall c (by simp [hc])⟩
        unfold SortedBy at hsorted ⊢
        rw [List.map_append, List.pairwise_append] at hsorted
        exact hsorted.1
      have hunP : unintOf S.Map Picked = Info.UnintersectedPaths_ := unintOf_of_lookup hInfo
      have hlive := hinv.live
      have hhit := hinv.hit
      have hfresh := hinv.fresh
      have hunres := hcm.unresolved
      rw [hW] at hlive hhit hfresh hunres
      by_cases hsize : Info.size = 0
      · -- skipped candidate
        have hempty : unintOf S.Map Picked = [] := by
          rw [hunP]
          exact List.length_eq_zero.mp hsize
        have htrans : ∀ I, PathLive Paths S.Map (W ++ [Picked]) I → PathLive Paths S.Map W I := by
          intro I hold P hP J hJ
          obtain ⟨h1, h2⟩ := hold P hP J hJ
          refine ⟨?_, h2⟩
          rcases List.mem_append.mp h1 with h | h
          · exact h
          · simp at h
            subst h
            rw [hempty] at h2
            simp at h2
        have hinv1 : LoopInv N Paths { S with Worklist := W } :=
          { wl := hWok
            live := fun c hc I hI =>
              ⟨(hlive c (by simp [hc]) I hI).1, htrans I (hlive c (by simp [hc]) I hI).2⟩
            hit := fun I P hP => (hhit I P hP).imp id (htrans I)
            fresh := fun c hc I hI => hfresh c (by simp [hc]) I hI
            order := hinv.order }
        have hcm1 : CutMapInv Paths { S with Worklist := W } :=
          { keysNodup := hcm.keysNodup
            unresolved := fun I P hP hno => htrans I (hunres I P hP hno)
            vals := hcm.vals }
        have hlen : W.length < fuel := by
          rw [hW] at hfuel
          simp at hfuel
          omega
        obtain ⟨S', hS', hcm'⟩ := ih { S with Worklist := W } hinv1 hcm1 hlen
        refine ⟨S', ?_, hcm'⟩
        simp only [hittingSetLoop, hlast, hdrop, hInfo, hsize, if_true]
        exact hS'
      · -- picked candidate
        have hperm := hOrd.2 Info.UnintersectedPaths_
        have hIsmem : ∀ i, i ∈ Order.setOrder Info.UnintersectedPaths_ ↔
            i ∈ unintOf S.Map Picked := by
          intro i
          rw [hunP]
          exact hperm.mem_iff
        have hIs : ∀ I ∈ Order.setOrder Info.UnintersectedPaths_, ∃ P, Paths[I]? = some P ∧
            P ≠ [] ∧ P.Nodup ∧ ∀ J ∈ P, J ≠ Picked → J ∈ W ∧ I ∈ unintOf S.Map J := by
          intro I hI
          have hI' := (hIsmem I).mp hI
          obtain ⟨⟨P, hP, _⟩, hlv⟩ := hlive Picked (by simp) I hI'
          have hPmem : P ∈ Paths := List.getElem?_mem hP
          refine ⟨P, hP, (hPaths P hPmem).2, (hPaths P hPmem).1, ?_⟩
          intro J hJ hne
          obtain ⟨h1, h2⟩ := hlv P hP J hJ
          refine ⟨?_, h2⟩
          rcases List.mem_append.mp h1 with h | h
          · exact h
          · simp at h
            exact absurd h hne
        obtain ⟨M', Worklist', A', hpp, hW', hperm', _, hiff, _⟩ :=
          processPaths_ok N hN Paths Picked (Order.setOrder Info.UnintersectedPaths_) S.Map W
            (cutMapLookup S.CutMap_ Picked) hWok (hperm.nodup_iff.mpr hndInfo) hIs
        obtain ⟨I0, hI0⟩ : ∃ I0, I0 ∈ Info.UnintersectedPaths_ := by
          cases hU : Info.UnintersectedPaths_ with
          | nil => simp [CandidateInfo.size, hU] at hsize
          | cons a l => exact ⟨a, by simp⟩
        rw [← hunP] at hI0
        obtain ⟨⟨P0, hP0, hPickedP0⟩, _⟩ := hlive Picked (by simp) I0 hI0
        have hfresh0 := hfresh Picked (by simp) I0 hI0 P0 hP0
        have hPnotkey : Picked ∉ S.CutMap_.map (fun e => e.1) :=
          fun h => hfresh0 Picked h hPickedP0
        have hkeys1 := cutMapStore_keys_new S.CutMap_ Picked A' hPnotkey
        have hstore := cutMapStore_new S.CutMap_ Picked A' hPnotkey
        have hA := processPaths_antideps Paths Picked _ _ _ _ _ hpp
        simp only [cutMapLookup_not_key S.CutMap_ Picked hPnotkey, List.not_mem_nil,
          false_or] at hA
        have hinv1 : LoopInv N Paths
            { Map := M', Worklist := Worklist', CutSet_ := setInsert S.CutSet_ Picked
              CutMap_ := cutMapStore S.CutMap_ Picked A' } :=
          { wl := hW'
            live := by
              intro c hc I hI
              have hcW : c ∈ W := hperm'.mem_iff.mp hc
              have hcP : c ≠ Picked := fun e => hPW (e ▸ hcW)
              obtain ⟨hIM, hnot⟩ := (hiff c hcP I).mp hI
              obtain ⟨⟨P, hP, hcinP⟩, hlv⟩ := hlive c (by simp [hcW]) I hIM
              refine ⟨⟨P, hP, hcinP⟩, ?_⟩
              have hInot : I ∉ unintOf S.Map Picked := by
                intro h
                exact hnot ⟨(hIsmem I).mpr h, P, hP, hcinP⟩
              exact pathLive_transfer Paths S.Map M' W Worklist' [] Picked _ I hperm' hIsmem
                hiff hlv hInot
            hit := by
              intro I P hP
              rcases hhit I P hP with ⟨c, hc1, hc2⟩ | hlv
              · exact Or.inl ⟨c, hc1, (mem_setInsert _ _ _).mpr (Or.inl hc2)⟩
              · by_cases hI : I ∈ unintOf S.Map Picked
                · obtain ⟨⟨P', hP', hin⟩, _⟩ := hlive Picked (by simp) I hI
                  rw [hP] at hP'
                  cases hP'
                  exact Or.inl ⟨Picked, hin, (mem_setInsert _ _ _).mpr (Or.inr rfl)⟩
                · exact Or.inr (pathLive_transfer Paths S.Map M' W Worklist' [] Picked _ I
                    hperm' hIsmem hiff hlv hI)
            fresh := by
              intro c hc I hI P hP x hx
              have hcW : c ∈ W := hperm'.mem_iff.mp hc
              have hcP : c ≠ Picked := fun e => hPW (e ▸ hcW)
              obtain ⟨hIM, hnot⟩ := (hiff c hcP I).mp hI
              simp only at hx
              rw [hkeys1] at hx
              rcases List.mem_append.mp hx with hx | hx
              · exact hfresh c (by simp [hcW]) I hIM P hP x hx
              · simp at hx
                subst hx
                intro hxP
                obtain ⟨⟨_, _, hcinP⟩, hlv⟩ := hlive c (by simp [hcW]) I hIM
                have hcinP' : c ∈ P := by
                  obtain ⟨P', hP', hin⟩ := (hlive c (by simp [hcW]) I hIM).1
                  rw [hP] at hP'
                  cases hP'
                  exact hin
                have := (hlv P hP x hxP).2
                exact hnot ⟨(hIsmem I).mpr this, P, hP, hcinP'⟩
            order := by
              intro pre c post hsplit
              simp only at hsplit
              rw [hkeys1] at hsplit
              rcases split_concat pre post _ c Picked hsplit with ⟨_, hpre, hc⟩ | ⟨post', _, hL⟩
              · subst hpre hc
                exact ⟨P0, List.getElem?_mem hP0, hPickedP0, hfresh0⟩
              · exact hinv.order pre c post' hL }
        have hcm1 : CutMapInv Paths
            { Map := M', Worklist := Worklist', CutSet_ := setInsert S.CutSet_ Picked
              CutMap_ := cutMapStore S.CutMap_ Picked A' } :=
          { keysNodup := by
              simp only
              rw [hkeys1]
              refine List.Nodup.append hcm.keysNodup (List.nodup_singleton _) ?_
              intro x h1 h2
              simp at h2
              exact hPnotkey (h2 ▸ h1)
            unresolved := by
              intro I P hP hno
              simp only at hno ⊢
              rw [hkeys1] at hno
              have hnoOld : ∀ x ∈ S.CutMap_.map (fun e => e.1), x ∉ P :=
                fun x hx => hno x (List.mem_append_left _ hx)
              have hPk : Picked ∉ P := hno Picked (List.mem_append_right _ (by simp))
              have hlv := hunres I P hP hnoOld
              have hI : I ∉ unintOf S.Map Picked := by
                intro h
                obtain ⟨⟨P', hP', hin⟩, _⟩ := hlive Picked (by simp) I h
                rw [hP] at hP'
                cases hP'
                exact hPk hin
              exact pathLive_transfer Paths S.Map M' W Worklist' [] Picked _ I hperm' hIsmem
                hiff hlv hI
            vals := by
              intro pre c A post hsplit x
              simp only at hsplit
              rw [hstore] at hsplit
              rcases split_concat pre post _ (c, A) (Picked, A') hsplit with
                ⟨_, hpre, hc⟩ | ⟨post', _, hL⟩
              · subst hpre
                rw [Prod.mk.injEq] at hc
                obtain ⟨hc1, hc2⟩ := hc
                subst hc1 hc2
                rw [hA x]
                constructor
                · rintro ⟨I, hI, P, hP, hh⟩
                  have hI' := (hIsmem I).mp hI
                  obtain ⟨⟨P', hP', hin⟩, _⟩ := hlive c (by simp) I hI'
                  rw [hP] at hP'
                  cases hP'
                  exact ⟨P, List.getElem?_mem hP, hin, hfresh c (by simp) I hI' P hP, hh⟩
                · rintro ⟨P, hPmem, hin, hno, hh⟩
                  obtain ⟨I, hI⟩ := List.getElem?_of_mem hPmem
                  have hlv := hunres I P hI hno
                  exact ⟨I, (hIsmem I).mpr (hlv P hI c hin).2, P, hI, hh⟩
              · exact hcm.vals pre c A post' hL x }
        have hlen : Worklist'.length < fuel := by
          rw [hW] at hfuel
          simp at hfuel
          rw [hperm'.length_eq]
          omega
        obtain ⟨S', hS', hcm'⟩ := ih _ hinv1 hcm1 hlen
        refine ⟨S', ?_, hcm'⟩
        simp only [hittingSetLoop, hlast, hdrop, hInfo, hsize, if_false, hpp]
        exact hS'

/-- The cut map that `computeHittingSet` leaves: distinct keys, and the set of
a key holds the first instructions of the paths that contain the key and none
of the keys entered before it. -/
theorem computeHittingSet_cutMap (LI : LoopInfo) (Order : IterationOrder) (hOrd : Order.Ok)
    (S : MemoryIdempotenceAnalysisImpl) (hPaths : PathsOk S.AntidependencePaths_)
    (hN : S.AntidependencePaths_.length < 32768) (hCM : S.CutMap_ = []) :
    ∃ S', computeHittingSet LI Order S = some S' ∧
      (S'.CutMap_.map (fun e => e.1)).Nodup ∧
      ∀ (pre : List (InstPos × List InstPos)) (c : InstPos) (A : List InstPos)
        (post : List (InstPos × List InstPos)), S'.CutMap_ = pre ++ (c, A) :: post →
        ∀ x, x ∈ A ↔ ∃ P ∈ S.AntidependencePaths_, c ∈ P ∧
          (∀ y ∈ pre.map (fun e => e.1), y ∉ P) ∧ P.head? = some x := by
  have h0 : CandInv 0 [] ([] : CandidateInfoMapTy) :=
    { keys := List.nodup_nil
      mem := by intro c C h; simp [CandidateInfoMapTy.lookup] at h
      dom := by intro x hx; simp at hx
      bound := by intro x hx; simp at hx }
  obtain ⟨M, hM, hinv⟩ := findCandidates_ok LI S.AntidependencePaths_ 0 [] [] h0
    (fun P hP => (hPaths P hP).1) (by omega)
  simp only [Nat.zero_add, List.nil_append] at hinv
  obtain ⟨Worklist, hWl, hperm, hsorted⟩ := initialWorklist_ok Order hOrd M hinv.keys
  have hocc : ∀ I c, (I, c) ∈ occOf S.AntidependencePaths_ 0 ↔
      ∃ P, S.AntidependencePaths_[I]? = some P ∧ c ∈ P := by
    intro I c
    rw [mem_occOf]
    simp
  have hlook : ∀ c ∈ Worklist, ∃ C, M.lookup c = some C :=
    fun c hc => (lookup_isSome_iff M c).mpr (hperm.mem_iff.mp hc)
  have hun : ∀ c I, I ∈ unintOf M c ↔ ∃ P, S.AntidependencePaths_[I]? = some P ∧ c ∈ P := by
    intro c I
    cases hl : M.lookup c with
    | some C =>
      rw [unintOf_of_lookup hl, (hinv.mem c C hl).1 I, hocc]
    | none =>
      simp only [unintOf, hl, List.not_mem_nil, false_iff]
      rintro ⟨P, hP, hc⟩
      obtain ⟨C, hC⟩ := hinv.dom (I, c) ((hocc I c).mpr ⟨P, hP, hc⟩)
      simp only at hC
      rw [hl] at hC
      cases hC
  have hliveAll : ∀ I, PathLive S.AntidependencePaths_ M Worklist I := by
    intro I P hP J hJ
    refine ⟨?_, (hun J I).mpr ⟨P, hP, hJ⟩⟩
    obtain ⟨C, hC⟩ := hinv.dom (I, J) ((hocc I J).mpr ⟨P, hP, hJ⟩)
    exact hperm.mem_iff.mpr ((lookup_isSome_iff M J).mp ⟨C, hC⟩)
  have hinit : LoopInv S.AntidependencePaths_.length S.AntidependencePaths_
      { Map := M, Worklist := Worklist, CutSet_ := S.CutSet_, CutMap_ := S.CutMap_ } :=
    { wl := by
        refine ⟨hperm.nodup_iff.mpr hinv.keys, hsorted, ?_⟩
        intro c hc
        obtain ⟨C, hC⟩ := hlook c hc
        obtain ⟨hiff, hnd, hcnt, hint⟩ := hinv.mem c C hC
        refine ⟨C, hC, hcnt, hnd, ?_⟩
        rw [hcnt, hint]
        exact nodup_bounded_length _ _ hnd (fun I hI => hinv.bound (I, c) ((hiff I).mp hI))
      live := fun c _ I hI => ⟨(hun c I).mp hI, hliveAll I⟩
      hit := fun I _ _ => Or.inr (hliveAll I)
      fresh := by
        intro c _ I _ P _ x hx
        simp [hCM] at hx
      order := by
        intro pre c post h
        simp [hCM] at h }
  have hcminit : CutMapInv S.AntidependencePaths_
      { Map := M, Worklist := Worklist, CutSet_ := S.CutSet_, CutMap_ := S.CutMap_ } :=
    { keysNodup := by simp [hCM]
      unresolved := fun I _ _ _ => hliveAll I
      vals := by
        intro pre c A post h
        simp [hCM] at h }
  obtain ⟨R, hR, hcmR⟩ :=
    hittingSetLoop_cutMap S.AntidependencePaths_.length hN Order hOrd S.AntidependencePaths_
      hPaths (Worklist.length + 1) _ hinit hcminit (Nat.lt_succ_self _)
  refine ⟨{ S with CutSet_ := R.CutSet_, CutMap_ := R.CutMap_ }, ?_, hcmR.keysNodup, hcmR.vals⟩
  simp only [computeHittingSet, hM, hWl, hR]

theorem forall₂_getElem? {α β : Type} {R : α → β → Prop} {l1 : List α} {l2 : List β}
    (h : List.Forall₂ R l1 l2) :
    ∀ (i : Nat) (a : α) (b : β), l1[i]? = some a → l2[i]? = some b → R a b := by
  induction h with
  | nil => intro i a b h1; simp at h1
  | cons hab _ ih =>
    intro i a b h1 h2
    cases i with
    | zero =>
      simp only [List.getElem?_cons_zero, Option.some.injEq] at h1 h2
      rw [← h1, ← h2]
      exact hab
    | succ i =>
      simp only [List.getElem?_cons_succ] at h1 h2
      exact ih i a b h1 h2

/-- C11 as stated fails: on `exampleRedundant` the loads of the two pairs are
the load of block 1 and the load of block 3, but the sets of the cut map hold
the store of block 3, the first instruction of the paths. -/
theorem cut_map_holds_no_load :
    ∃ st, runOnFunction exampleRedundant exampleRedundantAlias exampleTieTree exampleTieLoops
        insertionOrder .releaseMemory = some st ∧
      st.AntidependencePairs_ = [(⟨3, 1⟩, ⟨3, 0⟩), (⟨1, 0⟩, ⟨3, 0⟩)] ∧
      st.AntidependencePaths_ = [[⟨3, 0⟩], [⟨3, 0⟩, ⟨2, 0⟩]] ∧
      st.CutMap_ = [(⟨2, 0⟩, [⟨3, 0⟩]), (⟨3, 0⟩, [⟨3, 0⟩])] := by
  decide

/-- C11, amended: `runOnFunction` returns; no instruction is entered twice in
the cut map, and the set of an entry `C` holds exactly the stores `S` of the
pairs `(L, S)` whose path contains `C` and none of the instructions entered
before `C`. -/
theorem cut_map_holds_stores (F : Function) (AA : AliasAnalysis) (DT : DominatorTree)
    (LI : LoopInfo) (Order : IterationOrder) (hWF : F.WellFormed) (hDT : DT.WellFormed F)
    (hOrd : Order.Ok)
    (hcount : ∀ Pairs, computePairs F AA F.positions [] = some Pairs → Pairs.length < 32768) :
    ∃ st, runOnFunction F AA DT LI Order .releaseMemory = some st ∧
      (st.CutMap_.map (fun e => e.1)).Nodup ∧
      ∀ (pre : List (InstPos × List InstPos)) (c : InstPos) (A : List InstPos)
        (post : List (InstPos × List InstPos)), st.CutMap_ = pre ++ (c, A) :: post →
        ∀ x, x ∈ A ↔ ∃ (i : Nat) (L : InstPos) (Path : AntidependencePathTy),
          st.AntidependencePairs_[i]? = some (L, x) ∧ st.AntidependencePaths_[i]? = some Path ∧
          c ∈ Path ∧ ∀ y ∈ pre.map (fun e => e.1), y ∉ Path := by
  obtain ⟨st, h1, _, _, hspec, hlen, hnil, hrun⟩ :=
    runOnFunction_eq F AA DT LI Order hWF hDT hOrd hcount
  refine ⟨st, h1, ?_⟩
  by_cases hP : st.AntidependencePairs_ = []
  · rw [hnil hP]
    refine ⟨by simp, ?_⟩
    intro pre c A post h
    simp at h
  · obtain ⟨S0, hS0, hS0p, hS0run⟩ := hrun hP
    have hPok : PathsOk S0.AntidependencePaths_ := by
      rw [hS0p]
      exact pathsOk_of_spec F DT _ _ hspec
    obtain ⟨S', hS', hkeys, hvals⟩ := computeHittingSet_cutMap LI Order hOrd S0 hPok
      (by rw [hS0p]; exact hlen) hS0
    rw [hS0run] at hS'
    cases hS'
    refine ⟨hkeys, ?_⟩
    intro pre c A post hsplit x
    rw [hvals pre c A post hsplit x, hS0p]
    constructor
    · rintro ⟨P, hPmem, hin, hno, hh⟩
      obtain ⟨i, hi⟩ := List.getElem?_of_mem hPmem
      have hlt : i < st.AntidependencePairs_.length := by
        rw [hspec.length_eq]
        exact (List.getElem?_eq_some_iff.mp hi).1
      have hpr : st.AntidependencePairs_[i]? = some st.AntidependencePairs_[i] :=
        List.getElem?_eq_getElem hlt
      obtain ⟨rest, hPeq, _⟩ := forall₂_getElem? hspec i _ _ hpr hi
      rw [hPeq] at hh
      simp only [List.head?_cons, Option.some.injEq] at hh
      refine ⟨i, st.AntidependencePairs_[i].1, P, ?_, hi, hin, hno⟩
      rw [hpr, ← hh]
    · rintro ⟨i, L, P, hpr, hi, hin, hno⟩
      obtain ⟨rest, hPeq, _⟩ := forall₂_getElem? hspec i _ _ hpr hi
      refine ⟨P, List.getElem?_mem hi, hin, hno, ?_⟩
      rw [hPeq]
      rfl

/-- Witness of C11 (amended) on `exampleRedundant`. -/
theorem cut_map_holds_stores_witness :
    ∃ st, runOnFunction exampleRedundant exampleRedundantAlias exampleTieTree exampleTieLoops
        insertionOrder .releaseMemory = some st ∧
      (st.CutMap_.map (fun e => e.1)).Nodup ∧
      ∀ (pre : List (InstPos × List InstPos)) (c : InstPos) (A : List InstPos)
        (post : List (InstPos × List InstPos)), st.CutMap_ = pre ++ (c, A) :: post →
        ∀ x, x ∈ A ↔ ∃ (i : Nat) (L : InstPos) (Path : AntidependencePathTy),
          st.AntidependencePairs_[i]? = some (L, x) ∧ st.AntidependencePaths_[i]? = some Path ∧
          c ∈ Path ∧ ∀ y ∈ pre.map (fun e => e.1), y ∉ Path :=
  cut_map_holds_stores exampleRedundant exampleRedundantAlias exampleTieTree exampleTieLoops
    insertionOrder exampleRedundant_wf exampleRedundantTree_wf insertionOrder_ok
    (by
      intro Pairs h
      rw [exampleRedundant_pairs] at h
      cases h
      decide)

end Ratchet

namespace Ratchet

/-! ## C22: degenerate inputs -/

theorem computePairs_noStore (F : Function) (AA : AliasAnalysis) :
    ∀ (Is : List InstPos) (Pairs : List AntidependencePairTy),
      (∀ p ∈ Is, F.isStoreAt p = false) → computePairs F AA Is Pairs = some Pairs := by
  intro Is
  induction Is with
  | nil => intro Pairs _; rfl
  | cons I Is ih =>
    intro Pairs h
    have hI := h I (List.mem_cons_self _ _)
    have hrest := ih Pairs (fun p hp => h p (List.mem_cons_of_mem _ hp))
    unfold computePairs
    cases hinst : F.inst? I with
    | none => exact hrest
    | some inst =>
      cases inst with
      | store v a g => simp [Function.isStoreAt, hinst, Instruction.isStore] at hI
      | _ => exact hrest

theorem computeForcedCuts_iff (F : Function) :
    ∀ (Is : List InstPos) (S : MemoryIdempotenceAnalysisImpl) (x : InstPos),
      x ∈ (computeForcedCuts F Is S).CutSet_ ↔
        (x ∈ S.CutSet_ ∨ ∃ I ∈ Is, ∃ inst, F.inst? I = some inst ∧ forcesCut inst = true ∧
          inst.isCallSite = false ∧ x = ⟨I.bb, I.idx + 1⟩) := by
  intro Is
  induction Is with
  | nil => intro S x; simp [computeForcedCuts]
  | cons I Is ih =>
    intro S x
    unfold computeForcedCuts
    cases hI : F.inst? I with
    | none =>
      simp only
      rw [ih]
      constructor
      · rintro (h | ⟨J, hJ, inst, h1, h2⟩)
        · exact Or.inl h
        · exact Or.inr ⟨J, List.mem_cons_of_mem _ hJ, inst, h1, h2⟩
      · rintro (h | ⟨J, hJ, inst, h1, h2⟩)
        · exact Or.inl h
        · rcases List.mem_cons.mp hJ with e | e
          · subst e
            rw [hI] at h1
            cases h1
          · exact Or.inr ⟨J, e, inst, h1, h2⟩
    | some inst =>
      simp only
      rw [ih]
      have hforce : ∀ y, y ∈ (if forcesCut inst = true then forceCut F I S else S).CutSet_ ↔
          (y ∈ S.CutSet_ ∨ (forcesCut inst = true ∧ inst.isCallSite = false ∧
            y = ⟨I.bb, I.idx + 1⟩)) := by
        intro y
        by_cases hf : forcesCut inst = true
        · rw [if_pos hf]
          unfold forceCut
          rw [hI]
          simp only
          by_cases hc : inst.isCallSite = true
          · simp [hc]
          · rw [if_neg hc]
            simp only [mem_setInsert]
            simp [hf, hc]
        · rw [if_neg hf]
          simp [hf]
      rw [hforce]
      constructor
      · rintro ((h | ⟨h1, h2, h3⟩) | ⟨J, hJ, instJ, h1, h2⟩)
        · exact Or.inl h
        · exact Or.inr ⟨I, List.mem_cons_self _ _, inst, hI, h1, h2, h3⟩
        · exact Or.inr ⟨J, List.mem_cons_of_mem _ hJ, instJ, h1, h2⟩
      · rintro (h | ⟨J, hJ, instJ, h1, h2, h3, h4⟩)
        · exact Or.inl (Or.inl h)
        · rcases List.mem_cons.mp hJ with e | e
          · subst e
            rw [hI] at h1
            cases h1
            exact Or.inl (Or.inr ⟨h2, h3, h4⟩)
          · exact Or.inr ⟨J, e, instJ, h1, h2, h3, h4⟩

/-- C22 (as stated, refuted): the function `fence; ret` has no store and no
antidependence pair, yet the cut set after `runOnFunction` holds the
instruction behind the fence. -/
theorem degenerate_cut_set_not_empty :
    exampleFenceOnly.hasNoStore = true ∧
      computePairs exampleFenceOnly mayAliasAll exampleFenceOnly.positions [] = some [] ∧
      (runOnFunction exampleFenceOnly mayAliasAll entryOnlyTree noLoops insertionOrder
        .releaseMemory).map (fun st => st.CutSet_) = some [⟨0, 1⟩] := by
  decide

/-- C22 (amended): for a function without stores, or for which no
antidependence pair is found, `runOnFunction` returns right behind the forced
cuts: there are no pairs and no paths, the cut map is empty, and the cut set
holds exactly the instructions that follow an instruction that forces a cut
and is no call site; it is empty when there is no such instruction. -/
theorem degenerate_cut_set_forced (F : Function) (AA : AliasAnalysis) (DT : DominatorTree)
    (LI : LoopInfo) (Order : IterationOrder)
    (h : F.hasNoStore = true ∨ computePairs F AA F.positions [] = some []) :
    ∃ st, runOnFunction F AA DT LI Order .releaseMemory = some st ∧
      st.AntidependencePairs_ = [] ∧ st.AntidependencePaths_ = [] ∧ st.CutMap_ = [] ∧
      ∀ x, x ∈ st.CutSet_ ↔ ∃ I inst, F.inst? I = some inst ∧ forcesCut inst = true ∧
        inst.isCallSite = false ∧ x = ⟨I.bb, I.idx + 1⟩ := by
  have hpairs : computePairs F AA F.positions [] = some [] := by
    rcases h with h | h
    · apply computePairs_noStore
      intro p hp
      unfold Function.hasNoStore at h
      rw [List.all_eq_true] at h
      simpa using h p hp
    · exact h
  have g := computeForcedCuts_fields F F.positions .releaseMemory
  simp only [MemoryIdempotenceAnalysisImpl.releaseMemory] at g
  obtain ⟨g1, g2, g3, _⟩ := g
  unfold runOnFunction
  simp only [MemoryIdempotenceAnalysisImpl.releaseMemory, g2, hpairs, if_true]
  refine ⟨_, rfl, rfl, g3, g1, ?_⟩
  intro x
  simp only
  rw [computeForcedCuts_iff]
  constructor
  · rintro (hx | ⟨I, _, inst, h1, h2⟩)
    · cases hx
    · exact ⟨I, inst, h1, h2⟩
  · rintro ⟨I, inst, h1, h2⟩
    exact Or.inr ⟨I, mem_positions F I inst h1, inst, h1, h2⟩

/-- Witness of C22 (amended) on the function `fence; ret`. -/
theorem degenerate_cut_set_forced_witness :
    ∃ st, runOnFunction exampleFenceOnly mayAliasAll entryOnlyTree noLoops insertionOrder
        .releaseMemory = some st ∧
      st.AntidependencePairs_ = [] ∧ st.AntidependencePaths_ = [] ∧ st.CutMap_ = [] ∧
      ∀ x, x ∈ st.CutSet_ ↔ ∃ I inst, exampleFenceOnly.inst? I = some inst ∧
        forcesCut inst = true ∧ inst.isCallSite = false ∧ x = ⟨I.bb, I.idx + 1⟩ :=
  degenerate_cut_set_forced exampleFenceOnly mayAliasAll entryOnlyTree noLoops insertionOrder
    (Or.inl (by decide))

end Ratchet

namespace Ratchet

/-! ## C27: the packed priority -/

theorem inRange_loopDepth (C : CandidateInfo) (d : Nat) (h : C.InRange d) :
    C.LoopDepth = 65535 - d := by
  obtain ⟨h1, h2, _⟩ := h
  rw [h2]
  simp only [CandidateInfo.new]
  omega

theorem remove_priority (C C' : CandidateInfo) (I : Nat) (hU : C.UnintersectedPaths < 32768)
    (hI : C.IntersectedPaths < 32768) (h : C.remove I = some C') :
    C'.Priority_ < C.Priority_ := by
  unfold CandidateInfo.remove at h
  simp only at h
  by_cases h1 : (C.UnintersectedPaths + 65535) % 65536 < 32768 ∧
      (C.IntersectedPaths + 1) % 65536 < 32768
  · rw [if_pos h1] at h
    by_cases h2 : I ∈ C.UnintersectedPaths_
    · rw [if_pos h2] at h
      by_cases h3 : (C.UnintersectedPaths + 65535) % 65536 =
          (C.UnintersectedPaths_.erase I).length
      · rw [if_pos h3] at h
        simp only [Option.some.injEq] at h
        rw [← h]
        unfold CandidateInfo.Priority_
        simp only
        norm_num
        omega
      · rw [if_neg h3] at h
        cases h
    · rw [if_neg h2] at h
      cases h
  · rw [if_neg h1] at h
    cases h

/-- C27: for loop depths below `2 ^ 16` and candidates on fewer than `2 ^ 15`
paths, `CandidateInfo::compare(L, R)` holds exactly when the key
`(65535 - loopDepth, unintersected count, isAntidependentStore,
isSubloopPreheader, intersected count)` of `L` is lexicographically smaller
than that of `R`; a candidate at a greater loop depth compares below one at a
smaller loop depth, and a candidate from which a path was removed compares
below what it was before. -/
theorem priority_is_lexicographic_key (L R : CandidateInfo) (dL dR : Nat)
    (hL : L.InRange dL) (hR : R.InRange dR) :
    CandidateInfo.compare L R = lexLt (L.key dL) (R.key dR) ∧
      (dR < dL → CandidateInfo.compare L R = true) ∧
      (∀ I L', L.remove I = some L' → CandidateInfo.compare L' L = true) := by
  have eL := inRange_loopDepth L dL hL
  have eR := inRange_loopDepth R dR hR
  obtain ⟨hL1, _, hL3, hL4, hL5, hL6⟩ := hL
  obtain ⟨hR1, _, hR3, hR4, hR5, hR6⟩ := hR
  refine ⟨?_, ?_, ?_⟩
  · rw [Bool.eq_iff_iff]
    unfold CandidateInfo.compare CandidateInfo.Priority_ CandidateInfo.key
    rw [eL, eR]
    simp only [lexLt, decide_eq_true_eq, Bool.or_eq_true, Bool.and_eq_true, Bool.or_false,
      Bool.and_false]
    norm_num
    omega
  · intro hd
    unfold CandidateInfo.compare CandidateInfo.Priority_
    rw [eL, eR]
    simp only [decide_eq_true_eq]
    norm_num
    omega
  · intro I L' h
    unfold CandidateInfo.compare
    simp only [decide_eq_true_eq]
    exact remove_priority L L' I hL3 hL4 h

/-- Witness of C27: a candidate at loop depth 2 on two unresolved paths and a
candidate at loop depth 1 on no path; a path can be removed from the first. -/
theorem priority_is_lexicographic_key_witness :
    (CandidateInfo.compare exampleLiveCandidate exampleShallowCandidate =
        lexLt (exampleLiveCandidate.key 2) (exampleShallowCandidate.key 1) ∧
      (1 < 2 → CandidateInfo.compare exampleLiveCandidate exampleShallowCandidate = true) ∧
      (∀ I L', exampleLiveCandidate.remove I = some L' →
        CandidateInfo.compare L' exampleLiveCandidate = true)) ∧
      (exampleLiveCandidate.remove 0).isSome = true :=
  ⟨priority_is_lexicographic_key exampleLiveCandidate exampleShallowCandidate 2 1
    (by unfold CandidateInfo.InRange; decide) (by unfold CandidateInfo.InRange; decide),
    by decide⟩

end Ratchet

namespace Ratchet

/-! ## The iterations of the main loop of computeHittingSet -/

/-- One iteration of the main loop of `computeHittingSet`: the popped candidate
is in the map; it is skipped or picked, without an abort, and the invariants
of the loop and of the cut map hold again afterwards. -/
theorem hittingSet_step (N : Nat) (hN : N < 32768) (Order : IterationOrder)
    (hOrd : Order.Ok) (Paths : List AntidependencePathTy) (hPaths : PathsOk Paths)
    (S : HittingSetState) (hinv : LoopInv N Paths S) (hcm : CutMapInv Paths S)
    (W : List InstPos) (Picked : InstPos) (hW : S.Worklist = W ++ [Picked]) :
    ∃ Info, S.Map.lookup Picked = some Info ∧
      ((Info.size = 0 ∧ LoopInv N Paths { S with Worklist := W } ∧
          CutMapInv Paths { S with Worklist := W } ∧
          SkipStep Paths S { S with Worklist := W }) ∨
        (Info.size ≠ 0 ∧ ∃ M' Worklist' A',
          processPaths Paths Picked (Order.setOrder Info.UnintersectedPaths_) S.Map W
            (cutMapLookup S.CutMap_ Picked) = some (M', Worklist', A') ∧
          LoopInv N Paths
            { Map := M', Worklist := Worklist', CutSet_ := setInsert S.CutSet_ Picked
              CutMap_ := cutMapStore S.CutMap_ Picked A' } ∧
          CutMapInv Paths
            { Map := M', Worklist := Worklist', CutSet_ := setInsert S.CutSet_ Picked
              CutMap_ := cutMapStore S.CutMap_ Picked A' } ∧
          PickStep Paths S
            { Map := M', Worklist := Worklist', CutSet_ := setInsert S.CutSet_ Picked
              CutMap_ := cutMapStore S.CutMap_ Picked A' })) := by
  have hW0 := hW
  obtain ⟨hnd, hsorted, hall⟩ := hinv.wl
  rw [hW] at hnd hsorted hall
  have hPW : Picked ∉ W := by
    intro h
    exact (List.nodup_append.mp hnd).2.2 h (by simp)
  obtain ⟨Info, hInfo, hcnt, hndInfo, hbInfo⟩ := hall Picked (by simp)
  have hWok : WorklistOk N S.Map W := by
    refine ⟨(List.nodup_append.mp hnd).1, ?_, fun c hc => hall c (by simp [hc])⟩
    unfold SortedBy at hsorted ⊢
    rw [List.map_append, List.pairwise_append] at hsorted
    exact hsorted.1
  have hunP : unintOf S.Map Picked = Info.UnintersectedPaths_ := unintOf_of_lookup hInfo
  have hlive := hinv.live
  have hhit := hinv.hit
  have hfresh := hinv.fresh
  have hunres := hcm.unresolved
  rw [hW] at hlive hhit hfresh hunres
  by_cases hsize : Info.size = 0
  · -- skipped candidate
    have hempty : unintOf S.Map Picked = [] := by
      rw [hunP]
      exact List.length_eq_zero.mp hsize
    have htrans : ∀ I, PathLive Paths S.Map (W ++ [Picked]) I → PathLive Paths S.Map W I := by
      intro I hold P hP J hJ
      obtain ⟨h1, h2⟩ := hold P hP J hJ
      refine ⟨?_, h2⟩
      rcases List.mem_append.mp h1 with h | h
      · exact h
      · simp at h
        subst h
        rw [hempty] at h2
        simp at h2
    have hinv1 : LoopInv N Paths { S with Worklist := W } :=
      { wl := hWok
        live := fun c hc I hI =>
          ⟨(hlive c (by simp [hc]) I hI).1, htrans I (hlive c (by simp [hc]) I hI).2⟩
        hit := fun I P hP => (hhit I P hP).imp id (htrans I)
        fresh := fun c hc I hI => hfresh c (by simp [hc]) I hI
        order := hinv.order }
    have hcm1 : CutMapInv Paths { S with Worklist := W } :=
      { keysNodup := hcm.keysNodup
        unresolved := fun I P hP hno => htrans I (hunres I P hP hno)
        vals := hcm.vals }
    refine ⟨Info, hInfo, Or.inl ⟨hsize, hinv1, hcm1, W, Picked, Info, hW0, hInfo, hsize, rfl, ?_⟩⟩
    intro P hPmem hin
    by_contra hcon
    have hno : ∀ x ∈ S.CutMap_.map (fun e => e.1), x ∉ P := by
      intro x hx hxP
      exact hcon ⟨x, hx, hxP⟩
    obtain ⟨I, hI⟩ := List.getElem?_of_mem hPmem
    have h2 := (hunres I P hI hno P hI Picked hin).2
    rw [hempty] at h2
    cases h2
  · -- picked candidate
    have hperm := hOrd.2 Info.UnintersectedPaths_
    have hIsmem : ∀ i, i ∈ Order.setOrder Info.UnintersectedPaths_ ↔
        i ∈ unintOf S.Map Picked := by
      intro i
      rw [hunP]
      exact hperm.mem_iff
    have hIs : ∀ I ∈ Order.setOrder Info.UnintersectedPaths_, ∃ P, Paths[I]? = some P ∧
        P ≠ [] ∧ P.Nodup ∧ ∀ J ∈ P, J ≠ Picked → J ∈ W ∧ I ∈ unintOf S.Map J := by
      intro I hI
      have hI' := (hIsmem I).mp hI
      obtain ⟨⟨P, hP, _⟩, hlv⟩ := hlive Picked (by simp) I hI'
      have hPmem : P ∈ Paths := List.getElem?_mem hP
      refine ⟨P, hP, (hPaths P hPmem).2, (hPaths P hPmem).1, ?_⟩
      intro J hJ hne
      obtain ⟨h1, h2⟩ := hlv P hP J hJ
      refine ⟨?_, h2⟩
      rcases List.mem_append.mp h1 with h | h
      · exact h
      · simp at h
        exact absurd h hne
    obtain ⟨M', Worklist', A', hpp, hW', hperm', _, hiff, _⟩ :=
      processPaths_ok N hN Paths Picked (Order.setOrder Info.UnintersectedPaths_) S.Map W
        (cutMapLookup S.CutMap_ Picked) hWok (hperm.nodup_iff.mpr hndInfo) hIs
    obtain ⟨I0, hI0⟩ : ∃ I0, I0 ∈ Info.UnintersectedPaths_ := by
      cases hU : Info.UnintersectedPaths_ with
      | nil => simp [CandidateInfo.size, hU] at hsize
      | cons a l => exact ⟨a, by simp⟩
    rw [← hunP] at hI0
    obtain ⟨⟨P0, hP0, hPickedP0⟩, _⟩ := hlive Picked (by simp) I0 hI0
    have hfresh0 := hfresh Picked (by simp) I0 hI0 P0 hP0
    have hPnotkey : Picked ∉ S.CutMap_.map (fun e => e.1) :=
      fun h => hfresh0 Picked h hPickedP0
    have hkeys1 := cutMapStore_keys_new S.CutMap_ Picked A' hPnotkey
    have hstore := cutMapStore_new S.CutMap_ Picked A' hPnotkey
    have hA := processPaths_antideps Paths Picked _ _ _ _ _ hpp
    simp only [cutMapLookup_not_key S.CutMap_ Picked hPnotkey, List.not_mem_nil,
      false_or] at hA
    have hinv1 : LoopInv N Paths
        { Map := M', Worklist := Worklist', CutSet_ := setInsert S.CutSet_ Picked
          CutMap_ := cutMapStore S.CutMap_ Picked A' } :=
      { wl := hW'
        live := by
          intro c hc I hI
          have hcW : c ∈ W := hperm'.mem_iff.mp hc
          have hcP : c ≠ Picked := fun e => hPW (e ▸ hcW)
          obtain ⟨hIM, hnot⟩ := (hiff c hcP I).mp hI
          obtain ⟨⟨P, hP, hcinP⟩, hlv⟩ := hlive c (by simp [hcW]) I hIM
          refine ⟨⟨P, hP, hcinP⟩, ?_⟩
          have hInot : I ∉ unintOf S.Map Picked := by
            intro h
            exact hnot ⟨(hIsmem I).mpr h, P, hP, hcinP⟩
          exact pathLive_transfer Paths S.Map M' W Worklist' [] Picked _ I hperm' hIsmem
            hiff hlv hInot
        hit := by
          intro I P hP
          rcases hhit I P hP with ⟨c, hc1, hc2⟩ | hlv
          · exact Or.inl ⟨c, hc1, (mem_setInsert _ _ _).mpr (Or.inl hc2)⟩
          · by_cases hI : I ∈ unintOf S.Map Picked
            · obtain ⟨⟨P', hP', hin⟩, _⟩ := hlive Picked (by simp) I hI
              rw [hP] at hP'
              cases hP'
              exact Or.inl ⟨Picked, hin, (mem_setInsert _ _ _).mpr (Or.inr rfl)⟩
            · exact Or.inr (pathLive_transfer Paths S.Map M' W Worklist' [] Picked _ I
                hperm' hIsmem hiff hlv hI)
        fresh := by
          intro c hc I hI P hP x hx
          have hcW : c ∈ W := hperm'.mem_iff.mp hc
          have hcP : c ≠ Picked := fun e => hPW (e ▸ hcW)
          obtain ⟨hIM, hnot⟩ := (hiff c hcP I).mp hI
          simp only at hx
          rw [hkeys1] at hx
          rcases List.mem_append.mp hx with hx | hx
          · exact hfresh c (by simp [hcW]) I hIM P hP x hx
          · simp at hx
            subst hx
            intro hxP
            obtain ⟨⟨_, _, hcinP⟩, hlv⟩ := hlive c (by simp [hcW]) I hIM
            have hcinP' : c ∈ P := by
              obtain ⟨P', hP', hin⟩ := (hlive c (by simp [hcW]) I hIM).1
              rw [hP] at hP'
              cases hP'
              exact hin
            have := (hlv P hP x hxP).2
            exact hnot ⟨(hIsmem I).mpr this, P, hP, hcinP'⟩
        order := by
          intro pre c post hsplit
          simp only at hsplit
          rw [hkeys1] at hsplit
          rcases split_concat pre post _ c Picked hsplit with ⟨_, hpre, hc⟩ | ⟨post', _, hL⟩
          · subst hpre hc
            exact ⟨P0, List.getElem?_mem hP0, hPickedP0, hfresh0⟩
          · exact hinv.order pre c post' hL }
    have hcm1 : CutMapInv Paths
        { Map := M', Worklist := Worklist', CutSet_ := setInsert S.CutSet_ Picked
          CutMap_ := cutMapStore S.CutMap_ Picked A' } :=
      { keysNodup := by
          simp only
          rw [hkeys1]
          refine List.Nodup.append hcm.keysNodup (List.nodup_singleton _) ?_
          intro x h1 h2
          simp at h2
          exact hPnotkey (h2 ▸ h1)
        unresolved := by
          intro I P hP hno
          simp only at hno ⊢
          rw [hkeys1] at hno
          have hnoOld : ∀ x ∈ S.CutMap_.map (fun e => e.1), x ∉ P :=
            fun x hx => hno x (List.mem_append_left _ hx)
          have hPk : Picked ∉ P := hno Picked (List.mem_append_right _ (by simp))
          have hlv := hunres I P hP hnoOld
          have hI : I ∉ unintOf S.Map Picked := by
            intro h
            obtain ⟨⟨P', hP', hin⟩, _⟩ := hlive Picked (by simp) I h
            rw [hP] at hP'
            cases hP'
            exact hPk hin
          exact pathLive_transfer Paths S.Map M' W Worklist' [] Picked _ I hperm' hIsmem
            hiff hlv hI
        vals := by
          intro pre c A post hsplit x
          simp only at hsplit
          rw [hstore] at hsplit
          rcases split_concat pre post _ (c, A) (Picked, A') hsplit with
            ⟨_, hpre, hc⟩ | ⟨post', _, hL⟩
          · subst hpre
            rw [Prod.mk.injEq] at hc
            obtain ⟨hc1, hc2⟩ := hc
            subst hc1 hc2
            rw [hA x]
            constructor
            · rintro ⟨I, hI, P, hP, hh⟩
              have hI' := (hIsmem I).mp hI
              obtain ⟨⟨P', hP', hin⟩, _⟩ := hlive c (by simp) I hI'
              rw [hP] at hP'
              cases hP'
              exact ⟨P, List.getElem?_mem hP, hin, hfresh c (by simp) I hI' P hP, hh⟩
            · rintro ⟨P, hPmem, hin, hno, hh⟩
              obtain ⟨I, hI⟩ := List.getElem?_of_mem hPmem
              have hlv := hunres I P hI hno
              exact ⟨I, (hIsmem I).mpr (hlv P hI c hin).2, P, hI, hh⟩
          · exact hcm.vals pre c A post' hL x }
    exact ⟨Info, hInfo, Or.inr ⟨hsize, M', Worklist', A', hpp, hinv1, hcm1, W, Picked, Info, A',
      hW0, hInfo, hsize, hperm', rfl, hstore, P0, List.getElem?_mem hP0, hPickedP0, hfresh0⟩⟩

/-- The main loop of `computeHittingSet` returns; every state at the start of
an iteration satisfies the invariants, and consecutive states are related by a
skip or by a pick. -/
theorem hittingSetTrace_ok (N : Nat) (hN : N < 32768) (Order : IterationOrder)
    (hOrd : Order.Ok) (Paths : List AntidependencePathTy) (hPaths : PathsOk Paths) :
    ∀ (fuel : Nat) (S : HittingSetState), LoopInv N Paths S → CutMapInv Paths S →
      S.Worklist.length < fuel →
      ∃ T, hittingSetTrace Order Paths fuel S = some (S :: T) ∧
        hittingSetLoop Order Paths fuel S = (S :: T).getLast? ∧
        (∀ X ∈ S :: T, LoopInv N Paths X ∧ CutMapInv Paths X) ∧
        List.Chain (fun X Y => SkipStep Paths X Y ∨ PickStep Paths X Y) S T ∧
        (∀ X, (S :: T).getLast? = some X → X.Worklist = []) := by
  intro fuel
  induction fuel with
  | zero => intro S _ _ h; omega
  | succ fuel ih =>
    intro S hinv hcm hfuel
    rcases List.eq_nil_or_concat S.Worklist with hnil | ⟨W, Picked, hW⟩
    · refine ⟨[], ?_, ?_, ?_, List.Chain.nil, ?_⟩
      · simp [hittingSetTrace, hnil]
      · simp [hittingSetLoop, hnil]
      · intro X hX
        simp only [List.mem_singleton] at hX
        subst hX
        exact ⟨hinv, hcm⟩
      · intro X hX
        simp only [List.getLast?_singleton, Option.some.injEq] at hX
        subst hX
        exact hnil
    · rw [List.concat_eq_append] at hW
      have hlast : S.Worklist.getLast? = some Picked := by rw [hW]; simp
      have hdrop : S.Worklist.dropLast = W := by rw [hW]; simp
      have hWlen : W.length < fuel := by
        rw [hW] at hfuel
        simp at hfuel
        omega
      obtain ⟨Info, hInfo, hcase⟩ :=
        hittingSet_step N hN Order hOrd Paths hPaths S hinv hcm W Picked hW
      rcases hcase with ⟨hsize, hinv1, hcm1, hstep⟩ |
        ⟨hsize, M', Worklist', A', hpp, hinv1, hcm1, hstep⟩
      · obtain ⟨T, h1, h2, h3, h4, h5⟩ := ih { S with Worklist := W } hinv1 hcm1 hWlen
        refine ⟨{ S with Worklist := W } :: T, ?_, ?_, ?_, List.Chain.cons (Or.inl hstep) h4, ?_⟩
        · simp only [hittingSetTrace, hlast, hdrop, hInfo, hsize, if_true, h1, Option.map_some']
        · simp only [hittingSetLoop, hlast, hdrop, hInfo, hsize, if_true]
          rw [h2, List.getLast?_cons_cons]
        · intro X hX
          rcases List.mem_cons.mp hX with e | e
          · rw [e]
            exact ⟨hinv, hcm⟩
          · exact h3 X e
        · intro X hX
          rw [List.getLast?_cons_cons] at hX
          exact h5 X hX
      · have hperm : Worklist'.Perm W := by
          obtain ⟨W2, P2, _, _, h1, _, _, h4, _⟩ := hstep
          have e := List.append_inj' (hW.symm.trans h1) rfl
          rw [e.1]
          exact h4
        have hlen : Worklist'.length < fuel := by
          rw [hperm.length_eq]
          exact hWlen
        obtain ⟨T, h1, h2, h3, h4, h5⟩ := ih _ hinv1 hcm1 hlen
        refine ⟨_ :: T, ?_, ?_, ?_, List.Chain.cons (Or.inr hstep) h4, ?_⟩
        · simp only [hittingSetTrace, hlast, hdrop, hInfo, hsize, if_false, hpp, h1,
            Option.map_some']
        · simp only [hittingSetLoop, hlast, hdrop, hInfo, hsize, if_false, hpp]
          rw [h2, List.getLast?_cons_cons]
        · intro X hX
          rcases List.mem_cons.mp hX with e | e
          · rw [e]
            exact ⟨hinv, hcm⟩
          · exact h3 X e
        · intro X hX
          rw [List.getLast?_cons_cons] at hX
          exact h5 X hX

/-- The set-up of `computeHittingSet`: the candidate search and the sort
return, the worklist holds every candidate of the map once, and the invariants
of the main loop hold. -/
theorem hittingSet_init (LI : LoopInfo) (Order : IterationOrder) (hOrd : Order.Ok)
    (S : MemoryIdempotenceAnalysisImpl) (hPaths : PathsOk S.AntidependencePaths_)
    (hN : S.AntidependencePaths_.length < 32768) (hCM : S.CutMap_ = []) :
    ∃ M Worklist, findCandidates LI S.AntidependencePaths_ 0 [] = some M ∧
      initialWorklist Order M = some Worklist ∧
      Worklist.Perm (M.map (fun X => X.Candidate_)) ∧
      (∀ P ∈ S.AntidependencePaths_, ∀ c ∈ P, c ∈ Worklist) ∧
      LoopInv S.AntidependencePaths_.length S.AntidependencePaths_
        { Map := M, Worklist := Worklist, CutSet_ := S.CutSet_, CutMap_ := S.CutMap_ } ∧
      CutMapInv S.AntidependencePaths_
        { Map := M, Worklist := Worklist, CutSet_ := S.CutSet_, CutMap_ := S.CutMap_ } := by
  have h0 : CandInv 0 [] ([] : CandidateInfoMapTy) :=
    { keys := List.nodup_nil
      mem := by intro c C h; simp [CandidateInfoMapTy.lookup] at h
      dom := by intro x hx; simp at hx
      bound := by intro x hx; simp at hx }
  obtain ⟨M, hM, hinv⟩ := findCandidates_ok LI S.AntidependencePaths_ 0 [] [] h0
    (fun P hP => (hPaths P hP).1) (by omega)
  simp only [Nat.zero_add, List.nil_append] at hinv
  obtain ⟨Worklist, hWl, hperm, hsorted⟩ := initialWorklist_ok Order hOrd M hinv.keys
  have hocc : ∀ I c, (I, c) ∈ occOf S.AntidependencePaths_ 0 ↔
      ∃ P, S.AntidependencePaths_[I]? = some P ∧ c ∈ P := by
    intro I c
    rw [mem_occOf]
    simp
  have hlook : ∀ c ∈ Worklist, ∃ C, M.lookup c = some C :=
    fun c hc => (lookup_isSome_iff M c).mpr (hperm.mem_iff.mp hc)
  have hun : ∀ c I, I ∈ unintOf M c ↔ ∃ P, S.AntidependencePaths_[I]? = some P ∧ c ∈ P := by
    intro c I
    cases hl : M.lookup c with
    | some C =>
      rw [unintOf_of_lookup hl, (hinv.mem c C hl).1 I, hocc]
    | none =>
      simp only [unintOf, hl, List.not_mem_nil, false_iff]
      rintro ⟨P, hP, hc⟩
      obtain ⟨C, hC⟩ := hinv.dom (I, c) ((hocc I c).mpr ⟨P, hP, hc⟩)
      simp only at hC
      rw [hl] at hC
      cases hC
  have hliveAll : ∀ I, PathLive S.AntidependencePaths_ M Worklist I := by
    intro I P hP J hJ
    refine ⟨?_, (hun J I).mpr ⟨P, hP, hJ⟩⟩
    obtain ⟨C, hC⟩ := hinv.dom (I, J) ((hocc I J).mpr ⟨P, hP, hJ⟩)
    exact hperm.mem_iff.mpr ((lookup_isSome_iff M J).mp ⟨C, hC⟩)
  have hinit : LoopInv S.AntidependencePaths_.length S.AntidependencePaths_
      { Map := M, Worklist := Worklist, CutSet_ := S.CutSet_, CutMap_ := S.CutMap_ } :=
    { wl := by
        refine ⟨hperm.nodup_iff.mpr hinv.keys, hsorted, ?_⟩
        intro c hc
        obtain ⟨C, hC⟩ := hlook c hc
        obtain ⟨hiff, hnd, hcnt, hint⟩ := hinv.mem c C hC
        refine ⟨C, hC, hcnt, hnd, ?_⟩
        rw [hcnt, hint]
        exact nodup_bounded_length _ _ hnd (fun I hI => hinv.bound (I, c) ((hiff I).mp hI))
      live := fun c _ I hI => ⟨(hun c I).mp hI, hliveAll I⟩
      hit := fun I _ _ => Or.inr (hliveAll I)
      fresh := by
        intro c _ I _ P _ x hx
        simp [hCM] at hx
      order := by
        intro pre c post h
        simp [hCM] at h }
  have hcminit : CutMapInv S.AntidependencePaths_
      { Map := M, Worklist := Worklist, CutSet_ := S.CutSet_, CutMap_ := S.CutMap_ } :=
    { keysNodup := by simp [hCM]
      unresolved := fun I _ _ _ => hliveAll I
      vals := by
        intro pre c A post h
        simp [hCM] at h }
  refine ⟨M, Worklist, hM, hWl, hperm, ?_, hinit, hcminit⟩
  intro P hP c hc
  obtain ⟨I, hI⟩ := List.getElem?_of_mem hP
  exact (hliveAll I P hI c hc).1

/-- The iterations of `computeHittingSet`: the trace of the states exists, its
last state is the result, and the invariants hold at every iteration. -/
theorem computeHittingSetTrace_ok (LI : LoopInfo) (Order : IterationOrder) (hOrd : Order.Ok)
    (S : MemoryIdempotenceAnalysisImpl) (hPaths : PathsOk S.AntidependencePaths_)
    (hN : S.AntidependencePaths_.length < 32768) (hCM : S.CutMap_ = []) :
    ∃ X0 T Xn, computeHittingSetTrace LI Order S = some (X0 :: T) ∧
      (X0 :: T).getLast? = some Xn ∧
      computeHittingSet LI Order S = some { S with CutSet_ := Xn.CutSet_, CutMap_ := Xn.CutMap_ } ∧
      X0.CutSet_ = S.CutSet_ ∧ X0.CutMap_ = [] ∧
      X0.Worklist.Perm (X0.Map.map (fun X => X.Candidate_)) ∧
      (∀ P ∈ S.AntidependencePaths_, ∀ c ∈ P, c ∈ X0.Worklist) ∧
      (∀ X ∈ X0 :: T, LoopInv S.AntidependencePaths_.length S.AntidependencePaths_ X ∧
        CutMapInv S.AntidependencePaths_ X) ∧
      List.Chain (fun X Y => SkipStep S.AntidependencePaths_ X Y ∨
        PickStep S.AntidependencePaths_ X Y) X0 T ∧
      Xn.Worklist = [] := by
  obtain ⟨M, Worklist, hM, hWl, hperm, hall, hinit, hcminit⟩ :=
    hittingSet_init LI Order hOrd S hPaths hN hCM
  obtain ⟨T, h1, h2, h3, h4, h5⟩ :=
    hittingSetTrace_ok S.AntidependencePaths_.length hN Order hOrd S.AntidependencePaths_
      hPaths (Worklist.length + 1) _ hinit hcminit (Nat.lt_succ_self _)
  have hne : ({ Map := M, Worklist := Worklist, CutSet_ := S.CutSet_, CutMap_ := S.CutMap_ }
      :: T : List HittingSetState) ≠ [] := by simp
  refine ⟨_, T, List.getLast _ hne, ?_, List.getLast?_eq_getLast _ hne, ?_, rfl, hCM, hperm,
    hall, h3, h4, h5 _ (List.getLast?_eq_getLast _ hne)⟩
  · simp only [computeHittingSetTrace, hM, hWl, h1]
  · simp only [computeHittingSet, hM, hWl, h2, List.getLast?_eq_getLast _ hne]

theorem step_worklist (Paths : List AntidependencePathTy) (X Y : HittingSetState)
    (h : SkipStep Paths X Y ∨ PickStep Paths X Y) : Y.Worklist.Perm X.Worklist.dropLast := by
  rcases h with ⟨W, Picked, Info, h1, _, _, h4, _⟩ | ⟨W, Picked, Info, A, h1, _, _, h4, _⟩
  · rw [h1, h4]
    simp
  · rw [h1]
    simpa using h4

/-- C26: `runOnFunction` returns, so that no call of `processRedundantCandidate`
runs past the end of the worklist or fails its assertion; when there are pairs,
the worklist that `computeHittingSet` sets up holds every candidate of the map
once, at the start of every iteration of the main loop the worklist is
duplicate-free and sorted ascending by priority, every iteration removes the
popped candidate and rearranges the others, and the loop ends with the empty
worklist. Moreover a call of `processRedundantCandidate` for a candidate of a
sorted worklist and one of its unresolved paths finds the candidate, passes
its assertion and leaves the worklist sorted, with the same members. -/
theorem worklist_invariant (F : Function) (AA : AliasAnalysis) (DT : DominatorTree)
    (LI : LoopInfo) (Order : IterationOrder) (hWF : F.WellFormed) (hDT : DT.WellFormed F)
    (hOrd : Order.Ok)
    (hcount : ∀ Pairs, computePairs F AA F.positions [] = some Pairs → Pairs.length < 32768) :
    (∃ st, runOnFunction F AA DT LI Order .releaseMemory = some st ∧
      (st.AntidependencePairs_ ≠ [] → ∃ S0 X0 T,
        S0.AntidependencePaths_ = st.AntidependencePaths_ ∧
        computeHittingSet LI Order S0 = some st ∧
        computeHittingSetTrace LI Order S0 = some (X0 :: T) ∧
        X0.Worklist.Perm (X0.Map.map (fun C => C.Candidate_)) ∧
        (∀ X ∈ X0 :: T, X.Worklist.Nodup ∧ SortedBy X.Map X.Worklist) ∧
        List.Chain (fun X Y => Y.Worklist.Perm X.Worklist.dropLast) X0 T ∧
        (∀ X, (X0 :: T).getLast? = some X → X.Worklist = []))) ∧
      ∀ (N : Nat) (M : CandidateInfoMapTy) (W : List InstPos) (J : InstPos) (I : Nat),
        N < 32768 → WorklistOk N M W → J ∈ W → I ∈ unintOf M J →
        ∃ M' W', processRedundantCandidate M W J I = some (M', W') ∧ W'.Perm W ∧
          W'.Nodup ∧ SortedBy M' W' := by
  refine ⟨?_, ?_⟩
  · obtain ⟨st, h1, _, _, hspec, hlen, _, hrun⟩ :=
      runOnFunction_eq F AA DT LI Order hWF hDT hOrd hcount
    refine ⟨st, h1, ?_⟩
    intro hne
    obtain ⟨S0, hS0, hS0p, hS0run⟩ := hrun hne
    have hPok : PathsOk S0.AntidependencePaths_ := by
      rw [hS0p]
      exact pathsOk_of_spec F DT _ _ hspec
    obtain ⟨X0, T, Xn, g1, g2, _, _, _, g6, _, g8, g9, g10⟩ :=
      computeHittingSetTrace_ok LI Order hOrd S0 hPok (by rw [hS0p]; exact hlen) hS0
    refine ⟨S0, X0, T, hS0p, hS0run, g1, g6, ?_, ?_, ?_⟩
    · intro X hX
      obtain ⟨hinv, _⟩ := g8 X hX
      exact ⟨hinv.wl.1, hinv.wl.2.1⟩
    · exact List.Chain.imp (fun X Y h => step_worklist _ X Y h) g9
    · intro X hX
      rw [g2] at hX
      cases hX
      exact g10
  · intro N M W J I hN hW hJ hI
    obtain ⟨M', W', h1, h2, h3, _⟩ := processRedundantCandidate_ok N hN M W J I hW hJ hI
    exact ⟨M', W', h1, h3, h2.1, h2.2.1⟩

/-- Witness of C26 on `exampleRedundant`, which has two paths and two
candidates. -/
theorem worklist_invariant_witness :
    (∃ st, runOnFunction exampleRedundant exampleRedundantAlias exampleTieTree exampleTieLoops
        insertionOrder .releaseMemory = some st ∧
      (st.AntidependencePairs_ ≠ [] → ∃ S0 X0 T,
        S0.AntidependencePaths_ = st.AntidependencePaths_ ∧
        computeHittingSet exampleTieLoops insertionOrder S0 = some st ∧
        computeHittingSetTrace exampleTieLoops insertionOrder S0 = some (X0 :: T) ∧
        X0.Worklist.Perm (X0.Map.map (fun C => C.Candidate_)) ∧
        (∀ X ∈ X0 :: T, X.Worklist.Nodup ∧ SortedBy X.Map X.Worklist) ∧
        List.Chain (fun X Y => Y.Worklist.Perm X.Worklist.dropLast) X0 T ∧
        (∀ X, (X0 :: T).getLast? = some X → X.Worklist = []))) ∧
      ∀ (N : Nat) (M : CandidateInfoMapTy) (W : List InstPos) (J : InstPos) (I : Nat),
        N < 32768 → WorklistOk N M W → J ∈ W → I ∈ unintOf M J →
        ∃ M' W', processRedundantCandidate M W J I = some (M', W') ∧ W'.Perm W ∧
          W'.Nodup ∧ SortedBy M' W' :=
  worklist_invariant exampleRedundant exampleRedundantAlias exampleTieTree exampleTieLoops
    insertionOrder exampleRedundant_wf exampleRedundantTree_wf insertionOrder_ok
    (by
      intro Pairs h
      rw [exampleRedundant_pairs] at h
      cases h
      decide)

/-- C28: `runOnFunction` returns; when there are pairs, every iteration of the
main loop of `computeHittingSet` either skips the popped candidate, leaving
the cut set as it is, which happens when the candidate has no unresolved path
and every path through it holds an instruction picked before, or inserts it in
the cut set, and then it lies on a path that holds no instruction picked
before. The cut set and the cut map of the last state are those of the
result. -/
theorem picks_useful_when_made (F : Function) (AA : AliasAnalysis) (DT : DominatorTree)
    (LI : LoopInfo) (Order : IterationOrder) (hWF : F.WellFormed) (hDT : DT.WellFormed F)
    (hOrd : Order.Ok)
    (hcount : ∀ Pairs, computePairs F AA F.positions [] = some Pairs → Pairs.length < 32768) :
    ∃ st, runOnFunction F AA DT LI Order .releaseMemory = some st ∧
      (st.AntidependencePairs_ ≠ [] → ∃ S0 X0 T Xn,
        S0.AntidependencePaths_ = st.AntidependencePaths_ ∧
        computeHittingSet LI Order S0 = some st ∧
        computeHittingSetTrace LI Order S0 = some (X0 :: T) ∧
        X0.CutSet_ = S0.CutSet_ ∧ X0.CutMap_ = [] ∧
        (X0 :: T).getLast? = some Xn ∧ Xn.CutSet_ = st.CutSet_ ∧ Xn.CutMap_ = st.CutMap_ ∧
        List.Chain (fun X Y => SkipStep st.AntidependencePaths_ X Y ∨
          PickStep st.AntidependencePaths_ X Y) X0 T) := by
  obtain ⟨st, h1, _, _, hspec, hlen, _, hrun⟩ :=
    runOnFunction_eq F AA DT LI Order hWF hDT hOrd hcount
  refine ⟨st, h1, ?_⟩
  intro hne
  obtain ⟨S0, hS0, hS0p, hS0run⟩ := hrun hne
  have hPok : PathsOk S0.AntidependencePaths_ := by
    rw [hS0p]
    exact pathsOk_of_spec F DT _ _ hspec
  obtain ⟨X0, T, Xn, g1, g2, g3, g4, g5, _, _, _, g9, _⟩ :=
    computeHittingSetTrace_ok LI Order hOrd S0 hPok (by rw [hS0p]; exact hlen) hS0
  rw [hS0run] at g3
  have e := Option.some.inj g3
  refine ⟨S0, X0, T, Xn, hS0p, hS0run, g1, g4, g5, g2, ?_, ?_, ?_⟩
  · rw [e]
  · rw [e]
  · rw [← hS0p]
    exact g9

/-- Witness of C28 on `exampleRedundant`. -/
theorem picks_useful_when_made_witness :
    ∃ st, runOnFunction exampleRedundant exampleRedundantAlias exampleTieTree exampleTieLoops
        insertionOrder .releaseMemory = some st ∧
      (st.AntidependencePairs_ ≠ [] → ∃ S0 X0 T Xn,
        S0.AntidependencePaths_ = st.AntidependencePaths_ ∧
        computeHittingSet exampleTieLoops insertionOrder S0 = some st ∧
        computeHittingSetTrace exampleTieLoops insertionOrder S0 = some (X0 :: T) ∧
        X0.CutSet_ = S0.CutSet_ ∧ X0.CutMap_ = [] ∧
        (X0 :: T).getLast? = some Xn ∧ Xn.CutSet_ = st.CutSet_ ∧ Xn.CutMap_ = st.CutMap_ ∧
        List.Chain (fun X Y => SkipStep st.AntidependencePaths_ X Y ∨
          PickStep st.AntidependencePaths_ X Y) X0 T) :=
  picks_useful_when_made exampleRedundant exampleRedundantAlias exampleTieTree exampleTieLoops
    insertionOrder exampleRedundant_wf exampleRedundantTree_wf insertionOrder_ok
    (by
      intro Pairs h
      rw [exampleRedundant_pairs] at h
      cases h
      decide)

end Ratchet

namespace Ratchet

/-! ## C30: the scans of the backward search -/

/-- Without the log the instrumented loop is the loop of
`findAntidependencePairs`. -/
theorem findLog_erase (F : Function) (AA : AliasAnalysis) (Write : InstPos) :
    ∀ (fuel : Nat) (Worklist : List (Nat × Nat)) (Visited : List Nat)
      (Pairs : List AntidependencePairTy) (Log : List (Nat × Nat)),
      (findAntidependencePairsLog F AA Write fuel Worklist Visited Pairs Log).map
          (fun r => r.1) =
        findAntidependencePairsLoop F AA Write fuel Worklist Visited Pairs := by
  intro fuel
  induction fuel with
  | zero => intro _ _ _ _; rfl
  | succ fuel ih =>
    intro Worklist Visited Pairs Log
    cases Worklist with
    | nil => rfl
    | cons item Worklist =>
      obtain ⟨BB, I⟩ := item
      unfold findAntidependencePairsLog findAntidependencePairsLoop
      cases hB : F.blocks[BB]? with
      | none => rfl
      | some B =>
        simp only
        have key : ∀ scanned : Option (Bool × List AntidependencePairTy),
            Option.map (fun r => r.1)
              (match scanned with
              | none => none
              | some (true, Pairs1) =>
                findAntidependencePairsLog F AA Write fuel Worklist Visited Pairs1
                  (Log ++ [(BB, I)])
              | some (false, Pairs1) =>
                match pushPreds F B.preds Worklist Visited with
                | none => none
                | some (Worklist1, Visited1) =>
                  findAntidependencePairsLog F AA Write fuel Worklist1 Visited1 Pairs1
                    (Log ++ [(BB, I)])) =
              (match scanned with
              | none => none
              | some (true, Pairs1) =>
                findAntidependencePairsLoop F AA Write fuel Worklist Visited Pairs1
              | some (false, Pairs1) =>
                match pushPreds F B.preds Worklist Visited with
                | none => none
                | some (Worklist1, Visited1) =>
                  findAntidependencePairsLoop F AA Write fuel Worklist1 Visited1 Pairs1) := by
          intro scanned
          cases scanned with
          | none => rfl
          | some r =>
            obtain ⟨flag, Pairs1⟩ := r
            cases flag with
            | true => exact ih _ _ _ _
            | false =>
              simp only
              cases pushPreds F B.preds Worklist Visited with
              | none => rfl
              | some r1 => exact ih _ _ _ _
        exact key _

/-- The instrumented loop on blocks entered from their end logs the blocks of
the worklist search in order. -/
theorem findLog_eq_trace (F : Function) (AA : AliasAnalysis) (Write : InstPos)
    (hWF : F.WellFormed) (v a g : Bool) (hW : F.inst? Write = some (.store v a g)) :
    ∀ (fuel : Nat) (Worklist Visited : List Nat) (Pairs : List AntidependencePairTy)
      (Log : List (Nat × Nat)),
      findAntidependencePairsLog F AA Write fuel
          (Worklist.map (fun b => (b, F.blockLen b))) Visited Pairs Log =
        (dfsTrace (irStop F AA Write) (irNbrs F) fuel Worklist Visited).map
          (fun tr => (Pairs ++ tr.flatMap (irPairs F AA Write),
            Log ++ tr.map (fun b => (b, F.blockLen b)))) := by
  intro fuel
  induction fuel with
  | zero => intro Worklist Visited Pairs Log; rfl
  | succ fuel ih =>
    intro Worklist Visited Pairs Log
    cases Worklist with
    | nil => simp [findAntidependencePairsLog, dfsTrace]
    | cons b Worklist =>
      simp only [List.map_cons, findAntidependencePairsLog, dfsTrace]
      cases hB : F.blocks[b]? with
      | none => simp [irStop, irScan, hB]
      | some B =>
        simp only [hW, blockLen_eq F b B hB, and_true]
        have hE : (if b = Write.bb then Write.idx else 0) = irLo Write b := rfl
        rw [hE, scan_pairs]
        have hscan : scanForAliasingLoad F AA b B.insts.length (irLo Write b) Write [] =
            irScan F AA Write b := by simp [irScan, hB]
        rw [hscan]
        cases hs : irScan F AA Write b with
        | none => simp [irStop, hs]
        | some r =>
          obtain ⟨flag, ps⟩ := r
          have hstop : irStop F AA Write b = some flag := by simp [irStop, hs]
          have hpairs : irPairs F AA Write b = ps := by simp [irPairs, hs]
          rw [hstop]
          cases flag with
          | true =>
            simp only [Option.map_some', if_true]
            rw [ih Worklist Visited (Pairs ++ ps)]
            cases dfsTrace (irStop F AA Write) (irNbrs F) fuel Worklist Visited with
            | none => rfl
            | some tr => simp [List.flatMap_cons, hpairs, blockLen_eq F b B hB]
          | false =>
            simp only [Option.map_some', Bool.false_eq_true, if_false]
            have hn : irNbrs F b = B.preds := by simp [irNbrs, hB]
            rw [hn, pushPreds_eq F B.preds (preds_valid F hWF b B hB) Worklist Visited]
            simp only
            rw [ih _ _ (Pairs ++ ps)]
            cases dfsTrace (irStop F AA Write) (irNbrs F) fuel
                (pushSuccs B.preds Worklist Visited).1 (pushSuccs B.preds Worklist Visited).2 with
            | none => rfl
            | some tr => simp [List.flatMap_cons, hpairs, blockLen_eq F b B hB]

/-- C30: for a store of a well-formed function the backward search of
`findAntidependencePairs` returns, whatever cycles the graph has; its first
work item is the store in its block, every other work item is a block entered
from its end, no work item is scanned twice, and every block is scanned at
most once, except the block of the store, which is scanned at most twice. -/
theorem search_scans_once (F : Function) (AA : AliasAnalysis) (Write : InstPos)
    (hWF : F.WellFormed) (v a g : Bool) (hW : F.inst? Write = some (.store v a g))
    (Pairs : List AntidependencePairTy) :
    ∃ Pairs1 Log, findAntidependencePairsScans F AA Write Pairs = some (Pairs1, Log) ∧
      findAntidependencePairs F AA Write Pairs = some Pairs1 ∧
      Log.Nodup ∧ Log.head? = some (Write.bb, Write.idx) ∧
      (∀ item ∈ Log.tail, item.2 = F.blockLen item.1) ∧
      ∀ b, (Log.map (fun item => item.1)).count b ≤ if b = Write.bb then 2 else 1 := by
  obtain ⟨B, flag, ps, tr, hB, hs, htrue, hfalse, _⟩ :=
    findAntidependencePairs_eq F AA Write hWF v a g hW Pairs
  have hidx : Write.idx < F.blockLen Write.bb := by
    rw [blockLen_eq F _ B hB]
    have hW1 := hW
    simp only [Function.inst?, hB] at hW1
    by_contra hcon
    rw [List.getElem?_eq_none (by omega)] at hW1
    cases hW1
  have hE : (if True ∧ Write.idx = B.insts.length then Write.idx else 0) = 0 := by
    rw [if_neg]
    rw [blockLen_eq F _ B hB] at hidx
    omega
  have hnd : tr.Nodup := by
    cases flag with
    | true => rw [htrue rfl]; exact List.nodup_nil
    | false =>
      have hp := pushSuccs_nodup B.preds [] [] List.nodup_nil (by simp)
      exact (dfsTrace_nodup _ _ _ _ _ tr (hfalse rfl) hp.1 hp.2).1
  have hlog : findAntidependencePairsScans F AA Write Pairs =
      some (Pairs ++ ps ++ tr.flatMap (irPairs F AA Write),
        (Write.bb, Write.idx) :: tr.map (fun b => (b, F.blockLen b))) := by
    unfold findAntidependencePairsScans
    cases flag with
    | true =>
      rw [htrue rfl]
      simp only [findAntidependencePairsLog, hB, hW]
      rw [scan_pairs, hE, hs]
      simp [findAntidependencePairsLog]
    | false =>
      simp only [findAntidependencePairsLog, hB, hW]
      rw [scan_pairs, hE, hs]
      simp only [Option.map_some']
      have hp := pushPreds_eq F B.preds (preds_valid F hWF Write.bb B hB) [] []
      simp only [List.map_nil] at hp
      rw [hp]
      simp only
      rw [findLog_eq_trace F AA Write hWF v a g hW, hfalse rfl]
      simp
  refine ⟨_, _, hlog, ?_, ?_, rfl, ?_, ?_⟩
  · have he := findLog_erase F AA Write (F.blocks.length + 2) [(Write.bb, Write.idx)] [] Pairs []
    unfold findAntidependencePairsScans at hlog
    rw [hlog] at he
    unfold findAntidependencePairs
    rw [← he]
    rfl
  · refine List.nodup_cons.mpr ⟨?_, ?_⟩
    · intro hm
      obtain ⟨b, _, hb⟩ := List.mem_map.mp hm
      simp only [Prod.mk.injEq] at hb
      rw [hb.1] at hb
      omega
    · refine List.Nodup.map ?_ hnd
      intro x y hxy
      exact congrArg Prod.fst hxy
  · intro item hitem
    simp only [List.tail_cons] at hitem
    obtain ⟨b, _, hb⟩ := List.mem_map.mp hitem
    rw [← hb]
  · intro b
    have hmap : ((Write.bb, Write.idx) :: tr.map (fun b => (b, F.blockLen b))).map
        (fun item => item.1) = Write.bb :: tr := by
      simp [List.map_map, Function.comp_def]
    rw [hmap, List.count_cons]
    have hc := List.nodup_iff_count_le_one.mp hnd b
    by_cases e : b = Write.bb
    · simp only [e, if_true, beq_self_eq_true]
      rw [e] at hc
      omega
    · have e1 : (Write.bb == b) = false := by
        simp only [beq_eq_false_iff_ne, ne_eq]
        exact fun h => e h.symm
      simp only [e, if_false, e1, Bool.false_eq_true]
      omega

/-- Witness of C30 on `exampleRedundant`, where the search for the store of
block 3 comes back to block 3 through the loop and scans it a second time. -/
theorem search_scans_once_witness :
    (∃ Pairs1 Log, findAntidependencePairsScans exampleRedundant exampleRedundantAlias ⟨3, 0⟩ [] =
        some (Pairs1, Log) ∧
      findAntidependencePairs exampleRedundant exampleRedundantAlias ⟨3, 0⟩ [] = some Pairs1 ∧
      Log.Nodup ∧ Log.head? = some ((⟨3, 0⟩ : InstPos).bb, (⟨3, 0⟩ : InstPos).idx) ∧
      (∀ item ∈ Log.tail, item.2 = exampleRedundant.blockLen item.1) ∧
      ∀ b, (Log.map (fun item => item.1)).count b ≤
        if b = (⟨3, 0⟩ : InstPos).bb then 2 else 1) ∧
      (findAntidependencePairsScans exampleRedundant exampleRedundantAlias ⟨3, 0⟩ []).map
        (fun r => r.2) = some [(3, 0), (3, 3), (2, 2), (1, 2), (0, 1)] :=
  ⟨search_scans_once exampleRedundant exampleRedundantAlias ⟨3, 0⟩ exampleRedundant_wf
    false false false rfl [], by decide⟩

end Ratchet

namespace Ratchet

/-! ## C29: soundness of the antidependence pairs -/

theorem stopperAt_of_ge (F : Function) (AA : AliasAnalysis) (S : InstPos) (b k : Nat)
    (B : BasicBlock) (hB : F.blocks[b]? = some B) (hk : B.insts.length ≤ k) :
    stopperAt F AA S ⟨b, k⟩ = false := by
  simp [stopperAt, inst?_eq F b k B hB, List.getElem?_eq_none hk]

theorem cfg_of_block (F : Function) (b : Nat) (B : BasicBlock) (hB : F.blocks[b]? = some B) :
    F.cfg[b]? = some ⟨B.insts.length, B.preds, B.succs⟩ := by
  rw [cfg_getElem?, hB]
  rfl

theorem avoidPath_closed (G : Cfg) (bad : InstPos → Bool) (src dst : InstPos)
    (h : AvoidPath G bad src dst) :
    ∃ rest, IsPath G (src :: rest) ∧ (src :: rest).getLast? = some dst ∧
      ∀ p ∈ rest.dropLast, bad p = false := by
  obtain ⟨rest, h1, h2, h3⟩ := h
  refine ⟨rest, h1, ?_, h3⟩
  cases rest with
  | nil => cases h2
  | cons r rest => rw [List.getLast?_cons_cons]; exact h2

/-- What the result of the scan loop tells about the scanned instructions. -/
theorem scanLoop_sound (F : Function) (AA : AliasAnalysis) (B : BasicBlock) (bb E : Nat)
    (Store : InstPos) (hB : F.blocks[bb]? = some B) :
    ∀ i flag ps, E ≤ i → scanForAliasingLoadLoop AA B bb E Store [] i = some (flag, ps) →
      (flag = false → ps = [] ∧ ∀ k, E ≤ k → k < i → stopperAt F AA Store ⟨bb, k⟩ = false) ∧
      (∀ pr ∈ ps, ∃ j inst, E ≤ j ∧ j < i ∧ pr = (⟨bb, j⟩, Store) ∧
        B.insts[j]? = some inst ∧ inst.isLoad = true ∧ forcesCut inst = false ∧
        AA.mayRef ⟨bb, j⟩ Store = true ∧
        ∀ k, j < k → k < i → stopperAt F AA Store ⟨bb, k⟩ = false) := by
  intro i
  induction i with
  | zero =>
    intro flag ps _ h
    unfold scanForAliasingLoadLoop at h
    by_cases hE : E = 0
    · simp only [hE, if_true, Option.some.injEq, Prod.mk.injEq] at h
      rw [← h.2]
      refine ⟨fun _ => ⟨rfl, fun k _ hk => by omega⟩, ?_⟩
      intro pr hpr
      cases hpr
    · simp [hE] at h
  | succ i ih =>
    intro flag ps hle h
    unfold scanForAliasingLoadLoop at h
    by_cases hE : i + 1 = E
    · simp only [hE, if_true, Option.some.injEq, Prod.mk.injEq] at h
      rw [← h.2]
      refine ⟨fun _ => ⟨rfl, fun k _ hk => by omega⟩, ?_⟩
      intro pr hpr
      cases hpr
    · simp only [hE, if_false] at h
      cases hget : B.insts[i]? with
      | none => simp [hget] at h
      | some inst =>
        simp only [hget] at h
        by_cases hf : forcesCut inst = true
        · simp only [hf, if_true, Option.some.injEq, Prod.mk.injEq] at h
          rw [← h.2, ← h.1]
          refine ⟨fun e => (by cases e), ?_⟩
          intro pr hpr
          cases hpr
        · simp only [hf, if_false, Bool.false_eq_true] at h
          have hf' : forcesCut inst = false := by
            cases hc : forcesCut inst
            · rfl
            · exact absurd hc hf
          by_cases hl : (inst.isLoad && AA.mayRef ⟨bb, i⟩ Store) = true
          · simp only [hl, if_true, Option.some.injEq, Prod.mk.injEq] at h
            rw [← h.2, ← h.1]
            refine ⟨fun e => (by cases e), ?_⟩
            intro pr hpr
            rw [List.nil_append, List.mem_singleton] at hpr
            rw [Bool.and_eq_true] at hl
            exact ⟨i, inst, by omega, by omega, hpr, hget, hl.1, hf', hl.2,
              fun k _ _ => by omega⟩
          · simp only [hl, if_false, Bool.false_eq_true] at h
            have hst : stopperAt F AA Store ⟨bb, i⟩ = false := by
              have hl' : (inst.isLoad && AA.mayRef ⟨bb, i⟩ Store) = false := by
                cases hc : (inst.isLoad && AA.mayRef ⟨bb, i⟩ Store)
                · rfl
                · exact absurd hc hl
              simp only [stopperAt, inst?_eq F bb i B hB, hget, hf', hl', Bool.or_self]
            obtain ⟨h1, h2⟩ := ih flag ps (by omega) h
            refine ⟨?_, ?_⟩
            · intro e
              obtain ⟨h3, h4⟩ := h1 e
              refine ⟨h3, ?_⟩
              intro k hk1 hk2
              by_cases hki : k = i
              · rw [hki]
                exact hst
              · exact h4 k hk1 (by omega)
            · intro pr hpr
              obtain ⟨j, inst', g1, g2, g3, g4, g5, g6, g7, g8⟩ := h2 pr hpr
              refine ⟨j, inst', g1, by omega, g3, g4, g5, g6, g7, ?_⟩
              intro k hk1 hk2
              by_cases hki : k = i
              · rw [hki]
                exact hst
              · exact g8 k hk1 (by omega)

/-- What the result of `scanForAliasingLoad` tells about the scanned
instructions: without a stop they are neither forced cuts nor aliasing loads,
and a recorded pair starts at an aliasing load or, by the rule for the entry
block, at the end of the scan. -/
theorem scan_sound (F : Function) (AA : AliasAnalysis) (bb I E : Nat) (Store : InstPos)
    (B : BasicBlock) (hB : F.blocks[bb]? = some B) (hle : E ≤ I) (flag : Bool)
    (ps : List AntidependencePairTy)
    (h : scanForAliasingLoad F AA bb I E Store [] = some (flag, ps)) :
    (flag = false → ∀ k, E ≤ k → k < I → stopperAt F AA Store ⟨bb, k⟩ = false) ∧
    (∀ pr ∈ ps,
      (∃ j inst, E ≤ j ∧ j < I ∧ pr = (⟨bb, j⟩, Store) ∧
        B.insts[j]? = some inst ∧ inst.isLoad = true ∧ forcesCut inst = false ∧
        AA.mayRef ⟨bb, j⟩ Store = true ∧
        ∀ k, j < k → k < I → stopperAt F AA Store ⟨bb, k⟩ = false) ∨
      (bb = 0 ∧ pr = (⟨0, E⟩, Store) ∧
        (∃ SI, F.inst? Store = some SI ∧ SI.storesToGlobal = true) ∧
        ∀ k, E ≤ k → k < I → stopperAt F AA Store ⟨bb, k⟩ = false)) := by
  unfold scanForAliasingLoad at h
  simp only [hB] at h
  cases hs : scanForAliasingLoadLoop AA B bb E Store [] I with
  | none => simp [hs] at h
  | some r =>
    obtain ⟨fl, ps1⟩ := r
    obtain ⟨h1, h2⟩ := scanLoop_sound F AA B bb E Store hB I fl ps1 hle hs
    simp only [hs] at h
    cases fl with
    | true =>
      simp only [Option.some.injEq, Prod.mk.injEq] at h
      rw [← h.1, ← h.2]
      exact ⟨fun e => (by cases e), fun pr hpr => Or.inl (h2 pr hpr)⟩
    | false =>
      obtain ⟨h3, h4⟩ := h1 rfl
      subst h3
      simp only at h
      by_cases hElt : E < B.insts.length
      · simp only [hElt, if_true] at h
        by_cases hbb : bb = 0
        · simp only [hbb, if_true] at h
          cases hSI : F.inst? Store with
          | none => simp [hSI] at h
          | some SI =>
            simp only [hSI] at h
            by_cases hg : SI.storesToGlobal = true
            · simp only [hg, if_true, List.nil_append, Option.some.injEq, Prod.mk.injEq] at h
              rw [← h.1, ← h.2]
              refine ⟨fun e => (by cases e), ?_⟩
              intro pr hpr
              rw [List.mem_singleton] at hpr
              exact Or.inr ⟨hbb, hpr, ⟨SI, rfl, hg⟩, h4⟩
            · simp only [hg, if_false, Bool.false_eq_true, Option.some.injEq,
                Prod.mk.injEq] at h
              rw [← h.2]
              exact ⟨fun _ => h4, fun pr hpr => by cases hpr⟩
        · simp only [hbb, if_false, Option.some.injEq, Prod.mk.injEq] at h
          rw [← h.2]
          exact ⟨fun _ => h4, fun pr hpr => by cases hpr⟩
      · simp [hElt] at h

/-- From the end of every block that the backward walk for a store enters, a
control-flow path without forced cut and without aliasing load leads to the
store. -/
theorem ir_entered (F : Function) (AA : AliasAnalysis) (hWF : F.WellFormed) (S : InstPos)
    (BS : BasicBlock) (hBS : F.blocks[S.bb]? = some BS) (hSidx : S.idx < BS.insts.length)
    (hclean : ∀ k, k < S.idx → stopperAt F AA S ⟨S.bb, k⟩ = false) (tr : List Nat)
    (hd : dfsTrace (irStop F AA S) (irNbrs F) (F.blocks.length + 1)
      (pushSuccs BS.preds [] []).1 (pushSuccs BS.preds [] []).2 = some tr) :
    ∀ b ∈ tr, AvoidPath F.cfg (stopperAt F AA S) ⟨b, F.blockLen b⟩ S := by
  have hpv := preds_valid F hWF
  have hpred : ∀ (s : Nat) (Bs : BasicBlock), F.blocks[s]? = some Bs →
      ((⟨s, 0⟩ : InstPos) = S ∨
        (stopperAt F AA S ⟨s, 0⟩ = false ∧ AvoidPath F.cfg (stopperAt F AA S) ⟨s, 0⟩ S)) →
      ∀ a ∈ Bs.preds, AvoidPath F.cfg (stopperAt F AA S) ⟨a, F.blockLen a⟩ S := by
    intro s Bs hBs hback a ha
    obtain ⟨Ba, hBa⟩ := block_of_lt F a (hpv s Bs hBs a ha)
    have hsucc : s ∈ Ba.succs :=
      (hWF.cfg.mirror a s _ _ (cfg_of_block F a Ba hBa) (cfg_of_block F s Bs hBs)).mpr ha
    rw [blockLen_eq F a Ba hBa]
    exact avoidPath_of_step F.cfg (stopperAt F AA S) ⟨a, Ba.insts.length⟩ ⟨s, 0⟩ S
      (Step.jump a s ⟨Ba.insts.length, Ba.preds, Ba.succs⟩ _ (cfg_of_block F a Ba hBa) hsucc
        (cfg_of_block F s Bs hBs)) hback
  have hinit : ∀ a ∈ BS.preds, AvoidPath F.cfg (stopperAt F AA S) ⟨a, F.blockLen a⟩ S := by
    intro a ha
    apply hpred S.bb BS hBS _ a ha
    exact back_range F.cfg (stopperAt F AA S) S S.bb _ (cfg_of_block F _ BS hBS) S.idx
      (by show S.idx ≤ BS.insts.length; omega) (Or.inl rfl) S.idx 0 (by omega)
      (fun k _ hk => hclean k hk)
  apply dfsTrace_invariant (irStop F AA S) (irNbrs F)
    (fun b => AvoidPath F.cfg (stopperAt F AA S) ⟨b, F.blockLen b⟩ S) _ _ _ _ _ hd
  · intro a ha
    rcases (mem_pushSuccs_wl _ _ _ _).mp ha with h | h
    · cases h
    · exact hinit a h.1
  · intro b hb hs a ha
    cases hB : F.blocks[b]? with
    | none => simp [irNbrs, hB] at ha
    | some B =>
      simp only [irNbrs, hB] at ha
      by_cases hbS : b = S.bb
      · subst hbS
        rw [hBS] at hB
        cases hB
        exact hinit a ha
      · simp only [irStop, irScan, hB, irLo, hbS, if_false] at hs
        cases hsc : scanForAliasingLoad F AA b B.insts.length 0 S [] with
        | none => rw [hsc] at hs; cases hs
        | some r =>
          obtain ⟨fl, ps⟩ := r
          rw [hsc] at hs
          simp only [Option.map_some', Option.some.injEq] at hs
          subst hs
          have hcl := (scan_sound F AA b B.insts.length 0 S B hB (Nat.zero_le _) false ps
            hsc).1 rfl
          rw [blockLen_eq F b B hB] at hb
          apply hpred b B hB _ a ha
          exact back_range F.cfg (stopperAt F AA S) S b _ (cfg_of_block F _ B hB)
            B.insts.length (Nat.le_refl _)
            (Or.inr ⟨stopperAt_of_ge F AA S b _ B hB (Nat.le_refl _), hb⟩)
            B.insts.length 0 (by omega) (fun k hk1 hk2 => hcl k hk1 hk2)

/-- The pairs that `findAntidependencePairs` adds for one store are sound. -/
theorem findAntidependencePairs_sound (F : Function) (AA : AliasAnalysis) (Write : InstPos)
    (hWF : F.WellFormed) (v a g : Bool) (hW : F.inst? Write = some (.store v a g))
    (Pairs : List AntidependencePairTy) :
    ∃ new, findAntidependencePairs F AA Write Pairs = some (Pairs ++ new) ∧
      ∀ pr ∈ new, PairSound F AA pr := by
  obtain ⟨B, flag, ps, tr, hB, hs, htrue, hfalse, hres⟩ :=
    findAntidependencePairs_eq F AA Write hWF v a g hW Pairs
  have hidx : Write.idx < B.insts.length := by
    have hW' := hW
    rw [show Write = ⟨Write.bb, Write.idx⟩ from rfl, inst?_eq F _ _ B hB] at hW'
    by_contra hcon
    rw [List.getElem?_eq_none (by omega)] at hW'
    cases hW'
  obtain ⟨hs1, hs2⟩ := scan_sound F AA Write.bb Write.idx 0 Write B hB (Nat.zero_le _) flag ps hs
  refine ⟨ps ++ tr.flatMap (irPairs F AA Write), by rw [hres, List.append_assoc], ?_⟩
  intro pr hpr
  rcases List.mem_append.mp hpr with h1 | h1
  · rcases hs2 pr h1 with ⟨j, inst, _, hj, e, hget, hload, hfc, hal, hcl⟩ | ⟨hbb, e, hSI, hcl⟩
    · subst e
      refine ⟨?_, Or.inl ⟨inst, by rw [inst?_eq F _ _ B hB]; exact hget, hload, hfc, hal⟩⟩
      exact avoidPath_closed _ _ _ _
        (avoidPath_range_src F.cfg (stopperAt F AA Write) Write.bb _ (cfg_of_block F _ B hB) j
          Write.idx hj (by show Write.idx ≤ B.insts.length; omega) hcl)
    · subst e
      refine ⟨?_, Or.inr ⟨rfl, hSI⟩⟩
      by_cases h0 : Write.idx = 0
      · refine ⟨[], List.chain'_singleton _, ?_, fun p hp => by cases hp⟩
        show some (⟨0, 0⟩ : InstPos) = some Write
        rw [show Write = ⟨Write.bb, Write.idx⟩ from rfl, hbb, h0]
      · have := avoidPath_range_src F.cfg (stopperAt F AA Write) Write.bb _
          (cfg_of_block F _ B hB) 0 Write.idx (by omega)
          (by show Write.idx ≤ B.insts.length; omega) (fun k hk1 hk2 => hcl k (by omega) hk2)
        have hW0 : (⟨0, Write.idx⟩ : InstPos) = Write := by rw [← hbb]
        rw [hbb, hW0] at this
        exact avoidPath_closed _ _ _ _ this
  · obtain ⟨b, hb, hprb⟩ := List.mem_flatMap.mp h1
    cases flag with
    | true =>
      rw [htrue rfl] at hb
      cases hb
    | false =>
      have hd := hfalse rfl
      have hent := ir_entered F AA hWF Write B hB hidx
        (fun k hk => hs1 rfl k (Nat.zero_le _) hk) tr hd b hb
      cases hBb : F.blocks[b]? with
      | none => simp [irPairs, irScan, hBb] at hprb
      | some Bb =>
        rw [blockLen_eq F b Bb hBb] at hent
        simp only [irPairs, irScan, hBb] at hprb
        cases hsc : scanForAliasingLoad F AA b Bb.insts.length (irLo Write b) Write [] with
        | none => simp [hsc] at hprb
        | some r =>
          obtain ⟨fl, ps'⟩ := r
          simp only [hsc] at hprb
          have hle : irLo Write b ≤ Bb.insts.length := by
            unfold irLo
            by_cases hbS : b = Write.bb
            · rw [if_pos hbS]
              subst hbS
              rw [hB] at hBb
              cases hBb
              omega
            · rw [if_neg hbS]
              omega
          obtain ⟨_, hq⟩ :=
            scan_sound F AA b Bb.insts.length (irLo Write b) Write Bb hBb hle fl ps' hsc
          have hend : ((⟨b, Bb.insts.length⟩ : InstPos) = Write ∨
              (stopperAt F AA Write ⟨b, Bb.insts.length⟩ = false ∧
                AvoidPath F.cfg (stopperAt F AA Write) ⟨b, Bb.insts.length⟩ Write)) :=
            Or.inr ⟨stopperAt_of_ge F AA Write b _ Bb hBb (Nat.le_refl _), hent⟩
          rcases hq pr hprb with ⟨j, inst, _, hj, e, hget, hload, hfc, hal, hcl⟩ |
            ⟨hbb, e, hSI, hcl⟩
          · subst e
            refine ⟨?_, Or.inl ⟨inst, by rw [inst?_eq F _ _ Bb hBb]; exact hget, hload, hfc,
              hal⟩⟩
            have hnext := back_range F.cfg (stopperAt F AA Write) Write b _
              (cfg_of_block F _ Bb hBb) Bb.insts.length (Nat.le_refl _) hend
              (Bb.insts.length - (j + 1)) (j + 1) (by omega)
              (fun k hk1 hk2 => hcl k (by omega) hk2)
            exact avoidPath_closed _ _ _ _
              (avoidPath_of_step F.cfg (stopperAt F AA Write) ⟨b, j⟩ ⟨b, j + 1⟩ Write
                (Step.next b j _ (cfg_of_block F _ Bb hBb) hj) hnext)
          · subst hbb
            have hS0 : Write.bb ≠ 0 := by
              intro e0
              have hB0 : F.blocks[0]? = some B := by rw [← e0]; exact hB
              have hp : B.preds = [] :=
                hWF.cfg.entryPreds ⟨B.insts.length, B.preds, B.succs⟩ (cfg_of_block F 0 B hB0)
              rw [hp] at hd
              simp only [pushSuccs, dfsTrace, Option.some.injEq] at hd
              rw [← hd] at hb
              cases hb
            have hlo : irLo Write 0 = 0 := by
              unfold irLo
              rw [if_neg (fun e0 => hS0 e0.symm)]
            rw [hlo] at hcl e
            subst e
            refine ⟨?_, Or.inr ⟨rfl, hSI⟩⟩
            have hpos := block_nonempty F hWF 0 Bb hBb
            have hnext := back_range F.cfg (stopperAt F AA Write) Write 0 _
              (cfg_of_block F _ Bb hBb) Bb.insts.length (Nat.le_refl _) hend
              (Bb.insts.length - 1) 1 (by omega)
              (fun k hk1 hk2 => hcl k (by omega) hk2)
            exact avoidPath_closed _ _ _ _
              (avoidPath_of_step F.cfg (stopperAt F AA Write) ⟨0, 0⟩ ⟨0, 1⟩ Write
                (Step.next 0 0 _ (cfg_of_block F _ Bb hBb) hpos) hnext)

theorem computePairs_sound (F : Function) (AA : AliasAnalysis) (hWF : F.WellFormed) :
    ∀ (Is : List InstPos) (Pairs R : List AntidependencePairTy),
      (∀ pr ∈ Pairs, PairSound F AA pr) → computePairs F AA Is Pairs = some R →
      ∀ pr ∈ R, PairSound F AA pr := by
  intro Is
  induction Is with
  | nil =>
    intro Pairs R hP h
    simp only [computePairs, Option.some.injEq] at h
    exact h ▸ hP
  | cons I Is ih =>
    intro Pairs R hP h
    cases hinst : F.inst? I with
    | none =>
      simp only [computePairs, hinst] at h
      exact ih Pairs R hP h
    | some inst =>
      cases inst with
      | store v a g =>
        obtain ⟨new, h1, h2⟩ := findAntidependencePairs_sound F AA I hWF v a g hinst Pairs
        simp only [computePairs, hinst, h1] at h
        refine ih (Pairs ++ new) R ?_ h
        intro pr hpr
        rcases List.mem_append.mp hpr with hp | hp
        · exact hP pr hp
        · exact h2 pr hp
      | _ =>
        simp only [computePairs, hinst] at h
        exact ih Pairs R hP h

/-- C29: `runOnFunction` returns, and for every pair (L, S) of
`AntidependencePairs_` a control-flow path leads from L to S on which no
instruction strictly between L and S is a forced cut or a load that may read
the location of S; L is a load that is no forced cut and that the alias
analysis reports to read the location of S, or L is the first instruction of
the entry block and S stores to a global. -/
theorem pairs_sound (F : Function) (AA : AliasAnalysis) (DT : DominatorTree)
    (LI : LoopInfo) (Order : IterationOrder) (hWF : F.WellFormed) (hDT : DT.WellFormed F)
    (hOrd : Order.Ok)
    (hcount : ∀ Pairs, computePairs F AA F.positions [] = some Pairs → Pairs.length < 32768) :
    ∃ st, runOnFunction F AA DT LI Order .releaseMemory = some st ∧
      ∀ L S, (L, S) ∈ st.AntidependencePairs_ →
        (∃ rest, IsPath F.cfg (L :: rest) ∧ (L :: rest).getLast? = some S ∧
          ∀ p ∈ rest.dropLast, ∀ inst, F.inst? p = some inst →
            forcesCut inst = false ∧ (inst.isLoad = true → AA.mayRef p S = false)) ∧
        ((∃ inst, F.inst? L = some inst ∧ inst.isLoad = true ∧ forcesCut inst = false ∧
            AA.mayRef L S = true) ∨
          (L = ⟨0, 0⟩ ∧ ∃ inst, F.inst? S = some inst ∧ inst.storesToGlobal = true)) := by
  obtain ⟨st, h1, h2, _⟩ := runOnFunction_ok F AA DT LI Order hWF hDT hOrd hcount
  refine ⟨st, h1, ?_⟩
  intro L S hLS
  obtain ⟨⟨rest, g1, g2, g3⟩, g4⟩ :=
    computePairs_sound F AA hWF F.positions [] _ (fun pr hpr => by cases hpr) h2 (L, S) hLS
  refine ⟨⟨rest, g1, g2, ?_⟩, g4⟩
  intro p hp inst hinst
  have := g3 p hp
  simp only [stopperAt, hinst, Bool.or_eq_false_iff, Bool.and_eq_false_imp] at this
  exact this

/-- Witness of C29 on `exampleRedundant`, where the store of block 3 is paired
with the load after it in the loop and with the load of block 1. -/
theorem pairs_sound_witness :
    ∃ st, runOnFunction exampleRedundant exampleRedundantAlias exampleTieTree exampleTieLoops
        insertionOrder .releaseMemory = some st ∧
      ∀ L S, (L, S) ∈ st.AntidependencePairs_ →
        (∃ rest, IsPath exampleRedundant.cfg (L :: rest) ∧ (L :: rest).getLast? = some S ∧
          ∀ p ∈ rest.dropLast, ∀ inst, exampleRedundant.inst? p = some inst →
            forcesCut inst = false ∧
              (inst.isLoad = true → exampleRedundantAlias.mayRef p S = false)) ∧
        ((∃ inst, exampleRedundant.inst? L = some inst ∧ inst.isLoad = true ∧
            forcesCut inst = false ∧ exampleRedundantAlias.mayRef L S = true) ∨
          (L = ⟨0, 0⟩ ∧
            ∃ inst, exampleRedundant.inst? S = some inst ∧ inst.storesToGlobal = true)) :=
  pairs_sound exampleRedundant exampleRedundantAlias exampleTieTree exampleTieLoops
    insertionOrder exampleRedundant_wf exampleRedundantTree_wf insertionOrder_ok
    (by
      intro Pairs h
      rw [exampleRedundant_pairs] at h
      cases h
      decide)

end Ratchet

namespace Ratchet

/-! ## C21: the ranges of the block-level iterator -/

theorem mbbRanges_invalid (MF : MachineFunction) (fuel : Nat) (It : dfs_mbb_iterator)
    (h : It.Valid_ = false) : mbbRanges MF (fuel + 1) It = some [] := by
  rw [mbbRanges]
  simp [h]

theorem mbbRanges_valid (MF : MachineFunction) (fuel : Nat) (It : dfs_mbb_iterator)
    (h : It.Valid_ = true) :
    mbbRanges MF (fuel + 1) It =
      match It.next MF with
      | none => none
      | some It1 =>
        match mbbRanges MF fuel It1 with
        | none => none
        | some Ranges => some ((It.Start_, It.End_) :: Ranges) := by
  rw [mbbRanges]
  simp only [h, if_true]
  all_goals
    cases dfs_mbb_iterator.next MF It with
    | none => rfl
    | some It1 =>
      simp only
      cases mbbRanges MF fuel It1 <;> rfl

/-- The ranges that the block iterator yields when the worklist search
returns: the current range, then the ranges of the blocks of the search, the
empty ones included. -/
theorem mbbRanges_some (MF : MachineFunction) (R : IdempotentRegion) :
    ∀ (fuel b : Nat) (B : MachineBasicBlock), MF.blocks[b]? = some B →
    ∀ (start : InstPos) (e : Nat) (W V : List Nat) (fd : Nat) (tr : List Nat),
      dfsTrace (regionStop MF R) (regionNbrs MF) fd (regionPushed MF b e W V).1
        (regionPushed MF b e W V).2 = some tr →
      tr.length + 1 < fuel →
      mbbRanges MF fuel (regionIt R b start e W V) =
        some ((start, ⟨b, e⟩) ::
          tr.map (fun x => ((⟨x, 0⟩ : InstPos), (⟨x, regionEndD MF R x⟩ : InstPos)))) := by
  intro fuel
  induction fuel with
  | zero => intro b B _ start e W V fd tr _ hf; omega
  | succ fuel ih =>
    intro b B hB start e W V fd tr hd hf
    rw [mbbRanges_valid MF fuel _ rfl]
    cases hp : (regionPushed MF b e W V).1 with
    | nil =>
      rw [hp] at hd
      cases fd with
      | zero => simp [dfsTrace] at hd
      | succ fd =>
        simp only [dfsTrace, Option.some.injEq] at hd
        subst hd
        obtain ⟨It1, h1, h2⟩ := next_nil MF R b B hB start e W V hp
        rw [h1]
        cases fuel with
        | zero => simp at hf
        | succ fuel =>
          simp only [mbbRanges_invalid MF fuel It1 h2]
          rfl
    | cons b1 W1 =>
      rw [hp] at hd
      cases fd with
      | zero => simp [dfsTrace] at hd
      | succ fd =>
        rw [regionTrace_cons] at hd
        have hnext := next_cons MF R b B hB start e W V b1 W1 hp
        cases hr : regionEnd MF R b1 with
        | none =>
          rw [hr] at hd
          cases hd
        | some e1 =>
          rw [hr] at hd hnext
          simp only [Option.map_some'] at hnext
          simp only [Option.map_eq_some'] at hd
          obtain ⟨tr1, hd1, htr⟩ := hd
          subst htr
          obtain ⟨B1, hB1⟩ := regionEnd_block MF R b1 e1 hr
          simp only [List.length_cons] at hf
          have hrec := ih b1 B1 hB1 ⟨b1, 0⟩ e1 W1 (regionPushed MF b e W V).2 fd tr1 hd1
            (by omega)
          rw [hnext]
          simp only [hrec, List.map_cons, regionEndD_of MF R b1 e1 hr]
          rfl

/-- The block iterator aborts when the worklist search aborts. -/
theorem mbbRanges_none (MF : MachineFunction) (R : IdempotentRegion)
    (hsv : ∀ (b : Nat) (B : MachineBasicBlock), MF.blocks[b]? = some B →
      ∀ s ∈ B.succs, s < MF.blocks.length) :
    ∀ (fd b : Nat) (B : MachineBasicBlock), MF.blocks[b]? = some B →
    ∀ (start : InstPos) (e : Nat) (W V : List Nat) (fuel : Nat),
      dfsTrace (regionStop MF R) (regionNbrs MF) fd (regionPushed MF b e W V).1
        (regionPushed MF b e W V).2 = none →
      (regionPushed MF b e W V).1.length +
        unvisited MF.blocks.length (regionPushed MF b e W V).2 < fd →
      mbbRanges MF fuel (regionIt R b start e W V) = none := by
  intro fd
  induction fd with
  | zero => intro b B _ start e W V fuel _ hm; omega
  | succ fd ih =>
    intro b B hB start e W V fuel h hm
    cases fuel with
    | zero => rfl
    | succ fuel =>
      rw [mbbRanges_valid MF fuel _ rfl]
      cases hp : (regionPushed MF b e W V).1 with
      | nil =>
        rw [hp] at h
        simp [dfsTrace] at h
      | cons b1 W1 =>
        rw [hp, regionTrace_cons] at h
        rw [hp] at hm
        have hnext := next_cons MF R b B hB start e W V b1 W1 hp
        cases hr : regionEnd MF R b1 with
        | none =>
          rw [hr] at hnext
          simp only [Option.map_none'] at hnext
          rw [hnext]
        | some e1 =>
          rw [hr] at h hnext
          simp only [Option.map_some'] at hnext
          simp only [Option.map_eq_none'] at h
          obtain ⟨B1, hB1⟩ := regionEnd_block MF R b1 e1 hr
          have hm1 := regionPushed_measure MF hsv b1 e1 W1 (regionPushed MF b e W V).2
          simp only [List.length_cons] at hm
          have hrec := ih b1 B1 hB1 ⟨b1, 0⟩ e1 W1 (regionPushed MF b e W V).2 fuel h
            (by omega)
          rw [hnext]
          simp only [hrec]

theorem mbb_begin_eq (MF : MachineFunction) (R : IdempotentRegion) (B : MachineBasicBlock)
    (hB : MF.blocks[R.Entry_.bb]? = some B) (EI : MachineInstr)
    (hE : MF.inst? R.Entry_ = some EI) :
    R.mbb_begin MF = some (regionIt R R.Entry_.bb R.Entry_ (regionEnd0 MF R) [] []) := by
  unfold IdempotentRegion.mbb_begin dfs_mbb_iterator.init
  rw [hB, hE]
  simp only [decide_True, Bool.or_true, if_true]
  unfold regionIt regionEnd0
  rw [hB]

/-- The ranges of a region when the worklist search returns. -/
theorem ranges_some (MF : MachineFunction) (R : IdempotentRegion) (EI : MachineInstr)
    (hE : MF.inst? R.Entry_ = some EI) (tr : List Nat)
    (hd : dfsTrace (regionStop MF R) (regionNbrs MF) (MF.blocks.length + 1)
      (regionPushed MF R.Entry_.bb (regionEnd0 MF R) [] []).1
      (regionPushed MF R.Entry_.bb (regionEnd0 MF R) [] []).2 = some tr) :
    R.ranges MF =
      some ((R.Entry_, ⟨R.Entry_.bb, regionEnd0 MF R⟩) ::
        tr.map (fun x => ((⟨x, 0⟩ : InstPos), (⟨x, regionEndD MF R x⟩ : InstPos)))) := by
  obtain ⟨B, hB⟩ := entry_block MF R EI hE
  have hcl := dfsTrace_closed _ _ _ _ _ _ hd
  have hnd := (dfsTrace_nodup _ _ _ _ _ _ hd (pushed0_nodup MF R).1 (pushed0_nodup MF R).2).1
  have hlt : ∀ b ∈ tr, b < MF.blocks.length := by
    intro b hb
    obtain ⟨s, hs, _⟩ := hcl.2 b hb
    obtain ⟨B1, _, hB1, _, _⟩ := regionStop_some MF R b s hs
    exact mlt_of_block MF b B1 hB1
  have hlen : tr.length ≤ MF.blocks.length := by
    have hsub : tr.toFinset ⊆ Finset.range MF.blocks.length := by
      intro x hx
      rw [List.mem_toFinset] at hx
      exact Finset.mem_range.mpr (hlt x hx)
    have := Finset.card_le_card hsub
    rw [List.toFinset_card_of_nodup hnd, Finset.card_range] at this
    exact this
  unfold IdempotentRegion.ranges
  rw [mbb_begin_eq MF R B hB EI hE]
  exact mbbRanges_some MF R _ _ B hB _ _ _ _ _ tr hd (by omega)

/-- The block iterator of a region aborts when the worklist search aborts. -/
theorem ranges_none (MF : MachineFunction) (R : IdempotentRegion)
    (hsv : ∀ (b : Nat) (B : MachineBasicBlock), MF.blocks[b]? = some B →
      ∀ s ∈ B.succs, s < MF.blocks.length)
    (EI : MachineInstr) (hE : MF.inst? R.Entry_ = some EI)
    (hd : dfsTrace (regionStop MF R) (regionNbrs MF) (MF.blocks.length + 1)
      (regionPushed MF R.Entry_.bb (regionEnd0 MF R) [] []).1
      (regionPushed MF R.Entry_.bb (regionEnd0 MF R) [] []).2 = none) :
    R.ranges MF = none := by
  obtain ⟨B, hB⟩ := entry_block MF R EI hE
  have hm := regionPushed_measure MF hsv R.Entry_.bb (regionEnd0 MF R) [] []
  rw [unvisited_nil] at hm
  simp only [List.length_nil, Nat.zero_add] at hm
  unfold IdempotentRegion.ranges
  rw [mbb_begin_eq MF R B hB EI hE]
  exact mbbRanges_none MF R hsv _ _ B hB _ _ _ _ _ hd (by omega)

theorem isExit_plain (R : IdempotentRegion) (MI : MachineInstr) (I : InstPos)
    (h : MI.isPlain = true) : isExit R MI I = false := by
  simp only [MachineInstr.isPlain, Bool.and_eq_true, Bool.not_eq_true'] at h
  simp [isExit, h.1, h.2]

theorem initEnd_plain (R : IdempotentRegion) (bb : Nat) :
    ∀ (l : List MachineInstr) (i : Nat), (∀ MI ∈ l, MI.isPlain = true) →
      initEnd R bb l i = i + l.length := by
  intro l
  induction l with
  | nil => intro i _; rfl
  | cons MI l ih =>
    intro i h
    rw [initEnd, isExit_plain R MI _ (h MI (List.mem_cons_self _ _))]
    simp only [Bool.false_eq_true, if_false, List.length_cons]
    rw [ih (i + 1) (fun x hx => h x (List.mem_cons_of_mem _ hx))]
    omega

theorem computeEnd_plain (R : IdempotentRegion) (bb : Nat) (hbb : bb ≠ R.Entry_.bb) :
    ∀ (l : List MachineInstr) (i : Nat), (∀ MI ∈ l, MI.isPlain = true) →
      computeEnd R R.Entry_ bb l i = some (i + l.length) := by
  intro l
  induction l with
  | nil => intro i _; rfl
  | cons MI l ih =>
    intro i h
    have hne : (⟨bb, i⟩ : InstPos) ≠ R.Entry_ := by
      intro e
      exact hbb (congrArg InstPos.bb e)
    rw [computeEnd, isExit_plain R MI _ (h MI (List.mem_cons_self _ _))]
    simp only [hne, if_false, decide_False, Bool.or_self, Bool.false_eq_true, List.length_cons]
    rw [ih (i + 1) (fun x hx => h x (List.mem_cons_of_mem _ hx))]
    congr 1
    omega

/-- The worklist search on the diamond: C is scanned with an empty range, B
with its whole range. -/
theorem diamond_trace (as bs cs : List MachineInstr) (swap : Bool) (cSuccs : List Nat)
    (rest : List MachineBasicBlock) (id : Nat)
    (hA : ∀ MI ∈ as, MI.isPlain = true) (hB : ∀ MI ∈ bs, MI.isPlain = true) :
    regionEnd0 (diamond as bs cs swap cSuccs rest) ⟨id, ⟨0, 0⟩⟩ = as.length + 1 ∧
    regionEndD (diamond as bs cs swap cSuccs rest) ⟨id, ⟨0, 0⟩⟩ 1 = bs.length ∧
    regionEndD (diamond as bs cs swap cSuccs rest) ⟨id, ⟨0, 0⟩⟩ 2 = 0 ∧
    dfsTrace (regionStop (diamond as bs cs swap cSuccs rest) ⟨id, ⟨0, 0⟩⟩)
      (regionNbrs (diamond as bs cs swap cSuccs rest))
      ((diamond as bs cs swap cSuccs rest).blocks.length + 1)
      (regionPushed (diamond as bs cs swap cSuccs rest) 0
        (regionEnd0 (diamond as bs cs swap cSuccs rest) ⟨id, ⟨0, 0⟩⟩) [] []).1
      (regionPushed (diamond as bs cs swap cSuccs rest) 0
        (regionEnd0 (diamond as bs cs swap cSuccs rest) ⟨id, ⟨0, 0⟩⟩) [] []).2 =
      some (if swap then [1, 2] else [2, 1]) := by
  have h0 : regionEnd0 (diamond as bs cs swap cSuccs rest) ⟨id, ⟨0, 0⟩⟩ = as.length + 1 := by
    have hx : isExit ⟨id, ⟨0, 0⟩⟩ idemInstr ⟨0, 0⟩ = false := by
      simp [isExit, idemInstr, MachineInstr.isIdemBoundary, MachineInstr.isCall]
    simp only [regionEnd0, diamond, List.getElem?_cons_zero, List.drop_zero]
    rw [initEnd, hx]
    simp only [Bool.false_eq_true, if_false]
    rw [initEnd_plain _ _ as _ hA]
    omega
  have hr1 : regionEnd (diamond as bs cs swap cSuccs rest) ⟨id, ⟨0, 0⟩⟩ 1 = some bs.length := by
    simp only [regionEnd, diamond, List.getElem?_cons_succ, List.getElem?_cons_zero]
    rw [computeEnd_plain _ 1 Nat.one_ne_zero bs 0 hB]
    simp
  have hr2 : regionEnd (diamond as bs cs swap cSuccs rest) ⟨id, ⟨0, 0⟩⟩ 2 = some 0 := by
    simp [regionEnd, diamond, computeEnd, isExit, idemInstr, MachineInstr.isIdemBoundary]
  have hs1 : regionStop (diamond as bs cs swap cSuccs rest) ⟨id, ⟨0, 0⟩⟩ 1 = some false := by
    unfold regionStop
    rw [hr1]
    simp [diamond]
  have hs2 : regionStop (diamond as bs cs swap cSuccs rest) ⟨id, ⟨0, 0⟩⟩ 2 = some true := by
    unfold regionStop
    rw [hr2]
    simp [diamond]
  have hn1 : regionNbrs (diamond as bs cs swap cSuccs rest) 1 = [2] := by
    simp [regionNbrs, diamond]
  have hp : regionPushed (diamond as bs cs swap cSuccs rest) 0 (as.length + 1) [] [] =
      if swap then ([1, 2], [1, 2]) else ([2, 1], [2, 1]) := by
    cases swap <;> simp [regionPushed, diamond, pushSuccs]
  have hlen : (diamond as bs cs swap cSuccs rest).blocks.length + 1 = rest.length + 1 + 1 + 1 + 1 := by
    simp [diamond]
  refine ⟨h0, by simp [regionEndD, hr1], by simp [regionEndD, hr2], ?_⟩
  rw [h0, hp, hlen]
  cases swap
  · simp [dfsTrace, hs1, hs2, hn1, pushSuccs]
  · simp [dfsTrace, hs1, hs2, hn1, pushSuccs]

/-- The diamond of the scenario: the block-level iterator yields three
ranges, the third being the empty range at the start of C, which lies between
the range of A and the range of B. -/
theorem diamond_yields_empty_range :
    exampleDiamond.inst? ⟨0, 0⟩ = some idemInstr ∧
      exampleDiamond.inst? ⟨2, 0⟩ = some idemInstr ∧
      regionNbrs exampleDiamond 0 = [1, 2] ∧ regionNbrs exampleDiamond 1 = [2] ∧
      exampleRegion.ranges exampleDiamond =
        some [(⟨0, 0⟩, ⟨0, 2⟩), (⟨2, 0⟩, ⟨2, 0⟩), (⟨1, 0⟩, ⟨1, 1⟩)] ∧
      exampleRegion.ranges exampleDiamond ≠ some [(⟨0, 0⟩, ⟨0, 2⟩), (⟨1, 0⟩, ⟨1, 1⟩)] := by
  decide

/-- C21, as the code has it: on the diamond with a boundary at the start of A
and of C and no other boundary or call in A and B, the block-level iterator
started at the boundary of A yields three ranges: the range from the boundary
of A to the end of A, the whole of B, and the empty range at the start of C,
which comes before the range of B when C is the last successor of A. No
yielded range holds an instruction of C, and the instruction-level iterator
yields the instructions of A and of B only. -/
theorem diamond_ranges (as bs cs : List MachineInstr) (swap : Bool) (cSuccs : List Nat)
    (rest : List MachineBasicBlock) (id : Nat)
    (hA : ∀ MI ∈ as, MI.isPlain = true) (hB : ∀ MI ∈ bs, MI.isPlain = true) :
    IdempotentRegion.ranges (diamond as bs cs swap cSuccs rest) ⟨id, ⟨0, 0⟩⟩ =
        some (if swap then
            [(⟨0, 0⟩, ⟨0, as.length + 1⟩), (⟨1, 0⟩, ⟨1, bs.length⟩), (⟨2, 0⟩, ⟨2, 0⟩)]
          else
            [(⟨0, 0⟩, ⟨0, as.length + 1⟩), (⟨2, 0⟩, ⟨2, 0⟩), (⟨1, 0⟩, ⟨1, bs.length⟩)]) ∧
      IdempotentRegion.instructions (diamond as bs cs swap cSuccs rest) ⟨id, ⟨0, 0⟩⟩ =
        some (rangePositions 0 0 (as.length + 1) ++ rangePositions 1 0 bs.length) := by
  obtain ⟨h0, h1, h2, hd⟩ := diamond_trace as bs cs swap cSuccs rest id hA hB
  have hE : (diamond as bs cs swap cSuccs rest).inst? (⟨id, ⟨0, 0⟩⟩ : IdempotentRegion).Entry_ =
      some idemInstr := by
    simp [diamond, MachineFunction.inst?]
  refine ⟨?_, ?_⟩
  · rw [ranges_some _ _ idemInstr hE _ hd, h0]
    cases swap
    · simp only [List.map_cons, List.map_nil, h1, h2, Bool.false_eq_true, if_false]
    · simp only [List.map_cons, List.map_nil, h1, h2, if_true]
  · rw [instructions_some _ _ idemInstr hE rfl _ hd, h0]
    cases swap
    · simp only [List.flatMap_cons, List.flatMap_nil, h1, h2, Bool.false_eq_true, if_false,
        rangePositions_nil 2 0 0 (Nat.le_refl _), List.nil_append, List.append_nil]
    · simp only [List.flatMap_cons, List.flatMap_nil, h1, h2, if_true,
        rangePositions_nil 2 0 0 (Nat.le_refl _), List.append_nil]

/-- Witness of C21 on the diamond with one instruction after each boundary
and in B, C being the last successor of A. -/
theorem diamond_ranges_witness :
    IdempotentRegion.ranges (diamond [plainInstr] [plainInstr] [plainInstr] false [3]
        [⟨[plainInstr], [2], []⟩]) ⟨0, ⟨0, 0⟩⟩ =
        some (if false then
            [(⟨0, 0⟩, ⟨0, [plainInstr].length + 1⟩), (⟨1, 0⟩, ⟨1, [plainInstr].length⟩),
              (⟨2, 0⟩, ⟨2, 0⟩)]
          else
            [(⟨0, 0⟩, ⟨0, [plainInstr].length + 1⟩), (⟨2, 0⟩, ⟨2, 0⟩),
              (⟨1, 0⟩, ⟨1, [plainInstr].length⟩)]) ∧
      IdempotentRegion.instructions (diamond [plainInstr] [plainInstr] [plainInstr] false [3]
        [⟨[plainInstr], [2], []⟩]) ⟨0, ⟨0, 0⟩⟩ =
        some (rangePositions 0 0 ([plainInstr].length + 1) ++
          rangePositions 1 0 [plainInstr].length) :=
  diamond_ranges [plainInstr] [plainInstr] [plainInstr] false [3] [⟨[plainInstr], [2], []⟩] 0
    (by decide) (by decide)

end Ratchet

namespace Ratchet

/-! ## C23: the wrap to the entry -/

/-- Along a control-flow path without boundary or call, every position stays
covered by the ranges of the iterator. -/
theorem cover_last (MF : MachineFunction) (R : IdempotentRegion) (EI : MachineInstr)
    (hE : MF.inst? R.Entry_ = some EI) (hEb : EI.isIdemBoundary = true) (tr : List Nat)
    (hd : dfsTrace (regionStop MF R) (regionNbrs MF) (MF.blocks.length + 1)
      (regionPushed MF R.Entry_.bb (regionEnd0 MF R) [] []).1
      (regionPushed MF R.Entry_.bb (regionEnd0 MF R) [] []).2 = some tr) :
    ∀ (rest : List InstPos) (p X : InstPos), List.Chain (Step MF.cfg) p rest →
      ((p.bb = R.Entry_.bb ∧ R.Entry_.idx < p.idx ∧ p.idx ≤ regionEnd0 MF R) ∨
        (p.bb ∈ tr ∧ p.idx ≤ regionEndD MF R p.bb)) →
      (∀ x ∈ (p :: rest).dropLast, MF.exitAt x = false) →
      (p :: rest).getLast? = some X →
      (X.bb = R.Entry_.bb ∧ R.Entry_.idx < X.idx ∧ X.idx ≤ regionEnd0 MF R) ∨
        (X.bb ∈ tr ∧ X.idx ≤ regionEndD MF R X.bb) := by
  intro rest
  induction rest with
  | nil =>
    intro p X _ hp _ hlast
    simp only [List.getLast?_singleton, Option.some.injEq] at hlast
    rw [← hlast]
    exact hp
  | cons q rest ih =>
    intro p X hc hp hcl hlast
    rw [List.chain_cons] at hc
    have hdl : (p :: q :: rest).dropLast = p :: (q :: rest).dropLast := rfl
    rw [hdl] at hcl
    rw [List.getLast?_cons_cons] at hlast
    have hq := cover_step MF R EI hE hEb tr hd p q hp (hcl p (List.mem_cons_self _ _)) hc.1
    exact ih q X hc.2 hq (fun x hx => hcl x (List.mem_cons_of_mem _ hx)) hlast

/-- A position reached from the entry on a path without boundary or call is
covered by the ranges of the iterator. -/
theorem cover_avoid (MF : MachineFunction) (R : IdempotentRegion) (EI : MachineInstr)
    (hE : MF.inst? R.Entry_ = some EI) (hEb : EI.isIdemBoundary = true) (tr : List Nat)
    (hd : dfsTrace (regionStop MF R) (regionNbrs MF) (MF.blocks.length + 1)
      (regionPushed MF R.Entry_.bb (regionEnd0 MF R) [] []).1
      (regionPushed MF R.Entry_.bb (regionEnd0 MF R) [] []).2 = some tr)
    (X : InstPos) (h : AvoidPath MF.cfg MF.exitAt R.Entry_ X) :
    (X.bb = R.Entry_.bb ∧ R.Entry_.idx < X.idx ∧ X.idx ≤ regionEnd0 MF R) ∨
      (X.bb ∈ tr ∧ X.idx ≤ regionEndD MF R X.bb) := by
  obtain ⟨B, hB⟩ := entry_block MF R EI hE
  obtain ⟨h1, h2, h3, h4⟩ := regionEnd0_spec MF R B hB EI hE hEb
  have hidx := entry_lt MF R B hB EI hE
  obtain ⟨rest, hpath, hlast, hcl⟩ := h
  cases rest with
  | nil => cases hlast
  | cons q rest =>
    have hchain : List.Chain (Step MF.cfg) R.Entry_ (q :: rest) := hpath
    rw [List.chain_cons] at hchain
    obtain ⟨hstep, hchain'⟩ := hchain
    have hq : (q.bb = R.Entry_.bb ∧ R.Entry_.idx < q.idx ∧ q.idx ≤ regionEnd0 MF R) := by
      generalize hEp : R.Entry_ = Ep at hstep
      cases hstep with
      | next b i C hC hi =>
        have e2 : R.Entry_.idx = i := congrArg InstPos.idx hEp
        exact ⟨rfl, by simp only; omega, by simp only; omega⟩
      | jump a s C Sc hC hs hSc =>
        exfalso
        have e1 : R.Entry_.bb = a := congrArg InstPos.bb hEp
        have e2 : R.Entry_.idx = C.len := congrArg InstPos.idx hEp
        obtain ⟨Ba, hBa, hCeq⟩ := mblock_of_cfg MF a C hC
        rw [← e1, hB] at hBa
        cases hBa
        rw [hCeq] at e2
        simp only at e2
        omega
    exact cover_last MF R EI hE hEb tr hd rest q X hchain' (Or.inl hq) hcl hlast

/-- The worklist search of a region returns when the search does not wrap to
the entry. -/
theorem regionTrace_total (MF : MachineFunction) (R : IdempotentRegion)
    (hsv : ∀ (b : Nat) (B : MachineBasicBlock), MF.blocks[b]? = some B →
      ∀ s ∈ B.succs, s < MF.blocks.length)
    (EI : MachineInstr)
    (hE : MF.inst? R.Entry_ = some EI) (hEb : EI.isIdemBoundary = true)
    (hNoWrap : ¬ WrapsToEntry MF R) :
    ∃ tr, dfsTrace (regionStop MF R) (regionNbrs MF) (MF.blocks.length + 1)
      (regionPushed MF R.Entry_.bb (regionEnd0 MF R) [] []).1
      (regionPushed MF R.Entry_.bb (regionEnd0 MF R) [] []).2 = some tr := by
  apply dfsTrace_terminates (regionStop MF R) (regionNbrs MF) MF.blocks.length
    (fun b => AvoidPath MF.cfg MF.exitAt R.Entry_ ⟨b, 0⟩)
  · intro b hb
    have hblock : ∃ B, MF.blocks[b]? = some B := by
      obtain ⟨rest, hp, hlast, _⟩ := hb
      have hmem : (⟨b, 0⟩ : InstPos) ∈ rest := List.mem_of_mem_getLast? hlast
      have : ∀ (rest : List InstPos) (p : InstPos), List.Chain (Step MF.cfg) p rest →
          ∀ x ∈ rest, ∃ C, MF.cfg[x.bb]? = some C := by
        intro rest
        induction rest with
        | nil => intro p _ x hx; cases hx
        | cons q rest ih =>
          intro p hc x hx
          rw [List.chain_cons] at hc
          rcases List.mem_cons.mp hx with e | hx
          · rw [e]
            cases hc.1 with
            | next b i C hC _ => exact ⟨C, hC⟩
            | jump a s C Sc _ _ hSc => exact ⟨Sc, hSc⟩
          · exact ih q hc.2 x hx
      obtain ⟨C, hC⟩ := this rest R.Entry_ hp _ hmem
      obtain ⟨B, hB, _⟩ := mblock_of_cfg MF b C hC
      exact ⟨B, hB⟩
    obtain ⟨B, hB⟩ := hblock
    have hnw : ∀ k, (⟨b, k⟩ : InstPos) = R.Entry_ →
        ∃ j, j < k ∧ MF.exitAt ⟨b, j⟩ = true := by
      intro k hk
      by_contra hno
      apply hNoWrap
      have hbb : R.Entry_.bb = b := by rw [← hk]
      have hkk : R.Entry_.idx = k := by rw [← hk]
      refine ⟨by rw [hbb]; exact hb, ?_⟩
      intro j hj
      rw [hbb]
      by_contra hx
      exact hno ⟨j, by omega, by simpa using hx⟩
    obtain ⟨e, he⟩ := computeEnd_total MF R b B hB hnw B.insts.length 0 (by omega)
      (fun j hj => by omega)
    have hr : regionEnd MF R b = some e := by
      unfold regionEnd
      rw [hB]
      simpa using he
    have hs : regionStop MF R b = some (decide (e ≠ B.insts.length) || B.succs.isEmpty) := by
      unfold regionStop
      rw [hB, hr]
    refine ⟨mlt_of_block MF b B hB, _, hs, ?_⟩
    intro hf p hp
    rw [hf] at hs
    exact entered_step MF R hsv b hb hs p hp
  · intro b hb
    exact entered_init MF R hsv EI hE hEb b hb
  · have hm := regionPushed_measure MF hsv R.Entry_.bb (regionEnd0 MF R) [] []
    rw [unvisited_nil] at hm
    simp only [List.length_nil, Nat.zero_add] at hm
    omega

/-- The worklist search of a region aborts when the search wraps to the
entry. -/
theorem regionTrace_wrap (MF : MachineFunction) (R : IdempotentRegion) (EI : MachineInstr)
    (hE : MF.inst? R.Entry_ = some EI) (hEb : EI.isIdemBoundary = true)
    (hWrap : WrapsToEntry MF R) :
    dfsTrace (regionStop MF R) (regionNbrs MF) (MF.blocks.length + 1)
      (regionPushed MF R.Entry_.bb (regionEnd0 MF R) [] []).1
      (regionPushed MF R.Entry_.bb (regionEnd0 MF R) [] []).2 = none := by
  cases hd : dfsTrace (regionStop MF R) (regionNbrs MF) (MF.blocks.length + 1)
      (regionPushed MF R.Entry_.bb (regionEnd0 MF R) [] []).1
      (regionPushed MF R.Entry_.bb (regionEnd0 MF R) [] []).2 with
  | none => rfl
  | some tr =>
    exfalso
    obtain ⟨B, hB⟩ := entry_block MF R EI hE
    have hidx := entry_lt MF R B hB EI hE
    rcases cover_avoid MF R EI hE hEb tr hd _ hWrap.1 with ⟨_, h, _⟩ | ⟨hmem, _⟩
    · simp only at h
      omega
    · simp only at hmem
      obtain ⟨s, hs, _⟩ := (dfsTrace_closed _ _ _ _ _ _ hd).2 _ hmem
      obtain ⟨B1, e, hB1, hr, _⟩ := regionStop_some MF R _ s hs
      rw [hB] at hB1
      cases hB1
      unfold regionEnd at hr
      rw [hB] at hr
      obtain ⟨_, _, h3, h4⟩ := computeEnd_spec MF R R.Entry_.bb B hB B.insts.length 0 e
        (by omega) (by simpa using hr)
      by_cases hlt : R.Entry_.idx < e
      · exact (h3 R.Entry_.idx (Nat.zero_le _) hlt).2 rfl
      · have he : e < B.insts.length := by omega
        by_cases heq : e = R.Entry_.idx
        · rw [heq] at h4
          exact (h4 hidx).2 rfl
        · have := (h4 he).1
          rw [hWrap.2 e (by omega)] at this
          cases this

/-- C23: for a region whose entry is a boundary, in a function whose successor
lists name blocks of the function, the traversal of the region aborts if and
only if the search re-enters the block of the entry from its start and
reaches the entry without meeting a boundary or a call before; this holds for
the block-level and for the instruction-level iterator. When the traversal
returns, the first range starts at the entry and no later range holds the
entry. -/
theorem wrap_is_the_only_abort (MF : MachineFunction) (R : IdempotentRegion)
    (hsv : ∀ (b : Nat) (B : MachineBasicBlock), MF.blocks[b]? = some B →
      ∀ s ∈ B.succs, s < MF.blocks.length)
    (EI : MachineInstr)
    (hE : MF.inst? R.Entry_ = some EI) (hEb : EI.isIdemBoundary = true) :
    (R.ranges MF = none ↔ WrapsToEntry MF R) ∧
      (R.instructions MF = none ↔ WrapsToEntry MF R) ∧
      ∀ rs, R.ranges MF = some rs →
        ∃ e tl, rs = (R.Entry_, e) :: tl ∧
          ∀ r ∈ tl, R.Entry_ ∉ rangePositions r.1.bb r.1.idx r.2.idx := by
  refine ⟨?_, ?_, ?_⟩
  · constructor
    · intro hnone
      by_contra hno
      obtain ⟨tr, hd⟩ := regionTrace_total MF R hsv EI hE hEb hno
      rw [ranges_some MF R EI hE tr hd] at hnone
      cases hnone
    · intro hw
      exact ranges_none MF R hsv EI hE (regionTrace_wrap MF R EI hE hEb hw)
  · constructor
    · intro hnone
      by_contra hno
      obtain ⟨tr, hd⟩ := regionTrace_total MF R hsv EI hE hEb hno
      rw [instructions_some MF R EI hE hEb tr hd] at hnone
      cases hnone
    · intro hw
      exact instructions_none MF R hsv EI hE hEb (regionTrace_wrap MF R EI hE hEb hw)
  · intro rs hrs
    cases hd : dfsTrace (regionStop MF R) (regionNbrs MF) (MF.blocks.length + 1)
        (regionPushed MF R.Entry_.bb (regionEnd0 MF R) [] []).1
        (regionPushed MF R.Entry_.bb (regionEnd0 MF R) [] []).2 with
    | none =>
      rw [ranges_none MF R hsv EI hE hd] at hrs
      cases hrs
    | some tr =>
      rw [ranges_some MF R EI hE tr hd] at hrs
      simp only [Option.some.injEq] at hrs
      refine ⟨_, _, hrs.symm, ?_⟩
      intro r hr hmem
      obtain ⟨x, hx, hrx⟩ := List.mem_map.mp hr
      subst hrx
      rw [mem_rangePositions] at hmem
      simp only at hmem
      obtain ⟨hbb, _, hlt⟩ := hmem
      obtain ⟨s, hs, _⟩ := (dfsTrace_closed _ _ _ _ _ _ hd).2 x hx
      obtain ⟨B1, e, hB1, hr1, _⟩ := regionStop_some MF R x s hs
      rw [regionEndD_of MF R x e hr1] at hlt
      unfold regionEnd at hr1
      rw [hB1] at hr1
      obtain ⟨_, _, h3, _⟩ := computeEnd_spec MF R x B1 hB1 B1.insts.length 0 e
        (by omega) (by simpa using hr1)
      apply (h3 R.Entry_.idx (Nat.zero_le _) hlt).2
      rw [← hbb]

theorem exampleWrap_wraps : WrapsToEntry exampleWrap ⟨0, ⟨1, 0⟩⟩ := by
  refine ⟨⟨[⟨1, 1⟩, ⟨1, 2⟩, ⟨1, 0⟩], ?_, rfl, ?_⟩, ?_⟩
  · exact List.Chain'.cons (Step.next 1 0 ⟨2, [0, 1], [1]⟩ rfl (by decide))
      (List.Chain'.cons (Step.next 1 1 ⟨2, [0, 1], [1]⟩ rfl (by decide))
        (List.Chain'.cons (Step.jump 1 1 ⟨2, [0, 1], [1]⟩ ⟨2, [0, 1], [1]⟩ rfl (by decide) rfl)
          (List.chain'_singleton _)))
  · decide
  · intro k hk
    simp at hk

/-- Witness of C23 on `exampleWrap`, where the loop of block 1 leads back to
the boundary at its start. -/
theorem wrap_is_the_only_abort_witness :
    ((IdempotentRegion.ranges exampleWrap ⟨0, ⟨1, 0⟩⟩ = none ↔
        WrapsToEntry exampleWrap ⟨0, ⟨1, 0⟩⟩) ∧
      (IdempotentRegion.instructions exampleWrap ⟨0, ⟨1, 0⟩⟩ = none ↔
        WrapsToEntry exampleWrap ⟨0, ⟨1, 0⟩⟩) ∧
      ∀ rs, IdempotentRegion.ranges exampleWrap ⟨0, ⟨1, 0⟩⟩ = some rs →
        ∃ e tl, rs = ((⟨1, 0⟩ : InstPos), e) :: tl ∧
          ∀ r ∈ tl, (⟨1, 0⟩ : InstPos) ∉ rangePositions r.1.bb r.1.idx r.2.idx) ∧
      IdempotentRegion.ranges exampleWrap ⟨0, ⟨1, 0⟩⟩ = none :=
  ⟨wrap_is_the_only_abort exampleWrap ⟨0, ⟨1, 0⟩⟩
      (msuccs_valid exampleWrap (cfg_wellFormed_of_check _ (by decide))) idemInstr rfl rfl,
    by decide⟩

end Ratchet

namespace Ratchet

/-! ## C24: the identity of the regions -/

theorem find_entry_none (l : List IdempotentRegion) (MI : InstPos) :
    (l.map (fun R => (R.Entry_, R))).find? (fun e => decide (e.1 = MI)) = none ↔
      ∀ R ∈ l, R.Entry_ ≠ MI := by
  rw [List.find?_eq_none]
  simp only [List.mem_map, decide_eq_true_eq, forall_exists_index, and_imp]
  constructor
  · intro h R hR
    exact h (R.Entry_, R) R hR rfl
  · intro h e R hR he
    rw [← he]
    exact h R hR

theorem find_entry_some (MI : InstPos) :
    ∀ (l : List IdempotentRegion) (R : IdempotentRegion),
      (l.map (fun R => R.Entry_)).Nodup → R ∈ l → R.Entry_ = MI →
      (l.map (fun R => (R.Entry_, R))).find? (fun e => decide (e.1 = MI)) = some (MI, R) := by
  intro l
  induction l with
  | nil => intro R _ h; cases h
  | cons a l ih =>
    intro R hnd hR hE
    rw [List.map_cons, List.nodup_cons] at hnd
    rw [List.map_cons, List.find?_cons]
    rcases List.mem_cons.mp hR with e | hR
    · subst e
      simp [hE]
    · have hne : a.Entry_ ≠ MI := by
        intro e
        apply hnd.1
        rw [e, ← hE]
        exact List.mem_map_of_mem _ hR
      simp only [hne, decide_False]
      exact ih R hnd.2 hR hE

/-- Under the invariant the map sends the entry of every region to the
region. -/
theorem getRegionAtEntry_of_inv (MIR : MachineIdempotentRegions) (h : RegionsInv MIR)
    (R : IdempotentRegion) (hR : R ∈ MIR.Regions_) :
    MIR.getRegionAtEntry R.Entry_ = some R := by
  unfold MachineIdempotentRegions.getRegionAtEntry
  rw [h.map, find_entry_some R.Entry_ MIR.Regions_ R h.nodup hR rfl]

/-- When `createRegionAtBoundary` passes its assertions. -/
theorem atBoundary_isSome (MF : MachineFunction) (MIR : MachineIdempotentRegions)
    (h : RegionsInv MIR) (MI : InstPos) :
    (MachineIdempotentRegions.createRegionAtBoundary MF MIR MI).isSome = true ↔
      (MF.boundaryAt MI = true ∧ ∀ R ∈ MIR.Regions_, R.Entry_ ≠ MI) := by
  unfold MachineIdempotentRegions.createRegionAtBoundary MachineFunction.boundaryAt
  cases hI : MF.inst? MI with
  | none => simp
  | some I =>
    simp only
    by_cases hb : I.isIdemBoundary = true
    · simp only [hb, if_true, true_and]
      cases hf : MIR.EntryToRegionMap_.find? (fun e => decide (e.1 = MI)) with
      | none =>
        simp only [Option.isSome_some, true_iff]
        rw [h.map] at hf
        exact (find_entry_none _ MI).mp hf
      | some e =>
        simp only [Option.isSome_none, Bool.false_eq_true, false_iff]
        intro hall
        rw [h.map] at hf
        rw [(find_entry_none _ MI).mpr hall] at hf
        cases hf
    · simp [hb]

/-- The result of `createRegionAtBoundary`: the region is appended with the
number of the regions as its identifier, and the invariant is kept. -/
theorem atBoundary_inv (MF : MachineFunction) (MIR MIR1 : MachineIdempotentRegions)
    (h : RegionsInv MIR) (MI : InstPos) (R : IdempotentRegion)
    (hc : MachineIdempotentRegions.createRegionAtBoundary MF MIR MI = some (MIR1, R)) :
    RegionsInv MIR1 ∧ MIR1.Regions_ = MIR.Regions_ ++ [R] ∧ R.Entry_ = MI ∧
      MF.boundaryAt MI = true := by
  have hsome := (atBoundary_isSome MF MIR h MI).mp (by rw [hc]; rfl)
  obtain ⟨hbd, hfresh⟩ := hsome
  unfold MachineIdempotentRegions.createRegionAtBoundary at hc
  cases hI : MF.inst? MI with
  | none => simp [hI] at hc
  | some I =>
    simp only [hI] at hc
    by_cases hb : I.isIdemBoundary = true
    · simp only [hb, if_true] at hc
      rw [h.map, (find_entry_none _ MI).mpr hfresh] at hc
      simp only [Option.some.injEq, Prod.mk.injEq] at hc
      obtain ⟨h1, h2⟩ := hc
      subst h2
      subst h1
      refine ⟨⟨?_, ?_, ?_⟩, rfl, rfl, hbd⟩
      · simp only [List.map_append, List.map_cons, List.map_nil]
        rw [List.nodup_append]
        refine ⟨h.nodup, List.nodup_singleton _, ?_⟩
        intro a ha hb'
        rw [List.mem_singleton] at hb'
        obtain ⟨R', hR', e⟩ := List.mem_map.mp ha
        exact hfresh R' hR' (e.trans hb')
      · intro i R' hget
        simp only at hget
        by_cases hi : i < MIR.Regions_.length
        · rw [List.getElem?_append_left hi] at hget
          exact h.ids i R' hget
        · rw [List.getElem?_append_right (by omega)] at hget
          by_cases hi0 : i - MIR.Regions_.length = 0
          · rw [hi0] at hget
            simp only [List.getElem?_cons_zero, Option.some.injEq] at hget
            rw [← hget]
            have : i = MIR.Regions_.length := by omega
            subst this
            rfl
          · obtain ⟨k, hk⟩ : ∃ k, i - MIR.Regions_.length = k + 1 := ⟨_, (Nat.succ_pred hi0).symm⟩
            simp [hk] at hget
      · simp only [List.map_append, List.map_cons, List.map_nil, h.map]
    · simp [hb] at hc

theorem afterInsert_injective (b i : Nat) (p q : InstPos)
    (h : p.afterInsert b i = q.afterInsert b i) : p = q := by
  obtain ⟨pb, pi⟩ := p
  obtain ⟨qb, qi⟩ := q
  unfold InstPos.afterInsert at h
  simp only at h
  by_cases hp : pb = b ∧ i ≤ pi
  · by_cases hq : qb = b ∧ i ≤ qi
    · rw [if_pos hp, if_pos hq] at h
      simp only [InstPos.mk.injEq] at h
      rw [h.1, show pi = qi by omega]
    · rw [if_pos hp, if_neg hq] at h
      simp only [InstPos.mk.injEq] at h
      exfalso
      apply hq
      exact ⟨by rw [← h.1]; exact hp.1, by omega⟩
  · by_cases hq : qb = b ∧ i ≤ qi
    · rw [if_neg hp, if_pos hq] at h
      simp only [InstPos.mk.injEq] at h
      exfalso
      apply hp
      exact ⟨by rw [h.1]; exact hq.1, by omega⟩
    · rw [if_neg hp, if_neg hq] at h
      exact h

/-- No instruction that was there before stands at the place of the inserted
marker. -/
theorem afterInsert_ne (b i : Nat) (p : InstPos) : p.afterInsert b i ≠ ⟨b, i⟩ := by
  obtain ⟨pb, pi⟩ := p
  unfold InstPos.afterInsert
  simp only
  by_cases hp : pb = b ∧ i ≤ pi
  · rw [if_pos hp]
    intro e
    simp only [InstPos.mk.injEq] at e
    omega
  · rw [if_neg hp]
    intro e
    simp only [InstPos.mk.injEq] at e
    exact hp ⟨e.1, by omega⟩

/-- The invariant is kept when a marker is inserted. -/
theorem afterInsert_inv (b i : Nat) (MIR : MachineIdempotentRegions) (h : RegionsInv MIR) :
    RegionsInv (MIR.afterInsert b i) := by
  refine ⟨?_, ?_, ?_⟩
  · simp only [MachineIdempotentRegions.afterInsert, List.map_map]
    have := List.Nodup.map (f := fun p : InstPos => p.afterInsert b i)
      (fun p q e => afterInsert_injective b i p q e) h.nodup
    simpa [List.map_map, Function.comp, IdempotentRegion.afterInsert] using this
  · intro k R hget
    simp only [MachineIdempotentRegions.afterInsert, List.getElem?_map] at hget
    cases hk : MIR.Regions_[k]? with
    | none => rw [hk] at hget; cases hget
    | some R0 =>
      rw [hk] at hget
      simp only [Option.map_some', Option.some.injEq] at hget
      rw [← hget]
      exact h.ids k R0 hk
  · simp only [MachineIdempotentRegions.afterInsert, h.map, List.map_map]
    rfl

/-- The marker stands where `emitIdemBoundary` has inserted it. -/
theorem emit_boundary (MF MF1 : MachineFunction) (MBB : Nat) (MI : InstPos)
    (h : emitIdemBoundary MF MBB MI = some MF1) :
    MF1.inst? ⟨MBB, MI.idx⟩ = some idemInstr := by
  unfold emitIdemBoundary at h
  cases hB : MF.blocks[MBB]? with
  | none => simp [hB] at h
  | some B =>
    simp only [hB] at h
    by_cases hc : MI.bb = MBB ∧ MI.idx ≤ B.insts.length
    · rw [if_pos hc] at h
      simp only [Option.some.injEq] at h
      subst h
      have hlt : MBB < MF.blocks.length := mlt_of_block MF MBB B hB
      simp only [MachineFunction.inst?, List.getElem?_set_self hlt]
      rw [List.getElem?_append_right (by simp)]
      simp [hc.2]
    · rw [if_neg hc] at h
      cases h

/-- When `emitIdemBoundary` is defined. -/
theorem emit_isSome (MF : MachineFunction) (MBB : Nat) (MI : InstPos) :
    (emitIdemBoundary MF MBB MI).isSome = true ↔
      (MI.bb = MBB ∧ MBB < MF.blocks.length ∧ MI.idx ≤ MF.blockLen MBB) := by
  unfold emitIdemBoundary MachineFunction.blockLen
  cases hB : MF.blocks[MBB]? with
  | none =>
    simp only [Option.isSome_none, Bool.false_eq_true, false_iff]
    intro hc
    rw [List.getElem?_eq_getElem hc.2.1] at hB
    cases hB
  | some B =>
    have hlt := mlt_of_block MF MBB B hB
    simp only
    by_cases hc : MI.bb = MBB ∧ MI.idx ≤ B.insts.length
    · rw [if_pos hc]
      simp [hc.1, hc.2, hlt]
    · rw [if_neg hc]
      simp only [Option.isSome_none, Bool.false_eq_true, false_iff]
      intro hx
      exact hc ⟨hx.1, hx.2.2⟩

/-- The result of `createRegionBefore`: it passes its assertions whenever the
marker can be emitted, and keeps the invariant. -/
theorem before_inv (MF : MachineFunction) (MIR : MachineIdempotentRegions)
    (h : RegionsInv MIR) (MBB : Nat) (MI : InstPos) :
    ((MachineIdempotentRegions.createRegionBefore MF MIR MBB MI).isSome = true ↔
      (MI.bb = MBB ∧ MBB < MF.blocks.length ∧ MI.idx ≤ MF.blockLen MBB)) ∧
    ∀ MF1 MIR1 R, MachineIdempotentRegions.createRegionBefore MF MIR MBB MI =
        some (MF1, MIR1, R) →
      RegionsInv MIR1 ∧ MIR1.Regions_.length = MIR.Regions_.length + 1 ∧
        R.Entry_ = ⟨MBB, MI.idx⟩ ∧ MF1.boundaryAt R.Entry_ = true ∧ R ∈ MIR1.Regions_ := by
  have hinv := afterInsert_inv MBB MI.idx MIR h
  have hfresh : ∀ R ∈ (MIR.afterInsert MBB MI.idx).Regions_, R.Entry_ ≠ ⟨MBB, MI.idx⟩ := by
    intro R hR
    simp only [MachineIdempotentRegions.afterInsert, List.mem_map] at hR
    obtain ⟨R0, _, e⟩ := hR
    rw [← e]
    exact afterInsert_ne MBB MI.idx R0.Entry_
  cases he : emitIdemBoundary MF MBB MI with
  | none =>
    have hcb : MachineIdempotentRegions.createRegionBefore MF MIR MBB MI = none := by
      unfold MachineIdempotentRegions.createRegionBefore
      rw [he]
    rw [hcb]
    refine ⟨⟨fun hx => (by cases hx), fun hx => ?_⟩, ?_⟩
    · rw [← emit_isSome, he] at hx
      cases hx
    · intro MF1 MIR1 R hc
      cases hc
  | some MF0 =>
    have hb : MF0.boundaryAt ⟨MBB, MI.idx⟩ = true := by
      simp [MachineFunction.boundaryAt, emit_boundary MF MF0 MBB MI he, idemInstr,
        MachineInstr.isIdemBoundary]
    have hsome := (atBoundary_isSome MF0 _ hinv ⟨MBB, MI.idx⟩).mpr ⟨hb, hfresh⟩
    cases hc : MachineIdempotentRegions.createRegionAtBoundary MF0
        (MIR.afterInsert MBB MI.idx) ⟨MBB, MI.idx⟩ with
    | none => rw [hc] at hsome; cases hsome
    | some r =>
      obtain ⟨MIR0, R0⟩ := r
      obtain ⟨g1, g2, g3, g4⟩ := atBoundary_inv MF0 _ MIR0 hinv _ R0 hc
      have hcb : MachineIdempotentRegions.createRegionBefore MF MIR MBB MI =
          some (MF0, MIR0, R0) := by
        unfold MachineIdempotentRegions.createRegionBefore
        rw [he]
        simp only [hc]
      rw [hcb]
      refine ⟨?_, ?_⟩
      · refine ⟨fun _ => ?_, fun _ => rfl⟩
        rw [← emit_isSome, he]
        rfl
      · intro MF1 MIR1 R hres
        simp only [Option.some.injEq, Prod.mk.injEq] at hres
        obtain ⟨e1, e2, e3⟩ := hres
        subst e1 e2 e3
        refine ⟨g1, ?_, g3, by rw [g3]; exact hb, by rw [g2]; simp⟩
        rw [g2]
        simp [MachineIdempotentRegions.afterInsert]

/-- The invariant holds after every sequence of calls that pass their
assertions, and every call adds one region. -/
theorem runRegionCalls_inv :
    ∀ (calls : List RegionCall) (S S1 : MachineFunction × MachineIdempotentRegions),
      RegionsInv S.2 → runRegionCalls calls S = some S1 →
      RegionsInv S1.2 ∧ S1.2.Regions_.length = S.2.Regions_.length + calls.length := by
  intro calls
  induction calls with
  | nil =>
    intro S S1 h hr
    simp only [runRegionCalls, Option.some.injEq] at hr
    subst hr
    exact ⟨h, rfl⟩
  | cons c cs ih =>
    intro S S1 h hr
    simp only [runRegionCalls] at hr
    cases hc : runRegionCall S c with
    | none => simp [hc] at hr
    | some S0 =>
      simp only [hc] at hr
      have hstep : RegionsInv S0.2 ∧ S0.2.Regions_.length = S.2.Regions_.length + 1 := by
        cases c with
        | atBoundary MI =>
          simp only [runRegionCall, Option.map_eq_some'] at hc
          obtain ⟨r, hr1, hr2⟩ := hc
          obtain ⟨MIR1, R⟩ := r
          obtain ⟨g1, g2, _, _⟩ := atBoundary_inv S.1 S.2 MIR1 h MI R hr1
          rw [← hr2]
          exact ⟨g1, by simp [g2]⟩
        | before MBB MI =>
          simp only [runRegionCall, Option.map_eq_some'] at hc
          obtain ⟨r, hr1, hr2⟩ := hc
          obtain ⟨MF1, MIR1, R⟩ := r
          obtain ⟨g1, g2, _, _, _⟩ := (before_inv S.1 S.2 h MBB MI).2 MF1 MIR1 R hr1
          rw [← hr2]
          exact ⟨g1, g2⟩
      obtain ⟨g1, g2⟩ := ih S0 S1 hstep.1 hr
      refine ⟨g1, ?_⟩
      rw [g2, hstep.2, List.length_cons]
      omega

/-- When the assertions are compiled out, the map stays empty after
`releaseMemory` and a second region can be created at the same entry. -/
theorem noAssert_map_stays_empty (MIR : MachineIdempotentRegions) (MI : InstPos) :
    (MIR.releaseMemory.createRegionAtBoundaryNoAssert MI).1.EntryToRegionMap_ = [] ∧
      (MIR.releaseMemory.createRegionAtBoundaryNoAssert MI).1.getRegionAtEntry MI = none ∧
      (((MIR.releaseMemory.createRegionAtBoundaryNoAssert MI).1.createRegionAtBoundaryNoAssert
        MI).1.Regions_.map (fun R => R.Entry_)) = [MI, MI] := by
  refine ⟨rfl, rfl, rfl⟩

/-- C24: with the assertions evaluated, after any sequence of
`createRegionAtBoundary` and `createRegionBefore` calls that follows
`releaseMemory`, the regions of `Regions_` have pairwise distinct entries,
every call has added one region, the region at index `i` has the identifier
`i` (as an `unsigned`), and `EntryToRegionMap_` sends the entry of each region
to the region. `createRegionAtBoundary` passes its assertions exactly at a
boundary that is not yet the entry of a region, so it is rejected at every
entry that has a region; `createRegionBefore` passes them wherever the
boundary can be emitted. -/
theorem region_identity (calls : List RegionCall) (MF : MachineFunction)
    (MIR : MachineIdempotentRegions) (S : MachineFunction × MachineIdempotentRegions)
    (h : runRegionCalls calls (MF, MIR.releaseMemory) = some S) :
    (S.2.Regions_.map (fun R => R.Entry_)).Nodup ∧
      S.2.Regions_.length = calls.length ∧
      (∀ i R, S.2.Regions_[i]? = some R →
        R.ID_ = i % 4294967296 ∧ (calls.length ≤ 4294967296 → R.ID_ = i)) ∧
      (∀ R ∈ S.2.Regions_, S.2.getRegionAtEntry R.Entry_ = some R) ∧
      (∀ MI, (MachineIdempotentRegions.createRegionAtBoundary S.1 S.2 MI).isSome = true ↔
        (S.1.boundaryAt MI = true ∧ ∀ R ∈ S.2.Regions_, R.Entry_ ≠ MI)) ∧
      (∀ R ∈ S.2.Regions_,
        MachineIdempotentRegions.createRegionAtBoundary S.1 S.2 R.Entry_ = none) ∧
      (∀ MBB MI,
        (MachineIdempotentRegions.createRegionBefore S.1 S.2 MBB MI).isSome = true ↔
          (MI.bb = MBB ∧ MBB < S.1.blocks.length ∧ MI.idx ≤ S.1.blockLen MBB)) := by
  have h0 : RegionsInv (MF, MIR.releaseMemory).2 :=
    ⟨List.nodup_nil, fun i R hget => (by cases hget), rfl⟩
  obtain ⟨hinv, hlen⟩ := runRegionCalls_inv calls _ S h0 h
  have hlen1 : S.2.Regions_.length = calls.length := by
    rw [hlen]
    simp [MachineIdempotentRegions.releaseMemory]
  refine ⟨hinv.nodup, hlen1, ?_, ?_, ?_, ?_, ?_⟩
  · intro i R hget
    have hid := hinv.ids i R hget
    refine ⟨hid, ?_⟩
    intro hsize
    have hi : i < S.2.Regions_.length := by
      by_contra hge
      rw [List.getElem?_eq_none (by omega)] at hget
      cases hget
    rw [hid]
    exact Nat.mod_eq_of_lt (by omega)
  · intro R hR
    exact getRegionAtEntry_of_inv S.2 hinv R hR
  · intro MI
    exact atBoundary_isSome S.1 S.2 hinv MI
  · intro R hR
    cases hc : MachineIdempotentRegions.createRegionAtBoundary S.1 S.2 R.Entry_ with
    | none => rfl
    | some r =>
      exfalso
      have := (atBoundary_isSome S.1 S.2 hinv R.Entry_).mp (by rw [hc]; rfl)
      exact this.2 R hR rfl
  · intro MBB MI
    exact (before_inv S.1 S.2 hinv MBB MI).1

/-- Witness of C24 on `exampleLoopRegion`: a region at the boundary of block
0, a region before the second instruction of block 1, and a region at the
boundary of block 2. -/
theorem region_identity_witness :
    (exampleCreated.2.Regions_.map (fun R => R.Entry_)).Nodup ∧
      exampleCreated.2.Regions_.length = exampleRegionCalls.length ∧
      (∀ i R, exampleCreated.2.Regions_[i]? = some R →
        R.ID_ = i % 4294967296 ∧ (exampleRegionCalls.length ≤ 4294967296 → R.ID_ = i)) ∧
      (∀ R ∈ exampleCreated.2.Regions_, exampleCreated.2.getRegionAtEntry R.Entry_ = some R) ∧
      (∀ MI, (MachineIdempotentRegions.createRegionAtBoundary exampleCreated.1
          exampleCreated.2 MI).isSome = true ↔
        (exampleCreated.1.boundaryAt MI = true ∧
          ∀ R ∈ exampleCreated.2.Regions_, R.Entry_ ≠ MI)) ∧
      (∀ R ∈ exampleCreated.2.Regions_,
        MachineIdempotentRegions.createRegionAtBoundary exampleCreated.1 exampleCreated.2
          R.Entry_ = none) ∧
      (∀ MBB MI,
        (MachineIdempotentRegions.createRegionBefore exampleCreated.1 exampleCreated.2 MBB
          MI).isSome = true ↔
          (MI.bb = MBB ∧ MBB < exampleCreated.1.blocks.length ∧
            MI.idx ≤ exampleCreated.1.blockLen MBB)) :=
  region_identity exampleRegionCalls exampleLoopRegion exampleLoopRegions exampleCreated
    (by decide)

end Ratchet

namespace Ratchet

/-! ## C25: the markers of ConstructIdempotentRegions -/

theorem insertBefore_skip (x : ConstructedInstr) (p : InstPos) :
    ∀ (A L : List ConstructedInstr), (∀ y ∈ A, y ≠ .original p) →
      insertBefore x p (A ++ L) = (insertBefore x p L).map (fun l1 => A ++ l1) := by
  intro A
  induction A with
  | nil =>
    intro L _
    rw [List.nil_append]
    cases insertBefore x p L <;> simp
  | cons a A ih =>
    intro L h
    rw [List.cons_append, insertBefore, if_neg (h a (List.mem_cons_self _ _)),
      ih L (fun y hy => h y (List.mem_cons_of_mem _ hy))]
    cases insertBefore x p L <;> rfl

theorem markedBlock_cons (S : List InstPos) (b k : Nat) (is : List Nat) :
    markedBlock S b (k :: is) =
      (if (⟨b, k⟩ : InstPos) ∈ S then [ConstructedInstr.idem, .original ⟨b, k⟩]
        else [.original ⟨b, k⟩]) ++ markedBlock S b is := by
  unfold markedBlock
  rw [List.flatMap_cons]

/-- The marked block depends on the marked instructions of the block only. -/
theorem markedBlock_congr (S T : List InstPos) (b : Nat) :
    ∀ (is : List Nat), (∀ i ∈ is, ((⟨b, i⟩ : InstPos) ∈ S ↔ (⟨b, i⟩ : InstPos) ∈ T)) →
      markedBlock S b is = markedBlock T b is := by
  intro is
  induction is with
  | nil => intro _; rfl
  | cons k is ih =>
    intro h
    rw [markedBlock_cons, markedBlock_cons, ih (fun i hi => h i (List.mem_cons_of_mem _ hi))]
    have hk := h k (List.mem_cons_self _ _)
    by_cases hm : (⟨b, k⟩ : InstPos) ∈ S
    · rw [if_pos hm, if_pos (hk.mp hm)]
    · rw [if_neg hm, if_neg (fun c => hm (hk.mpr c))]

theorem mem_markedBlock (S : List InstPos) (b i : Nat) :
    ∀ (is : List Nat), i ∈ is → ConstructedInstr.original ⟨b, i⟩ ∈ markedBlock S b is := by
  intro is
  induction is with
  | nil => intro h; cases h
  | cons k is ih =>
    intro h
    rw [markedBlock_cons, List.mem_append]
    rcases List.mem_cons.mp h with e | h
    · left
      subst e
      by_cases hm : (⟨b, i⟩ : InstPos) ∈ S
      · rw [if_pos hm]
        simp
      · rw [if_neg hm]
        simp
    · exact Or.inr (ih h)

/-- The marker is inserted immediately before the instruction, and the block
is otherwise left as it was. -/
theorem insertBefore_marked (S : List InstPos) (b i0 : Nat)
    (hS : (⟨b, i0⟩ : InstPos) ∉ S) :
    ∀ (is : List Nat), is.Nodup → i0 ∈ is →
      insertBefore .idem ⟨b, i0⟩ (markedBlock S b is) =
        some (markedBlock (⟨b, i0⟩ :: S) b is) := by
  intro is
  induction is with
  | nil => intro _ h; cases h
  | cons k is ih =>
    intro hnd hmem
    obtain ⟨hk, hnd'⟩ := List.nodup_cons.mp hnd
    rw [markedBlock_cons, markedBlock_cons]
    by_cases hki : k = i0
    · subst hki
      rw [if_neg hS, if_pos (List.mem_cons_self _ _)]
      have hrest : markedBlock (⟨b, k⟩ :: S) b is = markedBlock S b is := by
        apply markedBlock_congr
        intro i hi
        have hne : (⟨b, i⟩ : InstPos) ≠ ⟨b, k⟩ := by
          intro e
          simp only [InstPos.mk.injEq, true_and] at e
          exact hk (e ▸ hi)
        simp [hne]
      rw [hrest]
      simp [insertBefore]
    · have hmem' : i0 ∈ is := by
        rcases List.mem_cons.mp hmem with e | h
        · exact absurd e.symm hki
        · exact h
      have hne : (⟨b, k⟩ : InstPos) ≠ ⟨b, i0⟩ := by
        intro e
        simp only [InstPos.mk.injEq, true_and] at e
        exact hki e
      have hhead : (if (⟨b, k⟩ : InstPos) ∈ (⟨b, i0⟩ : InstPos) :: S then
            [ConstructedInstr.idem, .original ⟨b, k⟩] else [.original ⟨b, k⟩]) =
          (if (⟨b, k⟩ : InstPos) ∈ S then [ConstructedInstr.idem, .original ⟨b, k⟩]
            else [.original ⟨b, k⟩]) := by
        simp [hne]
      rw [hhead, insertBefore_skip, ih hnd' hmem']
      · rfl
      · intro y hy
        by_cases hm : (⟨b, k⟩ : InstPos) ∈ S
        · rw [if_pos hm] at hy
          simp only [List.mem_cons, List.mem_singleton, List.not_mem_nil, or_false] at hy
          rcases hy with e | e
          · rw [e]
            intro c
            cases c
          · rw [e]
            intro c
            exact hne (ConstructedInstr.original.inj c)
        · rw [if_neg hm] at hy
          simp only [List.mem_singleton] at hy
          rw [hy]
          intro c
          exact hne (ConstructedInstr.original.inj c)

theorem blockLen_pos_lt (F : Function) (b i : Nat) (h : i < F.blockLen b) :
    b < F.blocks.length := by
  by_contra hge
  unfold Function.blockLen at h
  rw [List.getElem?_eq_none (by omega)] at h
  simp at h

theorem markersBefore_getElem? (F : Function) (d : Bool) (S : List InstPos) (b : Nat) :
    (markersBefore F d S)[b]? =
      if b < F.blocks.length then
        some ((if b = 0 ∧ d = true then [ConstructedInstr.dummyCall] else []) ++
          markedBlock S b (List.range (F.blockLen b)))
      else none := by
  unfold markersBefore
  rw [List.getElem?_map]
  by_cases hb : b < F.blocks.length
  · rw [if_pos hb, List.getElem?_range hb]
    rfl
  · rw [if_neg hb, List.getElem?_eq_none (by simp; omega)]
    rfl

theorem markersBefore_length (F : Function) (d : Bool) (S : List InstPos) :
    (markersBefore F d S).length = F.blocks.length := by
  simp [markersBefore]

theorem markersBefore_congr (F : Function) (d : Bool) (S T : List InstPos)
    (h : ∀ q, q ∈ S ↔ q ∈ T) : markersBefore F d S = markersBefore F d T := by
  unfold markersBefore
  apply List.map_congr_left
  intro b _
  rw [markedBlock_congr S T b _ (fun i _ => h ⟨b, i⟩)]

/-- One step of the loop over the cut points in a mode that creates the
marker. -/
theorem insertBeforeIn_markers (F : Function) (d : Bool) (S : List InstPos) (p : InstPos)
    (hvalid : p.idx < F.blockLen p.bb) (hS : p ∉ S) :
    insertBeforeIn .idem p (markersBefore F d S) = some (markersBefore F d (p :: S)) := by
  have hb := blockLen_pos_lt F p.bb p.idx hvalid
  have hpre : ∀ y ∈ (if p.bb = 0 ∧ d = true then [ConstructedInstr.dummyCall] else []),
      y ≠ ConstructedInstr.original p := by
    intro y hy
    by_cases hc : p.bb = 0 ∧ d = true
    · rw [if_pos hc, List.mem_singleton] at hy
      rw [hy]
      intro c
      cases c
    · rw [if_neg hc] at hy
      cases hy
  have hins := insertBefore_marked S p.bb p.idx hS (List.range (F.blockLen p.bb))
    (List.nodup_range _) (List.mem_range.mpr hvalid)
  unfold insertBeforeIn
  rw [markersBefore_getElem?, if_pos hb]
  simp only
  rw [insertBefore_skip _ _ _ _ hpre, hins]
  simp only [Option.map_some', Option.some.injEq]
  apply List.ext_getElem?
  intro j
  rw [List.getElem?_set, markersBefore_length, markersBefore_getElem?, markersBefore_getElem?]
  by_cases hj : p.bb = j
  · subst hj
    simp only [if_true, hb]
  · rw [if_neg hj]
    by_cases hjl : j < F.blocks.length
    · simp only [hjl, if_true]
      congr 2
      apply markedBlock_congr
      intro i _
      have hne : (⟨j, i⟩ : InstPos) ≠ p := by
        intro e
        exact hj (by rw [← e])
      simp [hne]
    · simp only [hjl, if_false]

/-- The loop over the cut points in a mode that creates the marker. -/
theorem insertCuts_markers (mode : ConstructionMode) (hmode : mode ≠ .OptimizeForIdeal)
    (F : Function) (d : Bool) :
    ∀ (Is S : List InstPos), Is.Nodup → (∀ p ∈ Is, p ∉ S) →
      (∀ p ∈ Is, p.idx < F.blockLen p.bb) →
      ∃ T, insertCuts mode Is (markersBefore F d S) = some (markersBefore F d T) ∧
        ∀ q, q ∈ T ↔ q ∈ Is ∨ q ∈ S := by
  intro Is
  induction Is with
  | nil =>
    intro S _ _ _
    exact ⟨S, rfl, by simp⟩
  | cons I Is ih =>
    intro S hnd hdis hvalid
    obtain ⟨hI, hnd'⟩ := List.nodup_cons.mp hnd
    have hstep := insertBeforeIn_markers F d S I (hvalid I (List.mem_cons_self _ _))
      (hdis I (List.mem_cons_self _ _))
    obtain ⟨T, hT, hmem⟩ := ih (I :: S) hnd'
      (fun p hp hc => by
        rcases List.mem_cons.mp hc with e | hc
        · exact hI (e ▸ hp)
        · exact hdis p (List.mem_cons_of_mem _ hp) hc)
      (fun p hp => hvalid p (List.mem_cons_of_mem _ hp))
    refine ⟨T, ?_, ?_⟩
    · rw [insertCuts]
      by_cases hs : mode = .OptimizeForSpeed
      · rw [if_pos hs]
        simp only [hstep]
        exact hT
      · rw [if_neg hs, if_neg hmode]
        simp only [hstep]
        exact hT
    · intro q
      rw [hmem q]
      simp only [List.mem_cons]
      tauto

/-- The loop over the cut points in the mode `OptimizeForIdeal` leaves the
function as it is. -/
theorem insertCuts_ideal (F : Function) (d : Bool) :
    ∀ (Is : List InstPos), (∀ p ∈ Is, p.idx < F.blockLen p.bb) →
      insertCuts .OptimizeForIdeal Is (markersBefore F d []) = some (markersBefore F d []) := by
  intro Is
  induction Is with
  | nil => intro _; rfl
  | cons I Is ih =>
    intro hvalid
    have hv := hvalid I (List.mem_cons_self _ _)
    have hb := blockLen_pos_lt F I.bb I.idx hv
    rw [insertCuts, if_neg (by decide), if_pos rfl, markersBefore_getElem?, if_pos hb]
    have hmem : ConstructedInstr.original I ∈
        (if I.bb = 0 ∧ d = true then [ConstructedInstr.dummyCall] else []) ++
          markedBlock [] I.bb (List.range (F.blockLen I.bb)) :=
      List.mem_append_right _
        (mem_markedBlock [] I.bb I.idx _ (List.mem_range.mpr hv))
    have hc : ((if I.bb = 0 ∧ d = true then [ConstructedInstr.dummyCall] else []) ++
        markedBlock [] I.bb (List.range (F.blockLen I.bb))).contains
          (ConstructedInstr.original I) = true := List.elem_iff.mpr hmem
    simp only [Option.getD_some, hc, if_true]
    exact ih (fun p hp => hvalid p (List.mem_cons_of_mem _ hp))

theorem flatMap_single {α β : Type} (f : α → β) :
    ∀ l : List α, l.flatMap (fun i => [f i]) = l.map f := by
  intro l
  induction l with
  | nil => rfl
  | cons a l ih => rw [List.flatMap_cons, ih]; rfl

theorem constructed_eq (F : Function) : F.constructed = markersBefore F false [] := by
  unfold Function.constructed markersBefore markedBlock
  apply List.map_congr_left
  intro b _
  simp only [List.not_mem_nil, if_false, Bool.false_eq_true, and_false, List.nil_append]
  rw [flatMap_single]

theorem insertAtEntry_constructed (F : Function) (h : 0 < F.blocks.length) :
    insertAtEntry .dummyCall F.constructed = some (markersBefore F true []) := by
  have hc : F.constructed = (markersBefore F false []).set 0
      (markedBlock [] 0 (List.range (F.blockLen 0))) := by
    rw [constructed_eq]
    apply List.ext_getElem?
    intro j
    rw [List.getElem?_set, markersBefore_length, markersBefore_getElem?]
    by_cases hj : 0 = j
    · subst hj
      rw [if_pos rfl, if_pos h, if_pos h]
      simp
    · rw [if_neg hj]
  cases hm : markersBefore F false [] with
  | nil =>
    have := markersBefore_length F false []
    rw [hm] at this
    simp at this
    omega
  | cons l rest =>
    rw [hc, hm]
    simp only [List.set_cons_zero, insertAtEntry, Option.some.injEq]
    apply List.ext_getElem?
    intro j
    rw [markersBefore_getElem?]
    cases j with
    | zero =>
      rw [if_pos h]
      simp
    | succ j =>
      have h1 := markersBefore_getElem? F false [] (j + 1)
      rw [hm] at h1
      simp only [List.getElem?_cons_succ] at h1 ⊢
      rw [h1]
      simp

/-- The mode `OptimizeForIdeal` on `exampleRedundant` with the cut set of the
analysis: the pass runs and inserts the call to `__dummyfunc`, but no marker
before the two cuts. -/
theorem ideal_mode_inserts_no_marker :
    (runOnFunction exampleRedundant exampleRedundantAlias exampleTieTree exampleTieLoops
        insertionOrder .releaseMemory).map (fun st => st.CutSet_) = some [⟨2, 0⟩, ⟨3, 0⟩] ∧
      ConstructIdempotentRegions.runOnFunction .OptimizeForIdeal true exampleRedundant
          [⟨2, 0⟩, ⟨3, 0⟩] =
        some [[.dummyCall, .original ⟨0, 0⟩],
          [.original ⟨1, 0⟩, .original ⟨1, 1⟩],
          [.original ⟨2, 0⟩, .original ⟨2, 1⟩],
          [.original ⟨3, 0⟩, .original ⟨3, 1⟩, .original ⟨3, 2⟩]] ∧
      ConstructIdempotentRegions.runOnFunction .OptimizeForIdeal true exampleRedundant
          [⟨2, 0⟩, ⟨3, 0⟩] ≠
        some (markersBefore exampleRedundant true [⟨2, 0⟩, ⟨3, 0⟩]) := by
  decide

/-- C25, as the code has it: on an ARM or Thumb target, in every mode but
`NoConstruction` the pass returns; in the modes `OptimizeForSize`,
`OptimizeForSpeed` and `BranchRecovery` the function then holds exactly one
marker immediately before each member of the cut set and no marker anywhere
else, and in the mode `OptimizeForIdeal` it holds no marker. The entry block
starts with the call to `__dummyfunc` when the cut set is not empty, and on
another target the function is left as it is. -/
theorem markers_materialised (mode : ConstructionMode) (F : Function) (CutSet : List InstPos)
    (hmode : mode ≠ .NoConstruction) (hnd : CutSet.Nodup)
    (hvalid : ∀ p ∈ CutSet, p.idx < F.blockLen p.bb) :
    ConstructIdempotentRegions.runOnFunction mode true F CutSet =
        some (markersBefore F (decide (CutSet ≠ []))
          (if mode = .OptimizeForIdeal then [] else CutSet)) ∧
      ConstructIdempotentRegions.runOnFunction mode false F CutSet = some F.constructed := by
  refine ⟨?_, ?_⟩
  · unfold ConstructIdempotentRegions.runOnFunction
    rw [if_neg hmode, if_pos rfl]
    by_cases hc : CutSet = []
    · subst hc
      simp only [ne_eq, not_true_eq_false, if_false, insertCuts, decide_False, ite_self,
        constructed_eq]
    · have hpos : 0 < F.blocks.length := by
        cases CutSet with
        | nil => exact absurd rfl hc
        | cons p rest =>
          have := blockLen_pos_lt F p.bb p.idx (hvalid p (List.mem_cons_self _ _))
          omega
      simp only [ne_eq, hc, not_false_eq_true, if_true, insertAtEntry_constructed F hpos,
        decide_True]
      by_cases hi : mode = .OptimizeForIdeal
      · rw [if_pos hi, hi]
        exact insertCuts_ideal F true CutSet hvalid
      · rw [if_neg hi]
        obtain ⟨T, hT, hmem⟩ := insertCuts_markers mode hi F true CutSet [] hnd
          (fun p _ h => by cases h) hvalid
        rw [hT, markersBefore_congr F true T CutSet (fun q => by rw [hmem q]; simp)]
  · unfold ConstructIdempotentRegions.runOnFunction
    rw [if_neg hmode]
    simp

/-- Witness of C25 on `exampleRedundant` in the mode `OptimizeForSize` with
the cut set of the analysis. -/
theorem markers_materialised_witness :
    ConstructIdempotentRegions.runOnFunction .OptimizeForSize true exampleRedundant
        [⟨2, 0⟩, ⟨3, 0⟩] =
        some (markersBefore exampleRedundant (decide ([(⟨2, 0⟩ : InstPos), ⟨3, 0⟩] ≠ []))
          (if ConstructionMode.OptimizeForSize = .OptimizeForIdeal then []
            else [⟨2, 0⟩, ⟨3, 0⟩])) ∧
      ConstructIdempotentRegions.runOnFunction .OptimizeForSize false exampleRedundant
        [⟨2, 0⟩, ⟨3, 0⟩] = some exampleRedundant.constructed :=
  markers_materialised .OptimizeForSize exampleRedundant [⟨2, 0⟩, ⟨3, 0⟩] (by decide)
    (by decide) (by decide)

end Ratchet

namespace Ratchet

/-! ## C40: REV -/

theorem revResult_lt (x : Nat) (hx : x < 4294967296) : revResult x < 4294967296 := by
  have h : revResult x < 2 ^ 32 := by
    apply Nat.lt_pow_two_of_testBit
    intro i hi
    have hx' : x < 2 ^ 32 := hx
    have m1 : (0xFF0000 : Nat) = (2 ^ 8 - 1) <<< 16 := by decide
    have m2 : (0xFF00 : Nat) = (2 ^ 8 - 1) <<< 8 := by decide
    have p32 : (4294967296 : Nat) = 2 ^ 32 := by decide
    have hxi : x.testBit (24 + i) = false :=
      Nat.testBit_lt_two_pow (Nat.lt_of_lt_of_le hx' (Nat.pow_le_pow_right (by decide) (by omega)))
    simp only [revResult, u32, m1, m2, p32, Nat.testBit_or, Nat.testBit_and,
      Nat.testBit_mod_two_pow, Nat.testBit_shiftLeft, Nat.testBit_shiftRight,
      Nat.testBit_two_pow_sub_one, hxi]
    have h1 : ¬ i < 32 := by omega
    have h2 : ¬ i - 16 < 8 := by omega
    have h3 : ¬ i - 8 < 8 := by omega
    simp [h1, h2, h3]
  exact h

theorem byteOf_testBit (k x i : Nat) :
    (byteOf k x).testBit i = (decide (i < 8) && x.testBit (8 * k + i)) := by
  have : (256 : Nat) = 2 ^ 8 := by decide
  simp only [byteOf, this, Nat.testBit_mod_two_pow, Nat.testBit_shiftRight]

/-- The bytes of the result of `rev` are those of the operand in reverse
order. -/
theorem revResult_bytes (x k : Nat) (hx : x < 4294967296) (hk : k < 4) :
    byteOf k (revResult x) = byteOf (3 - k) x := by
  have hx' : x < 2 ^ 32 := hx
  have m1 : (0xFF0000 : Nat) = (2 ^ 8 - 1) <<< 16 := by decide
  have m2 : (0xFF00 : Nat) = (2 ^ 8 - 1) <<< 8 := by decide
  have p32 : (4294967296 : Nat) = 2 ^ 32 := by decide
  have hhigh : ∀ j, 32 ≤ j → x.testBit j = false := fun j hj =>
    Nat.testBit_lt_two_pow (Nat.lt_of_lt_of_le hx' (Nat.pow_le_pow_right (by decide) hj))
  apply Nat.eq_of_testBit_eq
  intro i
  rw [byteOf_testBit, byteOf_testBit]
  by_cases hi : i < 8
  · simp only [revResult, u32, m1, m2, p32, Nat.testBit_or, Nat.testBit_and,
      Nat.testBit_mod_two_pow, Nat.testBit_shiftLeft, Nat.testBit_shiftRight,
      Nat.testBit_two_pow_sub_one, hi, decide_True, Bool.true_and]
    interval_cases k
    · have a1 : ¬ 24 ≤ i := by omega
      have a2 : ¬ 16 ≤ i := by omega
      have a3 : ¬ 8 ≤ i := by omega
      simp [a1, a2, a3]
    · have a1 : ¬ 24 ≤ 8 + i := by omega
      have a2 : ¬ 16 ≤ 8 + i := by omega
      have a3 : 8 + (8 + i) = 16 + i := by omega
      simp [a1, a2, a3, hi, hhigh (24 + (8 + i)) (by omega)]
    · have a1 : ¬ 24 ≤ 16 + i := by omega
      have a2 : 16 + i < 32 := by omega
      have a3 : 16 + i - 8 = 8 + i := by omega
      have a4 : ¬ 16 + i - 8 < 8 := by omega
      have a5 : 8 ≤ 16 + i := by omega
      simp [a1, a2, a3, a4, a5, hi, hhigh (24 + (16 + i)) (by omega)]
    · have a1 : 24 + i < 32 := by omega
      have a2 : ¬ 24 + i - 16 < 8 := by omega
      have a3 : ¬ 24 + i - 8 < 8 := by omega
      simp [a1, a2, a3, hhigh (8 + (24 + i)) (by omega), hhigh (24 + (24 + i)) (by omega)]
  · simp [hi]

/-- A value below `2 ^ 32` is the sum of its four bytes. -/
theorem eq_of_bytes (x y : Nat) (hx : x < 4294967296) (hy : y < 4294967296)
    (h : ∀ k, k < 4 → byteOf k x = byteOf k y) : x = y := by
  have h0 := h 0 (by decide)
  have h1 := h 1 (by decide)
  have h2 := h 2 (by decide)
  have h3 := h 3 (by decide)
  simp only [byteOf, Nat.shiftRight_eq_div_pow] at h0 h1 h2 h3
  norm_num at h0 h1 h2 h3
  omega

/-- C40: for every register file and every decoded instruction, `rev` returns
1 and writes to the register `rD` a 32-bit value whose bytes are those of the
32-bit value `x` of the register `rM` in reverse order; the written value is
`x[7:0] * 2^24 + x[15:8] * 2^16 + x[23:16] * 2^8 + x[31:24]`, and applying the
operation to it gives `x` back. -/
theorem rev_reverses_bytes (decoded : Decoded) (cpu_get_gpr : Nat → Nat) :
    ∃ v, rev decoded cpu_get_gpr = ((decoded.rD, v), 1) ∧ v < 4294967296 ∧
      (∀ k, k < 4 → byteOf k v = byteOf (3 - k) (cpu_get_gpr decoded.rM % 4294967296)) ∧
      v = byteOf 0 (cpu_get_gpr decoded.rM % 4294967296) * 16777216 +
        byteOf 1 (cpu_get_gpr decoded.rM % 4294967296) * 65536 +
        byteOf 2 (cpu_get_gpr decoded.rM % 4294967296) * 256 +
        byteOf 3 (cpu_get_gpr decoded.rM % 4294967296) ∧
      revResult v = cpu_get_gpr decoded.rM % 4294967296 := by
  have hx : cpu_get_gpr decoded.rM % 4294967296 < 4294967296 := Nat.mod_lt _ (by decide)
  have hr : rev decoded cpu_get_gpr =
      ((decoded.rD, revResult (cpu_get_gpr decoded.rM % 4294967296)), 1) := rfl
  rw [hr]
  generalize cpu_get_gpr decoded.rM % 4294967296 = x at hx
  have hv := revResult_lt x hx
  have hb := fun k hk => revResult_bytes x k hx hk
  refine ⟨revResult x, rfl, hv, hb, ?_, ?_⟩
  · have b0 := hb 0 (by decide)
    have b1 := hb 1 (by decide)
    have b2 := hb 2 (by decide)
    have b3 := hb 3 (by decide)
    rw [← b0, ← b1, ← b2, ← b3]
    simp only [byteOf, Nat.shiftRight_eq_div_pow]
    norm_num
    omega
  · apply eq_of_bytes _ _ (revResult_lt _ hv) hx
    intro k hk
    rw [revResult_bytes _ k hv hk, revResult_bytes x (3 - k) hx (by omega)]
    congr 1
    omega

end Ratchet

namespace Ratchet

/-! ## C39: REVSH -/

theorem and_eight (x : Nat) : x &&& 0x8 = if x.testBit 3 then 8 else 0 := by
  have m : (0x8 : Nat) = 2 ^ 3 := by decide
  apply Nat.eq_of_testBit_eq
  intro i
  rw [m, Nat.testBit_and, Nat.testBit_two_pow]
  by_cases hi : 3 = i
  · subst hi
    cases hb : x.testBit 3
    · simp
    · simp only [decide_True, Bool.and_self, if_true]
      exact (Nat.testBit_two_pow (n := 3) (m := 3)).symm ▸ rfl
  · cases hb : x.testBit 3
    · simp [hi]
    · simp only [hi, decide_False, Bool.and_false, if_true]
      have := Nat.testBit_two_pow (n := 3) (m := i)
      simp only [hi, decide_False] at this
      exact this.symm

/-- The bytes of the result of `revsh`: the two low bytes of the operand are
swapped, and the two high bytes repeat bit 3 of the operand. -/
theorem revshResult_bytes (x : Nat) (hx : x < 4294967296) :
    revshResult x < 4294967296 ∧
      byteOf 0 (revshResult x) = byteOf 1 x ∧ byteOf 1 (revshResult x) = byteOf 0 x ∧
      byteOf 2 (revshResult x) = (if x.testBit 3 then 255 else 0) ∧
      byteOf 3 (revshResult x) = (if x.testBit 3 then 255 else 0) := by
  have hx' : x < 2 ^ 32 := hx
  have m1 : (0xFFFFFF00 : Nat) = (2 ^ 24 - 1) <<< 8 := by decide
  have m2 : (0xFF : Nat) = 2 ^ 8 - 1 := by decide
  have m3 : (255 : Nat) = 2 ^ 8 - 1 := by decide
  have p32 : (4294967296 : Nat) = 2 ^ 32 := by decide
  have hhigh : ∀ j, 32 ≤ j → x.testBit j = false := fun j hj =>
    Nat.testBit_lt_two_pow (Nat.lt_of_lt_of_le hx' (Nat.pow_le_pow_right (by decide) hj))
  have hcond : (x &&& 0x8 ≠ 0) ↔ x.testBit 3 = true := by
    rw [and_eight]
    cases x.testBit 3 <;> simp
  cases hb : x.testBit 3
  · have hc : ¬ (x &&& 0x8 ≠ 0) := by rw [hcond, hb]; simp
    refine ⟨?_, ?_, ?_, ?_, ?_⟩
    · have h : revshResult x < 2 ^ 32 := by
        apply Nat.lt_pow_two_of_testBit
        intro i hi
        have h1 : ¬ i < 32 := by omega
        simp only [revshResult, u32, if_neg hc, m2, p32, Nat.testBit_or, Nat.testBit_and,
          Nat.testBit_mod_two_pow, Nat.testBit_shiftLeft, Nat.testBit_shiftRight,
          Nat.testBit_two_pow_sub_one]
        simp [h1]
        omega
      exact h
    all_goals
      apply Nat.eq_of_testBit_eq
      intro i
      rw [byteOf_testBit]
      try rw [byteOf_testBit]
      simp only [revshResult, u32, if_neg hc, m2, m3, p32, Nat.testBit_or, Nat.testBit_and,
        Nat.testBit_mod_two_pow, Nat.testBit_shiftLeft, Nat.testBit_shiftRight,
        Nat.testBit_two_pow_sub_one, Bool.false_eq_true, if_false, Nat.zero_testBit]
      by_cases hi : i < 8
      · have a1 : 8 + i < 32 := by omega
        have a2 : ¬ 8 ≤ i := by omega
        have a3 : 16 + i < 32 := by omega
        have a4 : 24 + i < 32 := by omega
        have a5 : 16 + i - 8 - 8 < 24 := by omega
        have a6 : 24 + i - 8 - 8 < 24 := by omega
        have a7 : 8 ≤ 16 + i - 8 := by omega
        have a8 : 8 ≤ 24 + i - 8 := by omega
        have a9 : ¬ 16 + i - 8 < 8 := by omega
        have a10 : ¬ 24 + i - 8 < 8 := by omega
        simp [hi, a1, a2, a3, a4, a5, a6, a7, a8, a9, a10, hhigh (8 + (16 + i) + 8)]
        try omega
      · simp [hi]
  · have hc : x &&& 0x8 ≠ 0 := by rw [hcond, hb]
    refine ⟨?_, ?_, ?_, ?_, ?_⟩
    · have h : revshResult x < 2 ^ 32 := by
        apply Nat.lt_pow_two_of_testBit
        intro i hi
        have h1 : ¬ i < 32 := by omega
        simp only [revshResult, u32, if_pos hc, m1, m2, p32, Nat.testBit_or, Nat.testBit_and,
          Nat.testBit_mod_two_pow, Nat.testBit_shiftLeft, Nat.testBit_shiftRight,
          Nat.testBit_two_pow_sub_one]
        simp [h1]
        omega
      exact h
    all_goals
      apply Nat.eq_of_testBit_eq
      intro i
      rw [byteOf_testBit]
      try rw [byteOf_testBit]
      simp only [revshResult, u32, if_pos hc, m1, m2, m3, p32, Nat.testBit_or, Nat.testBit_and,
        Nat.testBit_mod_two_pow, Nat.testBit_shiftLeft, Nat.testBit_shiftRight,
        Nat.testBit_two_pow_sub_one, if_true]
      by_cases hi : i < 8
      · have a1 : 8 + i < 32 := by omega
        have a2 : ¬ 8 ≤ i := by omega
        have a3 : 16 + i < 32 := by omega
        have a4 : 24 + i < 32 := by omega
        have a5 : 16 + i - 8 - 8 < 24 := by omega
        have a6 : 24 + i - 8 - 8 < 24 := by omega
        have a7 : 8 ≤ 16 + i - 8 := by omega
        have a8 : 8 ≤ 24 + i - 8 := by omega
        have a9 : ¬ 16 + i - 8 < 8 := by omega
        have a10 : ¬ 24 + i - 8 < 8 := by omega
        simp [hi, a1, a2, a3, a4, a5, a6, a7, a8, a9, a10, hhigh (8 + (16 + i) + 8)]
        try omega
      · simp [hi]

/-- What `revsh` writes, for every operand: the two low bytes swapped, under
sixteen copies of bit 3 of the operand; it is the sign extension of the
swapped halfword exactly when bit 3 and bit 7 of the operand agree. -/
theorem revsh_written_value (decoded : Decoded) (cpu_get_gpr : Nat → Nat) :
    ∃ v, revsh decoded cpu_get_gpr = ((decoded.rD, v), 1) ∧
      v = (if (cpu_get_gpr decoded.rM % 4294967296).testBit 3 then 0xFFFF0000 else 0) +
        byteOf 0 (cpu_get_gpr decoded.rM % 4294967296) * 256 +
        byteOf 1 (cpu_get_gpr decoded.rM % 4294967296) ∧
      (v = revshAsSpecified (cpu_get_gpr decoded.rM % 4294967296) ↔
        (cpu_get_gpr decoded.rM % 4294967296).testBit 3 =
          (cpu_get_gpr decoded.rM % 4294967296).testBit 7) := by
  have hx : cpu_get_gpr decoded.rM % 4294967296 < 4294967296 := Nat.mod_lt _ (by decide)
  have hr : revsh decoded cpu_get_gpr =
      ((decoded.rD, revshResult (cpu_get_gpr decoded.rM % 4294967296)), 1) := rfl
  rw [hr]
  generalize cpu_get_gpr decoded.rM % 4294967296 = x at hx
  obtain ⟨hv, b0, b1, b2, b3⟩ := revshResult_bytes x hx
  have hval : revshResult x = (if x.testBit 3 then 0xFFFF0000 else 0) +
      byteOf 0 x * 256 + byteOf 1 x := by
    rw [← b0, ← b1]
    simp only [byteOf, Nat.shiftRight_eq_div_pow] at b2 b3 ⊢
    norm_num at b2 b3 ⊢
    cases hb : x.testBit 3
    · simp only [hb, Bool.false_eq_true, if_false] at b2 b3 ⊢
      omega
    · simp only [hb, if_true] at b2 b3 ⊢
      omega
  refine ⟨revshResult x, rfl, hval, ?_⟩
  rw [hval]
  unfold revshAsSpecified
  cases h3 : x.testBit 3 <;> cases h7 : x.testBit 7 <;> simp

/-- C39 at the operand `0x80`, whose bit 7 is set and whose bit 3 is clear:
`revsh` writes `0x00008000`, whereas the sign extension of the swapped
halfword `0x8000` is `0xFFFF8000`; at the operand `0x08` it writes
`0xFFFF0800`, whereas the sign extension of `0x0800` is `0x00000800`. The test
of the sign reads `opA & 0x8`. -/
theorem revsh_sign_from_bit_3 :
    revsh ⟨0, 1⟩ (fun _ => 0x80) = ((0, 0x00008000), 1) ∧
      revshAsSpecified 0x80 = 0xFFFF8000 ∧
      revsh ⟨0, 1⟩ (fun _ => 0x08) = ((0, 0xFFFF0800), 1) ∧
      revshAsSpecified 0x08 = 0x00000800 := by
  decide

end Ratchet

namespace Ratchet

/-! ## C38: killDummyCalls -/

theorem filter_eraseIdx_of_not {α : Type} (p : α → Bool) :
    ∀ (l : List α) (i : Nat) (a : α), l[i]? = some a → p a = false →
      (l.eraseIdx i).filter p = l.filter p := by
  intro l
  induction l with
  | nil => intro i a h; cases h
  | cons b l ih =>
    intro i a h hp
    cases i with
    | zero =>
      simp only [List.getElem?_cons_zero, Option.some.injEq] at h
      subst h
      simp [List.filter_cons, hp]
    | succ i =>
      simp only [List.getElem?_cons_succ] at h
      simp only [List.eraseIdx_cons_succ, List.filter_cons, ih i a h hp]

/-- The loop of `killDummyCalls` once it stands behind the first instruction
of the block: the first instruction stays, and the calls to `__dummyfunc`
behind it are erased. -/
theorem killDummyCallsLoop_from_one (h : MachineInstr) :
    ∀ (fuel : Nat) (tail : List MachineInstr) (k : Nat), k ≤ tail.length →
      (∀ j, j < k → ∀ MI, tail[j]? = some MI → isDummyCall MI = false) →
      tail.length * (tail.length + 2) + (tail.length - k) < fuel →
      killDummyCallsLoop fuel (h :: tail) (k + 1) =
        some (h :: tail.filter (fun MI => !isDummyCall MI)) := by
  intro fuel
  induction fuel with
  | zero => intro tail k _ _ hf; omega
  | succ fuel ih =>
    intro tail k hk hclean hf
    rw [killDummyCallsLoop]
    simp only [List.getElem?_cons_succ]
    cases hget : tail[k]? with
    | none =>
      simp only
      have hkl : k = tail.length := by
        have := List.getElem?_eq_none_iff.mp hget
        omega
      have hall : ∀ MI ∈ tail, (!isDummyCall MI) = true := by
        intro MI hMI
        obtain ⟨j, hj, e⟩ := List.getElem_of_mem hMI
        have := hclean j (by omega) MI (by rw [List.getElem?_eq_getElem hj, e])
        simp [this]
      rw [List.filter_eq_self.mpr hall]
    | some MI =>
      simp only
      have hklt : k < tail.length := by
        by_contra hge
        rw [List.getElem?_eq_none (by omega)] at hget
        cases hget
      by_cases hd : isDummyCall MI = true
      · rw [if_pos hd]
        simp only [List.eraseIdx_cons_succ]
        have hlen : (tail.eraseIdx k).length = tail.length - 1 := by
          rw [List.length_eraseIdx]
          simp [hklt]
        have hrec := ih (tail.eraseIdx k) 0 (Nat.zero_le _) (fun j hj => by omega)
          (by
            rw [hlen]
            obtain ⟨s, hs⟩ : ∃ s, tail.length = s + 1 := ⟨tail.length - 1, by omega⟩
            rw [hs] at hf ⊢
            have h1 : (s + 1) * (s + 1 + 2) = s * (s + 2) + 2 * s + 3 := by ring
            simp only [Nat.add_sub_cancel]
            omega)
        rw [hrec, filter_eraseIdx_of_not _ tail k MI hget (by simp [hd])]
      · rw [if_neg hd]
        have hd' : isDummyCall MI = false := by
          cases hc : isDummyCall MI
          · rfl
          · exact absurd hc hd
        refine ih tail (k + 1) hklt ?_ (by omega)
        intro j hj MI1 hMI1
        by_cases hjk : j = k
        · subst hjk
          rw [hget] at hMI1
          cases hMI1
          exact hd'
        · exact hclean j (by omega) MI1 hMI1

/-- What the loop of `killDummyCalls` leaves of a block: when the block starts
with a call to `__dummyfunc` the call is erased and the instruction behind it
stays whatever it is; the loop runs off the end of a block that holds nothing
but the call. Behind the first instruction that stays, the calls to
`__dummyfunc` are erased and the other instructions stay in their order. -/
theorem killDummyCallsBlock_eq (B : MachineBasicBlock) :
    killDummyCallsBlock B =
      match B.insts with
      | [] => some B
      | [MI] => if isDummyCall MI then none else some B
      | MI :: MI1 :: rest =>
        if isDummyCall MI then
          some { B with insts := MI1 :: rest.filter (fun MI => !isDummyCall MI) }
        else
          some { B with insts := MI :: (MI1 :: rest).filter (fun MI => !isDummyCall MI) } := by
  unfold killDummyCallsBlock
  cases hB : B.insts with
  | nil =>
    simp only [killDummyCallsLoop, List.getElem?_nil, Option.map_some', List.length_nil]
    cases B
    simp only at hB
    rw [hB]
  | cons MI tail =>
    rw [killDummyCallsLoop]
    simp only [List.getElem?_cons_zero, List.eraseIdx_cons_zero]
    have hfuel : ∀ t : List MachineInstr, t.length ≤ tail.length →
        t.length * (t.length + 2) + (t.length - 0) <
          ((MI :: tail).length + 1) * ((MI :: tail).length + 1) := by
      intro t ht
      simp only [List.length_cons]
      have h1 : t.length * (t.length + 2) ≤ tail.length * (tail.length + 2) :=
        Nat.mul_le_mul ht (by omega)
      have h2 : (tail.length + 1 + 1) * (tail.length + 1 + 1) =
          tail.length * (tail.length + 2) + 2 * tail.length + 4 := by ring
      omega
    by_cases hd : isDummyCall MI = true
    · rw [if_pos hd]
      cases tail with
      | nil => simp [hd]
      | cons MI1 rest =>
        simp only [hd, if_true]
        rw [killDummyCallsLoop_from_one MI1 _ rest 0 (Nat.zero_le _) (fun j hj => by omega)
          (hfuel rest (by simp))]
        rfl
    · rw [if_neg hd]
      rw [killDummyCallsLoop_from_one MI _ tail 0 (Nat.zero_le _) (fun j hj => by omega)
        (hfuel tail (Nat.le_refl _))]
      cases tail with
      | nil =>
        simp only [hd, if_false, List.filter_nil, Option.map_some']
        cases B
        simp only at hB
        simp [hB]
      | cons MI1 rest =>
        simp only [hd, if_false, Option.map_some', Bool.false_eq_true]

/-- C38 on a block that starts with two calls to `__dummyfunc`:
`killDummyCalls` returns and the second call is still there, because the scan
goes on behind the new first instruction after the first call has been
erased. The calls of `exampleDummyCalls`, which stand behind another
instruction, are all erased. -/
theorem dummy_call_survives :
    isDummyCall dummyCallInstr = true ∧
      killDummyCalls exampleTwoDummyCalls =
        some ⟨[⟨[dummyCallInstr, plainInstr], [], []⟩]⟩ ∧
      killDummyCalls exampleDummyCalls = some ⟨[⟨[plainInstr, plainInstr], [], []⟩]⟩ := by
  decide

end Ratchet

namespace Ratchet

/-! ## C32: the traversal of a region is bounded and yields nothing twice -/

theorem rangePositions_nodup (b lo hi : Nat) : (rangePositions b lo hi).Nodup := by
  unfold rangePositions
  refine List.Nodup.map ?_ (List.nodup_range' _ _)
  intro x y h
  exact congrArg InstPos.idx h

/-- The blocks of the worklist search of a region are distinct blocks of the
function. -/
theorem regionTrace_nodup (MF : MachineFunction) (R : IdempotentRegion) (tr : List Nat)
    (hd : dfsTrace (regionStop MF R) (regionNbrs MF) (MF.blocks.length + 1)
      (regionPushed MF R.Entry_.bb (regionEnd0 MF R) [] []).1
      (regionPushed MF R.Entry_.bb (regionEnd0 MF R) [] []).2 = some tr) :
    tr.Nodup ∧ tr.length ≤ MF.blocks.length ∧
      ∀ x ∈ tr, ∃ B e, MF.blocks[x]? = some B ∧ regionEnd MF R x = some e := by
  have hcl := dfsTrace_closed _ _ _ _ _ _ hd
  have hnd := (dfsTrace_nodup _ _ _ _ _ _ hd (pushed0_nodup MF R).1 (pushed0_nodup MF R).2).1
  have hblk : ∀ x ∈ tr, ∃ B e, MF.blocks[x]? = some B ∧ regionEnd MF R x = some e := by
    intro b hb
    obtain ⟨s, hs, _⟩ := hcl.2 b hb
    obtain ⟨B1, e, hB1, hr, _⟩ := regionStop_some MF R b s hs
    exact ⟨B1, e, hB1, hr⟩
  refine ⟨hnd, ?_, hblk⟩
  have hsub : tr.toFinset ⊆ Finset.range MF.blocks.length := by
    intro x hx
    rw [List.mem_toFinset] at hx
    obtain ⟨B, _, hB, _⟩ := hblk x hx
    exact Finset.mem_range.mpr (mlt_of_block MF x B hB)
  have := Finset.card_le_card hsub
  rw [List.toFinset_card_of_nodup hnd, Finset.card_range] at this
  exact this

/-- The range of a block of the worklist search does not hold the entry. -/
theorem regionEndD_le_entry (MF : MachineFunction) (R : IdempotentRegion) (B : MachineBasicBlock)
    (hB : MF.blocks[R.Entry_.bb]? = some B) (e : Nat)
    (hr : regionEnd MF R R.Entry_.bb = some e) : e ≤ R.Entry_.idx := by
  unfold regionEnd at hr
  rw [hB] at hr
  obtain ⟨_, _, h3, _⟩ := computeEnd_spec MF R R.Entry_.bb B hB B.insts.length 0 e
    (by omega) (by simpa using hr)
  by_contra hlt
  exact (h3 R.Entry_.idx (Nat.zero_le _) (by omega)).2 rfl

/-- C32: for a region whose entry is a boundary, in a function whose successor
lists name blocks of the function, the traversal aborts when the search wraps
to the entry; otherwise the block-level iterator is exhausted after as many
increments as it yields ranges, which are at most the number of blocks plus
one, no instruction lies in two of the yielded ranges, and the
instruction-level iterator yields the instructions of the ranges in order,
none of them twice. -/
theorem traversal_bounded (MF : MachineFunction) (R : IdempotentRegion)
    (hsv : ∀ (b : Nat) (B : MachineBasicBlock), MF.blocks[b]? = some B →
      ∀ s ∈ B.succs, s < MF.blocks.length)
    (EI : MachineInstr)
    (hE : MF.inst? R.Entry_ = some EI) (hEb : EI.isIdemBoundary = true) :
    (WrapsToEntry MF R → R.ranges MF = none ∧ R.instructions MF = none) ∧
      (¬ WrapsToEntry MF R → ∃ rs l, R.ranges MF = some rs ∧ R.instructions MF = some l ∧
        rs.length ≤ MF.blocks.length + 1 ∧
        rs.Pairwise (fun r s => List.Disjoint (rangePositions r.1.bb r.1.idx r.2.idx)
          (rangePositions s.1.bb s.1.idx s.2.idx)) ∧
        l = rs.flatMap (fun r => rangePositions r.1.bb r.1.idx r.2.idx) ∧ l.Nodup) := by
  refine ⟨?_, ?_⟩
  · intro hw
    have hd := regionTrace_wrap MF R EI hE hEb hw
    exact ⟨ranges_none MF R hsv EI hE hd, instructions_none MF R hsv EI hE hEb hd⟩
  · intro hnw
    obtain ⟨tr, hd⟩ := regionTrace_total MF R hsv EI hE hEb hnw
    obtain ⟨hnd, hlen, hblk⟩ := regionTrace_nodup MF R tr hd
    obtain ⟨B, hB⟩ := entry_block MF R EI hE
    have hpw : (((R.Entry_, (⟨R.Entry_.bb, regionEnd0 MF R⟩ : InstPos)) ::
        tr.map (fun x => ((⟨x, 0⟩ : InstPos), (⟨x, regionEndD MF R x⟩ : InstPos)))).Pairwise
        (fun r s => List.Disjoint (rangePositions r.1.bb r.1.idx r.2.idx)
          (rangePositions s.1.bb s.1.idx s.2.idx))) := by
      rw [List.pairwise_cons]
      refine ⟨?_, ?_⟩
      · intro s hs p hp1 hp2
        obtain ⟨x, hx, e⟩ := List.mem_map.mp hs
        subst e
        rw [mem_rangePositions] at hp1 hp2
        simp only at hp1 hp2
        obtain ⟨_, e, _, hr⟩ := hblk x hx
        rw [regionEndD_of MF R x e hr] at hp2
        have hxe : x = R.Entry_.bb := by rw [← hp2.1, hp1.1]
        subst hxe
        have := regionEndD_le_entry MF R B hB e hr
        omega
      · rw [List.pairwise_map]
        refine List.Pairwise.imp ?_ hnd
        intro x y hxy p hp1 hp2
        rw [mem_rangePositions] at hp1 hp2
        simp only at hp1 hp2
        exact hxy (hp1.1.symm.trans hp2.1)
    have hl : rangePositions R.Entry_.bb R.Entry_.idx (regionEnd0 MF R) ++
        tr.flatMap (fun x => rangePositions x 0 (regionEndD MF R x)) =
        ((R.Entry_, (⟨R.Entry_.bb, regionEnd0 MF R⟩ : InstPos)) ::
          tr.map (fun x => ((⟨x, 0⟩ : InstPos), (⟨x, regionEndD MF R x⟩ : InstPos)))).flatMap
          (fun r => rangePositions r.1.bb r.1.idx r.2.idx) := by
      rw [List.flatMap_cons, List.flatMap_map]
    refine ⟨_, _, ranges_some MF R EI hE tr hd, instructions_some MF R EI hE hEb tr hd,
      by simp only [List.length_cons, List.length_map]; omega, hpw, hl, ?_⟩
    rw [hl, List.nodup_flatMap]
    exact ⟨fun r _ => rangePositions_nodup _ _ _, hpw⟩

/-- Witness of C32 on the first region of `exampleLoopRegion`, whose search
goes through the loop of block 1. -/
theorem traversal_bounded_witness :
    (WrapsToEntry exampleLoopRegion ⟨0, ⟨0, 0⟩⟩ →
        IdempotentRegion.ranges exampleLoopRegion ⟨0, ⟨0, 0⟩⟩ = none ∧
          IdempotentRegion.instructions exampleLoopRegion ⟨0, ⟨0, 0⟩⟩ = none) ∧
      (¬ WrapsToEntry exampleLoopRegion ⟨0, ⟨0, 0⟩⟩ →
        ∃ rs l, IdempotentRegion.ranges exampleLoopRegion ⟨0, ⟨0, 0⟩⟩ = some rs ∧
          IdempotentRegion.instructions exampleLoopRegion ⟨0, ⟨0, 0⟩⟩ = some l ∧
          rs.length ≤ exampleLoopRegion.blocks.length + 1 ∧
          rs.Pairwise (fun r s => List.Disjoint (rangePositions r.1.bb r.1.idx r.2.idx)
            (rangePositions s.1.bb s.1.idx s.2.idx)) ∧
          l = rs.flatMap (fun r => rangePositions r.1.bb r.1.idx r.2.idx) ∧ l.Nodup) ∧
      IdempotentRegion.ranges exampleLoopRegion ⟨0, ⟨0, 0⟩⟩ =
        some [(⟨0, 0⟩, ⟨0, 2⟩), (⟨1, 0⟩, ⟨1, 2⟩), (⟨2, 0⟩, ⟨2, 1⟩)] :=
  ⟨(traversal_bounded exampleLoopRegion ⟨0, ⟨0, 0⟩⟩
      (msuccs_valid exampleLoopRegion (cfg_wellFormed_of_check _ (by decide)))
      idemInstr rfl rfl).1,
    (traversal_bounded exampleLoopRegion ⟨0, ⟨0, 0⟩⟩
      (msuccs_valid exampleLoopRegion (cfg_wellFormed_of_check _ (by decide)))
      idemInstr rfl rfl).2,
    by decide⟩

end Ratchet

namespace Ratchet

/-! ## C33: the order of the block-level iterator -/

/-- The successors pushed when a block is taken from the worklist. -/
theorem pushSuccs_head (ns Worklist Visited : List Nat)
    (h : ∃ s ∈ ns, s ∉ Visited) :
    ∃ c rest, (pushSuccs ns Worklist Visited).1 = c :: rest ∧ c ∈ ns ∧ c ∉ Visited := by
  induction ns generalizing Worklist Visited with
  | nil => obtain ⟨s, hs, _⟩ := h; cases hs
  | cons a ns ih =>
    unfold pushSuccs
    by_cases ha : a ∈ Visited
    · rw [if_pos ha]
      obtain ⟨s, hs, hsv⟩ := h
      have hs1 : s ∈ ns := by
        rcases List.mem_cons.mp hs with e | e
        · subst e; exact absurd ha hsv
        · exact e
      obtain ⟨c, rest, h1, h2, h3⟩ := ih Worklist Visited ⟨s, hs1, hsv⟩
      exact ⟨c, rest, h1, List.mem_cons_of_mem _ h2, h3⟩
    · rw [if_neg ha]
      by_cases hex : ∃ s ∈ ns, s ∉ a :: Visited
      · obtain ⟨c, rest, h1, h2, h3⟩ := ih (a :: Worklist) (a :: Visited) hex
        exact ⟨c, rest, h1, List.mem_cons_of_mem _ h2, fun hc => h3 (List.mem_cons_of_mem _ hc)⟩
      · have hall : ∀ s ∈ ns, s ∈ a :: Visited := by
          intro s hs
          by_contra hn
          exact hex ⟨s, hs, hn⟩
        have hwl : ∀ (W V : List Nat), (∀ s ∈ ns, s ∈ V) → (pushSuccs ns W V).1 = W := by
          intro W V hV
          clear ih h hex hall
          induction ns generalizing W V with
          | nil => rfl
          | cons b ns ih2 =>
            unfold pushSuccs
            rw [if_pos (hV b (List.mem_cons_self _ _))]
            exact ih2 W V (fun s hs => hV s (List.mem_cons_of_mem _ hs))
        exact ⟨a, Worklist, hwl _ _ hall, List.mem_cons_self _ _, ha⟩

theorem dfsTrace_head (stop : Nat → Option Bool) (nbrs : Nat → List Nat) (fuel : Nat)
    (c : Nat) (rest Visited tr : List Nat)
    (h : dfsTrace stop nbrs fuel (c :: rest) Visited = some tr) : ∃ t, tr = c :: t := by
  cases fuel with
  | zero => simp [dfsTrace] at h
  | succ fuel =>
    simp only [dfsTrace] at h
    cases hs : stop c with
    | none => rw [hs] at h; cases h
    | some s0 =>
      rw [hs] at h
      simp only at h
      cases hrec : dfsTrace stop nbrs fuel
          (if s0 = true then (rest, Visited) else pushSuccs (nbrs c) rest Visited).1
          (if s0 = true then (rest, Visited) else pushSuccs (nbrs c) rest Visited).2 with
      | none => rw [hrec] at h; cases h
      | some t =>
        rw [hrec] at h
        simp only [Option.some.injEq] at h
        exact ⟨t, h.symm⟩

theorem mem_pushed_vis (stop : Nat → Option Bool) (nbrs : Nat → List Nat) (b : Nat) (s0 : Bool)
    (hs : stop b = some s0) (Worklist Visited : List Nat) (x : Nat) :
    x ∈ (if s0 = true then (Worklist, Visited) else pushSuccs (nbrs b) Worklist Visited).2 ↔
      x ∈ Visited ∨ x ∈ traceSuccs stop nbrs b := by
  unfold traceSuccs
  rw [hs]
  cases s0 with
  | true => simp
  | false => simp [mem_pushSuccs_vis]

/-- After the worklist search has taken a block from the worklist, it takes
next a successor of that block that was not pushed before, if there is one. -/
theorem dfsTrace_next (stop : Nat → Option Bool) (nbrs : Nat → List Nat) :
    ∀ (fuel : Nat) (Worklist Visited tr : List Nat),
      dfsTrace stop nbrs fuel Worklist Visited = some tr →
      ∀ (i b : Nat), tr[i]? = some b → ∀ s ∈ traceSuccs stop nbrs b,
        s ∉ Visited → s ∉ (tr.take i).flatMap (traceSuccs stop nbrs) →
        ∃ c, tr[i + 1]? = some c ∧ c ∈ traceSuccs stop nbrs b ∧ c ∉ Visited ∧
          c ∉ (tr.take i).flatMap (traceSuccs stop nbrs) := by
  intro fuel
  induction fuel with
  | zero => intro _ _ _ h; simp [dfsTrace] at h
  | succ fuel ih =>
    intro Worklist Visited tr h i b hb s hs hsV hsT
    cases Worklist with
    | nil =>
      simp only [dfsTrace] at h
      cases h
      simp at hb
    | cons b0 W =>
      simp only [dfsTrace] at h
      cases hs0 : stop b0 with
      | none => rw [hs0] at h; cases h
      | some s0 =>
        rw [hs0] at h
        simp only at h
        cases hrec : dfsTrace stop nbrs fuel
            (if s0 = true then (W, Visited) else pushSuccs (nbrs b0) W Visited).1
            (if s0 = true then (W, Visited) else pushSuccs (nbrs b0) W Visited).2 with
        | none => rw [hrec] at h; cases h
        | some t =>
          rw [hrec] at h
          simp only [Option.some.injEq] at h
          subst h
          cases i with
          | zero =>
            simp only [List.getElem?_cons_zero, Option.some.injEq] at hb
            subst hb
            have hs1 := hs
            unfold traceSuccs at hs1
            rw [hs0] at hs1
            cases s0 with
            | true => simp at hs1
            | false =>
              simp only [if_true] at hs1
              simp only [Bool.false_eq_true, if_false] at hrec
              obtain ⟨c, rest, h1, h2, h3⟩ := pushSuccs_head (nbrs b0) W Visited ⟨s, hs1, hsV⟩
              rw [h1] at hrec
              obtain ⟨t1, ht1⟩ := dfsTrace_head _ _ _ _ _ _ _ hrec
              subst ht1
              refine ⟨c, by simp, ?_, h3, by simp⟩
              unfold traceSuccs
              rw [hs0]
              simpa using h2
          | succ i =>
            simp only [List.getElem?_cons_succ] at hb
            simp only [List.take_succ_cons, List.flatMap_cons, List.mem_append, not_or] at hsT
            have hmv := mem_pushed_vis stop nbrs b0 s0 hs0 W Visited
            obtain ⟨c, h1, h2, h3, h4⟩ := ih _ _ t hrec i b hb s hs
              (fun hx => by
                rcases (hmv s).mp hx with e | e
                · exact hsV e
                · exact hsT.1 e) hsT.2
            refine ⟨c, by simpa using h1, h2, fun hc => h3 ((hmv c).mpr (Or.inl hc)), ?_⟩
            simp only [List.take_succ_cons, List.flatMap_cons, List.mem_append, not_or]
            exact ⟨fun hc => h3 ((hmv c).mpr (Or.inr hc)), h4⟩

theorem rangeSuccs_trace (MF : MachineFunction) (R : IdempotentRegion) (x : Nat) (s0 : Bool)
    (hs : regionStop MF R x = some s0) :
    rangeSuccs MF ((⟨x, 0⟩ : InstPos), (⟨x, regionEndD MF R x⟩ : InstPos)) =
      traceSuccs (regionStop MF R) (regionNbrs MF) x := by
  obtain ⟨B, e, hB, hr, hs0⟩ := regionStop_some MF R x s0 hs
  unfold rangeSuccs traceSuccs regionNbrs
  simp only [hB, regionEndD_of MF R x e hr, hs]
  rw [← hs0]
  cases s0 <;> simp

theorem rangeSuccs_entry (MF : MachineFunction) (R : IdempotentRegion) (x : Nat) :
    x ∈ (regionPushed MF R.Entry_.bb (regionEnd0 MF R) [] []).2 ↔
      x ∈ rangeSuccs MF (R.Entry_, (⟨R.Entry_.bb, regionEnd0 MF R⟩ : InstPos)) := by
  unfold regionPushed rangeSuccs
  cases hB : MF.blocks[R.Entry_.bb]? with
  | none => simp
  | some B =>
    simp only
    by_cases hx : (decide (regionEnd0 MF R ≠ B.insts.length) || B.succs.isEmpty) = true
    · rw [if_pos hx, if_pos hx]
    · rw [if_neg hx, if_neg hx, mem_pushSuccs_vis]
      simp

theorem mem_flatMap_ranges (MF : MachineFunction) (R : IdempotentRegion) (l : List Nat)
    (hl : ∀ x ∈ l, ∃ s0, regionStop MF R x = some s0) (c : Nat) :
    c ∈ (l.map (fun x => ((⟨x, 0⟩ : InstPos), (⟨x, regionEndD MF R x⟩ : InstPos)))).flatMap
        (rangeSuccs MF) ↔
      c ∈ l.flatMap (traceSuccs (regionStop MF R) (regionNbrs MF)) := by
  simp only [List.mem_flatMap, List.mem_map]
  constructor
  · rintro ⟨r, ⟨x, hx, rfl⟩, hc⟩
    obtain ⟨s0, hs0⟩ := hl x hx
    rw [rangeSuccs_trace MF R x s0 hs0] at hc
    exact ⟨x, hx, hc⟩
  · rintro ⟨x, hx, hc⟩
    obtain ⟨s0, hs0⟩ := hl x hx
    refine ⟨_, ⟨x, hx, rfl⟩, ?_⟩
    rw [rangeSuccs_trace MF R x s0 hs0]
    exact hc

/-- C33, amended: for a region whose entry is a boundary, in a function whose
successor lists name blocks of the function, the block-level iterator yields
ranges unless the search wraps to the entry, and after the iterator has
yielded a range it yields next the range, from the first instruction on, of a
successor of that block that is looked at for this range and was not looked at
for an earlier range (a successor that had not been discovered before), if
there is one. -/
theorem iterator_discovery_order (MF : MachineFunction) (R : IdempotentRegion)
    (hsv : ∀ (b : Nat) (B : MachineBasicBlock), MF.blocks[b]? = some B →
      ∀ s ∈ B.succs, s < MF.blocks.length)
    (EI : MachineInstr)
    (hE : MF.inst? R.Entry_ = some EI) (hEb : EI.isIdemBoundary = true) :
    (¬ WrapsToEntry MF R → ∃ rs, R.ranges MF = some rs) ∧
      ∀ rs, R.ranges MF = some rs →
        ∀ (i : Nat) (r : InstPos × InstPos), rs[i]? = some r →
          ∀ s ∈ rangeSuccs MF r, s ∉ (rs.take i).flatMap (rangeSuccs MF) →
          ∃ r1, rs[i + 1]? = some r1 ∧ r1.1.idx = 0 ∧ r1.1.bb ∈ rangeSuccs MF r ∧
            r1.1.bb ∉ (rs.take i).flatMap (rangeSuccs MF) := by
  refine ⟨?_, ?_⟩
  · intro hnw
    obtain ⟨tr, hd⟩ := regionTrace_total MF R hsv EI hE hEb hnw
    exact ⟨_, ranges_some MF R EI hE tr hd⟩
  · intro rs hrs i r hr s hs hsT
    cases hd : dfsTrace (regionStop MF R) (regionNbrs MF) (MF.blocks.length + 1)
        (regionPushed MF R.Entry_.bb (regionEnd0 MF R) [] []).1
        (regionPushed MF R.Entry_.bb (regionEnd0 MF R) [] []).2 with
    | none =>
      rw [ranges_none MF R hsv EI hE hd] at hrs
      cases hrs
    | some tr =>
      rw [ranges_some MF R EI hE tr hd] at hrs
      simp only [Option.some.injEq] at hrs
      subst hrs
      have hstop : ∀ x ∈ tr, ∃ s0, regionStop MF R x = some s0 := by
        intro x hx
        obtain ⟨s0, h0, _⟩ := (dfsTrace_closed _ _ _ _ _ _ hd).2 x hx
        exact ⟨s0, h0⟩
      cases i with
      | zero =>
        simp only [List.getElem?_cons_zero, Option.some.injEq] at hr
        subst hr
        obtain ⟨B, hB⟩ := entry_block MF R EI hE
        have hs1 := hs
        unfold rangeSuccs at hs1
        simp only [hB] at hs1
        by_cases hx : (decide (regionEnd0 MF R ≠ B.insts.length) || B.succs.isEmpty) = true
        · rw [if_pos hx] at hs1
          cases hs1
        · rw [if_neg hx] at hs1
          obtain ⟨c, rest, h1, h2, _⟩ := pushSuccs_head B.succs [] [] ⟨s, hs1, by simp⟩
          have hp : (regionPushed MF R.Entry_.bb (regionEnd0 MF R) [] []).1 = c :: rest := by
            unfold regionPushed
            simp only [hB]
            rw [if_neg hx]
            exact h1
          rw [hp] at hd
          obtain ⟨t1, ht1⟩ := dfsTrace_head _ _ _ _ _ _ _ hd
          subst ht1
          refine ⟨((⟨c, 0⟩ : InstPos), (⟨c, regionEndD MF R c⟩ : InstPos)), by simp, rfl, ?_,
            by simp⟩
          unfold rangeSuccs
          simp only [hB]
          rw [if_neg hx]
          exact h2
      | succ i =>
        simp only [List.getElem?_cons_succ, List.getElem?_map] at hr
        cases hx : tr[i]? with
        | none => rw [hx] at hr; cases hr
        | some x =>
          rw [hx] at hr
          simp only [Option.map_some'] at hr
          have hr1 := Option.some.inj hr
          subst hr1
          have hxm : x ∈ tr := List.getElem?_mem hx
          obtain ⟨s0, hs0⟩ := hstop x hxm
          rw [rangeSuccs_trace MF R x s0 hs0] at hs ⊢
          have htake : ∀ y ∈ tr.take i, ∃ s1, regionStop MF R y = some s1 :=
            fun y hy => hstop y (List.mem_of_mem_take hy)
          have hsplit : ∀ c, c ∈ (((R.Entry_, (⟨R.Entry_.bb, regionEnd0 MF R⟩ : InstPos)) ::
              tr.map (fun x => ((⟨x, 0⟩ : InstPos), (⟨x, regionEndD MF R x⟩ : InstPos)))).take
                (i + 1)).flatMap (rangeSuccs MF) ↔
              c ∈ (regionPushed MF R.Entry_.bb (regionEnd0 MF R) [] []).2 ∨
                c ∈ (tr.take i).flatMap (traceSuccs (regionStop MF R) (regionNbrs MF)) := by
            intro c
            rw [List.take_succ_cons, List.flatMap_cons, List.mem_append, ← List.map_take,
              mem_flatMap_ranges MF R _ htake, rangeSuccs_entry]
          rw [hsplit] at hsT
          obtain ⟨c, h1, h2, h3, h4⟩ := dfsTrace_next _ _ _ _ _ _ hd i x hx s hs
            (fun h => hsT (Or.inl h)) (fun h => hsT (Or.inr h))
          refine ⟨((⟨c, 0⟩ : InstPos), (⟨c, regionEndD MF R c⟩ : InstPos)), ?_, rfl, h2, ?_⟩
          · simp only [List.getElem?_cons_succ, List.getElem?_map, h1, Option.map_some']
          · rw [hsplit]
            rintro (h | h)
            · exact h3 h
            · exact h4 h

/-- Witness of the amended C33 on `exampleFan`. -/
theorem iterator_discovery_order_witness :
    (¬ WrapsToEntry exampleFan ⟨0, ⟨0, 0⟩⟩ →
        ∃ rs, IdempotentRegion.ranges exampleFan ⟨0, ⟨0, 0⟩⟩ = some rs) ∧
      ∀ rs, IdempotentRegion.ranges exampleFan ⟨0, ⟨0, 0⟩⟩ = some rs →
        ∀ (i : Nat) (r : InstPos × InstPos), rs[i]? = some r →
          ∀ s ∈ rangeSuccs exampleFan r, s ∉ (rs.take i).flatMap (rangeSuccs exampleFan) →
          ∃ r1, rs[i + 1]? = some r1 ∧ r1.1.idx = 0 ∧ r1.1.bb ∈ rangeSuccs exampleFan r ∧
            r1.1.bb ∉ (rs.take i).flatMap (rangeSuccs exampleFan) :=
  iterator_discovery_order exampleFan ⟨0, ⟨0, 0⟩⟩
    (msuccs_valid exampleFan (cfg_wellFormed_of_check _ (by decide))) idemInstr rfl rfl

/-- C33 fails on `exampleFan`: the iterator yields the blocks 0, 3, 2, 1; after
block 3 it yields block 2, which was discovered from block 0, although block 1
is a successor of block 3 in the region that has not been yielded. -/
theorem fan_not_depth_first :
    IdempotentRegion.ranges exampleFan ⟨0, ⟨0, 0⟩⟩ =
        some [(⟨0, 0⟩, ⟨0, 2⟩), (⟨3, 0⟩, ⟨3, 1⟩), (⟨2, 0⟩, ⟨2, 1⟩), (⟨1, 0⟩, ⟨1, 1⟩)] ∧
      rangeSuccs exampleFan (⟨3, 0⟩, ⟨3, 1⟩) = [1] ∧
      ¬ (∀ rs, IdempotentRegion.ranges exampleFan ⟨0, ⟨0, 0⟩⟩ = some rs →
        ∀ (i : Nat) (r : InstPos × InstPos), rs[i]? = some r →
          ∀ s ∈ rangeSuccs exampleFan r, s ∉ (rs.take (i + 1)).map (fun q => q.1.bb) →
          ∃ r1, rs[i + 1]? = some r1 ∧ r1.1.bb ∈ rangeSuccs exampleFan r ∧
            r1.1.bb ∉ (rs.take (i + 1)).map (fun q => q.1.bb)) := by
  have hr : IdempotentRegion.ranges exampleFan ⟨0, ⟨0, 0⟩⟩ =
      some [(⟨0, 0⟩, ⟨0, 2⟩), (⟨3, 0⟩, ⟨3, 1⟩), (⟨2, 0⟩, ⟨2, 1⟩), (⟨1, 0⟩, ⟨1, 1⟩)] := by
    decide
  have hs : rangeSuccs exampleFan (⟨3, 0⟩, ⟨3, 1⟩) = [1] := by decide
  refine ⟨hr, hs, ?_⟩
  intro h
  obtain ⟨r1, h1, h2, _⟩ := h _ hr 1 (⟨3, 0⟩, ⟨3, 1⟩) rfl 1 (by rw [hs]; simp) (by decide)
  simp only [List.getElem?_cons_succ, List.getElem?_cons_zero, Option.some.injEq] at h1
  subst h1
  rw [hs] at h2
  simp at h2

end Ratchet

namespace Ratchet

/-! ## C34: the scans of `getRegionsContaining` -/

/-- Without the log the instrumented loop is the loop of
`getRegionsContaining`. -/
theorem backLog_erase (MF : MachineFunction) (MIR : MachineIdempotentRegions) :
    ∀ (fuel : Nat) (Worklist : List (Nat × Nat)) (Visited : List Nat)
      (Regions : List IdempotentRegion) (Log : List (Nat × Nat)),
      (getRegionsContainingLog MF MIR fuel Worklist Visited Regions Log).map (fun r => r.1) =
        getRegionsContainingLoop MF MIR fuel Worklist Visited Regions := by
  intro fuel
  induction fuel with
  | zero => intro _ _ _ _; rfl
  | succ fuel ih =>
    intro Worklist Visited Regions Log
    cases Worklist with
    | nil => rfl
    | cons item Worklist =>
      obtain ⟨It, MBB⟩ := item
      unfold getRegionsContainingLog getRegionsContainingLoop
      cases hB : MF.blocks[MBB]? with
      | none => rfl
      | some B =>
        simp only
        cases hf : findRegionEntry B It with
        | none => rfl
        | some r =>
          cases r with
          | zero =>
            simp only
            cases pushPredsR MF B.preds Worklist Visited with
            | none => rfl
            | some r1 => exact ih _ _ _ _
          | succ base =>
            simp only
            cases MIR.getRegionAtEntry ⟨MBB, base⟩ with
            | none => rfl
            | some R => exact ih _ _ _ _

/-- The instrumented loop on blocks entered from their end logs the blocks of
the worklist search in order. -/
theorem backLog_eq_trace (MF : MachineFunction) (MIR : MachineIdempotentRegions)
    (hpv : ∀ (b : Nat) (B : MachineBasicBlock), MF.blocks[b]? = some B →
      ∀ s ∈ B.preds, s < MF.blocks.length) :
    ∀ (fuel : Nat) (Worklist Visited : List Nat) (Regions : List IdempotentRegion)
      (Log : List (Nat × Nat)),
      getRegionsContainingLog MF MIR fuel
          (Worklist.map (fun b => (MF.blockLen b, b))) Visited Regions Log =
        (dfsTrace (backStop MF MIR) (backNbrs MF) fuel Worklist Visited).map
          (fun tr => (Regions ++ tr.flatMap (backRegions MF MIR),
            Log ++ tr.map (fun b => (MF.blockLen b, b)))) := by
  intro fuel
  induction fuel with
  | zero => intro Worklist Visited Regions Log; rfl
  | succ fuel ih =>
    intro Worklist Visited Regions Log
    cases Worklist with
    | nil => simp [getRegionsContainingLog, dfsTrace]
    | cons b Worklist =>
      simp only [List.map_cons, getRegionsContainingLog, dfsTrace]
      cases hB : MF.blocks[b]? with
      | none => simp [backStop, hB]
      | some B =>
        simp only [mblockLen_eq MF b B hB]
        cases hf : findRegionEntry B B.insts.length with
        | none => simp [backStop, hB, hf]
        | some r =>
          cases r with
          | zero =>
            have hstop : backStop MF MIR b = some false := by simp [backStop, hB, hf]
            have hregs : backRegions MF MIR b = [] := by simp [backRegions, hB, hf]
            have hn : backNbrs MF b = B.preds := by simp [backNbrs, hB]
            rw [hstop]
            simp only [Bool.false_eq_true, if_false]
            rw [hn, pushPredsR_eq MF B.preds (hpv b B hB) Worklist Visited]
            simp only
            rw [ih _ _ Regions]
            cases dfsTrace (backStop MF MIR) (backNbrs MF) fuel
                (pushSuccs B.preds Worklist Visited).1 (pushSuccs B.preds Worklist Visited).2 with
            | none => rfl
            | some tr => simp [List.flatMap_cons, hregs, mblockLen_eq MF b B hB]
          | succ base =>
            simp only
            cases hg : MIR.getRegionAtEntry ⟨b, base⟩ with
            | none => simp [backStop, hB, hf, hg]
            | some R =>
              have hstop : backStop MF MIR b = some true := by simp [backStop, hB, hf, hg]
              have hregs : backRegions MF MIR b = [R] := by simp [backRegions, hB, hf, hg]
              rw [hstop]
              simp only [if_true]
              rw [ih Worklist Visited (Regions ++ [R])]
              cases dfsTrace (backStop MF MIR) (backNbrs MF) fuel Worklist Visited with
              | none => rfl
              | some tr => simp [List.flatMap_cons, hregs, mblockLen_eq MF b B hB]

/-- The region that the scan of a block adds has its entry in that block. -/
theorem backRegions_block (MF : MachineFunction) (MIR : MachineIdempotentRegions)
    (hKey : ∀ p R, MIR.getRegionAtEntry p = some R → R.Entry_ = p) (b : Nat) :
    (backRegions MF MIR b).length ≤ 1 ∧ ∀ R ∈ backRegions MF MIR b, R.Entry_.bb = b := by
  unfold backRegions
  cases hB : MF.blocks[b]? with
  | none => simp
  | some B =>
    simp only
    cases hf : findRegionEntry B B.insts.length with
    | none => simp
    | some r =>
      cases r with
      | zero => simp
      | succ base =>
        simp only
        cases hg : MIR.getRegionAtEntry ⟨b, base⟩ with
        | none => simp
        | some R =>
          refine ⟨by simp, ?_⟩
          intro R1 hR1
          simp only [List.mem_singleton] at hR1
          subst hR1
          rw [hKey _ _ hg]

theorem backRegions_nodup (MF : MachineFunction) (MIR : MachineIdempotentRegions)
    (hKey : ∀ p R, MIR.getRegionAtEntry p = some R → R.Entry_ = p) (tr : List Nat)
    (hnd : tr.Nodup) : (tr.flatMap (backRegions MF MIR)).Nodup := by
  rw [List.nodup_flatMap]
  refine ⟨?_, ?_⟩
  · intro b _
    have h := (backRegions_block MF MIR hKey b).1
    cases hl : backRegions MF MIR b with
    | nil => exact List.nodup_nil
    | cons R rest =>
      rw [hl] at h
      cases rest with
      | nil => exact List.nodup_singleton R
      | cons _ _ => simp at h
  · refine List.Pairwise.imp ?_ hnd
    intro x y hxy R h1 h2
    exact hxy (((backRegions_block MF MIR hKey x).2 R h1).symm.trans
      ((backRegions_block MF MIR hKey y).2 R h2))

/-- C34: in a function whose predecessor lists name blocks of the function, with
every boundary registered in the entry map under its own position,
`getRegionsContaining` returns for every instruction, whatever cycles the
graph has; its first work item is the instruction in its block, every other
work item is a block entered from its end, every block is scanned at most
once, except the block of the instruction, which is scanned at most twice,
and no region occurs twice in the result. -/
theorem regions_containing_scans (MF : MachineFunction) (MIR : MachineIdempotentRegions)
    (hpv : ∀ (b : Nat) (B : MachineBasicBlock), MF.blocks[b]? = some B →
      ∀ s ∈ B.preds, s < MF.blocks.length)
    (hMap : ∀ p MI, MF.inst? p = some MI → MI.isIdemBoundary = true →
      ∃ R1, MIR.getRegionAtEntry p = some R1)
    (hKey : ∀ p R, MIR.getRegionAtEntry p = some R → R.Entry_ = p)
    (X : InstPos) (MI : MachineInstr) (hMI : MF.inst? X = some MI) :
    ∃ Regions Log, MIR.getRegionsContainingScans MF X = some (Regions, Log) ∧
      MIR.getRegionsContaining MF X = some Regions ∧
      Log.Nodup ∧ Log.head? = some (X.idx, X.bb) ∧
      (∀ item ∈ Log.tail, item.1 = MF.blockLen item.2) ∧
      (∀ b, (Log.map (fun item => item.2)).count b ≤ if b = X.bb then 2 else 1) ∧
      Regions.Nodup := by
  have hMap1 : ∀ p, MF.boundaryAt p = true → ∃ R, MIR.getRegionAtEntry p = some R := by
    intro p hp
    unfold MachineFunction.boundaryAt at hp
    cases hI : MF.inst? p with
    | none => rw [hI] at hp; cases hp
    | some I =>
      rw [hI] at hp
      exact hMap p I hI hp
  have hB1 : ∃ B, MF.blocks[X.bb]? = some B := by
    rw [MachineFunction.inst?] at hMI
    cases hB : MF.blocks[X.bb]? with
    | none => rw [hB] at hMI; cases hMI
    | some B => exact ⟨B, rfl⟩
  obtain ⟨B, hB⟩ := hB1
  have hidx : X.idx < B.insts.length := by
    rw [MachineFunction.inst?, hB] at hMI
    simp only at hMI
    by_contra h
    rw [List.getElem?_eq_none (by omega)] at hMI
    cases hMI
  obtain ⟨r, hr, _, _, hr4⟩ := findRegionEntry_spec MF X.bb B hB X.idx (by omega)
  have herase := backLog_erase MF MIR (MF.blocks.length + 2) [(X.idx, X.bb)] [] [] []
  have key : ∃ tr : List Nat, tr.Nodup ∧
      MIR.getRegionsContainingScans MF X = some (tr.flatMap (backRegions MF MIR),
        (X.idx, X.bb) :: tr.map (fun b => (MF.blockLen b, b))) ∨
      ∃ R, MIR.getRegionsContainingScans MF X = some ([R], [(X.idx, X.bb)]) := by
    unfold MachineIdempotentRegions.getRegionsContainingScans
    rw [hMI]
    simp only [getRegionsContainingLog, hB, hr]
    cases r with
    | zero =>
      simp only
      have hp := pushPredsR_eq MF B.preds (hpv X.bb B hB) [] []
      simp only [List.map_nil] at hp
      rw [hp]
      simp only
      rw [backLog_eq_trace MF MIR hpv]
      obtain ⟨tr, htr⟩ := backTrace_terminates MF MIR hpv hMap1 B.preds (hpv X.bb B hB)
      have hp2 := pushSuccs_nodup B.preds [] [] List.nodup_nil (by simp)
      have hnd := (dfsTrace_nodup _ _ _ _ _ tr htr hp2.1 hp2.2).1
      rw [htr]
      exact ⟨tr, Or.inl ⟨hnd, by simp⟩⟩
    | succ base =>
      simp only
      obtain ⟨R, hR⟩ := hMap1 ⟨X.bb, base⟩ (by simpa using hr4 (by omega))
      rw [hR]
      exact ⟨[], Or.inr ⟨R, by simp [getRegionsContainingLog]⟩⟩
  have hplain : ∀ Regions Log, MIR.getRegionsContainingScans MF X = some (Regions, Log) →
      MIR.getRegionsContaining MF X = some Regions := by
    intro Regions Log h
    unfold MachineIdempotentRegions.getRegionsContainingScans at h
    unfold MachineIdempotentRegions.getRegionsContaining
    rw [hMI] at h ⊢
    simp only at h ⊢
    rw [← herase, h]
    rfl
  obtain ⟨tr, ⟨hnd, hlog⟩ | ⟨R, hlog⟩⟩ := key
  · refine ⟨_, _, hlog, hplain _ _ hlog, ?_, rfl, ?_, ?_, backRegions_nodup MF MIR hKey tr hnd⟩
    · refine List.nodup_cons.mpr ⟨?_, ?_⟩
      · intro hm
        obtain ⟨b, _, hb⟩ := List.mem_map.mp hm
        simp only [Prod.mk.injEq] at hb
        rw [hb.2, mblockLen_eq MF _ B hB] at hb
        omega
      · refine List.Nodup.map ?_ hnd
        intro x y hxy
        exact congrArg Prod.snd hxy
    · intro item hitem
      simp only [List.tail_cons] at hitem
      obtain ⟨b, _, hb⟩ := List.mem_map.mp hitem
      rw [← hb]
    · intro b
      have hmap : ((X.idx, X.bb) :: tr.map (fun b => (MF.blockLen b, b))).map
          (fun item => item.2) = X.bb :: tr := by
        simp [List.map_map, Function.comp_def]
      rw [hmap, List.count_cons]
      have hc := List.nodup_iff_count_le_one.mp hnd b
      by_cases e : b = X.bb
      · simp only [e, if_true, beq_self_eq_true]
        rw [e] at hc
        omega
      · have e1 : (X.bb == b) = false := by
          simp only [beq_eq_false_iff_ne, ne_eq]
          exact fun h => e h.symm
        simp only [e, if_false, e1, Bool.false_eq_true]
        omega
  · refine ⟨_, _, hlog, hplain _ _ hlog, List.nodup_singleton _, rfl, by simp, ?_,
      List.nodup_singleton _⟩
    intro b
    simp only [List.map_cons, List.map_nil, List.count_cons, List.count_nil]
    by_cases e : b = X.bb
    · simp [e]
    · have e1 : (X.bb == b) = false := by
        simp only [beq_eq_false_iff_ne, ne_eq]
        exact fun h => e h.symm
      simp [e, e1]

/-- Witness of C34 on `exampleLoopRegion`, where the walk from the second
instruction of block 1 comes back to block 1 through the loop and scans it a
second time. -/
theorem regions_containing_scans_witness :
    (∃ Regions Log, exampleLoopRegions.getRegionsContainingScans exampleLoopRegion ⟨1, 1⟩ =
        some (Regions, Log) ∧
      exampleLoopRegions.getRegionsContaining exampleLoopRegion ⟨1, 1⟩ = some Regions ∧
      Log.Nodup ∧ Log.head? = some ((⟨1, 1⟩ : InstPos).idx, (⟨1, 1⟩ : InstPos).bb) ∧
      (∀ item ∈ Log.tail, item.1 = exampleLoopRegion.blockLen item.2) ∧
      (∀ b, (Log.map (fun item => item.2)).count b ≤
        if b = (⟨1, 1⟩ : InstPos).bb then 2 else 1) ∧
      Regions.Nodup) ∧
      exampleLoopRegions.getRegionsContainingScans exampleLoopRegion ⟨1, 1⟩ =
        some ([⟨0, ⟨0, 0⟩⟩], [(1, 1), (2, 1), (2, 0)]) :=
  ⟨regions_containing_scans exampleLoopRegion exampleLoopRegions
    (mpreds_valid exampleLoopRegion (cfg_wellFormed_of_check _ (by decide)))
    exampleLoopRegions_map exampleLoopRegions_entries ⟨1, 1⟩ plainInstr rfl, by decide⟩

end Ratchet

namespace Ratchet

/-! ## C31: the dominator-tree walk of `computeAntidependencePaths` -/

/-- The walk up the dominator chain returns, and the blocks it scans are the
blocks of the chain before the first one that is on the chain of the load's
block. -/
theorem nonLocalPathLog_spec (F : Function) (LDT : DomTreeNode) (hL : LDT ≠ []) :
    ∀ (chain : DomTreeNode) (BB Cursor : Nat) (Path : AntidependencePathTy) (Log : List Nat),
      chain.head? = some BB → (∀ a ∈ chain, a < F.blocks.length) →
      Cursor ≤ F.blockLen BB →
      ∃ Path1 scanned rest,
        nonLocalPathLog F LDT chain BB Cursor Path Log = some (Path1, Log ++ scanned) ∧
        nonLocalPath F LDT chain BB Cursor Path = some Path1 ∧
        chain = scanned ++ rest ∧ (∀ a ∈ scanned, a ∉ LDT) ∧
        ∀ a, rest.head? = some a → a ∈ LDT := by
  intro chain
  induction chain with
  | nil => intro BB Cursor Path Log h; simp at h
  | cons d rest ih =>
    intro BB Cursor Path Log hhead hvalid hCursor
    simp only [List.head?_cons, Option.some.injEq] at hhead
    subst hhead
    unfold nonLocalPathLog nonLocalPath
    by_cases hdom : DominatorTree.dominatesNode (d :: rest) LDT = true
    · refine ⟨Path, [], d :: rest, by simp [hdom], by simp [hdom], rfl, by simp, ?_⟩
      intro a ha
      simp only [List.head?_cons, Option.some.injEq] at ha
      subst ha
      exact dominatesNode_true d rest LDT hL hdom
    · simp only [hdom, if_false, Bool.false_eq_true]
      have hdL : d ∉ LDT := dominatesNode_false d rest LDT hL (by simpa using hdom)
      obtain ⟨B, hB⟩ := block_of_lt F d (hvalid d (List.mem_cons_self _ _))
      rw [hB]
      simp only
      rw [blockLen_eq F d B hB] at hCursor
      obtain ⟨new1, h1, _, _⟩ := scanStoresToBegin_spec F B d hB Cursor Path hCursor
      rw [h1]
      simp only
      cases rest with
      | nil =>
        refine ⟨_, [d], [], rfl, rfl, rfl, ?_, by simp⟩
        intro a ha
        simp only [List.mem_singleton] at ha
        subst ha
        exact hdL
      | cons d1 rest1 =>
        simp only
        obtain ⟨B1, hB1⟩ := block_of_lt F d1
          (hvalid d1 (List.mem_cons_of_mem _ (List.mem_cons_self _ _)))
        rw [hB1]
        simp only
        obtain ⟨Path1, scanned, rest2, h2, h3, h4, h5, h6⟩ := ih d1 B1.insts.length
          (Path ++ new1) (Log ++ [d]) rfl (fun a ha => hvalid a (List.mem_cons_of_mem _ ha))
          (by rw [blockLen_eq F d1 B1 hB1])
        refine ⟨Path1, d :: scanned, rest2, ?_, h3, ?_, ?_, h6⟩
        · rw [h2, List.append_assoc]
          rfl
        · rw [List.cons_append, ← h4]
        · intro a ha
          rcases List.mem_cons.mp ha with e | e
          · subst e
            exact hdL
          · exact h5 a e

/-- C31: for a well-formed dominator tree and a pair of instructions of the
function, `computeAntidependencePaths` builds the path of the pair, and its
walk up the dominator tree from the block of the store returns: the blocks it
scans are the blocks at the start of the chain of the store's block, each of
them once, none of them dominates the block of the load, and the walk stops
at the first block of the chain that dominates the block of the load, or at
the root when there is none. -/
theorem dominator_walk_terminates (F : Function) (DT : DominatorTree) (hDT : DT.WellFormed F)
    (L S : InstPos) (hP : PairOk F (L, S)) :
    (∃ P, computeAntidependencePath F DT (L, S) = some P) ∧
      ∃ Path scanned rest,
        nonLocalPathLog F (DT.getNode L.bb) (DT.getNode S.bb) S.bb S.idx [S] [] =
          some (Path, scanned) ∧
        nonLocalPath F (DT.getNode L.bb) (DT.getNode S.bb) S.bb S.idx [S] = some Path ∧
        (¬ (S.bb = L.bb ∧ DT.dominates L S = true) →
          computeAntidependencePath F DT (L, S) = some Path) ∧
        DT.getNode S.bb = scanned ++ rest ∧ scanned.Nodup ∧
        (∀ b, scanned.count b ≤ 1) ∧
        (∀ a ∈ scanned, a ∉ DT.getNode L.bb) ∧
        ∀ a, rest.head? = some a → a ∈ DT.getNode L.bb := by
  obtain ⟨hLok, hSok⟩ := hP
  simp only at hLok hSok
  obtain ⟨BS, hBS, hSidx⟩ := valid_of_pos F S hSok
  obtain ⟨BL, hBL, hLidx⟩ := valid_of_pos F L hLok
  have hSlt := lt_of_block F S.bb BS hBS
  have hLlt := lt_of_block F L.bb BL hBL
  obtain ⟨hSh, hSnd, hSv⟩ := hDT S.bb hSlt
  obtain ⟨hLh, _, _⟩ := hDT L.bb hLlt
  have hLne : DT.getNode L.bb ≠ [] := by
    intro e
    rw [e] at hLh
    simp at hLh
  refine ⟨?_, ?_⟩
  · obtain ⟨P, hP, _⟩ := computeAntidependencePath_spec F DT hDT (L, S) ⟨hLok, hSok⟩
    exact ⟨P, hP⟩
  · obtain ⟨Path, scanned, rest, h1, h2, h3, h4, h5⟩ :=
      nonLocalPathLog_spec F (DT.getNode L.bb) hLne (DT.getNode S.bb) S.bb S.idx [S] [] hSh hSv
        (by omega)
    have hnd : scanned.Nodup := by
      rw [h3] at hSnd
      exact (List.nodup_append.mp hSnd).1
    refine ⟨Path, scanned, rest, by simpa using h1, h2, ?_, h3, hnd,
      fun b => List.nodup_iff_count_le_one.mp hnd b, h4, h5⟩
    intro hloc
    unfold computeAntidependencePath
    simp only
    rw [if_neg hloc]
    exact h2

/-- Witness of C31 on `exampleTie`: the walk for the load of block 1 and the
store of block 3 scans the blocks 3 and 2 and stops at block 0. -/
theorem dominator_walk_terminates_witness :
    ((∃ P, computeAntidependencePath exampleTie exampleTieTree (⟨1, 0⟩, ⟨3, 0⟩) = some P) ∧
      ∃ Path scanned rest,
        nonLocalPathLog exampleTie (exampleTieTree.getNode (⟨1, 0⟩ : InstPos).bb)
            (exampleTieTree.getNode (⟨3, 0⟩ : InstPos).bb) (⟨3, 0⟩ : InstPos).bb
            (⟨3, 0⟩ : InstPos).idx [⟨3, 0⟩] [] = some (Path, scanned) ∧
        nonLocalPath exampleTie (exampleTieTree.getNode (⟨1, 0⟩ : InstPos).bb)
            (exampleTieTree.getNode (⟨3, 0⟩ : InstPos).bb) (⟨3, 0⟩ : InstPos).bb
            (⟨3, 0⟩ : InstPos).idx [⟨3, 0⟩] = some Path ∧
        (¬ ((⟨3, 0⟩ : InstPos).bb = (⟨1, 0⟩ : InstPos).bb ∧
            exampleTieTree.dominates ⟨1, 0⟩ ⟨3, 0⟩ = true) →
          computeAntidependencePath exampleTie exampleTieTree (⟨1, 0⟩, ⟨3, 0⟩) = some Path) ∧
        exampleTieTree.getNode (⟨3, 0⟩ : InstPos).bb = scanned ++ rest ∧ scanned.Nodup ∧
        (∀ b, scanned.count b ≤ 1) ∧
        (∀ a ∈ scanned, a ∉ exampleTieTree.getNode (⟨1, 0⟩ : InstPos).bb) ∧
        ∀ a, rest.head? = some a → a ∈ exampleTieTree.getNode (⟨1, 0⟩ : InstPos).bb) ∧
      nonLocalPathLog exampleTie [1, 0] [3, 2, 0] 3 0 [⟨3, 0⟩] [] =
        some ([⟨3, 0⟩, ⟨2, 1⟩, ⟨2, 0⟩], [3, 2]) :=
  ⟨dominator_walk_terminates exampleTie exampleTieTree exampleTieTree_wf ⟨1, 0⟩ ⟨3, 0⟩
    ⟨by decide, by decide⟩, by decide⟩

end Ratchet

namespace Ratchet

/-! ## C37: removeDuplicates -/

theorem sorted_index {α : Type} (r : α → Nat) (l : List α)
    (h : l.Pairwise (fun a b => r a < r b)) (A B : Nat) (a b : α)
    (ha : l[A]? = some a) (hb : l[B]? = some b) : A < B ↔ r a < r b := by
  have hA : A < l.length := by
    by_contra hn
    rw [List.getElem?_eq_none (by omega)] at ha
    cases ha
  have hB : B < l.length := by
    by_contra hn
    rw [List.getElem?_eq_none (by omega)] at hb
    cases hb
  rw [List.getElem?_eq_getElem hA] at ha
  rw [List.getElem?_eq_getElem hB] at hb
  have ha1 := Option.some.inj ha
  have hb1 := Option.some.inj hb
  have hp := List.pairwise_iff_getElem.mp h
  constructor
  · intro hlt
    have := hp A B hA hB hlt
    rw [ha1, hb1] at this
    exact this
  · intro hlt
    by_contra hn
    rcases Nat.lt_or_ge B A with h1 | h1
    · have := hp B A hB hA h1
      rw [ha1, hb1] at this
      omega
    · have e : A = B := by omega
      subst e
      rw [ha1] at hb1
      subst hb1
      omega

/-- The invariant holds of the block before the pass. -/
theorem dupInv_init (orig : List MachineInstr) : DupInv orig orig.enum := by
  have hget : ∀ x ∈ orig.enum, orig[x.1]? = some x.2 := by
    intro x hx
    obtain ⟨i, MI⟩ := x
    obtain ⟨h1, h2⟩ := List.mem_enum hx
    simp only
    rw [List.getElem?_eq_getElem h1, h2]
  have hmem : ∀ i MI, orig[i]? = some MI → (i, MI) ∈ orig.enum := by
    intro i MI h
    have : orig.enum[i]? = some (i, MI) := by rw [List.getElem?_enum, h]; rfl
    exact List.getElem?_mem this
  refine ⟨?_, hget, ?_, ?_, fun i MI h _ => hmem i MI h, fun i MI h hn => absurd (hmem i MI h) hn⟩
  · rw [List.pairwise_iff_getElem]
    intro i j hi hj hij
    have h1 : orig.enum[i]? = some orig.enum[i] := List.getElem?_eq_getElem hi
    have h2 : orig.enum[j]? = some orig.enum[j] := List.getElem?_eq_getElem hj
    rw [List.getElem?_enum] at h1 h2
    rw [List.enum_length] at hi hj
    rw [List.getElem?_eq_getElem hi] at h1
    rw [List.getElem?_eq_getElem hj] at h2
    simp only [Option.map_some', Option.some.injEq] at h1 h2
    rw [← h1, ← h2]
    exact hij
  · have : orig.enum.map (fun x => x.2) = orig := List.enum_map_snd orig
    rw [this]
  · have h1 : orig.enum.map (fun x => x.2) = orig := List.enum_map_snd orig
    have h2 := List.filter_map (f := fun x : TaggedInstr => x.2)
      (p := fun MI : MachineInstr => !MI.isIdemBoundary) (l := orig.enum)
    rw [h1] at h2
    rw [h2]
    rfl

/-- The invariant is kept when a boundary is erased before which stands a
boundary with no load-capable instruction between the two. -/
theorem dupInv_erase (orig : List MachineInstr) (cur : List TaggedInstr)
    (hIdem : ∀ MI ∈ orig, MI.isIdemBoundary = true → MI.mayLoad = false)
    (h : DupInv orig cur) (I K : Nat) (x y : TaggedInstr)
    (hx : cur[I]? = some x) (hy : cur[K]? = some y) (hKI : K < I)
    (hxb : x.2.isIdemBoundary = true) (hyb : y.2.isIdemBoundary = true)
    (hbetween : ∀ J z, K < J → J < I → cur[J]? = some z → z.2.mayLoad = false) :
    DupInv orig (cur.eraseIdx I) := by
  have hsub := List.eraseIdx_sublist cur I
  have hyx : y.1 < x.1 := (sorted_index (fun a => a.1) cur h.sorted K I y x hy hx).mp hKI
  have hymem : y ∈ cur.eraseIdx I :=
    List.mem_eraseIdx_iff_getElem?.mpr ⟨K, by omega, hy⟩
  have hbtw : ∀ j MJ, y.1 < j → j < x.1 → orig[j]? = some MJ → MJ.mayLoad = false := by
    intro j MJ h1 h2 hj
    by_cases hm : (j, MJ) ∈ cur
    · obtain ⟨J, hJ, e⟩ := List.getElem_of_mem hm
      have hJ1 : cur[J]? = some (j, MJ) := by rw [List.getElem?_eq_getElem hJ, e]
      have a1 := (sorted_index (fun a => a.1) cur h.sorted K J y (j, MJ) hy hJ1).mpr h1
      have a2 := (sorted_index (fun a => a.1) cur h.sorted J I (j, MJ) x hJ1 hx).mpr h2
      exact hbetween J (j, MJ) a1 a2 hJ1
    · have hb : MJ.isIdemBoundary = true := by
        cases hc : MJ.isIdemBoundary
        · exact absurd (h.keep j MJ hj hc) hm
        · rfl
      exact hIdem MJ (List.getElem?_mem hj) hb
  have hxorig : orig[x.1]? = some x.2 := h.sub x (List.getElem?_mem hx)
  have hxload : x.2.mayLoad = false := hIdem x.2 (List.getElem?_mem hxorig) hxb
  refine ⟨List.Pairwise.sublist hsub h.sorted, fun z hz => h.sub z (hsub.subset hz),
    List.Sublist.trans (List.Sublist.map _ hsub) h.sublist, ?_, ?_, ?_⟩
  · rw [← h.nonb, filter_eraseIdx_of_not _ cur I x hx (by simp [hxb])]
  · intro i MI hi hb
    have hm := h.keep i MI hi hb
    obtain ⟨J, hJ, e⟩ := List.getElem_of_mem hm
    have hJ1 : cur[J]? = some (i, MI) := by rw [List.getElem?_eq_getElem hJ, e]
    refine List.mem_eraseIdx_iff_getElem?.mpr ⟨J, ?_, hJ1⟩
    intro e1
    subst e1
    rw [hx] at hJ1
    have := Option.some.inj hJ1
    subst this
    simp [hb] at hxb
  · intro i MI hi hn
    by_cases hm : (i, MI) ∈ cur
    · obtain ⟨J, hJ, e⟩ := List.getElem_of_mem hm
      have hJ1 : cur[J]? = some (i, MI) := by rw [List.getElem?_eq_getElem hJ, e]
      have hJI : J = I := by
        by_contra hne
        exact hn (List.mem_eraseIdx_iff_getElem?.mpr ⟨J, hne, hJ1⟩)
      subst hJI
      rw [hx] at hJ1
      have e1 := Option.some.inj hJ1
      subst e1
      exact ⟨y.1, y.2, hymem, hyx, hyb, hbtw⟩
    · obtain ⟨k, MK, h1, h2, h3, h4⟩ := h.removed i MI hi hm
      obtain ⟨J, hJ, e⟩ := List.getElem_of_mem h1
      have hJ1 : cur[J]? = some (k, MK) := by rw [List.getElem?_eq_getElem hJ, e]
      by_cases hJI : J = I
      · subst hJI
        rw [hx] at hJ1
        have e1 := Option.some.inj hJ1
        subst e1
        have hyk : y.1 < k := hyx
        have hko : orig[k]? = some MK := hxorig
        have hkl : MK.mayLoad = false := hxload
        refine ⟨y.1, y.2, hymem, by omega, hyb, ?_⟩
        intro j MJ a1 a2 hj
        rcases Nat.lt_trichotomy j k with c | c | c
        · exact hbtw j MJ a1 c hj
        · subst c
          rw [hko] at hj
          have := Option.some.inj hj
          subst this
          exact hkl
        · exact h4 j MJ c a2 hj
      · exact ⟨k, MK, List.mem_eraseIdx_iff_getElem?.mpr ⟨J, hJI, hJ1⟩, h2, h3, h4⟩

theorem erase_measure (n I fuel : Nat) (hn : 2 ≤ n)
    (h : (n + 1) * (n + 1) + (n - I) < fuel + 1) :
    (n - 1 + 1) * (n - 1 + 1) + (n - 1 - 1) < fuel := by
  obtain ⟨s, rfl⟩ : ∃ s, n = s + 2 := ⟨n - 2, by omega⟩
  have e1 : s + 2 - 1 + 1 = s + 2 := by omega
  have e2 : s + 2 - 1 - 1 = s := by omega
  rw [e1, e2]
  have h1 : (s + 2 + 1) * (s + 2 + 1) = (s + 2) * (s + 2) + 2 * s + 5 := by ring
  omega

theorem length_of_getElem? {α : Type} (l : List α) (i : Nat) (a : α) (h : l[i]? = some a) :
    i < l.length := by
  by_contra hn
  rw [List.getElem?_eq_none (by omega)] at h
  cases h

/-- The first loop of `removeDuplicates` returns, keeps the invariant and
leaves no two boundaries one behind the other. -/
theorem removeObviousLoop_spec (orig : List MachineInstr)
    (hIdem : ∀ MI ∈ orig, MI.isIdemBoundary = true → MI.mayLoad = false) :
    ∀ (fuel : Nat) (cur : List TaggedInstr) (PrevI I : Nat), DupInv orig cur →
      PrevI = I - 1 → I ≤ cur.length →
      (∀ j a b, j + 1 < I → cur[j]? = some a → cur[j + 1]? = some b →
        ¬ (a.2.isIdemBoundary = true ∧ b.2.isIdemBoundary = true)) →
      (cur.length + 1) * (cur.length + 1) + (cur.length - I) < fuel →
      ∃ l, removeObviousLoop fuel cur PrevI I = some l ∧ DupInv orig l ∧
        ∀ j a b, l[j]? = some a → l[j + 1]? = some b →
          ¬ (a.2.isIdemBoundary = true ∧ b.2.isIdemBoundary = true) := by
  intro fuel
  induction fuel with
  | zero => intro _ _ _ _ _ _ _ hf; omega
  | succ fuel ih =>
    intro cur PrevI I hinv hprev hI hno hf
    rw [removeObviousLoop]
    cases hget : cur[I]? with
    | none =>
      have hlen : I = cur.length := by
        have := List.getElem?_eq_none_iff.mp hget
        omega
      refine ⟨cur, rfl, hinv, ?_⟩
      intro j a b ha hb
      exact hno j a b (by have := length_of_getElem? cur (j + 1) b hb; omega) ha hb
    | some MI =>
      simp only
      have hIlt := length_of_getElem? cur I MI hget
      have hP : PrevI < cur.length := by omega
      rw [List.getElem?_eq_getElem hP]
      simp only
      by_cases hc : PrevI ≠ I ∧ (cur[PrevI]).2.isIdemBoundary = true ∧
          MI.2.isIdemBoundary = true
      · rw [if_pos hc]
        have hKI : PrevI < I := by omega
        have hinv1 := dupInv_erase orig cur hIdem hinv I PrevI MI cur[PrevI] hget
          (List.getElem?_eq_getElem hP) hKI hc.2.2 hc.2.1 (fun J z a1 a2 => by omega)
        have hlen : (cur.eraseIdx I).length = cur.length - 1 := by
          rw [List.length_eraseIdx]
          simp [hIlt]
        cases he : cur.eraseIdx I with
        | nil =>
          rw [he] at hlen
          simp only [List.length_nil] at hlen
          omega
        | cons MI1 rest =>
          simp only
          rw [he] at hinv1 hlen
          refine ih (MI1 :: rest) 0 1 hinv1 rfl (by simp) (fun j a b hj => by omega) ?_
          rw [hlen]
          exact erase_measure cur.length I fuel (by omega) hf
      · rw [if_neg hc]
        refine ih cur I (I + 1) hinv (by omega) hIlt ?_ (by omega)
        intro j a b hj ha hb
        by_cases hjI : j + 1 < I
        · exact hno j a b hjI ha hb
        · have e : j + 1 = I := by omega
          have e2 : j = PrevI := by omega
          subst e2
          rw [e, hget] at hb
          rw [List.getElem?_eq_getElem hP] at ha
          have e3 := Option.some.inj ha
          have e4 := Option.some.inj hb
          subst e3 e4
          intro hboth
          exact hc ⟨by omega, hboth.1, hboth.2⟩

/-- The scan of `searchForPriorBoundaries` returns; when it finds a boundary,
no instruction between that boundary and the start of the scan is
load-capable. -/
theorem searchScan_spec (dominates : Nat → Nat → Bool) (cur : List TaggedInstr)
    (x : TaggedInstr) :
    ∀ s, s < cur.length →
      ∃ r, searchScan dominates cur x s = some r ∧
        (r = true → ∃ K y, K ≤ s ∧ cur[K]? = some y ∧ y.2.isIdemBoundary = true ∧
          dominates y.1 x.1 = true ∧
          ∀ J z, K < J → J ≤ s → cur[J]? = some z → z.2.mayLoad = false) := by
  intro s
  induction s with
  | zero =>
    intro hs
    rw [searchScan, List.getElem?_eq_getElem hs]
    refine ⟨_, rfl, ?_⟩
    intro hr
    simp only [Bool.and_eq_true] at hr
    exact ⟨0, cur[0], Nat.le_refl _, List.getElem?_eq_getElem hs, hr.1, hr.2,
      fun J z a1 a2 => by omega⟩
  | succ s ih =>
    intro hs
    rw [searchScan, List.getElem?_eq_getElem hs]
    simp only
    by_cases h1 : ((cur[s + 1]).2.isIdemBoundary && dominates (cur[s + 1]).1 x.1) = true
    · rw [if_pos h1]
      refine ⟨true, rfl, fun _ => ?_⟩
      simp only [Bool.and_eq_true] at h1
      exact ⟨s + 1, cur[s + 1], Nat.le_refl _, List.getElem?_eq_getElem hs, h1.1, h1.2,
        fun J z a1 a2 => by omega⟩
    · rw [if_neg h1]
      by_cases h2 : (cur[s + 1]).2.mayLoad = true
      · rw [if_pos h2]
        exact ⟨false, rfl, fun h => Bool.noConfusion h⟩
      · rw [if_neg h2]
        obtain ⟨r, hr, hspec⟩ := ih (by omega)
        refine ⟨r, hr, fun hrt => ?_⟩
        obtain ⟨K, y, a1, a2, a3, a4, a5⟩ := hspec hrt
        refine ⟨K, y, by omega, a2, a3, a4, ?_⟩
        intro J z b1 b2 hz
        by_cases hJ : J = s + 1
        · subst hJ
          rw [List.getElem?_eq_getElem hs] at hz
          have := Option.some.inj hz
          subst this
          simpa using h2
        · exact a5 J z b1 (by omega) hz

/-- The second loop of `removeDuplicates` returns, keeps the invariant and
leaves no two boundaries one behind the other. -/
theorem removeDominatedLoop_spec (dominates : Nat → Nat → Bool) (orig : List MachineInstr)
    (hIdem : ∀ MI ∈ orig, MI.isIdemBoundary = true → MI.mayLoad = false) :
    ∀ (fuel : Nat) (cur : List TaggedInstr) (I : Nat), DupInv orig cur →
      I ≤ cur.length →
      (∀ j a b, cur[j]? = some a → cur[j + 1]? = some b →
        ¬ (a.2.isIdemBoundary = true ∧ b.2.isIdemBoundary = true)) →
      (cur.length + 1) * (cur.length + 1) + (cur.length - I) < fuel →
      ∃ l, removeDominatedLoop dominates fuel cur I = some l ∧ DupInv orig l ∧
        ∀ j a b, l[j]? = some a → l[j + 1]? = some b →
          ¬ (a.2.isIdemBoundary = true ∧ b.2.isIdemBoundary = true) := by
  intro fuel
  induction fuel with
  | zero => intro _ _ _ _ _ hf; omega
  | succ fuel ih =>
    intro cur I hinv hI hno hf
    rw [removeDominatedLoop]
    cases hget : cur[I]? with
    | none => exact ⟨cur, rfl, hinv, hno⟩
    | some MI =>
      simp only
      have hIlt := length_of_getElem? cur I MI hget
      by_cases hb : MI.2.isIdemBoundary = true
      · rw [if_pos hb]
        unfold searchForPriorBoundaries
        rw [hget]
        simp only
        by_cases hI0 : I = 0
        · rw [if_pos hI0]
          exact ih cur (I + 1) hinv hIlt hno (by omega)
        · rw [if_neg hI0]
          obtain ⟨r, hr, hspec⟩ := searchScan_spec dominates cur MI (I - 1) (by omega)
          rw [hr]
          cases r with
          | false => exact ih cur (I + 1) hinv hIlt hno (by omega)
          | true =>
            simp only
            obtain ⟨K, y, a1, a2, a3, _, a5⟩ := hspec rfl
            have hinv1 := dupInv_erase orig cur hIdem hinv I K MI y hget a2 (by omega) hb a3
              (fun J z b1 b2 hz => a5 J z b1 (by omega) hz)
            have hlen : (cur.eraseIdx I).length = cur.length - 1 := by
              rw [List.length_eraseIdx]
              simp [hIlt]
            have hno1 : ∀ j a b, (cur.eraseIdx I)[j]? = some a →
                (cur.eraseIdx I)[j + 1]? = some b →
                ¬ (a.2.isIdemBoundary = true ∧ b.2.isIdemBoundary = true) := by
              intro j a b ha hb1
              rw [List.getElem?_eraseIdx] at ha hb1
              by_cases c1 : j + 1 < I
              · rw [if_pos (by omega)] at ha
                rw [if_pos c1] at hb1
                exact hno j a b ha hb1
              · rw [if_neg c1] at hb1
                by_cases c2 : j < I
                · rw [if_pos c2] at ha
                  have e : j + 1 = I := by omega
                  intro hboth
                  exact hno j a MI ha (by rw [e]; exact hget) ⟨hboth.1, hb⟩
                · rw [if_neg c2] at ha
                  exact hno (j + 1) a b ha hb1
            cases he : cur.eraseIdx I with
            | nil =>
              rw [he] at hlen
              simp only [List.length_nil] at hlen
              omega
            | cons MI1 rest =>
              simp only
              rw [he] at hinv1 hlen hno1
              refine ih (MI1 :: rest) 1 hinv1 (by simp) hno1 ?_
              rw [hlen]
              exact erase_measure cur.length I fuel (by omega) hf
      · rw [if_neg hb]
        exact ih cur (I + 1) hinv hIlt hno (by omega)

theorem mapM_total {α β : Type} (f : α → Option β) (P : Nat → α → β → Prop) :
    ∀ (l : List α) (n : Nat), (∀ i x, l[i]? = some x → ∃ y, f x = some y ∧ P (n + i) x y) →
      ∃ l1, l.mapM f = some l1 ∧ l1.length = l.length ∧
        ∀ i x y, l[i]? = some x → l1[i]? = some y → P (n + i) x y := by
  intro l
  induction l with
  | nil =>
    intro n _
    refine ⟨[], by rw [List.mapM_nil]; rfl, rfl, ?_⟩
    intro i x y h
    simp at h
  | cons a l ih =>
    intro n h
    obtain ⟨y, hy, hP⟩ := h 0 a (List.getElem?_cons_zero)
    obtain ⟨l1, h1, h2, h3⟩ := ih (n + 1) (fun i x hx => by
      obtain ⟨y1, e1, e2⟩ := h (i + 1) x (by simpa using hx)
      exact ⟨y1, e1, by rw [Nat.add_assoc, Nat.add_comm 1 i]; exact e2⟩)
    refine ⟨y :: l1, by rw [List.mapM_cons, hy, h1]; rfl, by simp [h2], ?_⟩
    intro i x y1 hx hy1
    cases i with
    | zero =>
      simp only [List.getElem?_cons_zero, Option.some.injEq] at hx hy1
      subst hx hy1
      exact hP
    | succ i =>
      simp only [List.getElem?_cons_succ] at hx hy1
      have := h3 i x y1 hx hy1
      rw [Nat.add_assoc, Nat.add_comm 1 i] at this
      exact this

/-- The two loops of `removeDuplicates` on one block. -/
theorem removeObvious_spec (orig : List MachineInstr)
    (hIdem : ∀ MI ∈ orig, MI.isIdemBoundary = true → MI.mayLoad = false) :
    ∃ l, removeObvious orig.enum = some l ∧ DupInv orig l ∧
      ∀ j a b, l[j]? = some a → l[j + 1]? = some b →
        ¬ (a.2.isIdemBoundary = true ∧ b.2.isIdemBoundary = true) := by
  unfold removeObvious
  refine removeObviousLoop_spec orig hIdem _ orig.enum 0 0 (dupInv_init orig) rfl
    (Nat.zero_le _) (fun j a b hj => by omega) ?_
  have h1 : (orig.enum.length + 2) * (orig.enum.length + 2) =
      (orig.enum.length + 1) * (orig.enum.length + 1) + 2 * orig.enum.length + 3 := by ring
  omega

theorem removeDominated_spec (dominates : Nat → Nat → Bool) (orig : List MachineInstr)
    (hIdem : ∀ MI ∈ orig, MI.isIdemBoundary = true → MI.mayLoad = false)
    (cur : List TaggedInstr) (hinv : DupInv orig cur)
    (hno : ∀ j a b, cur[j]? = some a → cur[j + 1]? = some b →
      ¬ (a.2.isIdemBoundary = true ∧ b.2.isIdemBoundary = true)) :
    ∃ l, removeDominated dominates cur = some l ∧ DupInv orig l ∧
      ∀ j a b, l[j]? = some a → l[j + 1]? = some b →
        ¬ (a.2.isIdemBoundary = true ∧ b.2.isIdemBoundary = true) := by
  unfold removeDominated
  refine removeDominatedLoop_spec dominates orig hIdem _ cur 0 hinv (Nat.zero_le _) hno ?_
  have h1 : (cur.length + 2) * (cur.length + 2) =
      (cur.length + 1) * (cur.length + 1) + 2 * cur.length + 3 := by ring
  omega

/-- What the invariant says of the instructions that are left. -/
theorem dupInv_result (orig : List MachineInstr) (l : List TaggedInstr) (h : DupInv orig l)
    (hno : ∀ j a b, l[j]? = some a → l[j + 1]? = some b →
      ¬ (a.2.isIdemBoundary = true ∧ b.2.isIdemBoundary = true)) :
    NoAdjacentBoundaries (l.map (fun x => x.2)) ∧
      (l.map (fun x => x.2)).Sublist orig ∧
      (l.map (fun x => x.2)).filter (fun MI => !MI.isIdemBoundary) =
        orig.filter (fun MI => !MI.isIdemBoundary) ∧
      (l.map (fun x => x.1)).Pairwise (fun a b => a < b) ∧
      (l.map (fun x => x.1)).map (fun i => orig[i]?) = (l.map (fun x => x.2)).map some ∧
      ∀ i MI, orig[i]? = some MI → i ∉ l.map (fun x => x.1) →
        MI.isIdemBoundary = true ∧
        ∃ k MK, k ∈ l.map (fun x => x.1) ∧ k < i ∧ orig[k]? = some MK ∧
          MK.isIdemBoundary = true ∧
          ∀ j MJ, k < j → j < i → orig[j]? = some MJ → MJ.mayLoad = false := by
  refine ⟨?_, h.sublist, ?_, ?_, ?_, ?_⟩
  · intro j MI MJ h1 h2
    rw [List.getElem?_map] at h1 h2
    cases ha : l[j]? with
    | none => rw [ha] at h1; cases h1
    | some a =>
      cases hb : l[j + 1]? with
      | none => rw [hb] at h2; cases h2
      | some b =>
        rw [ha] at h1
        rw [hb] at h2
        simp only [Option.map_some', Option.some.injEq] at h1 h2
        subst h1 h2
        exact hno j a b ha hb
  · rw [List.filter_map, ← h.nonb]
    rfl
  · rw [List.pairwise_map]
    exact h.sorted
  · rw [List.map_map, List.map_map]
    apply List.map_congr_left
    intro x hx
    exact h.sub x hx
  · intro i MI hi hn
    have hnot : (i, MI) ∉ l := fun hm => hn (List.mem_map.mpr ⟨(i, MI), hm, rfl⟩)
    refine ⟨?_, ?_⟩
    · cases hc : MI.isIdemBoundary
      · exact absurd (h.keep i MI hi hc) hnot
      · rfl
    · obtain ⟨k, MK, h1, h2, h3, h4⟩ := h.removed i MI hi hnot
      exact ⟨k, MK, List.mem_map.mpr ⟨(k, MK), h1, rfl⟩, h2, h.sub _ h1, h3, h4⟩

/-- C37: when no boundary is load-capable, `removeDuplicates` returns, and in
every block of the result no two boundaries stand one behind the other, the
instructions that are left are instructions of the block in their original
order, among them every instruction that is no boundary, and every
instruction that was removed is a boundary before which, in its own block,
stands a boundary that is left, with no load-capable instruction strictly
between the two. The instructions that are left are named by their original
indices `kept`. -/
theorem duplicates_removed (DT_dominates : InstPos → InstPos → Bool) (MF : MachineFunction)
    (hIdem : ∀ B ∈ MF.blocks, ∀ MI ∈ B.insts, MI.isIdemBoundary = true → MI.mayLoad = false) :
    ∃ MF1 : MachineFunction, removeDuplicates DT_dominates MF = some MF1 ∧
      MF1.blocks.length = MF.blocks.length ∧
      ∀ (b : Nat) (B : MachineBasicBlock), MF.blocks[b]? = some B →
        ∃ (B1 : MachineBasicBlock) (kept : List Nat), MF1.blocks[b]? = some B1 ∧ B1.preds = B.preds ∧ B1.succs = B.succs ∧
          NoAdjacentBoundaries B1.insts ∧
          B1.insts.Sublist B.insts ∧
          B1.insts.filter (fun MI => !MI.isIdemBoundary) =
            B.insts.filter (fun MI => !MI.isIdemBoundary) ∧
          kept.Pairwise (fun a b => a < b) ∧
          kept.map (fun i => B.insts[i]?) = B1.insts.map some ∧
          ∀ (i : Nat) (MI : MachineInstr), B.insts[i]? = some MI → i ∉ kept →
            MI.isIdemBoundary = true ∧
            ∃ (k : Nat) (MK : MachineInstr), k ∈ kept ∧ k < i ∧ B.insts[k]? = some MK ∧
              MK.isIdemBoundary = true ∧
              ∀ (j : Nat) (MJ : MachineInstr), k < j → j < i → B.insts[j]? = some MJ → MJ.mayLoad = false := by
  obtain ⟨Obvious, h1, hlen1, hP1⟩ := mapM_total removeObvious
    (fun i _ y => ∀ B, MF.blocks[i]? = some B → DupInv B.insts y ∧
      ∀ j a b, y[j]? = some a → y[j + 1]? = some b →
        ¬ (a.2.isIdemBoundary = true ∧ b.2.isIdemBoundary = true))
    (MF.blocks.map (fun B => B.insts.enum)) 0
    (by
      intro i x hx
      rw [List.getElem?_map] at hx
      cases hB : MF.blocks[i]? with
      | none => rw [hB] at hx; cases hx
      | some B =>
        rw [hB] at hx
        simp only [Option.map_some', Option.some.injEq] at hx
        subst hx
        obtain ⟨l, e1, e2, e3⟩ := removeObvious_spec B.insts (hIdem B (List.getElem?_mem hB))
        refine ⟨l, e1, ?_⟩
        intro B1 hB1
        rw [Nat.zero_add, hB] at hB1
        have := Option.some.inj hB1
        subst this
        exact ⟨e2, e3⟩)
  rw [List.length_map] at hlen1
  obtain ⟨Kept, h2, hlen2, hP2⟩ := mapM_total
    (fun B : Nat × List TaggedInstr =>
      removeDominated (fun MI I => DT_dominates ⟨B.1, MI⟩ ⟨B.1, I⟩) B.2)
    (fun i _ y => ∀ B, MF.blocks[i]? = some B → DupInv B.insts y ∧
      ∀ j a b, y[j]? = some a → y[j + 1]? = some b →
        ¬ (a.2.isIdemBoundary = true ∧ b.2.isIdemBoundary = true))
    Obvious.enum 0
    (by
      intro i x hx
      rw [List.getElem?_enum] at hx
      cases hc : Obvious[i]? with
      | none => rw [hc] at hx; cases hx
      | some cur =>
        rw [hc] at hx
        simp only [Option.map_some', Option.some.injEq] at hx
        subst hx
        have hi : i < MF.blocks.length := by
          rw [← hlen1]
          exact length_of_getElem? Obvious i cur hc
        have hB : MF.blocks[i]? = some MF.blocks[i] := List.getElem?_eq_getElem hi
        have hx1 : (MF.blocks.map (fun B => B.insts.enum))[i]? =
            some (MF.blocks[i]).insts.enum := by
          rw [List.getElem?_map, hB]
          rfl
        obtain ⟨e2, e3⟩ := hP1 i _ cur hx1 hc MF.blocks[i] (by rw [Nat.zero_add]; exact hB)
        obtain ⟨l, f1, f2, f3⟩ := removeDominated_spec
          (fun MI I => DT_dominates ⟨i, MI⟩ ⟨i, I⟩) (MF.blocks[i]).insts
          (hIdem _ (List.getElem?_mem hB)) cur e2 e3
        refine ⟨l, f1, ?_⟩
        intro B1 hB1
        rw [Nat.zero_add, hB] at hB1
        have := Option.some.inj hB1
        subst this
        exact ⟨f2, f3⟩)
  rw [List.enum_length] at hlen2
  refine ⟨_, by unfold removeDuplicates; rw [h1]; simp only; rw [h2], ?_, ?_⟩
  · simp only [List.length_zipWith]
    omega
  · intro b B hB
    have hb : b < MF.blocks.length := length_of_getElem? _ b B hB
    have hK : Kept[b]? = some Kept[b] := List.getElem?_eq_getElem (by omega)
    have hO : Obvious.enum[b]? = some (b, Obvious[b]) := by
      rw [List.getElem?_enum, List.getElem?_eq_getElem (by omega)]
      rfl
    obtain ⟨e2, e3⟩ := hP2 b _ Kept[b] hO hK B (by rw [Nat.zero_add]; exact hB)
    obtain ⟨r1, r2, r3, r4, r5, r6⟩ := dupInv_result B.insts Kept[b] e2 e3
    refine ⟨{ B with insts := Kept[b].map (fun MI => MI.2) }, Kept[b].map (fun x => x.1), ?_,
      rfl, rfl, r1, r2, r3, r4, r5, r6⟩
    rw [List.getElem?_zipWith, hB, hK]

/-- Witness of C37 on `exampleDuplicates`, for the dominance of an earlier
instruction of a block over a later one: the boundaries behind the first
boundary of block 0 are removed, the boundary behind the load of block 1 is
left. -/
theorem duplicates_removed_witness :
    (∃ MF1 : MachineFunction, removeDuplicates earlierInBlock exampleDuplicates =
        some MF1 ∧
      MF1.blocks.length = exampleDuplicates.blocks.length ∧
      ∀ (b : Nat) (B : MachineBasicBlock), exampleDuplicates.blocks[b]? = some B →
        ∃ (B1 : MachineBasicBlock) (kept : List Nat), MF1.blocks[b]? = some B1 ∧ B1.preds = B.preds ∧ B1.succs = B.succs ∧
          NoAdjacentBoundaries B1.insts ∧
          B1.insts.Sublist B.insts ∧
          B1.insts.filter (fun MI => !MI.isIdemBoundary) =
            B.insts.filter (fun MI => !MI.isIdemBoundary) ∧
          kept.Pairwise (fun a b => a < b) ∧
          kept.map (fun i => B.insts[i]?) = B1.insts.map some ∧
          ∀ (i : Nat) (MI : MachineInstr), B.insts[i]? = some MI → i ∉ kept →
            MI.isIdemBoundary = true ∧
            ∃ (k : Nat) (MK : MachineInstr), k ∈ kept ∧ k < i ∧ B.insts[k]? = some MK ∧
              MK.isIdemBoundary = true ∧
              ∀ (j : Nat) (MJ : MachineInstr), k < j → j < i → B.insts[j]? = some MJ → MJ.mayLoad = false) ∧
      removeDuplicates earlierInBlock exampleDuplicates =
        some ⟨[⟨[idemInstr, plainInstr, loadInstr], [], [1]⟩,
          ⟨[idemInstr, loadInstr, idemInstr, plainInstr], [0], []⟩]⟩ :=
  ⟨duplicates_removed earlierInBlock exampleDuplicates (by decide),
    by decide⟩

end Ratchet

namespace Ratchet

/-! ## C36: the boundaries inserted by one run of the machine-level `findAntidependencePairs` -/

theorem insertBoundaries_blocks (MF : MachineFunction) (S : InstPos) (k : Nat)
    (B : MachineBasicBlock) (hB : MF.blocks[S.bb]? = some B) (b : Nat) :
    (insertBoundaries MF S k).blocks[b]? =
      if b = S.bb then
        some { B with
          insts := B.insts.take S.idx ++ (List.replicate k idemInstr ++ B.insts.drop S.idx) }
      else MF.blocks[b]? := by
  unfold insertBoundaries
  rw [hB]
  simp only
  have hlt := mlt_of_block MF S.bb B hB
  by_cases e : b = S.bb
  · rw [if_pos e, e, List.getElem?_set_self hlt]
  · rw [if_neg e, List.getElem?_set_ne (fun h => e h.symm)]

theorem insertBoundaries_length (MF : MachineFunction) (S : InstPos) (k : Nat) :
    (insertBoundaries MF S k).blocks.length = MF.blocks.length := by
  unfold insertBoundaries
  cases hB : MF.blocks[S.bb]? with
  | none => rfl
  | some B => simp

theorem insertBoundaries_zero (MF : MachineFunction) (S : InstPos)
    (B : MachineBasicBlock) (hB : MF.blocks[S.bb]? = some B) :
    insertBoundaries MF S 0 = MF := by
  unfold insertBoundaries
  rw [hB]
  simp only [List.replicate_zero, List.nil_append, List.take_append_drop]
  have hlt := mlt_of_block MF S.bb B hB
  have : MF.blocks.set S.bb B = MF.blocks := by
    apply List.ext_getElem?
    intro i
    by_cases e : i = S.bb
    · rw [e, List.getElem?_set_self hlt, hB]
    · rw [List.getElem?_set_ne (fun h => e h.symm)]
  cases MF
  simp only at this ⊢
  rw [this]

theorem insertBoundaries_blockLen (MF : MachineFunction) (S : InstPos) (k : Nat)
    (B : MachineBasicBlock) (hB : MF.blocks[S.bb]? = some B) (hS : S.idx ≤ B.insts.length)
    (b : Nat) :
    (insertBoundaries MF S k).blockLen b =
      if b = S.bb then MF.blockLen b + k else MF.blockLen b := by
  unfold MachineFunction.blockLen
  rw [insertBoundaries_blocks MF S k B hB b]
  by_cases e : b = S.bb
  · rw [if_pos e, if_pos e, e, hB]
    simp only [List.length_append, List.length_take, List.length_replicate, List.length_drop]
    omega
  · rw [if_neg e, if_neg e]

/-- The instructions of the block of the store from the store on stand behind
the inserted boundaries. -/
theorem inserted_getElem (insts : List MachineInstr) (i k j : Nat) (hi : i ≤ insts.length)
    (hj : i ≤ j) :
    (insts.take i ++ (List.replicate k idemInstr ++ insts.drop i))[j + k]? = insts[j]? := by
  rw [List.getElem?_append_right (by simp only [List.length_take]; omega)]
  rw [List.getElem?_append_right (by simp only [List.length_take, List.length_replicate]; omega)]
  simp only [List.length_take, List.length_replicate, List.getElem?_drop]
  congr 1
  omega

theorem insertBoundaries_store (MF : MachineFunction) (S : InstPos) (k : Nat)
    (B : MachineBasicBlock) (hB : MF.blocks[S.bb]? = some B) (hS : S.idx ≤ B.insts.length) :
    (insertBoundaries MF S k).inst? ⟨S.bb, S.idx + k⟩ = MF.inst? S := by
  unfold MachineFunction.inst?
  rw [insertBoundaries_blocks MF S k B hB S.bb, if_pos rfl, hB]
  simp only
  exact inserted_getElem B.insts S.idx k S.idx hS (Nat.le_refl _)

/-- One more boundary before the store. -/
theorem insertBoundaries_emit (MF : MachineFunction) (S : InstPos) (k : Nat)
    (B : MachineBasicBlock) (hB : MF.blocks[S.bb]? = some B) (hS : S.idx ≤ B.insts.length) :
    emitIdemBoundary (insertBoundaries MF S k) S.bb ⟨S.bb, S.idx + k⟩ =
      some (insertBoundaries MF S (k + 1)) := by
  unfold emitIdemBoundary
  rw [insertBoundaries_blocks MF S k B hB S.bb, if_pos rfl]
  simp only
  rw [if_pos ⟨trivial, by
    simp only [List.length_append, List.length_take, List.length_replicate, List.length_drop]
    omega⟩]
  have hlt := mlt_of_block MF S.bb B hB
  have h1 : (B.insts.take S.idx ++ (List.replicate k idemInstr ++ B.insts.drop S.idx)).take
      (S.idx + k) = B.insts.take S.idx ++ List.replicate k idemInstr := by
    rw [← List.append_assoc]
    apply List.take_left'
    simp only [List.length_append, List.length_take, List.length_replicate]
    omega
  have h2 : (B.insts.take S.idx ++ (List.replicate k idemInstr ++ B.insts.drop S.idx)).drop
      (S.idx + k) = B.insts.drop S.idx := by
    rw [← List.append_assoc]
    apply List.drop_left'
    simp only [List.length_append, List.length_take, List.length_replicate]
    omega
  rw [h1, h2]
  unfold insertBoundaries
  rw [hB]
  simp only [List.set_set, Option.some.injEq, MachineFunction.mk.injEq]
  congr 2
  rw [List.append_assoc, List.replicate_succ']
  simp

theorem scanSlotLoop_at (insts : List MachineInstr) (FI : Int) (E : Nat) :
    scanSlotLoop insts FI E E = some .notFound := by
  cases E with
  | zero => simp [scanSlotLoop]
  | succ E => simp [scanSlotLoop]

/-- The scan returns when it starts inside the block, at or behind `E`. -/
theorem scanSlotLoop_total (insts : List MachineInstr) (FI : Int) (E : Nat) :
    ∀ I, E ≤ I → I ≤ insts.length → ∃ r, scanSlotLoop insts FI E I = some r := by
  intro I
  induction I with
  | zero =>
    intro hE _
    have : E = 0 := by omega
    subst this
    exact ⟨_, scanSlotLoop_at insts FI 0⟩
  | succ I ih =>
    intro hE hI
    by_cases e : I + 1 = E
    · rw [e]
      exact ⟨_, scanSlotLoop_at insts FI E⟩
    · rw [scanSlotLoop, if_neg e, List.getElem?_eq_getElem (by omega)]
      simp only
      by_cases h1 : (insts[I].isIdemBoundary || insts[I].isCall) = true
      · rw [if_pos h1]
        exact ⟨_, rfl⟩
      · rw [if_neg h1]
        by_cases h2 : insts[I].loadFromStackSlot = some FI
        · rw [if_pos h2]
          exact ⟨_, rfl⟩
        · rw [if_neg h2]
          exact ih (by omega) (by omega)

/-- The scan of the block of the store from its end down to the store does not
see the boundaries inserted before the store. -/
theorem scanSlotLoop_shift (insts : List MachineInstr) (FI : Int) (i k : Nat)
    (hi : i ≤ insts.length) :
    ∀ I, i ≤ I →
      scanSlotLoop (insts.take i ++ (List.replicate k idemInstr ++ insts.drop i)) FI (i + k)
          (I + k) = scanSlotLoop insts FI i I := by
  intro I
  induction I with
  | zero =>
    intro h
    have : i = 0 := by omega
    subst this
    rw [scanSlotLoop_at, scanSlotLoop_at]
  | succ I ih =>
    intro h
    by_cases e : I + 1 = i
    · rw [e, scanSlotLoop_at, scanSlotLoop_at]
    · have e1 : I + 1 + k = (I + k) + 1 := by omega
      rw [e1, scanSlotLoop, scanSlotLoop, if_neg (by omega), if_neg e,
        inserted_getElem insts i k I hi (by omega)]
      cases insts[I]? with
      | none => rfl
      | some MI =>
        simp only
        rw [ih (by omega)]

theorem pushSpillPreds_eq (MF : MachineFunction) (Ps : List Nat)
    (hPs : ∀ p ∈ Ps, p < MF.blocks.length) :
    ∀ (Worklist Visited : List Nat),
      pushSpillPreds MF Ps (Worklist.map (fun b => (⟨b, MF.blockLen b⟩ : InstPos))) Visited =
        some ((pushSuccs Ps Worklist Visited).1.map (fun b => (⟨b, MF.blockLen b⟩ : InstPos)),
          (pushSuccs Ps Worklist Visited).2) := by
  induction Ps with
  | nil => intro Worklist Visited; rfl
  | cons P Ps ih =>
    intro Worklist Visited
    have hPs1 : ∀ p ∈ Ps, p < MF.blocks.length :=
      fun p hp => hPs p (List.mem_cons_of_mem _ hp)
    unfold pushSpillPreds pushSuccs
    by_cases h : P ∈ Visited
    · rw [if_pos h, if_pos h]
      exact ih hPs1 Worklist Visited
    · rw [if_neg h, if_neg h]
      obtain ⟨B, hB⟩ := mblock_of_lt MF P (hPs P (List.mem_cons_self _ _))
      rw [hB]
      simp only
      have := ih hPs1 (P :: Worklist) (P :: Visited)
      rw [List.map_cons, mblockLen_eq MF P B hB] at this
      exact this

/-- The iterators `end()` of the worklist after one more boundary has been
inserted before the store. -/
theorem worklist_shift (MF : MachineFunction) (S : InstPos) (k : Nat)
    (B : MachineBasicBlock) (hB : MF.blocks[S.bb]? = some B) (hS : S.idx < B.insts.length)
    (W : List Nat) :
    (W.map (fun b => (⟨b, (insertBoundaries MF S k).blockLen b⟩ : InstPos))).map
        (fun I => I.afterInsert S.bb (S.idx + k)) =
      W.map (fun b => (⟨b, (insertBoundaries MF S (k + 1)).blockLen b⟩ : InstPos)) := by
  rw [List.map_map]
  apply List.map_congr_left
  intro b _
  simp only [Function.comp]
  rw [insertBoundaries_blockLen MF S k B hB (by omega) b,
    insertBoundaries_blockLen MF S (k + 1) B hB (by omega) b]
  unfold InstPos.afterInsert
  by_cases e : b = S.bb
  · simp only [e, if_true]
    rw [mblockLen_eq MF S.bb B hB, if_pos ⟨trivial, by omega⟩]
    rfl
  · simp only [e, if_false]
    rw [if_neg (fun h => h.1)]

theorem createRegionBefore_emit (MF MF1 : MachineFunction) (MIR MIR1 : MachineIdempotentRegions)
    (MBB : Nat) (MI : InstPos) (R : IdempotentRegion)
    (h : MachineIdempotentRegions.createRegionBefore MF MIR MBB MI = some (MF1, MIR1, R)) :
    emitIdemBoundary MF MBB MI = some MF1 := by
  unfold MachineIdempotentRegions.createRegionBefore at h
  cases he : emitIdemBoundary MF MBB MI with
  | none => rw [he] at h; cases h
  | some MF2 =>
    rw [he] at h
    simp only at h
    cases hc : MachineIdempotentRegions.createRegionAtBoundary MF2
        (MIR.afterInsert MBB MI.idx) ⟨MBB, MI.idx⟩ with
    | none => rw [hc] at h; cases h
    | some r =>
      rw [hc] at h
      simp only [Option.some.injEq, Prod.mk.injEq] at h
      rw [h.1]

/-- The call of `createRegionBefore` for the store behind `k` inserted
boundaries. -/
theorem createRegionBefore_store (MF : MachineFunction) (S : InstPos) (k : Nat)
    (B : MachineBasicBlock) (hB : MF.blocks[S.bb]? = some B) (hS : S.idx ≤ B.insts.length)
    (MIR : MachineIdempotentRegions) (hInv : RegionsInv MIR) :
    ∃ MIR1 R, MachineIdempotentRegions.createRegionBefore (insertBoundaries MF S k) MIR S.bb
        ⟨S.bb, S.idx + k⟩ = some (insertBoundaries MF S (k + 1), MIR1, R) ∧
      RegionsInv MIR1 := by
  have hb := before_inv (insertBoundaries MF S k) MIR hInv S.bb ⟨S.bb, S.idx + k⟩
  have hsome : (MachineIdempotentRegions.createRegionBefore (insertBoundaries MF S k) MIR S.bb
      ⟨S.bb, S.idx + k⟩).isSome = true := by
    rw [hb.1]
    refine ⟨rfl, ?_, ?_⟩
    · rw [insertBoundaries_length]
      exact mlt_of_block MF S.bb B hB
    · rw [insertBoundaries_blockLen MF S k B hB hS, if_pos rfl, mblockLen_eq MF S.bb B hB]
      simp only
      omega
  cases hc : MachineIdempotentRegions.createRegionBefore (insertBoundaries MF S k) MIR S.bb
      ⟨S.bb, S.idx + k⟩ with
  | none => rw [hc] at hsome; cases hsome
  | some r =>
    obtain ⟨MF1, MIR1, R⟩ := r
    have he := createRegionBefore_emit _ _ _ _ _ _ _ hc
    rw [insertBoundaries_emit MF S k B hB hS] at he
    have := Option.some.inj he
    subst this
    exact ⟨MIR1, R, rfl, (hb.2 _ MIR1 R hc).1⟩

/-- The scan of a block entered from its end, behind `k` inserted boundaries,
ends as the scan of the block in the function without them. -/
theorem slot_scan_eq (MF : MachineFunction) (S : InstPos) (k : Nat)
    (B : MachineBasicBlock) (hB : MF.blocks[S.bb]? = some B) (hS : S.idx < B.insts.length)
    (b : Nat) (Bb : MachineBasicBlock) (hBb : MF.blocks[b]? = some Bb) :
    ∃ Bj, (insertBoundaries MF S k).blocks[b]? = some Bj ∧ Bj.preds = Bb.preds ∧
      Bj.insts.length = (insertBoundaries MF S k).blockLen b ∧
      ∀ fi, scanSlotLoop Bj.insts fi
          (if b = S.bb ∧ (insertBoundaries MF S k).blockLen b = Bj.insts.length then S.idx + k
            else 0)
          ((insertBoundaries MF S k).blockLen b) = slotEnd MF S (some fi) b := by
  have hbl := insertBoundaries_blockLen MF S k B hB (by omega) b
  have hblk := insertBoundaries_blocks MF S k B hB b
  by_cases e : b = S.bb
  · subst e
    rw [hB] at hBb
    have := Option.some.inj hBb
    subst this
    rw [if_pos rfl] at hblk hbl
    rw [mblockLen_eq MF _ B hB] at hbl
    refine ⟨_, hblk, rfl, ?_, ?_⟩
    · rw [hbl]
      simp only [List.length_append, List.length_take, List.length_replicate, List.length_drop]
      omega
    · intro fi
      have hl : (B.insts.take S.idx ++
          (List.replicate k idemInstr ++ B.insts.drop S.idx)).length = B.insts.length + k := by
        simp only [List.length_append, List.length_take, List.length_replicate,
          List.length_drop]
        omega
      simp only [hbl, hl, and_self, if_true]
      rw [scanSlotLoop_shift B.insts fi S.idx k (by omega) B.insts.length (by omega)]
      simp [slotEnd, hB]
  · rw [if_neg e] at hblk hbl
    refine ⟨Bb, by rw [hblk, hBb], rfl, by rw [hbl, mblockLen_eq MF b Bb hBb], ?_⟩
    intro fi
    rw [hbl, mblockLen_eq MF b Bb hBb]
    simp [slotEnd, hBb, e]

theorem slotEnd_block (MF : MachineFunction) (S : InstPos) (FI : Option Int) (b : Nat)
    (r : ScanEnd) (h : slotEnd MF S FI b = some r) : ∃ Bb, MF.blocks[b]? = some Bb := by
  unfold slotEnd at h
  cases hB : MF.blocks[b]? with
  | none => rw [hB] at h; cases h
  | some Bb => exact ⟨Bb, rfl⟩

theorem slotInserts_cons (MF : MachineFunction) (S : InstPos) (FI : Option Int) (b : Nat)
    (tr : List Nat) :
    slotInserts MF S FI (b :: tr) =
      (if slotEnd MF S FI b = some .aliasingLoad then 1 else 0) + slotInserts MF S FI tr := by
  unfold slotInserts
  rw [List.filter_cons]
  by_cases h : slotEnd MF S FI b = some .aliasingLoad
  · simp [h]
    omega
  · simp [h]

/-- The loop of `findAntidependencePairs` on blocks entered from their end is
the worklist search on the function as it was before the call, and it inserts
one boundary before the store for every block in which the scan ends at a load
from the stack slot. -/
theorem spillLoop_eq (MF : MachineFunction) (S : InstPos) (B : MachineBasicBlock)
    (hB : MF.blocks[S.bb]? = some B) (Store : MachineInstr)
    (hS : B.insts[S.idx]? = some Store)
    (hpv : ∀ (b : Nat) (B : MachineBasicBlock), MF.blocks[b]? = some B →
      ∀ s ∈ B.preds, s < MF.blocks.length) :
    ∀ (fuel : Nat) (W V tr : List Nat) (j : Nat) (MIRj : MachineIdempotentRegions),
      RegionsInv MIRj →
      dfsTrace (slotStop MF S Store.storeToStackSlot) (backNbrs MF) fuel W V = some tr →
      ∃ St, MachineIdempotentRegions.findAntidependencePairsLoop fuel
          { MF := insertBoundaries MF S j, MIR := MIRj, MI := ⟨S.bb, S.idx + j⟩
            Worklist := W.map (fun b => (⟨b, (insertBoundaries MF S j).blockLen b⟩ : InstPos))
            Visited := V } = some St ∧
        St.MF = insertBoundaries MF S (j + slotInserts MF S Store.storeToStackSlot tr) ∧
        St.MI = ⟨S.bb, S.idx + (j + slotInserts MF S Store.storeToStackSlot tr)⟩ ∧
        RegionsInv St.MIR := by
  have hSlt : S.idx < B.insts.length := length_of_getElem? _ _ _ hS
  intro fuel
  induction fuel with
  | zero => intro _ _ _ _ _ _ h; simp [dfsTrace] at h
  | succ fuel ih =>
    intro W V tr j MIRj hInv h
    cases W with
    | nil =>
      simp only [dfsTrace, Option.some.injEq] at h
      subst h
      exact ⟨{ MF := insertBoundaries MF S j, MIR := MIRj, MI := ⟨S.bb, S.idx + j⟩
               Worklist := [], Visited := V }, rfl, rfl, rfl, hInv⟩
    | cons b W =>
      simp only [dfsTrace] at h
      cases hse : slotEnd MF S Store.storeToStackSlot b with
      | none => simp [slotStop, hse] at h
      | some r =>
        have hstop : slotStop MF S Store.storeToStackSlot b = some (decide (r ≠ .notFound)) := by
          simp [slotStop, hse]
        rw [hstop] at h
        simp only at h
        obtain ⟨Bb, hBb⟩ := slotEnd_block MF S _ b r hse
        obtain ⟨Bj, hBj, hpreds, hlen, hscan⟩ := slot_scan_eq MF S j B hB hSlt b Bb hBb
        have hstore : (insertBoundaries MF S j).inst? ⟨S.bb, S.idx + j⟩ = some Store := by
          rw [insertBoundaries_store MF S j B hB (by omega)]
          simp [MachineFunction.inst?, hB, hS]
        have hpvj : ∀ p ∈ Bj.preds, p < (insertBoundaries MF S j).blocks.length := by
          intro p hp
          rw [insertBoundaries_length, hpreds] at *
          exact hpv b Bb hBb p hp
        have hnb : backNbrs MF b = Bj.preds := by simp [backNbrs, hBb, hpreds]
        -- the three ways in which the scan ends
        have hnot : r = .notFound →
            ∃ St, MachineIdempotentRegions.findAntidependencePairsLoop fuel
              { MF := insertBoundaries MF S j, MIR := MIRj, MI := ⟨S.bb, S.idx + j⟩
                Worklist := (pushSuccs Bj.preds W V).1.map
                  (fun b => (⟨b, (insertBoundaries MF S j).blockLen b⟩ : InstPos))
                Visited := (pushSuccs Bj.preds W V).2 } = some St ∧
            St.MF = insertBoundaries MF S (j + slotInserts MF S Store.storeToStackSlot tr) ∧
            St.MI = ⟨S.bb, S.idx + (j + slotInserts MF S Store.storeToStackSlot tr)⟩ ∧
            RegionsInv St.MIR := by
          intro hr
          subst hr
          simp only [ne_eq, not_true_eq_false, decide_False, Bool.false_eq_true, if_false] at h
          rw [hnb] at h
          cases hrec : dfsTrace (slotStop MF S Store.storeToStackSlot) (backNbrs MF) fuel
              (pushSuccs Bj.preds W V).1 (pushSuccs Bj.preds W V).2 with
          | none => rw [hrec] at h; cases h
          | some tr1 =>
            rw [hrec] at h
            simp only [Option.some.injEq] at h
            subst h
            obtain ⟨St, h1, h2, h3, h4⟩ := ih _ _ tr1 j MIRj hInv hrec
            refine ⟨St, h1, ?_, ?_, h4⟩
            · rw [h2, slotInserts_cons, hse]
              simp
            · rw [h3, slotInserts_cons, hse]
              simp
        rw [MachineIdempotentRegions.findAntidependencePairsLoop]
        simp only [List.map_cons, hBj, hstore]
        cases hFI : Store.storeToStackSlot with
        | none =>
          simp only
          have hr : r = .notFound := by
            rw [hFI] at hse
            simp [slotEnd, hBb] at hse
            exact hse.symm
          rw [pushSpillPreds_eq _ Bj.preds hpvj W V]
          simp only
          rw [hFI] at hnot
          exact hnot hr
        | some fi =>
          simp only
          have hsc := hscan fi
          rw [← hFI, hse] at hsc
          unfold MachineIdempotentRegions.scanForAliasingLoad
          simp only [hBj, ← hlen] at hsc ⊢
          rw [hsc]
          rw [hFI] at hnot ih h hse
          cases r with
          | notFound =>
            simp only
            rw [pushSpillPreds_eq _ Bj.preds hpvj W V]
            simp only
            exact hnot rfl
          | cut =>
            simp only
            simp only [ne_eq, reduceCtorEq, not_false_eq_true, decide_True, if_true] at h
            cases hrec : dfsTrace (slotStop MF S (some fi)) (backNbrs MF) fuel W V with
            | none => rw [hrec] at h; cases h
            | some tr1 =>
              rw [hrec] at h
              simp only [Option.some.injEq] at h
              subst h
              obtain ⟨St, h1, h2, h3, h4⟩ := ih _ _ tr1 j MIRj hInv hrec
              refine ⟨St, h1, ?_, ?_, h4⟩
              · rw [h2, slotInserts_cons, hse]
                simp
              · rw [h3, slotInserts_cons, hse]
                simp
          | aliasingLoad =>
            simp only
            simp only [ne_eq, reduceCtorEq, not_false_eq_true, decide_True, if_true] at h
            obtain ⟨MIR1, R, hc, hInv1⟩ := createRegionBefore_store MF S j B hB (by omega) MIRj hInv
            rw [hc]
            simp only
            cases hrec : dfsTrace (slotStop MF S (some fi)) (backNbrs MF) fuel W V with
            | none => rw [hrec] at h; cases h
            | some tr1 =>
              rw [hrec] at h
              simp only [Option.some.injEq] at h
              subst h
              obtain ⟨St, h1, h2, h3, h4⟩ := ih _ _ tr1 (j + 1) MIR1 hInv1 hrec
              have hmi : (⟨S.bb, S.idx + j⟩ : InstPos).afterInsert S.bb (S.idx + j) =
                  ⟨S.bb, S.idx + (j + 1)⟩ := by
                simp [InstPos.afterInsert]
                omega
              rw [hmi, worklist_shift MF S j B hB hSlt W]
              refine ⟨St, h1, ?_, ?_, h4⟩
              · rw [h2, slotInserts_cons, hse]
                simp only [if_true]
                congr 1
                omega
              · rw [h3, slotInserts_cons, hse]
                simp only [if_true, InstPos.mk.injEq, true_and]
                omega

theorem slotStop_total (MF : MachineFunction) (S : InstPos) (B : MachineBasicBlock)
    (hB : MF.blocks[S.bb]? = some B) (hS : S.idx ≤ B.insts.length) (FI : Option Int) (b : Nat)
    (hb : b < MF.blocks.length) : ∃ r, slotEnd MF S FI b = some r := by
  obtain ⟨Bb, hBb⟩ := mblock_of_lt MF b hb
  unfold slotEnd
  rw [hBb]
  cases FI with
  | none => exact ⟨_, rfl⟩
  | some fi =>
    simp only
    apply scanSlotLoop_total
    · by_cases e : b = S.bb
      · rw [if_pos e]
        subst e
        rw [hB] at hBb
        cases hBb
        exact hS
      · rw [if_neg e]
        exact Nat.zero_le _
    · exact Nat.le_refl _

/-- The worklist search of the machine-level `findAntidependencePairs`
returns. -/
theorem slotTrace_terminates (MF : MachineFunction) (S : InstPos) (B : MachineBasicBlock)
    (hB : MF.blocks[S.bb]? = some B) (hS : S.idx ≤ B.insts.length) (FI : Option Int)
    (hpv : ∀ (b : Nat) (B : MachineBasicBlock), MF.blocks[b]? = some B →
      ∀ s ∈ B.preds, s < MF.blocks.length)
    (Ps : List Nat) (hPs : ∀ p ∈ Ps, p < MF.blocks.length) :
    ∃ tr, dfsTrace (slotStop MF S FI) (backNbrs MF) (MF.blocks.length + 1)
      (pushSuccs Ps [] []).1 (pushSuccs Ps [] []).2 = some tr := by
  apply dfsTrace_terminates (slotStop MF S FI) (backNbrs MF) MF.blocks.length
    (fun b => b < MF.blocks.length)
  · intro b hb
    obtain ⟨Bb, hBb⟩ := mblock_of_lt MF b hb
    obtain ⟨r, hr⟩ := slotStop_total MF S B hB hS FI b hb
    refine ⟨hb, decide (r ≠ .notFound), by simp only [slotStop, hr, Option.map_some'], ?_⟩
    intro _ p hp
    have hn : backNbrs MF b = Bb.preds := by simp [backNbrs, hBb]
    rw [hn] at hp
    exact hpv b Bb hBb p hp
  · intro b hb
    rcases (mem_pushSuccs_wl _ _ _ _).mp hb with h | h
    · simp at h
    · exact hPs b h.1
  · have := pushSuccs_measure MF.blocks.length Ps [] [] hPs
    rw [unvisited_nil] at this
    simp only [List.length_nil, Nat.zero_add] at this
    omega

/-- One run of the machine-level `findAntidependencePairs`: it returns, and
what it does to the function is to insert before the store one boundary for
the first scan, when that ends at a load from the stack slot, and one for
every block entered from its end in which the scan ends at such a load. -/
theorem spill_run (MF : MachineFunction) (S : InstPos) (B : MachineBasicBlock)
    (hB : MF.blocks[S.bb]? = some B) (Store : MachineInstr)
    (hS : B.insts[S.idx]? = some Store)
    (hpv : ∀ (b : Nat) (B : MachineBasicBlock), MF.blocks[b]? = some B →
      ∀ s ∈ B.preds, s < MF.blocks.length)
    (MIR : MachineIdempotentRegions) (hInv : RegionsInv MIR) :
    ∃ St first tr, slotFirst MF S Store.storeToStackSlot = some first ∧
      (first ≠ .notFound → tr = []) ∧
      (first = .notFound →
        dfsTrace (slotStop MF S Store.storeToStackSlot) (backNbrs MF) (MF.blocks.length + 1)
          (pushSuccs B.preds [] []).1 (pushSuccs B.preds [] []).2 = some tr) ∧
      MachineIdempotentRegions.findAntidependencePairs MF MIR S = some St ∧
      St.MF = insertBoundaries MF S
        ((if first = .aliasingLoad then 1 else 0) +
          slotInserts MF S Store.storeToStackSlot tr) ∧
      St.MI = ⟨S.bb, S.idx + ((if first = .aliasingLoad then 1 else 0) +
          slotInserts MF S Store.storeToStackSlot tr)⟩ ∧
      RegionsInv St.MIR := by
  have hSlt : S.idx < B.insts.length := length_of_getElem? _ _ _ hS
  have hstore : MF.inst? S = some Store := by simp [MachineFunction.inst?, hB, hS]
  have hfirst : ∃ first, slotFirst MF S Store.storeToStackSlot = some first := by
    unfold slotFirst
    rw [hB]
    cases Store.storeToStackSlot with
    | none => exact ⟨_, rfl⟩
    | some fi => exact scanSlotLoop_total B.insts fi 0 S.idx (Nat.zero_le _) (by omega)
  obtain ⟨first, hf⟩ := hfirst
  have hE : ¬ (S.idx = B.insts.length) := fun h => by omega
  have hS0 : (⟨S.bb, S.idx + 0⟩ : InstPos) = S := rfl
  have h0 := insertBoundaries_zero MF S B hB
  -- the run when the first scan does not end the path
  have hnot : first = .notFound →
      ∃ St tr, dfsTrace (slotStop MF S Store.storeToStackSlot) (backNbrs MF)
          (MF.blocks.length + 1) (pushSuccs B.preds [] []).1 (pushSuccs B.preds [] []).2 =
            some tr ∧
        (match pushSpillPreds MF B.preds [] [] with
          | none => none
          | some (Worklist1, Visited1) =>
            MachineIdempotentRegions.findAntidependencePairsLoop (MF.blocks.length + 1)
              { MF := MF, MIR := MIR, MI := S, Worklist := Worklist1, Visited := Visited1 }) =
          some St ∧
        St.MF = insertBoundaries MF S (0 + slotInserts MF S Store.storeToStackSlot tr) ∧
        St.MI = ⟨S.bb, S.idx + (0 + slotInserts MF S Store.storeToStackSlot tr)⟩ ∧
        RegionsInv St.MIR := by
    intro _
    obtain ⟨tr, htr⟩ := slotTrace_terminates MF S B hB (by omega) Store.storeToStackSlot hpv
      B.preds (hpv S.bb B hB)
    obtain ⟨St, h1, h2, h3, h4⟩ := spillLoop_eq MF S B hB Store hS hpv _ _ _ tr 0 MIR hInv htr
    have hp := pushSpillPreds_eq MF B.preds (hpv S.bb B hB) [] []
    simp only [List.map_nil] at hp
    rw [h0, hS0] at h1
    refine ⟨St, tr, htr, ?_, h2, h3, h4⟩
    rw [hp]
    exact h1
  -- the run when the first scan ends at a boundary or a call
  have hcut : ∃ St, MachineIdempotentRegions.findAntidependencePairsLoop (MF.blocks.length + 1)
        { MF := MF, MIR := MIR, MI := S, Worklist := [], Visited := [] } = some St ∧
      St.MF = insertBoundaries MF S 0 ∧ St.MI = ⟨S.bb, S.idx + 0⟩ ∧ RegionsInv St.MIR :=
    ⟨_, rfl, h0.symm, rfl, hInv⟩
  unfold MachineIdempotentRegions.findAntidependencePairs
  rw [MachineIdempotentRegions.findAntidependencePairsLoop]
  simp only [hB, hstore, true_and, hE, if_false]
  have hf0 := hf
  unfold slotFirst at hf
  rw [hB] at hf
  cases hFI : Store.storeToStackSlot with
  | none =>
    rw [hFI] at hf hnot hf0
    simp only [Option.some.injEq] at hf
    subst hf
    obtain ⟨St, tr, e1, e2, e3, e4, e5⟩ := hnot rfl
    refine ⟨St, .notFound, tr, hf0, fun h => absurd rfl h, fun _ => e1, e2, ?_, ?_, e5⟩
    · rw [e3]
      simp
    · rw [e4]
      simp
  | some fi =>
    rw [hFI] at hf hnot hf0
    simp only at hf
    unfold MachineIdempotentRegions.scanForAliasingLoad
    simp only [hB, hf]
    cases first with
    | notFound =>
      obtain ⟨St, tr, e1, e2, e3, e4, e5⟩ := hnot rfl
      simp only
      refine ⟨St, .notFound, tr, hf0, fun h => absurd rfl h, fun _ => e1, e2, ?_, ?_, e5⟩
      · rw [e3]
        simp
      · rw [e4]
        simp
    | cut =>
      obtain ⟨St, e2, e3, e4, e5⟩ := hcut
      simp only
      refine ⟨St, .cut, [], hf0, fun _ => rfl, fun h => (by cases h), e2, ?_, ?_, e5⟩
      · rw [e3]
        simp [slotInserts]
      · rw [e4]
        simp [slotInserts]
    | aliasingLoad =>
      simp only
      obtain ⟨MIR1, R, hc, hInv1⟩ := createRegionBefore_store MF S 0 B hB (by omega) MIR hInv
      rw [h0, hS0] at hc
      rw [hc]
      simp only [List.map_nil]
      have hmi : S.afterInsert S.bb S.idx = ⟨S.bb, S.idx + 1⟩ := by
        simp [InstPos.afterInsert]
      rw [hmi]
      refine ⟨{ MF := insertBoundaries MF S (0 + 1), MIR := MIR1, MI := ⟨S.bb, S.idx + 1⟩
                Worklist := [], Visited := [] }, .aliasingLoad, [], hf0, fun _ => rfl,
        fun h => (by cases h), rfl, ?_, ?_, hInv1⟩
      · simp [slotInserts]
      · simp [slotInserts]

theorem regionsInv_nil : RegionsInv ⟨[], []⟩ :=
  ⟨List.nodup_nil, fun i R hget => (by cases hget), rfl⟩

theorem nodup_length_le (l : List Nat) (n : Nat) (hnd : l.Nodup) (hlt : ∀ x ∈ l, x < n) :
    l.length ≤ n := by
  have hsub : l.toFinset ⊆ Finset.range n := by
    intro x hx
    rw [List.mem_toFinset] at hx
    exact Finset.mem_range.mpr (hlt x hx)
  have := Finset.card_le_card hsub
  rw [List.toFinset_card_of_nodup hnd, Finset.card_range] at this
  exact this

theorem slotTrace_nodup (MF : MachineFunction) (S : InstPos) (FI : Option Int)
    (Ps tr : List Nat)
    (hd : dfsTrace (slotStop MF S FI) (backNbrs MF) (MF.blocks.length + 1)
      (pushSuccs Ps [] []).1 (pushSuccs Ps [] []).2 = some tr) :
    tr.Nodup ∧ ∀ b ∈ tr, b < MF.blocks.length := by
  have hp := pushSuccs_nodup Ps [] [] List.nodup_nil (by simp)
  refine ⟨(dfsTrace_nodup _ _ _ _ _ tr hd hp.1 hp.2).1, ?_⟩
  intro b hb
  obtain ⟨s, hs, _⟩ := (dfsTrace_closed _ _ _ _ _ _ hd).2 b hb
  cases hse : slotEnd MF S FI b with
  | none => simp [slotStop, hse] at hs
  | some r =>
    obtain ⟨Bb, hBb⟩ := slotEnd_block MF S FI b r hse
    exact mlt_of_block MF b Bb hBb

/-- The loop that records the scans is the loop of `findAntidependencePairs`
with the record added: without the record, its result is the result of the
loop. -/
theorem spillLog_erase :
    ∀ (fuel : Nat) (St : SpillSearch) (Log : List (Nat × ScanEnd)),
      (MachineIdempotentRegions.findAntidependencePairsLog fuel St Log).map (fun r => r.1) =
        MachineIdempotentRegions.findAntidependencePairsLoop fuel St := by
  intro fuel
  induction fuel with
  | zero => intro _ _; rfl
  | succ fuel ih =>
    intro St Log
    rw [MachineIdempotentRegions.findAntidependencePairsLog,
      MachineIdempotentRegions.findAntidependencePairsLoop]
    cases hW : St.Worklist with
    | nil => rfl
    | cons item Worklist =>
      obtain ⟨BB, I⟩ := item
      simp only
      cases hB : St.MF.blocks[BB]? with
      | none => rfl
      | some B =>
        cases hS : St.MF.inst? St.MI with
        | none => rfl
        | some Store =>
          simp only
          cases hFI : Store.storeToStackSlot with
          | none =>
            simp only
            cases pushSpillPreds St.MF B.preds Worklist St.Visited with
            | none => rfl
            | some r => exact ih _ _
          | some FI =>
            simp only
            unfold MachineIdempotentRegions.scanForAliasingLoad
            simp only [hB]
            cases scanSlotLoop B.insts FI
                (if BB = St.MI.bb ∧ I = B.insts.length then St.MI.idx else 0) I with
            | none => rfl
            | some r =>
              cases r with
              | notFound =>
                simp only
                cases pushSpillPreds St.MF B.preds Worklist St.Visited with
                | none => rfl
                | some r => exact ih _ _
              | cut => exact ih _ _
              | aliasingLoad =>
                simp only
                cases MachineIdempotentRegions.createRegionBefore St.MF St.MIR St.MI.bb St.MI with
                | none => rfl
                | some r => exact ih _ _

/-- The loop that records the scans, on blocks entered from their end: it
records the blocks of the worklist search on the function as it was before the
call, in order, each with the end of the scan of the block. -/
theorem spillLog_eq (MF : MachineFunction) (S : InstPos) (B : MachineBasicBlock)
    (hB : MF.blocks[S.bb]? = some B) (Store : MachineInstr)
    (hS : B.insts[S.idx]? = some Store)
    (hpv : ∀ (b : Nat) (B : MachineBasicBlock), MF.blocks[b]? = some B →
      ∀ s ∈ B.preds, s < MF.blocks.length) :
    ∀ (fuel : Nat) (W V tr : List Nat) (j : Nat) (MIRj : MachineIdempotentRegions)
      (Log0 : List (Nat × ScanEnd)),
      RegionsInv MIRj →
      dfsTrace (slotStop MF S Store.storeToStackSlot) (backNbrs MF) fuel W V = some tr →
      ∃ St Log1, MachineIdempotentRegions.findAntidependencePairsLog fuel
          { MF := insertBoundaries MF S j, MIR := MIRj, MI := ⟨S.bb, S.idx + j⟩
            Worklist := W.map (fun b => (⟨b, (insertBoundaries MF S j).blockLen b⟩ : InstPos))
            Visited := V } Log0 = some (St, Log0 ++ Log1) ∧
        Log1.map (fun e => (e.1, some e.2)) =
          tr.map (fun b => (b, slotEnd MF S Store.storeToStackSlot b)) := by
  have hSlt : S.idx < B.insts.length := length_of_getElem? _ _ _ hS
  intro fuel
  induction fuel with
  | zero => intro _ _ _ _ _ _ _ h; simp [dfsTrace] at h
  | succ fuel ih =>
    intro W V tr j MIRj Log0 hInv h
    cases W with
    | nil =>
      simp only [dfsTrace, Option.some.injEq] at h
      subst h
      exact ⟨{ MF := insertBoundaries MF S j, MIR := MIRj, MI := ⟨S.bb, S.idx + j⟩
               Worklist := [], Visited := V }, [], by rw [List.append_nil]; rfl, rfl⟩
    | cons b W =>
      simp only [dfsTrace] at h
      cases hse : slotEnd MF S Store.storeToStackSlot b with
      | none => simp [slotStop, hse] at h
      | some r =>
        have hstop : slotStop MF S Store.storeToStackSlot b = some (decide (r ≠ .notFound)) := by
          simp [slotStop, hse]
        rw [hstop] at h
        simp only at h
        obtain ⟨Bb, hBb⟩ := slotEnd_block MF S _ b r hse
        obtain ⟨Bj, hBj, hpreds, hlen, hscan⟩ := slot_scan_eq MF S j B hB hSlt b Bb hBb
        have hstore : (insertBoundaries MF S j).inst? ⟨S.bb, S.idx + j⟩ = some Store := by
          rw [insertBoundaries_store MF S j B hB (by omega)]
          simp [MachineFunction.inst?, hB, hS]
        have hpvj : ∀ p ∈ Bj.preds, p < (insertBoundaries MF S j).blocks.length := by
          intro p hp
          rw [insertBoundaries_length, hpreds] at *
          exact hpv b Bb hBb p hp
        have hnb : backNbrs MF b = Bj.preds := by simp [backNbrs, hBb, hpreds]
        -- the record after the scan of `b`
        have hcons : ∀ (tr1 : List Nat) (St : SpillSearch) (Log1 : List (Nat × ScanEnd))
            (R : Option (SpillSearch × List (Nat × ScanEnd))),
            R = some (St, (Log0 ++ [(b, r)]) ++ Log1) →
            Log1.map (fun e => (e.1, some e.2)) =
              tr1.map (fun b => (b, slotEnd MF S Store.storeToStackSlot b)) →
            ∃ St Log2, R = some (St, Log0 ++ Log2) ∧
              Log2.map (fun e => (e.1, some e.2)) =
                (b :: tr1).map (fun b => (b, slotEnd MF S Store.storeToStackSlot b)) := by
          intro tr1 St Log1 R h1 h2
          refine ⟨St, (b, r) :: Log1, ?_, ?_⟩
          · rw [h1, List.append_assoc]
            rfl
          · rw [List.map_cons, List.map_cons, h2, hse]
        -- the three ways in which the scan ends
        have hnot : r = .notFound →
            ∃ St Log2, MachineIdempotentRegions.findAntidependencePairsLog fuel
              { MF := insertBoundaries MF S j, MIR := MIRj, MI := ⟨S.bb, S.idx + j⟩
                Worklist := (pushSuccs Bj.preds W V).1.map
                  (fun b => (⟨b, (insertBoundaries MF S j).blockLen b⟩ : InstPos))
                Visited := (pushSuccs Bj.preds W V).2 } (Log0 ++ [(b, r)]) =
                  some (St, Log0 ++ Log2) ∧
              Log2.map (fun e => (e.1, some e.2)) =
                tr.map (fun b => (b, slotEnd MF S Store.storeToStackSlot b)) := by
          intro hr
          rw [hr] at h
          simp only [ne_eq, not_true_eq_false, decide_False, Bool.false_eq_true, if_false] at h
          rw [hnb] at h
          cases hrec : dfsTrace (slotStop MF S Store.storeToStackSlot) (backNbrs MF) fuel
              (pushSuccs Bj.preds W V).1 (pushSuccs Bj.preds W V).2 with
          | none => rw [hrec] at h; cases h
          | some tr1 =>
            rw [hrec] at h
            simp only [Option.some.injEq] at h
            subst h
            obtain ⟨St, Log1, h1, h2⟩ := ih _ _ tr1 j MIRj (Log0 ++ [(b, r)]) hInv hrec
            exact hcons tr1 St Log1 _ h1 h2
        rw [MachineIdempotentRegions.findAntidependencePairsLog]
        simp only [List.map_cons, hBj, hstore]
        cases hFI : Store.storeToStackSlot with
        | none =>
          simp only
          have hr : r = .notFound := by
            rw [hFI] at hse
            simp [slotEnd, hBb] at hse
            exact hse.symm
          rw [pushSpillPreds_eq _ Bj.preds hpvj W V]
          simp only
          rw [hFI] at hnot
          rw [← hr]
          exact hnot hr
        | some fi =>
          simp only
          have hsc := hscan fi
          rw [← hFI, hse] at hsc
          unfold MachineIdempotentRegions.scanForAliasingLoad
          simp only [hBj, ← hlen] at hsc ⊢
          rw [hsc]
          rw [hFI] at hnot ih h hse hcons
          cases r with
          | notFound =>
            simp only
            rw [pushSpillPreds_eq _ Bj.preds hpvj W V]
            simp only
            exact hnot rfl
          | cut =>
            simp only
            simp only [ne_eq, reduceCtorEq, not_false_eq_true, decide_True, if_true] at h
            cases hrec : dfsTrace (slotStop MF S (some fi)) (backNbrs MF) fuel W V with
            | none => rw [hrec] at h; cases h
            | some tr1 =>
              rw [hrec] at h
              simp only [Option.some.injEq] at h
              subst h
              obtain ⟨St, Log1, h1, h2⟩ := ih _ _ tr1 j MIRj (Log0 ++ [(b, .cut)]) hInv hrec
              exact hcons tr1 St Log1 _ h1 h2
          | aliasingLoad =>
            simp only
            simp only [ne_eq, reduceCtorEq, not_false_eq_true, decide_True, if_true] at h
            obtain ⟨MIR1, R, hc, hInv1⟩ := createRegionBefore_store MF S j B hB (by omega) MIRj hInv
            rw [hc]
            simp only
            cases hrec : dfsTrace (slotStop MF S (some fi)) (backNbrs MF) fuel W V with
            | none => rw [hrec] at h; cases h
            | some tr1 =>
              rw [hrec] at h
              simp only [Option.some.injEq] at h
              subst h
              obtain ⟨St, Log1, h1, h2⟩ :=
                ih _ _ tr1 (j + 1) MIR1 (Log0 ++ [(b, .aliasingLoad)]) hInv1 hrec
              have hmi : (⟨S.bb, S.idx + j⟩ : InstPos).afterInsert S.bb (S.idx + j) =
                  ⟨S.bb, S.idx + (j + 1)⟩ := by
                simp [InstPos.afterInsert]
                omega
              rw [hmi, worklist_shift MF S j B hB hSlt W]
              exact hcons tr1 St Log1 _ h1 h2

/-- One run of the machine-level `findAntidependencePairs` with its scans: the
first work item is the block of the store, scanned from the store, and the
items after it are the blocks of the worklist search, each entered from its
last instruction. -/
theorem spillScans_run (MF : MachineFunction) (S : InstPos) (B : MachineBasicBlock)
    (hB : MF.blocks[S.bb]? = some B) (Store : MachineInstr)
    (hS : B.insts[S.idx]? = some Store)
    (hpv : ∀ (b : Nat) (B : MachineBasicBlock), MF.blocks[b]? = some B →
      ∀ s ∈ B.preds, s < MF.blocks.length)
    (MIR : MachineIdempotentRegions) (hInv : RegionsInv MIR) :
    ∃ St Log first tr, slotFirst MF S Store.storeToStackSlot = some first ∧
      (first ≠ .notFound → tr = []) ∧
      (first = .notFound →
        dfsTrace (slotStop MF S Store.storeToStackSlot) (backNbrs MF) (MF.blocks.length + 1)
          (pushSuccs B.preds [] []).1 (pushSuccs B.preds [] []).2 = some tr) ∧
      MachineIdempotentRegions.findAntidependencePairsScans MF MIR S = some (St, Log) ∧
      Log.map (fun e => (e.1, some e.2)) =
        (S.bb, some first) :: tr.map (fun b => (b, slotEnd MF S Store.storeToStackSlot b)) := by
  have hSlt : S.idx < B.insts.length := length_of_getElem? _ _ _ hS
  have hstore : MF.inst? S = some Store := by simp [MachineFunction.inst?, hB, hS]
  have hfirst : ∃ first, slotFirst MF S Store.storeToStackSlot = some first := by
    unfold slotFirst
    rw [hB]
    cases Store.storeToStackSlot with
    | none => exact ⟨_, rfl⟩
    | some fi => exact scanSlotLoop_total B.insts fi 0 S.idx (Nat.zero_le _) (by omega)
  obtain ⟨first, hf⟩ := hfirst
  have hE : ¬ (S.idx = B.insts.length) := fun h => by omega
  have hS0 : (⟨S.bb, S.idx + 0⟩ : InstPos) = S := rfl
  have h0 := insertBoundaries_zero MF S B hB
  -- the run when the first scan does not end the path
  have hnot : first = .notFound →
      ∃ St tr Log1, dfsTrace (slotStop MF S Store.storeToStackSlot) (backNbrs MF)
          (MF.blocks.length + 1) (pushSuccs B.preds [] []).1 (pushSuccs B.preds [] []).2 =
            some tr ∧
        (match pushSpillPreds MF B.preds [] [] with
          | none => none
          | some (Worklist1, Visited1) =>
            MachineIdempotentRegions.findAntidependencePairsLog (MF.blocks.length + 1)
              { MF := MF, MIR := MIR, MI := S, Worklist := Worklist1, Visited := Visited1 }
              ([] ++ [(S.bb, ScanEnd.notFound)])) =
          some (St, (S.bb, ScanEnd.notFound) :: Log1) ∧
        Log1.map (fun e => (e.1, some e.2)) =
          tr.map (fun b => (b, slotEnd MF S Store.storeToStackSlot b)) := by
    intro _
    obtain ⟨tr, htr⟩ := slotTrace_terminates MF S B hB (by omega) Store.storeToStackSlot hpv
      B.preds (hpv S.bb B hB)
    obtain ⟨St, Log1, h1, h2⟩ := spillLog_eq MF S B hB Store hS hpv _ _ _ tr 0 MIR
      ([] ++ [(S.bb, ScanEnd.notFound)]) hInv htr
    have hp := pushSpillPreds_eq MF B.preds (hpv S.bb B hB) [] []
    simp only [List.map_nil] at hp
    rw [h0, hS0] at h1
    refine ⟨St, tr, Log1, htr, ?_, h2⟩
    rw [hp]
    exact h1
  unfold MachineIdempotentRegions.findAntidependencePairsScans
  rw [MachineIdempotentRegions.findAntidependencePairsLog]
  simp only [hB, hstore, true_and, hE, if_false]
  have hf0 := hf
  unfold slotFirst at hf
  rw [hB] at hf
  cases hFI : Store.storeToStackSlot with
  | none =>
    rw [hFI] at hf hnot hf0
    simp only [Option.some.injEq] at hf
    subst hf
    obtain ⟨St, tr, Log1, e1, e2, e3⟩ := hnot rfl
    refine ⟨St, _, .notFound, tr, hf0, fun h => absurd rfl h, fun _ => e1, e2, ?_⟩
    rw [List.map_cons, e3]
  | some fi =>
    rw [hFI] at hf hnot hf0
    simp only at hf
    unfold MachineIdempotentRegions.scanForAliasingLoad
    simp only [hB, hf]
    cases first with
    | notFound =>
      obtain ⟨St, tr, Log1, e1, e2, e3⟩ := hnot rfl
      simp only
      refine ⟨St, _, .notFound, tr, hf0, fun h => absurd rfl h, fun _ => e1, e2, ?_⟩
      rw [List.map_cons, e3]
    | cut =>
      simp only
      exact ⟨{ MF := MF, MIR := MIR, MI := S, Worklist := [], Visited := [] },
        [(S.bb, .cut)], .cut, [], hf0, fun _ => rfl, fun h => (by cases h), rfl, rfl⟩
    | aliasingLoad =>
      simp only
      obtain ⟨MIR1, R, hc, hInv1⟩ := createRegionBefore_store MF S 0 B hB (by omega) MIR hInv
      rw [h0, hS0] at hc
      rw [hc]
      simp only [List.map_nil]
      have hmi : S.afterInsert S.bb S.idx = ⟨S.bb, S.idx + 1⟩ := by
        simp [InstPos.afterInsert]
      rw [hmi]
      exact ⟨{ MF := insertBoundaries MF S (0 + 1), MIR := MIR1, MI := ⟨S.bb, S.idx + 1⟩,
               Worklist := [], Visited := [] }, [(S.bb, .aliasingLoad)], .aliasingLoad, [],
        hf0, fun _ => rfl, fun h => (by cases h), rfl, rfl⟩

/-- The scans of a record that end at a load from the stack slot are as many as
the blocks of the search in which the scan ends at such a load. -/
theorem scanCount_eq (MF : MachineFunction) (S : InstPos) (FI : Option Int) :
    ∀ (Log : List (Nat × ScanEnd)) (tr : List Nat),
      Log.map (fun e => (e.1, some e.2)) = tr.map (fun b => (b, slotEnd MF S FI b)) →
      (Log.filter (fun e => decide (e.2 = ScanEnd.aliasingLoad))).length =
        slotInserts MF S FI tr := by
  intro Log
  induction Log with
  | nil =>
    intro tr h
    cases tr with
    | nil => rfl
    | cons b tr => simp at h
  | cons e Log ih =>
    intro tr h
    cases tr with
    | nil => simp at h
    | cons b tr =>
      simp only [List.map_cons, List.cons.injEq, Prod.mk.injEq] at h
      obtain ⟨⟨_, h2⟩, h3⟩ := h
      rw [slotInserts_cons, ← h2, List.filter_cons, ← ih tr h3]
      by_cases he : e.2 = ScanEnd.aliasingLoad
      · simp [he]
        omega
      · simp [he]

/-- C36 fails on `exampleTwoSpillPaths`: the store of block 3 writes stack slot
0, both predecessors of its block load from stack slot 0, and one run of
`findAntidependencePairs` for the store inserts two boundaries before it. -/
theorem two_boundaries_before_store :
    exampleTwoSpillPaths.inst? ⟨3, 0⟩ = some (slotStoreInstr 0) ∧
      (slotStoreInstr 0).storeToStackSlot = some 0 ∧
      (MachineIdempotentRegions.findAntidependencePairs exampleTwoSpillPaths ⟨[], []⟩
          ⟨3, 0⟩).map (fun St => (St.MF, St.MI)) =
        some (⟨[⟨[plainInstr], [], [1, 2]⟩,
            ⟨[slotLoadInstr 0], [0], [3]⟩,
            ⟨[slotLoadInstr 0], [0], [3]⟩,
            ⟨[idemInstr, idemInstr, slotStoreInstr 0, plainInstr], [1, 2], []⟩]⟩, ⟨3, 2⟩) := by
  decide

/-- C36, amended: in a function whose predecessor lists name blocks of the
function, with regions keyed by their entries, one run of the machine-level
`findAntidependencePairs` for an instruction `S` returns, and the run that
also records its scans returns the same state together with the record `Log`.
The run changes the function by inserting `k` boundaries immediately before
`S`, where `k` is the number of the scans of the record that end at a load from
the stack slot of `S`. The scans of the record are the first scan, which starts
at `S` and ends as `slotFirst` says, followed by the scans of the blocks `tr`
that the run enters from their end, each ending as `slotEnd` says. The blocks
`tr` are those of the backward worklist search from the predecessors of the
block of `S` that stops where a scan ends at a boundary, a call or a load from
the stack slot; every block is entered from its end at most once, and none is
when the first scan ends the path. So `k` is at most the number of blocks plus
one, at most one when the first scan ends the path, and 0 when `S` is no store
to a stack slot. -/
theorem boundaries_per_scan (MF : MachineFunction) (MIR : MachineIdempotentRegions)
    (S : InstPos) (Store : MachineInstr) (hS : MF.inst? S = some Store)
    (hpv : ∀ (b : Nat) (B : MachineBasicBlock), MF.blocks[b]? = some B →
      ∀ s ∈ B.preds, s < MF.blocks.length)
    (hInv : RegionsInv MIR) :
    ∃ (St : SpillSearch) (Log : List (Nat × ScanEnd)) (k : Nat) (first : ScanEnd)
        (tr : List Nat),
      MachineIdempotentRegions.findAntidependencePairs MF MIR S = some St ∧
      MachineIdempotentRegions.findAntidependencePairsScans MF MIR S = some (St, Log) ∧
      k = (Log.filter (fun e => decide (e.2 = ScanEnd.aliasingLoad))).length ∧
      St.MF = insertBoundaries MF S k ∧ St.MI = ⟨S.bb, S.idx + k⟩ ∧
      Log.map (fun e => (e.1, some e.2)) =
        (S.bb, slotFirst MF S Store.storeToStackSlot) ::
          tr.map (fun b => (b, slotEnd MF S Store.storeToStackSlot b)) ∧
      slotFirst MF S Store.storeToStackSlot = some first ∧
      (first ≠ .notFound → tr = []) ∧
      (first = .notFound →
        dfsTrace (slotStop MF S Store.storeToStackSlot) (backNbrs MF) (MF.blocks.length + 1)
          (pushSuccs (backNbrs MF S.bb) [] []).1 (pushSuccs (backNbrs MF S.bb) [] []).2 =
            some tr) ∧
      tr.Nodup ∧ (∀ b ∈ tr, b < MF.blocks.length) ∧
      k = (if first = .aliasingLoad then 1 else 0) +
        slotInserts MF S Store.storeToStackSlot tr ∧
      k ≤ MF.blocks.length + 1 ∧
      (first ≠ .notFound → k ≤ 1) ∧
      (Store.storeToStackSlot = none → k = 0) := by
  have hB1 : ∃ B, MF.blocks[S.bb]? = some B ∧ B.insts[S.idx]? = some Store := by
    unfold MachineFunction.inst? at hS
    cases hB : MF.blocks[S.bb]? with
    | none => rw [hB] at hS; cases hS
    | some B =>
      rw [hB] at hS
      exact ⟨B, rfl, hS⟩
  obtain ⟨B, hB, hSB⟩ := hB1
  have hnb : backNbrs MF S.bb = B.preds := by simp [backNbrs, hB]
  obtain ⟨St, first, tr, h1, h2, h3, h4, h5, h6, _⟩ := spill_run MF S B hB Store hSB hpv MIR hInv
  obtain ⟨St1, Log, first1, tr1, g1, g2, g3, g4, g5⟩ :=
    spillScans_run MF S B hB Store hSB hpv MIR hInv
  -- the two runs are the same run
  have hfirst1 : first1 = first := by
    rw [h1] at g1
    exact (Option.some.inj g1).symm
  subst hfirst1
  have htr1 : tr1 = tr := by
    by_cases hf : first1 = .notFound
    · have := g3 hf
      rw [h3 hf] at this
      exact (Option.some.inj this).symm
    · rw [g2 hf, h2 hf]
  subst htr1
  have hSt : St1 = St := by
    have he := spillLog_erase (MF.blocks.length + 2)
      { MF := MF, MIR := MIR, MI := S, Worklist := [S], Visited := [] } []
    unfold MachineIdempotentRegions.findAntidependencePairsScans at g4
    unfold MachineIdempotentRegions.findAntidependencePairs at h4
    rw [g4, h4] at he
    exact Option.some.inj he
  subst hSt
  -- the scans that end at a load
  have hcount : (Log.filter (fun e => decide (e.2 = ScanEnd.aliasingLoad))).length =
      (if first1 = .aliasingLoad then 1 else 0) +
        slotInserts MF S Store.storeToStackSlot tr1 := by
    cases Log with
    | nil => simp at g5
    | cons e Log1 =>
      simp only [List.map_cons, List.cons.injEq, Prod.mk.injEq, Option.some.injEq] at g5
      obtain ⟨⟨_, e2⟩, e3⟩ := g5
      rw [List.filter_cons, ← scanCount_eq MF S _ Log1 tr1 e3, e2]
      by_cases he : first1 = ScanEnd.aliasingLoad
      · simp [he]
        omega
      · simp [he]
  have htr : tr1.Nodup ∧ ∀ b ∈ tr1, b < MF.blocks.length := by
    by_cases hf : first1 = .notFound
    · exact slotTrace_nodup MF S _ B.preds tr1 (h3 hf)
    · rw [h2 hf]
      exact ⟨List.nodup_nil, by simp⟩
  have hle : slotInserts MF S Store.storeToStackSlot tr1 ≤ tr1.length := by
    unfold slotInserts
    exact List.length_filter_le _ _
  have hlen := nodup_length_le tr1 MF.blocks.length htr.1 htr.2
  have hone : first1 ≠ .notFound →
      (if first1 = .aliasingLoad then 1 else 0) +
        slotInserts MF S Store.storeToStackSlot tr1 ≤ 1 := by
    intro hf
    rw [h2 hf]
    by_cases hf1 : first1 = .aliasingLoad
    · simp [hf1, slotInserts]
    · simp [hf1, slotInserts]
  refine ⟨St1, Log, _, first1, tr1, h4, g4, hcount.symm, h5, h6, ?_, h1, h2, ?_, htr.1, htr.2,
    rfl, ?_, hone, ?_⟩
  · rw [g5, h1]
  · intro hf
    rw [hnb]
    exact h3 hf
  · by_cases hf : first1 = .notFound
    · rw [if_neg (by rw [hf]; exact fun h => (by cases h))]
      omega
    · have := hone hf
      omega
  · intro hnone
    have hfirst : first1 = .notFound := by
      rw [hnone] at h1
      simp [slotFirst, hB] at h1
      exact h1.symm
    have hz : slotInserts MF S Store.storeToStackSlot tr1 = 0 := by
      unfold slotInserts
      rw [List.length_eq_zero, List.filter_eq_nil_iff]
      intro b hb
      obtain ⟨Bb, hBb⟩ := mblock_of_lt MF b (htr.2 b hb)
      simp [hnone, slotEnd, hBb]
    rw [hfirst, hz]
    simp

/-- Witness of the amended C36 on `exampleTwoSpillPaths`. -/
theorem boundaries_per_scan_witness :
    ∃ (St : SpillSearch) (Log : List (Nat × ScanEnd)) (k : Nat) (first : ScanEnd)
        (tr : List Nat),
      MachineIdempotentRegions.findAntidependencePairs exampleTwoSpillPaths ⟨[], []⟩ ⟨3, 0⟩ =
        some St ∧
      MachineIdempotentRegions.findAntidependencePairsScans exampleTwoSpillPaths ⟨[], []⟩
        ⟨3, 0⟩ = some (St, Log) ∧
      k = (Log.filter (fun e => decide (e.2 = ScanEnd.aliasingLoad))).length ∧
      St.MF = insertBoundaries exampleTwoSpillPaths ⟨3, 0⟩ k ∧
      St.MI = ⟨(⟨3, 0⟩ : InstPos).bb, (⟨3, 0⟩ : InstPos).idx + k⟩ ∧
      Log.map (fun e => (e.1, some e.2)) =
        ((⟨3, 0⟩ : InstPos).bb,
            slotFirst exampleTwoSpillPaths ⟨3, 0⟩ (slotStoreInstr 0).storeToStackSlot) ::
          tr.map (fun b =>
            (b, slotEnd exampleTwoSpillPaths ⟨3, 0⟩ (slotStoreInstr 0).storeToStackSlot b)) ∧
      slotFirst exampleTwoSpillPaths ⟨3, 0⟩ (slotStoreInstr 0).storeToStackSlot = some first ∧
      (first ≠ .notFound → tr = []) ∧
      (first = .notFound →
        dfsTrace (slotStop exampleTwoSpillPaths ⟨3, 0⟩ (slotStoreInstr 0).storeToStackSlot)
          (backNbrs exampleTwoSpillPaths) (exampleTwoSpillPaths.blocks.length + 1)
          (pushSuccs (backNbrs exampleTwoSpillPaths (⟨3, 0⟩ : InstPos).bb) [] []).1
          (pushSuccs (backNbrs exampleTwoSpillPaths (⟨3, 0⟩ : InstPos).bb) [] []).2 =
            some tr) ∧
      tr.Nodup ∧ (∀ b ∈ tr, b < exampleTwoSpillPaths.blocks.length) ∧
      k = (if first = .aliasingLoad then 1 else 0) +
        slotInserts exampleTwoSpillPaths ⟨3, 0⟩ (slotStoreInstr 0).storeToStackSlot tr ∧
      k ≤ exampleTwoSpillPaths.blocks.length + 1 ∧
      (first ≠ .notFound → k ≤ 1) ∧
      ((slotStoreInstr 0).storeToStackSlot = none → k = 0) :=
  boundaries_per_scan exampleTwoSpillPaths ⟨[], []⟩ ⟨3, 0⟩ (slotStoreInstr 0) rfl
    (mpreds_valid exampleTwoSpillPaths (cfg_wellFormed_of_check _ (by decide))) regionsInv_nil

end Ratchet

namespace Ratchet

/-! ## C35: the postcondition of `fixStackSpills` -/

theorem slotStopperAt_eq (MF : MachineFunction) (FI : Int) (b k : Nat) (B : MachineBasicBlock)
    (hB : MF.blocks[b]? = some B) (MI : MachineInstr) (hMI : B.insts[k]? = some MI) :
    slotStopperAt MF FI ⟨b, k⟩ =
      (MI.isIdemBoundary || MI.isCall || decide (MI.loadFromStackSlot = some FI)) := by
  simp [slotStopperAt, minst?_eq MF b k B hB, hMI]

/-- The scan that meets no boundary, no call and no load from the stack slot
reaches `E`. -/
theorem scanSlot_clean (MF : MachineFunction) (FI : Int) (b : Nat) (B : MachineBasicBlock)
    (hB : MF.blocks[b]? = some B) (E : Nat) :
    ∀ I, E ≤ I → I ≤ B.insts.length →
      (∀ k, E ≤ k → k < I → slotStopperAt MF FI ⟨b, k⟩ = false) →
      scanSlotLoop B.insts FI E I = some .notFound := by
  intro I
  induction I with
  | zero =>
    intro hE _ _
    have : E = 0 := by omega
    subst this
    exact scanSlotLoop_at _ _ _
  | succ I ih =>
    intro hE hI hclean
    by_cases e : I + 1 = E
    · rw [e]
      exact scanSlotLoop_at _ _ _
    · have hget : B.insts[I]? = some B.insts[I] := List.getElem?_eq_getElem (by omega)
      have hst := hclean I (by omega) (by omega)
      rw [slotStopperAt_eq MF FI b I B hB _ hget] at hst
      simp only [Bool.or_eq_false_iff, decide_eq_false_iff_not] at hst
      rw [scanSlotLoop, if_neg e, hget]
      simp only [hst.1.1, hst.1.2, Bool.or_self, Bool.false_eq_true, if_false, hst.2]
      exact ih (by omega) (by omega) (fun k h1 h2 => hclean k h1 (by omega))

/-- The scan ends at the load from the stack slot that it meets first. -/
theorem scanSlot_found (MF : MachineFunction) (FI : Int) (b : Nat) (B : MachineBasicBlock)
    (hB : MF.blocks[b]? = some B) (E j : Nat) (LI : MachineInstr)
    (hj : B.insts[j]? = some LI) (hcut : (LI.isIdemBoundary || LI.isCall) = false)
    (hload : LI.loadFromStackSlot = some FI) (hE : E ≤ j) :
    ∀ I, j < I → I ≤ B.insts.length →
      (∀ k, j < k → k < I → slotStopperAt MF FI ⟨b, k⟩ = false) →
      scanSlotLoop B.insts FI E I = some .aliasingLoad := by
  intro I
  induction I with
  | zero => intro h; omega
  | succ I ih =>
    intro hjI hI hclean
    rw [scanSlotLoop, if_neg (by omega)]
    by_cases e : I = j
    · subst e
      rw [hj]
      simp only [hcut, Bool.false_eq_true, if_false, hload, if_true]
    · have hget : B.insts[I]? = some B.insts[I] := List.getElem?_eq_getElem (by omega)
      have hst := hclean I (by omega) (by omega)
      rw [slotStopperAt_eq MF FI b I B hB _ hget] at hst
      simp only [Bool.or_eq_false_iff, decide_eq_false_iff_not] at hst
      rw [hget]
      simp only [hst.1.1, hst.1.2, Bool.or_self, Bool.false_eq_true, if_false, hst.2]
      exact ih (by omega) (by omega) (fun k h1 h2 => hclean k h1 (by omega))

theorem stopper_of_exit (MF : MachineFunction) (FI : Int) (b i : Nat) (B : MachineBasicBlock)
    (hB : MF.blocks[b]? = some B) (hi : i < B.insts.length)
    (hex : MF.exitAt ⟨b, i⟩ = false)
    (hload : B.insts[i].loadFromStackSlot ≠ some FI) :
    slotStopperAt MF FI ⟨b, i⟩ = false := by
  have hget : B.insts[i]? = some B.insts[i] := List.getElem?_eq_getElem hi
  rw [slotStopperAt_eq MF FI b i B hB _ hget]
  simp only [MachineFunction.exitAt, minst?_eq MF b i B hB, hget] at hex
  simp only [hex, Bool.false_or, decide_eq_false_iff_not]
  exact hload

/-- Along a control-flow path to the store on which no instruction is a
boundary or a call, a run of `findAntidependencePairs` that inserts nothing
arrives at every position, in the first scan or in the scan of a block entered
from its end, and no instruction of the path behind that position is a load
from the stack slot. -/
theorem slot_reaches (MF : MachineFunction) (hOk : SpillOk MF) (S : InstPos)
    (B : MachineBasicBlock) (hB : MF.blocks[S.bb]? = some B) (hSlt : S.idx < B.insts.length)
    (FI : Int) (first : ScanEnd) (tr : List Nat)
    (hfirst : slotFirst MF S (some FI) = some first)
    (htr1 : first ≠ .notFound → tr = [])
    (htr2 : first = .notFound →
      dfsTrace (slotStop MF S (some FI)) (backNbrs MF) (MF.blocks.length + 1)
        (pushSuccs B.preds [] []).1 (pushSuccs B.preds [] []).2 = some tr)
    (hno1 : first ≠ .aliasingLoad)
    (hno2 : ∀ b ∈ tr, slotEnd MF S (some FI) b ≠ some .aliasingLoad) :
    ∀ (rest : List InstPos) (p : InstPos), List.Chain (Step MF.cfg) p rest →
      (p :: rest).getLast? = some S →
      (∀ q ∈ (p :: rest).dropLast, MF.exitAt q = false) →
      (p.bb = S.bb ∧ p.idx ≤ S.idx ∧
          ∀ j, p.idx ≤ j → j < S.idx → slotStopperAt MF FI ⟨S.bb, j⟩ = false) ∨
        (p.bb ∈ tr ∧ (if p.bb = S.bb then S.idx else 0) ≤ p.idx ∧
          ∀ j, p.idx ≤ j → j < MF.blockLen p.bb → slotStopperAt MF FI ⟨p.bb, j⟩ = false) := by
  have hf : scanSlotLoop B.insts FI 0 S.idx = some first := by
    simpa [slotFirst, hB] using hfirst
  -- an instruction met by the first scan is no load from the stack slot
  have hstop1 : ∀ i, i < S.idx → MF.exitAt ⟨S.bb, i⟩ = false →
      (∀ k, i < k → k < S.idx → slotStopperAt MF FI ⟨S.bb, k⟩ = false) →
      slotStopperAt MF FI ⟨S.bb, i⟩ = false := by
    intro i hi hex hcl
    apply stopper_of_exit MF FI S.bb i B hB (by omega) hex
    intro hload
    have hget : B.insts[i]? = some B.insts[i] := List.getElem?_eq_getElem (by omega)
    have hcut : (B.insts[i].isIdemBoundary || B.insts[i].isCall) = false := by
      simpa [MachineFunction.exitAt, minst?_eq MF S.bb i B hB, hget] using hex
    have := scanSlot_found MF FI S.bb B hB 0 i _ hget hcut hload (Nat.zero_le _) S.idx hi
      (by omega) hcl
    rw [this] at hf
    exact hno1 (Option.some.inj hf).symm
  -- nor is one met by the scan of a block entered from its end
  have hstop2 : ∀ b, b ∈ tr → ∀ Bb, MF.blocks[b]? = some Bb →
      ∀ i, (if b = S.bb then S.idx else 0) ≤ i → i < Bb.insts.length →
      MF.exitAt ⟨b, i⟩ = false →
      (∀ k, i < k → k < Bb.insts.length → slotStopperAt MF FI ⟨b, k⟩ = false) →
      slotStopperAt MF FI ⟨b, i⟩ = false := by
    intro b hb Bb hBb i hlo hi hex hcl
    apply stopper_of_exit MF FI b i Bb hBb hi hex
    intro hload
    have hget : Bb.insts[i]? = some Bb.insts[i] := List.getElem?_eq_getElem hi
    have hcut : (Bb.insts[i].isIdemBoundary || Bb.insts[i].isCall) = false := by
      simpa [MachineFunction.exitAt, minst?_eq MF b i Bb hBb, hget] using hex
    have := scanSlot_found MF FI b Bb hBb _ i _ hget hcut hload hlo Bb.insts.length hi
      (Nat.le_refl _) hcl
    apply hno2 b hb
    simp only [slotEnd, hBb]
    exact this
  intro rest
  induction rest with
  | nil =>
    intro p _ hlast _
    simp only [List.getLast?_singleton, Option.some.injEq] at hlast
    subst hlast
    exact Or.inl ⟨rfl, Nat.le_refl _, fun j h1 h2 => by omega⟩
  | cons q rest ih =>
    intro p hchain hlast hclean
    rw [List.chain_cons] at hchain
    rw [List.getLast?_cons_cons] at hlast
    obtain ⟨hstep, hchain1⟩ := hchain
    have hdl : (p :: q :: rest).dropLast = p :: (q :: rest).dropLast := rfl
    rw [hdl] at hclean
    have hp : MF.exitAt p = false := hclean p (List.mem_cons_self _ _)
    have ihq := ih q hchain1 hlast (fun x hx => hclean x (List.mem_cons_of_mem _ hx))
    cases hstep with
    | next b i Bc hBc hi =>
      obtain ⟨Bb, hBb, hBc1⟩ := mblock_of_cfg MF b Bc hBc
      subst hBc1
      simp only at hi
      rcases ihq with ⟨h1, h2, h3⟩ | ⟨h1, h2, h3⟩
      · simp only at h1 h2 h3
        subst h1
        have hpi := hstop1 i (by omega) hp (fun k a1 a2 => h3 k (by omega) a2)
        refine Or.inl ⟨rfl, by simp only; omega, ?_⟩
        intro j hj1 hj2
        simp only at hj1
        by_cases e : j = i
        · subst e
          exact hpi
        · exact h3 j (by omega) hj2
      · simp only at h1 h2 h3
        rw [mblockLen_eq MF b Bb hBb] at h3
        by_cases e : (if b = S.bb then S.idx else 0) = i + 1
        · -- the successor position is the store
          have hb : b = S.bb := by
            by_cases hb : b = S.bb
            · exact hb
            · rw [if_neg hb] at e
              omega
          rw [if_pos hb] at e
          subst hb
          have hpi := hstop1 i (by omega) hp (fun k a1 a2 => by omega)
          refine Or.inl ⟨rfl, by simp only; omega, ?_⟩
          intro j hj1 hj2
          simp only at hj1
          have : j = i := by omega
          subst this
          exact hpi
        · have hpi := hstop2 b h1 Bb hBb i (by omega) hi hp
            (fun k a1 a2 => h3 k (by omega) a2)
          refine Or.inr ⟨h1, by simp only; omega, ?_⟩
          intro j hj1 hj2
          simp only at hj1 hj2
          rw [mblockLen_eq MF b Bb hBb] at hj2
          by_cases e1 : j = i
          · subst e1
            exact hpi
          · exact h3 j (by omega) hj2
    | jump a s A Sc hA hs hSc =>
      obtain ⟨Ba, hBa, hA1⟩ := mblock_of_cfg MF a A hA
      obtain ⟨Bs, hBs, hS1⟩ := mblock_of_cfg MF s Sc hSc
      subst hA1 hS1
      simp only at hs hp ⊢
      have hpred : a ∈ Bs.preds := hOk.mirror a s Ba Bs hBa hBs hs
      have hlo : (if a = S.bb then S.idx else 0) ≤ Ba.insts.length := by
        by_cases e : a = S.bb
        · rw [if_pos e]
          subst e
          rw [hBa] at hB
          cases hB
          omega
        · rw [if_neg e]
          omega
      have hvac : ∀ j, Ba.insts.length ≤ j → j < MF.blockLen a →
          slotStopperAt MF FI ⟨a, j⟩ = false := by
        intro j h1 h2
        rw [mblockLen_eq MF a Ba hBa] at h2
        omega
      rcases ihq with ⟨h1, _, h3⟩ | ⟨h1, h2, h3⟩
      · -- the successor is the block of the store, scanned first
        simp only at h1 h3
        subst h1
        rw [hBs] at hB
        cases hB
        have hsc := scanSlot_clean MF FI S.bb B hBs 0 S.idx (Nat.zero_le _) (by omega)
          (fun k _ hk => h3 k (Nat.zero_le _) hk)
        rw [hsc] at hf
        have hfe : first = .notFound := (Option.some.inj hf).symm
        refine Or.inr ⟨?_, hlo, hvac⟩
        apply (dfsTrace_closed _ _ _ _ _ _ (htr2 hfe)).1 a
        rw [mem_pushSuccs_wl]
        exact Or.inr ⟨hpred, by simp⟩
      · -- the successor is a block entered from its end
        simp only at h1 h2 h3
        have hfe : first = .notFound := by
          by_contra hne
          rw [htr1 hne] at h1
          cases h1
        have hcl := dfsTrace_closed _ _ _ _ _ _ (htr2 hfe)
        obtain ⟨st, hst, hnb⟩ := hcl.2 s h1
        have hlo0 : (if s = S.bb then S.idx else 0) = 0 := by omega
        have hsc := scanSlot_clean MF FI s Bs hBs 0 Bs.insts.length (Nat.zero_le _)
          (Nat.le_refl _)
          (fun k _ hk => h3 k (Nat.zero_le _) (by rw [mblockLen_eq MF s Bs hBs]; exact hk))
        have hst2 : slotStop MF S (some FI) s = some false := by
          simp only [slotStop, slotEnd, hBs, hlo0, hsc, Option.map_some']
          rfl
        rw [hst2] at hst
        have hstf : st = false := (Option.some.inj hst).symm
        have hnbr : a ∈ backNbrs MF s := by
          simp only [backNbrs, hBs]
          exact hpred
        rcases hnb hstf a hnbr with h | h
        · exact Or.inr ⟨hcl.1 a (pushSuccs_nil_vis _ _ h), hlo, hvac⟩
        · exact Or.inr ⟨h, hlo, hvac⟩

/-- A run of `findAntidependencePairs` that inserts nothing leaves no load
exposed to the store. -/
theorem run_safe (MF : MachineFunction) (hOk : SpillOk MF) (S : InstPos)
    (B : MachineBasicBlock) (hB : MF.blocks[S.bb]? = some B) (hSlt : S.idx < B.insts.length)
    (FI : Int) (first : ScanEnd) (tr : List Nat)
    (hfirst : slotFirst MF S (some FI) = some first)
    (htr1 : first ≠ .notFound → tr = [])
    (htr2 : first = .notFound →
      dfsTrace (slotStop MF S (some FI)) (backNbrs MF) (MF.blocks.length + 1)
        (pushSuccs B.preds [] []).1 (pushSuccs B.preds [] []).2 = some tr)
    (hk : (if first = .aliasingLoad then 1 else 0) + slotInserts MF S (some FI) tr = 0) :
    ¬ ExposedLoad MF FI S := by
  have hno1 : first ≠ .aliasingLoad := by
    intro e
    rw [if_pos e] at hk
    omega
  have hno2 : ∀ b ∈ tr, slotEnd MF S (some FI) b ≠ some .aliasingLoad := by
    intro b hb e
    have hz : slotInserts MF S (some FI) tr = 0 := by omega
    unfold slotInserts at hz
    rw [List.length_eq_zero, List.filter_eq_nil_iff] at hz
    exact hz b hb (by simp [e])
  have hf : scanSlotLoop B.insts FI 0 S.idx = some first := by
    simpa [slotFirst, hB] using hfirst
  rintro ⟨L, rest, LI, hpath, hlast, hL, hload, hclean⟩
  cases rest with
  | nil => cases hlast
  | cons q rest =>
    have hchain : List.Chain (Step MF.cfg) L (q :: rest) := hpath
    rw [List.chain_cons] at hchain
    obtain ⟨hstep, hchain1⟩ := hchain
    have hreach := slot_reaches MF hOk S B hB hSlt FI first tr hfirst htr1 htr2 hno1 hno2
      rest q hchain1 hlast hclean
    have hnc := hOk.loadNoCut L LI hL (by rw [hload]; rfl)
    generalize hLp : L = Lp at hstep
    cases hstep with
    | next b i Bc hBc hi =>
      subst hLp
      obtain ⟨Bb, hBb, hBc1⟩ := mblock_of_cfg MF b Bc hBc
      subst hBc1
      simp only at hi hreach
      have hget : Bb.insts[i]? = some LI := by
        rw [← minst?_eq MF b i Bb hBb]
        exact hL
      have hcut : (LI.isIdemBoundary || LI.isCall) = false := by simp [hnc.1, hnc.2]
      have hfirstFound : b = S.bb → i < S.idx →
          (∀ k, i < k → k < S.idx → slotStopperAt MF FI ⟨S.bb, k⟩ = false) → False := by
        intro hb hi1 hcl
        subst hb
        rw [hBb] at hB
        cases hB
        have := scanSlot_found MF FI S.bb B hBb 0 i LI hget hcut hload (Nat.zero_le _) S.idx
          hi1 (by omega) hcl
        rw [this] at hf
        exact hno1 (Option.some.inj hf).symm
      rcases hreach with ⟨h1, h2, h3⟩ | ⟨h1, h2, h3⟩
      · exact hfirstFound h1 (by omega) (fun k a1 a2 => h3 k (by omega) a2)
      · rw [mblockLen_eq MF b Bb hBb] at h3
        by_cases e : (if b = S.bb then S.idx else 0) = i + 1
        · have hb : b = S.bb := by
            by_cases hb : b = S.bb
            · exact hb
            · rw [if_neg hb] at e
              omega
          rw [if_pos hb] at e
          exact hfirstFound hb (by omega) (fun k a1 a2 => by omega)
        · have := scanSlot_found MF FI b Bb hBb _ i LI hget hcut hload
            (show (if b = S.bb then S.idx else 0) ≤ i by omega) Bb.insts.length hi
            (Nat.le_refl _) (fun k a1 a2 => h3 k (by omega) a2)
          apply hno2 b h1
          simp only [slotEnd, hBb]
          exact this
    | jump a s A Sc hA hs hSc =>
      subst hLp
      obtain ⟨Ba, hBa, hA1⟩ := mblock_of_cfg MF a A hA
      subst hA1
      rw [minst?_eq MF a _ Ba hBa] at hL
      simp only at hL
      rw [List.getElem?_eq_none (Nat.le_refl _)] at hL
      cases hL

/-- No load is exposed to an instruction before which stands a boundary. -/
theorem boundary_before_safe (MF : MachineFunction) (FI : Int) (S : InstPos) (i : Nat)
    (hS : S.idx = i + 1) (hb : MF.inst? ⟨S.bb, i⟩ = some idemInstr) :
    ¬ ExposedLoad MF FI S := by
  have hlast : ∀ (rest : List InstPos) (L : InstPos), List.Chain (Step MF.cfg) L rest →
      rest.getLast? = some S →
      ∃ q, Step MF.cfg q S ∧ ((q = L ∧ rest = [S]) ∨ q ∈ rest.dropLast) := by
    intro rest
    induction rest with
    | nil => intro L _ h; cases h
    | cons a rest ih =>
      intro L hc hl
      rw [List.chain_cons] at hc
      cases rest with
      | nil =>
        simp only [List.getLast?_singleton, Option.some.injEq] at hl
        subst hl
        exact ⟨L, hc.1, Or.inl ⟨rfl, rfl⟩⟩
      | cons b rest =>
        rw [List.getLast?_cons_cons] at hl
        obtain ⟨q, h1, h2⟩ := ih a hc.2 hl
        refine ⟨q, h1, Or.inr ?_⟩
        have hdl : (a :: b :: rest).dropLast = a :: (b :: rest).dropLast := rfl
        rw [hdl]
        rcases h2 with ⟨e, _⟩ | h2
        · rw [e]
          exact List.mem_cons_self _ _
        · exact List.mem_cons_of_mem _ h2
  rintro ⟨L, rest, LI, hpath, hl, hL, hload, hclean⟩
  obtain ⟨q, hstep, hq⟩ := hlast rest L hpath hl
  have hqe : q = ⟨S.bb, i⟩ := by
    generalize hSp : S = Sp at hstep
    cases hstep with
    | next b j Bc hBc hj =>
      subst hSp
      simp only at hS ⊢
      have : j = i := by omega
      rw [this]
    | jump a s A Sc hA hs hSc =>
      subst hSp
      simp only at hS
      omega
  subst hqe
  rcases hq with ⟨e, _⟩ | hq
  · rw [← e, hb] at hL
    have := Option.some.inj hL
    subst this
    cases hload
  · have := hclean _ hq
    simp [MachineFunction.exitAt, hb, idemInstr, MachineInstr.isIdemBoundary] at this

/-! ### Paths of the function with inserted boundaries -/

/-- The inserted instructions are boundaries. -/
theorem inserted_inst (MF : MachineFunction) (X : InstPos) (k : Nat) (B : MachineBasicBlock)
    (hB : MF.blocks[X.bb]? = some B) (hX : X.idx ≤ B.insts.length) (q : InstPos)
    (hq : q.bb = X.bb ∧ X.idx ≤ q.idx ∧ q.idx < X.idx + k) :
    (insertBoundaries MF X k).inst? q = some idemInstr := by
  obtain ⟨qb, qi⟩ := q
  simp only at hq
  obtain ⟨h1, h2, h3⟩ := hq
  subst h1
  unfold MachineFunction.inst?
  rw [insertBoundaries_blocks MF X k B hB X.bb, if_pos rfl]
  simp only
  rw [List.getElem?_append_right (by simp only [List.length_take]; omega)]
  rw [List.getElem?_append_left (by simp only [List.length_take, List.length_replicate]; omega)]
  rw [List.getElem?_replicate, if_pos (by simp only [List.length_take]; omega)]

/-- The other instructions are those of the function, at the places where they
stood. -/
theorem uninsert_inst (MF : MachineFunction) (X : InstPos) (k : Nat) (B : MachineBasicBlock)
    (hB : MF.blocks[X.bb]? = some B) (hX : X.idx ≤ B.insts.length) (q : InstPos)
    (hq : ¬ (q.bb = X.bb ∧ X.idx ≤ q.idx ∧ q.idx < X.idx + k)) :
    (insertBoundaries MF X k).inst? q = MF.inst? (q.beforeInsert X.bb X.idx k) := by
  obtain ⟨qb, qi⟩ := q
  simp only at hq
  unfold MachineFunction.inst? InstPos.beforeInsert
  rw [insertBoundaries_blocks MF X k B hB qb]
  by_cases e : qb = X.bb
  · subst e
    rw [if_pos rfl]
    by_cases h1 : X.idx + k ≤ qi
    · simp only [h1, and_self, if_true, hB]
      obtain ⟨j, hj⟩ : ∃ j, qi = j + k := ⟨qi - k, by omega⟩
      subst hj
      rw [inserted_getElem B.insts X.idx k j hX (by omega), Nat.add_sub_cancel]
    · have h2 : qi < X.idx := by
        by_contra hn
        exact hq ⟨rfl, by omega, by omega⟩
      simp only [h1, and_false, if_false, hB]
      rw [List.getElem?_append_left (by simp only [List.length_take]; omega),
        List.getElem?_take_of_lt h2]
  · rw [if_neg e]
    simp only [e, false_and, if_false]

theorem insertBoundaries_cfg (MF : MachineFunction) (X : InstPos) (k : Nat)
    (B : MachineBasicBlock) (hB : MF.blocks[X.bb]? = some B) (hX : X.idx ≤ B.insts.length)
    (b : Nat) (C1 : CfgBlock) (h : (insertBoundaries MF X k).cfg[b]? = some C1) :
    ∃ C, MF.cfg[b]? = some C ∧ C1.preds = C.preds ∧ C1.succs = C.succs ∧
      C1.len = if b = X.bb then C.len + k else C.len := by
  obtain ⟨B1, hB1, e1⟩ := mblock_of_cfg _ b C1 h
  rw [insertBoundaries_blocks MF X k B hB b] at hB1
  by_cases e : b = X.bb
  · rw [if_pos e] at hB1
    have := Option.some.inj hB1
    subst this
    subst e1
    subst e
    refine ⟨_, mcfg_of_block MF X.bb B hB, rfl, rfl, ?_⟩
    simp only [if_true, List.length_append, List.length_take, List.length_replicate,
      List.length_drop]
    omega
  · rw [if_neg e] at hB1
    subst e1
    exact ⟨_, mcfg_of_block MF b B1 hB1, rfl, rfl, by rw [if_neg e]⟩

/-- A step of control flow between two instructions that were not inserted is a
step of the function without the inserted boundaries. -/
theorem uninsert_step (MF : MachineFunction) (X : InstPos) (k : Nat) (B : MachineBasicBlock)
    (hB : MF.blocks[X.bb]? = some B) (hX : X.idx ≤ B.insts.length) (q q1 : InstPos)
    (hstep : Step (insertBoundaries MF X k).cfg q q1)
    (hq : ¬ (q.bb = X.bb ∧ X.idx ≤ q.idx ∧ q.idx < X.idx + k))
    (hq1 : ¬ (q1.bb = X.bb ∧ X.idx ≤ q1.idx ∧ q1.idx < X.idx + k)) :
    Step MF.cfg (q.beforeInsert X.bb X.idx k) (q1.beforeInsert X.bb X.idx k) := by
  have hCB := mcfg_of_block MF X.bb B hB
  cases hstep with
  | next b i C1 hC1 hi =>
    obtain ⟨C, hC, _, _, hlen⟩ := insertBoundaries_cfg MF X k B hB hX b C1 hC1
    simp only at hq hq1
    unfold InstPos.beforeInsert
    simp only
    by_cases e : b = X.bb
    · subst e
      rw [hCB] at hC
      have := Option.some.inj hC
      subst this
      rw [if_pos rfl] at hlen
      simp only at hlen
      simp only [true_and] at hq hq1 ⊢
      by_cases h1 : X.idx + k ≤ i
      · rw [if_pos h1, if_pos (by omega)]
        have e2 : i + 1 - k = (i - k) + 1 := by omega
        rw [e2]
        exact Step.next X.bb (i - k) _ hCB (by simp only; omega)
      · rw [if_neg h1]
        by_cases h2 : X.idx + k ≤ i + 1
        · rw [if_pos h2]
          have hk : k = 0 := by omega
          subst hk
          exact Step.next X.bb i _ hCB (by simp only; omega)
        · rw [if_neg h2]
          exact Step.next X.bb i _ hCB (by simp only; omega)
    · rw [if_neg e] at hlen
      simp only [e, false_and, if_false]
      exact Step.next b i C hC (by omega)
  | jump a s A1 S1 hA1 hs hS1 =>
    obtain ⟨A, hA, _, hsucc, hlen⟩ := insertBoundaries_cfg MF X k B hB hX a A1 hA1
    obtain ⟨Sc, hSc, _, _, _⟩ := insertBoundaries_cfg MF X k B hB hX s S1 hS1
    rw [hsucc] at hs
    have h1 : (⟨a, A1.len⟩ : InstPos).beforeInsert X.bb X.idx k = ⟨a, A.len⟩ := by
      unfold InstPos.beforeInsert
      simp only
      by_cases e : a = X.bb
      · subst e
        rw [hCB] at hA
        have := Option.some.inj hA
        subst this
        rw [if_pos rfl] at hlen
        simp only at hlen
        rw [if_pos ⟨rfl, by omega⟩, hlen]
        simp
      · rw [if_neg e] at hlen
        rw [if_neg (fun h => e h.1), hlen]
    have h2 : (⟨s, 0⟩ : InstPos).beforeInsert X.bb X.idx k = ⟨s, 0⟩ := by
      unfold InstPos.beforeInsert
      simp only
      by_cases e : s = X.bb ∧ X.idx + k ≤ 0
      · rw [if_pos e]
        simp
      · rw [if_neg e]
    rw [h1, h2]
    exact Step.jump a s A Sc hA hs hSc

theorem uninsert_chain (MF : MachineFunction) (X : InstPos) (k : Nat) (B : MachineBasicBlock)
    (hB : MF.blocks[X.bb]? = some B) (hX : X.idx ≤ B.insts.length) :
    ∀ (l : List InstPos) (p : InstPos), List.Chain (Step (insertBoundaries MF X k).cfg) p l →
      ¬ (p.bb = X.bb ∧ X.idx ≤ p.idx ∧ p.idx < X.idx + k) →
      (∀ q ∈ l, ¬ (q.bb = X.bb ∧ X.idx ≤ q.idx ∧ q.idx < X.idx + k)) →
      List.Chain (Step MF.cfg) (p.beforeInsert X.bb X.idx k)
        (l.map (fun q => q.beforeInsert X.bb X.idx k)) := by
  intro l
  induction l with
  | nil => intro p _ _ _; exact List.Chain.nil
  | cons a l ih =>
    intro p hc hp hl
    rw [List.chain_cons] at hc
    rw [List.map_cons, List.chain_cons]
    exact ⟨uninsert_step MF X k B hB hX p a hc.1 hp (hl a (List.mem_cons_self _ _)),
      ih a hc.2 (hl a (List.mem_cons_self _ _)) (fun q hq => hl q (List.mem_cons_of_mem _ hq))⟩

/-- A load that is exposed to an instruction after boundaries have been
inserted elsewhere was exposed to it before. -/
theorem exposed_uninsert (MF : MachineFunction) (X : InstPos) (k : Nat) (B : MachineBasicBlock)
    (hB : MF.blocks[X.bb]? = some B) (hX : X.idx ≤ B.insts.length) (FI : Int) (p : InstPos)
    (hp : p.bb ≠ X.bb ∨ p.idx < X.idx)
    (h : ExposedLoad (insertBoundaries MF X k) FI p) : ExposedLoad MF FI p := by
  obtain ⟨L, rest, LI, hpath, hlast, hL, hload, hclean⟩ := h
  have hpR : ¬ (p.bb = X.bb ∧ X.idx ≤ p.idx ∧ p.idx < X.idx + k) := by
    rintro ⟨h1, h2, _⟩
    rcases hp with hp | hp
    · exact hp h1
    · omega
  have hpp : p.beforeInsert X.bb X.idx k = p := by
    unfold InstPos.beforeInsert
    rw [if_neg]
    rintro ⟨h1, h2⟩
    rcases hp with hp | hp
    · exact hp h1
    · omega
  have hLR : ¬ (L.bb = X.bb ∧ X.idx ≤ L.idx ∧ L.idx < X.idx + k) := by
    intro hR
    rw [inserted_inst MF X k B hB hX L hR] at hL
    have := Option.some.inj hL
    subst this
    cases hload
  have hrest : ∀ q ∈ rest, ¬ (q.bb = X.bb ∧ X.idx ≤ q.idx ∧ q.idx < X.idx + k) := by
    intro q hq hR
    have hsplit := List.dropLast_append_getLast? p (by rw [hlast]; rfl)
    rw [← hsplit] at hq
    rcases List.mem_append.mp hq with h1 | h1
    · have := hclean q h1
      simp [MachineFunction.exitAt, inserted_inst MF X k B hB hX q hR, idemInstr,
        MachineInstr.isIdemBoundary] at this
    · simp only [List.mem_singleton] at h1
      subst h1
      exact hpR hR
  have hc : IsPath MF.cfg (L.beforeInsert X.bb X.idx k ::
      rest.map (fun q => q.beforeInsert X.bb X.idx k)) :=
    uninsert_chain MF X k B hB hX rest L hpath hLR hrest
  refine ⟨L.beforeInsert X.bb X.idx k, rest.map (fun q => q.beforeInsert X.bb X.idx k), LI,
    hc, ?_, ?_, hload, ?_⟩
  · rw [List.getLast?_map, hlast]
    simp only [Option.map_some', hpp]
  · rw [← uninsert_inst MF X k B hB hX L hLR]
    exact hL
  · intro q hq
    rw [← List.map_dropLast] at hq
    obtain ⟨q0, hq0, e⟩ := List.mem_map.mp hq
    subst e
    have hq0R := hrest q0 (List.mem_of_mem_dropLast hq0)
    have := hclean q0 hq0
    unfold MachineFunction.exitAt at this ⊢
    rw [← uninsert_inst MF X k B hB hX q0 hq0R]
    exact this

/-! ### The loops of `fixStackSpills` -/

theorem spillOk_insert (MF : MachineFunction) (hOk : SpillOk MF) (X : InstPos) (k : Nat)
    (B : MachineBasicBlock) (hB : MF.blocks[X.bb]? = some B) (hX : X.idx ≤ B.insts.length) :
    SpillOk (insertBoundaries MF X k) := by
  have hblk : ∀ (b : Nat) (B1 : MachineBasicBlock),
      (insertBoundaries MF X k).blocks[b]? = some B1 →
      ∃ B0 : MachineBasicBlock, MF.blocks[b]? = some B0 ∧ B1.preds = B0.preds ∧
        B1.succs = B0.succs := by
    intro b B1 h
    rw [insertBoundaries_blocks MF X k B hB b] at h
    by_cases e : b = X.bb
    · rw [if_pos e] at h
      have := Option.some.inj h
      subst this
      rw [e]
      exact ⟨B, hB, rfl, rfl⟩
    · rw [if_neg e] at h
      exact ⟨B1, h, rfl, rfl⟩
  have hinst : ∀ (p : InstPos) (MI : MachineInstr),
      (insertBoundaries MF X k).inst? p = some MI →
      MI = idemInstr ∨ ∃ p0, MF.inst? p0 = some MI := by
    intro p MI h
    by_cases hR : p.bb = X.bb ∧ X.idx ≤ p.idx ∧ p.idx < X.idx + k
    · rw [inserted_inst MF X k B hB hX p hR] at h
      exact Or.inl (Option.some.inj h).symm
    · rw [uninsert_inst MF X k B hB hX p hR] at h
      exact Or.inr ⟨_, h⟩
  refine ⟨?_, ?_, ?_, ?_⟩
  · intro b B1 h s hs
    obtain ⟨B0, h0, e1, _⟩ := hblk b B1 h
    rw [insertBoundaries_length]
    rw [e1] at hs
    exact hOk.predsValid b B0 h0 s hs
  · intro a s A1 S1 hA hS hs
    obtain ⟨A0, hA0, _, e2⟩ := hblk a A1 hA
    obtain ⟨S0, hS0, e1, _⟩ := hblk s S1 hS
    rw [e1]
    rw [e2] at hs
    exact hOk.mirror a s A0 S0 hA0 hS0 hs
  · intro p MI h hs
    rcases hinst p MI h with e | ⟨p0, h0⟩
    · subst e
      cases hs
    · exact hOk.storeMayStore p0 MI h0 hs
  · intro p MI h hs
    rcases hinst p MI h with e | ⟨p0, h0⟩
    · subst e
      cases hs
    · exact hOk.loadNoCut p0 MI h0 hs

/-- The loop of `fixStackSpills` over the instructions of a block returns, and
behind it no load is exposed to a store to a stack slot of the block or of an
earlier block. -/
theorem fixBlock_spec (b : Nat) :
    ∀ (fuel : Nat) (S : MachineFunction × MachineIdempotentRegions) (I : Nat),
      SpillOk S.1 → RegionsInv S.2 → SafeUpTo S.1 b I → S.1.blockLen b - I < fuel →
      ∃ S1, fixStackSpillsBlock fuel S b I = some S1 ∧ SpillOk S1.1 ∧ RegionsInv S1.2 ∧
        SafeUpTo S1.1 (b + 1) 0 ∧ S1.1.blocks.length = S.1.blocks.length := by
  intro fuel
  induction fuel with
  | zero => intro _ _ _ _ _ h; omega
  | succ fuel ih =>
    intro S I hOk hInv hSafe hfuel
    obtain ⟨MF, MIR⟩ := S
    simp only at hOk hInv hSafe hfuel ⊢
    rw [fixStackSpillsBlock]
    simp only
    cases hI : MF.inst? ⟨b, I⟩ with
    | none =>
      refine ⟨(MF, MIR), rfl, hOk, hInv, ?_, rfl⟩
      intro p Store FI hp hS hFI
      apply hSafe p Store FI ?_ hS hFI
      rcases hp with hp | hp
      · by_cases e : p.bb = b
        · refine Or.inr ⟨e, ?_⟩
          by_contra hge
          obtain ⟨pb, pi⟩ := p
          simp only at e hge
          subst e
          unfold MachineFunction.inst? at hI hS
          cases hB : MF.blocks[pb]? with
          | none => rw [hB] at hS; cases hS
          | some B =>
            rw [hB] at hI hS
            simp only at hI hS
            have h1 := length_of_getElem? _ _ _ hS
            have h2 := List.getElem?_eq_none_iff.mp hI
            omega
        · exact Or.inl (by omega)
      · omega
    | some MI =>
      simp only
      have hB1 : ∃ B, MF.blocks[b]? = some B ∧ B.insts[I]? = some MI := by
        unfold MachineFunction.inst? at hI
        cases hB : MF.blocks[b]? with
        | none => rw [hB] at hI; cases hI
        | some B =>
          rw [hB] at hI
          exact ⟨B, rfl, hI⟩
      obtain ⟨B, hB, hMI⟩ := hB1
      have hIlt : I < B.insts.length := length_of_getElem? _ _ _ hMI
      rw [mblockLen_eq MF b B hB] at hfuel
      by_cases hms : MI.mayStore = true
      · rw [if_pos hms]
        obtain ⟨St, first, tr, h1, h2, h3, h4, h5, h6, h7⟩ :=
          spill_run MF ⟨b, I⟩ B hB MI hMI hOk.predsValid MIR hInv
        simp only at h5 h6
        rw [h4]
        simp only
        rw [h6]
        simp only
        generalize hk : (if first = ScanEnd.aliasingLoad then 1 else 0) +
          slotInserts MF ⟨b, I⟩ MI.storeToStackSlot tr = k at h5 h6
        have hOk1 := spillOk_insert MF hOk ⟨b, I⟩ k B hB (by simp only; omega)
        have hlen1 : (insertBoundaries MF ⟨b, I⟩ k).blockLen b = B.insts.length + k := by
          rw [insertBoundaries_blockLen MF ⟨b, I⟩ k B hB (by simp only; omega) b, if_pos rfl,
            mblockLen_eq MF b B hB]
        have hSafe1 : SafeUpTo (insertBoundaries MF ⟨b, I⟩ k) b (I + k + 1) := by
          intro p Store FI hp hS hFI
          by_cases hA : p.bb ≠ b ∨ p.idx < I
          · -- an instruction that stands where it stood
            have hnR : ¬ (p.bb = (⟨b, I⟩ : InstPos).bb ∧ (⟨b, I⟩ : InstPos).idx ≤ p.idx ∧
                p.idx < (⟨b, I⟩ : InstPos).idx + k) := by
              rintro ⟨a1, a2, _⟩
              simp only at a1 a2
              rcases hA with hA | hA
              · exact hA a1
              · omega
            have hpp : p.beforeInsert b I k = p := by
              unfold InstPos.beforeInsert
              rw [if_neg]
              rintro ⟨a1, a2⟩
              rcases hA with hA | hA
              · exact hA a1
              · omega
            rw [uninsert_inst MF ⟨b, I⟩ k B hB (by simp only; omega) p hnR] at hS
            simp only at hS
            rw [hpp] at hS
            have hold := hSafe p Store FI (by
              rcases hp with hp | hp
              · exact Or.inl hp
              · rcases hA with hA | hA
                · exact absurd hp.1 hA
                · exact Or.inr ⟨hp.1, hA⟩) hS hFI
            exact fun hex => hold
              (exposed_uninsert MF ⟨b, I⟩ k B hB (by simp only; omega) FI p hA hex)
          · have hpb : p.bb = b := by
              by_contra hne
              exact hA (Or.inl hne)
            have hpi : I ≤ p.idx := by
              by_contra hne
              exact hA (Or.inr (by omega))
            have hpi2 : p.idx < I + k + 1 := by
              rcases hp with hp | hp
              · omega
              · exact hp.2
            by_cases hin : p.idx < I + k
            · -- an inserted boundary
              rw [inserted_inst MF ⟨b, I⟩ k B hB (by simp only; omega) p
                ⟨hpb, hpi, hin⟩] at hS
              have := Option.some.inj hS
              subst this
              cases hFI
            · -- the store
              have hpe : p = ⟨b, I + k⟩ := by
                obtain ⟨pb, pi⟩ := p
                simp only at hpb hpi hpi2 hin
                subst hpb
                have : pi = I + k := by omega
                rw [this]
              subst hpe
              have hst := insertBoundaries_store MF ⟨b, I⟩ k B hB (by simp only; omega)
              simp only at hst
              rw [hst, minst?_eq MF b I B hB, hMI] at hS
              have := Option.some.inj hS
              subst this
              rw [hFI] at h1 h3 hk
              by_cases hk0 : k = 0
              · subst hk0
                rw [insertBoundaries_zero MF ⟨b, I⟩ B hB]
                exact run_safe MF hOk ⟨b, I⟩ B hB hIlt FI first tr h1 h2 h3 hk
              · obtain ⟨i, hi⟩ : ∃ i, I + k = i + 1 := ⟨I + k - 1, by omega⟩
                apply boundary_before_safe (insertBoundaries MF ⟨b, I⟩ k) FI ⟨b, I + k⟩ i hi
                exact inserted_inst MF ⟨b, I⟩ k B hB (by simp only; omega) ⟨b, i⟩
                  ⟨rfl, by simp only; omega, by simp only; omega⟩
        rw [h5]
        obtain ⟨S1, e1, e2, e3, e4, e5⟩ := ih (insertBoundaries MF ⟨b, I⟩ k, St.MIR) (I + k + 1)
          hOk1 h7 hSafe1 (by simp only; rw [hlen1]; omega)
        refine ⟨S1, e1, e2, e3, e4, ?_⟩
        rw [e5]
        exact insertBoundaries_length MF ⟨b, I⟩ k
      · rw [if_neg hms]
        refine ih (MF, MIR) (I + 1) hOk hInv ?_ (by simp only; rw [mblockLen_eq MF b B hB]; omega)
        intro p Store FI hp hS hFI
        by_cases hpe : p = ⟨b, I⟩
        · subst hpe
          rw [hI] at hS
          have := Option.some.inj hS
          subst this
          exact absurd (hOk.storeMayStore ⟨b, I⟩ _ hI (by rw [hFI]; rfl)) hms
        · apply hSafe p Store FI ?_ hS hFI
          rcases hp with hp | hp
          · exact Or.inl hp
          · refine Or.inr ⟨hp.1, ?_⟩
            by_contra hge
            apply hpe
            obtain ⟨pb, pi⟩ := p
            simp only at hp hge
            obtain ⟨a1, a2⟩ := hp
            subst a1
            have : pi = I := by omega
            rw [this]

/-- The loop of `fixStackSpills` over the blocks. -/
theorem fixBlocks_spec :
    ∀ (m b : Nat) (S : MachineFunction × MachineIdempotentRegions),
      SpillOk S.1 → RegionsInv S.2 → SafeUpTo S.1 b 0 →
      ∃ S1, fixStackSpillsBlocks (List.range' b m) S = some S1 ∧ SpillOk S1.1 ∧
        RegionsInv S1.2 ∧ SafeUpTo S1.1 (b + m) 0 ∧
        S1.1.blocks.length = S.1.blocks.length := by
  intro m
  induction m with
  | zero =>
    intro b S hOk hInv hSafe
    exact ⟨S, rfl, hOk, hInv, hSafe, rfl⟩
  | succ m ih =>
    intro b S hOk hInv hSafe
    obtain ⟨S1, e1, e2, e3, e4, e5⟩ :=
      fixBlock_spec b (S.1.blockLen b + 1) S 0 hOk hInv hSafe (by omega)
    obtain ⟨S2, f1, f2, f3, f4, f5⟩ := ih (b + 1) S1 e2 e3 e4
    refine ⟨S2, ?_, f2, f3, ?_, by rw [f5, e5]⟩
    · rw [List.range'_succ, fixStackSpillsBlocks, e1]
      exact f1
    · have e : b + (m + 1) = b + 1 + m := by omega
      rw [e]
      exact f4

/-- What the fix-up of stack spills needs, from conditions on the lists of the
blocks and of their instructions. -/
theorem spillOk_of_lists (MF : MachineFunction) (hWF : Cfg.WellFormed MF.cfg)
    (hStore : ∀ B ∈ MF.blocks, ∀ MI ∈ B.insts,
      MI.storeToStackSlot.isSome = true → MI.mayStore = true)
    (hLoad : ∀ B ∈ MF.blocks, ∀ MI ∈ B.insts,
      MI.loadFromStackSlot.isSome = true → MI.isIdemBoundary = false ∧ MI.isCall = false) :
    SpillOk MF := by
  have hmem : ∀ (p : InstPos) (MI : MachineInstr), MF.inst? p = some MI →
      ∃ B ∈ MF.blocks, MI ∈ B.insts := by
    intro p MI h
    unfold MachineFunction.inst? at h
    cases hB : MF.blocks[p.bb]? with
    | none => rw [hB] at h; cases h
    | some B =>
      rw [hB] at h
      exact ⟨B, List.getElem?_mem hB, List.getElem?_mem h⟩
  refine ⟨mpreds_valid MF hWF, ?_, ?_, ?_⟩
  · intro a s A Sb hA hS hs
    have := hWF.mirror a s _ _ (mcfg_of_block MF a A hA) (mcfg_of_block MF s Sb hS)
    exact this.mp hs
  · intro p MI h hs
    obtain ⟨B, hB, hMI⟩ := hmem p MI h
    exact hStore B hB MI hMI hs
  · intro p MI h hs
    obtain ⟨B, hB, hMI⟩ := hmem p MI h
    exact hLoad B hB MI hMI hs

/-- C35: in a mode other than `OptimizeForIdeal`, for a function whose
predecessor lists name blocks of the function and mirror the successor lists,
in which a store to a stack slot may store and a load from a stack slot is
neither a boundary nor a call, with regions keyed by their entries,
`fixStackSpills` returns, and in the function that it leaves, for every store
`S` to a stack slot `FI`, no control-flow path leads from a load from `FI` to
`S` without an instruction strictly between the two that is a boundary or a
call. -/
theorem spills_fixed (IdempotenceConstructionMode : ConstructionMode)
    (hMode : IdempotenceConstructionMode ≠ .OptimizeForIdeal)
    (MF : MachineFunction) (MIR : MachineIdempotentRegions)
    (hOk : SpillOk MF) (hInv : RegionsInv MIR) :
    ∃ MF1 MIR1, MachineIdempotentRegions.fixStackSpills IdempotenceConstructionMode MF MIR =
        some (MF1, MIR1) ∧
      ∀ (S : InstPos) (Store : MachineInstr) (FI : Int), MF1.inst? S = some Store →
        Store.storeToStackSlot = some FI → ¬ ExposedLoad MF1 FI S := by
  obtain ⟨S1, e1, _, _, e4, e5⟩ := fixBlocks_spec MF.blocks.length 0 (MF, MIR) hOk hInv
    (fun p _ _ hp => by
      rcases hp with hp | hp
      · omega
      · omega)
  refine ⟨S1.1, S1.2, ?_, ?_⟩
  · unfold MachineIdempotentRegions.fixStackSpills
    rw [if_neg hMode, List.range_eq_range']
    exact e1
  · intro S Store FI hS hFI
    apply e4 S Store FI ?_ hS hFI
    left
    unfold MachineFunction.inst? at hS
    cases hB : S1.1.blocks[S.bb]? with
    | none => rw [hB] at hS; cases hS
    | some B =>
      have := mlt_of_block S1.1 S.bb B hB
      simp only at e5
      omega

/-- Witness of C35 on `exampleTwoSpillPaths`, where the loads of the blocks 1
and 2 are exposed to the store of block 3 before the fix-up. -/
theorem spills_fixed_witness :
    (∃ MF1 MIR1, MachineIdempotentRegions.fixStackSpills .OptimizeForSize exampleTwoSpillPaths
        ⟨[], []⟩ = some (MF1, MIR1) ∧
      ∀ (S : InstPos) (Store : MachineInstr) (FI : Int), MF1.inst? S = some Store →
        Store.storeToStackSlot = some FI → ¬ ExposedLoad MF1 FI S) ∧
      (MachineIdempotentRegions.fixStackSpills .OptimizeForSize exampleTwoSpillPaths
          ⟨[], []⟩).map (fun r => r.1) =
        some ⟨[⟨[plainInstr], [], [1, 2]⟩,
          ⟨[slotLoadInstr 0], [0], [3]⟩,
          ⟨[slotLoadInstr 0], [0], [3]⟩,
          ⟨[idemInstr, idemInstr, slotStoreInstr 0, plainInstr], [1, 2], []⟩]⟩ :=
  ⟨spills_fixed .OptimizeForSize (by decide) exampleTwoSpillPaths ⟨[], []⟩
    (spillOk_of_lists exampleTwoSpillPaths (cfg_wellFormed_of_check _ (by decide))
      (by decide) (by decide)) regionsInv_nil, by decide⟩

end Ratchet
